import Mathlib

/-!
ctemplates: AVL tree, red-black tree, fixed-block allocator and binary search

A shallow embedding of `templates/avl_tree.h`, `templates/rb_tree.h`,
`templates/fixed_alloc.h` and `templates/bsearch.h`, together with proofs of
the properties the specification states about them.

Conventions of the embedding

* Keys are taken from an arbitrary linear order; the three-way comparison
  macro handed to the templates is `COMPARE`.
* Addresses are natural numbers.  `NULL` is address `0`; the leaf of a
  red-black tree is at address `1`; the allocator hands out addresses from
  `2` on.
* A function returns `none` where the C code would fail an assertion or read
  through a pointer that designates no object.
* The allocator is modelled in its configuration with `free_elem`, with
  elements of size one; `allocator N` is the allocator with
  `INITIAL_CHUNK_SIZE = N`.  The configuration without `free_elem` is in the
  namespace `fixed_alloc.append_only`.
* The callback of `tree_foreach` is a function from the context and the node
  to the context.
* The AVL tree is a tree of nodes, each with the address of its slot.  The
  red-black tree, whose nodes have parent links, is a memory `mem` from
  addresses to nodes; its loops run on fuel.
* Both trees are modelled with the node count (`AVL_TREE_COUNT_REQUIRED`,
  `RB_TREE_COUNT_REQUIRED`).  The argument `user_data` of the red-black
  `remove_node` tells whether `RB_TREE_USER_DATA_TYPE` is defined.
* The validators are modelled as compiled with `AVL_TREE_IS_VALID_TREE_REQUIRED`
  and `RB_TREE_IS_VALID_TREE_REQUIRED`; `rb_tree.is_valid_tree.ret` is the
  value of the variable `ret` when the red-black `is_valid_tree` returns.
* The binary search of `bsearch.h` works on `int` indices; `bsearch.int32`
  wraps a result to 32 bits, and the comparison macro is a function from the
  index to the result of the comparison, `none` for an index outside the
  array.
-/

set_option autoImplicit false

/-! Part I: definitions -/

/-- Three-way comparison handed to the templates as `AVL_TREE_COMPARE` /
`RB_TREE_COMPARE`: negative, zero or positive as `a` is below, equal to or
above `b`. -/
def COMPARE {α : Type} [LinearOrder α] (a b : α) : Int :=
  if a < b then -1 else if b < a then 1 else 0

/-- The null pointer. -/
def NULL : Nat := 0

/-! ## `fixed_alloc.h`, allocator with the free function -/

namespace fixed_alloc

/-- Source: `FIXED_ALLOC_CHUNK_NUM_BITS`, the bit width of `unsigned long`. -/
def CHUNK_NUM_BITS : Nat := 64

/-- Source: `FIXED_ALLOC_MASK_TYPE_MAX`, that is `ULONG_MAX`. -/
def MASK_TYPE_MAX : Nat := 2 ^ CHUNK_NUM_BITS - 1

/-- Source: `internal_chunk`.  The element array `arr` is storage owned by
the client; the allocator's own state is the occupancy mask. -/
structure internal_chunk where
  free_mask : Nat
  deriving DecidableEq, Repr

/-- Source: `internal_chunk_cluster`.  `addr` is the address of the block
`FIXED_ALLOC_XMALLOC` returned for the cluster; the `prev` link is the tail
of the list the cluster is the head of. -/
structure internal_chunk_cluster where
  addr : Nat
  nfc_index : Nat
  chunks : List internal_chunk
  deriving DecidableEq, Repr

/-- Source: `allocator`.  `cluster` is the chain of clusters, most recent
first; the empty list is the null pointer. -/
structure allocator (N : Nat) where
  cluster : List internal_chunk_cluster
  deriving DecidableEq, Repr

/-- Size of `internal_chunk`: the mask and `CHUNK_NUM_BITS` elements. -/
def SIZEOF_CHUNK : Nat := 1 + CHUNK_NUM_BITS

/-- Offset of `chunks` in `internal_chunk_cluster`: after `prev` and
`nfc_index`. -/
def OFFSETOF_CHUNKS : Nat := 2

/-- Size of `internal_chunk_cluster`, which declares `chunks[1]`. -/
def SIZEOF_CLUSTER : Nat := OFFSETOF_CHUNKS + SIZEOF_CHUNK

/-- The byte count `s` both `alloc_elem` and `free_elem` compute for a
cluster of `N` chunks. -/
def cluster_bytes (N : Nat) : Nat := SIZEOF_CLUSTER + (N - 1) * SIZEOF_CHUNK

/-- First address `FIXED_ALLOC_XMALLOC` hands out; addresses `0` and `1` are
the null pointer and the tree structure. -/
def HEAP_BASE : Nat := 2

/-- Model of `FIXED_ALLOC_XMALLOC`: the blocks are handed out one after the
other, so the block requested when `n` blocks exist starts at
`HEAP_BASE + n * s`. -/
def XMALLOC (n s : Nat) : Nat := HEAP_BASE + n * s

/-- Address of `cluster->chunks[i]`. -/
def chunk_addr (cluster_addr i : Nat) : Nat :=
  cluster_addr + OFFSETOF_CHUNKS + i * SIZEOF_CHUNK

/-- Address of `chunk->arr[j]`. -/
def arr_addr (chunk_addr j : Nat) : Nat := chunk_addr + 1 + j

/-- Source: `init_allocator`. -/
def init_allocator {N : Nat} : allocator N := ⟨[]⟩

/-- The `for` loop of `internal_alloc_elem_from_chunk`, entered at index `i`
with `n` iterations left; returns the new mask and the index found. -/
def internal_alloc_elem_from_chunk.loop (free_mask : Nat) :
    Nat → Nat → Nat → Option (Nat × Nat)
  | 0, _, _ => none
  | n + 1, i, mask =>
    if free_mask &&& mask = 0 then
      some (free_mask ||| mask, i)
    else
      internal_alloc_elem_from_chunk.loop free_mask n (i + 1)
        ((mask <<< 1) % 2 ^ CHUNK_NUM_BITS)

/-- Source: `internal_alloc_elem_from_chunk`; `addr` is the address of the
chunk.  Returns the updated chunk and the address of the element. -/
def internal_alloc_elem_from_chunk (chunk : internal_chunk) (addr : Nat) :
    Option (internal_chunk × Nat) :=
  if chunk.free_mask = MASK_TYPE_MAX then none
  else
    match internal_alloc_elem_from_chunk.loop chunk.free_mask CHUNK_NUM_BITS 0 1 with
    | none => none
    | some (m, i) => some (⟨m⟩, arr_addr addr i)

/-- The inner `for` loop of `internal_find_free_elem` over the chunks of one
cluster, entered at index `i` with `n` iterations left.  Returns the updated
cluster and the element, or `NULL` when every chunk is full. -/
def internal_find_free_elem.chunks (cluster : internal_chunk_cluster) :
    Nat → Nat → Option (internal_chunk_cluster × Nat)
  | 0, _ => some (cluster, NULL)
  | n + 1, i =>
    match cluster.chunks.get? i with
    | none => none
    | some chunk =>
      if chunk.free_mask ≠ MASK_TYPE_MAX then
        match internal_alloc_elem_from_chunk chunk (chunk_addr cluster.addr i) with
        | none => none
        | some (chunk1, result) =>
          let cluster1 := { cluster with chunks := cluster.chunks.set i chunk1 }
          if chunk1.free_mask = MASK_TYPE_MAX ∧ cluster1.nfc_index = i then
            some ({ cluster1 with nfc_index := i + 1 }, result)
          else
            some (cluster1, result)
      else
        internal_find_free_elem.chunks cluster n (i + 1)

/-- Source: `internal_find_free_elem`. -/
def internal_find_free_elem (N : Nat) :
    List internal_chunk_cluster → Option (List internal_chunk_cluster × Nat)
  | [] => some ([], NULL)
  | cluster :: prev =>
    match internal_find_free_elem.chunks cluster (N - cluster.nfc_index) cluster.nfc_index with
    | none => none
    | some (cluster1, result) =>
      if result ≠ NULL then some (cluster1 :: prev, result)
      else
        match internal_find_free_elem N prev with
        | none => none
        | some (prev1, result1) => some (cluster1 :: prev1, result1)

/-- Source: `alloc_elem`. -/
def alloc_elem {N : Nat} (a : allocator N) : Option (allocator N × Nat) :=
  match internal_find_free_elem N a.cluster with
  | none => none
  | some (cluster, result) =>
    if result = NULL then
      /- need to allocate one another block (all the blocks busy) -/
      let s := cluster_bytes N
      let new_cluster : internal_chunk_cluster :=
        { addr := XMALLOC cluster.length s, nfc_index := 0,
          chunks := List.replicate N ⟨0⟩ }
      match internal_find_free_elem N (new_cluster :: cluster) with
      | none => none
      | some (cluster1, result1) =>
        if result1 ≠ NULL then some (⟨cluster1⟩, result1) else none
    else
      some (⟨cluster⟩, result)

/-- The cluster search loop of `free_elem`: the clusters before the one
whose address range contains `p`, that cluster, and the ones after it. -/
def free_elem.find (N : Nat) (p : Nat) :
    List internal_chunk_cluster →
      Option (List internal_chunk_cluster × internal_chunk_cluster ×
        List internal_chunk_cluster)
  | [] => none
  | cluster :: prev =>
    if cluster.addr < p ∧ p < cluster.addr + cluster_bytes N then
      some ([], cluster, prev)
    else
      match free_elem.find N p prev with
      | none => none
      | some (before, c, after) => some (cluster :: before, c, after)

/-- Source: `free_elem`.  Every `FIXED_ALLOC_ASSERT` of the source is a
`none` here. -/
def free_elem {N : Nat} (a : allocator N) (elem : Nat) : Option (allocator N) :=
  match free_elem.find N elem a.cluster with
  | none => none
  | some (before, cluster, after) =>
    if ¬ (arr_addr (chunk_addr cluster.addr 0) 0 ≤ elem) then none
    else
      let chunk_index := (elem - chunk_addr cluster.addr 0) / SIZEOF_CHUNK
      if ¬ (chunk_index < N) then none
      else
        match cluster.chunks.get? chunk_index with
        | none => none
        | some chunk =>
          /- wraps around below the array, as `size_t` does -/
          let arr_index :=
            (elem + 2 ^ 64 - arr_addr (chunk_addr cluster.addr chunk_index) 0) % 2 ^ 64
          if ¬ (arr_index < CHUNK_NUM_BITS) then none
          else if ¬ (arr_addr (chunk_addr cluster.addr chunk_index) arr_index = elem) then none
          else if chunk.free_mask &&& (1 <<< arr_index) = 0 then none
          else
            let chunk1 : internal_chunk :=
              ⟨chunk.free_mask &&& (MASK_TYPE_MAX ^^^ (1 <<< arr_index))⟩
            let cluster1 :=
              { cluster with chunks := cluster.chunks.set chunk_index chunk1 }
            let cluster2 :=
              if cluster1.nfc_index > chunk_index then
                { cluster1 with nfc_index := chunk_index }
              else cluster1
            some ⟨before ++ cluster2 :: after⟩

/-- Source: `internal_get_bits_count`. -/
def internal_get_bits_count.loop : Nat → Nat → Nat → Nat
  | 0, _, result => result
  | n + 1, num, result => internal_get_bits_count.loop n (num >>> 1) (result + (num &&& 1))

/-- Source: `internal_get_bits_count`. -/
def internal_get_bits_count (num : Nat) : Nat :=
  internal_get_bits_count.loop CHUNK_NUM_BITS num 0

/-- The inner loop of `get_allocator_status` over the first `N` chunks of a
cluster. -/
def get_allocator_status.chunks (cluster : internal_chunk_cluster) :
    Nat → Nat → Nat → Option Nat
  | 0, _, used => some used
  | n + 1, i, used =>
    match cluster.chunks.get? i with
    | none => none
    | some chunk =>
      get_allocator_status.chunks cluster n (i + 1)
        (used + internal_get_bits_count chunk.free_mask)

/-- The outer loop of `get_allocator_status`. -/
def get_allocator_status.clusters (N : Nat) :
    List internal_chunk_cluster → Nat → Nat → Option (Nat × Nat)
  | [], used, allocated => some (used, allocated)
  | cluster :: prev, used, allocated =>
    match get_allocator_status.chunks cluster N 0 used with
    | none => none
    | some used1 =>
      get_allocator_status.clusters N prev used1 (allocated + CHUNK_NUM_BITS * N)

/-- Source: `get_allocator_status`; returns `(used, allocated)`. -/
def get_allocator_status {N : Nat} (a : allocator N) : Option (Nat × Nat) :=
  get_allocator_status.clusters N a.cluster 0 0

end fixed_alloc

/-! ## `avl_tree.h` -/

namespace avl_tree

/-- Source: `node`, read as a pointer together with everything reachable
from it.  `sentinel` is the address of the tree's sentinel element; `mk` is a
real node living in the allocator slot `addr`. -/
inductive node (α : Type) where
  | sentinel : node α
  | mk (addr : Nat) (key : α) (balance : Int) (left right : node α) : node α
  deriving DecidableEq, Repr

/-- Source: `tree`.  `sentinel` is the key field of the sentinel element,
the only field of it the code ever writes. -/
structure tree (α : Type) (N : Nat) where
  allocator : fixed_alloc.allocator N
  root : node α
  sentinel : α
  count : Nat

/-- Source: `internal_search_context`. -/
structure internal_search_context (α : Type) (N : Nat) where
  tree : tree α N
  key : α
  height_changed : Bool
  found : Bool

variable {α : Type} {N : Nat}

/-- Source: `init_tree`; the argument is the storage to initialise. -/
def init_tree (t : tree α N) : tree α N :=
  { t with allocator := fixed_alloc.init_allocator, root := .sentinel, count := 0 }

/-- The `for (;;)` loop of `find_node`.  `skey` is the key stored in the
sentinel. -/
def find_node.loop [LinearOrder α] (skey key : α) : node α → Option Nat
  | .sentinel =>
    /- the sentinel has a key and nothing else -/
    if COMPARE skey key = 0 then some NULL else none
  | .mk a k _ l r =>
    let cmp := COMPARE k key
    if cmp < 0 then find_node.loop skey key r
    else if cmp > 0 then find_node.loop skey key l
    else some a

/-- Source: `find_node`; returns the tree, whose sentinel now holds `key`,
and the node found or `NULL`. -/
def find_node [LinearOrder α] (t : tree α N) (key : α) : Option (tree α N × Nat) :=
  let tree1 := { t with sentinel := key }
  match find_node.loop tree1.sentinel key tree1.root with
  | none => none
  | some node => some (tree1, node)

/-- Source: `internal_alloc_node`. -/
def internal_alloc_node (t : tree α N) (key : α) : Option (tree α N × node α) :=
  match fixed_alloc.alloc_elem t.allocator with
  | none => none
  | some (al, p) => some ({ t with allocator := al }, .mk p key 0 .sentinel .sentinel)

/-- Source: `internal_rotate_left`, used when the left subtree of `node` has
grown and `node` was already leaning to the left. -/
def internal_rotate_left : node α → Option (node α)
  | .mk a k _ (.mk la lk lb ll lr) r =>
    if lb = -1 then
      /- ordinary LL rotation -/
      some (.mk la lk 0 ll (.mk a k 0 lr r))
    else
      /- double LR rotation -/
      match lr with
      | .mk lra lrk lrb lrl lrr =>
        some (.mk lra lrk 0
          (.mk la lk (if lrb = 1 then -1 else 0) ll lrl)
          (.mk a k (if lrb = -1 then 1 else 0) lrr r))
      | .sentinel => none
  | _ => none

/-- Source: `internal_rotate_right`, the mirror image of
`internal_rotate_left`. -/
def internal_rotate_right : node α → Option (node α)
  | .mk a k _ l (.mk ra rk rb rl rr) =>
    if rb = 1 then
      /- ordinary RR rotation -/
      some (.mk ra rk 0 (.mk a k 0 l rl) rr)
    else
      /- double RL rotation -/
      match rl with
      | .mk rla rlk rlb rll rlr =>
        some (.mk rla rlk 0
          (.mk a k (if rlb = 1 then -1 else 0) l rll)
          (.mk ra rk (if rlb = -1 then 1 else 0) rlr rr))
      | .sentinel => none
  | _ => none

/-- Source: `internal_add_node_indirect`.  The argument is `*pp_node`; the
result is the context, the new `*pp_node` and the address of the node that
holds the key. -/
def internal_add_node_indirect [LinearOrder α] (i : internal_search_context α N) :
    node α → Option (internal_search_context α N × node α × Nat)
  | .sentinel =>
    match internal_alloc_node i.tree i.key with
    | none => none
    | some (tree1, result) =>
      match result with
      | .sentinel => none
      | .mk p _ _ _ _ =>
        some ({ i with tree := { tree1 with count := tree1.count + 1 },
                       height_changed := true, found := false }, result, p)
  | .mk a k b l r =>
    let cmp := COMPARE k i.key
    if cmp > 0 then
      match internal_add_node_indirect i l with
      | none => none
      | some (i1, l1, result) =>
        /- left subtree has been grown? -/
        if i1.height_changed then
          if b = 1 then
            some ({ i1 with height_changed := false }, .mk a k 0 l1 r, result)
          else if b = 0 then
            some (i1, .mk a k (-1) l1 r, result)
          else
            match internal_rotate_left (.mk a k b l1 r) with
            | none => none
            | some n => some ({ i1 with height_changed := false }, n, result)
        else some (i1, .mk a k b l1 r, result)
    else if cmp < 0 then
      match internal_add_node_indirect i r with
      | none => none
      | some (i1, r1, result) =>
        /- right subtree has been grown? -/
        if i1.height_changed then
          if b = -1 then
            some ({ i1 with height_changed := false }, .mk a k 0 l r1, result)
          else if b = 0 then
            some (i1, .mk a k 1 l r1, result)
          else
            match internal_rotate_right (.mk a k b l r1) with
            | none => none
            | some n => some ({ i1 with height_changed := false }, n, result)
        else some (i1, .mk a k b l r1, result)
    else
      /- key matches the existing node, no insertion needed -/
      some ({ i with found := true }, .mk a k b l r, a)

/-- Source: `add_node_ext`; returns the tree, the node and `*found`.  The
source leaves `i.found` unset and writes it on every path; here it starts as
`false`. -/
def add_node_ext [LinearOrder α] (t : tree α N) (key : α) :
    Option (tree α N × Nat × Bool) :=
  let i : internal_search_context α N :=
    { tree := t, key := key, height_changed := false, found := false }
  match internal_add_node_indirect i t.root with
  | none => none
  | some (i1, root1, result) => some ({ i1.tree with root := root1 }, result, i1.found)

/-- Source: `add_node`. -/
def add_node [LinearOrder α] (t : tree α N) (key : α) : Option (tree α N × Nat) :=
  let i : internal_search_context α N :=
    { tree := t, key := key, height_changed := false, found := false }
  match internal_add_node_indirect i t.root with
  | none => none
  | some (i1, root1, result) => some ({ i1.tree with root := root1 }, result)

/-- Source: `internal_balance_left`, called when the left subtree of `*pp_node`
has become shorter. -/
def internal_balance_left (i : internal_search_context α N) :
    node α → Option (internal_search_context α N × node α)
  | .sentinel => none
  | .mk a k b l r =>
    if b = -1 then some (i, .mk a k 0 l r)
    else if b = 0 then some ({ i with height_changed := false }, .mk a k 1 l r)
    else
      /- balancing is required -/
      match r with
      | .sentinel => none
      | .mk ra rk rb rl rr =>
        if rb ≥ 0 then
          /- ordinary RR rotation -/
          if rb = 0 then
            some ({ i with height_changed := false }, .mk ra rk (-1) (.mk a k 1 l rl) rr)
          else
            some (i, .mk ra rk 0 (.mk a k 0 l rl) rr)
        else
          /- double RL rotation -/
          match rl with
          | .sentinel => none
          | .mk rla rlk rlb rll rlr =>
            some (i, .mk rla rlk 0
              (.mk a k (if rlb = 1 then -1 else 0) l rll)
              (.mk ra rk (if rlb = -1 then 1 else 0) rlr rr))

/-- Source: `internal_balance_right`, called when the right subtree of
`*pp_node` has become shorter. -/
def internal_balance_right (i : internal_search_context α N) :
    node α → Option (internal_search_context α N × node α)
  | .sentinel => none
  | .mk a k b l r =>
    if b = 1 then some (i, .mk a k 0 l r)
    else if b = 0 then some ({ i with height_changed := false }, .mk a k (-1) l r)
    else
      /- balancing is required -/
      match l with
      | .sentinel => none
      | .mk la lk lb ll lr =>
        if lb ≤ 0 then
          /- ordinary LL rotation -/
          if lb = 0 then
            some ({ i with height_changed := false }, .mk la lk 1 ll (.mk a k (-1) lr r))
          else
            some (i, .mk la lk 0 ll (.mk a k 0 lr r))
        else
          /- double LR rotation -/
          match lr with
          | .sentinel => none
          | .mk lra lrk lrb lrl lrr =>
            some (i, .mk lra lrk 0
              (.mk la lk (if lrb = 1 then -1 else 0) ll lrl)
              (.mk a k (if lrb = -1 then 1 else 0) lrr r))

/-- Source: `internal_replace_left_subtree`.  The argument is `*pp_node`; the
result is the context, the new `*pp_node` and the node taken out (the
rightmost one), whose link and balance fields the caller overwrites. -/
def internal_replace_left_subtree (i : internal_search_context α N) :
    node α → Option (internal_search_context α N × node α × node α)
  | .sentinel => none
  | .mk a k b l .sentinel =>
    some ({ i with height_changed := true }, l, .mk a k b l .sentinel)
  | .mk a k b l (.mk ra rk rb rl rr) =>
    match internal_replace_left_subtree i (.mk ra rk rb rl rr) with
    | none => none
    | some (i1, r1, result) =>
      if i1.height_changed then
        match internal_balance_right i1 (.mk a k b l r1) with
        | none => none
        | some (i2, n) => some (i2, n, result)
      else some (i1, .mk a k b l r1, result)

/-- The three-way case distinction of `internal_remove_node_indirect` on a
node whose key matches: the context and the new `*pp_node`. -/
def internal_remove_node_indirect.unlink (i : internal_search_context α N)
    (b : Int) : node α → node α → Option (internal_search_context α N × node α)
  | l, .sentinel => some ({ i with height_changed := true }, l)
  | .sentinel, r => some ({ i with height_changed := true }, r)
  | l, r =>
    match internal_replace_left_subtree i l with
    | none => none
    | some (i1, l1, ls) =>
      match ls with
      | .sentinel => none
      | .mk lsa lsk _ _ _ =>
        let n : node α := .mk lsa lsk b l1 r
        if i1.height_changed then internal_balance_left i1 n else some (i1, n)

/-- Source: `internal_remove_node_indirect`.  The argument is `*pp_node`; the
result is the context and the new `*pp_node`. -/
def internal_remove_node_indirect [LinearOrder α] (i : internal_search_context α N) :
    node α → Option (internal_search_context α N × node α)
  | .sentinel => some (i, .sentinel)
  | .mk a k b l r =>
    let cmp := COMPARE k i.key
    if cmp > 0 then
      match internal_remove_node_indirect i l with
      | none => none
      | some (i1, l1) =>
        /- left subtree has been decreased? -/
        if i1.height_changed then internal_balance_left i1 (.mk a k b l1 r)
        else some (i1, .mk a k b l1 r)
    else if cmp < 0 then
      match internal_remove_node_indirect i r with
      | none => none
      | some (i1, r1) =>
        /- right subtree has been decreased? -/
        if i1.height_changed then internal_balance_right i1 (.mk a k b l r1)
        else some (i1, .mk a k b l r1)
    else
      /- key found - remove it -/
      match internal_remove_node_indirect.unlink { i with found := true } b l r with
      | none => none
      | some (i1, n) =>
        /- deallocate node -/
        match fixed_alloc.free_elem i1.tree.allocator a with
        | none => none
        | some al =>
          some ({ i1 with tree := { i1.tree with allocator := al,
                                                 count := i1.tree.count - 1 } }, n)

/-- Source: `remove_node`; returns the tree and whether the key was found. -/
def remove_node [LinearOrder α] (t : tree α N) (key : α) : Option (tree α N × Bool) :=
  let i : internal_search_context α N :=
    { tree := t, key := key, height_changed := false, found := false }
  match internal_remove_node_indirect i t.root with
  | none => none
  | some (i1, root1) => some ({ i1.tree with root := root1 }, i1.found)

/-- Source: `internal_get_tree_height`. -/
def internal_get_tree_height : node α → Int
  | .sentinel => 0
  | .mk _ _ _ l r =>
    let lh := internal_get_tree_height l
    let rh := internal_get_tree_height r
    1 + (if lh > rh then lh else rh)

end avl_tree

/-! ## Invariants of the allocator -/

namespace fixed_alloc

/-- The occupancy bit of `chunks[i].arr[j]` of a cluster is set. -/
def slot_used (c : internal_chunk_cluster) (i j : Nat) : Prop :=
  ∃ ch, c.chunks.get? i = some ch ∧ ch.free_mask.testBit j = true

/-- The element at address `p` is live: it is the element `arr[j]` of a chunk
`i` of some cluster of the allocator, and its occupancy bit is set. -/
def is_live {N : Nat} (a : allocator N) (p : Nat) : Prop :=
  ∃ c ∈ a.cluster, ∃ i, i < N ∧ ∃ j, j < CHUNK_NUM_BITS ∧
    p = arr_addr (chunk_addr c.addr i) j ∧ slot_used c i j

/-- The element at `p` is a used slot of the cluster `c`. -/
def live_c (N : Nat) (c : internal_chunk_cluster) (p : Nat) : Prop :=
  ∃ i, i < N ∧ ∃ j, j < CHUNK_NUM_BITS ∧ p = arr_addr (chunk_addr c.addr i) j ∧ slot_used c i j

/-- The element at `p` is a used slot of one of the clusters. -/
def live_in (N : Nat) (cl : List internal_chunk_cluster) (p : Nat) : Prop :=
  ∃ c ∈ cl, live_c N c p

/-- A cluster has `N` chunks, each with a mask that fits `unsigned long`. -/
def cluster_ok (N : Nat) (c : internal_chunk_cluster) : Prop :=
  c.chunks.length = N ∧ ∀ ch ∈ c.chunks, ch.free_mask < 2 ^ CHUNK_NUM_BITS

/-- Every cluster of the chain sits at the address `XMALLOC` gave it. -/
def chain_ok (N : Nat) : List internal_chunk_cluster → Prop
  | [] => True
  | c :: prev => c.addr = XMALLOC prev.length (cluster_bytes N) ∧ cluster_ok N c ∧ chain_ok N prev

/-- The states of the allocator the code can reach: a positive chunk count
per cluster and a chain of well-formed clusters. -/
def allocator_ok {N : Nat} (a : allocator N) : Prop :=
  0 < N ∧ chain_ok N a.cluster

end fixed_alloc

/-! ## Invariants of the AVL tree -/

namespace avl_tree

variable {α : Type} {N : Nat}

/-- The keys of a tree, in order. -/
def keys : node α → List α
  | .sentinel => []
  | .mk _ k _ l r => keys l ++ k :: keys r

/-- The addresses of the nodes of a tree, in order. -/
def addrs : node α → List Nat
  | .sentinel => []
  | .mk a _ _ l r => addrs l ++ a :: addrs r

/-- BST order: at every node, every key of the left subtree is below the
node's key and every key of the right subtree is above it. -/
def bst [LinearOrder α] : node α → Prop
  | .sentinel => True
  | .mk _ k _ l r => (∀ x ∈ keys l, x < k) ∧ (∀ x ∈ keys r, k < x) ∧ bst l ∧ bst r

/-- The AVL invariant: at every node the stored balance is the height of the
right subtree minus the height of the left subtree, and is -1, 0 or 1. -/
def balanced : node α → Prop
  | .sentinel => True
  | .mk _ _ b l r =>
    b = internal_get_tree_height r - internal_get_tree_height l ∧
    (b = -1 ∨ b = 0 ∨ b = 1) ∧ balanced l ∧ balanced r

/-- The nodes of the tree are distinct live elements of the tree's allocator,
and the allocator is in a reachable state. -/
def storage_ok (t : tree α N) : Prop :=
  fixed_alloc.allocator_ok t.allocator ∧ (addrs t.root).Nodup ∧
  ∀ p ∈ addrs t.root, fixed_alloc.is_live t.allocator p

end avl_tree

namespace avl_tree

variable {α : Type} {N : Nat}

/-- The stored balance of a real node is not zero. -/
def leaning : node α → Prop
  | .sentinel => False
  | .mk _ _ b _ _ => b ≠ 0

/-- The nodes of a tree as (address, key) pairs, in order. -/
def nodes : node α → List (Nat × α)
  | .sentinel => []
  | .mk a k _ l r => nodes l ++ (a, k) :: nodes r

end avl_tree

/-! ## `rb_tree.h` -/

namespace rb_tree

/-- Source: `RB_TREE_RED`. -/
def RB_TREE_RED : Nat := 0

/-- Source: `RB_TREE_BLACK`. -/
def RB_TREE_BLACK : Nat := 1

/-- Source: `node`.  `value` is the field `RB_TREE_USER_DATA_TYPE` adds; the
links are addresses. -/
structure node (α β : Type) where
  key : α
  value : β
  color : Nat
  left : Nat
  right : Nat
  parent : Nat

/-- Address of the field `leaf` of the tree structure, the `leaf` of the
source's functions. -/
def leaf : Nat := 1

/-- Source: `tree`.  `mem` is the memory the links point into: the nodes by
address, `mem leaf` being the field `tree->leaf`. -/
structure tree (α β : Type) (N : Nat) where
  root : Nat
  mem : Nat → node α β
  allocator : fixed_alloc.allocator N
  count : Nat

/-- A pointer to a link, the `node **` of the source: the root link of the
tree, or the left or right link of the node at an address. -/
inductive holder where
  | root : holder
  | left (p : Nat) : holder
  | right (p : Nat) : holder
  deriving DecidableEq, Repr

variable {α β : Type} {N : Nat}

/-- The assignment `p->key = k`. -/
def set_key (t : tree α β N) (p : Nat) (k : α) : tree α β N :=
  { t with mem := Function.update t.mem p { t.mem p with key := k } }

/-- The assignment `p->color = c`. -/
def set_color (t : tree α β N) (p : Nat) (c : Nat) : tree α β N :=
  { t with mem := Function.update t.mem p { t.mem p with color := c } }

/-- The assignment `p->left = v`. -/
def set_left (t : tree α β N) (p : Nat) (v : Nat) : tree α β N :=
  { t with mem := Function.update t.mem p { t.mem p with left := v } }

/-- The assignment `p->right = v`. -/
def set_right (t : tree α β N) (p : Nat) (v : Nat) : tree α β N :=
  { t with mem := Function.update t.mem p { t.mem p with right := v } }

/-- The assignment `p->parent = v`. -/
def set_parent (t : tree α β N) (p : Nat) (v : Nat) : tree α β N :=
  { t with mem := Function.update t.mem p { t.mem p with parent := v } }

/-- The read `*h`. -/
def load (t : tree α β N) : holder → Nat
  | .root => t.root
  | .left p => (t.mem p).left
  | .right p => (t.mem p).right

/-- The assignment `*h = v`. -/
def store (t : tree α β N) : holder → Nat → tree α β N
  | .root, v => { t with root := v }
  | .left p, v => set_left t p v
  | .right p, v => set_right t p v

/-- Source: `init_tree`; the argument is the storage to initialise. -/
def init_tree (t : tree α β N) : tree α β N :=
  let t1 := set_color t leaf RB_TREE_BLACK
  let t2 := set_right t1 leaf leaf
  let t3 := set_left t2 leaf leaf
  let t4 := set_parent t3 leaf NULL
  { t4 with root := leaf, allocator := fixed_alloc.init_allocator, count := 0 }

/-- The `for (;;)` loop of `find_node`. -/
def find_node.loop [LinearOrder α] (t : tree α β N) (key : α) : Nat → Nat → Option Nat
  | 0, _ => none
  | fuel + 1, node =>
    let cmp := COMPARE (t.mem node).key key
    if cmp > 0 then find_node.loop t key fuel (t.mem node).left
    else if cmp < 0 then find_node.loop t key fuel (t.mem node).right
    else some node

/-- Source: `find_node`; returns the tree, whose leaf now holds `key`, and
the node found or `NULL`. -/
def find_node [LinearOrder α] (fuel : Nat) (t : tree α β N) (key : α) :
    Option (tree α β N × Nat) :=
  let t1 := set_key t leaf key
  match find_node.loop t1 key fuel t1.root with
  | none => none
  | some node => some (t1, if node = leaf then NULL else node)

/-- Source: `internal_alloc_node`. -/
def internal_alloc_node (t : tree α β N) (parent : Nat) (key : α) :
    Option (tree α β N × Nat) :=
  match fixed_alloc.alloc_elem t.allocator with
  | none => none
  | some (al, node) =>
    let t1 := { t with allocator := al }
    let t2 := set_color t1 node RB_TREE_RED
    let t3 := set_key t2 node key
    let t4 := set_right t3 node leaf
    let t5 := set_left t4 node leaf
    let t6 := set_parent t5 node parent
    some ({ t6 with count := t6.count + 1 }, node)

/-- Source: `internal_get_holder`. -/
def internal_get_holder (t : tree α β N) (node : Nat) : holder :=
  if (t.mem node).parent ≠ NULL then
    if (t.mem (t.mem node).parent).left = node then .left (t.mem node).parent
    else .right (t.mem node).parent
  else .root

/-- Source: `internal_rotate_left_pp`. -/
def internal_rotate_left_pp (t : tree α β N) (pp_dest : holder) : tree α β N :=
  let dest := load t pp_dest
  let child := (t.mem dest).right
  let t1 := store t pp_dest child
  let t2 := set_parent t1 child (t1.mem dest).parent
  let t3 := set_parent t2 dest child
  let t4 := set_right t3 dest (t3.mem child).left
  let t5 := set_parent t4 (t4.mem dest).right dest
  set_left t5 child dest

/-- Source: `internal_rotate_left`. -/
def internal_rotate_left (t : tree α β N) (node : Nat) : tree α β N :=
  internal_rotate_left_pp t (internal_get_holder t node)

/-- Source: `internal_rotate_right_pp`. -/
def internal_rotate_right_pp (t : tree α β N) (pp_dest : holder) : tree α β N :=
  let dest := load t pp_dest
  let child := (t.mem dest).left
  let t1 := store t pp_dest child
  let t2 := set_parent t1 child (t1.mem dest).parent
  let t3 := set_parent t2 dest child
  let t4 := set_left t3 dest (t3.mem child).right
  let t5 := set_parent t4 (t4.mem dest).left dest
  set_right t5 child dest

/-- Source: `internal_rotate_right`. -/
def internal_rotate_right (t : tree α β N) (node : Nat) : tree α β N :=
  internal_rotate_right_pp t (internal_get_holder t node)

/-- The part of the loop body of `internal_adjust_tree` that follows the
red-uncle case: the optional first rotation, the recolouring and the final
rotation. -/
def internal_adjust_tree.rotate (t : tree α β N) (node grandparent : Nat) :
    Option (tree α β N) :=
  let r : tree α β N × Nat :=
    if node = (t.mem (t.mem node).parent).right ∧
        (t.mem node).parent = (t.mem grandparent).left then
      let t1 := internal_rotate_left_pp t (.left grandparent)
      /- or former parent -/
      (t1, (t1.mem node).left)
    else if node = (t.mem (t.mem node).parent).left ∧
        (t.mem node).parent = (t.mem grandparent).right then
      let t1 := internal_rotate_right_pp t (.right grandparent)
      /- or former parent -/
      (t1, (t1.mem node).right)
    else (t, node)
  let t1 := r.1
  let node := r.2
  let t2 := set_color t1 (t1.mem node).parent RB_TREE_BLACK
  let t3 := set_color t2 grandparent RB_TREE_RED
  if node = (t3.mem (t3.mem node).parent).left ∧
      (t3.mem node).parent = (t3.mem grandparent).left then
    some (internal_rotate_right t3 grandparent)
  else if node = (t3.mem (t3.mem node).parent).right ∧
      (t3.mem node).parent = (t3.mem grandparent).right then
    some (internal_rotate_left t3 grandparent)
  else none

/-- The `for (;;)` loop of `internal_adjust_tree`. -/
def internal_adjust_tree.loop : Nat → tree α β N → Nat → Option (tree α β N)
  | 0, _, _ => none
  | fuel + 1, t, node =>
    /- root is always black, so set black color manually -/
    if (t.mem node).parent = NULL then some (set_color t node RB_TREE_BLACK)
    /- if parent is black then there is no need to adjust any parameters -/
    else if (t.mem (t.mem node).parent).color = RB_TREE_BLACK then some t
    else
      let grandparent := (t.mem (t.mem node).parent).parent
      if grandparent = NULL then none
      else
        let uncle :=
          if (t.mem node).parent = (t.mem grandparent).left then (t.mem grandparent).right
          else (t.mem grandparent).left
        if uncle ≠ NULL ∧ (t.mem uncle).color = RB_TREE_RED then
          let t1 := set_color t uncle RB_TREE_BLACK
          let t2 := set_color t1 (t1.mem node).parent RB_TREE_BLACK
          let t3 := set_color t2 grandparent RB_TREE_RED
          internal_adjust_tree.loop fuel t3 grandparent
        else internal_adjust_tree.rotate t node grandparent

/-- Source: `internal_adjust_tree`. -/
def internal_adjust_tree (fuel : Nat) (t : tree α β N) (node : Nat) : Option (tree α β N) :=
  if (t.mem node).color ≠ RB_TREE_RED then none
  else internal_adjust_tree.loop fuel t node

/-- The `for (;;)` loop of `add_node_ext`; `afuel` is the fuel of the
adjustment loop. -/
def add_node_ext.loop [LinearOrder α] (afuel : Nat) (key : α) :
    Nat → tree α β N → holder → Nat → Option (tree α β N × Nat × Bool)
  | 0, _, _, _ => none
  | fuel + 1, t, dest_node, prev_node =>
    let node := load t dest_node
    if node = leaf then
      /- new node -/
      match internal_alloc_node t prev_node key with
      | none => none
      | some (t1, node1) =>
        let t2 := store t1 dest_node node1
        match internal_adjust_tree afuel t2 node1 with
        | none => none
        | some t3 => some (t3, node1, false)
    else
      let cmp := COMPARE (t.mem node).key key
      if cmp > 0 then add_node_ext.loop afuel key fuel t (.left node) node
      else if cmp < 0 then add_node_ext.loop afuel key fuel t (.right node) node
      else some (t, node, true)

/-- Source: `add_node_ext`; returns the tree, the node and `*found`. -/
def add_node_ext [LinearOrder α] (fuel : Nat) (t : tree α β N) (key : α) :
    Option (tree α β N × Nat × Bool) :=
  add_node_ext.loop fuel key fuel t .root NULL

/-- Source: `add_node`. -/
def add_node [LinearOrder α] (fuel : Nat) (t : tree α β N) (key : α) :
    Option (tree α β N × Nat) :=
  match add_node_ext fuel t key with
  | none => none
  | some (t1, node, _) => some (t1, node)

/-- Source: `internal_replace_nodes`. -/
def internal_replace_nodes (t : tree α β N) (src dst : Nat) : tree α β N :=
  let src_holder := internal_get_holder t src
  let t1 := store t src_holder dst
  set_parent t1 dst (t1.mem src).parent

/-- The first step of the fix-up loop body of `internal_fixup_tree` (case 2):
when the sibling is red, recolour and rotate; returns the tree and the
sibling to go on with. -/
def internal_fixup_tree.red_sibling (t : tree α β N) (node parent sibling : Nat) :
    tree α β N × Nat :=
  if (t.mem sibling).color = RB_TREE_RED then
    /- obviously parent was black -/
    let t1 := set_color t parent RB_TREE_RED
    let t2 := set_color t1 sibling RB_TREE_BLACK
    if node = (t2.mem parent).left then
      let t3 := internal_rotate_left t2 parent
      (t3, (t3.mem parent).right)
    else
      let t3 := internal_rotate_right t2 parent
      (t3, (t3.mem parent).left)
  else (t, sibling)

/-- Case 5 of the fix-up loop body of `internal_fixup_tree`: the sibling is
black, its child next to `node` is red and its other child is black; returns
the tree and the sibling to go on with. -/
def internal_fixup_tree.near_nephew (t : tree α β N) (node parent sibling : Nat) :
    tree α β N × Nat :=
  if node = (t.mem parent).left ∧
      (t.mem (t.mem sibling).left).color = RB_TREE_RED ∧
      (t.mem (t.mem sibling).right).color = RB_TREE_BLACK then
    let t1 := set_color t sibling RB_TREE_RED
    let t2 := set_color t1 (t1.mem sibling).left RB_TREE_BLACK
    let t3 := internal_rotate_right t2 sibling
    /- sibling will change after rotation -/
    (t3, (t3.mem sibling).parent)
  else if node = (t.mem parent).right ∧
      (t.mem (t.mem sibling).right).color = RB_TREE_RED ∧
      (t.mem (t.mem sibling).left).color = RB_TREE_BLACK then
    let t1 := set_color t sibling RB_TREE_RED
    let t2 := set_color t1 (t1.mem sibling).right RB_TREE_BLACK
    let t3 := internal_rotate_left t2 sibling
    /- sibling will change after rotation -/
    (t3, (t3.mem sibling).parent)
  else (t, sibling)

/-- Case 6 of the fix-up loop body of `internal_fixup_tree`: the sibling is
black and its child away from `node` is red. -/
def internal_fixup_tree.far_nephew (t : tree α β N) (node parent sibling : Nat) :
    Option (tree α β N) :=
  if ¬ ((t.mem sibling).color = RB_TREE_BLACK ∧ (t.mem node).color = RB_TREE_BLACK) then none
  else
    let t2 := set_color t sibling (t.mem parent).color
    let t3 := set_color t2 parent RB_TREE_BLACK
    if node = (t3.mem parent).left then
      if (t3.mem (t3.mem sibling).right).color ≠ RB_TREE_RED then none
      else
        let t4 := set_color t3 (t3.mem sibling).right RB_TREE_BLACK
        some (internal_rotate_left t4 parent)
    else
      if ¬ ((t3.mem (t3.mem sibling).left).color = RB_TREE_RED ∧
          node = (t3.mem parent).right) then none
      else
        let t4 := set_color t3 (t3.mem sibling).left RB_TREE_BLACK
        some (internal_rotate_right t4 parent)

/-- The end of the fix-up loop body of `internal_fixup_tree` (cases 5 and 6):
the sibling is black and one of its children is red. -/
def internal_fixup_tree.red_nephew (t : tree α β N) (node parent sibling : Nat) :
    Option (tree α β N) :=
  let r := internal_fixup_tree.near_nephew t node parent sibling
  internal_fixup_tree.far_nephew r.1 node parent r.2

/-- The fix-up `for (;;)` loop of `internal_fixup_tree`. -/
def internal_fixup_tree.loop : Nat → tree α β N → Nat → Option (tree α β N)
  | 0, _, _ => none
  | fuel + 1, t, node =>
    let parent := (t.mem node).parent
    /- given node shall be of the black color -/
    if (t.mem node).color ≠ RB_TREE_BLACK then none
    /- case 1: discontinue fixup if node is root -/
    else if parent = NULL then some t
    else
      let sibling0 := if (t.mem parent).left = node then (t.mem parent).right
        else (t.mem parent).left
      let r := internal_fixup_tree.red_sibling t node parent sibling0
      let t1 := r.1
      let sibling := r.2
      /- it is known, that sibling is black at this point -/
      if (t1.mem (t1.mem sibling).left).color = RB_TREE_BLACK ∧
          (t1.mem (t1.mem sibling).right).color = RB_TREE_BLACK then
        if (t1.mem parent).color = RB_TREE_BLACK then
          /- case 3 -/
          internal_fixup_tree.loop fuel (set_color t1 sibling RB_TREE_RED) parent
        else
          /- case 4 -/
          let t2 := set_color t1 sibling RB_TREE_RED
          some (set_color t2 parent RB_TREE_BLACK)
      else internal_fixup_tree.red_nephew t1 node parent sibling

/-- Source: `internal_fixup_tree`. -/
def internal_fixup_tree (fuel : Nat) (t : tree α β N) (node : Nat) : Option (tree α β N) :=
  if ¬ ((t.mem node).left = leaf ∨ (t.mem node).right = leaf) then none
  else
    /- we have node with at least one child -/
    let child := if (t.mem node).left = leaf then (t.mem node).right else (t.mem node).left
    let t1 := internal_replace_nodes t node child
    /- deleting red node does not violate any rule -/
    if (t1.mem node).color = RB_TREE_RED then some t1
    /- if single child is red it can be just recolored to black -/
    else if (t1.mem child).color = RB_TREE_RED then some (set_color t1 child RB_TREE_BLACK)
    else internal_fixup_tree.loop fuel t1 child

/-- The `while` loop of `remove_node` that walks to the most left element of
the right subtree. -/
def remove_node.most_left (t : tree α β N) : Nat → Nat → Option Nat
  | 0, _ => none
  | fuel + 1, rc =>
    if (t.mem rc).left ≠ leaf then remove_node.most_left t fuel (t.mem rc).left
    else some rc

/-- The branch of `remove_node` compiled when `RB_TREE_USER_DATA_TYPE` is
defined: the node `rc` takes the place of `node` in the tree and `node` takes
the place of `rc`. -/
def remove_node.replace (t : tree α β N) (node rc : Nat) : tree α β N :=
  let pp_node_holder := internal_get_holder t node
  let rc_color := (t.mem rc).color
  if (t.mem node).right = rc then
    let t1 := store t pp_node_holder rc
    let t2 := set_parent t1 rc (t1.mem node).parent
    let t3 := set_left t2 rc (t2.mem node).left
    let t4 := set_color t3 rc (t3.mem node).color
    let t5 := set_parent t4 (t4.mem rc).left rc
    let t6 := set_parent t5 node rc
    let t7 := set_right t6 node (t6.mem rc).right
    let t8 := set_parent t7 (t7.mem node).right node
    let t9 := set_left t8 node leaf
    let t10 := set_color t9 node rc_color
    set_right t10 rc node
  else
    let pp_rc_holder := internal_get_holder t rc
    let rc_right := (t.mem rc).right
    let rc_parent := (t.mem rc).parent
    let t1 := store t pp_node_holder rc
    let t2 := set_parent t1 rc (t1.mem node).parent
    let t3 := set_left t2 rc (t2.mem node).left
    let t4 := set_right t3 rc (t3.mem node).right
    let t5 := set_color t4 rc (t4.mem node).color
    let t6 := set_parent t5 (t5.mem rc).right rc
    let t7 := set_parent t6 (t6.mem rc).left rc
    let t8 := store t7 pp_rc_holder node
    let t9 := set_parent t8 node rc_parent
    let t10 := set_left t9 node leaf
    let t11 := set_right t10 node rc_right
    let t12 := set_parent t11 (t11.mem node).right node
    set_color t12 node rc_color

/-- The branch of `remove_node` compiled when `RB_TREE_USER_DATA_TYPE` is not
defined: just move keys. -/
def remove_node.swap_keys (t : tree α β N) (node rc : Nat) : tree α β N :=
  let key := (t.mem node).key
  let t1 := set_key t node (t.mem rc).key
  set_key t1 rc key

/-- Source: `remove_node`; `user_data` tells whether
`RB_TREE_USER_DATA_TYPE` is defined.  Returns the tree and whether the key
was found. -/
def remove_node [LinearOrder α] (user_data : Bool) (fuel : Nat) (t : tree α β N) (key : α) :
    Option (tree α β N × Bool) :=
  match find_node fuel t key with
  | none => none
  | some (t0, node) =>
    if node ≠ NULL then
      let r : Option (tree α β N × Nat) :=
        /- special case for nodes w/two childs -/
        if (t0.mem node).left ≠ leaf ∧ (t0.mem node).right ≠ leaf then
          match remove_node.most_left t0 fuel (t0.mem node).right with
          | none => none
          | some rc =>
            if user_data then some (remove_node.replace t0 node rc, node)
            else some (remove_node.swap_keys t0 node rc, rc)
        else some (t0, node)
      match r with
      | none => none
      | some (t1, node1) =>
        /- fix up tree -/
        match internal_fixup_tree fuel t1 node1 with
        | none => none
        | some t2 =>
          /- free element itself -/
          match fixed_alloc.free_elem t2.allocator node1 with
          | none => none
          | some al => some ({ t2 with allocator := al, count := t2.count - 1 }, true)
    else some (t0, false)

end rb_tree

/-! ## Invariants of the red-black tree -/

namespace rb_tree

/-- The tree that a region of memory is laid out as: every node with its
address, colour, key and value. -/
inductive rbt (α β : Type) where
  | nil : rbt α β
  | node (a : Nat) (c : Nat) (k : α) (v : β) (l r : rbt α β) : rbt α β

variable {α β : Type} {N : Nat}

/-- The pointer to a tree: the address of its root node, `leaf` when empty. -/
def rbt.ptr : rbt α β → Nat
  | .nil => leaf
  | .node a _ _ _ _ _ => a

/-- The colour of the root; the leaf counts as black. -/
def rbt.color : rbt α β → Nat
  | .nil => RB_TREE_BLACK
  | .node _ c _ _ _ _ => c

/-- The addresses of the nodes, in order. -/
def rbt.addrs : rbt α β → List Nat
  | .nil => []
  | .node a _ _ _ l r => l.addrs ++ a :: r.addrs

/-- The keys of the nodes, in order. -/
def rbt.keys : rbt α β → List α
  | .nil => []
  | .node _ _ k _ l r => l.keys ++ k :: r.keys

/-- The nodes as (address, key, value) triples, in order. -/
def rbt.entries : rbt α β → List (Nat × α × β)
  | .nil => []
  | .node a _ k v l r => l.entries ++ (a, k, v) :: r.entries

/-- The memory `m` holds the tree `T` at pointer `p`, and the parent link of
its root is `par`: every node sits at its address with its key, value and
colour, its links point to its subtrees, and the parent link of every node
below the root is the address of its actual parent. -/
def Rep (m : Nat → node α β) : Nat → Nat → rbt α β → Prop
  | p, _, .nil => p = leaf
  | p, par, .node a c k v l r =>
    p = a ∧ a ≠ NULL ∧ a ≠ leaf ∧ (m a).key = k ∧ (m a).value = v ∧ (m a).color = c ∧
    (m a).parent = par ∧ Rep m (m a).left a l ∧ Rep m (m a).right a r

/-- The tree structure holds the tree `T`: the memory reachable from the root
link is laid out as `T`, the parent link of the root is null, and no node
occurs twice. -/
def layout (t : tree α β N) (T : rbt α β) : Prop :=
  Rep t.mem t.root NULL T ∧ T.addrs.Nodup

/-- BST order: at every node, every key of the left subtree is below the
node's key and every key of the right subtree is above it. -/
def bst [LinearOrder α] : rbt α β → Prop
  | .nil => True
  | .node _ _ k _ l r => (∀ x ∈ l.keys, x < k) ∧ (∀ x ∈ r.keys, k < x) ∧ bst l ∧ bst r

/-- Every node is red or black. -/
def colored : rbt α β → Prop
  | .nil => True
  | .node _ c _ _ l r => (c = RB_TREE_RED ∨ c = RB_TREE_BLACK) ∧ colored l ∧ colored r

/-- No red node has a red child. -/
def no_red_red : rbt α β → Prop
  | .nil => True
  | .node _ c _ _ l r =>
    (c = RB_TREE_RED → l.color = RB_TREE_BLACK ∧ r.color = RB_TREE_BLACK) ∧
    no_red_red l ∧ no_red_red r

/-- The number of black nodes on each path from the root to a leaf. -/
def black_counts : rbt α β → List Nat
  | .nil => [0]
  | .node _ c _ _ l r =>
    (black_counts l ++ black_counts r).map (fun n => if c = RB_TREE_BLACK then n + 1 else n)

/-- The leaf element is black and its links point to itself. -/
def leaf_ok (t : tree α β N) : Prop :=
  (t.mem leaf).color = RB_TREE_BLACK ∧ (t.mem leaf).left = leaf ∧ (t.mem leaf).right = leaf

/-- The nodes of the tree are live elements of the tree's allocator, the
allocator is in a reachable state, and `count` is the number of nodes. -/
def storage_ok (t : tree α β N) (T : rbt α β) : Prop :=
  fixed_alloc.allocator_ok t.allocator ∧
  (∀ p ∈ T.addrs, fixed_alloc.is_live t.allocator p) ∧ t.count = T.addrs.length

/-- The red-black invariants of a tree `T`: BST order, a black root, every
node red or black, no red node with a red child, and the same number of black
nodes on every path from the root to a leaf. -/
def rb_invariants [LinearOrder α] (T : rbt α β) : Prop :=
  bst T ∧ T.color = RB_TREE_BLACK ∧ colored T ∧ no_red_red T ∧
  ∃ n, ∀ x ∈ black_counts T, x = n

/-- The tree structure is a well-formed red-black tree holding `T`. -/
def is_rb_tree [LinearOrder α] (t : tree α β N) (T : rbt α β) : Prop :=
  layout t T ∧ rb_invariants T ∧ leaf_ok t ∧ storage_ok t T

/-- One step of a path from a subtree up to the root: the node the subtree
hangs off, and its other subtree. -/
inductive frame (α β : Type) where
  | left (a : Nat) (c : Nat) (k : α) (v : β) (r : rbt α β) : frame α β
  | right (a : Nat) (c : Nat) (k : α) (v : β) (l : rbt α β) : frame α β

/-- The address of the node of a step. -/
def frame.addr : frame α β → Nat
  | .left a _ _ _ _ => a
  | .right a _ _ _ _ => a

/-- The colour of the node of a step. -/
def frame.color : frame α β → Nat
  | .left _ c _ _ _ => c
  | .right _ c _ _ _ => c

/-- The other subtree of a step. -/
def frame.sibling : frame α β → rbt α β
  | .left _ _ _ _ r => r
  | .right _ _ _ _ l => l

/-- The tree a step makes of the subtree below it. -/
def frame.fill : frame α β → rbt α β → rbt α β
  | .left a c k v r, s => .node a c k v s r
  | .right a c k v l, s => .node a c k v l s

/-- The tree a path makes of the subtree at its lower end. -/
def plug : List (frame α β) → rbt α β → rbt α β
  | [], s => s
  | f :: fs, s => plug fs (f.fill s)

/-- The address of the parent of the subtree at the lower end of a path. -/
def parent_of : List (frame α β) → Nat
  | [] => NULL
  | f :: _ => f.addr

/-- The link that points to the subtree at the lower end of a path. -/
def holder_of : List (frame α β) → holder
  | [] => .root
  | .left a _ _ _ _ :: _ => .left a
  | .right a _ _ _ _ :: _ => .right a

/-- The addresses of the nodes of a step: its node and its other subtree. -/
def frame.addrs : frame α β → List Nat
  | .left a _ _ _ r => a :: r.addrs
  | .right a _ _ _ l => a :: l.addrs

/-- The addresses of the nodes of a path. -/
def ctx_addrs : List (frame α β) → List Nat
  | [] => []
  | f :: fs => f.addrs ++ ctx_addrs fs

/-- The memory holds the path: each step's node, with the link to the
subtree below it being `hp`, up to the root link `root`. -/
def RepC (m : Nat → node α β) (root : Nat) : List (frame α β) → Nat → Prop
  | [], hp => root = hp
  | .left a c k v r :: fs, hp =>
    a ≠ NULL ∧ a ≠ leaf ∧ (m a).key = k ∧ (m a).value = v ∧ (m a).color = c ∧
    (m a).parent = parent_of fs ∧ (m a).left = hp ∧ Rep m (m a).right a r ∧ RepC m root fs a
  | .right a c k v l :: fs, hp =>
    a ≠ NULL ∧ a ≠ leaf ∧ (m a).key = k ∧ (m a).value = v ∧ (m a).color = c ∧
    (m a).parent = parent_of fs ∧ (m a).right = hp ∧ Rep m (m a).left a l ∧ RepC m root fs a

/-- A tree whose paths from the root to a leaf all have `n` black nodes,
with every node red or black and no red node with a red child. -/
def valid : rbt α β → Nat → Prop
  | .nil, n => n = 0
  | .node _ c _ _ l r, n =>
    (c = RB_TREE_RED ∧ l.color = RB_TREE_BLACK ∧ r.color = RB_TREE_BLACK ∧
      valid l n ∧ valid r n) ∨
    (c = RB_TREE_BLACK ∧ ∃ m, n = m + 1 ∧ valid l m ∧ valid r m)

/-- A path that turns a valid subtree with `n` black nodes per path and root
colour `c` into a valid tree with a black root. -/
def ctx_ok : List (frame α β) → Nat → Nat → Prop
  | [], c, _ => c = RB_TREE_BLACK
  | f :: fs, c, n =>
    (f.color = RB_TREE_RED ∧ c = RB_TREE_BLACK ∧ f.sibling.color = RB_TREE_BLACK ∧
      valid f.sibling n ∧ ctx_ok fs RB_TREE_RED n) ∨
    (f.color = RB_TREE_BLACK ∧ valid f.sibling n ∧ ctx_ok fs RB_TREE_BLACK (n + 1))

end rb_tree

namespace rb_tree

variable {α β : Type} {N : Nat}

/-- The tree `t'` differs from `t` at most in the nodes at the addresses `W`,
in the link `h`, in the fields of the leaf, and in the allocator and count. -/
def frame_cond (t t' : tree α β N) (W : List Nat) (h : holder) : Prop :=
  (h ≠ .root → t'.root = t.root) ∧
  ∀ x, x ∉ W → x ≠ leaf →
    (t'.mem x).key = (t.mem x).key ∧ (t'.mem x).value = (t.mem x).value ∧
    (t'.mem x).color = (t.mem x).color ∧ (t'.mem x).parent = (t.mem x).parent ∧
    (h ≠ .left x → (t'.mem x).left = (t.mem x).left) ∧
    (h ≠ .right x → (t'.mem x).right = (t.mem x).right)

end rb_tree

namespace rb_tree

variable {α β : Type} {N : Nat}

/-- Everything a layout says about the node at the root of a subtree. -/
structure focus_facts (t : tree α β N) (ctx : List (frame α β)) (a c : Nat) (k : α) (v : β)
    (l r : rbt α β) : Prop where
  key : (t.mem a).key = k
  value : (t.mem a).value = v
  color : (t.mem a).color = c
  left : (t.mem a).left = l.ptr
  right : (t.mem a).right = r.ptr
  parent : (t.mem a).parent = parent_of ctx
  load : load t (holder_of ctx) = a
  holder : internal_get_holder t a = holder_of ctx
  ne_null : a ≠ NULL
  ne_leaf : a ≠ leaf
  ne_par : a ≠ parent_of ctx
  ne_left : a ≠ l.ptr
  ne_right : a ≠ r.ptr
  left_ne_par : l.ptr ≠ parent_of ctx
  right_ne_par : r.ptr ≠ parent_of ctx
  left_ne_null : l.ptr ≠ NULL
  right_ne_null : r.ptr ≠ NULL
  left_ne_right : l.ptr ≠ leaf → l.ptr ≠ r.ptr
  right_ne_left : r.ptr ≠ leaf → r.ptr ≠ l.ptr
  par_ne_leaf : parent_of ctx ≠ leaf
  rep_left : Rep t.mem l.ptr a l
  rep_right : Rep t.mem r.ptr a r
  notin_left : a ∉ l.addrs
  notin_right : a ∉ r.addrs
  nodup_left : l.addrs.Nodup
  nodup_right : r.addrs.Nodup
  disj_left : ∀ x ∈ l.addrs, x ∉ r.addrs
  disj_right : ∀ x ∈ r.addrs, x ∉ l.addrs
  leaf_left : leaf ∉ l.addrs
  leaf_right : leaf ∉ r.addrs
  par_left : parent_of ctx ∉ l.addrs
  par_right : parent_of ctx ∉ r.addrs

end rb_tree

namespace rb_tree

variable {α β : Type} {N : Nat}

/-- The keys a path puts before the subtree at its lower end. -/
def keys_before : List (frame α β) → List α
  | [] => []
  | .left _ _ _ _ _ :: fs => keys_before fs
  | .right _ _ k _ l :: fs => keys_before fs ++ l.keys ++ [k]

/-- The keys a path puts after the subtree at its lower end. -/
def keys_after : List (frame α β) → List α
  | [] => []
  | .left _ _ k _ r :: fs => k :: r.keys ++ keys_after fs
  | .right _ _ _ _ _ :: fs => keys_after fs

/-- The entries a path puts before the subtree at its lower end. -/
def entries_before : List (frame α β) → List (Nat × α × β)
  | [] => []
  | .left _ _ _ _ _ :: fs => entries_before fs
  | .right a _ k v l :: fs => entries_before fs ++ l.entries ++ [(a, k, v)]

/-- The entries a path puts after the subtree at its lower end. -/
def entries_after : List (frame α β) → List (Nat × α × β)
  | [] => []
  | .left a _ k v r :: fs => (a, k, v) :: r.entries ++ entries_after fs
  | .right _ _ _ _ _ :: fs => entries_after fs

end rb_tree

namespace rb_tree

variable {α β : Type} {N : Nat}

/-- The allocator, the count and the fields of the leaf other than its
parent link are the same in `t` and `t'`. -/
def aux_same (t t' : tree α β N) : Prop :=
  t'.allocator = t.allocator ∧ t'.count = t.count ∧
  (t'.mem leaf).key = (t.mem leaf).key ∧ (t'.mem leaf).color = (t.mem leaf).color ∧
  (t'.mem leaf).left = (t.mem leaf).left ∧ (t'.mem leaf).right = (t.mem leaf).right

end rb_tree

namespace rb_tree

variable {α β : Type} {N : Nat}

/-- The outcome of the adjustment loop: it returns a tree that is laid out
as a valid tree with a black root and the same entries as `T0`. -/
def adjust_post (t : tree α β N) (T0 : rbt α β) (res : Option (tree α β N)) : Prop :=
  ∃ t' T', res = some t' ∧ layout t' T' ∧ (∃ n', valid T' n') ∧
    T'.color = RB_TREE_BLACK ∧ T'.entries = T0.entries ∧ aux_same t t'

end rb_tree

namespace rb_tree

variable {α β : Type} [LinearOrder α] {N : Nat}

/-- The search for `key` from the subtree `s` at the lower end of the path
`ctx`: the path to, and the subtree at, the place where the search ends; the
subtree is a node holding `key`, or empty. -/
def descend (key : α) : List (frame α β) → rbt α β → List (frame α β) × rbt α β
  | ctx, .nil => (ctx, .nil)
  | ctx, .node a c k v l r =>
    if COMPARE k key > 0 then descend key (.left a c k v r :: ctx) l
    else if COMPARE k key < 0 then descend key (.right a c k v l :: ctx) r
    else (ctx, .node a c k v l r)

/-- The key searched for lies between the keys before and after the path. -/
def path_ok (key : α) (ctx : List (frame α β)) : Prop :=
  (∀ x ∈ keys_before ctx, x < key) ∧ (∀ x ∈ keys_after ctx, key < x)

end rb_tree

namespace rb_tree

variable {α β : Type} {N : Nat}

/-- The path from a subtree down to its most left node, and that node. -/
def min_path : rbt α β → List (frame α β) × rbt α β
  | .nil => ([], .nil)
  | .node a c k v .nil r => ([], .node a c k v .nil r)
  | .node a c k v (.node la lc lk lv ll lr) r =>
    ((min_path (.node la lc lk lv ll lr)).1 ++ [.left a c k v r],
      (min_path (.node la lc lk lv ll lr)).2)

/-- Every step of the path goes to a left child. -/
def all_left : List (frame α β) → Prop
  | [] => True
  | .left _ _ _ _ _ :: fs => all_left fs
  | .right _ _ _ _ _ :: _ => False

end rb_tree

namespace rb_tree

variable {α β : Type} {N : Nat}

/-- The nodes of a tree around a node `a` and the most left node `rc` of its
right subtree are pairwise different. -/
structure spine_facts (ctx c1 : List (frame α β)) (a rc : Nat) (l rr : rbt α β) : Prop where
  a_ne_rc : a ≠ rc
  a_ne_leaf : a ≠ leaf
  a_ne_null : a ≠ NULL
  rc_ne_leaf : rc ≠ leaf
  rc_ne_null : rc ≠ NULL
  l_ne : ∀ x ∈ l.addrs, x ≠ a ∧ x ≠ rc ∧ x ≠ leaf ∧ x ≠ NULL ∧ x ∉ rr.addrs ∧
    x ∉ ctx_addrs c1 ∧ x ∉ ctx_addrs ctx
  rr_ne : ∀ x ∈ rr.addrs, x ≠ a ∧ x ≠ rc ∧ x ≠ leaf ∧ x ≠ NULL ∧ x ∉ l.addrs ∧
    x ∉ ctx_addrs c1 ∧ x ∉ ctx_addrs ctx
  c1_ne : ∀ x ∈ ctx_addrs c1, x ≠ a ∧ x ≠ rc ∧ x ≠ leaf ∧ x ≠ NULL ∧ x ∉ l.addrs ∧
    x ∉ rr.addrs ∧ x ∉ ctx_addrs ctx
  ctx_ne : ∀ x ∈ ctx_addrs ctx, x ≠ a ∧ x ≠ rc ∧ x ≠ leaf ∧ x ≠ NULL ∧ x ∉ l.addrs ∧
    x ∉ rr.addrs ∧ x ∉ ctx_addrs c1
  nodup_l : l.addrs.Nodup
  nodup_rr : rr.addrs.Nodup
  nodup_c1 : (ctx_addrs c1).Nodup
  nodup_ctx : (ctx_addrs ctx).Nodup

end rb_tree

namespace rb_tree

variable {α β : Type} {N : Nat}

/-- What the relinking of `remove_node` does to the memory: the node `a` and
the most left node `rc` of its right subtree exchange their places and
colours. -/
structure relinked (t t' : tree α β N) (ctx c1 : List (frame α β)) (a c : Nat) (k : α)
    (v : β) (l : rbt α β) (rc rcc : Nat) (rk : α) (rv : β) (rr : rbt α β) : Prop where
  root : holder_of ctx ≠ .root → t'.root = t.root
  load : load t' (holder_of ctx) = rc
  other : ∀ x, x ≠ a → x ≠ rc → x ≠ leaf →
    (t'.mem x).key = (t.mem x).key ∧ (t'.mem x).value = (t.mem x).value ∧
    (t'.mem x).color = (t.mem x).color ∧
    (x ≠ l.ptr → x ≠ rr.ptr → x ≠ (plug c1 (.node rc rcc rk rv .nil rr)).ptr →
      (t'.mem x).parent = (t.mem x).parent) ∧
    (holder_of ctx ≠ .left x → x ≠ parent_of c1 → (t'.mem x).left = (t.mem x).left) ∧
    (holder_of ctx ≠ .right x → (t'.mem x).right = (t.mem x).right)
  a_key : (t'.mem a).key = k
  a_value : (t'.mem a).value = v
  a_color : (t'.mem a).color = rcc
  a_left : (t'.mem a).left = leaf
  a_right : (t'.mem a).right = rr.ptr
  a_parent : (t'.mem a).parent = parent_of (c1 ++ .right rc c rk rv l :: ctx)
  rc_key : (t'.mem rc).key = rk
  rc_value : (t'.mem rc).value = rv
  rc_color : (t'.mem rc).color = c
  rc_left : (t'.mem rc).left = l.ptr
  rc_right : (t'.mem rc).right = (plug c1 (.node a rcc k v .nil rr)).ptr
  rc_parent : (t'.mem rc).parent = parent_of ctx
  l_parent : l.ptr ≠ leaf → (t'.mem l.ptr).parent = rc
  top_parent : c1 ≠ [] → (t'.mem (plug c1 (.node rc rcc rk rv .nil rr)).ptr).parent = rc
  rr_parent : rr.ptr ≠ leaf → (t'.mem rr.ptr).parent = a
  low_left : c1 ≠ [] → (t'.mem (parent_of c1)).left = a

end rb_tree

namespace fixed_alloc

/-- An allocator with one cluster of one chunk whose first element is in
use; the element is at address 5. -/
def example_allocator : allocator 1 :=
  ⟨[{ addr := 2, nfc_index := 0, chunks := [⟨1⟩] }]⟩

end fixed_alloc

namespace avl_tree

/-- The AVL tree with the single key 10, in the node at address 5. -/
def example_tree : tree Int 1 :=
  { allocator := fixed_alloc.example_allocator
    root := .mk 5 10 0 .sentinel .sentinel
    sentinel := 0
    count := 1 }

end avl_tree

namespace rb_tree

/-- The memory of `example_tree`: one black node with the key 10 at address
5; every other address, the leaf at address 1 included, holds a black node
whose links are the leaf. -/
def example_mem : Nat → node Int Unit := fun p =>
  if p = 5 then ⟨10, (), RB_TREE_BLACK, leaf, leaf, NULL⟩
  else ⟨0, (), RB_TREE_BLACK, leaf, leaf, NULL⟩

/-- The red-black tree with the single key 10, in the node at address 5. -/
def example_tree : tree Int Unit 1 :=
  { root := 5, mem := example_mem, allocator := fixed_alloc.example_allocator, count := 1 }

/-- The tree that `example_tree` holds. -/
def example_rbt : rbt Int Unit := .node 5 RB_TREE_BLACK 10 () .nil .nil

end rb_tree

namespace avl_tree

variable {α : Type} {N : Nat}

/-- The caller of `find_node` gets a node: the call returns, and what it
returns is not the null pointer. -/
def found_by_find [LinearOrder α] (t : tree α N) (key : α) : Prop :=
  ∃ t1 r, find_node t key = some (t1, r) ∧ r ≠ NULL

end avl_tree

namespace rb_tree

variable {α β : Type} {N : Nat}

/-- The caller of `find_node` gets a node: the call returns, and what it
returns is not the null pointer. -/
def found_by_find [LinearOrder α] (fuel : Nat) (t : tree α β N) (key : α) : Prop :=
  ∃ t1 r, find_node fuel t key = some (t1, r) ∧ r ≠ NULL

end rb_tree

namespace fixed_alloc

variable {N : Nat}

/-- The bits of a mask that are set, lowest first. -/
def set_bits (m : Nat) : List Nat :=
  (List.range CHUNK_NUM_BITS).filter (fun j => m.testBit j)

/-- The elements of the chunk `i` of a cluster that are in use, bits
ascending. -/
def chunk_slots (c : internal_chunk_cluster) (i : Nat) : List Nat :=
  match c.chunks.get? i with
  | none => []
  | some ch => (set_bits ch.free_mask).map (fun j => arr_addr (chunk_addr c.addr i) j)

/-- The elements of a cluster that are in use: chunks ascending, bits
ascending. -/
def cluster_slots (N : Nat) (c : internal_chunk_cluster) : List Nat :=
  (List.range N).flatMap (chunk_slots c)

/-- The elements of an allocator that are in use, most recent cluster
first. -/
def live_slots (a : allocator N) : List Nat :=
  a.cluster.flatMap (cluster_slots N)

end fixed_alloc

namespace fixed_alloc

variable {N : Nat}

/-- The chunk `i` of a cluster has no free element. -/
def chunk_full (c : internal_chunk_cluster) (i : Nat) : Prop :=
  ∀ j, j < CHUNK_NUM_BITS → slot_used c i j

end fixed_alloc

namespace fixed_alloc.append_only

/-- Source: `internal_chunk` of the allocator without `free_elem`.  `addr` is
the address `FIXED_ALLOC_XMALLOC` returned for the chunk, at which its array
`arr` starts; the `prev` link is the tail of the list the chunk is the head
of. -/
structure internal_chunk where
  addr : Nat
  size : Nat
  deriving DecidableEq, Repr

/-- Source: `allocator` of the allocator without `free_elem`.  `chunk` is the
chain of chunks, most recent first; the empty list is the null pointer. -/
structure allocator (N : Nat) where
  chunk : List internal_chunk
  deriving DecidableEq, Repr

/-- Size of `internal_chunk`: `N` elements, `size` and `prev`. -/
def SIZEOF_CHUNK (N : Nat) : Nat := N + 2

/-- Source: `internal_create_chunk`. -/
def internal_create_chunk (N : Nat) (prev : List internal_chunk) : List internal_chunk :=
  { addr := XMALLOC prev.length (SIZEOF_CHUNK N), size := 0 } :: prev

/-- Source: `init_allocator`. -/
def init_allocator {N : Nat} : allocator N := ⟨[]⟩

/-- Source: `alloc_elem`; returns the allocator and `&chunk->arr[chunk->size ++]`.
The counter `size` never exceeds `N`, so it is not reduced modulo the width
of `size_t`. -/
def alloc_elem {N : Nat} (a : allocator N) : Option (allocator N × Nat) :=
  let chunk :=
    match a.chunk with
    | [] => internal_create_chunk N a.chunk
    | c :: _ => if c.size ≥ N then internal_create_chunk N a.chunk else a.chunk
  match chunk with
  | [] => none
  | c :: prev => some (⟨{ c with size := c.size + 1 } :: prev⟩, c.addr + c.size)

/-- The `while` loop of `get_allocator_status`. -/
def get_allocator_status.loop (N : Nat) : List internal_chunk → Nat → Nat → Nat × Nat
  | [], used, allocated => (used, allocated)
  | c :: prev, used, allocated =>
    get_allocator_status.loop N prev (used + c.size) (allocated + N)

/-- Source: `get_allocator_status`; returns `(used, allocated)`. -/
def get_allocator_status {N : Nat} (a : allocator N) : Nat × Nat :=
  get_allocator_status.loop N a.chunk 0 0

/-- The element at address `p` has been handed out: it is one of the first
`size` elements of a chunk. -/
def is_live {N : Nat} (a : allocator N) (p : Nat) : Prop :=
  ∃ c ∈ a.chunk, ∃ i, i < c.size ∧ p = c.addr + i

/-- Every chunk of the chain sits at the address `XMALLOC` gave it and holds
at most `N` elements. -/
def chain_ok (N : Nat) : List internal_chunk → Prop
  | [] => True
  | c :: prev => c.addr = XMALLOC prev.length (SIZEOF_CHUNK N) ∧ c.size ≤ N ∧ chain_ok N prev

/-- The states of the allocator the code can reach: a positive chunk
capacity and a chain of well-formed chunks. -/
def allocator_ok {N : Nat} (a : allocator N) : Prop :=
  0 < N ∧ chain_ok N a.chunk

end fixed_alloc.append_only

namespace fixed_alloc

/-- The first `n` of a series of calls of `alloc_elem`, each on the allocator
the call before left. -/
def alloc_times {N : Nat} : Nat → allocator N → Option (allocator N)
  | 0, a => some a
  | n + 1, a =>
    match alloc_elem a with
    | none => none
    | some (a1, _) => alloc_times n a1

/-- The element `e` is `chunks[i].arr[j]` of a cluster of the allocator, and
no free element precedes it in the order in which `alloc_elem` looks for one:
the clusters most recent first, the chunks of a cluster ascending, the
elements of a chunk ascending. -/
def no_free_before {N : Nat} (a : allocator N) (e : Nat) : Prop :=
  ∃ before c after i j, a.cluster = before ++ c :: after ∧ i < N ∧ j < CHUNK_NUM_BITS ∧
    e = arr_addr (chunk_addr c.addr i) j ∧
    (∀ b ∈ before, ∀ i', i' < N → chunk_full b i') ∧
    (∀ i', i' < i → chunk_full c i') ∧ (∀ j', j' < j → slot_used c i j')

/-- Source: `alloc_elem` of the allocator without `free_elem`, called `n`
times in a row. -/
def append_only.alloc_times {N : Nat} :
    Nat → append_only.allocator N → Option (append_only.allocator N)
  | 0, a => some a
  | n + 1, a =>
    match append_only.alloc_elem a with
    | none => none
    | some (a1, _) => append_only.alloc_times n a1

variable {N : Nat}

end fixed_alloc

namespace rb_tree

variable {α β : Type} {N : Nat}

/-- The inner `for (;;)` loop of `tree_foreach`, which goes up from `node`.
The result is `some none` when the loop leaves by `goto End`, `some (some p)`
when it leaves by `break` with `node = p`, and `none` when the assertion
fails or the fuel is used up. -/
def tree_foreach.go_up (t : tree α β N) : Nat → Nat → Option (Option Nat)
  | 0, _ => none
  | fuel + 1, node =>
    if (t.mem node).parent = NULL then some none
    else if (t.mem (t.mem node).parent).right = node then
      tree_foreach.go_up t fuel (t.mem node).parent
    else if (t.mem (t.mem node).parent).left = node then some (some (t.mem node).parent)
    else none

/-- The outer `for (;;)` loop of `tree_foreach`.  The callback gets the
context and the node, and returns the context as the call leaves it. -/
def tree_foreach.loop {σ : Type} (t : tree α β N) (foreach_callback : σ → Nat → σ) :
    Nat → Nat → Bool → σ → Option σ
  | 0, _, _, _ => none
  | fuel + 1, node, handleLeftSubtree, context =>
    if handleLeftSubtree = true ∧ (t.mem node).left ≠ leaf then
      tree_foreach.loop t foreach_callback fuel (t.mem node).left handleLeftSubtree context
    else
      let context1 := foreach_callback context node
      if (t.mem node).right ≠ leaf then
        tree_foreach.loop t foreach_callback fuel (t.mem node).right true context1
      else
        /- go up -/
        match tree_foreach.go_up t fuel node with
        | none => none
        | some none => some context1
        | some (some parent) =>
          tree_foreach.loop t foreach_callback fuel parent false context1

/-- Source: `tree_foreach`; returns the context after the last call of the
callback. -/
def tree_foreach {σ : Type} (fuel : Nat) (t : tree α β N) (context : σ)
    (foreach_callback : σ → Nat → σ) : Option σ :=
  tree_foreach.loop t foreach_callback fuel t.root true context

/-- The addresses a path puts after the subtree at its lower end. -/
def addrs_after : List (frame α β) → List Nat
  | [] => []
  | .left a _ _ _ r :: fs => a :: r.addrs ++ addrs_after fs
  | .right _ _ _ _ _ :: fs => addrs_after fs

end rb_tree

namespace rb_tree

variable {α β : Type} {N : Nat} {σ : Type}

/-- With enough fuel, the loop entered at the root of a subtree after its
left subtree has been dealt with, with `n` nodes still to visit, calls the
callback for the node, the nodes of its right subtree and the nodes that come
after the subtree, in this order. -/
def visit_ok (t : tree α β N) (cb : σ → Nat → σ) (n : Nat) : Prop :=
  ∀ (ctx : List (frame α β)) (a c : Nat) (k : α) (v : β) (l r : rbt α β) (acc : σ),
    layout t (plug ctx (.node a c k v l r)) →
    (a :: r.addrs ++ addrs_after ctx).length = n →
    ∃ F, ∀ fuel, F ≤ fuel →
      tree_foreach.loop t cb fuel a false acc =
        some ((a :: r.addrs ++ addrs_after ctx).foldl cb acc)

/-- With enough fuel, the loop entered at the root of a subtree, with `n`
nodes still to visit, calls the callback for the nodes of the subtree and the
nodes that come after it, in this order. -/
def walk_ok (t : tree α β N) (cb : σ → Nat → σ) (n : Nat) : Prop :=
  ∀ (s : rbt α β) (ctx : List (frame α β)) (acc : σ), s ≠ .nil →
    layout t (plug ctx s) → (s.addrs ++ addrs_after ctx).length = n →
    ∃ F, ∀ fuel, F ≤ fuel →
      tree_foreach.loop t cb fuel s.ptr true acc =
        some ((s.addrs ++ addrs_after ctx).foldl cb acc)

end rb_tree

namespace avl_tree

variable {α : Type} {N : Nat} {σ : Type}

/-- Source: `internal_tree_foreach`.  The callback gets the context and the
node, and returns the context as the call leaves it. -/
def internal_tree_foreach (foreach_callback : σ → node α → σ) : σ → node α → σ
  | context, .sentinel => context
  | context, .mk a k b l r =>
    internal_tree_foreach foreach_callback
      (foreach_callback (internal_tree_foreach foreach_callback context l) (.mk a k b l r)) r

/-- Source: `tree_foreach`; returns the context after the last call of the
callback. -/
def tree_foreach (t : tree α N) (context : σ) (foreach_callback : σ → node α → σ) : σ :=
  internal_tree_foreach foreach_callback context t.root

/-- What `node->key` reads: the key of a real node, and the key field of the
sentinel element for the sentinel. -/
def key_of (t : tree α N) : node α → α
  | .sentinel => t.sentinel
  | .mk _ k _ _ _ => k

/-- The real nodes of a tree in order: left subtree, node, right subtree. -/
def inorder : node α → List (node α)
  | .sentinel => []
  | .mk a k b l r => inorder l ++ .mk a k b l r :: inorder r

/-- The keys `tree_foreach` passes to its callback, in the order of the
calls. -/
def visited_keys (t : tree α N) : List α :=
  tree_foreach t [] (fun acc n => acc ++ [key_of t n])

end avl_tree

namespace rb_tree

variable {α β : Type} {N : Nat}

/-- The recursive in-order walk of the nodes below `node`: the nodes of the
left subtree, the node, the nodes of the right subtree; the leaf element has
none.  The depth of the recursion is bounded by the fuel. -/
def inorder_walk (t : tree α β N) : Nat → Nat → Option (List Nat)
  | 0, _ => none
  | fuel + 1, node =>
    if node = leaf then some []
    else
      match inorder_walk t fuel (t.mem node).left, inorder_walk t fuel (t.mem node).right with
      | some l, some r => some (l ++ node :: r)
      | _, _ => none

end rb_tree

/-- A call of one of the two operations that change a tree. -/
inductive tree_op (α : Type) where
  | add (key : α) : tree_op α
  | remove (key : α) : tree_op α

/-- Whether `x` is in the set of keys after a call, given whether it was
before. -/
def tree_op.effect {α : Type} : tree_op α → α → Prop → Prop
  | .add key, x, before => x = key ∨ before
  | .remove key, x, before => before ∧ x ≠ key

/-- Whether `x` is in the set of keys after a sequence of calls, given
whether it was before. -/
def effects {α : Type} : List (tree_op α) → α → Prop → Prop
  | [], _, before => before
  | op :: ops, x, before => effects ops x (op.effect x before)

namespace avl_tree

variable {α : Type} {N : Nat}

/-- One call of `add_node_ext` or `remove_node`; returns the tree as the call
leaves it. -/
def apply_op [LinearOrder α] (t : tree α N) : tree_op α → Option (tree α N)
  | .add key => (add_node_ext t key).map (fun r => r.1)
  | .remove key => (remove_node t key).map (fun r => r.1)

/-- A sequence of calls, each on the tree the call before left. -/
def run [LinearOrder α] : List (tree_op α) → tree α N → Option (tree α N)
  | [], t => some t
  | op :: ops, t =>
    match apply_op t op with
    | none => none
    | some t1 => run ops t1

/-- The tree is well-formed, its field `count` is the number of its nodes,
and the elements of its allocator in use are its nodes. -/
def consistent [LinearOrder α] (t : tree α N) : Prop :=
  storage_ok t ∧ bst t.root ∧ balanced t.root ∧ t.count = (addrs t.root).length ∧
  ∀ p, fixed_alloc.is_live t.allocator p → p ∈ addrs t.root

end avl_tree

namespace rb_tree

variable {α β : Type} {N : Nat}

/-- One call of `add_node_ext` or `remove_node`; returns the tree as the call
leaves it.  `user_data` and `fuel` are those of `remove_node` and of the
loops. -/
def apply_op [LinearOrder α] (user_data : Bool) (fuel : Nat) (t : tree α β N) :
    tree_op α → Option (tree α β N)
  | .add key => (add_node_ext fuel t key).map (fun r => r.1)
  | .remove key => (remove_node user_data fuel t key).map (fun r => r.1)

/-- A sequence of calls, each on the tree the call before left. -/
def run [LinearOrder α] (user_data : Bool) (fuel : Nat) :
    List (tree_op α) → tree α β N → Option (tree α β N)
  | [], t => some t
  | op :: ops, t =>
    match apply_op user_data fuel t op with
    | none => none
    | some t1 => run user_data fuel ops t1

/-- The tree is well-formed and holds `T`, and the elements of its allocator
in use are its nodes. -/
def consistent [LinearOrder α] (t : tree α β N) (T : rbt α β) : Prop :=
  is_rb_tree t T ∧ ∀ p, fixed_alloc.is_live t.allocator p → p ∈ T.addrs

end rb_tree

namespace fixed_alloc

variable {N : Nat}

/-- Every chunk of the cluster before the hint `nfc_index` is full. -/
def nfc_ok (N : Nat) (c : internal_chunk_cluster) : Prop :=
  ∀ i, i < c.nfc_index → i < N → chunk_full c i

/-- The states of the allocator that a series of calls of `alloc_elem` and
`free_elem` reaches from the initialised allocator. -/
inductive reachable {N : Nat} : allocator N → Prop where
  | init : reachable init_allocator
  | alloc (a a1 : allocator N) (p : Nat) :
      reachable a → alloc_elem a = some (a1, p) → reachable a1
  | free (a a1 : allocator N) (p : Nat) :
      reachable a → free_elem a p = some a1 → reachable a1

end fixed_alloc

namespace fixed_alloc.append_only

variable {N : Nat}

/-- The allocator after `n` allocations from the initialised one: either
nothing has been allocated and there is no chunk, or the first chunk holds
between one and `N` elements and each of the others holds `N`. -/
def filled (n : Nat) (a : allocator N) : Prop :=
  allocator_ok a ∧ (get_allocator_status a).1 = n ∧
  ((n = 0 ∧ a.chunk = []) ∨
    ∃ c rest, a.chunk = c :: rest ∧ 1 ≤ c.size ∧ c.size ≤ N ∧ n = N * rest.length + c.size)

end fixed_alloc.append_only

namespace fixed_alloc

variable {N : Nat} {σ : Type}

/-- The `for` loop of `allocator_foreach` over the elements of one chunk,
entered at index `j` with `n` iterations left.  The callback gets the context
and the element, and returns the context as the call leaves it. -/
def allocator_foreach.bits (foreach_callback : σ → Nat → σ) (free_mask addr : Nat) :
    Nat → Nat → Nat → σ → σ
  | 0, _, _, context => context
  | n + 1, j, mask, context =>
    allocator_foreach.bits foreach_callback free_mask addr n (j + 1)
      ((mask <<< 1) % 2 ^ CHUNK_NUM_BITS)
      (if free_mask &&& mask ≠ 0 then foreach_callback context (arr_addr addr j) else context)

/-- The `for` loop of `allocator_foreach` over the chunks of one cluster. -/
def allocator_foreach.chunks (foreach_callback : σ → Nat → σ)
    (cluster : internal_chunk_cluster) : Nat → Nat → σ → Option σ
  | 0, _, context => some context
  | n + 1, i, context =>
    match cluster.chunks.get? i with
    | none => none
    | some chunk =>
      allocator_foreach.chunks foreach_callback cluster n (i + 1)
        (if chunk.free_mask ≠ 0 then
          allocator_foreach.bits foreach_callback chunk.free_mask (chunk_addr cluster.addr i)
            CHUNK_NUM_BITS 0 1 context
         else context)

/-- The `for` loop of `allocator_foreach` over the clusters. -/
def allocator_foreach.clusters (N : Nat) (foreach_callback : σ → Nat → σ) :
    List internal_chunk_cluster → σ → Option σ
  | [], context => some context
  | cluster :: prev, context =>
    match allocator_foreach.chunks foreach_callback cluster N 0 context with
    | none => none
    | some context1 => allocator_foreach.clusters N foreach_callback prev context1

/-- Source: `allocator_foreach`; returns the context after the last call of
the callback. -/
def allocator_foreach (a : allocator N) (context : σ) (foreach_callback : σ → Nat → σ) :
    Option σ :=
  allocator_foreach.clusters N foreach_callback a.cluster context

end fixed_alloc

namespace fixed_alloc.append_only

variable {N : Nat} {σ : Type}

/-- The `for` loop of `allocator_foreach` over the elements of one chunk,
entered at index `i` with `n` iterations left. -/
def allocator_foreach.elems (foreach_callback : σ → Nat → σ) (c : internal_chunk) :
    Nat → Nat → σ → σ
  | 0, _, context => context
  | n + 1, i, context =>
    allocator_foreach.elems foreach_callback c n (i + 1) (foreach_callback context (c.addr + i))

/-- The `while` loop of `allocator_foreach` over the chunks. -/
def allocator_foreach.loop (foreach_callback : σ → Nat → σ) : List internal_chunk → σ → σ
  | [], context => context
  | c :: prev, context =>
    allocator_foreach.loop foreach_callback prev
      (allocator_foreach.elems foreach_callback c c.size 0 context)

/-- Source: `allocator_foreach` of the allocator without `free_elem`. -/
def allocator_foreach (a : allocator N) (context : σ) (foreach_callback : σ → Nat → σ) : σ :=
  allocator_foreach.loop foreach_callback a.chunk context

/-- The elements that have been handed out, most recent chunk first. -/
def live_slots (a : allocator N) : List Nat :=
  a.chunk.flatMap (fun c => (List.range c.size).map (fun i => c.addr + i))

end fixed_alloc.append_only

namespace avl_tree

variable {α : Type} {N : Nat}

/-- Source: `internal_check_balance`; the second argument is
`*calculated_nodes_count` at the call, and the result holds it as the call
leaves it. -/
def internal_check_balance : node α → Nat → Bool × Nat
  | .sentinel, calculated_nodes_count => (true, calculated_nodes_count)
  | .mk _ _ b l r, calculated_nodes_count =>
    let lh := internal_get_tree_height l
    let rh := internal_get_tree_height r
    let balance := rh - lh
    let count1 := calculated_nodes_count + 1
    if b ≠ balance then (false, count1)
    else
      match internal_check_balance l count1 with
      | (false, count2) => (false, count2)
      | (true, count2) =>
        match internal_check_balance r count2 with
        | (false, count3) => (false, count3)
        | (true, count3) => (true, count3)

/-- Source: `is_valid_tree`.  The result is `none` where
`get_allocator_status` reads a chunk the cluster does not have. -/
def is_valid_tree (t : tree α N) : Option Bool :=
  match internal_check_balance t.root 0 with
  | (true, calculated_nodes_count) =>
    match fixed_alloc.get_allocator_status t.allocator with
    | none => none
    | some (used_nodes, _) =>
      if used_nodes ≠ calculated_nodes_count then some false else some true
  | (false, _) => some true

/-- At every node the stored balance is the height of the right subtree minus
the height of the left subtree. -/
def balance_stored : node α → Prop
  | .sentinel => True
  | .mk _ _ b l r =>
    b = internal_get_tree_height r - internal_get_tree_height l ∧
    balance_stored l ∧ balance_stored r

/-- The tree with every key replaced by its image under `f`. -/
def map_keys {γ : Type} (f : α → γ) : node α → node γ
  | .sentinel => .sentinel
  | .mk a k b l r => .mk a (f k) b (map_keys f l) (map_keys f r)

end avl_tree

namespace rb_tree

variable {α β : Type} {N : Nat}

/-- Source: `RB_TREE_ERR_INVALID_COLOR`, node has invalid color. -/
def RB_TREE_ERR_INVALID_COLOR : Int := -1

/-- Source: `RB_TREE_ERR_LEAF_ISNT_BLACK`, leaf node is not black. -/
def RB_TREE_ERR_LEAF_ISNT_BLACK : Int := -2

/-- Source: `RB_TREE_ERR_RED_CHILD_ISNT_BLACK`, red node's child is not
black. -/
def RB_TREE_ERR_RED_CHILD_ISNT_BLACK : Int := -3

/-- Source: `RB_TREE_ERR_INCONSISTENT_PATH`, at least two paths from root to
the descendant leaves are different. -/
def RB_TREE_ERR_INCONSISTENT_PATH : Int := -4

/-- Source: `RB_TREE_ERR_INVALID_PARENT_NODE`, `node->parent` does not point
to the real parent node. -/
def RB_TREE_ERR_INVALID_PARENT_NODE : Int := -5

/-- Source: `RB_TREE_ERR_INCONSISTENT_COMPARE`, compare function is not
sane. -/
def RB_TREE_ERR_INCONSISTENT_COMPARE : Int := -6

/-- Source: `RB_TREE_ERR_INCONSISTENT_KEY`, node key does not satisfy binary
tree constraint. -/
def RB_TREE_ERR_INCONSISTENT_KEY : Int := -7

/-- Source: `RB_TREE_ERR_DANGLING_NODE_FOUND`, allocated nodes count is not
equals to the nodes in tree. -/
def RB_TREE_ERR_DANGLING_NODE_FOUND : Int := -8

/-- Source: `internal_check_context`, without the pointer to the tree. -/
structure internal_check_context where
  already_calculated_path : Int
  calculated_nodes_count : Nat
  deriving DecidableEq, Repr

/-- Source: `internal_recursive_check`; returns the result and the context as
the call leaves it.  The depth of the recursion is bounded by the fuel; a
read through the null pointer is `none`. -/
def internal_recursive_check [LinearOrder α] (t : tree α β N) :
    Nat → internal_check_context → Nat → Nat → Int → Option (Int × internal_check_context)
  | 0, _, _, _, _ => none
  | fuel + 1, c, node, prev_node, calculated_path =>
    if node = leaf then
      if c.already_calculated_path < 0 then
        some (0, { c with already_calculated_path := calculated_path })
      else if c.already_calculated_path ≠ calculated_path then
        some (RB_TREE_ERR_INCONSISTENT_PATH, c)
      else some (0, c)
    else if node = NULL then none
    else
      let key := (t.mem node).key
      let prev_node_color :=
        if (t.mem node).parent = NULL then RB_TREE_RED
        else (t.mem (t.mem node).parent).color
      let cmp := COMPARE key (t.mem node).key
      /- generic constraint: key should be equal to itself -/
      if cmp ≠ 0 then some (RB_TREE_ERR_INCONSISTENT_COMPARE, c)
      else if (t.mem node).parent ≠ prev_node then some (RB_TREE_ERR_INVALID_PARENT_NODE, c)
      else
        let c1 := { c with calculated_nodes_count := c.calculated_nodes_count + 1 }
        let checked : Except Int Int :=
          if (t.mem node).color = RB_TREE_RED then
            if prev_node_color = RB_TREE_RED then .error RB_TREE_ERR_RED_CHILD_ISNT_BLACK
            else .ok calculated_path
          else if (t.mem node).color = RB_TREE_BLACK then
            /- advance simple path of black nodes -/
            .ok (calculated_path + 1)
          else .error RB_TREE_ERR_INVALID_COLOR
        match checked with
        | .error ret => some (ret, c1)
        | .ok calculated_path1 =>
          /- recursively check left node -/
          match internal_recursive_check t fuel c1 (t.mem node).left node calculated_path1 with
          | none => none
          | some (ret, c2) =>
            if ret < 0 then some (ret, c2)
            else
              /- recursively check right node -/
              match internal_recursive_check t fuel c2 (t.mem node).right node
                  calculated_path1 with
              | none => none
              | some (ret, c3) =>
                if ret < 0 then some (ret, c3)
                /- check keys -/
                else if (t.mem node).left ≠ leaf ∧
                    COMPARE (t.mem node).key (t.mem (t.mem node).left).key ≤ 0 then
                  some (RB_TREE_ERR_INCONSISTENT_KEY, c3)
                else if (t.mem node).right ≠ leaf ∧
                    COMPARE (t.mem node).key (t.mem (t.mem node).right).key ≥ 0 then
                  some (RB_TREE_ERR_INCONSISTENT_KEY, c3)
                else some (0, c3)

/-- The variable `ret` of `is_valid_tree` when the function returns. -/
def is_valid_tree.ret [LinearOrder α] (fuel : Nat) (t : tree α β N) : Option Int :=
  match internal_recursive_check t fuel ⟨-1, 0⟩ t.root NULL 0 with
  | none => none
  | some (ret, c) =>
    /- ensure that allocated nodes count equals to nodes in tree -/
    if ret = 0 then
      match fixed_alloc.get_allocator_status t.allocator with
      | none => none
      | some (used_nodes, _) =>
        if used_nodes ≠ c.calculated_nodes_count then some RB_TREE_ERR_DANGLING_NODE_FOUND
        else some ret
    else some ret

/-- Source: `is_valid_tree`, which returns `ret == 0`. -/
def is_valid_tree [LinearOrder α] (fuel : Nat) (t : tree α β N) : Option Bool :=
  (is_valid_tree.ret fuel t).map (fun ret => decide (ret = 0))

/-- The key of the root node. -/
def rbt.root_key : rbt α β → Option α
  | .nil => none
  | .node _ _ k _ _ _ => some k

/-- At every node, the key of the left child is below the node's key and the
key of the right child is above it. -/
def local_order [LinearOrder α] : rbt α β → Prop
  | .nil => True
  | .node _ _ k _ l r =>
    (∀ x, l.root_key = some x → x < k) ∧ (∀ x, r.root_key = some x → k < x) ∧
    local_order l ∧ local_order r

/-- No red node has a red parent, where `pc` is the colour of the parent of
the root. -/
def red_ok (pc : Nat) : rbt α β → Prop
  | .nil => True
  | .node _ c _ _ l r => (c = RB_TREE_RED → pc ≠ RB_TREE_RED) ∧ red_ok c l ∧ red_ok c r

/-- The colour `internal_recursive_check` takes for the parent of a node
whose parent link is `prev`. -/
def prev_color (t : tree α β N) (prev : Nat) : Nat :=
  if prev = NULL then RB_TREE_RED else (t.mem prev).color

end rb_tree

namespace rb_tree

variable {α β : Type} [LinearOrder α] {N : Nat}

/-- The part of `internal_recursive_check` that follows the check of the
colour: the two recursive calls and the check of the keys. -/
def internal_recursive_check.rest (t : tree α β N) (fuel : Nat) (c1 : internal_check_context)
    (node : Nat) (calculated_path1 : Int) : Option (Int × internal_check_context) :=
  match internal_recursive_check t fuel c1 (t.mem node).left node calculated_path1 with
  | none => none
  | some (ret, c2) =>
    if ret < 0 then some (ret, c2)
    else
      match internal_recursive_check t fuel c2 (t.mem node).right node calculated_path1 with
      | none => none
      | some (ret, c3) =>
        if ret < 0 then some (ret, c3)
        else if (t.mem node).left ≠ leaf ∧
            COMPARE (t.mem node).key (t.mem (t.mem node).left).key ≤ 0 then
          some (RB_TREE_ERR_INCONSISTENT_KEY, c3)
        else if (t.mem node).right ≠ leaf ∧
            COMPARE (t.mem node).key (t.mem (t.mem node).right).key ≥ 0 then
          some (RB_TREE_ERR_INCONSISTENT_KEY, c3)
        else some (0, c3)

/-- What a call of `internal_recursive_check` that finds no fault has
established of the structure below `p`. -/
def checked_ok (t : tree α β N) (c c1 : internal_check_context) (p prev : Nat) (path : Int) :
    Prop :=
  ∃ S : rbt α β, Rep t.mem p prev S ∧ colored S ∧ red_ok (prev_color t prev) S ∧
    local_order S ∧ c1.calculated_nodes_count = c.calculated_nodes_count + S.addrs.length ∧
    0 ≤ c1.already_calculated_path ∧
    (∀ x ∈ black_counts S, path + (x : Int) = c1.already_calculated_path) ∧
    (c.already_calculated_path < 0 ∨ c1.already_calculated_path = c.already_calculated_path)

end rb_tree

namespace rb_tree

variable {α β : Type} {N : Nat}

/-- The node reached from `x` by following the parent link `n` times. -/
def up (m : Nat → node α β) (n : Nat) (x : Nat) : Nat :=
  (fun y => (m y).parent)^[n] x

/-- Following the parent links from `x` reaches the null pointer after
exactly `n` steps. -/
def ranked (m : Nat → node α β) (x n : Nat) : Prop :=
  up m n x = NULL ∧ ∀ i, i < n → up m i x ≠ NULL

end rb_tree

namespace rb_tree

variable {α β : Type} {N : Nat}

/-- The values `internal_recursive_check` returns: 0 and five of the error
codes. -/
def is_check_code (ret : Int) : Prop :=
  ret = 0 ∨ ret = RB_TREE_ERR_INVALID_COLOR ∨ ret = RB_TREE_ERR_RED_CHILD_ISNT_BLACK ∨
  ret = RB_TREE_ERR_INCONSISTENT_PATH ∨ ret = RB_TREE_ERR_INVALID_PARENT_NODE ∨
  ret = RB_TREE_ERR_INCONSISTENT_KEY

end rb_tree

namespace avl_tree

/-- One node with the key 10 and no children whose stored balance is 1; the
allocator has this one element in use. -/
def bad_balance_tree : tree Int 1 :=
  { allocator := fixed_alloc.example_allocator
    root := .mk 5 10 1 .sentinel .sentinel
    sentinel := 0
    count := 1 }

/-- Two nodes in the wrong order: the root has the key 10 and its left child
the key 20.  The stored balances are the recomputed ones and the allocator
has two elements in use. -/
def bad_order_tree : tree Int 1 :=
  { allocator := ⟨[{ addr := 2, nfc_index := 0, chunks := [⟨3⟩] }]⟩
    root := .mk 5 10 (-1) (.mk 6 20 0 .sentinel .sentinel) .sentinel
    sentinel := 0
    count := 2 }

end avl_tree

namespace rb_tree

variable {α β : Type} {N : Nat}

/-- The memory of `misplaced_tree`: the black root with the key 10 at address
5, its black children with the keys 5 and 15 at the addresses 6 and 7, and
the red node with the key 20 at address 8, the right child of the node with
the key 5. -/
def misplaced_mem : Nat → node Int Unit := fun p =>
  if p = 5 then ⟨10, (), RB_TREE_BLACK, 6, 7, NULL⟩
  else if p = 6 then ⟨5, (), RB_TREE_BLACK, leaf, 8, 5⟩
  else if p = 7 then ⟨15, (), RB_TREE_BLACK, leaf, leaf, 5⟩
  else if p = 8 then ⟨20, (), RB_TREE_RED, leaf, leaf, 6⟩
  else ⟨0, (), RB_TREE_BLACK, leaf, leaf, NULL⟩

/-- A tree of four nodes in which every node is in order with its own
children, and the key 20 sits in the left subtree of the root, whose key is
10.  The allocator has the four elements in use. -/
def misplaced_tree : tree Int Unit 1 :=
  { root := 5, mem := misplaced_mem,
    allocator := ⟨[{ addr := 2, nfc_index := 0, chunks := [⟨15⟩] }]⟩, count := 4 }

/-- The tree that `misplaced_tree` holds. -/
def misplaced_rbt : rbt Int Unit :=
  .node 5 RB_TREE_BLACK 10 ()
    (.node 6 RB_TREE_BLACK 5 () .nil (.node 8 RB_TREE_RED 20 () .nil .nil))
    (.node 7 RB_TREE_BLACK 15 () .nil .nil)

end rb_tree

namespace rb_tree

/-- A tree structure over the memory `mem` with the root at address 5 and an
allocator of one chunk with the occupancy mask `mask`. -/
def tree_at (mem : Nat → node Int Unit) (mask count : Nat) : tree Int Unit 1 :=
  { root := 5, mem := mem,
    allocator := ⟨[{ addr := 2, nfc_index := 0, chunks := [⟨mask⟩] }]⟩, count := count }

/-- One node whose colour is neither red nor black. -/
def bad_color_tree : tree Int Unit 1 :=
  tree_at (fun p =>
    if p = 5 then ⟨10, (), 7, leaf, leaf, NULL⟩
    else ⟨0, (), RB_TREE_BLACK, leaf, leaf, NULL⟩) 1 1

/-- A red root. -/
def red_root_tree : tree Int Unit 1 :=
  tree_at (fun p =>
    if p = 5 then ⟨10, (), RB_TREE_RED, leaf, leaf, NULL⟩
    else ⟨0, (), RB_TREE_BLACK, leaf, leaf, NULL⟩) 1 1

/-- A black root with a black left child and no right child: two black nodes
on the paths through the child, one on the path to the right. -/
def uneven_tree : tree Int Unit 1 :=
  tree_at (fun p =>
    if p = 5 then ⟨10, (), RB_TREE_BLACK, 6, leaf, NULL⟩
    else if p = 6 then ⟨5, (), RB_TREE_BLACK, leaf, leaf, 5⟩
    else ⟨0, (), RB_TREE_BLACK, leaf, leaf, NULL⟩) 3 2

/-- One node whose parent link is not null although it is the root. -/
def parent_mismatch_tree : tree Int Unit 1 :=
  tree_at (fun p =>
    if p = 5 then ⟨10, (), RB_TREE_BLACK, leaf, leaf, 7⟩
    else ⟨0, (), RB_TREE_BLACK, leaf, leaf, NULL⟩) 1 1

/-- A black root with the key 10 and a red left child with the key 20. -/
def bad_key_tree : tree Int Unit 1 :=
  tree_at (fun p =>
    if p = 5 then ⟨10, (), RB_TREE_BLACK, 6, leaf, NULL⟩
    else if p = 6 then ⟨20, (), RB_TREE_RED, leaf, leaf, 5⟩
    else ⟨0, (), RB_TREE_BLACK, leaf, leaf, NULL⟩) 3 2

/-- The tree of `example_tree` with an allocator that has two elements in
use. -/
def dangling_tree : tree Int Unit 1 :=
  tree_at example_mem 3 1

end rb_tree

namespace rb_tree

variable {α β : Type} {N : Nat}

/-- The tree `example_tree` with a red leaf element. -/
def red_leaf_tree : tree Int Unit 1 :=
  set_color example_tree leaf RB_TREE_RED

/-- The tree and the node of `internal_adjust_tree.rotate` right before the
final rotation: after the optional first rotation and the recolouring of the
parent and the grandparent. -/
def internal_adjust_tree.recoloured (t : tree α β N) (node grandparent : Nat) :
    tree α β N × Nat :=
  let r : tree α β N × Nat :=
    if node = (t.mem (t.mem node).parent).right ∧
        (t.mem node).parent = (t.mem grandparent).left then
      let t1 := internal_rotate_left_pp t (.left grandparent)
      (t1, (t1.mem node).left)
    else if node = (t.mem (t.mem node).parent).left ∧
        (t.mem node).parent = (t.mem grandparent).right then
      let t1 := internal_rotate_right_pp t (.right grandparent)
      (t1, (t1.mem node).right)
    else (t, node)
  let t1 := r.1
  let node := r.2
  let t2 := set_color t1 (t1.mem node).parent RB_TREE_BLACK
  let t3 := set_color t2 grandparent RB_TREE_RED
  (t3, node)

/-- The tree of `internal_fixup_tree.far_nephew` after the sibling took the
colour of the parent and the parent became black. -/
def internal_fixup_tree.repainted (t : tree α β N) (parent sibling : Nat) : tree α β N :=
  set_color (set_color t sibling (t.mem parent).color) parent RB_TREE_BLACK

end rb_tree

namespace avl_tree

variable {α : Type} {N : Nat}

/-- A search context over `example_tree` for the key 10 with the flag
`height_changed` set. -/
def example_context : internal_search_context Int 1 :=
  { tree := example_tree, key := 10, height_changed := true, found := true }

/-- A node with the balance 1 whose left subtree is empty and whose right
child has the balance 1 and one right child: the shape of a node right after
its left subtree has become one level shorter. -/
def right_heavy : node Int :=
  .mk 5 10 1 .sentinel (.mk 6 20 1 .sentinel (.mk 7 30 0 .sentinel .sentinel))

/-- The mirror image of `right_heavy`. -/
def left_heavy : node Int :=
  .mk 5 30 (-1) (.mk 6 20 (-1) (.mk 7 10 0 .sentinel .sentinel) .sentinel) .sentinel

end avl_tree

namespace bsearch

variable {α : Type}

/-- The value an `int` holds after an arithmetic operation with the exact
result `x`: the result modulo 2^32, in the range from -2^31 to 2^31 - 1. -/
def int32 (x : Int) : Int := (x + 2 ^ 31) % 2 ^ 32 - 2 ^ 31

/-- The `for (;;)` loop of `binary_search`.  `BSEARCH_3W_COMPARE` stands for
the macro of the same name applied to the array and the key: it maps an index
to the result of the comparison, or to `none` where the macro would read
outside of the array. -/
def binary_search.loop (BSEARCH_3W_COMPARE : Int → Option Int) : Nat → Int → Int → Option Int
  | 0, _, _ => none
  | fuel + 1, «begin», «end» =>
    if «begin» > «end» then some (int32 (Int.not «begin»))
    else
      let mid := int32 («begin» + int32 (Int.tdiv (int32 («end» - «begin»)) 2))
      /- get comparison result, that is expected to be <0, ==0 or >0 -/
      match BSEARCH_3W_COMPARE mid with
      | none => none
      | some cmpret =>
        if cmpret > 0 then binary_search.loop BSEARCH_3W_COMPARE fuel (int32 (mid + 1)) «end»
        else if cmpret < 0 then
          binary_search.loop BSEARCH_3W_COMPARE fuel «begin» (int32 (mid - 1))
        /- cmpret==0 what indicates that a key has been found -/
        else some mid

/-- Source: `binary_search`. -/
def binary_search (BSEARCH_3W_COMPARE : Int → Option Int) (fuel : Nat) (count : Int) :
    Option Int :=
  binary_search.loop BSEARCH_3W_COMPARE fuel 0 (int32 (count - 1))

/-- The three-way comparison of a key with the element of a list at an
index: negative, zero or positive as the key is below, equal to or above the
element. -/
def compare_at [LinearOrder α] (array : List α) (key : α) (index : Int) : Option Int :=
  if index < 0 then none
  else
    match array.get? index.toNat with
    | none => none
    | some x => some (COMPARE key x)

/-- What the loop of `binary_search` returns: the index of the key, or the
complement of an index that has the smaller elements before it and the
larger ones from it on. -/
def result_ok [LinearOrder α] (array : List α) (key : α) (r : Int) : Prop :=
  (0 ≤ r → r < array.length ∧ array.get? r.toNat = some key) ∧
  (r < 0 → ∃ b : Nat, Int.not r = b ∧ b ≤ array.length ∧
    (∀ j x, j < b → array.get? j = some x → x < key) ∧
    (∀ j x, b ≤ j → array.get? j = some x → key < x))

end bsearch

namespace avl_tree

variable {α : Type} {N : Nat}

/-- The tree with `s` stored as the key of its sentinel element. -/
def set_sentinel_key (t : tree α N) (s : α) : tree α N := { t with sentinel := s }

/-- The search context over the tree with `s` stored as the key of its
sentinel element. -/
def context_set_sentinel_key (i : internal_search_context α N) (s : α) :
    internal_search_context α N :=
  { i with tree := set_sentinel_key i.tree s }

end avl_tree

namespace rb_tree

variable {α β : Type} {N : Nat}

/-- The tree with its root coloured `c`. -/
def rbt.paint (c : Nat) : rbt α β → rbt α β
  | .nil => .nil
  | .node a _ k v l r => .node a c k v l r

/-- What cases 3 to 6 of the fix-up loop make of the tree when the node `s`
is the left child of its parent and the sibling is black: `sl` is the child
of the sibling next to `s` and `sr` the other one; `go_on` is the rest of
the loop, entered at the parent. -/
def fixed_black_sibling_left (rest : List (frame α β)) (pa pc : Nat) (pk : α) (pv : β)
    (s : rbt α β) (sa : Nat) (sk : α) (sv : β) (sl sr : rbt α β)
    (go_on : rbt α β → rbt α β) : rbt α β :=
  if sl.color = RB_TREE_BLACK ∧ sr.color = RB_TREE_BLACK then
    if pc = RB_TREE_BLACK then
      go_on (rbt.node pa RB_TREE_BLACK pk pv s (rbt.node sa RB_TREE_RED sk sv sl sr))
    else plug rest (rbt.node pa RB_TREE_BLACK pk pv s (rbt.node sa RB_TREE_RED sk sv sl sr))
  else if sl.color = RB_TREE_RED ∧ sr.color = RB_TREE_BLACK then
    match sl with
    | .nil => plug rest (rbt.node pa pc pk pv s (rbt.node sa RB_TREE_BLACK sk sv .nil sr))
    | (rbt.node la _ lk lv ll lr) =>
      plug rest (rbt.node la pc lk lv (rbt.node pa RB_TREE_BLACK pk pv s ll) (rbt.node sa RB_TREE_BLACK sk sv lr sr))
  else
    plug rest (rbt.node sa pc sk sv (rbt.node pa RB_TREE_BLACK pk pv s sl) (sr.paint RB_TREE_BLACK))

/-- One round of the fix-up loop on the tree when the node `s` is the left
child of its parent: case 2 for a red sibling, then cases 3 to 6. -/
def fixed_step_left (rest : List (frame α β)) (pa pc : Nat) (pk : α) (pv : β)
    (sib s : rbt α β) (go_on : rbt α β → rbt α β) : rbt α β :=
  match sib with
  | .nil => plug rest (rbt.node pa pc pk pv s .nil)
  | (rbt.node sa sc sk sv sl sr) =>
    if sc = RB_TREE_RED then
      match sl with
      | .nil => plug rest (rbt.node pa pc pk pv s (rbt.node sa sc sk sv .nil sr))
      | (rbt.node la _ lk lv ll lr) =>
        fixed_black_sibling_left (.left sa RB_TREE_BLACK sk sv sr :: rest) pa RB_TREE_RED pk pv
          s la lk lv ll lr (fun x => x)
    else fixed_black_sibling_left rest pa pc pk pv s sa sk sv sl sr go_on

/-- What cases 3 to 6 of the fix-up loop make of the tree when the node `s`
is the right child of its parent and the sibling is black: `sl` is the child
of the sibling next to `s` and `sr` the other one; `go_on` is the rest of
the loop, entered at the parent. -/
def fixed_black_sibling_right (rest : List (frame α β)) (pa pc : Nat) (pk : α) (pv : β)
    (s : rbt α β) (sa : Nat) (sk : α) (sv : β) (sl sr : rbt α β)
    (go_on : rbt α β → rbt α β) : rbt α β :=
  if sl.color = RB_TREE_BLACK ∧ sr.color = RB_TREE_BLACK then
    if pc = RB_TREE_BLACK then
      go_on (rbt.node pa RB_TREE_BLACK pk pv (rbt.node sa RB_TREE_RED sk sv sr sl) s)
    else plug rest (rbt.node pa RB_TREE_BLACK pk pv (rbt.node sa RB_TREE_RED sk sv sr sl) s)
  else if sl.color = RB_TREE_RED ∧ sr.color = RB_TREE_BLACK then
    match sl with
    | .nil => plug rest (rbt.node pa pc pk pv (rbt.node sa RB_TREE_BLACK sk sv sr .nil) s)
    | (rbt.node la _ lk lv lr ll) =>
      plug rest (rbt.node la pc lk lv (rbt.node sa RB_TREE_BLACK sk sv sr lr) (rbt.node pa RB_TREE_BLACK pk pv ll s))
  else
    plug rest (rbt.node sa pc sk sv (sr.paint RB_TREE_BLACK) (rbt.node pa RB_TREE_BLACK pk pv sl s))

/-- One round of the fix-up loop on the tree when the node `s` is the right
child of its parent: case 2 for a red sibling, then cases 3 to 6. -/
def fixed_step_right (rest : List (frame α β)) (pa pc : Nat) (pk : α) (pv : β)
    (sib s : rbt α β) (go_on : rbt α β → rbt α β) : rbt α β :=
  match sib with
  | .nil => plug rest (rbt.node pa pc pk pv .nil s)
  | (rbt.node sa sc sk sv sr sl) =>
    if sc = RB_TREE_RED then
      match sl with
      | .nil => plug rest (rbt.node pa pc pk pv (rbt.node sa sc sk sv sr .nil) s)
      | (rbt.node la _ lk lv lr ll) =>
        fixed_black_sibling_right (.right sa RB_TREE_BLACK sk sv sr :: rest) pa RB_TREE_RED pk pv
          s la lk lv ll lr (fun x => x)
    else fixed_black_sibling_right rest pa pc pk pv s sa sk sv sl sr go_on

/-- The fix-up loop of `internal_fixup_tree` on the tree: `s` is the subtree
at the node of the loop and the path leads from it up to the root. -/
def fixed_loop : List (frame α β) → rbt α β → rbt α β
  | [], s => s
  | .left pa pc pk pv sib :: rest, s =>
    fixed_step_left rest pa pc pk pv sib s (fun x => fixed_loop rest x)
  | .right pa pc pk pv sib :: rest, s =>
    fixed_step_right rest pa pc pk pv sib s (fun x => fixed_loop rest x)

/-- What `internal_fixup_tree` makes of the tree: the node of colour `c` at
the lower end of the path is taken out and its child `child` takes its
place. -/
def fixed_tree (ctx : List (frame α β)) (c : Nat) (child : rbt α β) : rbt α β :=
  if c = RB_TREE_RED then plug ctx child
  else if child.color = RB_TREE_RED then plug ctx (child.paint RB_TREE_BLACK)
  else fixed_loop ctx child

/-- The shape of a tree: the tree with its colours and keys at their
positions, without the addresses and the values of the nodes. -/
def rbt.shape : rbt α β → rbt α Unit
  | .nil => .nil
  | .node _ c k _ l r => .node 0 c k () l.shape r.shape

/-- The shape of a step of a path. -/
def frame.shape : frame α β → frame α Unit
  | .left _ c k _ r => .left 0 c k () r.shape
  | .right _ c k _ l => .right 0 c k () l.shape

end rb_tree

namespace rb_tree

variable {α β : Type} {N : Nat}

/-- The outcome of a part of the fix-up: it returns a tree structure that
holds the tree `T1`. -/
def fix_post (t : tree α β N) (res : Option (tree α β N)) (T1 : rbt α β) : Prop :=
  ∃ t1, res = some t1 ∧ layout t1 T1 ∧ aux_same t t1

end rb_tree

namespace rb_tree

/-- The memory of `two_children_tree`: the black root with the key 20 at
address 5, its black children with the keys 10 and 30 at the addresses 6 and
7. -/
def two_children_mem : Nat → node Int Unit := fun p =>
  if p = 5 then ⟨20, (), RB_TREE_BLACK, 6, 7, NULL⟩
  else if p = 6 then ⟨10, (), RB_TREE_BLACK, leaf, leaf, 5⟩
  else if p = 7 then ⟨30, (), RB_TREE_BLACK, leaf, leaf, 5⟩
  else ⟨0, (), RB_TREE_BLACK, leaf, leaf, NULL⟩

/-- A red-black tree of three black nodes; its root has two children. -/
def two_children_tree : tree Int Unit 1 := tree_at two_children_mem 7 3

/-- The tree that `two_children_tree` holds. -/
def two_children_rbt : rbt Int Unit :=
  .node 5 RB_TREE_BLACK 20 () (.node 6 RB_TREE_BLACK 10 () .nil .nil)
    (.node 7 RB_TREE_BLACK 30 () .nil .nil)

end rb_tree

namespace fixed_alloc

/-- An allocator with one cluster of one chunk whose occupancy mask is
`mask`; the element `j` of the chunk is at address `5 + j`. -/
def one_chunk_allocator (mask : Nat) : allocator 1 :=
  ⟨[{ addr := 2, nfc_index := 0, chunks := [⟨mask⟩] }]⟩

end fixed_alloc

namespace rb_tree

variable {β : Type}

/-- The memory of `red_nephews_tree`; the node with the key `k` holds the
value `v k`. -/
def red_nephews_mem (v : Int → β) : Nat → node Int β := fun p =>
  if p = 5 then ⟨20, v 20, RB_TREE_BLACK, 6, 7, NULL⟩
  else if p = 6 then ⟨10, v 10, RB_TREE_BLACK, 8, 9, 5⟩
  else if p = 7 then ⟨30, v 30, RB_TREE_BLACK, leaf, leaf, 5⟩
  else if p = 8 then ⟨5, v 5, RB_TREE_RED, leaf, leaf, 6⟩
  else if p = 9 then ⟨15, v 15, RB_TREE_RED, leaf, leaf, 6⟩
  else ⟨0, v 0, RB_TREE_BLACK, leaf, leaf, NULL⟩

/-- A red-black tree of five nodes: the black root 20 at address 5 with the
black children 10, at address 6, and 30, at address 7; the node 10 has the red
children 5 and 15 at the addresses 8 and 9.  The successor of the root is its
right child, and when that child goes, its sibling 10 is black with two red
children. -/
def red_nephews_tree (v : Int → β) : tree Int β 1 :=
  { root := 5, mem := red_nephews_mem v, allocator := fixed_alloc.one_chunk_allocator 31,
    count := 5 }

/-- The tree that `red_nephews_tree` holds. -/
def red_nephews_rbt (v : Int → β) : rbt Int β :=
  .node 5 RB_TREE_BLACK 20 (v 20)
    (.node 6 RB_TREE_BLACK 10 (v 10) (.node 8 RB_TREE_RED 5 (v 5) .nil .nil)
      (.node 9 RB_TREE_RED 15 (v 15) .nil .nil))
    (.node 7 RB_TREE_BLACK 30 (v 30) .nil .nil)

/-- The memory of `deep_successor_tree`. -/
def deep_successor_mem (v : Int → β) : Nat → node Int β := fun p =>
  if p = 5 then ⟨20, v 20, RB_TREE_BLACK, 6, 7, NULL⟩
  else if p = 6 then ⟨10, v 10, RB_TREE_BLACK, leaf, leaf, 5⟩
  else if p = 7 then ⟨40, v 40, RB_TREE_BLACK, 8, leaf, 5⟩
  else if p = 8 then ⟨30, v 30, RB_TREE_RED, leaf, leaf, 7⟩
  else ⟨0, v 0, RB_TREE_BLACK, leaf, leaf, NULL⟩

/-- A red-black tree of four nodes: the black root 20 at address 5 with the
black children 10, at address 6, and 40, at address 7; the node 40 has the red
left child 30 at address 8, which is the successor of the root and lies below
the right child of the root. -/
def deep_successor_tree (v : Int → β) : tree Int β 1 :=
  { root := 5, mem := deep_successor_mem v, allocator := fixed_alloc.one_chunk_allocator 15,
    count := 4 }

/-- The tree that `deep_successor_tree` holds. -/
def deep_successor_rbt (v : Int → β) : rbt Int β :=
  .node 5 RB_TREE_BLACK 20 (v 20) (.node 6 RB_TREE_BLACK 10 (v 10) .nil .nil)
    (.node 7 RB_TREE_BLACK 40 (v 40) (.node 8 RB_TREE_RED 30 (v 30) .nil .nil) .nil)

/-- What a test reads of a tree structure with one cluster: the root link
and the count, the masks of the chunks of each cluster, and the key, colour,
left, right and parent link of the nodes at the addresses 5 to 10. -/
def snapshot (t : tree Int β 1) : List (List Int) :=
  [(t.root : Int), (t.count : Int)] ::
    t.allocator.cluster.map (fun c => c.chunks.map (fun ch => (ch.free_mask : Int))) ++
    [5, 6, 7, 8, 9, 10].map (fun p =>
      [(t.mem p).key, ((t.mem p).color : Int), ((t.mem p).left : Int), ((t.mem p).right : Int),
        ((t.mem p).parent : Int)])

end rb_tree

namespace rb_tree

/-- The memory of `scenario_tree`. -/
def scenario_mem : Nat → node Int Unit := fun p =>
  if p = 5 then ⟨10, (), RB_TREE_BLACK, leaf, 8, 7⟩
  else if p = 6 then ⟨40, (), RB_TREE_BLACK, leaf, 9, 7⟩
  else if p = 7 then ⟨30, (), RB_TREE_BLACK, 5, 6, NULL⟩
  else if p = 8 then ⟨20, (), RB_TREE_RED, leaf, leaf, 5⟩
  else if p = 9 then ⟨50, (), RB_TREE_RED, leaf, leaf, 6⟩
  else ⟨0, (), RB_TREE_BLACK, leaf, leaf, NULL⟩

/-- The red-black tree that the insertion of 10, 40, 30, 20 and 50, in this
order, into an empty tree builds: the black root 30 at address 7, its black
children 10 and 40 at the addresses 5 and 6, and their red right children 20
and 50 at the addresses 8 and 9. -/
def scenario_tree : tree Int Unit 1 :=
  { root := 7, mem := scenario_mem, allocator := fixed_alloc.one_chunk_allocator 31, count := 5 }

/-- The tree that `scenario_tree` holds. -/
def scenario_rbt : rbt Int Unit :=
  .node 7 RB_TREE_BLACK 30 ()
    (.node 5 RB_TREE_BLACK 10 () .nil (.node 8 RB_TREE_RED 20 () .nil .nil))
    (.node 6 RB_TREE_BLACK 40 () .nil (.node 9 RB_TREE_RED 50 () .nil .nil))

/-- The memory of `red_uncle_tree`. -/
def red_uncle_mem : Nat → node Int Unit := fun p =>
  if p = 5 then ⟨20, (), RB_TREE_BLACK, 6, 7, NULL⟩
  else if p = 6 then ⟨10, (), RB_TREE_RED, 8, leaf, 5⟩
  else if p = 7 then ⟨30, (), RB_TREE_RED, leaf, leaf, 5⟩
  else if p = 8 then ⟨5, (), RB_TREE_RED, leaf, leaf, 6⟩
  else ⟨0, (), RB_TREE_BLACK, leaf, leaf, NULL⟩

/-- The tree right after the red node 5, at address 8, has been linked below
the red node 10: the root 20 is black, its children 10 and 30 are red, so the
new node has a red parent and a red uncle. -/
def red_uncle_tree : tree Int Unit 1 := tree_at red_uncle_mem 15 4

/-- The path from the new node of `red_uncle_tree` up to the root. -/
def red_uncle_path : List (frame Int Unit) :=
  [.left 6 RB_TREE_RED 10 () .nil,
    .left 5 RB_TREE_BLACK 20 () (.node 7 RB_TREE_RED 30 () .nil .nil)]

/-- The memory of `red_parent_tree`. -/
def red_parent_mem : Nat → node Int Unit := fun p =>
  if p = 5 then ⟨20, (), RB_TREE_BLACK, 6, 7, NULL⟩
  else if p = 6 then ⟨10, (), RB_TREE_BLACK, leaf, leaf, 5⟩
  else if p = 7 then ⟨40, (), RB_TREE_BLACK, 8, leaf, 5⟩
  else if p = 8 then ⟨30, (), RB_TREE_RED, 9, leaf, 7⟩
  else if p = 9 then ⟨25, (), RB_TREE_RED, leaf, leaf, 8⟩
  else ⟨0, (), RB_TREE_BLACK, leaf, leaf, NULL⟩

/-- The tree right after the red node 25, at address 9, has been linked below
the red node 30 of `deep_successor_tree`: the new node has a red parent, the
grandparent 40 is black and there is no uncle. -/
def red_parent_tree : tree Int Unit 1 := tree_at red_parent_mem 31 5

/-- The path from the new node of `red_parent_tree` up to the root. -/
def red_parent_path : List (frame Int Unit) :=
  [.left 8 RB_TREE_RED 30 () .nil, .left 7 RB_TREE_BLACK 40 () .nil,
    .right 5 RB_TREE_BLACK 20 () (.node 6 RB_TREE_BLACK 10 () .nil .nil)]

/-- The memory of `short_right_tree`. -/
def short_right_mem : Nat → node Int Unit := fun p =>
  if p = 1 then ⟨0, (), RB_TREE_BLACK, leaf, leaf, 5⟩
  else if p = 5 then ⟨20, (), RB_TREE_BLACK, 6, leaf, NULL⟩
  else if p = 6 then ⟨10, (), RB_TREE_BLACK, leaf, leaf, 5⟩
  else ⟨0, (), RB_TREE_BLACK, leaf, leaf, NULL⟩

/-- The tree `two_children_tree` right after its black right child has been
taken out: the right link of the root is the leaf, whose parent link is the
root, and the paths on the right lack one black node. -/
def short_right_tree : tree Int Unit 1 := tree_at short_right_mem 3 2

/-- The path from the right link of the root of `short_right_tree` up to the
root. -/
def short_right_path : List (frame Int Unit) :=
  [.right 5 RB_TREE_BLACK 20 () (.node 6 RB_TREE_BLACK 10 () .nil .nil)]

/-- The memory of `short_right_nephews_tree`. -/
def short_right_nephews_mem : Nat → node Int Unit := fun p =>
  if p = 1 then ⟨0, (), RB_TREE_BLACK, leaf, leaf, 5⟩
  else if p = 5 then ⟨20, (), RB_TREE_BLACK, 6, leaf, NULL⟩
  else if p = 6 then ⟨10, (), RB_TREE_BLACK, 8, 9, 5⟩
  else if p = 8 then ⟨5, (), RB_TREE_RED, leaf, leaf, 6⟩
  else if p = 9 then ⟨15, (), RB_TREE_RED, leaf, leaf, 6⟩
  else ⟨0, (), RB_TREE_BLACK, leaf, leaf, NULL⟩

/-- The tree `red_nephews_tree` right after its black right child has been
taken out: the sibling 10 of the missing node is black and has two red
children. -/
def short_right_nephews_tree : tree Int Unit 1 := tree_at short_right_nephews_mem 27 4

/-- The path from the right link of the root of `short_right_nephews_tree` up
to the root. -/
def short_right_nephews_path : List (frame Int Unit) :=
  [.right 5 RB_TREE_BLACK 20 ()
    (.node 6 RB_TREE_BLACK 10 () (.node 8 RB_TREE_RED 5 () .nil .nil)
      (.node 9 RB_TREE_RED 15 () .nil .nil))]

end rb_tree

namespace avl_tree

/-- The AVL tree that the insertion of 10, 40, 30, 20 and 50, in this order,
into an empty tree builds: the root 30 at address 7 with the children 10 and
40 at the addresses 5 and 6, whose right children 20 and 50 are at the
addresses 8 and 9. -/
def scenario_tree : tree Int 1 :=
  { allocator := fixed_alloc.one_chunk_allocator 31
    root := .mk 7 30 0 (.mk 5 10 1 .sentinel (.mk 8 20 0 .sentinel .sentinel))
      (.mk 6 40 1 .sentinel (.mk 9 50 0 .sentinel .sentinel))
    sentinel := 0
    count := 5 }

/-- An AVL tree whose root 20 leans to the right: its left child 10 has no
children, its right child 40 has the children 30 and 50.  When the root goes,
the node 10 takes its place, the left subtree becomes empty and
`internal_balance_left` rotates. -/
def rotation_tree : tree Int 1 :=
  { allocator := fixed_alloc.one_chunk_allocator 31
    root := .mk 5 20 1 (.mk 6 10 0 .sentinel .sentinel)
      (.mk 7 40 0 (.mk 8 30 0 .sentinel .sentinel) (.mk 9 50 0 .sentinel .sentinel))
    sentinel := 0
    count := 5 }

end avl_tree

/-! Part II: theorems -/

namespace fixed_alloc

variable {N : Nat}

theorem mask_has_clear_bit (m : Nat) (h1 : m < 2 ^ CHUNK_NUM_BITS) (h2 : m ≠ MASK_TYPE_MAX) :
    ∃ b, b < CHUNK_NUM_BITS ∧ m.testBit b = false := by
  by_contra hcon
  push_neg at hcon
  apply h2
  apply Nat.eq_of_testBit_eq
  intro i
  rw [MASK_TYPE_MAX, Nat.testBit_two_pow_sub_one]
  by_cases hi : i < CHUNK_NUM_BITS
  · simpa [hi] using hcon i hi
  · have : m < 2 ^ i := lt_of_lt_of_le h1 (Nat.pow_le_pow_right (by decide) (not_lt.mp hi))
    simp [hi, Nat.testBit_lt_two_pow this]

theorem and_two_pow_eq_zero (m i : Nat) : m &&& 2 ^ i = 0 ↔ m.testBit i = false := by
  rw [Nat.and_two_pow]
  cases h : m.testBit i <;> simp

theorem alloc_loop_spec (m : Nat) :
    ∀ n i, n + i = CHUNK_NUM_BITS → (∀ b, b < i → m.testBit b = true) →
      (∃ b, b < CHUNK_NUM_BITS ∧ m.testBit b = false) →
      ∃ j, i ≤ j ∧ j < CHUNK_NUM_BITS ∧ m.testBit j = false ∧
        internal_alloc_elem_from_chunk.loop m n i (2 ^ i) = some (m ||| 2 ^ j, j) := by
  intro n
  induction n with
  | zero =>
    intro i hi hall ⟨b, hb, hbf⟩
    have := hall b (by omega)
    rw [this] at hbf; exact absurd hbf (by simp)
  | succ n ih =>
    intro i hi hall hex
    rw [internal_alloc_elem_from_chunk.loop]
    by_cases h : m.testBit i = false
    · refine ⟨i, le_refl _, by omega, h, ?_⟩
      rw [if_pos ((and_two_pow_eq_zero m i).2 h)]
    · rw [if_neg (fun hh => h ((and_two_pow_eq_zero m i).1 hh))]
      have hall' : ∀ b, b < i + 1 → m.testBit b = true := by
        intro b hb
        rcases Nat.lt_succ_iff_lt_or_eq.mp hb with hlt | rfl
        · exact hall b hlt
        · simpa using h
      cases n with
      | zero =>
        obtain ⟨b, hb, hbf⟩ := hex
        have := hall' b (by omega)
        rw [this] at hbf; exact absurd hbf (by simp)
      | succ n =>
        have hmask : (2 ^ i <<< 1) % 2 ^ CHUNK_NUM_BITS = 2 ^ (i + 1) := by
          rw [Nat.shiftLeft_eq, ← Nat.pow_succ]
          apply Nat.mod_eq_of_lt
          apply Nat.pow_lt_pow_right (by decide)
          omega
        rw [hmask]
        obtain ⟨j, hj1, hj2, hj3, hj4⟩ := ih (i + 1) (by omega) hall' hex
        exact ⟨j, by omega, hj2, hj3, hj4⟩

theorem alloc_from_chunk_spec (chunk : internal_chunk) (addr : Nat)
    (h1 : chunk.free_mask < 2 ^ CHUNK_NUM_BITS) (h2 : chunk.free_mask ≠ MASK_TYPE_MAX) :
    ∃ j, j < CHUNK_NUM_BITS ∧ chunk.free_mask.testBit j = false ∧
      internal_alloc_elem_from_chunk chunk addr =
        some (⟨chunk.free_mask ||| 2 ^ j⟩, arr_addr addr j) := by
  obtain ⟨j, _, hj2, hj3, hj4⟩ :=
    alloc_loop_spec chunk.free_mask CHUNK_NUM_BITS 0 (by simp) (by simp)
      (mask_has_clear_bit _ h1 h2)
  refine ⟨j, hj2, hj3, ?_⟩
  simp only [pow_zero] at hj4
  simp [internal_alloc_elem_from_chunk, h2, hj4]

end fixed_alloc

namespace fixed_alloc

variable {N : Nat}

theorem slot_used_congr (c1 c2 : internal_chunk_cluster) (h : c1.chunks = c2.chunks)
    (i j : Nat) : slot_used c1 i j ↔ slot_used c2 i j := by
  simp only [slot_used, h]

theorem slot_used_set (chunks : List internal_chunk) (a n : Nat) (i' : Nat)
    (ch : internal_chunk) (i2 j2 : Nat) (hi : i' < chunks.length) :
    slot_used ⟨a, n, chunks.set i' ch⟩ i2 j2 ↔
      (i2 = i' ∧ ch.free_mask.testBit j2 = true) ∨
      (i2 ≠ i' ∧ slot_used ⟨a, n, chunks⟩ i2 j2) := by
  simp only [slot_used, List.get?_eq_getElem?, List.getElem?_set]
  by_cases h : i' = i2
  · subst h
    simp [hi]
  · have h' : i2 ≠ i' := fun e => h e.symm
    simp [h, h']

theorem cluster_ok_set (c : internal_chunk_cluster) (i n : Nat) (ch : internal_chunk)
    (hc : cluster_ok N c) (hch : ch.free_mask < 2 ^ CHUNK_NUM_BITS) :
    cluster_ok N ⟨c.addr, n, c.chunks.set i ch⟩ := by
  obtain ⟨h1, h2⟩ := hc
  refine ⟨by simp [h1], ?_⟩
  intro x hx
  rcases List.mem_or_eq_of_mem_set hx with h | h
  · exact h2 x h
  · rw [h]; exact hch

theorem two_pow_lt (j : Nat) (hj : j < CHUNK_NUM_BITS) : 2 ^ j < 2 ^ CHUNK_NUM_BITS :=
  Nat.pow_lt_pow_right (by decide) hj

theorem find_chunks_spec (c : internal_chunk_cluster) (hc : cluster_ok N c) :
    ∀ n i, n + i ≤ N →
      (internal_find_free_elem.chunks c n i = some (c, NULL) ∧
        ∀ i', i ≤ i' → i' < i + n →
          ∃ ch, c.chunks.get? i' = some ch ∧ ch.free_mask = MASK_TYPE_MAX) ∨
      ∃ c1 i' j, internal_find_free_elem.chunks c n i =
          some (c1, arr_addr (chunk_addr c.addr i') j) ∧
        i' < N ∧ j < CHUNK_NUM_BITS ∧ ¬ slot_used c i' j ∧ c1.addr = c.addr ∧
        cluster_ok N c1 ∧
        ∀ i2 j2, slot_used c1 i2 j2 ↔ (i2 = i' ∧ j2 = j) ∨ slot_used c i2 j2 := by
  intro n
  induction n with
  | zero => intro i _; left; exact ⟨rfl, fun i' h1 h2 => by omega⟩
  | succ n ih =>
    intro i hi
    have hlen : i < c.chunks.length := by rw [hc.1]; omega
    rw [internal_find_free_elem.chunks]
    have hget : c.chunks.get? i = some (c.chunks.get ⟨i, hlen⟩) := List.get?_eq_get hlen
    rw [hget]
    simp only
    by_cases hfull : (c.chunks.get ⟨i, hlen⟩).free_mask = MASK_TYPE_MAX
    · simp only [hfull, ne_eq, not_true_eq_false, if_false]
      rcases ih (i + 1) (by omega) with ⟨h, hall⟩ | ⟨c1, i', j, h1, h2⟩
      · left
        refine ⟨h, ?_⟩
        intro i' h1 h2
        by_cases he : i' = i
        · subst he; exact ⟨_, hget, hfull⟩
        · exact hall i' (by omega) (by omega)
      · right; exact ⟨c1, i', j, h1, h2⟩
    · right
      have hmem : c.chunks.get ⟨i, hlen⟩ ∈ c.chunks := List.get_mem _ _ _
      have hlt := hc.2 _ hmem
      obtain ⟨j, hj1, hj2, hj3⟩ :=
        alloc_from_chunk_spec (c.chunks.get ⟨i, hlen⟩) (chunk_addr c.addr i) hlt hfull
      simp only [ne_eq, hfull, not_false_eq_true, if_true, hj3]
      have hnew : (c.chunks.get ⟨i, hlen⟩).free_mask ||| 2 ^ j < 2 ^ CHUNK_NUM_BITS :=
        Nat.or_lt_two_pow hlt (two_pow_lt j hj1)
      have hnot : ¬ slot_used c i j := by
        rintro ⟨ch, hch1, hch2⟩
        rw [hget] at hch1
        cases hch1
        rw [hj2] at hch2
        exact absurd hch2 (by simp)
      have hiff : ∀ nfc i2 j2,
          slot_used ⟨c.addr, nfc, c.chunks.set i
            ⟨(c.chunks.get ⟨i, hlen⟩).free_mask ||| 2 ^ j⟩⟩ i2 j2 ↔
            (i2 = i ∧ j2 = j) ∨ slot_used c i2 j2 := by
        intro nfc i2 j2
        rw [slot_used_set _ _ _ _ _ _ _ hlen]
        simp only [Nat.testBit_lor, Nat.testBit_two_pow, Bool.or_eq_true, decide_eq_true_eq]
        have hc' : slot_used ⟨c.addr, nfc, c.chunks⟩ i2 j2 ↔ slot_used c i2 j2 :=
          slot_used_congr _ _ rfl _ _
        rw [hc']
        constructor
        · rintro (⟨rfl, h | h⟩ | ⟨_, h⟩)
          · right; exact ⟨_, hget, h⟩
          · left; exact ⟨rfl, h.symm⟩
          · right; exact h
        · rintro (⟨rfl, rfl⟩ | h)
          · left; exact ⟨rfl, Or.inr rfl⟩
          · by_cases he : i2 = i
            · subst he
              obtain ⟨ch, hch1, hch2⟩ := h
              rw [hget] at hch1
              cases hch1
              left; exact ⟨rfl, Or.inl hch2⟩
            · right; exact ⟨he, h⟩
      split
      · exact ⟨_, i, j, rfl, by omega, hj1, hnot, rfl, cluster_ok_set c i _ _ hc hnew,
          hiff _⟩
      · exact ⟨_, i, j, rfl, by omega, hj1, hnot, rfl, cluster_ok_set c i _ _ hc hnew,
          hiff _⟩

end fixed_alloc

namespace fixed_alloc

variable {N : Nat}

theorem is_live_iff (a : allocator N) (p : Nat) : is_live a p ↔ live_in N a.cluster p :=
  Iff.rfl

theorem live_in_cons (c : internal_chunk_cluster) (cl : List internal_chunk_cluster) (p : Nat) :
    live_in N (c :: cl) p ↔ live_c N c p ∨ live_in N cl p := by
  simp [live_in]

theorem live_in_append (l1 l2 : List internal_chunk_cluster) (p : Nat) :
    live_in N (l1 ++ l2) p ↔ live_in N l1 p ∨ live_in N l2 p := by
  simp only [live_in, List.mem_append]
  constructor
  · rintro ⟨c, h1 | h1, h2⟩
    · left; exact ⟨c, h1, h2⟩
    · right; exact ⟨c, h1, h2⟩
  · rintro (⟨c, h1, h2⟩ | ⟨c, h1, h2⟩)
    · exact ⟨c, Or.inl h1, h2⟩
    · exact ⟨c, Or.inr h1, h2⟩

theorem slot_range (base i j : Nat) (hN : 0 < N) (hi : i < N) (hj : j < CHUNK_NUM_BITS) :
    base + 3 ≤ arr_addr (chunk_addr base i) j ∧
      arr_addr (chunk_addr base i) j < base + cluster_bytes N := by
  simp only [arr_addr, chunk_addr, cluster_bytes, SIZEOF_CLUSTER, SIZEOF_CHUNK,
    OFFSETOF_CHUNKS, CHUNK_NUM_BITS] at *
  omega

theorem slot_inj (base i1 j1 i2 j2 : Nat) (hj1 : j1 < CHUNK_NUM_BITS)
    (hj2 : j2 < CHUNK_NUM_BITS)
    (h : arr_addr (chunk_addr base i1) j1 = arr_addr (chunk_addr base i2) j2) :
    i1 = i2 ∧ j1 = j2 := by
  simp only [arr_addr, chunk_addr, SIZEOF_CHUNK, OFFSETOF_CHUNKS, CHUNK_NUM_BITS] at *
  omega

theorem live_c_range (c : internal_chunk_cluster) (p : Nat) (hN : 0 < N) (h : live_c N c p) :
    c.addr + 3 ≤ p ∧ p < c.addr + cluster_bytes N := by
  obtain ⟨i, hi, j, hj, rfl, _⟩ := h
  exact slot_range c.addr i j hN hi hj

theorem XMALLOC_succ (k s : Nat) : XMALLOC (k + 1) s = XMALLOC k s + s := by
  simp only [XMALLOC, Nat.succ_mul]; omega

theorem XMALLOC_ge (k s : Nat) : 2 ≤ XMALLOC k s := by
  simp only [XMALLOC, HEAP_BASE]; omega

theorem chain_bound : ∀ (cl : List internal_chunk_cluster), chain_ok N cl →
    ∀ c ∈ cl, 2 ≤ c.addr ∧ c.addr + cluster_bytes N ≤ XMALLOC cl.length (cluster_bytes N) := by
  intro cl
  induction cl with
  | nil => intro _ c hc; simp at hc
  | cons c0 prev ih =>
    intro h c hc
    obtain ⟨h1, _, h3⟩ := h
    simp only [List.length_cons, XMALLOC_succ]
    rcases List.mem_cons.mp hc with rfl | hc
    · rw [h1]; exact ⟨XMALLOC_ge _ _, le_refl _⟩
    · have := ih h3 c hc
      omega

theorem live_in_bound (cl : List internal_chunk_cluster) (hN : 0 < N) (h : chain_ok N cl)
    (p : Nat) (hp : live_in N cl p) : 2 ≤ p ∧ p < XMALLOC cl.length (cluster_bytes N) := by
  obtain ⟨c, hc, hl⟩ := hp
  have h1 := chain_bound cl h c hc
  have h2 := live_c_range c p hN hl
  omega

theorem find_free_spec (hN : 0 < N) : ∀ (cl : List internal_chunk_cluster), chain_ok N cl →
    (internal_find_free_elem N cl = some (cl, NULL) ∧
      ∀ c ∈ cl, ∀ i', c.nfc_index ≤ i' → i' < N →
        ∃ ch, c.chunks.get? i' = some ch ∧ ch.free_mask = MASK_TYPE_MAX) ∨
    ∃ cl1 p, internal_find_free_elem N cl = some (cl1, p) ∧ p ≠ NULL ∧
      2 ≤ p ∧ p < XMALLOC cl.length (cluster_bytes N) ∧
      chain_ok N cl1 ∧ cl1.length = cl.length ∧ ¬ live_in N cl p ∧
      ∀ q, live_in N cl1 q ↔ q = p ∨ live_in N cl q := by
  intro cl
  induction cl with
  | nil => intro _; left; exact ⟨rfl, fun c hc => by simp at hc⟩
  | cons c prev ih =>
    intro h
    obtain ⟨h1, h2, h3⟩ := h
    rw [internal_find_free_elem]
    by_cases hn : c.nfc_index ≤ N
    · rcases find_chunks_spec c h2 (N - c.nfc_index) c.nfc_index (by omega) with
        ⟨he, hfull⟩ | ⟨c1, i', j, he, hi', hj, hnot, haddr, hok, hiff⟩
      · rw [he]
        simp only [NULL, ne_eq, not_true_eq_false, if_false]
        rcases ih h3 with ⟨hp, hpfull⟩ | ⟨prev1, p, hp, hp0, hp2, hpb, hpc, hpl, hpn, hpiff⟩
        · left; rw [hp]
          refine ⟨rfl, ?_⟩
          intro c' hc' i' h1' h2'
          rcases List.mem_cons.mp hc' with rfl | hc'
          · exact hfull i' h1' (by omega)
          · exact hpfull c' hc' i' h1' h2'
        · right
          rw [hp]
          refine ⟨c :: prev1, p, rfl, hp0, hp2, ?_, ⟨by rw [h1, hpl], h2, hpc⟩, by simp [hpl],
            ?_, ?_⟩
          · simp only [List.length_cons, XMALLOC_succ]; omega
          · rw [live_in_cons]
            rintro (hl | hl)
            · have := live_c_range c p hN hl
              omega
            · exact hpn hl
          · intro q
            rw [live_in_cons, live_in_cons, hpiff]
            constructor
            · rintro (h | h | h)
              · exact Or.inr (Or.inl h)
              · exact Or.inl h
              · exact Or.inr (Or.inr h)
            · rintro (h | h | h)
              · exact Or.inr (Or.inl h)
              · exact Or.inl h
              · exact Or.inr (Or.inr h)
      · right
        rw [he]
        have hr := slot_range c.addr i' j hN hi' hj
        have hne : arr_addr (chunk_addr c.addr i') j ≠ NULL := by
          simp only [NULL]; omega
        simp only [ne_eq, hne, not_false_eq_true, if_true]
        have hc2 : 2 ≤ c.addr := by rw [h1]; exact XMALLOC_ge _ _
        refine ⟨c1 :: prev, _, rfl, hne, by omega, ?_, ⟨by rw [haddr, h1], hok, h3⟩,
          by simp, ?_, ?_⟩
        · simp only [List.length_cons, XMALLOC_succ]; rw [← h1]; omega
        · rw [live_in_cons]
          rintro (hl | hl)
          · obtain ⟨i2, _, j2, hj2, heq, hu⟩ := hl
            obtain ⟨rfl, rfl⟩ := slot_inj c.addr i' j i2 j2 hj hj2 heq
            exact hnot hu
          · have := live_in_bound prev hN h3 _ hl
            omega
        · intro q
          rw [live_in_cons, live_in_cons]
          constructor
          · rintro (⟨i2, hi2, j2, hj2, heq, hu⟩ | h)
            · rcases (hiff i2 j2).1 hu with ⟨rfl, rfl⟩ | hu'
              · left; rw [heq, haddr]
              · right; left; exact ⟨i2, hi2, j2, hj2, by rw [heq, haddr], hu'⟩
            · exact Or.inr (Or.inr h)
          · rintro (h | ⟨i2, hi2, j2, hj2, heq, hu⟩ | h)
            · left
              exact ⟨i', hi', j, hj, by rw [h, haddr], (hiff i' j).2 (Or.inl ⟨rfl, rfl⟩)⟩
            · left
              exact ⟨i2, hi2, j2, hj2, by rw [heq, haddr], (hiff i2 j2).2 (Or.inr hu)⟩
            · exact Or.inr h
    · have hz : N - c.nfc_index = 0 := by omega
      rw [hz, internal_find_free_elem.chunks]
      simp only [NULL, ne_eq, not_true_eq_false, if_false]
      rcases ih h3 with ⟨hp, hpfull⟩ | ⟨prev1, p, hp, hp0, hp2, hpb, hpc, hpl, hpn, hpiff⟩
      · left; rw [hp]
        refine ⟨rfl, ?_⟩
        intro c' hc' i' h1' h2'
        rcases List.mem_cons.mp hc' with rfl | hc'
        · omega
        · exact hpfull c' hc' i' h1' h2'
      · right
        rw [hp]
        refine ⟨c :: prev1, p, rfl, hp0, hp2, ?_, ⟨by rw [h1, hpl], h2, hpc⟩, by simp [hpl],
          ?_, ?_⟩
        · simp only [List.length_cons, XMALLOC_succ]; omega
        · rw [live_in_cons]
          rintro (hl | hl)
          · have := live_c_range c p hN hl
            omega
          · exact hpn hl
        · intro q
          rw [live_in_cons, live_in_cons, hpiff]
          constructor
          · rintro (h | h | h)
            · exact Or.inr (Or.inl h)
            · exact Or.inl h
            · exact Or.inr (Or.inr h)
          · rintro (h | h | h)
            · exact Or.inr (Or.inl h)
            · exact Or.inl h
            · exact Or.inr (Or.inr h)

theorem alloc_elem_spec (a : allocator N) (h : allocator_ok a) :
    ∃ a1 p, alloc_elem a = some (a1, p) ∧ allocator_ok a1 ∧ 2 ≤ p ∧ ¬ is_live a p ∧
      ∀ q, is_live a1 q ↔ q = p ∨ is_live a q := by
  obtain ⟨hN, hch⟩ := h
  rw [alloc_elem]
  rcases find_free_spec hN a.cluster hch with
    ⟨he, _⟩ | ⟨cl1, p, he, hp0, hp2, _, hpc, _, hpn, hpiff⟩
  · rw [he]
    simp only [if_true]
    have hnew : chain_ok N
        (⟨XMALLOC a.cluster.length (cluster_bytes N), 0, List.replicate N ⟨0⟩⟩ :: a.cluster) := by
      refine ⟨rfl, ⟨by simp, ?_⟩, hch⟩
      intro ch hc
      rw [List.eq_of_mem_replicate hc]
      exact Nat.pos_pow_of_pos _ (by decide)
    rcases find_free_spec hN _ hnew with
      ⟨_, hfull⟩ | ⟨cl1, p, he1, hp0, hp2, _, hpc, _, hpn, hpiff⟩
    · exfalso
      obtain ⟨ch, h1, h2⟩ := hfull _ (List.mem_cons_self _ _) 0 (Nat.zero_le _) hN
      simp only [List.get?_eq_getElem?] at h1
      rw [List.getElem?_replicate] at h1
      simp only [hN, if_true, Option.some.injEq] at h1
      rw [← h1] at h2
      simp [MASK_TYPE_MAX, CHUNK_NUM_BITS] at h2
    · rw [he1]
      simp only [ne_eq, hp0, not_false_eq_true, if_true]
      refine ⟨_, _, rfl, ⟨hN, hpc⟩, hp2, ?_, ?_⟩
      · intro hl
        exact hpn ((live_in_cons _ _ _).2 (Or.inr hl))
      · intro q
        rw [is_live_iff, is_live_iff, hpiff, live_in_cons]
        have hnone : ¬ live_c N
            ⟨XMALLOC a.cluster.length (cluster_bytes N), 0, List.replicate N ⟨0⟩⟩ q := by
          rintro ⟨i, _, j, _, _, ch, h1, h2⟩
          simp only [List.get?_eq_getElem?] at h1
          rw [List.getElem?_replicate] at h1
          split at h1 <;> cases h1 <;> simp at h2
        constructor
        · rintro (h | h | h)
          · exact Or.inl h
          · exact absurd h hnone
          · exact Or.inr h
        · rintro (h | h)
          · exact Or.inl h
          · exact Or.inr (Or.inr h)
  · rw [he]
    have : ¬ (p = NULL) := hp0
    simp only [this, if_false]
    exact ⟨_, _, rfl, ⟨hN, hpc⟩, hp2, hpn, hpiff⟩

end fixed_alloc

namespace fixed_alloc

variable {N : Nat}

theorem free_find_spec (hN : 0 < N) (p : Nat) :
    ∀ (cl : List internal_chunk_cluster), chain_ok N cl → live_in N cl p →
      ∃ before c after, cl = before ++ c :: after ∧
        free_elem.find N p cl = some (before, c, after) ∧ live_c N c p ∧
        (∀ c' ∈ before, ¬ live_c N c' p) ∧ (∀ c' ∈ after, ¬ live_c N c' p) := by
  intro cl
  induction cl with
  | nil => intro _ h; obtain ⟨c, hc, _⟩ := h; simp at hc
  | cons c0 prev ih =>
    intro hch hl
    obtain ⟨h1, h2, h3⟩ := hch
    rw [free_elem.find]
    have hprev : ∀ c' ∈ prev, live_c N c' p → p < c0.addr := by
      intro c' hc' hl'
      have := live_in_bound prev hN h3 p ⟨c', hc', hl'⟩
      omega
    by_cases hr : c0.addr < p ∧ p < c0.addr + cluster_bytes N
    · rw [if_pos hr]
      refine ⟨[], c0, prev, rfl, rfl, ?_, by simp, ?_⟩
      · rcases (live_in_cons _ _ _).1 hl with h | ⟨c', hc', hl'⟩
        · exact h
        · have := hprev c' hc' hl'
          omega
      · intro c' hc' hl'
        have := hprev c' hc' hl'
        omega
    · rw [if_neg hr]
      have hn0 : ¬ live_c N c0 p := by
        intro h
        have := live_c_range c0 p hN h
        apply hr
        omega
      rcases (live_in_cons _ _ _).1 hl with h | h
      · exact absurd h hn0
      · obtain ⟨before, c, after, e1, e2, e3, e4, e5⟩ := ih h3 h
        rw [e2]
        refine ⟨c0 :: before, c, after, by rw [e1]; rfl, rfl, e3, ?_, e5⟩
        intro c' hc'
        rcases List.mem_cons.mp hc' with rfl | hc'
        · exact hn0
        · exact e4 c' hc'

theorem chain_ok_replace (c c2 : internal_chunk_cluster) (after : List internal_chunk_cluster)
    (ha : c2.addr = c.addr) (hok : cluster_ok N c2) :
    ∀ before, chain_ok N (before ++ c :: after) → chain_ok N (before ++ c2 :: after) := by
  intro before
  induction before with
  | nil =>
    intro h
    obtain ⟨h1, _, h3⟩ := h
    exact ⟨by rw [ha]; exact h1, hok, h3⟩
  | cons b before ih =>
    intro h
    obtain ⟨h1, h2, h3⟩ := h
    refine ⟨?_, h2, ih h3⟩
    rw [h1]
    simp

theorem clear_bit_lt (m j : Nat) (hm : m < 2 ^ CHUNK_NUM_BITS) :
    m &&& (MASK_TYPE_MAX ^^^ (1 <<< j)) < 2 ^ CHUNK_NUM_BITS :=
  lt_of_le_of_lt Nat.and_le_left hm

theorem clear_bit_testBit (m j b : Nat) (hm : m < 2 ^ CHUNK_NUM_BITS)
    (hj : j < CHUNK_NUM_BITS) :
    (m &&& (MASK_TYPE_MAX ^^^ (1 <<< j))).testBit b = (m.testBit b && decide (b ≠ j)) := by
  rw [Nat.testBit_land, Nat.testBit_xor, MASK_TYPE_MAX, Nat.testBit_two_pow_sub_one,
    Nat.one_shiftLeft, Nat.testBit_two_pow]
  by_cases hb : b < CHUNK_NUM_BITS
  · by_cases hbj : j = b
    · subst hbj; simp [hb]
    · have : ¬ b = j := fun e => hbj e.symm
      simp [hb, hbj, this]
  · have : m < 2 ^ b := lt_of_lt_of_le hm (Nat.pow_le_pow_right (by decide) (not_lt.mp hb))
    simp [Nat.testBit_lt_two_pow this]

end fixed_alloc

namespace fixed_alloc

variable {N : Nat}

theorem free_elem_eq (a : allocator N) (before after : List internal_chunk_cluster)
    (c : internal_chunk_cluster) (ch : internal_chunk) (i j : Nat)
    (hfind : free_elem.find N (arr_addr (chunk_addr c.addr i) j) a.cluster =
      some (before, c, after))
    (hi : i < N) (hj : j < CHUNK_NUM_BITS) (hget : c.chunks.get? i = some ch)
    (hbit : ch.free_mask.testBit j = true) :
    free_elem a (arr_addr (chunk_addr c.addr i) j) =
      some ⟨before ++
        (if c.nfc_index > i then
          (⟨c.addr, i, c.chunks.set i ⟨ch.free_mask &&& (MASK_TYPE_MAX ^^^ (1 <<< j))⟩⟩ :
            internal_chunk_cluster)
         else ⟨c.addr, c.nfc_index,
            c.chunks.set i ⟨ch.free_mask &&& (MASK_TYPE_MAX ^^^ (1 <<< j))⟩⟩) :: after⟩ := by
  have e1 : arr_addr (chunk_addr c.addr 0) 0 ≤ arr_addr (chunk_addr c.addr i) j := by
    simp only [arr_addr, chunk_addr]; omega
  have e2 : (arr_addr (chunk_addr c.addr i) j - chunk_addr c.addr 0) / SIZEOF_CHUNK = i := by
    simp only [arr_addr, chunk_addr, SIZEOF_CHUNK, CHUNK_NUM_BITS] at *; omega
  have e3 : (arr_addr (chunk_addr c.addr i) j + 2 ^ 64 - arr_addr (chunk_addr c.addr i) 0)
      % 2 ^ 64 = j := by
    simp only [arr_addr, chunk_addr, SIZEOF_CHUNK, CHUNK_NUM_BITS] at *
    norm_num
    omega
  have e4 : ¬ (ch.free_mask &&& (1 <<< j) = 0) := by
    rw [Nat.one_shiftLeft, and_two_pow_eq_zero, hbit]; simp
  rw [free_elem, hfind]
  simp only [e1, not_true_eq_false, if_false, e2, hi, hget, e3, hj, e4]

theorem slot_used_clear (c : internal_chunk_cluster) (ch : internal_chunk) (i j n a : Nat)
    (hlen : i < c.chunks.length) (hget : c.chunks.get? i = some ch)
    (hm : ch.free_mask < 2 ^ CHUNK_NUM_BITS) (hj : j < CHUNK_NUM_BITS) (i2 j2 : Nat) :
    slot_used ⟨a, n, c.chunks.set i ⟨ch.free_mask &&& (MASK_TYPE_MAX ^^^ (1 <<< j))⟩⟩ i2 j2 ↔
      slot_used c i2 j2 ∧ ¬ (i2 = i ∧ j2 = j) := by
  rw [slot_used_set _ _ _ _ _ _ _ hlen]
  have hc' : slot_used ⟨a, n, c.chunks⟩ i2 j2 ↔ slot_used c i2 j2 :=
    slot_used_congr _ _ rfl _ _
  rw [hc']
  simp only [clear_bit_testBit _ _ _ hm hj, Bool.and_eq_true, decide_eq_true_eq]
  constructor
  · rintro (⟨rfl, h1, h2⟩ | ⟨h1, h2⟩)
    · exact ⟨⟨ch, hget, h1⟩, fun h => h2 h.2⟩
    · exact ⟨h2, fun h => h1 h.1⟩
  · rintro ⟨h1, h2⟩
    by_cases he : i2 = i
    · subst he
      left
      obtain ⟨ch', hch1, hch2⟩ := h1
      rw [hget] at hch1
      cases hch1
      exact ⟨rfl, hch2, fun h => h2 ⟨rfl, h⟩⟩
    · right; exact ⟨he, h1⟩

theorem free_elem_spec (a : allocator N) (p : Nat) (h : allocator_ok a) (hp : is_live a p) :
    ∃ a1, free_elem a p = some a1 ∧ allocator_ok a1 ∧
      ∀ q, is_live a1 q ↔ q ≠ p ∧ is_live a q := by
  obtain ⟨hN, hch⟩ := h
  obtain ⟨before, c, after, e1, e2, e3, e4, e5⟩ := free_find_spec hN p a.cluster hch hp
  obtain ⟨i, hi, j, hj, rfl, ch, hget, hbit⟩ := e3
  have hcl : ∀ nfc, cluster_ok N
      ⟨c.addr, nfc, c.chunks.set i ⟨ch.free_mask &&& (MASK_TYPE_MAX ^^^ (1 <<< j))⟩⟩ := by
    intro nfc
    have hcok : cluster_ok N c := by
      have : ∀ before, chain_ok N (before ++ c :: after) → cluster_ok N c := by
        intro before
        induction before with
        | nil => intro h; exact h.2.1
        | cons b before ih => intro h; exact ih h.2.2
      exact this before (e1 ▸ hch)
    have hmem : ch ∈ c.chunks := List.get?_mem hget
    exact cluster_ok_set c i nfc _ hcok (clear_bit_lt _ _ (hcok.2 ch hmem))
  have hcok : cluster_ok N c := by
    have : ∀ before, chain_ok N (before ++ c :: after) → cluster_ok N c := by
      intro before
      induction before with
      | nil => intro h; exact h.2.1
      | cons b before ih => intro h; exact ih h.2.2
    exact this before (e1 ▸ hch)
  have hlen : i < c.chunks.length := by rw [hcok.1]; exact hi
  have hm : ch.free_mask < 2 ^ CHUNK_NUM_BITS := hcok.2 ch (List.get?_mem hget)
  rw [free_elem_eq a before after c ch i j e2 hi hj hget hbit]
  have key : ∀ nfc, allocator_ok (⟨before ++
      (⟨c.addr, nfc, c.chunks.set i ⟨ch.free_mask &&& (MASK_TYPE_MAX ^^^ (1 <<< j))⟩⟩ :
        internal_chunk_cluster) :: after⟩ : allocator N) ∧
      ∀ q, is_live (⟨before ++
      (⟨c.addr, nfc, c.chunks.set i ⟨ch.free_mask &&& (MASK_TYPE_MAX ^^^ (1 <<< j))⟩⟩ :
        internal_chunk_cluster) :: after⟩ : allocator N) q ↔
        q ≠ arr_addr (chunk_addr c.addr i) j ∧ is_live a q := by
    intro nfc
    refine ⟨⟨hN, chain_ok_replace c ⟨c.addr, nfc,
      c.chunks.set i ⟨ch.free_mask &&& (MASK_TYPE_MAX ^^^ (1 <<< j))⟩⟩ after rfl (hcl nfc)
      before (e1 ▸ hch)⟩, ?_⟩
    intro q
    rw [is_live_iff, is_live_iff, e1, live_in_append, live_in_append, live_in_cons, live_in_cons]
    have hc2 : live_c N ⟨c.addr, nfc,
        c.chunks.set i ⟨ch.free_mask &&& (MASK_TYPE_MAX ^^^ (1 <<< j))⟩⟩ q ↔
        live_c N c q ∧ q ≠ arr_addr (chunk_addr c.addr i) j := by
      constructor
      · rintro ⟨i2, hi2, j2, hj2, heq, hu⟩
        rw [slot_used_clear c ch i j nfc c.addr hlen hget hm hj] at hu
        refine ⟨⟨i2, hi2, j2, hj2, heq, hu.1⟩, ?_⟩
        intro he
        rw [heq] at he
        exact hu.2 (slot_inj c.addr i2 j2 i j hj2 hj he)
      · rintro ⟨⟨i2, hi2, j2, hj2, heq, hu⟩, hne⟩
        refine ⟨i2, hi2, j2, hj2, heq, ?_⟩
        rw [slot_used_clear c ch i j nfc c.addr hlen hget hm hj]
        refine ⟨hu, ?_⟩
        rintro ⟨rfl, rfl⟩
        exact hne heq
    rw [hc2]
    constructor
    · rintro (⟨c', hc', hl'⟩ | ⟨h1, h2⟩ | ⟨c', hc', hl'⟩)
      · refine ⟨?_, Or.inl ⟨c', hc', hl'⟩⟩
        rintro rfl
        exact e4 c' hc' hl'
      · exact ⟨h2, Or.inr (Or.inl h1)⟩
      · refine ⟨?_, Or.inr (Or.inr ⟨c', hc', hl'⟩)⟩
        rintro rfl
        exact e5 c' hc' hl'
    · rintro ⟨hne, h | h | h⟩
      · exact Or.inl h
      · exact Or.inr (Or.inl ⟨h, hne⟩)
      · exact Or.inr (Or.inr h)
  split
  · exact ⟨_, rfl, key _⟩
  · exact ⟨_, rfl, key _⟩

end fixed_alloc

namespace avl_tree

variable {α : Type} {N : Nat}

theorem height_mk (a : Nat) (k : α) (b : Int) (l r : node α) :
    internal_get_tree_height (.mk a k b l r) =
      1 + max (internal_get_tree_height l) (internal_get_tree_height r) := by
  simp only [internal_get_tree_height]
  split <;> omega

theorem height_nonneg (t : node α) : 0 ≤ internal_get_tree_height t := by
  induction t with
  | sentinel => simp [internal_get_tree_height]
  | mk a k b l r ihl ihr => rw [height_mk]; omega

theorem height_pos_mk (a : Nat) (k : α) (b : Int) (l r : node α) :
    1 ≤ internal_get_tree_height (.mk a k b l r) := by
  have := height_nonneg l
  have := height_nonneg r
  rw [height_mk]; omega

theorem eq_mk_of_height_pos (t : node α) (h : 1 ≤ internal_get_tree_height t) :
    ∃ a k b l r, t = .mk a k b l r := by
  cases t with
  | sentinel => simp [internal_get_tree_height] at h
  | mk a k b l r => exact ⟨a, k, b, l, r, rfl⟩

theorem avl_bst_iff_sorted [LinearOrder α] (t : node α) :
    bst t ↔ (keys t).Pairwise (· < ·) := by
  induction t with
  | sentinel => simp [bst, keys]
  | mk a k b l r ihl ihr =>
    simp only [bst, keys, List.pairwise_append, List.pairwise_cons, List.mem_cons, ihl, ihr]
    constructor
    · rintro ⟨h1, h2, h3, h4⟩
      refine ⟨h3, ⟨h2, h4⟩, ?_⟩
      rintro x hx y (rfl | hy)
      · exact h1 x hx
      · exact lt_trans (h1 x hx) (h2 y hy)
    · rintro ⟨h1, ⟨h2, h3⟩, h4⟩
      exact ⟨fun x hx => h4 x hx k (Or.inl rfl), h2, h1, h3⟩

theorem avl_rotate_left_spec (a : Nat) (k : α) (b : Int) (l r : node α)
    (hl : balanced l) (hr : balanced r) (hlean : leaning l)
    (hh : internal_get_tree_height l = internal_get_tree_height r + 2) :
    ∃ n, internal_rotate_left (.mk a k b l r) = some n ∧ balanced n ∧
      internal_get_tree_height n = internal_get_tree_height l ∧
      keys n = keys (.mk a k b l r) ∧ addrs n = addrs (.mk a k b l r) := by
  cases l with
  | sentinel => simp [leaning] at hlean
  | mk la lk lb ll lr =>
    simp only [leaning] at hlean
    simp only [balanced] at hl
    obtain ⟨hb, hb3, hll, hlr⟩ := hl
    rw [height_mk] at hh
    have := height_nonneg ll
    have := height_nonneg lr
    have := height_nonneg r
    by_cases h1 : lb = -1
    · refine ⟨_, by simp [internal_rotate_left, h1]; rfl, ?_, ?_, ?_, ?_⟩
      · simp only [balanced, height_mk]
        refine ⟨by omega, by simp, hll, by omega, by simp, hlr, hr⟩
      · simp only [height_mk]; omega
      · simp [keys]
      · simp [addrs]
    · have h2 : lb = 1 := by omega
      obtain ⟨lra, lrk, lrb, lrl, lrr, rfl⟩ := eq_mk_of_height_pos lr (by omega)
      simp only [balanced] at hlr
      obtain ⟨hb', hb3', hlrl, hlrr⟩ := hlr
      rw [height_mk] at hh hb
      have := height_nonneg lrl
      have := height_nonneg lrr
      refine ⟨_, by simp [internal_rotate_left, h1]; rfl, ?_, ?_, ?_, ?_⟩
      · simp only [balanced, height_mk]
        refine ⟨by omega, by simp, ⟨?_, ?_, hll, hlrl⟩, ⟨?_, ?_, hlrr, hr⟩⟩
        · split <;> omega
        · split <;> omega
        · split <;> omega
        · split <;> omega
      · simp only [height_mk]; omega
      · simp [keys]
      · simp [addrs]

theorem avl_rotate_right_spec (a : Nat) (k : α) (b : Int) (l r : node α)
    (hl : balanced l) (hr : balanced r) (hlean : leaning r)
    (hh : internal_get_tree_height r = internal_get_tree_height l + 2) :
    ∃ n, internal_rotate_right (.mk a k b l r) = some n ∧ balanced n ∧
      internal_get_tree_height n = internal_get_tree_height r ∧
      keys n = keys (.mk a k b l r) ∧ addrs n = addrs (.mk a k b l r) := by
  cases r with
  | sentinel => simp [leaning] at hlean
  | mk ra rk rb rl rr =>
    simp only [leaning] at hlean
    simp only [balanced] at hr
    obtain ⟨hb, hb3, hrl, hrr⟩ := hr
    rw [height_mk] at hh
    have := height_nonneg rl
    have := height_nonneg rr
    have := height_nonneg l
    by_cases h1 : rb = 1
    · refine ⟨_, by simp [internal_rotate_right, h1]; rfl, ?_, ?_, ?_, ?_⟩
      · simp only [balanced, height_mk]
        refine ⟨by omega, by simp, ⟨by omega, by simp, hl, hrl⟩, hrr⟩
      · simp only [height_mk]; omega
      · simp [keys]
      · simp [addrs]
    · have h2 : rb = -1 := by omega
      obtain ⟨rla, rlk, rlb, rll, rlr, rfl⟩ := eq_mk_of_height_pos rl (by omega)
      simp only [balanced] at hrl
      obtain ⟨hb', hb3', hrll, hrlr⟩ := hrl
      rw [height_mk] at hh hb
      have := height_nonneg rll
      have := height_nonneg rlr
      refine ⟨_, by simp [internal_rotate_right, h1]; rfl, ?_, ?_, ?_, ?_⟩
      · simp only [balanced, height_mk]
        refine ⟨by omega, by simp, ⟨?_, ?_, hl, hrll⟩, ⟨?_, ?_, hrlr, hrr⟩⟩
        · split <;> omega
        · split <;> omega
        · split <;> omega
        · split <;> omega
      · simp only [height_mk]; omega
      · simp [keys]
      · simp [addrs]

theorem COMPARE_pos [LinearOrder α] (a b : α) : COMPARE a b > 0 ↔ b < a := by
  unfold COMPARE
  split
  · rename_i h; simp [not_lt_of_lt h]
  · split <;> simp [*]

theorem COMPARE_neg [LinearOrder α] (a b : α) : COMPARE a b < 0 ↔ a < b := by
  unfold COMPARE
  split
  · simp [*]
  · split <;> simp [*]

theorem COMPARE_zero [LinearOrder α] (a b : α) : COMPARE a b = 0 ↔ a = b := by
  unfold COMPARE
  split
  · rename_i h; simp [ne_of_lt h]
  · split
    · rename_i h; simp [ne_of_gt h]
    · rename_i h1 h2; simp [le_antisymm (not_lt.mp h2) (not_lt.mp h1)]

end avl_tree

namespace avl_tree

variable {α : Type} {N : Nat}

theorem add_indirect_sentinel [LinearOrder α] (i : internal_search_context α N)
    (al : fixed_alloc.allocator N) (p : Nat)
    (h : fixed_alloc.alloc_elem i.tree.allocator = some (al, p)) :
    internal_add_node_indirect i .sentinel =
      some ({ i with tree := { i.tree with allocator := al, count := i.tree.count + 1 },
                     height_changed := true, found := false },
            .mk p i.key 0 .sentinel .sentinel, p) := by
  simp [internal_add_node_indirect, internal_alloc_node, h]

theorem add_indirect_gt [LinearOrder α] (i : internal_search_context α N)
    (a : Nat) (k : α) (b : Int) (l r : node α) (h : i.key < k) :
    internal_add_node_indirect i (.mk a k b l r) =
      match internal_add_node_indirect i l with
      | none => none
      | some (i1, l1, result) =>
        if i1.height_changed then
          if b = 1 then
            some ({ i1 with height_changed := false }, .mk a k 0 l1 r, result)
          else if b = 0 then
            some (i1, .mk a k (-1) l1 r, result)
          else
            match internal_rotate_left (.mk a k b l1 r) with
            | none => none
            | some n => some ({ i1 with height_changed := false }, n, result)
        else some (i1, .mk a k b l1 r, result) := by
  rw [internal_add_node_indirect]
  simp only [gt_iff_lt, (COMPARE_pos k i.key).2 h, if_true]
  try rfl

theorem add_indirect_lt [LinearOrder α] (i : internal_search_context α N)
    (a : Nat) (k : α) (b : Int) (l r : node α) (h : k < i.key) :
    internal_add_node_indirect i (.mk a k b l r) =
      match internal_add_node_indirect i r with
      | none => none
      | some (i1, r1, result) =>
        if i1.height_changed then
          if b = -1 then
            some ({ i1 with height_changed := false }, .mk a k 0 l r1, result)
          else if b = 0 then
            some (i1, .mk a k 1 l r1, result)
          else
            match internal_rotate_right (.mk a k b l r1) with
            | none => none
            | some n => some ({ i1 with height_changed := false }, n, result)
        else some (i1, .mk a k b l r1, result) := by
  rw [internal_add_node_indirect]
  have h1 : ¬ (COMPARE k i.key > 0) := by rw [COMPARE_pos]; exact not_lt_of_lt h
  simp only [h1, (COMPARE_neg k i.key).2 h, if_true, if_false]
  try rfl

theorem add_indirect_eq [LinearOrder α] (i : internal_search_context α N)
    (a : Nat) (k : α) (b : Int) (l r : node α) (h : k = i.key) :
    internal_add_node_indirect i (.mk a k b l r) =
      some ({ i with found := true }, .mk a k b l r, a) := by
  rw [internal_add_node_indirect]
  have h1 : ¬ (COMPARE k i.key > 0) := by rw [COMPARE_pos, h]; exact lt_irrefl _
  have h2 : ¬ (COMPARE k i.key < 0) := by rw [COMPARE_neg, h]; exact lt_irrefl _
  simp only [h1, h2, if_false]

theorem mem_left_iff {β : Type} (key k : β) (L1 L R : List β)
    (h : ∀ x, x ∈ L1 ↔ x = key ∨ x ∈ L) (x : β) :
    x ∈ L1 ++ k :: R ↔ x = key ∨ x ∈ L ++ k :: R := by
  simp only [List.mem_append, List.mem_cons, h]; tauto

theorem mem_right_iff {β : Type} (key k : β) (L R1 R : List β)
    (h : ∀ x, x ∈ R1 ↔ x = key ∨ x ∈ R) (x : β) :
    x ∈ L ++ k :: R1 ↔ x = key ∨ x ∈ L ++ k :: R := by
  simp only [List.mem_append, List.mem_cons, h]; tauto

theorem mem_self_iff {β : Type} (k : β) (L R : List β) (x : β) :
    x ∈ L ++ k :: R ↔ x = k ∨ x ∈ L ++ k :: R := by
  simp only [List.mem_append, List.mem_cons]; tauto

theorem add_indirect_spec [LinearOrder α] (i : internal_search_context α N)
    (hi : i.height_changed = false)
    (hal : ∃ r, fixed_alloc.alloc_elem i.tree.allocator = some r)
    (t : node α) (hb : bst t) (hbal : balanced t) :
    ∃ i1 t1 p, internal_add_node_indirect i t = some (i1, t1, p) ∧
      balanced t1 ∧ (∀ x, x ∈ keys t1 ↔ x = i.key ∨ x ∈ keys t) ∧ bst t1 ∧
      (i1.height_changed = true →
        internal_get_tree_height t1 = internal_get_tree_height t + 1 ∧
        (t = .sentinel ∨ leaning t1)) ∧
      (i1.height_changed = false →
        internal_get_tree_height t1 = internal_get_tree_height t) := by
  induction t with
  | sentinel =>
    obtain ⟨⟨al, p⟩, hal⟩ := hal
    refine ⟨_, _, _, add_indirect_sentinel i al p hal, ?_⟩
    simp [balanced, keys, bst, internal_get_tree_height]
  | mk a k b l r ihl ihr =>
    simp only [bst] at hb
    obtain ⟨hbl, hbr, hbstl, hbstr⟩ := hb
    simp only [balanced] at hbal
    obtain ⟨hbe, hb3, hball, hbalr⟩ := hbal
    have hhl := height_nonneg l
    have hhr := height_nonneg r
    rcases lt_trichotomy i.key k with h1 | h1 | h1
    · obtain ⟨i1, l1, p, he, hbal1, hk1, hbst1, hc1, hc0⟩ := ihl hbstl hball
      rw [add_indirect_gt i a k b l r h1, he]
      have hkeys : ∀ b', ∀ x, x ∈ keys (node.mk a k b' l1 r) ↔ x = i.key ∨ x ∈ keys (node.mk a k b l r) := by
        intro b' x; exact mem_left_iff _ _ _ _ _ hk1 x
      have hbstn : ∀ b', bst (node.mk a k b' l1 r) := by
        intro b'
        refine ⟨?_, hbr, hbst1, hbstr⟩
        intro x hx
        rcases (hk1 x).1 hx with rfl | hx
        · exact h1
        · exact hbl x hx
      by_cases hc : i1.height_changed = true
      · obtain ⟨hh1, hl1⟩ := hc1 hc
        simp only [hc, if_true]
        by_cases hb1 : b = 1
        · simp only [hb1, if_true]
          refine ⟨_, _, _, rfl, ⟨?_, by simp, hbal1, hbalr⟩, hkeys _, hbstn _, by simp, ?_⟩
          · omega
          · intro _; simp only [height_mk]; omega
        · simp only [hb1, if_false]
          by_cases hb0 : b = 0
          · simp only [hb0, if_true]
            refine ⟨_, _, _, rfl, ⟨?_, by simp, hbal1, hbalr⟩, ?_, hbstn _, ?_, ?_⟩
            · omega
            · intro x; rw [← hb0]; exact hkeys _ x
            · intro _; simp only [height_mk, leaning]
              refine ⟨by omega, Or.inr (by simp)⟩
            · intro h; rw [hc] at h; simp at h
          · simp only [hb0, if_false]
            have hlne : l ≠ .sentinel := by
              rintro rfl
              simp only [internal_get_tree_height] at hbe
              omega
            have hlean : leaning l1 := by
              rcases hl1 with h | h
              · exact absurd h hlne
              · exact h
            obtain ⟨n, hn, hnb, hnh, hnk, hna⟩ :=
              avl_rotate_left_spec a k b l1 r hbal1 hbalr hlean (by omega)
            rw [hn]
            refine ⟨_, _, _, rfl, hnb, ?_, ?_, by simp, ?_⟩
            · intro x; rw [hnk]; exact hkeys _ x
            · rw [avl_bst_iff_sorted, hnk, ← avl_bst_iff_sorted]; exact hbstn _
            · intro _; rw [hnh, height_mk]; omega
      · have hc' : i1.height_changed = false := by simpa using hc
        simp only [hc', Bool.false_eq_true, if_false]
        have hh0 := hc0 hc'
        refine ⟨_, _, _, rfl, ⟨?_, hb3, hbal1, hbalr⟩, hkeys _, hbstn _, ?_, ?_⟩
        · omega
        · intro h; exact absurd h hc
        · intro _; simp only [height_mk]; omega
    · rw [add_indirect_eq i a k b l r h1.symm]
      refine ⟨_, _, _, rfl, ⟨hbe, hb3, hball, hbalr⟩, ?_, ⟨hbl, hbr, hbstl, hbstr⟩, ?_, ?_⟩
      · intro x; rw [h1]; exact mem_self_iff _ _ _ x
      · intro h; simp [hi] at h
      · intro _; rfl
    · obtain ⟨i1, r1, p, he, hbal1, hk1, hbst1, hc1, hc0⟩ := ihr hbstr hbalr
      rw [add_indirect_lt i a k b l r h1, he]
      have hkeys : ∀ b', ∀ x, x ∈ keys (node.mk a k b' l r1) ↔ x = i.key ∨ x ∈ keys (node.mk a k b l r) := by
        intro b' x; exact mem_right_iff _ _ _ _ _ hk1 x
      have hbstn : ∀ b', bst (node.mk a k b' l r1) := by
        intro b'
        refine ⟨hbl, ?_, hbstl, hbst1⟩
        intro x hx
        rcases (hk1 x).1 hx with rfl | hx
        · exact h1
        · exact hbr x hx
      by_cases hc : i1.height_changed = true
      · obtain ⟨hh1, hl1⟩ := hc1 hc
        simp only [hc, if_true]
        by_cases hb1 : b = -1
        · simp only [hb1, if_true]
          refine ⟨_, _, _, rfl, ⟨?_, by simp, hball, hbal1⟩, hkeys _, hbstn _, by simp, ?_⟩
          · omega
          · intro _; simp only [height_mk]; omega
        · simp only [hb1, if_false]
          by_cases hb0 : b = 0
          · simp only [hb0, if_true]
            refine ⟨_, _, _, rfl, ⟨?_, by simp, hball, hbal1⟩, ?_, hbstn _, ?_, ?_⟩
            · omega
            · intro x; rw [← hb0]; exact hkeys _ x
            · intro _; simp only [height_mk, leaning]
              refine ⟨by omega, Or.inr (by simp)⟩
            · intro h; rw [hc] at h; simp at h
          · simp only [hb0, if_false]
            have hrne : r ≠ .sentinel := by
              rintro rfl
              simp only [internal_get_tree_height] at hbe
              omega
            have hlean : leaning r1 := by
              rcases hl1 with h | h
              · exact absurd h hrne
              · exact h
            obtain ⟨n, hn, hnb, hnh, hnk, hna⟩ :=
              avl_rotate_right_spec a k b l r1 hball hbal1 hlean (by omega)
            rw [hn]
            refine ⟨_, _, _, rfl, hnb, ?_, ?_, by simp, ?_⟩
            · intro x; rw [hnk]; exact hkeys _ x
            · rw [avl_bst_iff_sorted, hnk, ← avl_bst_iff_sorted]; exact hbstn _
            · intro _; rw [hnh, height_mk]; omega
      · have hc' : i1.height_changed = false := by simpa using hc
        simp only [hc', Bool.false_eq_true, if_false]
        have hh0 := hc0 hc'
        refine ⟨_, _, _, rfl, ⟨?_, hb3, hball, hbal1⟩, hkeys _, hbstn _, ?_, ?_⟩
        · omega
        · intro h; exact absurd h hc
        · intro _; simp only [height_mk]; omega

end avl_tree

namespace avl_tree

variable {α : Type} {N : Nat}

theorem balance_left_spec (i : internal_search_context α N) (a : Nat) (k : α) (b : Int)
    (l r : node α) (hl : balanced l) (hr : balanced r)
    (hb : b = internal_get_tree_height r - (internal_get_tree_height l + 1))
    (hb3 : b = -1 ∨ b = 0 ∨ b = 1) (hi : i.height_changed = true) :
    ∃ i1 n, internal_balance_left i (.mk a k b l r) = some (i1, n) ∧ balanced n ∧
      keys n = keys (.mk a k b l r) ∧ addrs n = addrs (.mk a k b l r) ∧
      i1.tree = i.tree ∧ i1.key = i.key ∧ i1.found = i.found ∧
      (i1.height_changed = true →
        internal_get_tree_height n =
          max (internal_get_tree_height l + 1) (internal_get_tree_height r)) ∧
      (i1.height_changed = false →
        internal_get_tree_height n =
          1 + max (internal_get_tree_height l + 1) (internal_get_tree_height r)) := by
  have hhl := height_nonneg l
  have hhr := height_nonneg r
  by_cases h1 : b = -1
  · refine ⟨i, .mk a k 0 l r, by simp [internal_balance_left, h1], ⟨by omega, by simp, hl, hr⟩,
      rfl, rfl, rfl, rfl, rfl, ?_, ?_⟩
    · intro _; rw [height_mk]; omega
    · intro h; rw [hi] at h; simp at h
  by_cases h0 : b = 0
  · refine ⟨{ i with height_changed := false }, .mk a k 1 l r,
      by simp [internal_balance_left, h0], ⟨by omega, by simp, hl, hr⟩,
      rfl, rfl, rfl, rfl, rfl, ?_, ?_⟩
    · intro h; simp at h
    · intro _; rw [height_mk]; omega
  have hb1 : b = 1 := by omega
  obtain ⟨ra, rk, rb, rl, rr, rfl⟩ := eq_mk_of_height_pos r (by omega)
  simp only [balanced] at hr
  obtain ⟨hrb, hrb3, hrl, hrr⟩ := hr
  rw [height_mk] at hb
  have hhrl := height_nonneg rl
  have hhrr := height_nonneg rr
  by_cases hr0 : rb = 0
  · refine ⟨{ i with height_changed := false }, .mk ra rk (-1) (.mk a k 1 l rl) rr,
      by simp [internal_balance_left, h1, h0, hr0], ?_, by simp [keys], by simp [addrs],
      rfl, rfl, rfl, ?_, ?_⟩
    · simp only [balanced, height_mk]
      exact ⟨by omega, by simp, ⟨by omega, by simp, hl, hrl⟩, hrr⟩
    · intro h; simp at h
    · intro _; simp only [height_mk]; omega
  by_cases hr1 : rb = 1
  · refine ⟨i, .mk ra rk 0 (.mk a k 0 l rl) rr,
      by simp [internal_balance_left, h1, h0, hr1], ?_, by simp [keys], by simp [addrs],
      rfl, rfl, rfl, ?_, ?_⟩
    · simp only [balanced, height_mk]
      exact ⟨by omega, by simp, ⟨by omega, by simp, hl, hrl⟩, hrr⟩
    · intro _; simp only [height_mk]; omega
    · intro h; rw [hi] at h; simp at h
  have hrm : rb = -1 := by omega
  obtain ⟨rla, rlk, rlb, rll, rlr, rfl⟩ := eq_mk_of_height_pos rl (by omega)
  simp only [balanced] at hrl
  obtain ⟨hrlb, hrlb3, hrll, hrlr⟩ := hrl
  rw [height_mk] at hb hrb
  have hhrll := height_nonneg rll
  have hhrlr := height_nonneg rlr
  refine ⟨i, .mk rla rlk 0 (.mk a k (if rlb = 1 then -1 else 0) l rll)
      (.mk ra rk (if rlb = -1 then 1 else 0) rlr rr),
      by simp [internal_balance_left, h1, h0, hrm], ?_, by simp [keys], by simp [addrs],
      rfl, rfl, rfl, ?_, ?_⟩
  · simp only [balanced, height_mk]
    refine ⟨by omega, by simp, ⟨?_, ?_, hl, hrll⟩, ⟨?_, ?_, hrlr, hrr⟩⟩
    · split <;> omega
    · split <;> omega
    · split <;> omega
    · split <;> omega
  · intro _; simp only [height_mk]; omega
  · intro h; rw [hi] at h; simp at h

theorem balance_right_spec (i : internal_search_context α N) (a : Nat) (k : α) (b : Int)
    (l r : node α) (hl : balanced l) (hr : balanced r)
    (hb : b = internal_get_tree_height r + 1 - internal_get_tree_height l)
    (hb3 : b = -1 ∨ b = 0 ∨ b = 1) (hi : i.height_changed = true) :
    ∃ i1 n, internal_balance_right i (.mk a k b l r) = some (i1, n) ∧ balanced n ∧
      keys n = keys (.mk a k b l r) ∧ addrs n = addrs (.mk a k b l r) ∧
      i1.tree = i.tree ∧ i1.key = i.key ∧ i1.found = i.found ∧
      (i1.height_changed = true →
        internal_get_tree_height n =
          max (internal_get_tree_height l) (internal_get_tree_height r + 1)) ∧
      (i1.height_changed = false →
        internal_get_tree_height n =
          1 + max (internal_get_tree_height l) (internal_get_tree_height r + 1)) := by
  have hhl := height_nonneg l
  have hhr := height_nonneg r
  by_cases h1 : b = 1
  · refine ⟨i, .mk a k 0 l r, by simp [internal_balance_right, h1], ⟨by omega, by simp, hl, hr⟩,
      rfl, rfl, rfl, rfl, rfl, ?_, ?_⟩
    · intro _; rw [height_mk]; omega
    · intro h; rw [hi] at h; simp at h
  by_cases h0 : b = 0
  · refine ⟨{ i with height_changed := false }, .mk a k (-1) l r,
      by simp [internal_balance_right, h0], ⟨by omega, by simp, hl, hr⟩,
      rfl, rfl, rfl, rfl, rfl, ?_, ?_⟩
    · intro h; simp at h
    · intro _; rw [height_mk]; omega
  have hb1 : b = -1 := by omega
  obtain ⟨la, lk, lb, ll, lr, rfl⟩ := eq_mk_of_height_pos l (by omega)
  simp only [balanced] at hl
  obtain ⟨hlb, hlb3, hll, hlr⟩ := hl
  rw [height_mk] at hb
  have hhll := height_nonneg ll
  have hhlr := height_nonneg lr
  by_cases hl0 : lb = 0
  · refine ⟨{ i with height_changed := false }, .mk la lk 1 ll (.mk a k (-1) lr r),
      by simp [internal_balance_right, h1, h0, hl0], ?_, by simp [keys], by simp [addrs],
      rfl, rfl, rfl, ?_, ?_⟩
    · simp only [balanced, height_mk]
      exact ⟨by omega, by simp, hll, ⟨by omega, by simp, hlr, hr⟩⟩
    · intro h; simp at h
    · intro _; simp only [height_mk]; omega
  by_cases hl1 : lb = -1
  · refine ⟨i, .mk la lk 0 ll (.mk a k 0 lr r),
      by simp [internal_balance_right, h1, h0, hl1], ?_, by simp [keys], by simp [addrs],
      rfl, rfl, rfl, ?_, ?_⟩
    · simp only [balanced, height_mk]
      exact ⟨by omega, by simp, hll, ⟨by omega, by simp, hlr, hr⟩⟩
    · intro _; simp only [height_mk]; omega
    · intro h; rw [hi] at h; simp at h
  have hlp : lb = 1 := by omega
  obtain ⟨lra, lrk, lrb, lrl, lrr, rfl⟩ := eq_mk_of_height_pos lr (by omega)
  simp only [balanced] at hlr
  obtain ⟨hlrb, hlrb3, hlrl, hlrr⟩ := hlr
  rw [height_mk] at hb hlb
  have hhlrl := height_nonneg lrl
  have hhlrr := height_nonneg lrr
  refine ⟨i, .mk lra lrk 0 (.mk la lk (if lrb = 1 then -1 else 0) ll lrl)
      (.mk a k (if lrb = -1 then 1 else 0) lrr r),
      by simp [internal_balance_right, h1, h0, hlp], ?_, by simp [keys], by simp [addrs],
      rfl, rfl, rfl, ?_, ?_⟩
  · simp only [balanced, height_mk]
    refine ⟨by omega, by simp, ⟨?_, ?_, hll, hlrl⟩, ⟨?_, ?_, hlrr, hr⟩⟩
    · split <;> omega
    · split <;> omega
    · split <;> omega
    · split <;> omega
  · intro _; simp only [height_mk]; omega
  · intro h; rw [hi] at h; simp at h

end avl_tree

namespace avl_tree

variable {α : Type} {N : Nat}

theorem replace_left_subtree_spec (i : internal_search_context α N) (t : node α)
    (hne : t ≠ .sentinel) (hbal : balanced t) :
    ∃ i1 t1 ra rk rb rl rr,
      internal_replace_left_subtree i t = some (i1, t1, .mk ra rk rb rl rr) ∧
      balanced t1 ∧ keys t = keys t1 ++ [rk] ∧ addrs t = addrs t1 ++ [ra] ∧
      i1.tree = i.tree ∧ i1.key = i.key ∧ i1.found = i.found ∧
      (i1.height_changed = true →
        internal_get_tree_height t = internal_get_tree_height t1 + 1) ∧
      (i1.height_changed = false →
        internal_get_tree_height t = internal_get_tree_height t1) := by
  induction t with
  | sentinel => exact absurd rfl hne
  | mk a k b l r _ ihr =>
    simp only [balanced] at hbal
    obtain ⟨hb, hb3, hl, hr⟩ := hbal
    have hhl := height_nonneg l
    cases r with
    | sentinel =>
      refine ⟨{ i with height_changed := true }, l, a, k, b, l, .sentinel,
        by simp [internal_replace_left_subtree], hl, by simp [keys], by simp [addrs],
        rfl, rfl, rfl, ?_, ?_⟩
      · intro _; simp only [height_mk, internal_get_tree_height]; omega
      · intro h; simp at h
    | mk ra rk rb rl rr =>
      obtain ⟨i1, r1, xa, xk, xb, xl, xr, he, hbal1, hk, ha, ht, hkey, hf, hc1, hc0⟩ :=
        ihr (by simp) hr
      rw [internal_replace_left_subtree, he]
      have hhr1 := height_nonneg r1
      by_cases hc : i1.height_changed = true
      · have hh := hc1 hc
        obtain ⟨i2, n, hn, hnb, hnk, hna, hnt, hnkey, hnf, hn1, hn0⟩ :=
          balance_right_spec i1 a k b l r1 hl hbal1 (by omega) hb3 hc
        simp only [hc, if_true, hn]
        refine ⟨i2, n, xa, xk, xb, xl, xr, rfl, hnb, ?_, ?_, hnt.trans ht, hnkey.trans hkey,
          hnf.trans hf, ?_, ?_⟩
        · rw [hnk]; simp only [keys] at hk ⊢; rw [hk]; simp
        · rw [hna]; simp only [addrs] at ha ⊢; rw [ha]; simp
        · intro h; have := hn1 h; rw [height_mk]; omega
        · intro h; have := hn0 h; rw [height_mk]; omega
      · have hc' : i1.height_changed = false := by simpa using hc
        have hh := hc0 hc'
        simp only [hc', Bool.false_eq_true, if_false]
        refine ⟨i1, _, xa, xk, xb, xl, xr, rfl, ⟨by omega, hb3, hl, hbal1⟩, ?_, ?_, ht, hkey,
          hf, ?_, ?_⟩
        · simp only [keys] at hk ⊢; rw [hk]; simp
        · simp only [addrs] at ha ⊢; rw [ha]; simp
        · intro h; exact absurd h hc
        · intro _; simp only [height_mk, hh]

theorem unlink_spec (i : internal_search_context α N) (a : Nat) (k : α) (b : Int)
    (l r : node α) (hbal : balanced (.mk a k b l r)) :
    ∃ i1 n, internal_remove_node_indirect.unlink i b l r = some (i1, n) ∧ balanced n ∧
      keys n = keys l ++ keys r ∧ addrs n = addrs l ++ addrs r ∧
      i1.tree = i.tree ∧ i1.key = i.key ∧ i1.found = i.found ∧
      (i1.height_changed = true →
        internal_get_tree_height (.mk a k b l r) = internal_get_tree_height n + 1) ∧
      (i1.height_changed = false →
        internal_get_tree_height (.mk a k b l r) = internal_get_tree_height n) := by
  simp only [balanced] at hbal
  obtain ⟨hb, hb3, hl, hr⟩ := hbal
  have hhl := height_nonneg l
  have hhr := height_nonneg r
  cases r with
  | sentinel =>
    refine ⟨{ i with height_changed := true }, l, ?_, hl, by simp [keys], by simp [addrs],
      rfl, rfl, rfl, ?_, ?_⟩
    · cases l <;> simp [internal_remove_node_indirect.unlink]
    · intro _; simp only [height_mk, internal_get_tree_height]; omega
    · intro h; simp at h
  | mk ra rk rb rl rr =>
    cases l with
    | sentinel =>
      refine ⟨{ i with height_changed := true }, _, by simp [internal_remove_node_indirect.unlink],
        hr, by simp [keys], by simp [addrs], rfl, rfl, rfl, ?_, ?_⟩
      · intro _; rw [height_mk]; simp only [internal_get_tree_height] at hhr ⊢; omega
      · intro h; simp at h
    | mk la lk lb ll lr =>
      obtain ⟨i1, l1, xa, xk, xb, xl, xr, he, hbal1, hk, ha, ht, hkey, hf, hc1, hc0⟩ :=
        replace_left_subtree_spec i (.mk la lk lb ll lr) (by simp) hl
      simp only [internal_remove_node_indirect.unlink, he]
      have hhl1 := height_nonneg l1
      by_cases hc : i1.height_changed = true
      · have hh := hc1 hc
        obtain ⟨i2, n, hn, hnb, hnk, hna, hnt, hnkey, hnf, hn1, hn0⟩ :=
          balance_left_spec i1 xa xk b l1 (.mk ra rk rb rl rr) hbal1 hr (by omega) hb3 hc
        simp only [hc, if_true, hn]
        refine ⟨i2, n, rfl, hnb, ?_, ?_, hnt.trans ht, hnkey.trans hkey, hnf.trans hf, ?_, ?_⟩
        · rw [hnk, hk]; simp [keys]
        · rw [hna, ha]; simp [addrs]
        · intro h; have := hn1 h; rw [height_mk]; omega
        · intro h; have := hn0 h; rw [height_mk]; omega
      · have hc' : i1.height_changed = false := by simpa using hc
        have hh := hc0 hc'
        simp only [hc', Bool.false_eq_true, if_false]
        refine ⟨i1, _, rfl, ⟨by omega, hb3, hbal1, hr⟩, ?_, ?_, ht, hkey, hf, ?_, ?_⟩
        · rw [hk]; simp [keys]
        · rw [ha]; simp [addrs]
        · intro h; exact absurd h hc
        · intro _; simp only [height_mk, hh]

end avl_tree

namespace avl_tree

variable {α : Type} {N : Nat}

theorem remove_indirect_gt [LinearOrder α] (i : internal_search_context α N)
    (a : Nat) (k : α) (b : Int) (l r : node α) (h : i.key < k) :
    internal_remove_node_indirect i (.mk a k b l r) =
      match internal_remove_node_indirect i l with
      | none => none
      | some (i1, l1) =>
        if i1.height_changed then internal_balance_left i1 (.mk a k b l1 r)
        else some (i1, .mk a k b l1 r) := by
  rw [internal_remove_node_indirect]
  simp only [gt_iff_lt, (COMPARE_pos k i.key).2 h, if_true]
  try rfl

theorem remove_indirect_lt [LinearOrder α] (i : internal_search_context α N)
    (a : Nat) (k : α) (b : Int) (l r : node α) (h : k < i.key) :
    internal_remove_node_indirect i (.mk a k b l r) =
      match internal_remove_node_indirect i r with
      | none => none
      | some (i1, r1) =>
        if i1.height_changed then internal_balance_right i1 (.mk a k b l r1)
        else some (i1, .mk a k b l r1) := by
  rw [internal_remove_node_indirect]
  have h1 : ¬ (COMPARE k i.key > 0) := by rw [COMPARE_pos]; exact not_lt_of_lt h
  simp only [h1, (COMPARE_neg k i.key).2 h, if_true, if_false]
  try rfl

theorem remove_indirect_eq [LinearOrder α] (i : internal_search_context α N)
    (a : Nat) (k : α) (b : Int) (l r : node α) (h : k = i.key) :
    internal_remove_node_indirect i (.mk a k b l r) =
      match internal_remove_node_indirect.unlink { i with found := true } b l r with
      | none => none
      | some (i1, n) =>
        match fixed_alloc.free_elem i1.tree.allocator a with
        | none => none
        | some al =>
          some ({ i1 with tree := { i1.tree with allocator := al,
                                                 count := i1.tree.count - 1 } }, n) := by
  rw [internal_remove_node_indirect]
  have h1 : ¬ (COMPARE k i.key > 0) := by rw [COMPARE_pos, h]; exact lt_irrefl _
  have h2 : ¬ (COMPARE k i.key < 0) := by rw [COMPARE_neg, h]; exact lt_irrefl _
  simp only [h1, h2, if_false]
  try rfl

theorem remove_indirect_absent [LinearOrder α] (i : internal_search_context α N)
    (hi : i.height_changed = false) (t : node α) (hk : i.key ∉ keys t) :
    internal_remove_node_indirect i t = some (i, t) := by
  induction t with
  | sentinel => simp [internal_remove_node_indirect]
  | mk a k b l r ihl ihr =>
    simp only [keys, List.mem_append, List.mem_cons, not_or] at hk
    obtain ⟨hkl, hkk, hkr⟩ := hk
    rcases lt_trichotomy i.key k with h1 | h1 | h1
    · rw [remove_indirect_gt i a k b l r h1, ihl hkl]
      simp [hi]
    · exact absurd h1 hkk
    · rw [remove_indirect_lt i a k b l r h1, ihr hkr]
      simp [hi]

theorem remove_indirect_present [LinearOrder α] (i : internal_search_context α N)
    (hi : i.height_changed = false) (t : node α) (hb : bst t) (hbal : balanced t)
    (hfree : ∀ p ∈ addrs t, ∃ al, fixed_alloc.free_elem i.tree.allocator p = some al)
    (hk : i.key ∈ keys t) :
    ∃ i1 t1 p al, internal_remove_node_indirect i t = some (i1, t1) ∧
      fixed_alloc.free_elem i.tree.allocator p = some al ∧
      i1.tree = { i.tree with allocator := al, count := i.tree.count - 1 } ∧
      i1.key = i.key ∧ i1.found = true ∧ balanced t1 ∧
      (∃ L R, keys t = L ++ i.key :: R ∧ keys t1 = L ++ R) ∧
      (∃ A B, addrs t = A ++ p :: B ∧ addrs t1 = A ++ B) ∧
      (i1.height_changed = true →
        internal_get_tree_height t = internal_get_tree_height t1 + 1) ∧
      (i1.height_changed = false →
        internal_get_tree_height t = internal_get_tree_height t1) := by
  induction t with
  | sentinel => simp [keys] at hk
  | mk a k b l r ihl ihr =>
    have hbal' := hbal
    simp only [bst] at hb
    obtain ⟨hbl, hbr, hbstl, hbstr⟩ := hb
    simp only [balanced] at hbal
    obtain ⟨hbe, hb3, hball, hbalr⟩ := hbal
    have hhl := height_nonneg l
    have hhr := height_nonneg r
    have hfl : ∀ p ∈ addrs l, ∃ al, fixed_alloc.free_elem i.tree.allocator p = some al :=
      fun p hp => hfree p (by simp [addrs, hp])
    have hfr : ∀ p ∈ addrs r, ∃ al, fixed_alloc.free_elem i.tree.allocator p = some al :=
      fun p hp => hfree p (by simp [addrs, hp])
    simp only [keys, List.mem_append, List.mem_cons] at hk
    rcases lt_trichotomy i.key k with h1 | h1 | h1
    · have hkl : i.key ∈ keys l := by
        rcases hk with h | h | h
        · exact h
        · exact absurd h (ne_of_lt h1)
        · exact absurd (hbr _ h) (not_lt_of_lt h1)
      obtain ⟨i1, l1, p, al, he, hfe, ht, hkey, hf, hbal1, ⟨L, R, hL, hR⟩, ⟨A, B, hA, hB⟩,
        hc1, hc0⟩ := ihl hbstl hball hfl hkl
      rw [remove_indirect_gt i a k b l r h1, he]
      have hhl1 := height_nonneg l1
      by_cases hc : i1.height_changed = true
      · have hh := hc1 hc
        obtain ⟨i2, n, hn, hnb, hnk, hna, hnt, hnkey, hnf, hn1, hn0⟩ :=
          balance_left_spec i1 a k b l1 r hbal1 hbalr (by omega) hb3 hc
        simp only [hc, if_true, hn]
        refine ⟨i2, n, p, al, rfl, hfe, hnt.trans ht, hnkey.trans hkey, hnf.trans hf, hnb,
          ⟨L, R ++ k :: keys r, ?_, ?_⟩, ⟨A, B ++ a :: addrs r, ?_, ?_⟩, ?_, ?_⟩
        · simp [keys, hL]
        · rw [hnk]; simp [keys, hR]
        · simp [addrs, hA]
        · rw [hna]; simp [addrs, hB]
        · intro h; have := hn1 h; rw [height_mk]; omega
        · intro h; have := hn0 h; rw [height_mk]; omega
      · have hc' : i1.height_changed = false := by simpa using hc
        have hh := hc0 hc'
        simp only [hc', Bool.false_eq_true, if_false]
        refine ⟨i1, _, p, al, rfl, hfe, ht, hkey, hf, ⟨by omega, hb3, hbal1, hbalr⟩,
          ⟨L, R ++ k :: keys r, ?_, ?_⟩, ⟨A, B ++ a :: addrs r, ?_, ?_⟩, ?_, ?_⟩
        · simp [keys, hL]
        · simp [keys, hR]
        · simp [addrs, hA]
        · simp [addrs, hB]
        · intro h; exact absurd h hc
        · intro _; simp only [height_mk, hh]
    · obtain ⟨i1, n, hn, hnb, hnk, hna, hnt, hnkey, hnf, hn1, hn0⟩ :=
        unlink_spec { i with found := true } a k b l r hbal'
      obtain ⟨al, hal⟩ := hfree a (by simp [addrs])
      rw [remove_indirect_eq i a k b l r h1.symm, hn]
      simp only at hnt
      simp only [hnt, hal]
      refine ⟨_, n, a, al, rfl, hal, rfl, hnkey, hnf, hnb, ⟨keys l, keys r, ?_, hnk⟩,
        ⟨addrs l, addrs r, rfl, hna⟩, hn1, hn0⟩
      simp [keys, h1]
    · have hkr : i.key ∈ keys r := by
        rcases hk with h | h | h
        · exact absurd (hbl _ h) (not_lt_of_lt h1)
        · exact absurd h (ne_of_gt h1)
        · exact h
      obtain ⟨i1, r1, p, al, he, hfe, ht, hkey, hf, hbal1, ⟨L, R, hL, hR⟩, ⟨A, B, hA, hB⟩,
        hc1, hc0⟩ := ihr hbstr hbalr hfr hkr
      rw [remove_indirect_lt i a k b l r h1, he]
      have hhr1 := height_nonneg r1
      by_cases hc : i1.height_changed = true
      · have hh := hc1 hc
        obtain ⟨i2, n, hn, hnb, hnk, hna, hnt, hnkey, hnf, hn1, hn0⟩ :=
          balance_right_spec i1 a k b l r1 hball hbal1 (by omega) hb3 hc
        simp only [hc, if_true, hn]
        refine ⟨i2, n, p, al, rfl, hfe, hnt.trans ht, hnkey.trans hkey, hnf.trans hf, hnb,
          ⟨keys l ++ k :: L, R, ?_, ?_⟩, ⟨addrs l ++ a :: A, B, ?_, ?_⟩, ?_, ?_⟩
        · simp [keys, hL]
        · rw [hnk]; simp [keys, hR]
        · simp [addrs, hA]
        · rw [hna]; simp [addrs, hB]
        · intro h; have := hn1 h; rw [height_mk]; omega
        · intro h; have := hn0 h; rw [height_mk]; omega
      · have hc' : i1.height_changed = false := by simpa using hc
        have hh := hc0 hc'
        simp only [hc', Bool.false_eq_true, if_false]
        refine ⟨i1, _, p, al, rfl, hfe, ht, hkey, hf, ⟨by omega, hb3, hball, hbal1⟩,
          ⟨keys l ++ k :: L, R, ?_, ?_⟩, ⟨addrs l ++ a :: A, B, ?_, ?_⟩, ?_, ?_⟩
        · simp [keys, hL]
        · simp [keys, hR]
        · simp [addrs, hA]
        · simp [addrs, hB]
        · intro h; exact absurd h hc
        · intro _; simp only [height_mk, hh]

end avl_tree

namespace avl_tree

variable {α : Type} {N : Nat}

theorem avl_keys_eq_map (t : node α) : keys t = (nodes t).map Prod.snd := by
  induction t with
  | sentinel => rfl
  | mk a k b l r ihl ihr => simp [keys, nodes, ihl, ihr]

theorem avl_addrs_eq_map (t : node α) : addrs t = (nodes t).map Prod.fst := by
  induction t with
  | sentinel => rfl
  | mk a k b l r ihl ihr => simp [addrs, nodes, ihl, ihr]

theorem rotate_left_nodes (n n' : node α) (h : internal_rotate_left n = some n') :
    nodes n' = nodes n := by
  unfold internal_rotate_left at h
  split at h
  · split at h
    · cases h; simp [nodes]
    · split at h
      · cases h; simp [nodes]
      · cases h
  · cases h

theorem rotate_right_nodes (n n' : node α) (h : internal_rotate_right n = some n') :
    nodes n' = nodes n := by
  unfold internal_rotate_right at h
  split at h
  · split at h
    · cases h; simp [nodes]
    · split at h
      · cases h; simp [nodes]
      · cases h
  · cases h

theorem add_left_post (i' i1 : internal_search_context α N) (a : Nat) (k : α) (b : Int)
    (l' r t1 : node α) (p' p : Nat)
    (h : (if i'.height_changed then
          if b = 1 then
            some ({ i' with height_changed := false }, node.mk a k 0 l' r, p')
          else if b = 0 then
            some (i', node.mk a k (-1) l' r, p')
          else
            match internal_rotate_left (.mk a k b l' r) with
            | none => none
            | some n => some ({ i' with height_changed := false }, n, p')
        else some (i', node.mk a k b l' r, p')) = some (i1, t1, p)) :
    i1.tree = i'.tree ∧ i1.found = i'.found ∧ i1.key = i'.key ∧ p = p' ∧
      nodes t1 = nodes l' ++ (a, k) :: nodes r := by
  split at h
  · split at h
    · cases h; exact ⟨rfl, rfl, rfl, rfl, rfl⟩
    · split at h
      · cases h; exact ⟨rfl, rfl, rfl, rfl, rfl⟩
      · split at h
        · cases h
        · rename_i n hn
          cases h
          exact ⟨rfl, rfl, rfl, rfl, rotate_left_nodes _ _ hn⟩
  · cases h; exact ⟨rfl, rfl, rfl, rfl, rfl⟩

theorem add_right_post (i' i1 : internal_search_context α N) (a : Nat) (k : α) (b : Int)
    (l r' t1 : node α) (p' p : Nat)
    (h : (if i'.height_changed then
          if b = -1 then
            some ({ i' with height_changed := false }, node.mk a k 0 l r', p')
          else if b = 0 then
            some (i', node.mk a k 1 l r', p')
          else
            match internal_rotate_right (.mk a k b l r') with
            | none => none
            | some n => some ({ i' with height_changed := false }, n, p')
        else some (i', node.mk a k b l r', p')) = some (i1, t1, p)) :
    i1.tree = i'.tree ∧ i1.found = i'.found ∧ i1.key = i'.key ∧ p = p' ∧
      nodes t1 = nodes l ++ (a, k) :: nodes r' := by
  split at h
  · split at h
    · cases h; exact ⟨rfl, rfl, rfl, rfl, rfl⟩
    · split at h
      · cases h; exact ⟨rfl, rfl, rfl, rfl, rfl⟩
      · split at h
        · cases h
        · rename_i n hn
          cases h
          exact ⟨rfl, rfl, rfl, rfl, rotate_right_nodes _ _ hn⟩
  · cases h; exact ⟨rfl, rfl, rfl, rfl, rfl⟩

/-- What `internal_add_node_indirect` does when the key is in the tree:
nothing but setting `found`. -/
theorem add_indirect_present [LinearOrder α] (i : internal_search_context α N)
    (hi : i.height_changed = false) (t : node α) (hb : bst t) (hk : i.key ∈ keys t) :
    ∃ p, internal_add_node_indirect i t = some ({ i with found := true }, t, p) ∧
      (p, i.key) ∈ nodes t := by
  induction t with
  | sentinel => simp [keys] at hk
  | mk a k b l r ihl ihr =>
    simp only [bst] at hb
    obtain ⟨hbl, hbr, hbstl, hbstr⟩ := hb
    simp only [keys, List.mem_append, List.mem_cons] at hk
    rcases lt_trichotomy i.key k with h1 | h1 | h1
    · have hkl : i.key ∈ keys l := by
        rcases hk with h | h | h
        · exact h
        · exact absurd h (ne_of_lt h1)
        · exact absurd (hbr _ h) (not_lt_of_lt h1)
      obtain ⟨p, hp, hpm⟩ := ihl hbstl hkl
      refine ⟨p, ?_, by simp [nodes, hpm]⟩
      rw [add_indirect_gt i a k b l r h1, hp]
      simp [hi]
    · refine ⟨a, add_indirect_eq i a k b l r h1.symm, by simp [nodes, h1]⟩
    · have hkr : i.key ∈ keys r := by
        rcases hk with h | h | h
        · exact absurd (hbl _ h) (not_lt_of_lt h1)
        · exact absurd h (ne_of_gt h1)
        · exact h
      obtain ⟨p, hp, hpm⟩ := ihr hbstr hkr
      refine ⟨p, ?_, by simp [nodes, hpm]⟩
      rw [add_indirect_lt i a k b l r h1, hp]
      simp [hi]

/-- What `internal_add_node_indirect` does when the key is not in the tree:
one element is allocated and becomes a node of the tree. -/
theorem add_indirect_absent [LinearOrder α] (i : internal_search_context α N)
    (t : node α) (hk : i.key ∉ keys t)
    (i1 : internal_search_context α N) (t1 : node α) (p : Nat)
    (h : internal_add_node_indirect i t = some (i1, t1, p)) :
    i1.found = false ∧ i1.key = i.key ∧
      (∃ al, fixed_alloc.alloc_elem i.tree.allocator = some (al, p) ∧
        i1.tree = { i.tree with allocator := al, count := i.tree.count + 1 }) ∧
      ∃ A B, nodes t = A ++ B ∧ nodes t1 = A ++ (p, i.key) :: B := by
  induction t generalizing i1 t1 p with
  | sentinel =>
    simp only [internal_add_node_indirect, internal_alloc_node] at h
    split at h
    · cases h
    · rename_i tree1 result heq
      split at heq
      · cases heq
      · rename_i al p' hal
        cases heq
        simp only [Option.some.injEq, Prod.mk.injEq] at h
        obtain ⟨rfl, rfl, rfl⟩ := h
        exact ⟨rfl, rfl, ⟨al, hal, rfl⟩, [], [], rfl, rfl⟩
  | mk a k b l r ihl ihr =>
    simp only [keys, List.mem_append, List.mem_cons, not_or] at hk
    obtain ⟨hkl, hkk, hkr⟩ := hk
    rcases lt_trichotomy i.key k with h1 | h1 | h1
    · rw [add_indirect_gt i a k b l r h1] at h
      split at h
      · cases h
      · rename_i i' l' p' he
        obtain ⟨hf, hkey, hal, A, B, hA, hB⟩ := ihl hkl i' l' p' he
        obtain ⟨e1, e2, e3, e4, e5⟩ := add_left_post i' i1 a k b l' r t1 p' p h
        subst e4
        refine ⟨e2.trans hf, e3.trans hkey, ?_, A, B ++ (a, k) :: nodes r, ?_, ?_⟩
        · obtain ⟨al, hal1, hal2⟩ := hal
          exact ⟨al, hal1, e1.trans hal2⟩
        · simp [nodes, hA]
        · rw [e5, hB]; simp
    · exact absurd h1 hkk
    · rw [add_indirect_lt i a k b l r h1] at h
      split at h
      · cases h
      · rename_i i' r' p' he
        obtain ⟨hf, hkey, hal, A, B, hA, hB⟩ := ihr hkr i' r' p' he
        obtain ⟨e1, e2, e3, e4, e5⟩ := add_right_post i' i1 a k b l r' t1 p' p h
        subst e4
        refine ⟨e2.trans hf, e3.trans hkey, ?_, nodes l ++ (a, k) :: A, B, ?_, ?_⟩
        · obtain ⟨al, hal1, hal2⟩ := hal
          exact ⟨al, hal1, e1.trans hal2⟩
        · simp [nodes, hA]
        · rw [e5, hB]; simp

end avl_tree

namespace avl_tree

variable {α : Type} {N : Nat}

theorem find_loop_spec [LinearOrder α] (key : α) (t : node α) (hb : bst t) :
    (key ∈ keys t → ∃ p, find_node.loop key key t = some p ∧ p ∈ addrs t ∧
      (p, key) ∈ nodes t) ∧
    (key ∉ keys t → find_node.loop key key t = some NULL) := by
  induction t with
  | sentinel =>
    refine ⟨fun h => by simp [keys] at h, fun _ => ?_⟩
    simp [find_node.loop, (COMPARE_zero key key).2 rfl]
  | mk a k b l r ihl ihr =>
    simp only [bst] at hb
    obtain ⟨hbl, hbr, hbstl, hbstr⟩ := hb
    simp only [keys, List.mem_append, List.mem_cons, not_or]
    rw [find_node.loop]
    rcases lt_trichotomy key k with h1 | h1 | h1
    · have c1 : ¬ (COMPARE k key < 0) := by rw [COMPARE_neg]; exact not_lt_of_lt h1
      have c2 : COMPARE k key > 0 := (COMPARE_pos k key).2 h1
      simp only [c1, c2, if_true, if_false]
      constructor
      · intro hk
        have hkl : key ∈ keys l := by
          rcases hk with h | h | h
          · exact h
          · exact absurd h (ne_of_lt h1)
          · exact absurd (hbr _ h) (not_lt_of_lt h1)
        obtain ⟨p, hp1, hp2, hp3⟩ := (ihl hbstl).1 hkl
        exact ⟨p, hp1, by simp [addrs, hp2], by simp [nodes, hp3]⟩
      · rintro ⟨hkl, _, _⟩
        exact (ihl hbstl).2 hkl
    · subst h1
      have c1 : ¬ (COMPARE key key < 0) := by rw [COMPARE_neg]; exact lt_irrefl _
      have c2 : ¬ (COMPARE key key > 0) := by rw [COMPARE_pos]; exact lt_irrefl _
      simp only [c1, c2, if_false]
      constructor
      · intro _
        exact ⟨a, rfl, by simp [addrs], by simp [nodes]⟩
      · rintro ⟨_, h, _⟩
        exact absurd trivial h
    · have c1 : COMPARE k key < 0 := (COMPARE_neg k key).2 h1
      simp only [c1, if_true]
      constructor
      · intro hk
        have hkr : key ∈ keys r := by
          rcases hk with h | h | h
          · exact absurd (hbl _ h) (not_lt_of_lt h1)
          · exact absurd h (ne_of_gt h1)
          · exact h
        obtain ⟨p, hp1, hp2, hp3⟩ := (ihr hbstr).1 hkr
        exact ⟨p, hp1, by simp [addrs, hp2], by simp [nodes, hp3]⟩
      · rintro ⟨_, _, hkr⟩
        exact (ihr hbstr).2 hkr

/-- Source-level effect of `find_node` on an ordered tree whose nodes sit at non-null addresses. -/
theorem avl_find_node_spec [LinearOrder α] (t : tree α N) (key : α) (hb : bst t.root)
    (hnull : NULL ∉ addrs t.root) :
    ∃ r, find_node t key = some ({ t with sentinel := key }, r) ∧
      (key ∈ keys t.root → r ≠ NULL ∧ (r, key) ∈ nodes t.root) ∧
      (key ∉ keys t.root → r = NULL) := by
  obtain ⟨h1, h2⟩ := find_loop_spec key t.root hb
  by_cases hk : key ∈ keys t.root
  · obtain ⟨p, hp1, hp2, hp3⟩ := h1 hk
    refine ⟨p, by simp [find_node, hp1], fun _ => ⟨?_, hp3⟩, fun h => absurd hk h⟩
    rintro rfl
    exact hnull hp2
  · exact ⟨NULL, by simp [find_node, h2 hk], fun h => absurd h hk, fun _ => rfl⟩

theorem live_ge_two (a : fixed_alloc.allocator N) (h : fixed_alloc.allocator_ok a) (p : Nat)
    (hp : fixed_alloc.is_live a p) : 2 ≤ p :=
  (fixed_alloc.live_in_bound a.cluster h.1 h.2 p hp).1

theorem storage_ok_not_null (t : tree α N) (h : storage_ok t) : NULL ∉ addrs t.root := by
  intro hn
  have := live_ge_two t.allocator h.1 NULL (h.2.2 NULL hn)
  simp [NULL] at this

/-- Source-level effect of `add_node_ext` on a well-formed tree: it returns, the invariants hold
afterwards, and the stored keys are the old ones and `key`. -/
theorem avl_add_node_ext_spec [LinearOrder α] (t : tree α N) (key : α)
    (hs : storage_ok t) (hb : bst t.root) (hbal : balanced t.root) :
    ∃ t1 p found, add_node_ext t key = some (t1, p, found) ∧
      storage_ok t1 ∧ bst t1.root ∧ balanced t1.root ∧
      (∀ x, x ∈ keys t1.root ↔ x = key ∨ x ∈ keys t.root) ∧
      (p, key) ∈ nodes t1.root ∧ (found = true ↔ key ∈ keys t.root) ∧
      (key ∈ keys t.root → t1 = t) ∧
      (key ∉ keys t.root → t1.count = t.count + 1 ∧ t1.sentinel = t.sentinel ∧
        ¬ fixed_alloc.is_live t.allocator p ∧
        (∀ q, fixed_alloc.is_live t1.allocator q ↔ q = p ∨ fixed_alloc.is_live t.allocator q) ∧
        (addrs t1.root).Perm (p :: addrs t.root)) := by
  obtain ⟨a1, p0, hal, hok1, hp2, hnl, hiff⟩ := fixed_alloc.alloc_elem_spec t.allocator hs.1
  obtain ⟨i1, t1, p, he, hbal1, hk1, hbst1, _, _⟩ :=
    add_indirect_spec { tree := t, key := key, height_changed := false, found := false }
      rfl ⟨_, hal⟩ t.root hb hbal
  by_cases hk : key ∈ keys t.root
  · obtain ⟨p', hp', hpm⟩ :=
      add_indirect_present { tree := t, key := key, height_changed := false, found := false }
        rfl t.root hb hk
    rw [hp'] at he
    simp only [Option.some.injEq, Prod.mk.injEq] at he
    obtain ⟨rfl, rfl, rfl⟩ := he
    refine ⟨t, p', true, by simp [add_node_ext, hp'], hs, hb, hbal, ?_, hpm, by simp [hk],
      fun _ => rfl, fun h => absurd hk h⟩
    intro x
    constructor
    · exact fun h => Or.inr h
    · rintro (rfl | h)
      · exact hk
      · exact h
  · obtain ⟨hf, _, ⟨al, hal1, hal2⟩, A, B, hA, hB⟩ :=
      add_indirect_absent { tree := t, key := key, height_changed := false, found := false }
        t.root hk i1 t1 p he
    simp only at hal1 hal2
    rw [hal] at hal1
    simp only [Option.some.injEq, Prod.mk.injEq] at hal1
    obtain ⟨rfl, rfl⟩ := hal1
    have haddr : (addrs t1).Perm (p0 :: addrs t.root) := by
      rw [avl_addrs_eq_map, avl_addrs_eq_map, hA, hB]
      simp only [List.map_append, List.map_cons]
      exact List.perm_middle
    refine ⟨{ i1.tree with root := t1 }, p0, i1.found, by simp [add_node_ext, he], ?_, hbst1,
      hbal1, hk1, by simp [hB], by simp [hf, hk], fun h => absurd h hk, fun _ => ?_⟩
    · rw [hal2]
      refine ⟨hok1, ?_, ?_⟩
      · refine (List.Perm.nodup_iff haddr).2 (List.nodup_cons.2 ⟨?_, hs.2.1⟩)
        intro hm
        exact hnl (hs.2.2 p0 hm)
      · intro q hq
        rw [hiff]
        rcases List.mem_cons.mp ((List.Perm.mem_iff haddr).1 hq) with h | h
        · exact Or.inl h
        · exact Or.inr (hs.2.2 q h)
    · rw [hal2]
      exact ⟨rfl, rfl, hnl, hiff, haddr⟩

end avl_tree

namespace avl_tree

variable {α : Type} {N : Nat}

theorem sorted_mid_not_mem {β : Type} [LinearOrder β] (L R : List β) (k : β)
    (h : (L ++ k :: R).Pairwise (· < ·)) : k ∉ L ++ R := by
  rw [List.pairwise_append] at h
  obtain ⟨_, h2, h3⟩ := h
  rw [List.pairwise_cons] at h2
  intro hm
  rcases List.mem_append.mp hm with hm | hm
  · exact lt_irrefl _ (h3 k hm k (List.mem_cons_self _ _))
  · exact lt_irrefl _ (h2.1 k hm)

theorem sorted_remove_mid {β : Type} [LinearOrder β] (L R : List β) (k : β)
    (h : (L ++ k :: R).Pairwise (· < ·)) : (L ++ R).Pairwise (· < ·) := by
  refine List.Pairwise.sublist ?_ h
  exact List.Sublist.append_left (List.sublist_cons_self k R) L

/-- Source-level effect of `remove_node` on a well-formed tree: it returns, the invariants hold
afterwards, and the stored keys are the old ones without `key`. -/
theorem avl_remove_node_spec [LinearOrder α] (t : tree α N) (key : α)
    (hs : storage_ok t) (hb : bst t.root) (hbal : balanced t.root) :
    ∃ t1 found, remove_node t key = some (t1, found) ∧
      storage_ok t1 ∧ bst t1.root ∧ balanced t1.root ∧
      (∀ x, x ∈ keys t1.root ↔ x ∈ keys t.root ∧ x ≠ key) ∧
      (found = true ↔ key ∈ keys t.root) ∧
      (key ∉ keys t.root → t1 = t) ∧
      (key ∈ keys t.root → t1.count = t.count - 1 ∧ t1.sentinel = t.sentinel ∧
        ∃ p, fixed_alloc.is_live t.allocator p ∧
          (∀ q, fixed_alloc.is_live t1.allocator q ↔
            q ≠ p ∧ fixed_alloc.is_live t.allocator q) ∧
          (addrs t.root).Perm (p :: addrs t1.root)) := by
  by_cases hk : key ∈ keys t.root
  · have hfree : ∀ p ∈ addrs t.root, ∃ al, fixed_alloc.free_elem t.allocator p = some al := by
      intro p hp
      obtain ⟨a1, h1, _⟩ := fixed_alloc.free_elem_spec t.allocator p hs.1 (hs.2.2 p hp)
      exact ⟨a1, h1⟩
    obtain ⟨i1, t1, p, al, he, hfe, ht, _, hf, hbal1, ⟨L, R, hL, hR⟩, ⟨A, B, hA, hB⟩, _, _⟩ :=
      remove_indirect_present
        { tree := t, key := key, height_changed := false, found := false } rfl
        t.root hb hbal hfree hk
    simp only at hfe ht hL
    have hpm : p ∈ addrs t.root := by rw [hA]; simp
    obtain ⟨a1, h1, hok1, hiff⟩ := fixed_alloc.free_elem_spec t.allocator p hs.1 (hs.2.2 p hpm)
    rw [hfe] at h1
    cases h1
    have hsorted := (avl_bst_iff_sorted t.root).1 hb
    rw [hL] at hsorted
    have hperm : (addrs t.root).Perm (p :: addrs t1) := by
      rw [hA, hB]; exact List.perm_middle
    have hnd : (p :: addrs t1).Nodup := (List.Perm.nodup_iff hperm).1 hs.2.1
    refine ⟨{ i1.tree with root := t1 }, i1.found, by simp [remove_node, he], ?_, ?_, hbal1,
      ?_, by simp [hf, hk], fun h => absurd hk h, fun _ => ?_⟩
    · rw [ht]
      refine ⟨hok1, (List.nodup_cons.1 hnd).2, ?_⟩
      intro q hq
      rw [hiff]
      refine ⟨?_, hs.2.2 q ((List.Perm.mem_iff hperm).2 (List.mem_cons_of_mem _ hq))⟩
      rintro rfl
      exact (List.nodup_cons.1 hnd).1 hq
    · show bst t1
      rw [avl_bst_iff_sorted, hR]
      exact sorted_remove_mid L R key hsorted
    · intro x
      show x ∈ keys t1 ↔ _
      rw [hR, hL]
      have hnot := sorted_mid_not_mem L R key hsorted
      simp only [List.mem_append, List.mem_cons] at hnot ⊢
      constructor
      · rintro (h | h)
        · exact ⟨Or.inl h, fun e => hnot (Or.inl (e ▸ h))⟩
        · exact ⟨Or.inr (Or.inr h), fun e => hnot (Or.inr (e ▸ h))⟩
      · rintro ⟨h | h | h, hne⟩
        · exact Or.inl h
        · exact absurd h hne
        · exact Or.inr h
    · rw [ht]
      exact ⟨rfl, rfl, p, hs.2.2 p hpm, hiff, hperm⟩
  · have he := remove_indirect_absent
      { tree := t, key := key, height_changed := false, found := false } rfl t.root hk
    refine ⟨t, false, by simp [remove_node, he], hs, hb, hbal, ?_, by simp [hk], fun _ => rfl,
      fun h => absurd h hk⟩
    intro x
    constructor
    · intro h
      exact ⟨h, fun e => hk (e ▸ h)⟩
    · exact fun h => h.1

end avl_tree

namespace rb_tree

variable {α β : Type} {N : Nat}

@[simp] theorem set_key_key (t : tree α β N) (p : Nat) (v : α) (q : Nat) :
    ((set_key t p v).mem q).key = if q = p then v else (t.mem q).key := by
  unfold set_key; simp only [Function.update_apply]; split <;> simp_all

@[simp] theorem set_key_value (t : tree α β N) (p : Nat) (v : α) (q : Nat) :
    ((set_key t p v).mem q).value = (t.mem q).value := by
  unfold set_key; simp only [Function.update_apply]; split <;> simp_all

@[simp] theorem set_key_color (t : tree α β N) (p : Nat) (v : α) (q : Nat) :
    ((set_key t p v).mem q).color = (t.mem q).color := by
  unfold set_key; simp only [Function.update_apply]; split <;> simp_all

@[simp] theorem set_key_left (t : tree α β N) (p : Nat) (v : α) (q : Nat) :
    ((set_key t p v).mem q).left = (t.mem q).left := by
  unfold set_key; simp only [Function.update_apply]; split <;> simp_all

@[simp] theorem set_key_right (t : tree α β N) (p : Nat) (v : α) (q : Nat) :
    ((set_key t p v).mem q).right = (t.mem q).right := by
  unfold set_key; simp only [Function.update_apply]; split <;> simp_all

@[simp] theorem set_key_parent (t : tree α β N) (p : Nat) (v : α) (q : Nat) :
    ((set_key t p v).mem q).parent = (t.mem q).parent := by
  unfold set_key; simp only [Function.update_apply]; split <;> simp_all

@[simp] theorem set_key_root (t : tree α β N) (p : Nat) (v : α) :
    (set_key t p v).root = t.root := rfl

@[simp] theorem set_key_allocator (t : tree α β N) (p : Nat) (v : α) :
    (set_key t p v).allocator = t.allocator := rfl

@[simp] theorem set_key_count (t : tree α β N) (p : Nat) (v : α) :
    (set_key t p v).count = t.count := rfl

theorem set_key_mem_ne (t : tree α β N) (p : Nat) (v : α) (q : Nat) (h : q ≠ p) :
    (set_key t p v).mem q = t.mem q := by
  unfold set_key; simp [Function.update_apply, h]

@[simp] theorem set_color_key (t : tree α β N) (p : Nat) (v : Nat) (q : Nat) :
    ((set_color t p v).mem q).key = (t.mem q).key := by
  unfold set_color; simp only [Function.update_apply]; split <;> simp_all

@[simp] theorem set_color_value (t : tree α β N) (p : Nat) (v : Nat) (q : Nat) :
    ((set_color t p v).mem q).value = (t.mem q).value := by
  unfold set_color; simp only [Function.update_apply]; split <;> simp_all

@[simp] theorem set_color_color (t : tree α β N) (p : Nat) (v : Nat) (q : Nat) :
    ((set_color t p v).mem q).color = if q = p then v else (t.mem q).color := by
  unfold set_color; simp only [Function.update_apply]; split <;> simp_all

@[simp] theorem set_color_left (t : tree α β N) (p : Nat) (v : Nat) (q : Nat) :
    ((set_color t p v).mem q).left = (t.mem q).left := by
  unfold set_color; simp only [Function.update_apply]; split <;> simp_all

@[simp] theorem set_color_right (t : tree α β N) (p : Nat) (v : Nat) (q : Nat) :
    ((set_color t p v).mem q).right = (t.mem q).right := by
  unfold set_color; simp only [Function.update_apply]; split <;> simp_all

@[simp] theorem set_color_parent (t : tree α β N) (p : Nat) (v : Nat) (q : Nat) :
    ((set_color t p v).mem q).parent = (t.mem q).parent := by
  unfold set_color; simp only [Function.update_apply]; split <;> simp_all

@[simp] theorem set_color_root (t : tree α β N) (p : Nat) (v : Nat) :
    (set_color t p v).root = t.root := rfl

@[simp] theorem set_color_allocator (t : tree α β N) (p : Nat) (v : Nat) :
    (set_color t p v).allocator = t.allocator := rfl

@[simp] theorem set_color_count (t : tree α β N) (p : Nat) (v : Nat) :
    (set_color t p v).count = t.count := rfl

theorem set_color_mem_ne (t : tree α β N) (p : Nat) (v : Nat) (q : Nat) (h : q ≠ p) :
    (set_color t p v).mem q = t.mem q := by
  unfold set_color; simp [Function.update_apply, h]

@[simp] theorem set_left_key (t : tree α β N) (p : Nat) (v : Nat) (q : Nat) :
    ((set_left t p v).mem q).key = (t.mem q).key := by
  unfold set_left; simp only [Function.update_apply]; split <;> simp_all

@[simp] theorem set_left_value (t : tree α β N) (p : Nat) (v : Nat) (q : Nat) :
    ((set_left t p v).mem q).value = (t.mem q).value := by
  unfold set_left; simp only [Function.update_apply]; split <;> simp_all

@[simp] theorem set_left_color (t : tree α β N) (p : Nat) (v : Nat) (q : Nat) :
    ((set_left t p v).mem q).color = (t.mem q).color := by
  unfold set_left; simp only [Function.update_apply]; split <;> simp_all

@[simp] theorem set_left_left (t : tree α β N) (p : Nat) (v : Nat) (q : Nat) :
    ((set_left t p v).mem q).left = if q = p then v else (t.mem q).left := by
  unfold set_left; simp only [Function.update_apply]; split <;> simp_all

@[simp] theorem set_left_right (t : tree α β N) (p : Nat) (v : Nat) (q : Nat) :
    ((set_left t p v).mem q).right = (t.mem q).right := by
  unfold set_left; simp only [Function.update_apply]; split <;> simp_all

@[simp] theorem set_left_parent (t : tree α β N) (p : Nat) (v : Nat) (q : Nat) :
    ((set_left t p v).mem q).parent = (t.mem q).parent := by
  unfold set_left; simp only [Function.update_apply]; split <;> simp_all

@[simp] theorem set_left_root (t : tree α β N) (p : Nat) (v : Nat) :
    (set_left t p v).root = t.root := rfl

@[simp] theorem set_left_allocator (t : tree α β N) (p : Nat) (v : Nat) :
    (set_left t p v).allocator = t.allocator := rfl

@[simp] theorem set_left_count (t : tree α β N) (p : Nat) (v : Nat) :
    (set_left t p v).count = t.count := rfl

theorem set_left_mem_ne (t : tree α β N) (p : Nat) (v : Nat) (q : Nat) (h : q ≠ p) :
    (set_left t p v).mem q = t.mem q := by
  unfold set_left; simp [Function.update_apply, h]

@[simp] theorem set_right_key (t : tree α β N) (p : Nat) (v : Nat) (q : Nat) :
    ((set_right t p v).mem q).key = (t.mem q).key := by
  unfold set_right; simp only [Function.update_apply]; split <;> simp_all

@[simp] theorem set_right_value (t : tree α β N) (p : Nat) (v : Nat) (q : Nat) :
    ((set_right t p v).mem q).value = (t.mem q).value := by
  unfold set_right; simp only [Function.update_apply]; split <;> simp_all

@[simp] theorem set_right_color (t : tree α β N) (p : Nat) (v : Nat) (q : Nat) :
    ((set_right t p v).mem q).color = (t.mem q).color := by
  unfold set_right; simp only [Function.update_apply]; split <;> simp_all

@[simp] theorem set_right_left (t : tree α β N) (p : Nat) (v : Nat) (q : Nat) :
    ((set_right t p v).mem q).left = (t.mem q).left := by
  unfold set_right; simp only [Function.update_apply]; split <;> simp_all

@[simp] theorem set_right_right (t : tree α β N) (p : Nat) (v : Nat) (q : Nat) :
    ((set_right t p v).mem q).right = if q = p then v else (t.mem q).right := by
  unfold set_right; simp only [Function.update_apply]; split <;> simp_all

@[simp] theorem set_right_parent (t : tree α β N) (p : Nat) (v : Nat) (q : Nat) :
    ((set_right t p v).mem q).parent = (t.mem q).parent := by
  unfold set_right; simp only [Function.update_apply]; split <;> simp_all

@[simp] theorem set_right_root (t : tree α β N) (p : Nat) (v : Nat) :
    (set_right t p v).root = t.root := rfl

@[simp] theorem set_right_allocator (t : tree α β N) (p : Nat) (v : Nat) :
    (set_right t p v).allocator = t.allocator := rfl

@[simp] theorem set_right_count (t : tree α β N) (p : Nat) (v : Nat) :
    (set_right t p v).count = t.count := rfl

theorem set_right_mem_ne (t : tree α β N) (p : Nat) (v : Nat) (q : Nat) (h : q ≠ p) :
    (set_right t p v).mem q = t.mem q := by
  unfold set_right; simp [Function.update_apply, h]

@[simp] theorem set_parent_key (t : tree α β N) (p : Nat) (v : Nat) (q : Nat) :
    ((set_parent t p v).mem q).key = (t.mem q).key := by
  unfold set_parent; simp only [Function.update_apply]; split <;> simp_all

@[simp] theorem set_parent_value (t : tree α β N) (p : Nat) (v : Nat) (q : Nat) :
    ((set_parent t p v).mem q).value = (t.mem q).value := by
  unfold set_parent; simp only [Function.update_apply]; split <;> simp_all

@[simp] theorem set_parent_color (t : tree α β N) (p : Nat) (v : Nat) (q : Nat) :
    ((set_parent t p v).mem q).color = (t.mem q).color := by
  unfold set_parent; simp only [Function.update_apply]; split <;> simp_all

@[simp] theorem set_parent_left (t : tree α β N) (p : Nat) (v : Nat) (q : Nat) :
    ((set_parent t p v).mem q).left = (t.mem q).left := by
  unfold set_parent; simp only [Function.update_apply]; split <;> simp_all

@[simp] theorem set_parent_right (t : tree α β N) (p : Nat) (v : Nat) (q : Nat) :
    ((set_parent t p v).mem q).right = (t.mem q).right := by
  unfold set_parent; simp only [Function.update_apply]; split <;> simp_all

@[simp] theorem set_parent_parent (t : tree α β N) (p : Nat) (v : Nat) (q : Nat) :
    ((set_parent t p v).mem q).parent = if q = p then v else (t.mem q).parent := by
  unfold set_parent; simp only [Function.update_apply]; split <;> simp_all

@[simp] theorem set_parent_root (t : tree α β N) (p : Nat) (v : Nat) :
    (set_parent t p v).root = t.root := rfl

@[simp] theorem set_parent_allocator (t : tree α β N) (p : Nat) (v : Nat) :
    (set_parent t p v).allocator = t.allocator := rfl

@[simp] theorem set_parent_count (t : tree α β N) (p : Nat) (v : Nat) :
    (set_parent t p v).count = t.count := rfl

theorem set_parent_mem_ne (t : tree α β N) (p : Nat) (v : Nat) (q : Nat) (h : q ≠ p) :
    (set_parent t p v).mem q = t.mem q := by
  unfold set_parent; simp [Function.update_apply, h]

end rb_tree

namespace rb_tree

variable {α β : Type} {N : Nat}

@[simp] theorem ptr_nil : (rbt.nil : rbt α β).ptr = leaf := rfl

@[simp] theorem ptr_node (a c : Nat) (k : α) (v : β) (l r : rbt α β) :
    (rbt.node a c k v l r).ptr = a := rfl

theorem Rep_ptr (m : Nat → node α β) (p par : Nat) (T : rbt α β) (h : Rep m p par T) :
    p = T.ptr := by
  cases T with
  | nil => exact h
  | node a c k v l r => exact h.1

theorem Rep_not_mem (m : Nat → node α β) (T : rbt α β) :
    ∀ p par, Rep m p par T → NULL ∉ T.addrs ∧ leaf ∉ T.addrs := by
  induction T with
  | nil => intro p par _; simp [rbt.addrs]
  | node a c k v l r ihl ihr =>
    intro p par h
    obtain ⟨_, h1, h2, _, _, _, _, hl, hr⟩ := h
    have := ihl _ _ hl
    have := ihr _ _ hr
    simp only [rbt.addrs, List.mem_append, List.mem_cons, not_or]
    exact ⟨⟨this.1 |> fun _ => (ihl _ _ hl).1, fun e => h1 e.symm, (ihr _ _ hr).1⟩,
      ⟨(ihl _ _ hl).2, fun e => h2 e.symm, (ihr _ _ hr).2⟩⟩

theorem Rep_congr (m m' : Nat → node α β) (T : rbt α β) :
    ∀ p par, Rep m p par T → (∀ x ∈ T.addrs, m' x = m x) → Rep m' p par T := by
  induction T with
  | nil => intro p par h _; exact h
  | node a c k v l r ihl ihr =>
    intro p par h hm
    obtain ⟨h0, h1, h2, h3, h4, h5, h6, hl, hr⟩ := h
    have ha : m' a = m a := hm a (by simp [rbt.addrs])
    refine ⟨h0, h1, h2, by rw [ha]; exact h3, by rw [ha]; exact h4, by rw [ha]; exact h5,
      by rw [ha]; exact h6, ?_, ?_⟩
    · rw [ha]; exact ihl _ _ hl (fun x hx => hm x (by simp [rbt.addrs, hx]))
    · rw [ha]; exact ihr _ _ hr (fun x hx => hm x (by simp [rbt.addrs, hx]))

/-- The parent link of the root of a subtree may be rewritten. -/
theorem Rep_reparent (m m' : Nat → node α β) (T : rbt α β) (p par par' : Nat)
    (h : Rep m p par T) (hnd : T.addrs.Nodup)
    (hm : ∀ x ∈ T.addrs, x ≠ p → m' x = m x)
    (hp : p ≠ leaf → (m' p).key = (m p).key ∧ (m' p).value = (m p).value ∧
      (m' p).color = (m p).color ∧ (m' p).left = (m p).left ∧ (m' p).right = (m p).right ∧
      (m' p).parent = par') :
    Rep m' p par' T := by
  cases T with
  | nil => exact h
  | node a c k v l r =>
    obtain ⟨h0, h1, h2, h3, h4, h5, h6, hl, hr⟩ := h
    subst h0
    obtain ⟨e1, e2, e3, e4, e5, e6⟩ := hp h2
    simp only [rbt.addrs, List.nodup_append, List.nodup_cons, List.mem_cons] at hnd
    obtain ⟨_, ⟨hpr, _⟩, hdis⟩ := hnd
    have hpl : p ∉ l.addrs := fun hx => hdis hx (List.mem_cons_self _ _)
    refine ⟨rfl, h1, h2, by rw [e1]; exact h3, by rw [e2]; exact h4, by rw [e3]; exact h5,
      e6, ?_, ?_⟩
    · rw [e4]
      refine Rep_congr m m' l _ _ hl (fun x hx => hm x (by simp [rbt.addrs, hx]) ?_)
      rintro rfl; exact hpl hx
    · rw [e5]
      refine Rep_congr m m' r _ _ hr (fun x hx => hm x (by simp [rbt.addrs, hx]) ?_)
      rintro rfl; exact hpr hx

theorem RepC_congr (m m' : Nat → node α β) (root : Nat) (ctx : List (frame α β)) :
    ∀ hp, RepC m root ctx hp → (∀ x ∈ ctx_addrs ctx, m' x = m x) → RepC m' root ctx hp := by
  induction ctx with
  | nil => intro hp h _; exact h
  | cons f fs ih =>
    intro hp h hm
    cases f with
    | left a c k v r =>
      obtain ⟨h1, h2, h3, h4, h5, h6, h7, h8, h9⟩ := h
      have ha : m' a = m a := hm a (by simp [ctx_addrs, frame.addrs])
      refine ⟨h1, h2, by rw [ha]; exact h3, by rw [ha]; exact h4, by rw [ha]; exact h5,
        by rw [ha]; exact h6, by rw [ha]; exact h7, ?_, ?_⟩
      · rw [ha]
        exact Rep_congr m m' r _ _ h8 (fun x hx => hm x (by simp [ctx_addrs, frame.addrs, hx]))
      · exact ih _ h9 (fun x hx => hm x (by simp [ctx_addrs, hx]))
    | right a c k v l =>
      obtain ⟨h1, h2, h3, h4, h5, h6, h7, h8, h9⟩ := h
      have ha : m' a = m a := hm a (by simp [ctx_addrs, frame.addrs])
      refine ⟨h1, h2, by rw [ha]; exact h3, by rw [ha]; exact h4, by rw [ha]; exact h5,
        by rw [ha]; exact h6, by rw [ha]; exact h7, ?_, ?_⟩
      · rw [ha]
        exact Rep_congr m m' l _ _ h8 (fun x hx => hm x (by simp [ctx_addrs, frame.addrs, hx]))
      · exact ih _ h9 (fun x hx => hm x (by simp [ctx_addrs, hx]))

/-- The subtree at the lower end of a path may be exchanged: the link to it
is rewritten and everything else on the path stays. -/
theorem RepC_relink (t t' : tree α β N) (ctx : List (frame α β)) (hp hp' : Nat)
    (h : RepC t.mem t.root ctx hp) (hnd : (ctx_addrs ctx).Nodup)
    (hroot : load t' (holder_of ctx) = hp')
    (hr : ctx ≠ [] → t'.root = t.root)
    (hm : ∀ x ∈ ctx_addrs ctx, x ≠ parent_of ctx → t'.mem x = t.mem x)
    (hpar : ∀ f fs, ctx = f :: fs →
      (t'.mem f.addr).key = (t.mem f.addr).key ∧ (t'.mem f.addr).value = (t.mem f.addr).value ∧
      (t'.mem f.addr).color = (t.mem f.addr).color ∧
      (t'.mem f.addr).parent = (t.mem f.addr).parent ∧
      (∀ a c k v r, f = .left a c k v r → (t'.mem a).right = (t.mem a).right) ∧
      (∀ a c k v l, f = .right a c k v l → (t'.mem a).left = (t.mem a).left)) :
    RepC t'.mem t'.root ctx hp' := by
  cases ctx with
  | nil => exact hroot
  | cons f fs =>
    obtain ⟨e1, e2, e3, e4, e5, e6⟩ := hpar f fs rfl
    have hr' := hr (by simp)
    cases f with
    | left a c k v r =>
      obtain ⟨h1, h2, h3, h4, h5, h6, h7, h8, h9⟩ := h
      simp only [frame.addr] at e1 e2 e3 e4
      simp only [ctx_addrs, frame.addrs, List.cons_append, List.nodup_cons, List.mem_append,
        not_or, List.nodup_append] at hnd
      obtain ⟨⟨har, hafs⟩, _, _, hdis⟩ := hnd
      refine ⟨h1, h2, by rw [e1]; exact h3, by rw [e2]; exact h4, by rw [e3]; exact h5,
        by rw [e4]; exact h6, hroot, ?_, ?_⟩
      · rw [e5 a c k v r rfl]
        refine Rep_congr _ _ r _ _ h8 (fun x hx => hm x (by simp [ctx_addrs, frame.addrs, hx]) ?_)
        simp only [parent_of, frame.addr]
        rintro rfl; exact har hx
      · rw [hr']
        refine RepC_congr _ _ _ fs _ h9
          (fun x hx => hm x (by simp [ctx_addrs, frame.addrs, hx]) ?_)
        simp only [parent_of, frame.addr]
        rintro rfl; exact hafs hx
    | right a c k v l =>
      obtain ⟨h1, h2, h3, h4, h5, h6, h7, h8, h9⟩ := h
      simp only [frame.addr] at e1 e2 e3 e4
      simp only [ctx_addrs, frame.addrs, List.cons_append, List.nodup_cons, List.mem_append,
        not_or, List.nodup_append] at hnd
      obtain ⟨⟨har, hafs⟩, _, _, hdis⟩ := hnd
      refine ⟨h1, h2, by rw [e1]; exact h3, by rw [e2]; exact h4, by rw [e3]; exact h5,
        by rw [e4]; exact h6, hroot, ?_, ?_⟩
      · rw [e6 a c k v l rfl]
        refine Rep_congr _ _ l _ _ h8 (fun x hx => hm x (by simp [ctx_addrs, frame.addrs, hx]) ?_)
        simp only [parent_of, frame.addr]
        rintro rfl; exact har hx
      · rw [hr']
        refine RepC_congr _ _ _ fs _ h9
          (fun x hx => hm x (by simp [ctx_addrs, frame.addrs, hx]) ?_)
        simp only [parent_of, frame.addr]
        rintro rfl; exact hafs hx

/-- A tree in memory splits into the path to a subtree and the subtree. -/
theorem Rep_plug (m : Nat → node α β) (root : Nat) (ctx : List (frame α β)) :
    ∀ s : rbt α β, Rep m root NULL (plug ctx s) ↔
      RepC m root ctx s.ptr ∧ Rep m s.ptr (parent_of ctx) s := by
  induction ctx with
  | nil =>
    intro s
    simp only [plug, RepC, parent_of]
    constructor
    · intro h
      have := Rep_ptr _ _ _ _ h
      exact ⟨this, this ▸ h⟩
    · rintro ⟨h1, h2⟩
      rw [h1]; exact h2
  | cons f fs ih =>
    intro s
    rw [plug, ih]
    cases f with
    | left a c k v r =>
      simp only [frame.fill, ptr_node, Rep, RepC, parent_of, frame.addr, true_and]
      constructor
      · rintro ⟨h1, h2, h3, h4, h5, h6, h7, h8, h9⟩
        have := Rep_ptr _ _ _ _ h8
        exact ⟨⟨h2, h3, h4, h5, h6, h7, this, h9, h1⟩, this ▸ h8⟩
      · rintro ⟨⟨h2, h3, h4, h5, h6, h7, h8, h9, h1⟩, h10⟩
        exact ⟨h1, h2, h3, h4, h5, h6, h7, h8 ▸ h10, h9⟩
    | right a c k v l =>
      simp only [frame.fill, ptr_node, Rep, RepC, parent_of, frame.addr, true_and]
      constructor
      · rintro ⟨h1, h2, h3, h4, h5, h6, h7, h8, h9⟩
        have := Rep_ptr _ _ _ _ h9
        exact ⟨⟨h2, h3, h4, h5, h6, h7, this, h8, h1⟩, this ▸ h9⟩
      · rintro ⟨⟨h2, h3, h4, h5, h6, h7, h8, h9, h1⟩, h10⟩
        exact ⟨h1, h2, h3, h4, h5, h6, h7, h9, h8 ▸ h10⟩

theorem addrs_plug (ctx : List (frame α β)) :
    ∀ s : rbt α β, (plug ctx s).addrs.Perm (s.addrs ++ ctx_addrs ctx) := by
  induction ctx with
  | nil => intro s; simp [plug, ctx_addrs]
  | cons f fs ih =>
    intro s
    rw [plug]
    refine (ih _).trans ?_
    rw [ctx_addrs, ← List.append_assoc]
    refine List.Perm.append_right _ ?_
    cases f with
    | left a c k v r => simp [frame.fill, rbt.addrs, frame.addrs]
    | right a c k v l =>
      simp only [frame.fill, rbt.addrs, frame.addrs, List.cons_append]
      exact List.perm_middle.trans ((List.Perm.cons a List.perm_append_comm).trans
        List.perm_middle.symm)

end rb_tree

namespace rb_tree

variable {α β : Type} {N : Nat}

theorem node_ext (x y : node α β) (h1 : x.key = y.key) (h2 : x.value = y.value)
    (h3 : x.color = y.color) (h4 : x.left = y.left) (h5 : x.right = y.right)
    (h6 : x.parent = y.parent) : x = y := by
  cases x; cases y; simp_all

theorem ptr_mem_or (s : rbt α β) : s.ptr = leaf ∨ s.ptr ∈ s.addrs := by
  cases s with
  | nil => left; rfl
  | node a c k v l r => right; simp [rbt.addrs]

theorem ne_ptr (s : rbt α β) (x : Nat) (h1 : x ∉ s.addrs) (h2 : x ≠ leaf) : x ≠ s.ptr := by
  rcases ptr_mem_or s with h | h
  · rw [h]; exact h2
  · rintro rfl; exact h1 h

/-- What a layout says about a subtree and the path to it. -/
theorem layout_split (t : tree α β N) (ctx : List (frame α β)) (s : rbt α β)
    (h : layout t (plug ctx s)) :
    RepC t.mem t.root ctx s.ptr ∧ Rep t.mem s.ptr (parent_of ctx) s ∧
      s.addrs.Nodup ∧ (ctx_addrs ctx).Nodup ∧ (∀ x ∈ s.addrs, x ∉ ctx_addrs ctx) ∧
      leaf ∉ s.addrs ∧ leaf ∉ ctx_addrs ctx ∧ NULL ∉ s.addrs ∧ NULL ∉ ctx_addrs ctx := by
  obtain ⟨h1, h2⟩ := h
  have hp := addrs_plug ctx s
  have hnd := (List.Perm.nodup_iff hp).1 h2
  rw [List.nodup_append] at hnd
  obtain ⟨n1, n2, n3⟩ := hnd
  have hnm := Rep_not_mem _ _ _ _ h1
  have e1 : ∀ x, x ∈ (plug ctx s).addrs ↔ x ∈ s.addrs ∨ x ∈ ctx_addrs ctx := by
    intro x; rw [List.Perm.mem_iff hp, List.mem_append]
  obtain ⟨r1, r2⟩ := (Rep_plug _ _ _ _).1 h1
  refine ⟨r1, r2, n1, n2, fun x hx hx' => n3 hx hx', ?_, ?_, ?_, ?_⟩
  · exact fun hx => hnm.2 ((e1 _).2 (Or.inl hx))
  · exact fun hx => hnm.2 ((e1 _).2 (Or.inr hx))
  · exact fun hx => hnm.1 ((e1 _).2 (Or.inl hx))
  · exact fun hx => hnm.1 ((e1 _).2 (Or.inr hx))

theorem holder_of_ne_left (ctx : List (frame α β)) (x : Nat) (h : x ≠ parent_of ctx) :
    holder_of ctx ≠ .left x := by
  cases ctx with
  | nil => simp [holder_of]
  | cons f fs =>
    cases f <;> simp [holder_of, parent_of, frame.addr] at h ⊢
    exact fun e => h e.symm

theorem holder_of_ne_right (ctx : List (frame α β)) (x : Nat) (h : x ≠ parent_of ctx) :
    holder_of ctx ≠ .right x := by
  cases ctx with
  | nil => simp [holder_of]
  | cons f fs =>
    cases f <;> simp [holder_of, parent_of, frame.addr] at h ⊢
    exact fun e => h e.symm

/-- The subtree at the lower end of a path is exchanged for another one with
the same nodes. -/
theorem layout_replace (t t' : tree α β N) (ctx : List (frame α β)) (s s' : rbt α β)
    (h : layout t (plug ctx s)) (hperm : s'.addrs.Perm s.addrs)
    (hrep : Rep t'.mem s'.ptr (parent_of ctx) s')
    (hload : load t' (holder_of ctx) = s'.ptr)
    (hf : frame_cond t t' s.addrs (holder_of ctx)) :
    layout t' (plug ctx s') := by
  obtain ⟨r1, r2, n1, n2, n3, l1, l2, _, _⟩ := layout_split t ctx s h
  obtain ⟨hroot, hfc⟩ := hf
  have hx : ∀ x ∈ ctx_addrs ctx, x ∉ s.addrs ∧ x ≠ leaf := by
    intro x hx
    exact ⟨fun h' => n3 x h' hx, fun e => l2 (e ▸ hx)⟩
  constructor
  · rw [Rep_plug]
    refine ⟨?_, hrep⟩
    refine RepC_relink t t' ctx s.ptr s'.ptr r1 n2 hload ?_ ?_ ?_
    · intro hne
      apply hroot
      cases ctx with
      | nil => exact absurd rfl hne
      | cons f fs => cases f <;> simp [holder_of]
    · intro x hxc hxp
      obtain ⟨e1, e2, e3, e4, e5, e6⟩ := hfc x (hx x hxc).1 (hx x hxc).2
      exact node_ext _ _ e1 e2 e3 (e5 (holder_of_ne_left ctx x hxp))
        (e6 (holder_of_ne_right ctx x hxp)) e4
    · intro f fs hctx
      have hmem : f.addr ∈ ctx_addrs ctx := by
        rw [hctx]; cases f <;> simp [ctx_addrs, frame.addrs, frame.addr]
      obtain ⟨e1, e2, e3, e4, e5, e6⟩ := hfc f.addr (hx _ hmem).1 (hx _ hmem).2
      refine ⟨e1, e2, e3, e4, ?_, ?_⟩
      · rintro a c k v r rfl
        apply e6
        rw [hctx]; simp [holder_of]
      · rintro a c k v l rfl
        apply e5
        rw [hctx]; simp [holder_of]
  · have hp := addrs_plug ctx s'
    rw [List.Perm.nodup_iff hp, List.nodup_append]
    refine ⟨(List.Perm.nodup_iff hperm).2 n1, n2, ?_⟩
    intro x hx1 hx2
    exact n3 x ((List.Perm.mem_iff hperm).1 hx1) hx2

/-- The fields of the root node of a subtree, read off the layout. -/
theorem layout_reads (t : tree α β N) (ctx : List (frame α β)) (a c : Nat) (k : α) (v : β)
    (l r : rbt α β) (h : layout t (plug ctx (.node a c k v l r))) :
    (t.mem a).key = k ∧ (t.mem a).value = v ∧ (t.mem a).color = c ∧
      (t.mem a).left = l.ptr ∧ (t.mem a).right = r.ptr ∧ (t.mem a).parent = parent_of ctx ∧
      load t (holder_of ctx) = a ∧ internal_get_holder t a = holder_of ctx ∧
      a ≠ NULL ∧ a ≠ leaf := by
  obtain ⟨r1, r2, n1, n2, n3, l1, l2, _, _⟩ := layout_split t ctx _ h
  obtain ⟨_, h1, h2, h3, h4, h5, h6, hl, hr⟩ := r2
  have hload : load t (holder_of ctx) = a := by
    cases ctx with
    | nil => exact r1
    | cons f fs =>
      cases f with
      | left fa fc fk fv fr => exact r1.2.2.2.2.2.2.1
      | right fa fc fk fv fl => exact r1.2.2.2.2.2.2.1
  refine ⟨h3, h4, h5, Rep_ptr _ _ _ _ hl, Rep_ptr _ _ _ _ hr, h6, hload, ?_, h1, h2⟩
  unfold internal_get_holder
  rw [h6]
  cases ctx with
  | nil => simp [parent_of, holder_of]
  | cons f fs =>
    cases f with
    | left fa fc fk fv fr =>
      obtain ⟨c1, c2, c3, c4, c5, c6, c7, c8, c9⟩ := r1
      simp only [parent_of, frame.addr, ne_eq, c1, not_false_eq_true, if_true, holder_of]
      simp only [ptr_node] at c7
      simp [c7]
    | right fa fc fk fv fl =>
      obtain ⟨c1, c2, c3, c4, c5, c6, c7, c8, c9⟩ := r1
      simp only [parent_of, frame.addr, ne_eq, c1, not_false_eq_true, if_true, holder_of]
      have hne : (t.mem fa).left ≠ a := by
        rw [Rep_ptr _ _ _ _ c8]
        apply Ne.symm
        apply ne_ptr
        · intro hm
          exact n3 a (by simp [rbt.addrs]) (by simp [ctx_addrs, frame.addrs, hm])
        · exact h2
      simp [hne]

end rb_tree

namespace rb_tree

variable {α β : Type} {N : Nat}

@[simp] theorem store_key (t : tree α β N) (h : holder) (v : Nat) (q : Nat) :
    ((store t h v).mem q).key = (t.mem q).key := by
  cases h <;> simp [store]

@[simp] theorem store_value (t : tree α β N) (h : holder) (v : Nat) (q : Nat) :
    ((store t h v).mem q).value = (t.mem q).value := by
  cases h <;> simp [store]

@[simp] theorem store_color (t : tree α β N) (h : holder) (v : Nat) (q : Nat) :
    ((store t h v).mem q).color = (t.mem q).color := by
  cases h <;> simp [store]

@[simp] theorem store_parent (t : tree α β N) (h : holder) (v : Nat) (q : Nat) :
    ((store t h v).mem q).parent = (t.mem q).parent := by
  cases h <;> simp [store]

@[simp] theorem store_left (t : tree α β N) (h : holder) (v : Nat) (q : Nat) :
    ((store t h v).mem q).left = if h = .left q then v else (t.mem q).left := by
  cases h with
  | root => simp [store]
  | left p =>
    simp only [store, set_left_left, holder.left.injEq]
    by_cases e : q = p
    · simp [e]
    · have : ¬ p = q := fun e' => e e'.symm
      simp [e, this]
  | right p => simp [store]

@[simp] theorem store_right (t : tree α β N) (h : holder) (v : Nat) (q : Nat) :
    ((store t h v).mem q).right = if h = .right q then v else (t.mem q).right := by
  cases h with
  | root => simp [store]
  | left p => simp [store]
  | right p =>
    simp only [store, set_right_right, holder.right.injEq]
    by_cases e : q = p
    · simp [e]
    · have : ¬ p = q := fun e' => e e'.symm
      simp [e, this]

@[simp] theorem store_root (t : tree α β N) (h : holder) (v : Nat) :
    (store t h v).root = if h = .root then v else t.root := by
  cases h <;> simp [store]

@[simp] theorem store_allocator (t : tree α β N) (h : holder) (v : Nat) :
    (store t h v).allocator = t.allocator := by
  cases h <;> simp [store]

@[simp] theorem store_count (t : tree α β N) (h : holder) (v : Nat) :
    (store t h v).count = t.count := by
  cases h <;> simp [store]

theorem load_eq (t : tree α β N) (h : holder) :
    load t h = match h with
      | .root => t.root
      | .left p => (t.mem p).left
      | .right p => (t.mem p).right := by
  cases h <;> rfl

@[simp] theorem load_store (t : tree α β N) (h : holder) (v : Nat) :
    load (store t h v) h = v := by
  cases h <;> simp [load, store]

@[simp] theorem load_set_key (t : tree α β N) (p : Nat) (v : α) (h : holder) :
    load (set_key t p v) h = load t h := by
  cases h <;> simp [load]

@[simp] theorem load_set_color (t : tree α β N) (p : Nat) (v : Nat) (h : holder) :
    load (set_color t p v) h = load t h := by
  cases h <;> simp [load]

@[simp] theorem load_set_parent (t : tree α β N) (p : Nat) (v : Nat) (h : holder) :
    load (set_parent t p v) h = load t h := by
  cases h <;> simp [load]

@[simp] theorem load_set_left (t : tree α β N) (p : Nat) (v : Nat) (h : holder) :
    load (set_left t p v) h = if h = .left p then v else load t h := by
  cases h with
  | root => simp [load]
  | left q =>
    simp only [load, set_left_left, holder.left.injEq]
  | right q => simp [load]

@[simp] theorem load_set_right (t : tree α β N) (p : Nat) (v : Nat) (h : holder) :
    load (set_right t p v) h = if h = .right p then v else load t h := by
  cases h with
  | root => simp [load]
  | left q => simp [load]
  | right q =>
    simp only [load, set_right_right, holder.right.injEq]

end rb_tree

namespace rb_tree

variable {α β : Type} {N : Nat}

theorem ptr_ne_null (m : Nat → node α β) (p par : Nat) (s : rbt α β) (h : Rep m p par s) :
    s.ptr ≠ NULL := by
  cases s with
  | nil => simp [leaf, NULL]
  | node a c k v l r => exact h.2.1

theorem parent_of_mem (ctx : List (frame α β)) (h : ctx ≠ []) :
    parent_of ctx ∈ ctx_addrs ctx := by
  cases ctx with
  | nil => exact absurd rfl h
  | cons f fs => cases f <;> simp [parent_of, ctx_addrs, frame.addrs, frame.addr]

theorem parent_of_nil_or (ctx : List (frame α β)) :
    parent_of ctx = NULL ∨ parent_of ctx ∈ ctx_addrs ctx := by
  cases ctx with
  | nil => left; rfl
  | cons f fs => right; exact parent_of_mem _ (by simp)

theorem layout_focus (t : tree α β N) (ctx : List (frame α β)) (a c : Nat) (k : α) (v : β)
    (l r : rbt α β) (h : layout t (plug ctx (.node a c k v l r))) :
    focus_facts t ctx a c k v l r := by
  obtain ⟨e1, e2, e3, e4, e5, e6, e7, e8, e9, e10⟩ := layout_reads t ctx a c k v l r h
  obtain ⟨r1, r2, n1, n2, n3, l1, l2, z1, z2⟩ := layout_split t ctx _ h
  obtain ⟨_, _, _, _, _, _, _, hl, hr⟩ := r2
  simp only [rbt.addrs, List.nodup_append, List.nodup_cons, List.mem_append, List.mem_cons,
    not_or] at n1 l1 z1
  obtain ⟨nl, ⟨nar, nr⟩, ndis⟩ := n1
  have nal : a ∉ l.addrs := fun hx => ndis hx (List.mem_cons_self _ _)
  have hpar : ∀ x, x ∈ (rbt.node a c k v l r).addrs → x ≠ parent_of ctx := by
    intro x hx
    rcases parent_of_nil_or ctx with hp | hp
    · rw [hp]; rintro rfl; exact (z1 : _) |> fun z => by
        simp only [rbt.addrs, List.mem_append, List.mem_cons] at hx
        rcases hx with hx | hx | hx
        · exact z.1 hx
        · exact z.2.1 hx
        · exact z.2.2 hx
    · rintro rfl; exact n3 _ hx hp
  have hpl : parent_of ctx ∉ l.addrs := fun hx => hpar _ (by simp [rbt.addrs, hx]) rfl
  have hpr : parent_of ctx ∉ r.addrs := fun hx => hpar _ (by simp [rbt.addrs, hx]) rfl
  have hparne : parent_of ctx ≠ leaf := by
    rcases parent_of_nil_or ctx with hp | hp
    · rw [hp]; simp [leaf, NULL]
    · rintro e; exact l2 (e ▸ hp)
  rw [e4] at hl
  rw [e5] at hr
  refine ⟨e1, e2, e3, e4, e5, e6, e7, e8, e9, e10, hpar _ (by simp [rbt.addrs]),
    ne_ptr l a nal e10, ne_ptr r a nar e10, ?_, ?_, ptr_ne_null _ _ _ _ hl,
    ptr_ne_null _ _ _ _ hr, ?_, ?_, hparne, hl, hr, nal, nar, nl, nr, ?_, ?_, l1.1, l1.2.2, hpl, hpr⟩
  · exact (ne_ptr l _ hpl hparne).symm
  · exact (ne_ptr r _ hpr hparne).symm
  · intro hne
    rcases ptr_mem_or l with h1 | h1
    · exact absurd h1 hne
    · apply ne_ptr r _ _ hne
      intro hx
      exact ndis h1 (List.mem_cons_of_mem _ hx)
  · intro hne
    rcases ptr_mem_or r with h1 | h1
    · exact absurd h1 hne
    · apply ne_ptr l _ _ hne
      intro hx
      exact ndis hx (List.mem_cons_of_mem _ h1)
  · intro x hx hx'
    exact ndis hx (List.mem_cons_of_mem _ hx')
  · intro x hx hx'
    exact ndis hx' (List.mem_cons_of_mem _ hx)

theorem set_color_spec (t : tree α β N) (ctx : List (frame α β)) (a c c' : Nat) (k : α) (v : β)
    (l r : rbt α β) (h : layout t (plug ctx (.node a c k v l r))) :
    layout (set_color t a c') (plug ctx (.node a c' k v l r)) := by
  have F := layout_focus t ctx a c k v l r h
  refine layout_replace t _ ctx _ _ h (List.Perm.refl _) ?_ ?_ ?_
  · refine ⟨rfl, F.ne_null, F.ne_leaf, by simp [F.key], by simp [F.value], by simp,
      by simp [F.parent], ?_, ?_⟩
    · simp only [set_color_left, F.left]
      refine Rep_congr _ _ _ _ _ F.rep_left (fun x hx => set_color_mem_ne _ _ _ _ ?_)
      rintro rfl; exact F.notin_left hx
    · simp only [set_color_right, F.right]
      refine Rep_congr _ _ _ _ _ F.rep_right (fun x hx => set_color_mem_ne _ _ _ _ ?_)
      rintro rfl; exact F.notin_right hx
  · simp [F.load]
  · refine ⟨fun _ => rfl, fun x hx _ => ?_⟩
    have : x ≠ a := by rintro rfl; exact hx (by simp [rbt.addrs])
    simp [this]

theorem set_key_spec (t : tree α β N) (ctx : List (frame α β)) (a c : Nat) (k k' : α) (v : β)
    (l r : rbt α β) (h : layout t (plug ctx (.node a c k v l r))) :
    layout (set_key t a k') (plug ctx (.node a c k' v l r)) := by
  have F := layout_focus t ctx a c k v l r h
  refine layout_replace t _ ctx _ _ h (List.Perm.refl _) ?_ ?_ ?_
  · refine ⟨rfl, F.ne_null, F.ne_leaf, by simp, by simp [F.value], by simp [F.color],
      by simp [F.parent], ?_, ?_⟩
    · simp only [set_key_left, F.left]
      refine Rep_congr _ _ _ _ _ F.rep_left (fun x hx => set_key_mem_ne _ _ _ _ ?_)
      rintro rfl; exact F.notin_left hx
    · simp only [set_key_right, F.right]
      refine Rep_congr _ _ _ _ _ F.rep_right (fun x hx => set_key_mem_ne _ _ _ _ ?_)
      rintro rfl; exact F.notin_right hx
  · simp [F.load]
  · refine ⟨fun _ => rfl, fun x hx _ => ?_⟩
    have : x ≠ a := by rintro rfl; exact hx (by simp [rbt.addrs])
    simp [this]

end rb_tree

namespace rb_tree

variable {α β : Type} {N : Nat}

theorem rotate_left_pp_spec (t : tree α β N) (ctx : List (frame α β))
    (d dc : Nat) (dk : α) (dv : β) (A : rbt α β) (c cc : Nat) (ck : α) (cv : β) (B C : rbt α β)
    (h : layout t (plug ctx (rbt.node d dc dk dv A (rbt.node c cc ck cv B C)))) :
    layout (internal_rotate_left_pp t (holder_of ctx))
      (plug ctx (rbt.node c cc ck cv (rbt.node d dc dk dv A B) C)) := by
  have F := layout_focus t ctx d dc dk dv _ _ h
  have G := layout_focus t (.right d dc dk dv A :: ctx) c cc ck cv _ _ h
  have hcd : c ≠ d := G.ne_par
  have hdc : d ≠ c := fun e => hcd e.symm
  have hbd : B.ptr ≠ d := G.left_ne_par
  have hdb : d ≠ B.ptr := fun e => hbd e.symm
  have hcb : c ≠ B.ptr := G.ne_left
  have hbc : B.ptr ≠ c := fun e => hcb e.symm
  have hdp : d ≠ parent_of ctx := F.ne_par
  have hcp : c ≠ parent_of ctx := F.right_ne_par
  have hpB : parent_of ctx ∉ B.addrs := fun hx => F.par_right (by simp [rbt.addrs, hx])
  have hpC : parent_of ctx ∉ C.addrs := fun hx => F.par_right (by simp [rbt.addrs, hx])
  have hbp : B.ptr ≠ parent_of ctx := (ne_ptr B _ hpB F.par_ne_leaf).symm
  have hl1 := holder_of_ne_left ctx d hdp
  have hl2 := holder_of_ne_left ctx c hcp
  have hl3 := holder_of_ne_left ctx _ hbp
  have hr1 := holder_of_ne_right ctx d hdp
  have hr2 := holder_of_ne_right ctx c hcp
  have hr3 := holder_of_ne_right ctx _ hbp
  have e1 := F.right
  simp only [ptr_node] at e1
  have e2 := G.parent
  simp only [parent_of, frame.addr] at e2
  have hmem : ∀ x, x ≠ d → x ≠ c → x ≠ B.ptr → x ≠ parent_of ctx →
      (internal_rotate_left_pp t (holder_of ctx)).mem x = t.mem x := by
    intro x h1 h2 h3 h4
    have := holder_of_ne_left ctx x h4
    have := holder_of_ne_right ctx x h4
    apply node_ext <;>
      simp [internal_rotate_left_pp, F.load, e1, e2, G.left, G.right, F.left, F.parent, hdc, hcd, hbc, hcb, hdb, hbd,
          hl1, hl2, hl3, hr1, hr2, hr3, h1, h2, h3, *]
  refine layout_replace t _ ctx _ _ h ?_ ?_ ?_ ?_
  · simp only [rbt.addrs, List.append_assoc, List.cons_append]
    exact List.Perm.refl _
  · refine ⟨rfl, G.ne_null, G.ne_leaf, ?_, ?_, ?_, ?_, ?inner, ?outer⟩
    · simp [internal_rotate_left_pp, F.load, e1, e2, G.left, G.right, F.left, F.parent, hdc, hcd, hbc, hcb, hdb, hbd,
          hl1, hl2, hl3, hr1, hr2, hr3, G.key]
    · simp [internal_rotate_left_pp, F.load, e1, e2, G.left, G.right, F.left, F.parent, hdc, hcd, hbc, hcb, hdb, hbd,
          hl1, hl2, hl3, hr1, hr2, hr3, G.value]
    · simp [internal_rotate_left_pp, F.load, e1, e2, G.left, G.right, F.left, F.parent, hdc, hcd, hbc, hcb, hdb, hbd,
          hl1, hl2, hl3, hr1, hr2, hr3, G.color]
    · simp [internal_rotate_left_pp, F.load, e1, e2, G.left, G.right, F.left, F.parent, hdc, hcd, hbc, hcb, hdb, hbd,
          hl1, hl2, hl3, hr1, hr2, hr3]
    case inner =>
      have e : ((internal_rotate_left_pp t (holder_of ctx)).mem c).left = d := by
        simp [internal_rotate_left_pp, F.load, e1, e2, G.left, G.right, F.left, F.parent, hdc, hcd, hbc, hcb, hdb, hbd,
          hl1, hl2, hl3, hr1, hr2, hr3]
      rw [e]
      refine ⟨rfl, F.ne_null, F.ne_leaf, ?_, ?_, ?_, ?_, ?stay, ?moved⟩
      · simp [internal_rotate_left_pp, F.load, e1, e2, G.left, G.right, F.left, F.parent, hdc, hcd, hbc, hcb, hdb, hbd,
          hl1, hl2, hl3, hr1, hr2, hr3, F.key]
      · simp [internal_rotate_left_pp, F.load, e1, e2, G.left, G.right, F.left, F.parent, hdc, hcd, hbc, hcb, hdb, hbd,
          hl1, hl2, hl3, hr1, hr2, hr3, F.value]
      · simp [internal_rotate_left_pp, F.load, e1, e2, G.left, G.right, F.left, F.parent, hdc, hcd, hbc, hcb, hdb, hbd,
          hl1, hl2, hl3, hr1, hr2, hr3, F.color]
      · simp [internal_rotate_left_pp, F.load, e1, e2, G.left, G.right, F.left, F.parent, hdc, hcd, hbc, hcb, hdb, hbd,
          hl1, hl2, hl3, hr1, hr2, hr3]
      case stay =>
        have e' : ((internal_rotate_left_pp t (holder_of ctx)).mem d).left = A.ptr := by
          simp [internal_rotate_left_pp, F.load, e1, e2, G.left, G.right, F.left, F.parent, hdc, hcd, hbc, hcb, hdb, hbd,
          hl1, hl2, hl3, hr1, hr2, hr3]
        rw [e']
        refine Rep_congr _ _ _ _ _ F.rep_left (fun x hx => hmem x ?_ ?_ ?_ ?_)
        · rintro rfl; exact F.notin_left hx
        · rintro rfl; exact F.disj_left _ hx (by simp [rbt.addrs])
        · refine ne_ptr B x (fun hx' => F.disj_left _ hx (by simp [rbt.addrs, hx'])) ?_
          rintro rfl; exact F.leaf_left hx
        · rintro rfl; exact F.par_left hx
      case moved =>
        have e' : ((internal_rotate_left_pp t (holder_of ctx)).mem d).right = B.ptr := by
          simp [internal_rotate_left_pp, F.load, e1, e2, G.left, G.right, F.left, F.parent, hdc, hcd, hbc, hcb, hdb, hbd,
          hl1, hl2, hl3, hr1, hr2, hr3]
        rw [e']
        refine Rep_reparent _ _ _ _ _ _ G.rep_left G.nodup_left (fun x hx hne => hmem x ?_ ?_ hne ?_) ?_
        · rintro rfl; exact F.notin_right (by simp [rbt.addrs, hx])
        · rintro rfl; exact G.notin_left hx
        · rintro rfl; exact hpB hx
        · intro _
          simp [internal_rotate_left_pp, F.load, e1, e2, G.left, G.right, F.left, F.parent, hdc, hcd, hbc, hcb, hdb, hbd,
          hl1, hl2, hl3, hr1, hr2, hr3]
    case outer =>
      have e : ((internal_rotate_left_pp t (holder_of ctx)).mem c).right = C.ptr := by
        simp [internal_rotate_left_pp, F.load, e1, e2, G.left, G.right, F.left, F.parent, hdc, hcd, hbc, hcb, hdb, hbd,
          hl1, hl2, hl3, hr1, hr2, hr3]
      rw [e]
      refine Rep_congr _ _ _ _ _ G.rep_right (fun x hx => hmem x ?_ ?_ ?_ ?_)
      · rintro rfl; exact F.notin_right (by simp [rbt.addrs, hx])
      · rintro rfl; exact G.notin_right hx
      · refine ne_ptr B x (fun hx' => G.disj_left _ hx' hx) ?_
        rintro rfl; exact G.leaf_right hx
      · rintro rfl; exact hpC hx
  · simp [internal_rotate_left_pp, F.load, e1, e2, G.left, G.right, F.left, F.parent, hdc, hcd, hbc, hcb, hdb, hbd,
          hl1, hl2, hl3, hr1, hr2, hr3]
  · refine ⟨fun hne => ?_, fun x hx hleaf => ?_⟩
    · simp [internal_rotate_left_pp, F.load, e1, e2, G.left, G.right, F.left, F.parent, hdc, hcd, hbc, hcb, hdb, hbd,
          hl1, hl2, hl3, hr1, hr2, hr3, hne]
    · have hxd : x ≠ d := by rintro rfl; exact hx (by simp [rbt.addrs])
      have hxc : x ≠ c := by rintro rfl; exact hx (by simp [rbt.addrs])
      have hxB : x ∉ B.addrs := fun h' => hx (by simp [rbt.addrs, h'])
      have hxb : x ≠ B.ptr := ne_ptr B x hxB hleaf
      refine ⟨?_, ?_, ?_, ?_, ?_, ?_⟩ <;>
        simp [internal_rotate_left_pp, F.load, e1, e2, G.left, G.right, F.left, F.parent, hdc, hcd, hbc, hcb, hdb, hbd,
          hl1, hl2, hl3, hr1, hr2, hr3, hxd, hxc, hxb]
      · intro hh; simp [hh]
      · intro hh; simp [hh]

theorem rotate_right_pp_spec (t : tree α β N) (ctx : List (frame α β))
    (d dc : Nat) (dk : α) (dv : β) (A : rbt α β) (c cc : Nat) (ck : α) (cv : β) (B C : rbt α β)
    (h : layout t (plug ctx (rbt.node d dc dk dv (rbt.node c cc ck cv C B) A))) :
    layout (internal_rotate_right_pp t (holder_of ctx))
      (plug ctx (rbt.node c cc ck cv C (rbt.node d dc dk dv B A))) := by
  have F := layout_focus t ctx d dc dk dv _ _ h
  have G := layout_focus t (.left d dc dk dv A :: ctx) c cc ck cv _ _ h
  have hcd : c ≠ d := G.ne_par
  have hdc : d ≠ c := fun e => hcd e.symm
  have hbd : B.ptr ≠ d := G.right_ne_par
  have hdb : d ≠ B.ptr := fun e => hbd e.symm
  have hcb : c ≠ B.ptr := G.ne_right
  have hbc : B.ptr ≠ c := fun e => hcb e.symm
  have hdp : d ≠ parent_of ctx := F.ne_par
  have hcp : c ≠ parent_of ctx := F.left_ne_par
  have hpB : parent_of ctx ∉ B.addrs := fun hx => F.par_left (by simp [rbt.addrs, hx])
  have hpC : parent_of ctx ∉ C.addrs := fun hx => F.par_left (by simp [rbt.addrs, hx])
  have hbp : B.ptr ≠ parent_of ctx := (ne_ptr B _ hpB F.par_ne_leaf).symm
  have hl1 := holder_of_ne_right ctx d hdp
  have hl2 := holder_of_ne_right ctx c hcp
  have hl3 := holder_of_ne_right ctx _ hbp
  have hr1 := holder_of_ne_left ctx d hdp
  have hr2 := holder_of_ne_left ctx c hcp
  have hr3 := holder_of_ne_left ctx _ hbp
  have e1 := F.left
  simp only [ptr_node] at e1
  have e2 := G.parent
  simp only [parent_of, frame.addr] at e2
  have hmem : ∀ x, x ≠ d → x ≠ c → x ≠ B.ptr → x ≠ parent_of ctx →
      (internal_rotate_right_pp t (holder_of ctx)).mem x = t.mem x := by
    intro x h1 h2 h3 h4
    have := holder_of_ne_right ctx x h4
    have := holder_of_ne_left ctx x h4
    apply node_ext <;>
      simp [internal_rotate_right_pp, F.load, e1, e2, G.right, G.left, F.right, F.parent, hdc, hcd, hbc, hcb, hdb, hbd,
          hl1, hl2, hl3, hr1, hr2, hr3, h1, h2, h3, *]
  refine layout_replace t _ ctx _ _ h ?_ ?_ ?_ ?_
  · simp only [rbt.addrs, List.append_assoc, List.cons_append]
    exact List.Perm.refl _
  · refine ⟨rfl, G.ne_null, G.ne_leaf, ?_, ?_, ?_, ?_, ?outer, ?inner⟩
    · simp [internal_rotate_right_pp, F.load, e1, e2, G.right, G.left, F.right, F.parent, hdc, hcd, hbc, hcb, hdb, hbd,
          hl1, hl2, hl3, hr1, hr2, hr3, G.key]
    · simp [internal_rotate_right_pp, F.load, e1, e2, G.right, G.left, F.right, F.parent, hdc, hcd, hbc, hcb, hdb, hbd,
          hl1, hl2, hl3, hr1, hr2, hr3, G.value]
    · simp [internal_rotate_right_pp, F.load, e1, e2, G.right, G.left, F.right, F.parent, hdc, hcd, hbc, hcb, hdb, hbd,
          hl1, hl2, hl3, hr1, hr2, hr3, G.color]
    · simp [internal_rotate_right_pp, F.load, e1, e2, G.right, G.left, F.right, F.parent, hdc, hcd, hbc, hcb, hdb, hbd,
          hl1, hl2, hl3, hr1, hr2, hr3]
    case inner =>
      have e : ((internal_rotate_right_pp t (holder_of ctx)).mem c).right = d := by
        simp [internal_rotate_right_pp, F.load, e1, e2, G.right, G.left, F.right, F.parent, hdc, hcd, hbc, hcb, hdb, hbd,
          hl1, hl2, hl3, hr1, hr2, hr3]
      rw [e]
      refine ⟨rfl, F.ne_null, F.ne_leaf, ?_, ?_, ?_, ?_, ?moved, ?stay⟩
      · simp [internal_rotate_right_pp, F.load, e1, e2, G.right, G.left, F.right, F.parent, hdc, hcd, hbc, hcb, hdb, hbd,
          hl1, hl2, hl3, hr1, hr2, hr3, F.key]
      · simp [internal_rotate_right_pp, F.load, e1, e2, G.right, G.left, F.right, F.parent, hdc, hcd, hbc, hcb, hdb, hbd,
          hl1, hl2, hl3, hr1, hr2, hr3, F.value]
      · simp [internal_rotate_right_pp, F.load, e1, e2, G.right, G.left, F.right, F.parent, hdc, hcd, hbc, hcb, hdb, hbd,
          hl1, hl2, hl3, hr1, hr2, hr3, F.color]
      · simp [internal_rotate_right_pp, F.load, e1, e2, G.right, G.left, F.right, F.parent, hdc, hcd, hbc, hcb, hdb, hbd,
          hl1, hl2, hl3, hr1, hr2, hr3]
      case stay =>
        have e' : ((internal_rotate_right_pp t (holder_of ctx)).mem d).right = A.ptr := by
          simp [internal_rotate_right_pp, F.load, e1, e2, G.right, G.left, F.right, F.parent, hdc, hcd, hbc, hcb, hdb, hbd,
          hl1, hl2, hl3, hr1, hr2, hr3]
        rw [e']
        refine Rep_congr _ _ _ _ _ F.rep_right (fun x hx => hmem x ?_ ?_ ?_ ?_)
        · rintro rfl; exact F.notin_right hx
        · rintro rfl; exact F.disj_right _ hx (by simp [rbt.addrs])
        · refine ne_ptr B x (fun hx' => F.disj_right _ hx (by simp [rbt.addrs, hx'])) ?_
          rintro rfl; exact F.leaf_right hx
        · rintro rfl; exact F.par_right hx
      case moved =>
        have e' : ((internal_rotate_right_pp t (holder_of ctx)).mem d).left = B.ptr := by
          simp [internal_rotate_right_pp, F.load, e1, e2, G.right, G.left, F.right, F.parent, hdc, hcd, hbc, hcb, hdb, hbd,
          hl1, hl2, hl3, hr1, hr2, hr3]
        rw [e']
        refine Rep_reparent _ _ _ _ _ _ G.rep_right G.nodup_right (fun x hx hne => hmem x ?_ ?_ hne ?_) ?_
        · rintro rfl; exact F.notin_left (by simp [rbt.addrs, hx])
        · rintro rfl; exact G.notin_right hx
        · rintro rfl; exact hpB hx
        · intro _
          simp [internal_rotate_right_pp, F.load, e1, e2, G.right, G.left, F.right, F.parent, hdc, hcd, hbc, hcb, hdb, hbd,
          hl1, hl2, hl3, hr1, hr2, hr3]
    case outer =>
      have e : ((internal_rotate_right_pp t (holder_of ctx)).mem c).left = C.ptr := by
        simp [internal_rotate_right_pp, F.load, e1, e2, G.right, G.left, F.right, F.parent, hdc, hcd, hbc, hcb, hdb, hbd,
          hl1, hl2, hl3, hr1, hr2, hr3]
      rw [e]
      refine Rep_congr _ _ _ _ _ G.rep_left (fun x hx => hmem x ?_ ?_ ?_ ?_)
      · rintro rfl; exact F.notin_left (by simp [rbt.addrs, hx])
      · rintro rfl; exact G.notin_left hx
      · refine ne_ptr B x (fun hx' => G.disj_right _ hx' hx) ?_
        rintro rfl; exact G.leaf_left hx
      · rintro rfl; exact hpC hx
  · simp [internal_rotate_right_pp, F.load, e1, e2, G.right, G.left, F.right, F.parent, hdc, hcd, hbc, hcb, hdb, hbd,
          hl1, hl2, hl3, hr1, hr2, hr3]
  · refine ⟨fun hne => ?_, fun x hx hleaf => ?_⟩
    · simp [internal_rotate_right_pp, F.load, e1, e2, G.right, G.left, F.right, F.parent, hdc, hcd, hbc, hcb, hdb, hbd,
          hl1, hl2, hl3, hr1, hr2, hr3, hne]
    · have hxd : x ≠ d := by rintro rfl; exact hx (by simp [rbt.addrs])
      have hxc : x ≠ c := by rintro rfl; exact hx (by simp [rbt.addrs])
      have hxB : x ∉ B.addrs := fun h' => hx (by simp [rbt.addrs, h'])
      have hxb : x ≠ B.ptr := ne_ptr B x hxB hleaf
      refine ⟨?_, ?_, ?_, ?_, ?_, ?_⟩ <;>
        simp [internal_rotate_right_pp, F.load, e1, e2, G.right, G.left, F.right, F.parent, hdc, hcd, hbc, hcb, hdb, hbd,
          hl1, hl2, hl3, hr1, hr2, hr3, hxd, hxc, hxb]
      · intro hh; simp [hh]
      · intro hh; simp [hh]

end rb_tree

namespace rb_tree

variable {α β : Type} {N : Nat}

theorem RED_ne_BLACK : RB_TREE_RED ≠ RB_TREE_BLACK := by decide

theorem valid_color (T : rbt α β) (n : Nat) (h : valid T n) :
    T.color = RB_TREE_RED ∨ T.color = RB_TREE_BLACK := by
  cases T with
  | nil => right; rfl
  | node a c k v l r =>
    rcases h with ⟨h, _⟩ | ⟨h, _⟩
    · left; exact h
    · right; exact h

theorem ctx_ok_black (ctx : List (frame α β)) (c n : Nat) (h : ctx_ok ctx c n) :
    ctx_ok ctx RB_TREE_BLACK n := by
  cases ctx with
  | nil => rfl
  | cons f fs =>
    rcases h with ⟨h1, _, h3, h4, h5⟩ | h
    · exact Or.inl ⟨h1, rfl, h3, h4, h5⟩
    · exact Or.inr h

/-- Filling a path with a valid subtree of the colour and black count the
path expects gives a valid tree with a black root. -/
theorem plug_valid (ctx : List (frame α β)) :
    ∀ (s : rbt α β) (n : Nat), ctx_ok ctx s.color n → valid s n →
      ∃ n', valid (plug ctx s) n' ∧ (plug ctx s).color = RB_TREE_BLACK := by
  induction ctx with
  | nil => intro s n h hv; exact ⟨n, hv, h⟩
  | cons f fs ih =>
    intro s n h hv
    rw [plug]
    rcases h with ⟨h1, h2, h3, h4, h5⟩ | ⟨h1, h4, h5⟩
    · refine ih (f.fill s) n ?_ ?_
      · cases f <;> simp only [frame.fill, rbt.color, frame.color] at h1 ⊢ <;> rw [h1] <;> exact h5
      · cases f with
        | left a c k v r =>
          simp only [frame.color, frame.sibling] at h1 h3 h4
          exact Or.inl ⟨h1, h2, h3, hv, h4⟩
        | right a c k v l =>
          simp only [frame.color, frame.sibling] at h1 h3 h4
          exact Or.inl ⟨h1, h3, h2, h4, hv⟩
    · refine ih (f.fill s) (n + 1) ?_ ?_
      · cases f <;> simp only [frame.fill, rbt.color, frame.color] at h1 ⊢ <;> rw [h1] <;> exact h5
      · cases f with
        | left a c k v r =>
          simp only [frame.color, frame.sibling] at h1 h4
          exact Or.inr ⟨h1, n, rfl, hv, h4⟩
        | right a c k v l =>
          simp only [frame.color, frame.sibling] at h1 h4
          exact Or.inr ⟨h1, n, rfl, h4, hv⟩

/-- A valid tree with a black root splits into a valid subtree and a path
that expects it. -/
theorem valid_split (ctx : List (frame α β)) :
    ∀ (s : rbt α β) (n' : Nat), valid (plug ctx s) n' → (plug ctx s).color = RB_TREE_BLACK →
      ∃ n, valid s n ∧ ctx_ok ctx s.color n := by
  induction ctx with
  | nil => intro s n' hv hc; exact ⟨n', hv, hc⟩
  | cons f fs ih =>
    intro s n' hv hc
    rw [plug] at hv hc
    obtain ⟨n, hvf, hcf⟩ := ih (f.fill s) n' hv hc
    cases f with
    | left a c k v r =>
      simp only [frame.fill, rbt.color] at hvf hcf
      rcases hvf with ⟨h1, h2, h3, h4, h5⟩ | ⟨h1, m, h2, h4, h5⟩
      · exact ⟨n, h4, Or.inl ⟨h1, h2, h3, h5, h1 ▸ hcf⟩⟩
      · exact ⟨m, h4, Or.inr ⟨h1, h5, by rw [← h2]; exact h1 ▸ hcf⟩⟩
    | right a c k v l =>
      simp only [frame.fill, rbt.color] at hvf hcf
      rcases hvf with ⟨h1, h2, h3, h4, h5⟩ | ⟨h1, m, h2, h4, h5⟩
      · exact ⟨n, h5, Or.inl ⟨h1, h3, h2, h4, h1 ▸ hcf⟩⟩
      · exact ⟨m, h5, Or.inr ⟨h1, h4, by rw [← h2]; exact h1 ▸ hcf⟩⟩

theorem black_counts_ne_nil (T : rbt α β) : black_counts T ≠ [] := by
  induction T with
  | nil => simp [black_counts]
  | node a c k v l r ihl ihr => simp [black_counts, ihl]

/-- The predicate `valid` is the conjunction of the three colour invariants. -/
theorem valid_iff (T : rbt α β) (n : Nat) :
    valid T n ↔ colored T ∧ no_red_red T ∧ ∀ x ∈ black_counts T, x = n := by
  induction T generalizing n with
  | nil => simp [valid, colored, no_red_red, black_counts, eq_comm]
  | node a c k v l r ihl ihr =>
    simp only [valid, colored, no_red_red, black_counts, List.mem_map, List.mem_append,
      forall_exists_index, and_imp]
    obtain ⟨xl, hxl⟩ := List.exists_mem_of_ne_nil _ (black_counts_ne_nil l)
    obtain ⟨xr, hxr⟩ := List.exists_mem_of_ne_nil _ (black_counts_ne_nil r)
    constructor
    · rintro (⟨h1, h2, h3, h4, h5⟩ | ⟨h1, m, h2, h4, h5⟩)
      · obtain ⟨cl, rl, bl⟩ := (ihl n).1 h4
        obtain ⟨cr, rr, br⟩ := (ihr n).1 h5
        refine ⟨⟨Or.inl h1, cl, cr⟩, ⟨fun _ => ⟨h2, h3⟩, rl, rr⟩, ?_⟩
        rintro x y (hy | hy) rfl
        · simp [h1, RED_ne_BLACK, bl y hy]
        · simp [h1, RED_ne_BLACK, br y hy]
      · obtain ⟨cl, rl, bl⟩ := (ihl m).1 h4
        obtain ⟨cr, rr, br⟩ := (ihr m).1 h5
        refine ⟨⟨Or.inr h1, cl, cr⟩, ⟨fun e => absurd (e.symm.trans h1) RED_ne_BLACK, rl, rr⟩, ?_⟩
        rintro x y (hy | hy) rfl
        · simp [h1, bl y hy, h2]
        · simp [h1, br y hy, h2]
    · rintro ⟨⟨hc, cl, cr⟩, ⟨hrr, rl, rr⟩, hb⟩
      rcases hc with hc | hc
      · left
        have hne : ¬ c = RB_TREE_BLACK := fun e => RED_ne_BLACK (hc.symm.trans e)
        refine ⟨hc, (hrr hc).1, (hrr hc).2, (ihl n).2 ⟨cl, rl, ?_⟩, (ihr n).2 ⟨cr, rr, ?_⟩⟩
        · intro x hx
          have := hb _ x (Or.inl hx) rfl
          simpa [hne] using this
        · intro x hx
          have := hb _ x (Or.inr hx) rfl
          simpa [hne] using this
      · right
        have h0 := hb _ xl (Or.inl hxl) rfl
        simp only [hc, if_true] at h0
        refine ⟨hc, xl, h0.symm, (ihl xl).2 ⟨cl, rl, ?_⟩, (ihr xl).2 ⟨cr, rr, ?_⟩⟩
        · intro x hx
          have := hb _ x (Or.inl hx) rfl
          simp only [hc, if_true] at this
          omega
        · intro x hx
          have := hb _ x (Or.inr hx) rfl
          simp only [hc, if_true] at this
          omega

theorem bst_iff_sorted [LinearOrder α] (T : rbt α β) :
    bst T ↔ T.keys.Pairwise (· < ·) := by
  induction T with
  | nil => simp [bst, rbt.keys]
  | node a c k v l r ihl ihr =>
    simp only [bst, rbt.keys, List.pairwise_append, List.pairwise_cons, List.mem_cons, ihl, ihr]
    constructor
    · rintro ⟨h1, h2, h3, h4⟩
      refine ⟨h3, ⟨h2, h4⟩, ?_⟩
      rintro x hx y (rfl | hy)
      · exact h1 x hx
      · exact lt_trans (h1 x hx) (h2 y hy)
    · rintro ⟨h1, ⟨h2, h3⟩, h4⟩
      exact ⟨fun x hx => h4 x hx k (Or.inl rfl), h2, h1, h3⟩

theorem keys_plug (ctx : List (frame α β)) :
    ∀ s : rbt α β, (plug ctx s).keys = keys_before ctx ++ s.keys ++ keys_after ctx := by
  induction ctx with
  | nil => intro s; simp [plug, keys_before, keys_after]
  | cons f fs ih =>
    intro s
    rw [plug, ih]
    cases f <;> simp [frame.fill, rbt.keys, keys_before, keys_after]

theorem entries_plug (ctx : List (frame α β)) :
    ∀ s : rbt α β,
      (plug ctx s).entries = entries_before ctx ++ s.entries ++ entries_after ctx := by
  induction ctx with
  | nil => intro s; simp [plug, entries_before, entries_after]
  | cons f fs ih =>
    intro s
    rw [plug, ih]
    cases f <;> simp [frame.fill, rbt.entries, entries_before, entries_after]

theorem keys_eq_map (T : rbt α β) : T.keys = T.entries.map (fun e => e.2.1) := by
  induction T with
  | nil => rfl
  | node a c k v l r ihl ihr => simp [rbt.keys, rbt.entries, ihl, ihr]

theorem addrs_eq_map (T : rbt α β) : T.addrs = T.entries.map (fun e => e.1) := by
  induction T with
  | nil => rfl
  | node a c k v l r ihl ihr => simp [rbt.addrs, rbt.entries, ihl, ihr]

end rb_tree

namespace rb_tree

variable {α β : Type} {N : Nat}

theorem aux_same_refl (t : tree α β N) : aux_same t t := ⟨rfl, rfl, rfl, rfl, rfl, rfl⟩

theorem aux_same_trans (t t1 t2 : tree α β N) (h1 : aux_same t t1) (h2 : aux_same t1 t2) :
    aux_same t t2 := by
  unfold aux_same at h1 h2 ⊢
  refine ⟨h2.1.trans h1.1, h2.2.1.trans h1.2.1, h2.2.2.1.trans h1.2.2.1, ?_, ?_, ?_⟩
  · exact h2.2.2.2.1.trans h1.2.2.2.1
  · exact h2.2.2.2.2.1.trans h1.2.2.2.2.1
  · exact h2.2.2.2.2.2.trans h1.2.2.2.2.2

theorem aux_same_leaf_ok (t t' : tree α β N) (h : aux_same t t') (hl : leaf_ok t) :
    leaf_ok t' := by
  obtain ⟨_, _, _, a4, a5, a6⟩ := h
  obtain ⟨l1, l2, l3⟩ := hl
  exact ⟨a4.trans l1, a5.trans l2, a6.trans l3⟩

theorem set_color_aux (t : tree α β N) (a c : Nat) (h : a ≠ leaf) :
    aux_same t (set_color t a c) := by
  have : leaf ≠ a := fun e => h e.symm
  refine ⟨rfl, rfl, ?_, ?_, ?_, ?_⟩ <;> simp [this]

theorem set_key_aux (t : tree α β N) (a : Nat) (k : α) (h : a ≠ leaf) :
    aux_same t (set_key t a k) := by
  have : leaf ≠ a := fun e => h e.symm
  refine ⟨rfl, rfl, ?_, ?_, ?_, ?_⟩ <;> simp [this]

theorem holder_of_ne_leaf (ctx : List (frame α β)) (h : parent_of ctx ≠ leaf) :
    holder_of ctx ≠ .left leaf ∧ holder_of ctx ≠ .right leaf := by
  cases ctx with
  | nil => simp [holder_of]
  | cons f fs =>
    cases f <;> simp [holder_of, parent_of, frame.addr] at h ⊢ <;> exact h

theorem rotate_left_pp_aux (t : tree α β N) (ctx : List (frame α β))
    (d dc : Nat) (dk : α) (dv : β) (A : rbt α β) (c cc : Nat) (ck : α) (cv : β) (B C : rbt α β)
    (h : layout t (plug ctx (rbt.node d dc dk dv A (rbt.node c cc ck cv B C)))) :
    aux_same t (internal_rotate_left_pp t (holder_of ctx)) := by
  have F := layout_focus t ctx d dc dk dv _ _ h
  have G := layout_focus t (.right d dc dk dv A :: ctx) c cc ck cv _ _ h
  have e1 := F.right
  simp only [ptr_node] at e1
  have h1 : leaf ≠ d := fun e => F.ne_leaf e.symm
  have h2 : leaf ≠ c := fun e => G.ne_leaf e.symm
  obtain ⟨h3, h4⟩ := holder_of_ne_leaf ctx F.par_ne_leaf
  refine ⟨?_, ?_, ?_, ?_, ?_, ?_⟩ <;>
    simp [internal_rotate_left_pp, F.load, e1, G.left, h1, h2, h3, h4]

theorem rotate_left_spec (t : tree α β N) (ctx : List (frame α β))
    (d dc : Nat) (dk : α) (dv : β) (A : rbt α β) (c cc : Nat) (ck : α) (cv : β) (B C : rbt α β)
    (h : layout t (plug ctx (rbt.node d dc dk dv A (rbt.node c cc ck cv B C)))) :
    layout (internal_rotate_left t d)
      (plug ctx (rbt.node c cc ck cv (rbt.node d dc dk dv A B) C)) ∧
    aux_same t (internal_rotate_left t d) := by
  have F := layout_focus t ctx d dc dk dv _ _ h
  rw [internal_rotate_left, F.holder]
  exact ⟨rotate_left_pp_spec t ctx d dc dk dv A c cc ck cv B C h,
    rotate_left_pp_aux t ctx d dc dk dv A c cc ck cv B C h⟩

theorem rotate_right_pp_aux (t : tree α β N) (ctx : List (frame α β))
    (d dc : Nat) (dk : α) (dv : β) (A : rbt α β) (c cc : Nat) (ck : α) (cv : β) (B C : rbt α β)
    (h : layout t (plug ctx (rbt.node d dc dk dv (rbt.node c cc ck cv C B) A))) :
    aux_same t (internal_rotate_right_pp t (holder_of ctx)) := by
  have F := layout_focus t ctx d dc dk dv _ _ h
  have G := layout_focus t (.left d dc dk dv A :: ctx) c cc ck cv _ _ h
  have e1 := F.left
  simp only [ptr_node] at e1
  have h1 : leaf ≠ d := fun e => F.ne_leaf e.symm
  have h2 : leaf ≠ c := fun e => G.ne_leaf e.symm
  obtain ⟨h3, h4⟩ := holder_of_ne_leaf ctx F.par_ne_leaf
  refine ⟨?_, ?_, ?_, ?_, ?_, ?_⟩ <;>
    simp [internal_rotate_right_pp, F.load, e1, G.right, h1, h2, h3, h4]

theorem rotate_right_spec (t : tree α β N) (ctx : List (frame α β))
    (d dc : Nat) (dk : α) (dv : β) (A : rbt α β) (c cc : Nat) (ck : α) (cv : β) (B C : rbt α β)
    (h : layout t (plug ctx (rbt.node d dc dk dv (rbt.node c cc ck cv C B) A))) :
    layout (internal_rotate_right t d)
      (plug ctx (rbt.node c cc ck cv C (rbt.node d dc dk dv B A))) ∧
    aux_same t (internal_rotate_right t d) := by
  have F := layout_focus t ctx d dc dk dv _ _ h
  rw [internal_rotate_right, F.holder]
  exact ⟨rotate_right_pp_spec t ctx d dc dk dv A c cc ck cv B C h,
    rotate_right_pp_aux t ctx d dc dk dv A c cc ck cv B C h⟩

/-- The subtree at the lower end of a path is exchanged for another one. -/
theorem layout_exchange (t t' : tree α β N) (ctx : List (frame α β)) (s s' : rbt α β)
    (W : List Nat) (h : layout t (plug ctx s))
    (hnd : s'.addrs.Nodup) (hdisj : ∀ x ∈ s'.addrs, x ∉ ctx_addrs ctx)
    (hrep : Rep t'.mem s'.ptr (parent_of ctx) s')
    (hload : load t' (holder_of ctx) = s'.ptr)
    (hW : ∀ x ∈ ctx_addrs ctx, x ∉ W)
    (hf : frame_cond t t' W (holder_of ctx)) :
    layout t' (plug ctx s') := by
  obtain ⟨r1, r2, n1, n2, n3, l1, l2, _, _⟩ := layout_split t ctx s h
  obtain ⟨hroot, hfc⟩ := hf
  have hx : ∀ x ∈ ctx_addrs ctx, x ∉ W ∧ x ≠ leaf := by
    intro x hx
    exact ⟨hW x hx, fun e => l2 (e ▸ hx)⟩
  constructor
  · rw [Rep_plug]
    refine ⟨?_, hrep⟩
    refine RepC_relink t t' ctx s.ptr s'.ptr r1 n2 hload ?_ ?_ ?_
    · intro hne
      apply hroot
      cases ctx with
      | nil => exact absurd rfl hne
      | cons f fs => cases f <;> simp [holder_of]
    · intro x hxc hxp
      obtain ⟨e1, e2, e3, e4, e5, e6⟩ := hfc x (hx x hxc).1 (hx x hxc).2
      exact node_ext _ _ e1 e2 e3 (e5 (holder_of_ne_left ctx x hxp))
        (e6 (holder_of_ne_right ctx x hxp)) e4
    · intro f fs hctx
      have hmem : f.addr ∈ ctx_addrs ctx := by
        rw [hctx]; cases f <;> simp [ctx_addrs, frame.addrs, frame.addr]
      obtain ⟨e1, e2, e3, e4, e5, e6⟩ := hfc f.addr (hx _ hmem).1 (hx _ hmem).2
      refine ⟨e1, e2, e3, e4, ?_, ?_⟩
      · rintro a c k v r rfl
        apply e6
        rw [hctx]; simp [holder_of]
      · rintro a c k v l rfl
        apply e5
        rw [hctx]; simp [holder_of]
  · have hp := addrs_plug ctx s'
    rw [List.Perm.nodup_iff hp, List.nodup_append]
    exact ⟨hnd, n2, fun x hx1 hx2 => hdisj x hx1 hx2⟩

end rb_tree

namespace rb_tree

variable {α β : Type} {N : Nat}

theorem plug_nil_addrs (ctx : List (frame α β)) :
    ∀ x, x ∈ (plug ctx (.nil : rbt α β)).addrs ↔ x ∈ ctx_addrs ctx := by
  intro x
  rw [List.Perm.mem_iff (addrs_plug ctx _)]
  simp [rbt.addrs]

/-- A fresh red node is hung into an empty place of the tree. -/
theorem insert_leaf_spec (t : tree α β N) (ctx : List (frame α β)) (key : α)
    (al : fixed_alloc.allocator N) (p : Nat)
    (h : layout t (plug ctx .nil)) (hp : p ∉ ctx_addrs ctx) (hpl : p ≠ leaf) (hpn : p ≠ NULL)
    (hal : fixed_alloc.alloc_elem t.allocator = some (al, p)) :
    ∃ t1, internal_alloc_node t (parent_of ctx) key = some (t1, p) ∧
      layout (store t1 (holder_of ctx) p)
        (plug ctx (.node p RB_TREE_RED key (t.mem p).value .nil .nil)) ∧
      (store t1 (holder_of ctx) p).allocator = al ∧
      (store t1 (holder_of ctx) p).count = t.count + 1 ∧
      ((store t1 (holder_of ctx) p).mem leaf).key = (t.mem leaf).key ∧
      ((store t1 (holder_of ctx) p).mem leaf).color = (t.mem leaf).color ∧
      ((store t1 (holder_of ctx) p).mem leaf).left = (t.mem leaf).left ∧
      ((store t1 (holder_of ctx) p).mem leaf).right = (t.mem leaf).right := by
  obtain ⟨r1, r2, n1, n2, n3, l1, l2, z1, z2⟩ := layout_split t ctx _ h
  have hpar : p ≠ parent_of ctx := by
    rcases parent_of_nil_or ctx with e | e
    · rw [e]; exact hpn
    · rintro rfl; exact hp e
  have hparl : parent_of ctx ≠ leaf := by
    rcases parent_of_nil_or ctx with e | e
    · rw [e]; simp [leaf, NULL]
    · rintro e'; exact l2 (e' ▸ e)
  have hl1 := holder_of_ne_left ctx p hpar
  have hr1 := holder_of_ne_right ctx p hpar
  obtain ⟨hl2, hr2⟩ := holder_of_ne_leaf ctx hparl
  have hlp : leaf ≠ p := fun e => hpl e.symm
  refine ⟨_, (by simp only [internal_alloc_node, hal]; rfl), ?_, ?_, ?_, ?_, ?_, ?_, ?_⟩
  · refine layout_exchange t _ ctx .nil _ [p] h ?_ ?_ ?_ ?_ ?_ ?_
    · simp [rbt.addrs]
    · intro x hx
      simp only [rbt.addrs, List.nil_append, List.mem_singleton] at hx
      rw [hx]; exact hp
    · refine ⟨rfl, hpn, hpl, ?_, ?_, ?_, ?_, ?_, ?_⟩ <;> simp [hl1, hr1, Rep]
    · simp
    · intro x hx
      simp only [List.mem_singleton]
      rintro rfl; exact hp hx
    · refine ⟨fun hne => by simp [hne], fun x hx _ => ?_⟩
      simp only [List.mem_singleton] at hx
      refine ⟨?_, ?_, ?_, ?_, ?_, ?_⟩ <;> simp [hx]
      · intro hh; simp [hh]
      · intro hh; simp [hh]
  · simp
  · simp
  · simp [hlp]
  · simp [hlp]
  · simp [hlp, hl2]
  · simp [hlp, hr2]

end rb_tree

namespace rb_tree

variable {α β : Type} {N : Nat}

/-- The colour field of the root of a subtree, the leaf included. -/
theorem color_read (t : tree α β N) (p par : Nat) (s : rbt α β) (h : Rep t.mem p par s)
    (hl : leaf_ok t) : (t.mem s.ptr).color = s.color := by
  cases s with
  | nil => exact hl.1
  | node a c k v l r => exact h.2.2.2.2.2.1

theorem adjust_post_of_aux (t t1 : tree α β N) (T0 T1 : rbt α β) (res : Option (tree α β N))
    (h : adjust_post t1 T1 res) (ha : aux_same t t1) (he : T1.entries = T0.entries) :
    adjust_post t T0 res := by
  obtain ⟨t', T', h1, h2, h3, h4, h5, h6⟩ := h
  exact ⟨t', T', h1, h2, h3, h4, h5.trans he, aux_same_trans _ _ _ ha h6⟩

/-- The final rotation of `internal_adjust_tree` when the node is the left
child of a left child. -/
theorem adjust_rotate_outer_left (t : tree α β N) (rest : List (frame α β))
    (ga : Nat) (gk : α) (gv : β) (fa : Nat) (fk : α) (fv : β) (a : Nat) (k : α) (v : β)
    (l r sr U : rbt α β)
    (h : layout t (plug rest (rbt.node ga RB_TREE_BLACK gk gv (rbt.node fa RB_TREE_RED fk fv (rbt.node a RB_TREE_RED k v l r) sr) U))) :
    ∃ t', internal_adjust_tree.rotate t a ga = some t' ∧
      layout t' (plug rest (rbt.node fa RB_TREE_BLACK fk fv (rbt.node a RB_TREE_RED k v l r) (rbt.node ga RB_TREE_RED gk gv sr U))) ∧ aux_same t t' := by
  have Fg := layout_focus t rest ga _ gk gv _ _ h
  have Ff := layout_focus t (.left ga RB_TREE_BLACK gk gv U :: rest) fa _ fk fv _ _ h
  have Fa := layout_focus t (.left fa RB_TREE_RED fk fv sr :: .left ga RB_TREE_BLACK gk gv U :: rest)
    a _ k v _ _ h
  have e1 := Fa.parent
  simp only [parent_of, frame.addr] at e1
  have e2 := Ff.left
  have e3 := Ff.right
  have e4 := Fg.left
  have e5 := Fg.right
  simp only [ptr_node] at e2 e4
  have n1 : a ≠ sr.ptr := by
    have := Ff.left_ne_right
    simp only [ptr_node] at this
    exact this Fa.ne_leaf
  have n2 : fa ≠ U.ptr := by
    have := Fg.left_ne_right
    simp only [ptr_node] at this
    exact this Ff.ne_leaf
  have L2 := set_color_spec t (.left ga RB_TREE_BLACK gk gv U :: rest) fa _ RB_TREE_BLACK fk fv
    _ _ h
  have L3 := set_color_spec (set_color t fa RB_TREE_BLACK) rest ga _ RB_TREE_RED gk gv _ _ L2
  obtain ⟨L4, A4⟩ := rotate_right_spec (set_color (set_color t fa RB_TREE_BLACK) ga RB_TREE_RED)
    rest ga _ gk gv U fa _ fk fv sr _ L3
  refine ⟨_, ?_, L4, ?_⟩
  · unfold internal_adjust_tree.rotate
    simp [e1, e2, e3, e4, e5, n1, n2]
  · exact aux_same_trans _ _ _ (aux_same_trans _ _ _ (set_color_aux t fa _ Ff.ne_leaf)
      (set_color_aux _ ga _ Fg.ne_leaf)) A4

/-- The two rotations of `internal_adjust_tree` when the node is the right
child of a left child. -/
theorem adjust_rotate_inner_left (t : tree α β N) (rest : List (frame α β))
    (ga : Nat) (gk : α) (gv : β) (fa : Nat) (fk : α) (fv : β) (a : Nat) (k : α) (v : β)
    (l r sl U : rbt α β)
    (h : layout t (plug rest (rbt.node ga RB_TREE_BLACK gk gv (rbt.node fa RB_TREE_RED fk fv sl (rbt.node a RB_TREE_RED k v l r)) U))) :
    ∃ t', internal_adjust_tree.rotate t a ga = some t' ∧
      layout t' (plug rest (rbt.node a RB_TREE_BLACK k v (rbt.node fa RB_TREE_RED fk fv sl l) (rbt.node ga RB_TREE_RED gk gv r U))) ∧ aux_same t t' := by
  have Fg := layout_focus t rest ga _ gk gv _ _ h
  have Ff := layout_focus t (.left ga RB_TREE_BLACK gk gv U :: rest) fa _ fk fv _ _ h
  have Fa := layout_focus t (.right fa RB_TREE_RED fk fv sl :: .left ga RB_TREE_BLACK gk gv U :: rest)
    a _ k v _ _ h
  have e1 := Fa.parent
  simp only [parent_of, frame.addr] at e1
  have e3 := Ff.right
  have e4 := Fg.left
  simp only [ptr_node] at e3 e4
  have L1 := rotate_left_pp_spec t (.left ga RB_TREE_BLACK gk gv U :: rest) fa _ fk fv sl a _ k v
    l r h
  have A1 := rotate_left_pp_aux t (.left ga RB_TREE_BLACK gk gv U :: rest) fa _ fk fv sl a _ k v
    l r h
  simp only [holder_of] at L1 A1
  have Gg := layout_focus _ rest ga _ gk gv _ _ L1
  have Ga := layout_focus _ (.left ga RB_TREE_BLACK gk gv U :: rest) a _ k v _ _ L1
  have Gf := layout_focus _ (.left a RB_TREE_RED k v r :: .left ga RB_TREE_BLACK gk gv U :: rest)
    fa _ fk fv _ _ L1
  have g1 := Ga.left
  have g2 := Gf.parent
  have g3 := Gg.left
  have g4 := Gg.right
  have e5 := Fg.right
  simp only [ptr_node, parent_of, frame.addr] at g1 g2 g3
  have n2 : fa ≠ U.ptr := by
    have := Fg.left_ne_right
    simp only [ptr_node] at this
    exact this Ff.ne_leaf
  have n3 : a ≠ U.ptr := by
    have := Gg.left_ne_right
    simp only [ptr_node] at this
    exact this Ga.ne_leaf
  have L2 := set_color_spec _ (.left ga RB_TREE_BLACK gk gv U :: rest) a _ RB_TREE_BLACK k v
    _ _ L1
  have L3 := set_color_spec _ rest ga _ RB_TREE_RED gk gv _ _ L2
  obtain ⟨L4, A4⟩ := rotate_right_spec _ rest ga _ gk gv U a _ k v r _ L3
  refine ⟨_, ?_, L4, ?_⟩
  · unfold internal_adjust_tree.rotate
    simp [e1, e3, e4, e5, g1, g2, g3, g4, n2, n3]
  · exact aux_same_trans _ _ _ (aux_same_trans _ _ _ (aux_same_trans _ _ _ A1
      (set_color_aux _ a _ Ga.ne_leaf)) (set_color_aux _ ga _ Gg.ne_leaf)) A4

/-- The red-uncle case of `internal_adjust_tree`: the parent, a left child,
and the uncle become black, the grandparent red. -/
theorem adjust_recolor_left (t : tree α β N) (rest : List (frame α β))
    (ga gc : Nat) (gk : α) (gv : β) (fa fc : Nat) (fk : α) (fv : β) (fl fr : rbt α β)
    (ua uc : Nat) (uk : α) (uv : β) (ul ur : rbt α β)
    (h : layout t (plug rest (rbt.node ga gc gk gv (rbt.node fa fc fk fv fl fr) (rbt.node ua uc uk uv ul ur)))) :
    layout (set_color (set_color (set_color t ua RB_TREE_BLACK) fa RB_TREE_BLACK) ga RB_TREE_RED)
      (plug rest (rbt.node ga RB_TREE_RED gk gv (rbt.node fa RB_TREE_BLACK fk fv fl fr) (rbt.node ua RB_TREE_BLACK uk uv ul ur))) ∧
    aux_same t
      (set_color (set_color (set_color t ua RB_TREE_BLACK) fa RB_TREE_BLACK) ga RB_TREE_RED) := by
  have Fg := layout_focus t rest ga _ gk gv _ _ h
  have Ff := layout_focus t (.left ga gc gk gv (rbt.node ua uc uk uv ul ur) :: rest) fa _ fk fv
    _ _ h
  have Fu := layout_focus t (.right ga gc gk gv (rbt.node fa fc fk fv fl fr) :: rest) ua _ uk uv
    _ _ h
  have L1 := set_color_spec t (.right ga gc gk gv (rbt.node fa fc fk fv fl fr) :: rest) ua _
    RB_TREE_BLACK uk uv _ _ h
  have L2 := set_color_spec _ (.left ga gc gk gv (rbt.node ua RB_TREE_BLACK uk uv ul ur) :: rest)
    fa _ RB_TREE_BLACK fk fv _ _ L1
  have L3 := set_color_spec _ rest ga _ RB_TREE_RED gk gv _ _ L2
  exact ⟨L3, aux_same_trans _ _ _ (aux_same_trans _ _ _ (set_color_aux t ua _ Fu.ne_leaf)
    (set_color_aux _ fa _ Ff.ne_leaf)) (set_color_aux _ ga _ Fg.ne_leaf)⟩

/-- One round of the adjustment loop below a red parent whose own parent has
it as its left child. -/
theorem adjust_step_left (t : tree α β N) (rest : List (frame α β))
    (ga : Nat) (gk : α) (gv : β) (U : rbt α β) (f : frame α β)
    (a : Nat) (k : α) (v : β) (l r : rbt α β) (n fuel : Nat)
    (h : layout t (plug (f :: .left ga RB_TREE_BLACK gk gv U :: rest)
      (rbt.node a RB_TREE_RED k v l r)))
    (hfc : f.color = RB_TREE_RED) (hfs : f.sibling.color = RB_TREE_BLACK)
    (hfv : valid f.sibling n) (hv : valid (rbt.node a RB_TREE_RED k v l r) n)
    (hU : valid U n) (hrest : ctx_ok rest RB_TREE_BLACK (n + 1)) (hleaf : leaf_ok t)
    (IH : ∀ (t2 : tree α β N) (a2 : Nat) (k2 : α) (v2 : β) (l2 r2 : rbt α β),
      layout t2 (plug rest (.node a2 RB_TREE_RED k2 v2 l2 r2)) →
      valid (.node a2 RB_TREE_RED k2 v2 l2 r2) (n + 1) → leaf_ok t2 →
      adjust_post t2 (plug rest (.node a2 RB_TREE_RED k2 v2 l2 r2))
        (internal_adjust_tree.loop fuel t2 a2)) :
    adjust_post t (plug (f :: .left ga RB_TREE_BLACK gk gv U :: rest)
      (rbt.node a RB_TREE_RED k v l r)) (internal_adjust_tree.loop (fuel + 1) t a) := by
  have Fa := layout_focus t (f :: .left ga RB_TREE_BLACK gk gv U :: rest) a _ k v _ _ h
  have hf : ∃ fa fk fv fl fr, f.fill (rbt.node a RB_TREE_RED k v l r) =
      .node fa RB_TREE_RED fk fv fl fr ∧ f.addr = fa := by
    cases f with
    | left fa fc fk fv fr =>
      simp only [frame.color] at hfc
      subst hfc
      exact ⟨fa, fk, fv, _, _, rfl, rfl⟩
    | right fa fc fk fv fl =>
      simp only [frame.color] at hfc
      subst hfc
      exact ⟨fa, fk, fv, _, _, rfl, rfl⟩
  obtain ⟨fa, fk, fv, fl, fr, hfill, hfa⟩ := hf
  have h' : layout t (plug (.left ga RB_TREE_BLACK gk gv U :: rest)
      (.node fa RB_TREE_RED fk fv fl fr)) := by
    rw [← hfill]; exact h
  have Ff := layout_focus t (.left ga RB_TREE_BLACK gk gv U :: rest) fa _ fk fv _ _ h'
  have Fg := layout_focus t rest ga _ gk gv _ _ h'
  have e1 : (t.mem a).parent = fa := by rw [Fa.parent]; exact hfa
  have e2 := Ff.color
  have e3 := Ff.parent
  have e4 := Fg.left
  have e5 := Fg.right
  simp only [parent_of, frame.addr, ptr_node] at e3 e4
  have e6 : (t.mem U.ptr).color = U.color := color_read t _ _ U Fg.rep_right hleaf
  have n1 : fa ≠ NULL := Ff.ne_null
  have n2 : ga ≠ NULL := Fg.ne_null
  have n3 : U.ptr ≠ NULL := Fg.right_ne_null
  have n4 : fa ≠ U.ptr := by
    have := Fg.left_ne_right
    simp only [ptr_node] at this
    exact this Ff.ne_leaf
  have hb : ¬ (RB_TREE_RED = RB_TREE_BLACK) := RED_ne_BLACK
  have hplug : plug (f :: .left ga RB_TREE_BLACK gk gv U :: rest) (rbt.node a RB_TREE_RED k v l r) =
      plug rest (rbt.node ga RB_TREE_BLACK gk gv (rbt.node fa RB_TREE_RED fk fv fl fr) U) := by
    show plug rest ((frame.left ga RB_TREE_BLACK gk gv U).fill
      (f.fill (rbt.node a RB_TREE_RED k v l r))) = _
    rw [hfill]
    rfl
  rcases valid_color U n hU with hUc | hUc
  · -- the uncle is red
    cases U with
    | nil => exact absurd hUc.symm RED_ne_BLACK
    | node ua uc uk uv ul ur =>
      simp only [rbt.color] at hUc
      subst hUc
      obtain ⟨L3, A3⟩ := adjust_recolor_left t rest ga _ gk gv fa _ fk fv fl fr ua _ uk uv ul ur h'
      have hvU : valid (rbt.node ua RB_TREE_BLACK uk uv ul ur) (n + 1) := by
        rcases hU with ⟨_, _, _, h4, h5⟩ | ⟨h1, _⟩
        · exact Or.inr ⟨rfl, n, rfl, h4, h5⟩
        · exact absurd h1 RED_ne_BLACK
      have hvP : valid (rbt.node fa RB_TREE_BLACK fk fv fl fr) (n + 1) := by
        cases f with
        | left fa' fc fk' fv' fr' =>
          simp only [frame.fill, rbt.node.injEq] at hfill
          obtain ⟨rfl, _, rfl, rfl, rfl, rfl⟩ := hfill
          exact Or.inr ⟨rfl, n, rfl, hv, hfv⟩
        | right fa' fc fk' fv' fl' =>
          simp only [frame.fill, rbt.node.injEq] at hfill
          obtain ⟨rfl, _, rfl, rfl, rfl, rfl⟩ := hfill
          exact Or.inr ⟨rfl, n, rfl, hfv, hv⟩
      have hv2 : valid (rbt.node ga RB_TREE_RED gk gv (rbt.node fa RB_TREE_BLACK fk fv fl fr) (rbt.node ua RB_TREE_BLACK uk uv ul ur)) (n + 1) :=
        Or.inl ⟨rfl, rfl, rfl, hvP, hvU⟩
      have hrec := IH _ ga gk gv _ _ L3 hv2 (aux_same_leaf_ok _ _ A3 hleaf)
      have heq : internal_adjust_tree.loop (fuel + 1) t a =
          internal_adjust_tree.loop fuel (set_color (set_color (set_color t ua RB_TREE_BLACK) fa
            RB_TREE_BLACK) ga RB_TREE_RED) ga := by
        rw [internal_adjust_tree.loop]
        simp only [ptr_node, rbt.color] at e5 e6 n3 n4
        simp [e1, e2, e3, e4, e5, e6, n1, n2, n3, n4, hb]
      rw [heq]
      refine adjust_post_of_aux _ _ _ _ _ hrec A3 ?_
      rw [hplug]
      simp only [entries_plug, rbt.entries]
  · -- the uncle is black
    have heq : internal_adjust_tree.loop (fuel + 1) t a = internal_adjust_tree.rotate t a ga := by
      rw [internal_adjust_tree.loop]
      have hne : ¬ (U.color = RB_TREE_RED) := by rw [hUc]; exact fun e => RED_ne_BLACK e.symm
      simp [e1, e2, e3, e4, e5, e6, n1, n2, n3, n4, hb, hne]
    rw [heq]
    cases f with
    | left fa' fc fk' fv' fr' =>
      simp only [frame.fill, rbt.node.injEq] at hfill
      obtain ⟨rfl, rfl, rfl, rfl, rfl, rfl⟩ := hfill
      simp only [frame.sibling] at hfs hfv
      obtain ⟨t', h1, h2, h3⟩ := adjust_rotate_outer_left t rest ga gk gv fa' fk' fv' a k v l r
        fr' U h
      obtain ⟨n', hv', hc'⟩ := plug_valid rest (rbt.node fa' RB_TREE_BLACK fk' fv' (rbt.node a RB_TREE_RED k v l r) (rbt.node ga RB_TREE_RED gk gv fr' U)) (n + 1) hrest
        (Or.inr ⟨rfl, n, rfl, hv, Or.inl ⟨rfl, hfs, hUc, hfv, hU⟩⟩)
      refine ⟨t', _, h1, h2, ⟨n', hv'⟩, hc', ?_, h3⟩
      · rw [hplug]
        simp only [entries_plug, rbt.entries]
        simp
    | right fa' fc fk' fv' fl' =>
      simp only [frame.fill, rbt.node.injEq] at hfill
      obtain ⟨rfl, rfl, rfl, rfl, rfl, rfl⟩ := hfill
      simp only [frame.sibling] at hfs hfv
      obtain ⟨t', h1, h2, h3⟩ := adjust_rotate_inner_left t rest ga gk gv fa' fk' fv' a k v l r
        fl' U h
      rcases hv with ⟨_, hlc, hrc, hvl, hvr⟩ | ⟨hh, _⟩
      · obtain ⟨n', hv', hc'⟩ := plug_valid rest (rbt.node a RB_TREE_BLACK k v (rbt.node fa' RB_TREE_RED fk' fv' fl' l) (rbt.node ga RB_TREE_RED gk gv r U)) (n + 1) hrest
          (Or.inr ⟨rfl, n, rfl, Or.inl ⟨rfl, hfs, hlc, hfv, hvl⟩, Or.inl ⟨rfl, hrc, hUc, hvr, hU⟩⟩)
        refine ⟨t', _, h1, h2, ⟨n', hv'⟩, hc', ?_, h3⟩
        · rw [hplug]
          simp only [entries_plug, rbt.entries]
          simp
      · exact absurd hh RED_ne_BLACK

/-- The final rotation of `internal_adjust_tree` when the node is the right
child of a right child. -/
theorem adjust_rotate_outer_right (t : tree α β N) (rest : List (frame α β))
    (ga : Nat) (gk : α) (gv : β) (fa : Nat) (fk : α) (fv : β) (a : Nat) (k : α) (v : β)
    (l r sr U : rbt α β)
    (h : layout t (plug rest (rbt.node ga RB_TREE_BLACK gk gv U (rbt.node fa RB_TREE_RED fk fv sr (rbt.node a RB_TREE_RED k v r l))))) :
    ∃ t', internal_adjust_tree.rotate t a ga = some t' ∧
      layout t' (plug rest (rbt.node fa RB_TREE_BLACK fk fv (rbt.node ga RB_TREE_RED gk gv U sr) (rbt.node a RB_TREE_RED k v r l))) ∧ aux_same t t' := by
  have Fg := layout_focus t rest ga _ gk gv _ _ h
  have Ff := layout_focus t (.right ga RB_TREE_BLACK gk gv U :: rest) fa _ fk fv _ _ h
  have Fa := layout_focus t (.right fa RB_TREE_RED fk fv sr :: .right ga RB_TREE_BLACK gk gv U :: rest)
    a _ k v _ _ h
  have e1 := Fa.parent
  simp only [parent_of, frame.addr] at e1
  have e2 := Ff.right
  have e3 := Ff.left
  have e4 := Fg.right
  have e5 := Fg.left
  simp only [ptr_node] at e2 e4
  have n1 : a ≠ sr.ptr := by
    have := Ff.right_ne_left
    simp only [ptr_node] at this
    exact this Fa.ne_leaf
  have n2 : fa ≠ U.ptr := by
    have := Fg.right_ne_left
    simp only [ptr_node] at this
    exact this Ff.ne_leaf
  have L2 := set_color_spec t (.right ga RB_TREE_BLACK gk gv U :: rest) fa _ RB_TREE_BLACK fk fv
    _ _ h
  have L3 := set_color_spec (set_color t fa RB_TREE_BLACK) rest ga _ RB_TREE_RED gk gv _ _ L2
  obtain ⟨L4, A4⟩ := rotate_left_spec (set_color (set_color t fa RB_TREE_BLACK) ga RB_TREE_RED)
    rest ga _ gk gv U fa _ fk fv sr _ L3
  refine ⟨_, ?_, L4, ?_⟩
  · unfold internal_adjust_tree.rotate
    simp [e1, e2, e3, e4, e5, n1, n2]
  · exact aux_same_trans _ _ _ (aux_same_trans _ _ _ (set_color_aux t fa _ Ff.ne_leaf)
      (set_color_aux _ ga _ Fg.ne_leaf)) A4

/-- The two rotations of `internal_adjust_tree` when the node is the left
child of a right child. -/
theorem adjust_rotate_inner_right (t : tree α β N) (rest : List (frame α β))
    (ga : Nat) (gk : α) (gv : β) (fa : Nat) (fk : α) (fv : β) (a : Nat) (k : α) (v : β)
    (l r sl U : rbt α β)
    (h : layout t (plug rest (rbt.node ga RB_TREE_BLACK gk gv U (rbt.node fa RB_TREE_RED fk fv (rbt.node a RB_TREE_RED k v r l) sl)))) :
    ∃ t', internal_adjust_tree.rotate t a ga = some t' ∧
      layout t' (plug rest (rbt.node a RB_TREE_BLACK k v (rbt.node ga RB_TREE_RED gk gv U r) (rbt.node fa RB_TREE_RED fk fv l sl))) ∧ aux_same t t' := by
  have Fg := layout_focus t rest ga _ gk gv _ _ h
  have Ff := layout_focus t (.right ga RB_TREE_BLACK gk gv U :: rest) fa _ fk fv _ _ h
  have Fa := layout_focus t (.left fa RB_TREE_RED fk fv sl :: .right ga RB_TREE_BLACK gk gv U :: rest)
    a _ k v _ _ h
  have e1 := Fa.parent
  simp only [parent_of, frame.addr] at e1
  have e3 := Ff.left
  have e4 := Fg.right
  simp only [ptr_node] at e3 e4
  have L1 := rotate_right_pp_spec t (.right ga RB_TREE_BLACK gk gv U :: rest) fa _ fk fv sl a _ k v
    l r h
  have A1 := rotate_right_pp_aux t (.right ga RB_TREE_BLACK gk gv U :: rest) fa _ fk fv sl a _ k v
    l r h
  simp only [holder_of] at L1 A1
  have Gg := layout_focus _ rest ga _ gk gv _ _ L1
  have Ga := layout_focus _ (.right ga RB_TREE_BLACK gk gv U :: rest) a _ k v _ _ L1
  have Gf := layout_focus _ (.right a RB_TREE_RED k v r :: .right ga RB_TREE_BLACK gk gv U :: rest)
    fa _ fk fv _ _ L1
  have g1 := Ga.right
  have g2 := Gf.parent
  have g3 := Gg.right
  have g4 := Gg.left
  have e5 := Fg.left
  simp only [ptr_node, parent_of, frame.addr] at g1 g2 g3
  have n2 : fa ≠ U.ptr := by
    have := Fg.right_ne_left
    simp only [ptr_node] at this
    exact this Ff.ne_leaf
  have n3 : a ≠ U.ptr := by
    have := Gg.right_ne_left
    simp only [ptr_node] at this
    exact this Ga.ne_leaf
  have L2 := set_color_spec _ (.right ga RB_TREE_BLACK gk gv U :: rest) a _ RB_TREE_BLACK k v
    _ _ L1
  have L3 := set_color_spec _ rest ga _ RB_TREE_RED gk gv _ _ L2
  obtain ⟨L4, A4⟩ := rotate_left_spec _ rest ga _ gk gv U a _ k v r _ L3
  refine ⟨_, ?_, L4, ?_⟩
  · unfold internal_adjust_tree.rotate
    simp [e1, e3, e4, e5, g1, g2, g3, g4, n2, n3]
  · exact aux_same_trans _ _ _ (aux_same_trans _ _ _ (aux_same_trans _ _ _ A1
      (set_color_aux _ a _ Ga.ne_leaf)) (set_color_aux _ ga _ Gg.ne_leaf)) A4

/-- The red-uncle case of `internal_adjust_tree`: the parent, a right child,
and the uncle become black, the grandparent red. -/
theorem adjust_recolor_right (t : tree α β N) (rest : List (frame α β))
    (ga gc : Nat) (gk : α) (gv : β) (fa fc : Nat) (fk : α) (fv : β) (fl fr : rbt α β)
    (ua uc : Nat) (uk : α) (uv : β) (ul ur : rbt α β)
    (h : layout t (plug rest (rbt.node ga gc gk gv (rbt.node ua uc uk uv ul ur) (rbt.node fa fc fk fv fl fr)))) :
    layout (set_color (set_color (set_color t ua RB_TREE_BLACK) fa RB_TREE_BLACK) ga RB_TREE_RED)
      (plug rest (rbt.node ga RB_TREE_RED gk gv (rbt.node ua RB_TREE_BLACK uk uv ul ur) (rbt.node fa RB_TREE_BLACK fk fv fl fr))) ∧
    aux_same t
      (set_color (set_color (set_color t ua RB_TREE_BLACK) fa RB_TREE_BLACK) ga RB_TREE_RED) := by
  have Fg := layout_focus t rest ga _ gk gv _ _ h
  have Ff := layout_focus t (.right ga gc gk gv (rbt.node ua uc uk uv ul ur) :: rest) fa _ fk fv
    _ _ h
  have Fu := layout_focus t (.left ga gc gk gv (rbt.node fa fc fk fv fl fr) :: rest) ua _ uk uv
    _ _ h
  have L1 := set_color_spec t (.left ga gc gk gv (rbt.node fa fc fk fv fl fr) :: rest) ua _
    RB_TREE_BLACK uk uv _ _ h
  have L2 := set_color_spec _ (.right ga gc gk gv (rbt.node ua RB_TREE_BLACK uk uv ul ur) :: rest)
    fa _ RB_TREE_BLACK fk fv _ _ L1
  have L3 := set_color_spec _ rest ga _ RB_TREE_RED gk gv _ _ L2
  exact ⟨L3, aux_same_trans _ _ _ (aux_same_trans _ _ _ (set_color_aux t ua _ Fu.ne_leaf)
    (set_color_aux _ fa _ Ff.ne_leaf)) (set_color_aux _ ga _ Fg.ne_leaf)⟩

/-- One round of the adjustment loop below a red parent whose own parent has
it as its right child. -/
theorem adjust_step_right (t : tree α β N) (rest : List (frame α β))
    (ga : Nat) (gk : α) (gv : β) (U : rbt α β) (f : frame α β)
    (a : Nat) (k : α) (v : β) (l r : rbt α β) (n fuel : Nat)
    (h : layout t (plug (f :: .right ga RB_TREE_BLACK gk gv U :: rest)
      (rbt.node a RB_TREE_RED k v r l)))
    (hfc : f.color = RB_TREE_RED) (hfs : f.sibling.color = RB_TREE_BLACK)
    (hfv : valid f.sibling n) (hv : valid (rbt.node a RB_TREE_RED k v r l) n)
    (hU : valid U n) (hrest : ctx_ok rest RB_TREE_BLACK (n + 1)) (hleaf : leaf_ok t)
    (IH : ∀ (t2 : tree α β N) (a2 : Nat) (k2 : α) (v2 : β) (l2 r2 : rbt α β),
      layout t2 (plug rest (.node a2 RB_TREE_RED k2 v2 l2 r2)) →
      valid (.node a2 RB_TREE_RED k2 v2 l2 r2) (n + 1) → leaf_ok t2 →
      adjust_post t2 (plug rest (.node a2 RB_TREE_RED k2 v2 l2 r2))
        (internal_adjust_tree.loop fuel t2 a2)) :
    adjust_post t (plug (f :: .right ga RB_TREE_BLACK gk gv U :: rest)
      (rbt.node a RB_TREE_RED k v r l)) (internal_adjust_tree.loop (fuel + 1) t a) := by
  have Fa := layout_focus t (f :: .right ga RB_TREE_BLACK gk gv U :: rest) a _ k v _ _ h
  have hf : ∃ fa fk fv fl fr, f.fill (rbt.node a RB_TREE_RED k v r l) =
      .node fa RB_TREE_RED fk fv fl fr ∧ f.addr = fa := by
    cases f with
    | right fa fc fk fv fr =>
      simp only [frame.color] at hfc
      subst hfc
      exact ⟨fa, fk, fv, _, _, rfl, rfl⟩
    | left fa fc fk fv fl =>
      simp only [frame.color] at hfc
      subst hfc
      exact ⟨fa, fk, fv, _, _, rfl, rfl⟩
  obtain ⟨fa, fk, fv, fl, fr, hfill, hfa⟩ := hf
  have h' : layout t (plug (.right ga RB_TREE_BLACK gk gv U :: rest)
      (.node fa RB_TREE_RED fk fv fl fr)) := by
    rw [← hfill]; exact h
  have Ff := layout_focus t (.right ga RB_TREE_BLACK gk gv U :: rest) fa _ fk fv _ _ h'
  have Fg := layout_focus t rest ga _ gk gv _ _ h'
  have e1 : (t.mem a).parent = fa := by rw [Fa.parent]; exact hfa
  have e2 := Ff.color
  have e3 := Ff.parent
  have e4 := Fg.right
  have e5 := Fg.left
  simp only [parent_of, frame.addr, ptr_node] at e3 e4
  have e6 : (t.mem U.ptr).color = U.color := color_read t _ _ U Fg.rep_left hleaf
  have n1 : fa ≠ NULL := Ff.ne_null
  have n2 : ga ≠ NULL := Fg.ne_null
  have n3 : U.ptr ≠ NULL := Fg.left_ne_null
  have n4 : fa ≠ U.ptr := by
    have := Fg.right_ne_left
    simp only [ptr_node] at this
    exact this Ff.ne_leaf
  have hb : ¬ (RB_TREE_RED = RB_TREE_BLACK) := RED_ne_BLACK
  have hplug : plug (f :: .right ga RB_TREE_BLACK gk gv U :: rest) (rbt.node a RB_TREE_RED k v r l) =
      plug rest (rbt.node ga RB_TREE_BLACK gk gv U (rbt.node fa RB_TREE_RED fk fv fl fr)) := by
    show plug rest ((frame.right ga RB_TREE_BLACK gk gv U).fill
      (f.fill (rbt.node a RB_TREE_RED k v r l))) = _
    rw [hfill]
    rfl
  rcases valid_color U n hU with hUc | hUc
  · -- the uncle is red
    cases U with
    | nil => exact absurd hUc.symm RED_ne_BLACK
    | node ua uc uk uv ul ur =>
      simp only [rbt.color] at hUc
      subst hUc
      obtain ⟨L3, A3⟩ := adjust_recolor_right t rest ga _ gk gv fa _ fk fv fl fr ua _ uk uv ul ur h'
      have hvU : valid (rbt.node ua RB_TREE_BLACK uk uv ul ur) (n + 1) := by
        rcases hU with ⟨_, _, _, h4, h5⟩ | ⟨h1, _⟩
        · exact Or.inr ⟨rfl, n, rfl, h4, h5⟩
        · exact absurd h1 RED_ne_BLACK
      have hvP : valid (rbt.node fa RB_TREE_BLACK fk fv fl fr) (n + 1) := by
        cases f with
        | right fa' fc fk' fv' fr' =>
          simp only [frame.fill, rbt.node.injEq] at hfill
          obtain ⟨rfl, _, rfl, rfl, rfl, rfl⟩ := hfill
          exact Or.inr ⟨rfl, n, rfl, hfv, hv⟩
        | left fa' fc fk' fv' fl' =>
          simp only [frame.fill, rbt.node.injEq] at hfill
          obtain ⟨rfl, _, rfl, rfl, rfl, rfl⟩ := hfill
          exact Or.inr ⟨rfl, n, rfl, hv, hfv⟩
      have hv2 : valid (rbt.node ga RB_TREE_RED gk gv (rbt.node ua RB_TREE_BLACK uk uv ul ur) (rbt.node fa RB_TREE_BLACK fk fv fl fr)) (n + 1) :=
        Or.inl ⟨rfl, rfl, rfl, hvU, hvP⟩
      have hrec := IH _ ga gk gv _ _ L3 hv2 (aux_same_leaf_ok _ _ A3 hleaf)
      have heq : internal_adjust_tree.loop (fuel + 1) t a =
          internal_adjust_tree.loop fuel (set_color (set_color (set_color t ua RB_TREE_BLACK) fa
            RB_TREE_BLACK) ga RB_TREE_RED) ga := by
        rw [internal_adjust_tree.loop]
        simp only [ptr_node, rbt.color] at e5 e6 n3 n4
        simp [e1, e2, e3, e4, e5, e6, n1, n2, n3, n4, hb]
      rw [heq]
      refine adjust_post_of_aux _ _ _ _ _ hrec A3 ?_
      rw [hplug]
      simp only [entries_plug, rbt.entries]
  · -- the uncle is black
    have heq : internal_adjust_tree.loop (fuel + 1) t a = internal_adjust_tree.rotate t a ga := by
      rw [internal_adjust_tree.loop]
      have hne : ¬ (U.color = RB_TREE_RED) := by rw [hUc]; exact fun e => RED_ne_BLACK e.symm
      simp [e1, e2, e3, e4, e5, e6, n1, n2, n3, n4, hb, hne]
    rw [heq]
    cases f with
    | right fa' fc fk' fv' fr' =>
      simp only [frame.fill, rbt.node.injEq] at hfill
      obtain ⟨rfl, rfl, rfl, rfl, rfl, rfl⟩ := hfill
      simp only [frame.sibling] at hfs hfv
      obtain ⟨t', h1, h2, h3⟩ := adjust_rotate_outer_right t rest ga gk gv fa' fk' fv' a k v l r
        fr' U h
      obtain ⟨n', hv', hc'⟩ := plug_valid rest (rbt.node fa' RB_TREE_BLACK fk' fv' (rbt.node ga RB_TREE_RED gk gv U fr') (rbt.node a RB_TREE_RED k v r l)) (n + 1) hrest
        (Or.inr ⟨rfl, n, rfl, Or.inl ⟨rfl, hUc, hfs, hU, hfv⟩, hv⟩)
      refine ⟨t', _, h1, h2, ⟨n', hv'⟩, hc', ?_, h3⟩
      · rw [hplug]
        simp only [entries_plug, rbt.entries]
        simp
    | left fa' fc fk' fv' fl' =>
      simp only [frame.fill, rbt.node.injEq] at hfill
      obtain ⟨rfl, rfl, rfl, rfl, rfl, rfl⟩ := hfill
      simp only [frame.sibling] at hfs hfv
      obtain ⟨t', h1, h2, h3⟩ := adjust_rotate_inner_right t rest ga gk gv fa' fk' fv' a k v l r
        fl' U h
      rcases hv with ⟨_, hrc, hlc, hvr, hvl⟩ | ⟨hh, _⟩
      · obtain ⟨n', hv', hc'⟩ := plug_valid rest (rbt.node a RB_TREE_BLACK k v (rbt.node ga RB_TREE_RED gk gv U r) (rbt.node fa' RB_TREE_RED fk' fv' l fl')) (n + 1) hrest
          (Or.inr ⟨rfl, n, rfl, Or.inl ⟨rfl, hUc, hrc, hU, hvr⟩, Or.inl ⟨rfl, hlc, hfs, hvl, hfv⟩⟩)
        refine ⟨t', _, h1, h2, ⟨n', hv'⟩, hc', ?_, h3⟩
        · rw [hplug]
          simp only [entries_plug, rbt.entries]
          simp
      · exact absurd hh RED_ne_BLACK

end rb_tree

namespace rb_tree

variable {α β : Type} [LinearOrder α] {N : Nat}

theorem adjust_loop_spec : ∀ (len : Nat) (ctx : List (frame α β)) (t : tree α β N) (a : Nat)
    (k : α) (v : β) (l r : rbt α β) (n fuel : Nat),
    ctx.length ≤ len → len < fuel →
    layout t (plug ctx (.node a RB_TREE_RED k v l r)) →
    valid (.node a RB_TREE_RED k v l r) n → ctx_ok ctx RB_TREE_BLACK n → leaf_ok t →
    adjust_post t (plug ctx (.node a RB_TREE_RED k v l r))
      (internal_adjust_tree.loop fuel t a) := by
  intro len
  induction len using Nat.strong_induction_on with
  | _ len IH =>
  intro ctx t a k v l r n fuel hlen hfuel h hv hctx hleaf
  obtain ⟨fuel, rfl⟩ : ∃ f, fuel = f + 1 := ⟨fuel - 1, by omega⟩
  have Fa := layout_focus t ctx a _ k v _ _ h
  match ctx, hlen, h, hctx, Fa with
  | [], _, h, _, Fa =>
    have e1 : (t.mem a).parent = NULL := Fa.parent
    have heq : internal_adjust_tree.loop (fuel + 1) t a = some (set_color t a RB_TREE_BLACK) := by
      rw [internal_adjust_tree.loop]
      simp [e1]
    rw [heq]
    have hs := set_color_spec t [] a _ RB_TREE_BLACK k v l r h
    refine ⟨_, _, rfl, hs, ⟨n + 1, ?_⟩, rfl, ?_, set_color_aux t a _ Fa.ne_leaf⟩
    · rcases hv with ⟨_, _, _, h4, h5⟩ | ⟨h1, _⟩
      · exact Or.inr ⟨rfl, n, rfl, h4, h5⟩
      · exact absurd h1 RED_ne_BLACK
    · simp [plug, rbt.entries]
  | f :: rest, hlen, h, hctx, Fa =>
    have e1 : (t.mem a).parent = f.addr := Fa.parent
    have hfill : ∃ fa fk fv fl fr, f.fill (.node a RB_TREE_RED k v l r) =
        .node fa f.color fk fv fl fr ∧ f.addr = fa := by
      cases f with
      | left fa fc fk fv fr => exact ⟨fa, fk, fv, _, _, rfl, rfl⟩
      | right fa fc fk fv fl => exact ⟨fa, fk, fv, _, _, rfl, rfl⟩
    obtain ⟨fa, fk, fv, fl, fr, hfill, hfa⟩ := hfill
    have h' : layout t (plug rest (.node fa f.color fk fv fl fr)) := by
      rw [← hfill]; exact h
    have Ff := layout_focus t rest fa _ fk fv _ _ h'
    have n1 : fa ≠ NULL := Ff.ne_null
    rw [hfa] at e1
    rcases hctx with ⟨hfc, _, hfs, hfv, hrest⟩ | ⟨hfc, hfv, hrest⟩
    · -- the parent is red
      match rest, hlen, h, hrest, Fa, h', Ff with
      | [], _, _, hrest, _, _, _ => exact absurd hrest RED_ne_BLACK
      | g :: rest, hlen, h, hrest, Fa, h', Ff =>
        rcases hrest with ⟨_, h2, _⟩ | ⟨hgc, hgv, hrest⟩
        · exact absurd h2 RED_ne_BLACK
        have IH2 : ∀ (t2 : tree α β N) (a2 : Nat) (k2 : α) (v2 : β) (l2 r2 : rbt α β),
            layout t2 (plug rest (.node a2 RB_TREE_RED k2 v2 l2 r2)) →
            valid (.node a2 RB_TREE_RED k2 v2 l2 r2) (n + 1) → leaf_ok t2 →
            adjust_post t2 (plug rest (.node a2 RB_TREE_RED k2 v2 l2 r2))
              (internal_adjust_tree.loop fuel t2 a2) := by
          intro t2 a2 k2 v2 l2 r2 hl2 hv2 hleaf2
          simp only [List.length_cons] at hlen
          exact IH (len - 1) (by omega) rest t2 a2 k2 v2 l2 r2 (n + 1) fuel (by omega) (by omega)
            hl2 hv2 hrest hleaf2
        cases g with
        | left ga gc gk gv U =>
          simp only [frame.color] at hgc
          subst hgc
          exact adjust_step_left t rest ga gk gv U f a k v l r n fuel h hfc hfs hfv hv hgv hrest
            hleaf IH2
        | right ga gc gk gv U =>
          simp only [frame.color] at hgc
          subst hgc
          exact adjust_step_right t rest ga gk gv U f a k v r l n fuel h hfc hfs hfv hv hgv hrest
            hleaf IH2
    · -- the parent is black
      have e2 : (t.mem fa).color = RB_TREE_BLACK := by rw [Ff.color]; exact hfc
      have heq : internal_adjust_tree.loop (fuel + 1) t a = some t := by
        rw [internal_adjust_tree.loop]
        simp [e1, e2, n1]
      rw [heq]
      obtain ⟨n', hv', hc'⟩ := plug_valid (f :: rest) (.node a RB_TREE_RED k v l r) n
        (Or.inr ⟨hfc, hfv, hrest⟩) hv
      exact ⟨t, _, rfl, h, ⟨n', hv'⟩, hc', rfl, aux_same_refl t⟩

end rb_tree

namespace rb_tree

variable {α β : Type} [LinearOrder α] {N : Nat}

theorem descend_plug (key : α) (s : rbt α β) :
    ∀ ctx : List (frame α β), plug (descend key ctx s).1 (descend key ctx s).2 = plug ctx s := by
  induction s with
  | nil => intro ctx; rfl
  | node a c k v l r ihl ihr =>
    intro ctx
    rw [descend]
    split
    · rw [ihl]; rfl
    · split
      · rw [ihr]; rfl
      · rfl

theorem load_hole (t : tree α β N) (ctx : List (frame α β)) (s : rbt α β)
    (h : layout t (plug ctx s)) : load t (holder_of ctx) = s.ptr := by
  cases ctx with
  | nil => exact Rep_ptr _ _ _ _ h.1
  | cons f fs =>
    cases f with
    | left fa fc fk fv fr => exact (layout_focus t fs fa fc fk fv s fr h).left
    | right fa fc fk fv fl => exact (layout_focus t fs fa fc fk fv fl s h).right

theorem COMPARE_gt (a b : α) : COMPARE a b > 0 ↔ b < a := by
  unfold COMPARE
  split
  · rename_i h; simp [not_lt_of_lt h]
  · split <;> simp [*]

theorem COMPARE_lt (a b : α) : COMPARE a b < 0 ↔ a < b := by
  unfold COMPARE
  split
  · simp [*]
  · split <;> simp [*]

theorem COMPARE_self (a : α) : COMPARE a a = 0 := by
  simp [COMPARE]

theorem add_loop_descend (afuel : Nat) (key : α) (t : tree α β N) (s : rbt α β) :
    ∀ (ctx : List (frame α β)) (fuel : Nat), layout t (plug ctx s) → s.addrs.length < fuel →
      add_node_ext.loop afuel key fuel t (holder_of ctx) (parent_of ctx) =
        match descend key ctx s with
        | (ctx', .nil) =>
          (match internal_alloc_node t (parent_of ctx') key with
          | none => none
          | some (t1, node1) =>
            match internal_adjust_tree afuel (store t1 (holder_of ctx') node1) node1 with
            | none => none
            | some t3 => some (t3, node1, false))
        | (_, .node a _ _ _ _ _) => some (t, a, true) := by
  induction s with
  | nil =>
    intro ctx fuel h hf
    obtain ⟨fuel, rfl⟩ : ∃ f, fuel = f + 1 := ⟨fuel - 1, by omega⟩
    have hl := load_hole t ctx _ h
    rw [add_node_ext.loop, descend]
    simp only [hl, ptr_nil, if_true]
    try rfl
  | node a c k v l r ihl ihr =>
    intro ctx fuel h hf
    obtain ⟨fuel, rfl⟩ : ∃ f, fuel = f + 1 := ⟨fuel - 1, by omega⟩
    have F := layout_focus t ctx a c k v l r h
    simp only [rbt.addrs, List.length_append, List.length_cons] at hf
    rw [add_node_ext.loop, descend]
    simp only [F.load, F.ne_leaf, if_false, F.key]
    split
    · exact ihl (.left a c k v r :: ctx) fuel h (by omega)
    · split
      · exact ihr (.right a c k v l :: ctx) fuel h (by omega)
      · rfl

theorem find_loop_descend (key : α) (t : tree α β N) (hk : (t.mem leaf).key = key)
    (s : rbt α β) :
    ∀ (ctx : List (frame α β)) (fuel : Nat), layout t (plug ctx s) → s.addrs.length < fuel →
      find_node.loop t key fuel s.ptr = some (descend key ctx s).2.ptr := by
  induction s with
  | nil =>
    intro ctx fuel h hf
    obtain ⟨fuel, rfl⟩ : ∃ f, fuel = f + 1 := ⟨fuel - 1, by omega⟩
    rw [find_node.loop, descend]
    simp [hk, COMPARE_self]
  | node a c k v l r ihl ihr =>
    intro ctx fuel h hf
    obtain ⟨fuel, rfl⟩ : ∃ f, fuel = f + 1 := ⟨fuel - 1, by omega⟩
    have F := layout_focus t ctx a c k v l r h
    simp only [rbt.addrs, List.length_append, List.length_cons] at hf
    rw [find_node.loop, descend]
    simp only [ptr_node, F.key, F.left, F.right]
    split
    · exact ihl (.left a c k v r :: ctx) fuel h (by omega)
    · split
      · exact ihr (.right a c k v l :: ctx) fuel h (by omega)
      · rfl

theorem descend_node (key : α) (s : rbt α β) :
    ∀ (ctx : List (frame α β)) (ctx' : List (frame α β)) (a c : Nat) (k : α) (v : β)
      (l r : rbt α β), descend key ctx s = (ctx', .node a c k v l r) →
      k = key ∧ (a, k, v) ∈ s.entries := by
  induction s with
  | nil => intro ctx ctx' a c k v l r h; simp [descend] at h
  | node a0 c0 k0 v0 l0 r0 ihl ihr =>
    intro ctx ctx' a c k v l r h
    rw [descend] at h
    split at h
    · have := ihl _ _ _ _ _ _ _ _ h
      exact ⟨this.1, by simp [rbt.entries, this.2]⟩
    · split at h
      · have := ihr _ _ _ _ _ _ _ _ h
        exact ⟨this.1, by simp [rbt.entries, this.2]⟩
      · rename_i h1 h2
        simp only [Prod.mk.injEq, rbt.node.injEq] at h
        obtain ⟨_, rfl, rfl, rfl, rfl, rfl, rfl⟩ := h
        rw [COMPARE_gt] at h1
        rw [COMPARE_lt] at h2
        exact ⟨le_antisymm (not_lt.1 h1) (not_lt.1 h2), by simp [rbt.entries]⟩

theorem descend_nil (key : α) (s : rbt α β) :
    ∀ (ctx : List (frame α β)) (ctx' : List (frame α β)), bst s → path_ok key ctx →
      descend key ctx s = (ctx', .nil) → path_ok key ctx' ∧ key ∉ s.keys := by
  induction s with
  | nil => 
    intro ctx ctx' _ hp h
    simp only [descend, Prod.mk.injEq, and_true] at h
    subst h
    exact ⟨hp, by simp [rbt.keys]⟩
  | node a0 c0 k0 v0 l0 r0 ihl ihr =>
    intro ctx ctx' hb hp h
    obtain ⟨b1, b2, b3, b4⟩ := hb
    rw [descend] at h
    split at h
    · rename_i h1
      rw [COMPARE_gt] at h1
      have hp' : path_ok key (.left a0 c0 k0 v0 r0 :: ctx) := by
        refine ⟨hp.1, ?_⟩
        intro x hx
        simp only [keys_after, List.mem_cons, List.mem_append, List.cons_append] at hx
        rcases hx with rfl | hx | hx
        · exact h1
        · exact lt_trans h1 (b2 x hx)
        · exact hp.2 x hx
      obtain ⟨q1, q2⟩ := ihl _ _ b3 hp' h
      refine ⟨q1, ?_⟩
      simp only [rbt.keys, List.mem_append, List.mem_cons, not_or]
      exact ⟨q2, ne_of_lt h1, fun hx => absurd (b2 _ hx) (not_lt_of_lt h1)⟩
    · split at h
      · rename_i _ h1
        rw [COMPARE_lt] at h1
        have hp' : path_ok key (.right a0 c0 k0 v0 l0 :: ctx) := by
          refine ⟨?_, hp.2⟩
          intro x hx
          simp only [keys_before, List.mem_append, List.mem_singleton] at hx
          rcases hx with (hx | hx) | rfl
          · exact hp.1 x hx
          · exact lt_trans (b1 x hx) h1
          · exact h1
        obtain ⟨q1, q2⟩ := ihr _ _ b4 hp' h
        refine ⟨q1, ?_⟩
        simp only [rbt.keys, List.mem_append, List.mem_cons, not_or]
        exact ⟨fun hx => absurd (b1 _ hx) (not_lt_of_lt h1), (ne_of_lt h1).symm, q2⟩
      · simp at h

end rb_tree

namespace rb_tree

variable {α β : Type} [LinearOrder α] {N : Nat}

theorem descend_length (key : α) (s : rbt α β) :
    ∀ ctx : List (frame α β), (descend key ctx s).1.length ≤ ctx.length + s.addrs.length := by
  induction s with
  | nil => intro ctx; simp [descend]
  | node a c k v l r ihl ihr =>
    intro ctx
    rw [descend]
    simp only [rbt.addrs, List.length_append, List.length_cons]
    split
    · have := ihl (.left a c k v r :: ctx)
      simp only [List.length_cons] at this
      omega
    · split
      · have := ihr (.right a c k v l :: ctx)
        simp only [List.length_cons] at this
        omega
      · simp only []
        omega

theorem path_ok_nil (key : α) : path_ok key ([] : List (frame α β)) :=
  ⟨by simp [keys_before], by simp [keys_after]⟩

theorem valid_of_invariants (T : rbt α β) (h : rb_invariants T) : ∃ n, valid T n := by
  obtain ⟨_, _, h3, h4, n, h5⟩ := h
  exact ⟨n, (valid_iff T n).2 ⟨h3, h4, h5⟩⟩

theorem invariants_of_valid (T : rbt α β) (n : Nat) (hv : valid T n)
    (hc : T.color = RB_TREE_BLACK) (hb : bst T) : rb_invariants T := by
  obtain ⟨h3, h4, h5⟩ := (valid_iff T n).1 hv
  exact ⟨hb, hc, h3, h4, n, h5⟩

theorem sorted_insert (l1 l2 : List α) (key : α) (h : (l1 ++ l2).Pairwise (· < ·))
    (h1 : ∀ x ∈ l1, x < key) (h2 : ∀ x ∈ l2, key < x) :
    (l1 ++ [key] ++ l2).Pairwise (· < ·) := by
  rw [List.pairwise_append] at h
  obtain ⟨p1, p2, p3⟩ := h
  simp only [List.append_assoc, List.singleton_append, List.pairwise_append, List.pairwise_cons,
    List.mem_cons]
  refine ⟨p1, ⟨h2, p2⟩, ?_⟩
  rintro x hx y (rfl | hy)
  · exact h1 x hx
  · exact p3 x hx y hy

end rb_tree

namespace rb_tree

variable {α β : Type} [LinearOrder α] {N : Nat}

theorem add_node_ext_spec (t : tree α β N) (T : rbt α β) (key : α) (fuel : Nat)
    (h : is_rb_tree t T) (hf : t.count < fuel) :
    ∃ t1 T1 p found, add_node_ext fuel t key = some (t1, p, found) ∧ is_rb_tree t1 T1 ∧
      (∀ x, x ∈ T1.keys ↔ x = key ∨ x ∈ T.keys) ∧
      (∃ v, (p, key, v) ∈ T1.entries) ∧
      (found = true ↔ key ∈ T.keys) ∧
      (key ∈ T.keys → t1 = t ∧ T1 = T) ∧
      (key ∉ T.keys → t1.count = t.count + 1 ∧ ¬ fixed_alloc.is_live t.allocator p ∧
        (∀ q, fixed_alloc.is_live t1.allocator q ↔ q = p ∨ fixed_alloc.is_live t.allocator q) ∧
        T1.entries.Perm ((p, key, (t.mem p).value) :: T.entries) ∧
        (t1.mem leaf).key = (t.mem leaf).key) := by
  obtain ⟨hlay, hinv, hleaf, hal, hlive, hcount⟩ := h
  have hd : add_node_ext fuel t key = _ := add_loop_descend fuel key t T [] fuel hlay (by omega)
  have hplug := descend_plug key T ([] : List (frame α β))
  have hlen := descend_length key T ([] : List (frame α β))
  rcases hdes : descend key [] T with ⟨ctx, s⟩
  rw [hdes] at hplug hlen hd
  simp only [plug, List.length_nil, Nat.zero_add] at hplug hlen
  cases s with
  | node a c k v l r =>
    simp only at hd
    rw [hd]
    obtain ⟨rfl, hmem⟩ := descend_node key T _ _ _ _ _ _ _ _ hdes
    have hk : k ∈ T.keys := by
      rw [keys_eq_map]
      exact List.mem_map.2 ⟨_, hmem, rfl⟩
    refine ⟨t, T, a, true, rfl, ⟨hlay, hinv, hleaf, hal, hlive, hcount⟩, ?_, ⟨v, hmem⟩, ?_, ?_, ?_⟩
    · intro x
      constructor
      · exact fun hx => Or.inr hx
      · rintro (rfl | hx)
        · exact hk
        · exact hx
    · simp [hk]
    · intro _; exact ⟨rfl, rfl⟩
    · intro hn; exact absurd hk hn
  | nil =>
    simp only at hd
    rw [hd]
    obtain ⟨hpath, hnk⟩ := descend_nil key T _ _ hinv.1 (path_ok_nil key) hdes
    obtain ⟨al, p, halloc, hal1, hp2, hpl, hiff⟩ := fixed_alloc.alloc_elem_spec t.allocator hal
    have hlay0 : layout t (plug ctx .nil) := by rw [hplug]; exact hlay
    have hpT : p ∉ T.addrs := fun hx => hpl (hlive p hx)
    have hpc : p ∉ ctx_addrs ctx := by
      intro hx
      apply hpT
      rw [← hplug]
      exact (plug_nil_addrs ctx p).2 hx
    have hple : p ≠ leaf := by simp only [leaf]; omega
    have hpn : p ≠ NULL := by simp only [NULL]; omega
    obtain ⟨t1, e1, hlay1, a1, c1, k1, k2, k3, k4⟩ :=
      insert_leaf_spec t ctx key al p hlay0 hpc hple hpn halloc
    have hleaf1 : leaf_ok (store t1 (holder_of ctx) p) :=
      ⟨k2.trans hleaf.1, k3.trans hleaf.2.1, k4.trans hleaf.2.2⟩
    obtain ⟨n0, hv0⟩ := valid_of_invariants T hinv
    obtain ⟨n, hvn, hctx⟩ := valid_split ctx .nil n0 (by rw [hplug]; exact hv0)
      (by rw [hplug]; exact hinv.2.1)
    have hn : n = 0 := hvn
    subst hn
    have hvnew : valid (.node p RB_TREE_RED key (t.mem p).value .nil .nil : rbt α β) 0 :=
      Or.inl ⟨rfl, rfl, rfl, rfl, rfl⟩
    have hcnt : T.addrs.length = t.count := hcount.symm
    obtain ⟨t', T', r1, r2, ⟨n', r3⟩, r4, r5, r6⟩ := adjust_loop_spec ctx.length ctx
      (store t1 (holder_of ctx) p) p key (t.mem p).value .nil .nil 0 fuel (le_refl _)
      (by omega) hlay1 hvnew hctx hleaf1
    have F := layout_focus _ ctx p _ key _ _ _ hlay1
    have hadj : internal_adjust_tree fuel (store t1 (holder_of ctx) p) p = some t' := by
      rw [internal_adjust_tree, F.color]
      simpa using r1
    rw [e1]
    simp only [hadj]
    have hent : T'.entries = entries_before ctx ++ [(p, key, (t.mem p).value)] ++
        entries_after ctx := by
      rw [r5, entries_plug]
      simp [rbt.entries]
    have hentT : T.entries = entries_before ctx ++ entries_after ctx := by
      rw [← hplug, entries_plug]
      simp [rbt.entries]
    have hperm : T'.entries.Perm ((p, key, (t.mem p).value) :: T.entries) := by
      rw [hent, hentT]
      simp only [List.append_assoc, List.singleton_append]
      exact List.perm_middle
    have hkeysT : T.keys = keys_before ctx ++ keys_after ctx := by
      rw [← hplug, keys_plug]
      simp [rbt.keys]
    have hkeys : T'.keys = keys_before ctx ++ [key] ++ keys_after ctx := by
      have := keys_plug ctx (.node p RB_TREE_RED key (t.mem p).value .nil .nil)
      rw [keys_eq_map, r5, ← keys_eq_map, this]
      simp [rbt.keys]
    have hbst : bst T' := by
      rw [bst_iff_sorted, hkeys]
      refine sorted_insert _ _ _ ?_ hpath.1 hpath.2
      rw [← hkeysT, ← bst_iff_sorted]
      exact hinv.1
    have haddr : T'.addrs.Perm (p :: T.addrs) := by
      rw [addrs_eq_map, addrs_eq_map]
      exact hperm.map _
    obtain ⟨b1, b2, b3, _, _, _⟩ := r6
    refine ⟨t', T', p, false, rfl, ⟨r2, invariants_of_valid T' n' r3 r4 hbst,
      aux_same_leaf_ok _ _ ⟨b1, b2, b3, ‹_›, ‹_›, ‹_›⟩ hleaf1, ?_, ?_, ?_⟩, ?_, ?_, ?_, ?_, ?_⟩
    · rw [b1, a1]; exact hal1
    · intro q hq
      rw [b1, a1, hiff]
      have hq' := (List.Perm.mem_iff haddr).1 hq
      rw [List.mem_cons] at hq'
      rcases hq' with rfl | hq'
      · exact Or.inl rfl
      · exact Or.inr (hlive q hq')
    · rw [b2, c1, haddr.length_eq, List.length_cons, hcount]
    · intro x
      rw [hkeys, hkeysT]
      simp only [List.mem_append, List.mem_singleton]
      tauto
    · exact ⟨(t.mem p).value, by rw [hent]; simp⟩
    · simp [hnk]
    · intro hk; exact absurd hk hnk
    · intro _
      refine ⟨by rw [b2, c1], hpl, ?_, hperm, b3.trans k1⟩
      intro q
      rw [b1, a1]
      exact hiff q

end rb_tree

namespace rb_tree

variable {α β : Type} [LinearOrder α] {N : Nat}

theorem set_key_leaf_layout (t : tree α β N) (T : rbt α β) (key : α) (h : layout t T) :
    layout (set_key t leaf key) T := by
  obtain ⟨h1, h2⟩ := h
  have hn := (Rep_not_mem _ _ _ _ h1).2
  refine ⟨?_, h2⟩
  have : (set_key t leaf key).root = t.root := by simp
  rw [this]
  refine Rep_congr _ _ _ _ _ h1 (fun x hx => set_key_mem_ne _ _ _ _ ?_)
  rintro rfl
  exact hn hx

theorem set_key_leaf_ok (t : tree α β N) (T : rbt α β) (key : α) (h : is_rb_tree t T) :
    is_rb_tree (set_key t leaf key) T := by
  obtain ⟨h1, h2, h3, h4⟩ := h
  refine ⟨set_key_leaf_layout t T key h1, h2, ?_, ?_⟩
  · obtain ⟨l1, l2, l3⟩ := h3
    exact ⟨by simp [l1], by simp [l2], by simp [l3]⟩
  · obtain ⟨s1, s2, s3⟩ := h4
    exact ⟨by simpa using s1, by simpa using s2, by simpa using s3⟩

theorem find_node_spec (t : tree α β N) (T : rbt α β) (key : α) (fuel : Nat)
    (h : layout t T) (hb : bst T) (hf : T.addrs.length < fuel) :
    ∃ r, find_node fuel t key = some (set_key t leaf key, r) ∧
      (key ∈ T.keys → r ≠ NULL ∧ ∃ v, (r, key, v) ∈ T.entries) ∧
      (key ∉ T.keys → r = NULL) := by
  have h1 := set_key_leaf_layout t T key h
  have hk : ((set_key t leaf key).mem leaf).key = key := by simp
  have hroot : (set_key t leaf key).root = T.ptr := Rep_ptr _ _ _ _ h1.1
  have hd := find_loop_descend key (set_key t leaf key) hk T [] fuel h1 hf
  rw [find_node]
  simp only [hroot, hd]
  rcases hdes : descend key [] T with ⟨ctx, s⟩
  have hplug := descend_plug key T ([] : List (frame α β))
  rw [hdes] at hplug
  simp only [plug] at hplug
  cases s with
  | nil =>
    obtain ⟨_, hnk⟩ := descend_nil key T _ _ hb (path_ok_nil key) hdes
    refine ⟨NULL, by simp, fun hk => absurd hk hnk, fun _ => rfl⟩
  | node a c k v l r =>
    obtain ⟨rfl, hmem⟩ := descend_node key T _ _ _ _ _ _ _ _ hdes
    have hk : k ∈ T.keys := by
      rw [keys_eq_map]
      exact List.mem_map.2 ⟨_, hmem, rfl⟩
    have F := layout_focus t ctx a c k v l r (by rw [hplug]; exact h)
    refine ⟨a, by simp [F.ne_leaf], fun _ => ⟨F.ne_null, v, hmem⟩, fun hn => absurd hk hn⟩

end rb_tree

namespace rb_tree

variable {α β : Type} {N : Nat}

theorem red_sibling_skip (t : tree α β N) (node parent sibling : Nat)
    (h : (t.mem sibling).color ≠ RB_TREE_RED) :
    internal_fixup_tree.red_sibling t node parent sibling = (t, sibling) := by
  simp [internal_fixup_tree.red_sibling, h]

/-- A subtree with a root of the colour of the removed node's parent and two
black children closes the fix-up. -/
theorem finish_valid (rest : List (frame α β)) (a pc : Nat) (k : α) (v : β) (l r : rbt α β)
    (n : Nat) (hl : valid l (n + 1)) (hr : valid r (n + 1))
    (hlc : l.color = RB_TREE_BLACK) (hrc : r.color = RB_TREE_BLACK)
    (hrest : (pc = RB_TREE_RED ∧ ctx_ok rest RB_TREE_RED (n + 1)) ∨
      (pc = RB_TREE_BLACK ∧ ctx_ok rest RB_TREE_BLACK (n + 2))) :
    ∃ n', valid (plug rest (.node a pc k v l r)) n' ∧
      (plug rest (.node a pc k v l r)).color = RB_TREE_BLACK := by
  rcases hrest with ⟨h1, h2⟩ | ⟨h1, h2⟩
  · subst h1
    exact plug_valid rest (.node a RB_TREE_RED k v l r) (n + 1) h2
      (Or.inl ⟨rfl, hlc, hrc, hl, hr⟩)
  · subst h1
    exact plug_valid rest (.node a RB_TREE_BLACK k v l r) (n + 2) h2
      (Or.inr ⟨rfl, n + 1, rfl, hl, hr⟩)

theorem red_is_node (s : rbt α β) (h : s.color = RB_TREE_RED) :
    ∃ a k v l r, s = .node a RB_TREE_RED k v l r := by
  cases s with
  | nil => exact absurd h.symm RED_ne_BLACK
  | node a c k v l r =>
    simp only [rbt.color] at h
    subst h
    exact ⟨a, k, v, l, r, rfl⟩

theorem succ_is_node (s : rbt α β) (n : Nat) (h : valid s (n + 1)) :
    ∃ a c k v l r, s = .node a c k v l r := by
  cases s with
  | nil => exact absurd h (by simp [valid])
  | node a c k v l r => exact ⟨a, c, k, v, l, r, rfl⟩

theorem black_succ (a c : Nat) (k : α) (v : β) (l r : rbt α β) (n : Nat)
    (h : valid (.node a c k v l r) (n + 1)) (hc : c = RB_TREE_BLACK) :
    valid l n ∧ valid r n := by
  rcases h with ⟨h1, _⟩ | ⟨_, m, hm, h2, h3⟩
  · exact absurd (h1.symm.trans hc) RED_ne_BLACK
  · have : m = n := by omega
    subst this
    exact ⟨h2, h3⟩

/-- Case 2 of the fix-up loop, the node being the left child: the red sibling
is rotated up and the node gets a black sibling. -/
theorem fix_red_sibling_left (t : tree α β N) (rest : List (frame α β))
    (pa : Nat) (pk : α) (pv : β) (s : rbt α β) (sa : Nat) (sk : α) (sv : β) (sl sr : rbt α β)
    (h : layout t (plug rest (rbt.node pa RB_TREE_BLACK pk pv s (rbt.node sa RB_TREE_RED sk sv sl sr)))) :
    ∃ t', internal_fixup_tree.red_sibling t s.ptr pa sa = (t', sl.ptr) ∧
      layout t' (plug rest (rbt.node sa RB_TREE_BLACK sk sv (rbt.node pa RB_TREE_RED pk pv s sl) sr)) ∧
      aux_same t t' := by
  have Fp := layout_focus t rest pa _ pk pv _ _ h
  have Fs := layout_focus t (.right pa RB_TREE_BLACK pk pv s :: rest) sa _ sk sv _ _ h
  have e1 := Fp.left
  have e2 := Fp.right
  have e3 := Fs.color
  simp only [ptr_node] at e2
  have n1 : sa ≠ pa := Fs.ne_par
  have n2 : s.ptr ≠ sa := by
    have := Fp.right_ne_left
    simp only [ptr_node] at this
    exact fun e => this Fs.ne_leaf e.symm
  have L1 := set_color_spec t rest pa _ RB_TREE_RED pk pv _ _ h
  have L2 := set_color_spec _ (.right pa RB_TREE_RED pk pv s :: rest) sa _ RB_TREE_BLACK sk sv
    _ _ L1
  obtain ⟨L3, A3⟩ := rotate_left_spec _ rest pa _ pk pv s sa _ sk sv sl sr L2
  have F3 := layout_focus _ (.left sa RB_TREE_BLACK sk sv sr :: rest) pa _ pk pv _ _ L3
  refine ⟨_, ?_, L3, ?_⟩
  · unfold internal_fixup_tree.red_sibling
    simp only [e3, if_true, set_color_left, set_color_right, e1, e2]
    simp [n2, F3.right]
  · exact aux_same_trans _ _ _ (aux_same_trans _ _ _ (set_color_aux t pa _ Fp.ne_leaf)
      (set_color_aux _ sa _ Fs.ne_leaf)) A3

/-- Case 6 of the fix-up loop, the node being the left child: the sibling is
black and its right child is red. -/
theorem fix_far_nephew_left (t : tree α β N) (rest : List (frame α β))
    (pa pc : Nat) (pk : α) (pv : β) (s : rbt α β) (sa : Nat) (sk : α) (sv : β) (sl : rbt α β)
    (ra : Nat) (rk : α) (rv : β) (rl rr : rbt α β)
    (h : layout t (plug rest (rbt.node pa pc pk pv s (rbt.node sa RB_TREE_BLACK sk sv sl (rbt.node ra RB_TREE_RED rk rv rl rr)))))
    (hs : s.color = RB_TREE_BLACK) (hleaf : leaf_ok t) :
    ∃ t', internal_fixup_tree.far_nephew t s.ptr pa sa = some t' ∧
      layout t' (plug rest (rbt.node sa pc sk sv (rbt.node pa RB_TREE_BLACK pk pv s sl) (rbt.node ra RB_TREE_BLACK rk rv rl rr))) ∧
      aux_same t t' := by
  have Fp := layout_focus t rest pa _ pk pv _ _ h
  have Fs := layout_focus t (.right pa pc pk pv s :: rest) sa _ sk sv _ _ h
  have Fr := layout_focus t (.right sa RB_TREE_BLACK sk sv sl :: .right pa pc pk pv s :: rest)
    ra _ rk rv _ _ h
  have e1 := Fp.left
  have e2 := Fp.right
  have e3 := Fp.color
  have e4 := Fs.color
  have e5 := Fs.right
  have e6 := Fr.color
  have e7 : (t.mem s.ptr).color = RB_TREE_BLACK := by
    rw [color_read t _ _ s Fp.rep_left hleaf]; exact hs
  simp only [ptr_node] at e2 e5
  have n1 : sa ≠ pa := Fs.ne_par
  have n2 : s.ptr ≠ sa := by
    have := Fp.right_ne_left
    simp only [ptr_node] at this
    exact fun e => this Fs.ne_leaf e.symm
  have n3 : ra ≠ sa := Fr.ne_par
  have n4 : ra ≠ pa := by
    intro e
    apply Fp.notin_right
    rw [← e]
    simp [rbt.addrs]
  have n5 : s.ptr ≠ pa := fun e => Fp.ne_left e.symm
  have n6 : s.ptr ≠ ra := by
    intro e
    rcases ptr_mem_or s with e' | e'
    · exact Fr.ne_leaf (e ▸ e')
    · exact Fp.disj_left _ e' (by rw [e]; simp [rbt.addrs])
  have L1 := set_color_spec t (.right pa pc pk pv s :: rest) sa _ pc sk sv _ _ h
  have L2 := set_color_spec _ rest pa _ RB_TREE_BLACK pk pv _ _ L1
  have L3 := set_color_spec _ (.right sa pc sk sv sl :: .right pa RB_TREE_BLACK pk pv s :: rest)
    ra _ RB_TREE_BLACK rk rv _ _ L2
  obtain ⟨L4, A4⟩ := rotate_left_spec _ rest pa _ pk pv s sa _ sk sv sl _ L3
  refine ⟨_, ?_, L4, ?_⟩
  · unfold internal_fixup_tree.far_nephew
    simp [e1, e2, e3, e4, e5, e6, e7, n1, n2, n3, n4, n5, n6, RED_ne_BLACK]
  · exact aux_same_trans _ _ _ (aux_same_trans _ _ _ (aux_same_trans _ _ _
      (set_color_aux t sa _ Fs.ne_leaf) (set_color_aux _ pa _ Fp.ne_leaf))
      (set_color_aux _ ra _ Fr.ne_leaf)) A4

/-- Case 5 of the fix-up loop, the node being the left child: the sibling is
black, its left child is red and its right child is black. -/
theorem fix_near_nephew_left (t : tree α β N) (rest : List (frame α β))
    (pa pc : Nat) (pk : α) (pv : β) (s : rbt α β) (sa : Nat) (sk : α) (sv : β)
    (la : Nat) (lk : α) (lv : β) (ll lr sr : rbt α β)
    (h : layout t (plug rest (rbt.node pa pc pk pv s (rbt.node sa RB_TREE_BLACK sk sv (rbt.node la RB_TREE_RED lk lv ll lr) sr))))
    (hsr : sr.color = RB_TREE_BLACK) (hleaf : leaf_ok t) :
    ∃ t', internal_fixup_tree.near_nephew t s.ptr pa sa = (t', la) ∧
      layout t' (plug rest (rbt.node pa pc pk pv s (rbt.node la RB_TREE_BLACK lk lv ll (rbt.node sa RB_TREE_RED sk sv lr sr)))) ∧
      aux_same t t' := by
  have Fp := layout_focus t rest pa _ pk pv _ _ h
  have Fs := layout_focus t (.right pa pc pk pv s :: rest) sa _ sk sv _ _ h
  have Fl := layout_focus t (.left sa RB_TREE_BLACK sk sv sr :: .right pa pc pk pv s :: rest)
    la _ lk lv _ _ h
  have e1 := Fp.left
  have e2 := Fp.right
  have e4 := Fs.left
  have e5 := Fs.right
  have e6 := Fl.color
  have e7 : (t.mem sr.ptr).color = RB_TREE_BLACK := by
    rw [color_read t _ _ sr Fs.rep_right hleaf]; exact hsr
  simp only [ptr_node] at e2 e4
  have n2 : s.ptr ≠ sa := by
    have := Fp.right_ne_left
    simp only [ptr_node] at this
    exact fun e => this Fs.ne_leaf e.symm
  have L1 := set_color_spec t (.right pa pc pk pv s :: rest) sa _ RB_TREE_RED sk sv _ _ h
  have L2 := set_color_spec _ (.left sa RB_TREE_RED sk sv sr :: .right pa pc pk pv s :: rest)
    la _ RB_TREE_BLACK lk lv _ _ L1
  obtain ⟨L3, A3⟩ := rotate_right_spec _ (.right pa pc pk pv s :: rest) sa _ sk sv sr la _ lk lv
    lr ll L2
  have F3 := layout_focus _ (.right la RB_TREE_BLACK lk lv ll :: .right pa pc pk pv s :: rest)
    sa _ sk sv _ _ L3
  have e8 := F3.parent
  simp only [parent_of, frame.addr] at e8
  refine ⟨_, ?_, L3, ?_⟩
  · unfold internal_fixup_tree.near_nephew
    simp only [e1, e2, e4, e5, e6, e7, n2, set_color_left, set_color_right, true_and, and_self,
      if_true, false_and, if_false]
    rw [e8]
  · exact aux_same_trans _ _ _ (aux_same_trans _ _ _ (set_color_aux t sa _ Fs.ne_leaf)
      (set_color_aux _ la _ Fl.ne_leaf)) A3

/-- Case 5 of the fix-up loop does not apply when the child of the sibling
away from the node is red. -/
theorem near_nephew_skip_left (t : tree α β N) (rest : List (frame α β))
    (pa pc : Nat) (pk : α) (pv : β) (s : rbt α β) (sa sc : Nat) (sk : α) (sv : β)
    (sl sr : rbt α β)
    (h : layout t (plug rest (rbt.node pa pc pk pv s (rbt.node sa sc sk sv sl sr))))
    (hsr : sr.color = RB_TREE_RED) (hleaf : leaf_ok t) :
    internal_fixup_tree.near_nephew t s.ptr pa sa = (t, sa) := by
  have Fp := layout_focus t rest pa _ pk pv _ _ h
  have Fs := layout_focus t (.right pa pc pk pv s :: rest) sa _ sk sv _ _ h
  have e1 := Fp.left
  have e2 := Fp.right
  have e5 := Fs.right
  have e7 : (t.mem sr.ptr).color = RB_TREE_RED := by
    rw [color_read t _ _ sr Fs.rep_right hleaf]; exact hsr
  simp only [ptr_node] at e2
  have n2 : s.ptr ≠ sa := by
    have := Fp.right_ne_left
    simp only [ptr_node] at this
    exact fun e => this Fs.ne_leaf e.symm
  unfold internal_fixup_tree.near_nephew
  simp [e1, e2, e5, e7, n2, RED_ne_BLACK]

/-- The fix-up loop body after case 2, the node being the left child with a
black sibling. -/
theorem fix_black_sibling_left (t : tree α β N) (rest : List (frame α β))
    (pa pc : Nat) (pk : α) (pv : β) (s : rbt α β) (sa : Nat) (sk : α) (sv : β)
    (sl sr : rbt α β) (n fuel : Nat)
    (h : layout t (plug rest (rbt.node pa pc pk pv s (rbt.node sa RB_TREE_BLACK sk sv sl sr))))
    (hs : valid s n) (hsc : s.color = RB_TREE_BLACK) (hsl : valid sl n) (hsr : valid sr n)
    (hrest : (pc = RB_TREE_RED ∧ ctx_ok rest RB_TREE_RED (n + 1)) ∨
      (pc = RB_TREE_BLACK ∧ ctx_ok rest RB_TREE_BLACK (n + 2)))
    (hleaf : leaf_ok t)
    (IH : pc = RB_TREE_BLACK → ∀ (t2 : tree α β N) (s2 : rbt α β),
      layout t2 (plug rest s2) → valid s2 (n + 1) → s2.color = RB_TREE_BLACK →
      (t2.mem s2.ptr).parent = parent_of rest → leaf_ok t2 →
      adjust_post t2 (plug rest s2) (internal_fixup_tree.loop fuel t2 s2.ptr)) :
    adjust_post t (plug rest (rbt.node pa pc pk pv s (rbt.node sa RB_TREE_BLACK sk sv sl sr)))
      (if (t.mem (t.mem sa).left).color = RB_TREE_BLACK ∧
          (t.mem (t.mem sa).right).color = RB_TREE_BLACK then
        if (t.mem pa).color = RB_TREE_BLACK then
          internal_fixup_tree.loop fuel (set_color t sa RB_TREE_RED) pa
        else some (set_color (set_color t sa RB_TREE_RED) pa RB_TREE_BLACK)
      else internal_fixup_tree.red_nephew t s.ptr pa sa) := by
  have Fp := layout_focus t rest pa _ pk pv _ _ h
  have Fs := layout_focus t (.right pa pc pk pv s :: rest) sa _ sk sv _ _ h
  have cl : (t.mem (t.mem sa).left).color = sl.color := by
    rw [Fs.left]; exact color_read t _ _ sl Fs.rep_left hleaf
  have cr : (t.mem (t.mem sa).right).color = sr.color := by
    rw [Fs.right]; exact color_read t _ _ sr Fs.rep_right hleaf
  have cp := Fp.color
  rw [cl, cr, cp]
  rcases valid_color sr n hsr with hsrc | hsrc
  · -- case 6
    obtain ⟨ra, rk, rv, rl, rr, rfl⟩ := red_is_node sr hsrc
    have hne : ¬ (sl.color = RB_TREE_BLACK ∧ (rbt.node ra RB_TREE_RED rk rv rl rr).color = RB_TREE_BLACK) := by
      simp [rbt.color, RED_ne_BLACK]
    rw [if_neg hne, internal_fixup_tree.red_nephew, near_nephew_skip_left t rest pa pc pk pv s sa _
      sk sv sl _ h rfl hleaf]
    obtain ⟨t', q1, q2, q3⟩ := fix_far_nephew_left t rest pa pc pk pv s sa sk sv sl ra rk rv
      rl rr h hsc hleaf
    rcases hsr with ⟨_, hrlc, hrrc, hvrl, hvrr⟩ | ⟨hh, _⟩
    · obtain ⟨n', v1, v2⟩ := finish_valid rest sa pc sk sv
        (rbt.node pa RB_TREE_BLACK pk pv s sl) (rbt.node ra RB_TREE_BLACK rk rv rl rr) n
        (Or.inr ⟨rfl, n, rfl, hs, hsl⟩) (Or.inr ⟨rfl, n, rfl, hvrl, hvrr⟩)
        rfl rfl hrest
      refine ⟨t', _, q1, q2, ⟨n', v1⟩, v2, ?_, q3⟩
      simp only [entries_plug, rbt.entries]
      simp
    · exact absurd hh RED_ne_BLACK
  · rcases valid_color sl n hsl with hslc | hslc
    · -- case 5
      obtain ⟨la, lk, lv, ll, lr, rfl⟩ := red_is_node sl hslc
      have hne : ¬ ((rbt.node la RB_TREE_RED lk lv ll lr).color = RB_TREE_BLACK ∧ sr.color = RB_TREE_BLACK) := by
        simp [rbt.color, RED_ne_BLACK]
      rw [if_neg hne, internal_fixup_tree.red_nephew]
      obtain ⟨t1, p1, p2, p3⟩ := fix_near_nephew_left t rest pa pc pk pv s sa sk sv la lk lv
        ll lr sr h hsrc hleaf
      rw [p1]
      obtain ⟨t', q1, q2, q3⟩ := fix_far_nephew_left t1 rest pa pc pk pv s la lk lv ll sa sk sv
        lr sr p2 hsc (aux_same_leaf_ok _ _ p3 hleaf)
      rcases hsl with ⟨_, hllc, hlrc, hvll, hvlr⟩ | ⟨hh, _⟩
      · obtain ⟨n', v1, v2⟩ := finish_valid rest la pc lk lv
          (rbt.node pa RB_TREE_BLACK pk pv s ll) (rbt.node sa RB_TREE_BLACK sk sv lr sr) n
          (Or.inr ⟨rfl, n, rfl, hs, hvll⟩) (Or.inr ⟨rfl, n, rfl, hvlr, hsr⟩)
          rfl rfl hrest
        refine ⟨t', _, q1, q2, ⟨n', v1⟩, v2, ?_, aux_same_trans _ _ _ p3 q3⟩
        simp only [entries_plug, rbt.entries]
        simp
      · exact absurd hh RED_ne_BLACK
    · -- cases 3 and 4
      have hy : sl.color = RB_TREE_BLACK ∧ sr.color = RB_TREE_BLACK := ⟨hslc, hsrc⟩
      rw [if_pos hy]
      have Fs' := Fs
      have L1 := set_color_spec t (.right pa pc pk pv s :: rest) sa _ RB_TREE_RED sk sv _ _ h
      have A1 := set_color_aux t sa RB_TREE_RED Fs.ne_leaf
      have hvs : valid (rbt.node sa RB_TREE_RED sk sv sl sr) n :=
        Or.inl ⟨rfl, hslc, hsrc, hsl, hsr⟩
      rcases hrest with ⟨h1, h2⟩ | ⟨h1, h2⟩
      · -- case 4
        subst h1
        rw [if_neg RED_ne_BLACK]
        have L2 := set_color_spec _ rest pa _ RB_TREE_BLACK pk pv _ _ L1
        obtain ⟨n', v1, v2⟩ := plug_valid rest (rbt.node pa RB_TREE_BLACK pk pv s (rbt.node sa RB_TREE_RED sk sv sl sr)) (n + 1) (ctx_ok_black _ _ _ h2)
          (Or.inr ⟨rfl, n, rfl, hs, hvs⟩)
        refine ⟨_, _, rfl, L2, ⟨n', v1⟩, v2, ?_,
          aux_same_trans _ _ _ A1 (set_color_aux _ pa _ Fp.ne_leaf)⟩
        simp only [entries_plug, rbt.entries]
      · -- case 3
        subst h1
        rw [if_pos rfl]
        have F1 := layout_focus _ rest pa _ pk pv _ _ L1
        have hrec := IH rfl (set_color t sa RB_TREE_RED)
          (rbt.node pa RB_TREE_BLACK pk pv s (rbt.node sa RB_TREE_RED sk sv sl sr)) L1
          (Or.inr ⟨rfl, n, rfl, hs, hvs⟩) rfl F1.parent (aux_same_leaf_ok _ _ A1 hleaf)
        refine adjust_post_of_aux _ _ _ _ _ hrec A1 ?_
        simp only [entries_plug, rbt.entries]

/-- One round of the fix-up loop at a node that is a left child. -/
theorem fix_step_left (t : tree α β N) (rest : List (frame α β))
    (pa pc : Nat) (pk : α) (pv : β) (sib s : rbt α β) (n fuel : Nat)
    (h : layout t (plug (.left pa pc pk pv sib :: rest) s))
    (hpar : (t.mem s.ptr).parent = pa)
    (hs : valid s n) (hsc : s.color = RB_TREE_BLACK)
    (hctx : ctx_ok (.left pa pc pk pv sib :: rest) RB_TREE_BLACK (n + 1))
    (hleaf : leaf_ok t)
    (IH : ∀ (t2 : tree α β N) (s2 : rbt α β),
      layout t2 (plug rest s2) → valid s2 (n + 1) → s2.color = RB_TREE_BLACK →
      (t2.mem s2.ptr).parent = parent_of rest → leaf_ok t2 →
      ctx_ok rest RB_TREE_BLACK (n + 2) →
      adjust_post t2 (plug rest s2) (internal_fixup_tree.loop fuel t2 s2.ptr)) :
    adjust_post t (plug (.left pa pc pk pv sib :: rest) s)
      (internal_fixup_tree.loop (fuel + 1) t s.ptr) := by
  have hsibv : valid sib (n + 1) := by
    rcases hctx with ⟨_, _, _, h4, _⟩ | ⟨_, h4, _⟩
    · exact h4
    · exact h4
  obtain ⟨sa, sc, sk, sv, sl, sr, rfl⟩ := succ_is_node sib n hsibv
  have h0 : layout t (plug rest (rbt.node pa pc pk pv s (rbt.node sa sc sk sv sl sr))) := h
  have Fp := layout_focus t rest pa _ pk pv _ _ h0
  have Fs := layout_focus t (.right pa pc pk pv s :: rest) sa _ sk sv _ _ h0
  have e0 : (t.mem s.ptr).color = RB_TREE_BLACK := by
    rw [color_read t _ _ s Fp.rep_left hleaf]; exact hsc
  have e1 := Fp.left
  have e2 := Fp.right
  simp only [ptr_node] at e2
  have n1 : pa ≠ NULL := Fp.ne_null
  have n2 : sa ≠ s.ptr := by
    have := Fp.right_ne_left
    simp only [ptr_node] at this
    exact this Fs.ne_leaf
  have hsib0 : (if (t.mem pa).left = s.ptr then (t.mem pa).right else (t.mem pa).left) = sa := by
    simp [e1, e2, n2]
  rw [internal_fixup_tree.loop]
  simp only [hpar, e0, ne_eq, not_true_eq_false, if_false, n1, hsib0]
  rcases valid_color _ _ hsibv with hc | hc
  · -- the sibling is red
    simp only [rbt.color] at hc
    subst hc
    rcases hctx with ⟨_, _, h3, _, _⟩ | ⟨hpc, _, hrest⟩
    · exact absurd h3 RED_ne_BLACK
    simp only [frame.color] at hpc
    subst hpc
    rcases hsibv with ⟨_, hslc, hsrc, hvsl, hvsr⟩ | ⟨hh, _⟩
    · obtain ⟨la, lc, lk, lv, ll, lr, rfl⟩ := succ_is_node sl n hvsl
      simp only [rbt.color] at hslc
      subst hslc
      obtain ⟨hvll, hvlr⟩ := black_succ _ _ _ _ _ _ n hvsl rfl
      obtain ⟨t1, p1, p2, p3⟩ := fix_red_sibling_left t rest pa pk pv s sa sk sv _ sr h0
      rw [p1]
      have hb := fix_black_sibling_left t1 (.left sa RB_TREE_BLACK sk sv sr :: rest) pa
        RB_TREE_RED pk pv s la lk lv ll lr n fuel p2 hs hsc hvll hvlr
        (Or.inl ⟨rfl, Or.inr ⟨rfl, hvsr, hrest⟩⟩) (aux_same_leaf_ok _ _ p3 hleaf)
        (fun hh => absurd hh RED_ne_BLACK)
      refine adjust_post_of_aux _ _ _ _ _ hb p3 ?_
      simp only [plug, frame.fill, entries_plug, rbt.entries]
      simp
    · exact absurd hh RED_ne_BLACK
  · -- the sibling is black
    simp only [rbt.color] at hc
    subst hc
    rw [red_sibling_skip t _ _ _ (by rw [Fs.color]; exact fun e => RED_ne_BLACK e.symm)]
    obtain ⟨hvsl, hvsr⟩ := black_succ _ _ _ _ _ _ n hsibv rfl
    have hrest : (pc = RB_TREE_RED ∧ ctx_ok rest RB_TREE_RED (n + 1)) ∨
        (pc = RB_TREE_BLACK ∧ ctx_ok rest RB_TREE_BLACK (n + 2)) := by
      rcases hctx with ⟨h1, _, _, _, h5⟩ | ⟨h1, _, h5⟩
      · exact Or.inl ⟨h1, h5⟩
      · exact Or.inr ⟨h1, h5⟩
    exact fix_black_sibling_left t rest pa pc pk pv s sa sk sv sl sr n fuel h0 hs hsc hvsl hvsr
      hrest hleaf (fun hpc t2 s2 a1 a2 a3 a4 a5 => IH t2 s2 a1 a2 a3 a4 a5 (by
        rcases hrest with ⟨h1, _⟩ | ⟨_, h5⟩
        · exact absurd (h1.symm.trans hpc) RED_ne_BLACK
        · exact h5))

/-- Case 2 of the fix-up loop, the node being the right child: the red sibling
is rotated up and the node gets a black sibling. -/
theorem fix_red_sibling_right (t : tree α β N) (rest : List (frame α β))
    (pa : Nat) (pk : α) (pv : β) (s : rbt α β) (sa : Nat) (sk : α) (sv : β) (sl sr : rbt α β)
    (h : layout t (plug rest (rbt.node pa RB_TREE_BLACK pk pv (rbt.node sa RB_TREE_RED sk sv sr sl) s))) :
    ∃ t', internal_fixup_tree.red_sibling t s.ptr pa sa = (t', sl.ptr) ∧
      layout t' (plug rest (rbt.node sa RB_TREE_BLACK sk sv sr (rbt.node pa RB_TREE_RED pk pv sl s))) ∧
      aux_same t t' := by
  have Fp := layout_focus t rest pa _ pk pv _ _ h
  have Fs := layout_focus t (.left pa RB_TREE_BLACK pk pv s :: rest) sa _ sk sv _ _ h
  have e1 := Fp.right
  have e2 := Fp.left
  have e3 := Fs.color
  simp only [ptr_node] at e2
  have n1 : sa ≠ pa := Fs.ne_par
  have n2 : s.ptr ≠ sa := by
    have := Fp.left_ne_right
    simp only [ptr_node] at this
    exact fun e => this Fs.ne_leaf e.symm
  have L1 := set_color_spec t rest pa _ RB_TREE_RED pk pv _ _ h
  have L2 := set_color_spec _ (.left pa RB_TREE_RED pk pv s :: rest) sa _ RB_TREE_BLACK sk sv
    _ _ L1
  obtain ⟨L3, A3⟩ := rotate_right_spec _ rest pa _ pk pv s sa _ sk sv sl sr L2
  have F3 := layout_focus _ (.right sa RB_TREE_BLACK sk sv sr :: rest) pa _ pk pv _ _ L3
  refine ⟨_, ?_, L3, ?_⟩
  · unfold internal_fixup_tree.red_sibling
    simp only [e3, if_true, set_color_right, set_color_left, e1, e2]
    simp [n2, F3.left]
  · exact aux_same_trans _ _ _ (aux_same_trans _ _ _ (set_color_aux t pa _ Fp.ne_leaf)
      (set_color_aux _ sa _ Fs.ne_leaf)) A3

/-- Case 6 of the fix-up loop, the node being the right child: the sibling is
black and its left child is red. -/
theorem fix_far_nephew_right (t : tree α β N) (rest : List (frame α β))
    (pa pc : Nat) (pk : α) (pv : β) (s : rbt α β) (sa : Nat) (sk : α) (sv : β) (sl : rbt α β)
    (ra : Nat) (rk : α) (rv : β) (rl rr : rbt α β)
    (h : layout t (plug rest (rbt.node pa pc pk pv (rbt.node sa RB_TREE_BLACK sk sv (rbt.node ra RB_TREE_RED rk rv rr rl) sl) s)))
    (hs : s.color = RB_TREE_BLACK) (hleaf : leaf_ok t) :
    ∃ t', internal_fixup_tree.far_nephew t s.ptr pa sa = some t' ∧
      layout t' (plug rest (rbt.node sa pc sk sv (rbt.node ra RB_TREE_BLACK rk rv rr rl) (rbt.node pa RB_TREE_BLACK pk pv sl s))) ∧
      aux_same t t' := by
  have Fp := layout_focus t rest pa _ pk pv _ _ h
  have Fs := layout_focus t (.left pa pc pk pv s :: rest) sa _ sk sv _ _ h
  have Fr := layout_focus t (.left sa RB_TREE_BLACK sk sv sl :: .left pa pc pk pv s :: rest)
    ra _ rk rv _ _ h
  have e1 := Fp.right
  have e2 := Fp.left
  have e3 := Fp.color
  have e4 := Fs.color
  have e5 := Fs.left
  have e6 := Fr.color
  have e7 : (t.mem s.ptr).color = RB_TREE_BLACK := by
    rw [color_read t _ _ s Fp.rep_right hleaf]; exact hs
  simp only [ptr_node] at e2 e5
  have n1 : sa ≠ pa := Fs.ne_par
  have n2 : s.ptr ≠ sa := by
    have := Fp.left_ne_right
    simp only [ptr_node] at this
    exact fun e => this Fs.ne_leaf e.symm
  have n3 : ra ≠ sa := Fr.ne_par
  have n4 : ra ≠ pa := by
    intro e
    apply Fp.notin_left
    rw [← e]
    simp [rbt.addrs]
  have n5 : s.ptr ≠ pa := fun e => Fp.ne_right e.symm
  have n6 : s.ptr ≠ ra := by
    intro e
    rcases ptr_mem_or s with e' | e'
    · exact Fr.ne_leaf (e ▸ e')
    · exact Fp.disj_right _ e' (by rw [e]; simp [rbt.addrs])
  have L1 := set_color_spec t (.left pa pc pk pv s :: rest) sa _ pc sk sv _ _ h
  have L2 := set_color_spec _ rest pa _ RB_TREE_BLACK pk pv _ _ L1
  have L3 := set_color_spec _ (.left sa pc sk sv sl :: .left pa RB_TREE_BLACK pk pv s :: rest)
    ra _ RB_TREE_BLACK rk rv _ _ L2
  obtain ⟨L4, A4⟩ := rotate_right_spec _ rest pa _ pk pv s sa _ sk sv sl _ L3
  refine ⟨_, ?_, L4, ?_⟩
  · unfold internal_fixup_tree.far_nephew
    simp [e1, e2, e3, e4, e5, e6, e7, n1, n2, n3, n4, n5, n6, RED_ne_BLACK]
  · exact aux_same_trans _ _ _ (aux_same_trans _ _ _ (aux_same_trans _ _ _
      (set_color_aux t sa _ Fs.ne_leaf) (set_color_aux _ pa _ Fp.ne_leaf))
      (set_color_aux _ ra _ Fr.ne_leaf)) A4

/-- Case 5 of the fix-up loop, the node being the right child: the sibling is
black, its right child is red and its left child is black. -/
theorem fix_near_nephew_right (t : tree α β N) (rest : List (frame α β))
    (pa pc : Nat) (pk : α) (pv : β) (s : rbt α β) (sa : Nat) (sk : α) (sv : β)
    (la : Nat) (lk : α) (lv : β) (ll lr sr : rbt α β)
    (h : layout t (plug rest (rbt.node pa pc pk pv (rbt.node sa RB_TREE_BLACK sk sv sr (rbt.node la RB_TREE_RED lk lv lr ll)) s)))
    (hsr : sr.color = RB_TREE_BLACK) (hleaf : leaf_ok t) :
    ∃ t', internal_fixup_tree.near_nephew t s.ptr pa sa = (t', la) ∧
      layout t' (plug rest (rbt.node pa pc pk pv (rbt.node la RB_TREE_BLACK lk lv (rbt.node sa RB_TREE_RED sk sv sr lr) ll) s)) ∧
      aux_same t t' := by
  have Fp := layout_focus t rest pa _ pk pv _ _ h
  have Fs := layout_focus t (.left pa pc pk pv s :: rest) sa _ sk sv _ _ h
  have Fl := layout_focus t (.right sa RB_TREE_BLACK sk sv sr :: .left pa pc pk pv s :: rest)
    la _ lk lv _ _ h
  have e1 := Fp.right
  have e2 := Fp.left
  have e4 := Fs.right
  have e5 := Fs.left
  have e6 := Fl.color
  have e7 : (t.mem sr.ptr).color = RB_TREE_BLACK := by
    rw [color_read t _ _ sr Fs.rep_left hleaf]; exact hsr
  simp only [ptr_node] at e2 e4
  have n2 : s.ptr ≠ sa := by
    have := Fp.left_ne_right
    simp only [ptr_node] at this
    exact fun e => this Fs.ne_leaf e.symm
  have L1 := set_color_spec t (.left pa pc pk pv s :: rest) sa _ RB_TREE_RED sk sv _ _ h
  have L2 := set_color_spec _ (.right sa RB_TREE_RED sk sv sr :: .left pa pc pk pv s :: rest)
    la _ RB_TREE_BLACK lk lv _ _ L1
  obtain ⟨L3, A3⟩ := rotate_left_spec _ (.left pa pc pk pv s :: rest) sa _ sk sv sr la _ lk lv
    lr ll L2
  have F3 := layout_focus _ (.left la RB_TREE_BLACK lk lv ll :: .left pa pc pk pv s :: rest)
    sa _ sk sv _ _ L3
  have e8 := F3.parent
  simp only [parent_of, frame.addr] at e8
  refine ⟨_, ?_, L3, ?_⟩
  · unfold internal_fixup_tree.near_nephew
    simp only [e1, e2, e4, e5, e6, e7, n2, set_color_right, set_color_left, true_and, and_self,
      if_true, false_and, if_false]
    rw [e8]
  · exact aux_same_trans _ _ _ (aux_same_trans _ _ _ (set_color_aux t sa _ Fs.ne_leaf)
      (set_color_aux _ la _ Fl.ne_leaf)) A3

/-- Case 5 of the fix-up loop does not apply when the child of the sibling
away from the node is red. -/
theorem near_nephew_skip_right (t : tree α β N) (rest : List (frame α β))
    (pa pc : Nat) (pk : α) (pv : β) (s : rbt α β) (sa sc : Nat) (sk : α) (sv : β)
    (sl sr : rbt α β)
    (h : layout t (plug rest (rbt.node pa pc pk pv (rbt.node sa sc sk sv sr sl) s)))
    (hsr : sr.color = RB_TREE_RED) (hleaf : leaf_ok t) :
    internal_fixup_tree.near_nephew t s.ptr pa sa = (t, sa) := by
  have Fp := layout_focus t rest pa _ pk pv _ _ h
  have Fs := layout_focus t (.left pa pc pk pv s :: rest) sa _ sk sv _ _ h
  have e1 := Fp.right
  have e2 := Fp.left
  have e5 := Fs.left
  have e7 : (t.mem sr.ptr).color = RB_TREE_RED := by
    rw [color_read t _ _ sr Fs.rep_left hleaf]; exact hsr
  simp only [ptr_node] at e2
  have n2 : s.ptr ≠ sa := by
    have := Fp.left_ne_right
    simp only [ptr_node] at this
    exact fun e => this Fs.ne_leaf e.symm
  unfold internal_fixup_tree.near_nephew
  simp [e1, e2, e5, e7, n2, RED_ne_BLACK]

/-- The fix-up loop body after case 2, the node being the right child with a
black sibling. -/
theorem fix_black_sibling_right (t : tree α β N) (rest : List (frame α β))
    (pa pc : Nat) (pk : α) (pv : β) (s : rbt α β) (sa : Nat) (sk : α) (sv : β)
    (sl sr : rbt α β) (n fuel : Nat)
    (h : layout t (plug rest (rbt.node pa pc pk pv (rbt.node sa RB_TREE_BLACK sk sv sr sl) s)))
    (hs : valid s n) (hsc : s.color = RB_TREE_BLACK) (hsl : valid sl n) (hsr : valid sr n)
    (hrest : (pc = RB_TREE_RED ∧ ctx_ok rest RB_TREE_RED (n + 1)) ∨
      (pc = RB_TREE_BLACK ∧ ctx_ok rest RB_TREE_BLACK (n + 2)))
    (hleaf : leaf_ok t)
    (IH : pc = RB_TREE_BLACK → ∀ (t2 : tree α β N) (s2 : rbt α β),
      layout t2 (plug rest s2) → valid s2 (n + 1) → s2.color = RB_TREE_BLACK →
      (t2.mem s2.ptr).parent = parent_of rest → leaf_ok t2 →
      adjust_post t2 (plug rest s2) (internal_fixup_tree.loop fuel t2 s2.ptr)) :
    adjust_post t (plug rest (rbt.node pa pc pk pv (rbt.node sa RB_TREE_BLACK sk sv sr sl) s))
      (if (t.mem (t.mem sa).left).color = RB_TREE_BLACK ∧
          (t.mem (t.mem sa).right).color = RB_TREE_BLACK then
        if (t.mem pa).color = RB_TREE_BLACK then
          internal_fixup_tree.loop fuel (set_color t sa RB_TREE_RED) pa
        else some (set_color (set_color t sa RB_TREE_RED) pa RB_TREE_BLACK)
      else internal_fixup_tree.red_nephew t s.ptr pa sa) := by
  have Fp := layout_focus t rest pa _ pk pv _ _ h
  have Fs := layout_focus t (.left pa pc pk pv s :: rest) sa _ sk sv _ _ h
  have cl : (t.mem (t.mem sa).right).color = sl.color := by
    rw [Fs.right]; exact color_read t _ _ sl Fs.rep_right hleaf
  have cr : (t.mem (t.mem sa).left).color = sr.color := by
    rw [Fs.left]; exact color_read t _ _ sr Fs.rep_left hleaf
  have cp := Fp.color
  rw [cl, cr, cp]
  rcases valid_color sr n hsr with hsrc | hsrc
  · -- case 6
    obtain ⟨ra, rk, rv, rr, rl, rfl⟩ := red_is_node sr hsrc
    have hne : ¬ ((rbt.node ra RB_TREE_RED rk rv rr rl).color = RB_TREE_BLACK ∧ sl.color = RB_TREE_BLACK) := by
      simp [rbt.color, RED_ne_BLACK]
    rw [if_neg hne, internal_fixup_tree.red_nephew, near_nephew_skip_right t rest pa pc pk pv s sa _
      sk sv sl _ h rfl hleaf]
    obtain ⟨t', q1, q2, q3⟩ := fix_far_nephew_right t rest pa pc pk pv s sa sk sv sl ra rk rv
      rl rr h hsc hleaf
    rcases hsr with ⟨_, hrrc, hrlc, hvrr, hvrl⟩ | ⟨hh, _⟩
    · obtain ⟨n', v1, v2⟩ := finish_valid rest sa pc sk sv
        (rbt.node ra RB_TREE_BLACK rk rv rr rl) (rbt.node pa RB_TREE_BLACK pk pv sl s) n
        (Or.inr ⟨rfl, n, rfl, hvrr, hvrl⟩) (Or.inr ⟨rfl, n, rfl, hsl, hs⟩)
        rfl rfl hrest
      refine ⟨t', _, q1, q2, ⟨n', v1⟩, v2, ?_, q3⟩
      simp only [entries_plug, rbt.entries]
      simp
    · exact absurd hh RED_ne_BLACK
  · rcases valid_color sl n hsl with hslc | hslc
    · -- case 5
      obtain ⟨la, lk, lv, lr, ll, rfl⟩ := red_is_node sl hslc
      have hne : ¬ (sr.color = RB_TREE_BLACK ∧ (rbt.node la RB_TREE_RED lk lv lr ll).color = RB_TREE_BLACK) := by
        simp [rbt.color, RED_ne_BLACK]
      rw [if_neg hne, internal_fixup_tree.red_nephew]
      obtain ⟨t1, p1, p2, p3⟩ := fix_near_nephew_right t rest pa pc pk pv s sa sk sv la lk lv
        ll lr sr h hsrc hleaf
      rw [p1]
      obtain ⟨t', q1, q2, q3⟩ := fix_far_nephew_right t1 rest pa pc pk pv s la lk lv ll sa sk sv
        lr sr p2 hsc (aux_same_leaf_ok _ _ p3 hleaf)
      rcases hsl with ⟨_, hlrc, hllc, hvlr, hvll⟩ | ⟨hh, _⟩
      · obtain ⟨n', v1, v2⟩ := finish_valid rest la pc lk lv
          (rbt.node sa RB_TREE_BLACK sk sv sr lr) (rbt.node pa RB_TREE_BLACK pk pv ll s) n
          (Or.inr ⟨rfl, n, rfl, hsr, hvlr⟩) (Or.inr ⟨rfl, n, rfl, hvll, hs⟩)
          rfl rfl hrest
        refine ⟨t', _, q1, q2, ⟨n', v1⟩, v2, ?_, aux_same_trans _ _ _ p3 q3⟩
        simp only [entries_plug, rbt.entries]
        simp
      · exact absurd hh RED_ne_BLACK
    · -- cases 3 and 4
      have hy : sr.color = RB_TREE_BLACK ∧ sl.color = RB_TREE_BLACK := ⟨hsrc, hslc⟩
      rw [if_pos hy]
      have Fs' := Fs
      have L1 := set_color_spec t (.left pa pc pk pv s :: rest) sa _ RB_TREE_RED sk sv _ _ h
      have A1 := set_color_aux t sa RB_TREE_RED Fs.ne_leaf
      have hvs : valid (rbt.node sa RB_TREE_RED sk sv sr sl) n :=
        Or.inl ⟨rfl, hsrc, hslc, hsr, hsl⟩
      rcases hrest with ⟨h1, h2⟩ | ⟨h1, h2⟩
      · -- case 4
        subst h1
        rw [if_neg RED_ne_BLACK]
        have L2 := set_color_spec _ rest pa _ RB_TREE_BLACK pk pv _ _ L1
        obtain ⟨n', v1, v2⟩ := plug_valid rest (rbt.node pa RB_TREE_BLACK pk pv (rbt.node sa RB_TREE_RED sk sv sr sl) s) (n + 1) (ctx_ok_black _ _ _ h2)
          (Or.inr ⟨rfl, n, rfl, hvs, hs⟩)
        refine ⟨_, _, rfl, L2, ⟨n', v1⟩, v2, ?_,
          aux_same_trans _ _ _ A1 (set_color_aux _ pa _ Fp.ne_leaf)⟩
        simp only [entries_plug, rbt.entries]
      · -- case 3
        subst h1
        rw [if_pos rfl]
        have F1 := layout_focus _ rest pa _ pk pv _ _ L1
        have hrec := IH rfl (set_color t sa RB_TREE_RED)
          (rbt.node pa RB_TREE_BLACK pk pv (rbt.node sa RB_TREE_RED sk sv sr sl) s) L1
          (Or.inr ⟨rfl, n, rfl, hvs, hs⟩) rfl F1.parent (aux_same_leaf_ok _ _ A1 hleaf)
        refine adjust_post_of_aux _ _ _ _ _ hrec A1 ?_
        simp only [entries_plug, rbt.entries]

/-- One round of the fix-up loop at a node that is a right child. -/
theorem fix_step_right (t : tree α β N) (rest : List (frame α β))
    (pa pc : Nat) (pk : α) (pv : β) (sib s : rbt α β) (n fuel : Nat)
    (h : layout t (plug (.right pa pc pk pv sib :: rest) s))
    (hpar : (t.mem s.ptr).parent = pa)
    (hs : valid s n) (hsc : s.color = RB_TREE_BLACK)
    (hctx : ctx_ok (.right pa pc pk pv sib :: rest) RB_TREE_BLACK (n + 1))
    (hleaf : leaf_ok t)
    (IH : ∀ (t2 : tree α β N) (s2 : rbt α β),
      layout t2 (plug rest s2) → valid s2 (n + 1) → s2.color = RB_TREE_BLACK →
      (t2.mem s2.ptr).parent = parent_of rest → leaf_ok t2 →
      ctx_ok rest RB_TREE_BLACK (n + 2) →
      adjust_post t2 (plug rest s2) (internal_fixup_tree.loop fuel t2 s2.ptr)) :
    adjust_post t (plug (.right pa pc pk pv sib :: rest) s)
      (internal_fixup_tree.loop (fuel + 1) t s.ptr) := by
  have hsibv : valid sib (n + 1) := by
    rcases hctx with ⟨_, _, _, h4, _⟩ | ⟨_, h4, _⟩
    · exact h4
    · exact h4
  obtain ⟨sa, sc, sk, sv, sr, sl, rfl⟩ := succ_is_node sib n hsibv
  have h0 : layout t (plug rest (rbt.node pa pc pk pv (rbt.node sa sc sk sv sr sl) s)) := h
  have Fp := layout_focus t rest pa _ pk pv _ _ h0
  have Fs := layout_focus t (.left pa pc pk pv s :: rest) sa _ sk sv _ _ h0
  have e0 : (t.mem s.ptr).color = RB_TREE_BLACK := by
    rw [color_read t _ _ s Fp.rep_right hleaf]; exact hsc
  have e1 := Fp.right
  have e2 := Fp.left
  simp only [ptr_node] at e2
  have n1 : pa ≠ NULL := Fp.ne_null
  have n2 : sa ≠ s.ptr := by
    have := Fp.left_ne_right
    simp only [ptr_node] at this
    exact this Fs.ne_leaf
  have hsib0 : (if (t.mem pa).left = s.ptr then (t.mem pa).right else (t.mem pa).left) = sa := by
    simp [e1, e2, n2]
  rw [internal_fixup_tree.loop]
  simp only [hpar, e0, ne_eq, not_true_eq_false, if_false, n1, hsib0]
  rcases valid_color _ _ hsibv with hc | hc
  · -- the sibling is red
    simp only [rbt.color] at hc
    subst hc
    rcases hctx with ⟨_, _, h3, _, _⟩ | ⟨hpc, _, hrest⟩
    · exact absurd h3 RED_ne_BLACK
    simp only [frame.color] at hpc
    subst hpc
    rcases hsibv with ⟨_, hsrc, hslc, hvsr, hvsl⟩ | ⟨hh, _⟩
    · obtain ⟨la, lc, lk, lv, lr, ll, rfl⟩ := succ_is_node sl n hvsl
      simp only [rbt.color] at hslc
      subst hslc
      obtain ⟨hvlr, hvll⟩ := black_succ _ _ _ _ _ _ n hvsl rfl
      obtain ⟨t1, p1, p2, p3⟩ := fix_red_sibling_right t rest pa pk pv s sa sk sv _ sr h0
      rw [p1]
      have hb := fix_black_sibling_right t1 (.right sa RB_TREE_BLACK sk sv sr :: rest) pa
        RB_TREE_RED pk pv s la lk lv ll lr n fuel p2 hs hsc hvll hvlr
        (Or.inl ⟨rfl, Or.inr ⟨rfl, hvsr, hrest⟩⟩) (aux_same_leaf_ok _ _ p3 hleaf)
        (fun hh => absurd hh RED_ne_BLACK)
      refine adjust_post_of_aux _ _ _ _ _ hb p3 ?_
      simp only [plug, frame.fill, entries_plug, rbt.entries]
      simp
    · exact absurd hh RED_ne_BLACK
  · -- the sibling is black
    simp only [rbt.color] at hc
    subst hc
    rw [red_sibling_skip t _ _ _ (by rw [Fs.color]; exact fun e => RED_ne_BLACK e.symm)]
    obtain ⟨hvsr, hvsl⟩ := black_succ _ _ _ _ _ _ n hsibv rfl
    have hrest : (pc = RB_TREE_RED ∧ ctx_ok rest RB_TREE_RED (n + 1)) ∨
        (pc = RB_TREE_BLACK ∧ ctx_ok rest RB_TREE_BLACK (n + 2)) := by
      rcases hctx with ⟨h1, _, _, _, h5⟩ | ⟨h1, _, h5⟩
      · exact Or.inl ⟨h1, h5⟩
      · exact Or.inr ⟨h1, h5⟩
    exact fix_black_sibling_right t rest pa pc pk pv s sa sk sv sl sr n fuel h0 hs hsc hvsl hvsr
      hrest hleaf (fun hpc t2 s2 a1 a2 a3 a4 a5 => IH t2 s2 a1 a2 a3 a4 a5 (by
        rcases hrest with ⟨h1, _⟩ | ⟨_, h5⟩
        · exact absurd (h1.symm.trans hpc) RED_ne_BLACK
        · exact h5))

end rb_tree

namespace rb_tree

variable {α β : Type} {N : Nat}

/-- The fix-up loop repairs a tree in which the paths through the subtree at
the lower end of `ctx` are one black node short. -/
theorem fixup_loop_spec : ∀ (len : Nat) (ctx : List (frame α β)) (t : tree α β N)
    (s : rbt α β) (n fuel : Nat),
    ctx.length ≤ len → len < fuel →
    layout t (plug ctx s) → (t.mem s.ptr).parent = parent_of ctx →
    valid s n → s.color = RB_TREE_BLACK → ctx_ok ctx RB_TREE_BLACK (n + 1) → leaf_ok t →
    adjust_post t (plug ctx s) (internal_fixup_tree.loop fuel t s.ptr) := by
  intro len
  induction len using Nat.strong_induction_on with
  | _ len IH =>
  intro ctx t s n fuel hlen hfuel h hpar hv hc hctx hleaf
  obtain ⟨fuel, rfl⟩ : ∃ f, fuel = f + 1 := ⟨fuel - 1, by omega⟩
  match ctx, hlen, h, hpar, hctx with
  | [], _, h, hpar, _ =>
    have e0 : (t.mem s.ptr).color = RB_TREE_BLACK := by
      rw [color_read t _ _ s h.1 hleaf]; exact hc
    have heq : internal_fixup_tree.loop (fuel + 1) t s.ptr = some t := by
      rw [internal_fixup_tree.loop]
      simp only [parent_of] at hpar
      simp [e0, hpar]
    rw [heq]
    exact ⟨t, s, rfl, h, ⟨n, hv⟩, hc, rfl, aux_same_refl t⟩
  | f :: rest, hlen, h, hpar, hctx =>
    have IH2 : ∀ (t2 : tree α β N) (s2 : rbt α β),
        layout t2 (plug rest s2) → valid s2 (n + 1) → s2.color = RB_TREE_BLACK →
        (t2.mem s2.ptr).parent = parent_of rest → leaf_ok t2 →
        ctx_ok rest RB_TREE_BLACK (n + 2) →
        adjust_post t2 (plug rest s2) (internal_fixup_tree.loop fuel t2 s2.ptr) := by
      intro t2 s2 a1 a2 a3 a4 a5 a6
      simp only [List.length_cons] at hlen
      exact IH (len - 1) (by omega) rest t2 s2 (n + 1) fuel (by omega) (by omega) a1 a4 a2 a3 a6 a5
    cases f with
    | left pa pc pk pv sib =>
      exact fix_step_left t rest pa pc pk pv sib s n fuel h hpar hv hc hctx hleaf IH2
    | right pa pc pk pv sib =>
      exact fix_step_right t rest pa pc pk pv sib s n fuel h hpar hv hc hctx hleaf IH2

end rb_tree

namespace rb_tree

variable {α β : Type} {N : Nat}

theorem ptr_eq_leaf_iff (m : Nat → node α β) (p par : Nat) (s : rbt α β) (h : Rep m p par s) :
    s.ptr = leaf ↔ s = .nil := by
  cases s with
  | nil => simp
  | node a c k v l r =>
    simp only [ptr_node]
    constructor
    · intro e; exact absurd e h.2.2.1
    · intro e; cases e

/-- Source-level effect of `internal_replace_nodes`: a child of a node takes
the place of the node. -/
theorem replace_nodes_spec (t : tree α β N) (ctx : List (frame α β)) (a c : Nat) (k : α)
    (v : β) (l r child : rbt α β) (h : layout t (plug ctx (.node a c k v l r)))
    (hch : child = l ∨ child = r) :
    layout (internal_replace_nodes t a child.ptr) (plug ctx child) ∧
    ((internal_replace_nodes t a child.ptr).mem child.ptr).parent = parent_of ctx ∧
    ((internal_replace_nodes t a child.ptr).mem a).color = c ∧
    aux_same t (internal_replace_nodes t a child.ptr) := by
  have F := layout_focus t ctx a c k v l r h
  obtain ⟨r1, r2, n1, n2, n3, l1, l2, z1, z2⟩ := layout_split t ctx _ h
  have hrep : Rep t.mem child.ptr a child := by
    rcases hch with rfl | rfl
    · exact F.rep_left
    · exact F.rep_right
  have hsub : ∀ x ∈ child.addrs, x ∈ (rbt.node a c k v l r).addrs := by
    intro x hx
    rcases hch with rfl | rfl <;> simp [rbt.addrs, hx]
  have hnd : child.addrs.Nodup := by
    rcases hch with rfl | rfl
    · exact F.nodup_left
    · exact F.nodup_right
  have hpar : ∀ x ∈ child.addrs, x ≠ parent_of ctx := by
    intro x hx e
    rcases hch with rfl | rfl
    · exact F.par_left (e ▸ hx)
    · exact F.par_right (e ▸ hx)
  have hcpar : child.ptr ≠ parent_of ctx := by
    rcases hch with rfl | rfl
    · exact F.left_ne_par
    · exact F.right_ne_par
  have hca : child.ptr ≠ a := by
    rcases hch with rfl | rfl
    · exact fun e => F.ne_left e.symm
    · exact fun e => F.ne_right e.symm
  have hcc : child.ptr ∉ ctx_addrs ctx := by
    intro hx
    rcases ptr_mem_or child with e | e
    · exact l2 (e ▸ hx)
    · exact n3 _ (hsub _ e) hx
  obtain ⟨hl2, hr2⟩ := holder_of_ne_leaf ctx F.par_ne_leaf
  have heq : internal_replace_nodes t a child.ptr =
      set_parent (store t (holder_of ctx) child.ptr) child.ptr (parent_of ctx) := by
    simp only [internal_replace_nodes, F.holder, store_parent, F.parent]
  rw [heq]
  refine ⟨?_, by simp, by simp [F.color], ?_⟩
  · refine layout_exchange t _ ctx _ child [child.ptr] h hnd (fun x hx => n3 x (hsub x hx)) ?_
      (by simp) ?_ ?_
    · refine Rep_reparent t.mem _ child child.ptr a (parent_of ctx) hrep hnd ?_ ?_
      · intro x hx hxp
        have h1 := holder_of_ne_left ctx x (hpar x hx)
        have h2 := holder_of_ne_right ctx x (hpar x hx)
        exact node_ext _ _ (by simp) (by simp) (by simp) (by simp [h1]) (by simp [h2])
          (by simp [hxp])
      · intro _
        have h1 := holder_of_ne_left ctx _ hcpar
        have h2 := holder_of_ne_right ctx _ hcpar
        exact ⟨by simp, by simp, by simp, by simp [h1], by simp [h2], by simp⟩
    · intro x hx
      simp only [List.mem_singleton]
      rintro rfl; exact hcc hx
    · refine ⟨fun hne => by simp [hne], fun x hx _ => ?_⟩
      simp only [List.mem_singleton] at hx
      refine ⟨?_, ?_, ?_, ?_, ?_, ?_⟩ <;> simp [hx]
      · intro hh; simp [hh]
      · intro hh; simp [hh]
  · refine ⟨by simp, by simp, by simp, by simp, by simp [hl2], by simp [hr2]⟩

/-- Source-level effect of `internal_fixup_tree`: a node with at most one
child is taken out of a valid tree, its child `child` takes its place, and the
tree is repaired. -/
theorem fixup_tree_spec (t : tree α β N) (ctx : List (frame α β)) (a c : Nat) (k : α)
    (v : β) (l r child : rbt α β) (n fuel : Nat)
    (h : layout t (plug ctx (.node a c k v l r)))
    (hch : (l = .nil ∧ child = r) ∨ (r = .nil ∧ child = l))
    (hv : valid (.node a c k v l r) n) (hctx : ctx_ok ctx c n) (hleaf : leaf_ok t)
    (hfuel : ctx.length < fuel) :
    adjust_post t (plug ctx child) (internal_fixup_tree fuel t a) := by
  have F := layout_focus t ctx a c k v l r h
  have hl : l.ptr = leaf ↔ l = .nil := ptr_eq_leaf_iff _ _ _ _ F.rep_left
  have hr : r.ptr = leaf ↔ r = .nil := ptr_eq_leaf_iff _ _ _ _ F.rep_right
  have hchild : (if (t.mem a).left = leaf then (t.mem a).right else (t.mem a).left) =
      child.ptr := by
    rw [F.left, F.right]
    rcases hch with ⟨rfl, rfl⟩ | ⟨rfl, rfl⟩
    · simp
    · by_cases e : child.ptr = leaf
      · simp [e]
      · simp [e]
  have hassert : (t.mem a).left = leaf ∨ (t.mem a).right = leaf := by
    rw [F.left, F.right]
    rcases hch with ⟨rfl, _⟩ | ⟨rfl, _⟩
    · left; rfl
    · right; rfl
  have hch' : child = l ∨ child = r := by
    rcases hch with ⟨_, e⟩ | ⟨_, e⟩
    · exact Or.inr e
    · exact Or.inl e
  obtain ⟨L1, P1, C1, A1⟩ := replace_nodes_spec t ctx a c k v l r child h hch'
  have hleaf1 := aux_same_leaf_ok _ _ A1 hleaf
  have hcv : ∀ m, valid l m → valid r m → valid child m := by
    intro m h1 h2
    rcases hch' with rfl | rfl
    · exact h1
    · exact h2
  have hcc : l.color = RB_TREE_BLACK → r.color = RB_TREE_BLACK → child.color = RB_TREE_BLACK := by
    intro h1 h2
    rcases hch' with rfl | rfl
    · exact h1
    · exact h2
  have hcol : ((internal_replace_nodes t a child.ptr).mem child.ptr).color = child.color :=
    color_read _ _ _ child (layout_split _ ctx child L1).2.1 hleaf1
  rw [internal_fixup_tree]
  simp only [hassert, not_true_eq_false, if_false, hchild, C1, hcol]
  rcases hv with ⟨h1, h2, h3, h4, h5⟩ | ⟨h1, m, rfl, h4, h5⟩
  · -- a red node is taken out
    subst h1
    simp only [if_true]
    have hcb := hcc h2 h3
    obtain ⟨n', v1, v2⟩ := plug_valid ctx child n (by rw [hcb]; exact ctx_ok_black _ _ _ hctx)
      (hcv n h4 h5)
    exact ⟨_, _, rfl, L1, ⟨n', v1⟩, v2, rfl, A1⟩
  · subst h1
    rw [if_neg (fun e => RED_ne_BLACK e.symm)]
    rcases valid_color child m (hcv m h4 h5) with hc | hc
    · -- the child is red
      obtain ⟨ca, ck, cv, cl, cr, rfl⟩ := red_is_node child hc
      simp only [rbt.color, if_true, ptr_node]
      have L2 := set_color_spec _ ctx ca _ RB_TREE_BLACK ck cv cl cr L1
      have F1 := layout_focus _ ctx ca _ ck cv cl cr L1
      have hvc := hcv m h4 h5
      have hvb : valid (.node ca RB_TREE_BLACK ck cv cl cr) (m + 1) := by
        rcases hvc with ⟨_, _, _, q4, q5⟩ | ⟨q1, _⟩
        · exact Or.inr ⟨rfl, m, rfl, q4, q5⟩
        · exact absurd q1 RED_ne_BLACK
      obtain ⟨n', v1, v2⟩ := plug_valid ctx (.node ca RB_TREE_BLACK ck cv cl cr) (m + 1) hctx hvb
      refine ⟨_, _, rfl, L2, ⟨n', v1⟩, v2, ?_,
        aux_same_trans _ _ _ A1 (set_color_aux _ ca _ F1.ne_leaf)⟩
      simp only [entries_plug, rbt.entries]
    · -- the child is black
      rw [hc, if_neg (fun e => RED_ne_BLACK e.symm)]
      have hloop := fixup_loop_spec ctx.length ctx _ child m fuel (le_refl _) hfuel L1 P1
        (hcv m h4 h5) hc hctx hleaf1
      exact adjust_post_of_aux _ _ _ _ _ hloop A1 rfl

end rb_tree

namespace rb_tree

variable {α β : Type} {N : Nat}

theorem plug_append (c1 c2 : List (frame α β)) :
    ∀ s : rbt α β, plug (c1 ++ c2) s = plug c2 (plug c1 s) := by
  induction c1 with
  | nil => intro s; rfl
  | cons f fs ih => intro s; exact ih (f.fill s)

theorem all_left_append (c1 c2 : List (frame α β)) (h1 : all_left c1) (h2 : all_left c2) :
    all_left (c1 ++ c2) := by
  induction c1 with
  | nil => exact h2
  | cons f fs ih =>
    cases f with
    | left a c k v r => exact ih h1
    | right a c k v l => exact absurd h1 (by simp [all_left])

theorem min_path_plug (s : rbt α β) : plug (min_path s).1 (min_path s).2 = s := by
  induction s with
  | nil => rfl
  | node a c k v l r ihl _ =>
    cases l with
    | nil => rfl
    | node la lc lk lv ll lr =>
      rw [min_path, plug_append, ihl]
      rfl

theorem min_path_left (s : rbt α β) : all_left (min_path s).1 := by
  induction s with
  | nil => trivial
  | node a c k v l r ihl _ =>
    cases l with
    | nil => trivial
    | node la lc lk lv ll lr =>
      rw [min_path]
      exact all_left_append _ _ ihl trivial

theorem min_path_node (a c : Nat) (k : α) (v : β) (l r : rbt α β) :
    ∃ ma mc mk mv mr, (min_path (.node a c k v l r)).2 = .node ma mc mk mv .nil mr := by
  induction l generalizing a c k v r with
  | nil => exact ⟨a, c, k, v, r, rfl⟩
  | node la lc lk lv ll lr ihl _ =>
    rw [min_path]
    exact ihl la lc lk lv lr

theorem keys_before_append (c1 c2 : List (frame α β)) :
    keys_before (c1 ++ c2) = keys_before c2 ++ keys_before c1 := by
  induction c1 with
  | nil => simp [keys_before]
  | cons f fs ih => cases f <;> simp [keys_before, ih]

theorem keys_after_append (c1 c2 : List (frame α β)) :
    keys_after (c1 ++ c2) = keys_after c1 ++ keys_after c2 := by
  induction c1 with
  | nil => simp [keys_after]
  | cons f fs ih => cases f <;> simp [keys_after, ih]

theorem entries_before_append (c1 c2 : List (frame α β)) :
    entries_before (c1 ++ c2) = entries_before c2 ++ entries_before c1 := by
  induction c1 with
  | nil => simp [entries_before]
  | cons f fs ih => cases f <;> simp [entries_before, ih]

theorem entries_after_append (c1 c2 : List (frame α β)) :
    entries_after (c1 ++ c2) = entries_after c1 ++ entries_after c2 := by
  induction c1 with
  | nil => simp [entries_after]
  | cons f fs ih => cases f <;> simp [entries_after, ih]

theorem entries_before_left (c1 : List (frame α β)) (h : all_left c1) :
    entries_before c1 = [] := by
  induction c1 with
  | nil => rfl
  | cons f fs ih =>
    cases f with
    | left a c k v r => exact ih h
    | right a c k v l => exact absurd h (by simp [all_left])

theorem ctx_addrs_append (c1 c2 : List (frame α β)) :
    ctx_addrs (c1 ++ c2) = ctx_addrs c1 ++ ctx_addrs c2 := by
  induction c1 with
  | nil => rfl
  | cons f fs ih => simp [ctx_addrs, ih]

theorem parent_of_append (c1 c2 : List (frame α β)) (h : c1 ≠ []) :
    parent_of (c1 ++ c2) = parent_of c1 := by
  cases c1 with
  | nil => exact absurd rfl h
  | cons f fs => rfl

theorem holder_of_append (c1 c2 : List (frame α β)) (h : c1 ≠ []) :
    holder_of (c1 ++ c2) = holder_of c1 := by
  cases c1 with
  | nil => exact absurd rfl h
  | cons f fs => cases f <;> rfl

/-- Whether a path accepts a subtree depends on the colours and the other
subtrees of its steps only. -/
theorem ctx_ok_swap (c1 ctx : List (frame α β)) (F F' : frame α β)
    (hc : F'.color = F.color) (hs : F'.sibling = F.sibling) :
    ∀ (c n : Nat), ctx_ok (c1 ++ F :: ctx) c n → ctx_ok (c1 ++ F' :: ctx) c n := by
  induction c1 with
  | nil =>
    intro c n h
    simp only [List.nil_append, ctx_ok] at h ⊢
    rw [hc, hs]
    exact h
  | cons f fs ih =>
    intro c n h
    simp only [List.cons_append, ctx_ok] at h ⊢
    rcases h with ⟨h1, h2, h3, h4, h5⟩ | ⟨h1, h2, h3⟩
    · exact Or.inl ⟨h1, h2, h3, h4, ih _ _ h5⟩
    · exact Or.inr ⟨h1, h2, ih _ _ h3⟩

theorem most_left_spec (t : tree α β N) (s : rbt α β) :
    ∀ (ctx : List (frame α β)) (fuel : Nat), s ≠ .nil → layout t (plug ctx s) →
      s.addrs.length < fuel →
      remove_node.most_left t fuel s.ptr = some (min_path s).2.ptr := by
  induction s with
  | nil => intro ctx fuel h; exact absurd rfl h
  | node a c k v l r ihl _ =>
    intro ctx fuel _ h hf
    obtain ⟨fuel, rfl⟩ : ∃ f, fuel = f + 1 := ⟨fuel - 1, by omega⟩
    have F := layout_focus t ctx a c k v l r h
    simp only [rbt.addrs, List.length_append, List.length_cons] at hf
    cases l with
    | nil =>
      rw [remove_node.most_left]
      simp [F.left, min_path]
    | node la lc lk lv ll lr =>
      have G := layout_focus t (.left a c k v r :: ctx) la lc lk lv ll lr h
      rw [remove_node.most_left]
      have e := F.left
      simp only [ptr_node] at e ⊢
      rw [e, if_pos G.ne_leaf, min_path]
      exact ihl (.left a c k v r :: ctx) fuel (by simp) h (by omega)

end rb_tree

namespace rb_tree

variable {α β : Type} {N : Nat}

theorem plug_spine (c1 ctx : List (frame α β)) (F : frame α β) (s : rbt α β) :
    plug (c1 ++ F :: ctx) s = plug ctx (F.fill (plug c1 s)) := by
  rw [plug_append]; rfl

/-- Source-level effect of the key swap of `remove_node`: the node to remove
and the most left node of its right subtree exchange their keys. -/
theorem swap_keys_spec (t : tree α β N) (ctx c1 : List (frame α β)) (a c : Nat) (k : α) (v : β)
    (l : rbt α β) (rc rcc : Nat) (rk : α) (rv : β) (rr : rbt α β)
    (h : layout t (plug (c1 ++ .right a c k v l :: ctx) (.node rc rcc rk rv .nil rr))) :
    layout (remove_node.swap_keys t a rc)
      (plug (c1 ++ .right a c rk v l :: ctx) (.node rc rcc k rv .nil rr)) ∧
    aux_same t (remove_node.swap_keys t a rc) := by
  have G := layout_focus t _ rc rcc rk rv _ _ h
  have h' := h
  rw [plug_spine] at h'
  have F := layout_focus t ctx a c k v l _ h'
  have L1 := set_key_spec t ctx a c k rk v l _ h'
  have L1' : layout (set_key t a rk)
      (plug (c1 ++ .right a c rk v l :: ctx) (.node rc rcc rk rv .nil rr)) := by
    rw [plug_spine]; exact L1
  have L2 := set_key_spec _ _ rc rcc rk k rv _ _ L1'
  have e : remove_node.swap_keys t a rc = set_key (set_key t a rk) rc k := by
    simp only [remove_node.swap_keys, G.key, F.key]
  rw [e]
  exact ⟨L2, aux_same_trans _ _ _ (set_key_aux t a _ F.ne_leaf) (set_key_aux _ rc _ G.ne_leaf)⟩

end rb_tree

namespace rb_tree

variable {α β : Type} {N : Nat}

theorem all_left_cons (f : frame α β) (fs : List (frame α β)) (h : all_left (f :: fs)) :
    (∃ a c k v r, f = .left a c k v r) ∧ all_left fs := by
  cases f with
  | left a c k v r => exact ⟨⟨a, c, k, v, r, rfl⟩, h⟩
  | right a c k v l => exact absurd h (by simp [all_left])

theorem ctx_addrs_tail (f : frame α β) (fs : List (frame α β)) (x : Nat)
    (h : x ∈ ctx_addrs fs) : x ∈ ctx_addrs (f :: fs) :=
  List.mem_append_right _ h

/-- The link of the step above a path of left steps is the address of the
top node of the path. -/
theorem RepC_top_mem (m : Nat → node α β) (root : Nat) (ctx : List (frame α β))
    (F : frame α β) (tp : Nat) (HF : ∀ hp0, RepC m root (F :: ctx) hp0 → hp0 = tp) :
    ∀ (c1 : List (frame α β)) (hp : Nat), c1 ≠ [] → all_left c1 →
      RepC m root (c1 ++ F :: ctx) hp → tp ∈ ctx_addrs c1 := by
  intro c1
  induction c1 with
  | nil => intro hp h; exact absurd rfl h
  | cons f fs ih =>
    intro hp _ hl h
    obtain ⟨⟨fa, fc, fk, fv, fr, rfl⟩, hl'⟩ := all_left_cons f fs hl
    obtain ⟨_, _, _, _, _, _, _, _, h9⟩ := h
    cases fs with
    | nil =>
      have := HF fa h9
      simp [ctx_addrs, frame.addrs, this]
    | cons g gs =>
      have := ih fa (by simp) hl' h9
      simp only [ctx_addrs, List.mem_append] at this ⊢
      exact Or.inr this

/-- A path of left steps stays laid out when the link at its lower end and
the parent link at its upper end are rewritten, and the step above it is
exchanged. -/
theorem RepC_spine (m m' : Nat → node α β) (root root' : Nat) (ctx : List (frame α β))
    (F F' : frame α β) (tp : Nat) (HF : ∀ hp0, RepC m root (F :: ctx) hp0 → hp0 = tp)
    (HF' : RepC m' root' (F' :: ctx) tp) :
    ∀ (c1 : List (frame α β)) (hp hp' : Nat), c1 ≠ [] → all_left c1 →
      RepC m root (c1 ++ F :: ctx) hp → (ctx_addrs c1).Nodup →
      (∀ x ∈ ctx_addrs c1, (m' x).key = (m x).key ∧ (m' x).value = (m x).value ∧
        (m' x).color = (m x).color ∧ (m' x).right = (m x).right ∧
        (x ≠ parent_of c1 → (m' x).left = (m x).left) ∧
        (x ≠ tp → (m' x).parent = (m x).parent)) →
      (m' (parent_of c1)).left = hp' → (m' tp).parent = F'.addr →
      RepC m' root' (c1 ++ F' :: ctx) hp' := by
  intro c1
  induction c1 with
  | nil => intro hp hp' h; exact absurd rfl h
  | cons f fs ih =>
    intro hp hp' _ hl h hnd hx hlink htp
    obtain ⟨⟨fa, fc, fk, fv, fr, rfl⟩, hl'⟩ := all_left_cons f fs hl
    obtain ⟨h1, h2, h3, h4, h5, h6, h7, h8, h9⟩ := h
    simp only [ctx_addrs, frame.addrs, List.cons_append, List.nodup_cons, List.mem_append,
      not_or, List.nodup_append] at hnd
    obtain ⟨⟨hafr, hafs⟩, hndr, hndfs, hdis⟩ := hnd
    have hfa := hx fa (by simp [ctx_addrs, frame.addrs])
    obtain ⟨e1, e2, e3, e4, _, e6⟩ := hfa
    simp only [parent_of, frame.addr] at hlink
    have htpfs : fs ≠ [] → tp ∈ ctx_addrs fs := fun hne =>
      RepC_top_mem m root ctx F tp HF fs fa hne hl' h9
    have htp' : fs = [] → tp = fa := by
      rintro rfl
      exact (HF fa h9).symm
    have hsib : ∀ x ∈ fr.addrs, m' x = m x := by
      intro x hxr
      obtain ⟨q1, q2, q3, q4, q5, q6⟩ := hx x (by simp [ctx_addrs, frame.addrs, hxr])
      have n1 : x ≠ fa := by rintro rfl; exact hafr hxr
      have n2 : x ≠ tp := by
        intro e
        cases fs with
        | nil => exact n1 (e.trans (htp' rfl))
        | cons g gs => exact hdis hxr (e ▸ htpfs (by simp))
      exact node_ext _ _ q1 q2 q3 (q5 n1) q4 (q6 n2)
    refine ⟨h1, h2, e1.trans h3, e2.trans h4, e3.trans h5, ?_, hlink, ?_, ?_⟩
    · cases fs with
      | nil =>
        rw [← htp' rfl, htp]; rfl
      | cons g gs =>
        have : fa ≠ tp := by
          intro e
          exact hafs (e ▸ htpfs (by simp))
        rw [e6 this, h6]; rfl
    · rw [e4]
      exact Rep_congr m m' fr _ _ h8 hsib
    · cases fs with
      | nil =>
        rw [← htp' rfl]; exact HF'
      | cons g gs =>
        refine ih fa fa (by simp) hl' h9 hndfs ?_ ?_ htp
        · intro x hxs
          obtain ⟨q1, q2, q3, q4, q5, q6⟩ := hx x (ctx_addrs_tail _ _ _ hxs)
          refine ⟨q1, q2, q3, q4, fun _ => q5 ?_, q6⟩
          simp only [parent_of, frame.addr]
          rintro rfl; exact hafs hxs
        · obtain ⟨⟨ga, gc, gk, gv, gr, rfl⟩, _⟩ := all_left_cons g gs hl'
          have hg : ga ∈ ctx_addrs (frame.left ga gc gk gv gr :: gs) := by
            simp [ctx_addrs, frame.addrs]
          obtain ⟨_, _, _, _, q5, _⟩ := hx ga (ctx_addrs_tail _ _ _ hg)
          simp only [parent_of, frame.addr]
          rw [q5 (by simp only [parent_of, frame.addr]; rintro rfl; exact hafs hg)]
          exact h9.2.2.2.2.2.2.1

end rb_tree

namespace rb_tree

variable {α β : Type} {N : Nat}

theorem spine_facts_of_layout (t : tree α β N) (ctx c1 : List (frame α β)) (a c : Nat)
    (k : α) (v : β) (l : rbt α β) (rc rcc : Nat) (rk : α) (rv : β) (rr : rbt α β)
    (h : layout t (plug (c1 ++ .right a c k v l :: ctx) (.node rc rcc rk rv .nil rr))) :
    spine_facts ctx c1 a rc l rr := by
  obtain ⟨_, _, n1, n2, n3, l1, l2, z1, z2⟩ := layout_split t _ _ h
  simp only [rbt.addrs, List.nil_append, List.nodup_cons, List.mem_cons, not_or] at n1 l1 z1
  simp only [ctx_addrs_append, ctx_addrs, frame.addrs, List.nodup_append, List.nodup_cons,
    List.mem_append, List.mem_cons, not_or, List.cons_append] at n2 l2 z2
  simp only [rbt.addrs, List.nil_append, List.mem_cons, ctx_addrs_append, ctx_addrs,
    frame.addrs, List.mem_append, List.cons_append, not_or, forall_eq_or_imp] at n3
  obtain ⟨hrc, hrr⟩ := n1
  obtain ⟨lc1, la, ll, lctx⟩ := l2
  obtain ⟨zc1, za, zl, zctx⟩ := z2
  obtain ⟨hc1, ⟨⟨hal, hactx⟩, hl, hctx, hlctx⟩, hd⟩ := n2
  obtain ⟨⟨m1, m2, m3, m4⟩, m5⟩ := n3
  have d1 : ∀ x ∈ ctx_addrs c1, x ≠ a ∧ x ∉ l.addrs ∧ x ∉ ctx_addrs ctx := by
    intro x hx
    refine ⟨?_, ?_, ?_⟩
    · rintro rfl; exact hd hx (by simp)
    · intro hx'; exact hd hx (by simp [hx'])
    · intro hx'; exact hd hx (by simp [hx'])
  refine ⟨?_, ?_, ?_, ?_, ?_, ?_, ?_, ?_, ?_, hl, hrr, hc1, hctx⟩
  · exact fun e => m2 e.symm
  · exact fun e => la e.symm
  · exact fun e => za e.symm
  · exact fun e => l1.1 e.symm
  · exact fun e => z1.1 e.symm
  · intro x hx
    refine ⟨?_, ?_, ?_, ?_, ?_, ?_, ?_⟩
    · rintro rfl; exact hal hx
    · rintro rfl; exact m3 hx
    · rintro rfl; exact ll hx
    · rintro rfl; exact zl hx
    · intro hx'; exact (m5 x hx').2.2.1 hx
    · intro hx'; exact (d1 x hx').2.1 hx
    · intro hx'; exact hlctx hx hx'
  · intro x hx
    obtain ⟨q1, q2, q3, q4⟩ := m5 x hx
    refine ⟨q2, ?_, ?_, ?_, q3, q1, q4⟩
    · rintro rfl; exact hrc hx
    · rintro rfl; exact l1.2 hx
    · rintro rfl; exact z1.2 hx
  · intro x hx
    obtain ⟨q1, q2, q3⟩ := d1 x hx
    refine ⟨q1, ?_, ?_, ?_, q2, ?_, q3⟩
    · rintro rfl; exact m1 hx
    · rintro rfl; exact lc1 hx
    · rintro rfl; exact zc1 hx
    · intro hx'; exact (m5 x hx').1 hx
  · intro x hx
    refine ⟨?_, ?_, ?_, ?_, ?_, ?_, ?_⟩
    · rintro rfl; exact hactx hx
    · rintro rfl; exact m4 hx
    · rintro rfl; exact lctx hx
    · rintro rfl; exact zctx hx
    · intro hx'; exact hlctx hx' hx
    · intro hx'; exact (m5 x hx').2.2.2 hx
    · intro hx'; exact (d1 x hx').2.2 hx

end rb_tree

namespace rb_tree

variable {α β : Type} {N : Nat}

theorem plug_ptr (c1 : List (frame α β)) (h : c1 ≠ []) :
    ∀ s s' : rbt α β, (plug c1 s).ptr = (plug c1 s').ptr := by
  induction c1 with
  | nil => exact absurd rfl h
  | cons f fs ih =>
    intro s s'
    cases fs with
    | nil => cases f <;> rfl
    | cons g gs => exact ih (by simp) _ _

theorem holder_ne_root (ctx : List (frame α β)) (h : ctx ≠ []) : holder_of ctx ≠ .root := by
  cases ctx with
  | nil => exact absurd rfl h
  | cons f fs => cases f <;> simp [holder_of]

theorem holder_of_left_iff (ctx : List (frame α β)) (x : Nat) (h : holder_of ctx = .left x) :
    x = parent_of ctx := by
  cases ctx with
  | nil => simp [holder_of] at h
  | cons f fs =>
    cases f <;> simp [holder_of, parent_of, frame.addr] at h ⊢
    exact h.symm

theorem holder_of_right_iff (ctx : List (frame α β)) (x : Nat) (h : holder_of ctx = .right x) :
    x = parent_of ctx := by
  cases ctx with
  | nil => simp [holder_of] at h
  | cons f fs =>
    cases f <;> simp [holder_of, parent_of, frame.addr] at h ⊢
    exact h.symm

end rb_tree

namespace rb_tree

variable {α β : Type} {N : Nat}

theorem swap_perm (a rc : Nat) (RR C1 L CTX : List Nat) :
    ((a :: RR) ++ (C1 ++ ((rc :: L) ++ CTX))).Perm ((rc :: RR) ++ (C1 ++ ((a :: L) ++ CTX))) := by
  rw [List.perm_iff_count]
  intro x
  simp only [List.count_append, List.count_cons]
  omega

/-- The relinked memory is laid out as the tree in which the node and the
most left node of its right subtree have exchanged their places. -/
theorem relink_layout (t t' : tree α β N) (ctx c1 : List (frame α β)) (a c : Nat) (k : α)
    (v : β) (l : rbt α β) (rc rcc : Nat) (rk : α) (rv : β) (rr : rbt α β)
    (h : layout t (plug (c1 ++ .right a c k v l :: ctx) (.node rc rcc rk rv .nil rr)))
    (hl : all_left c1) (R : relinked t t' ctx c1 a c k v l rc rcc rk rv rr) :
    layout t' (plug (c1 ++ .right rc c rk rv l :: ctx) (.node a rcc k v .nil rr)) := by
  have S := spine_facts_of_layout t ctx c1 a c k v l rc rcc rk rv rr h
  have h' : layout t (plug ctx (.node a c k v l (plug c1 (.node rc rcc rk rv .nil rr)))) := by
    rw [plug_spine] at h; exact h
  have Fa := layout_focus t ctx a c k v l _ h'
  have G := layout_focus t _ rc rcc rk rv _ _ h
  obtain ⟨r1, _⟩ := layout_split t _ _ h
  obtain ⟨q1, _⟩ := layout_split t ctx _ h'
  have hlp : l.ptr = leaf ∨ l.ptr ∈ l.addrs := ptr_mem_or l
  have hrrp : rr.ptr = leaf ∨ rr.ptr ∈ rr.addrs := ptr_mem_or rr
  have hP : parent_of ctx = NULL ∨ parent_of ctx ∈ ctx_addrs ctx := parent_of_nil_or ctx
  have hpc1 : parent_of c1 = NULL ∨ parent_of c1 ∈ ctx_addrs c1 := parent_of_nil_or c1
  have HF : ∀ hp0, RepC t.mem t.root (.right a c k v l :: ctx) hp0 →
      hp0 = (plug c1 (.node rc rcc rk rv .nil rr)).ptr :=
    fun hp0 hh => hh.2.2.2.2.2.2.1.symm.trans Fa.right
  have htp : c1 ≠ [] → (plug c1 (.node rc rcc rk rv .nil rr)).ptr ∈ ctx_addrs c1 :=
    fun hne => RepC_top_mem t.mem t.root ctx _ _ HF c1 rc hne hl r1
  have ntp : ∀ x, x ≠ rc → x ∉ ctx_addrs c1 → x ≠ (plug c1 (.node rc rcc rk rv .nil rr)).ptr := by
    intro x h1 h2 e
    by_cases hc : c1 = []
    · subst hc; exact h1 e
    · exact h2 (e ▸ htp hc)
  have npc1 : ∀ x, x ≠ NULL → x ∉ ctx_addrs c1 → x ≠ parent_of c1 := by
    intro x h1 h2 e
    rcases hpc1 with e' | e'
    · exact h1 (e.trans e')
    · exact h2 (e ▸ e')
  have nP : ∀ x, x ≠ NULL → x ∉ ctx_addrs ctx → x ≠ parent_of ctx := by
    intro x h1 h2 e
    rcases hP with e' | e'
    · exact h1 (e.trans e')
    · exact h2 (e ▸ e')
  have nlp : ∀ x, x ≠ leaf → x ∉ l.addrs → x ≠ l.ptr := by
    intro x h1 h2 e
    rcases hlp with e' | e'
    · exact h1 (e.trans e')
    · exact h2 (e ▸ e')
  have nrrp : ∀ x, x ≠ leaf → x ∉ rr.addrs → x ≠ rr.ptr := by
    intro x h1 h2 e
    rcases hrrp with e' | e'
    · exact h1 (e.trans e')
    · exact h2 (e ▸ e')
  -- the left subtree
  have RepL : Rep t'.mem l.ptr rc l := by
    refine Rep_reparent t.mem t'.mem l l.ptr a rc Fa.rep_left S.nodup_l ?_ ?_
    · intro x hx hxp
      obtain ⟨s1, s2, s3, s4, s5, s6, s7⟩ := S.l_ne x hx
      obtain ⟨o1, o2, o3, o4, o5, o6⟩ := R.other x s1 s2 s3
      exact node_ext _ _ o1 o2 o3
        (o5 (holder_of_ne_left ctx x (nP x s4 s7)) (npc1 x s4 s6))
        (o6 (holder_of_ne_right ctx x (nP x s4 s7)))
        (o4 hxp (nrrp x s3 s5) (ntp x s2 s6))
    · intro hne
      have hx : l.ptr ∈ l.addrs := hlp.resolve_left hne
      obtain ⟨s1, s2, s3, s4, s5, s6, s7⟩ := S.l_ne _ hx
      obtain ⟨o1, o2, o3, o4, o5, o6⟩ := R.other _ s1 s2 s3
      exact ⟨o1, o2, o3, o5 (holder_of_ne_left ctx _ (nP _ s4 s7)) (npc1 _ s4 s6),
        o6 (holder_of_ne_right ctx _ (nP _ s4 s7)), R.l_parent hne⟩
  -- the right subtree of the most left node
  have RepRR : Rep t'.mem rr.ptr a rr := by
    refine Rep_reparent t.mem t'.mem rr rr.ptr rc a G.rep_right S.nodup_rr ?_ ?_
    · intro x hx hxp
      obtain ⟨s1, s2, s3, s4, s5, s6, s7⟩ := S.rr_ne x hx
      obtain ⟨o1, o2, o3, o4, o5, o6⟩ := R.other x s1 s2 s3
      exact node_ext _ _ o1 o2 o3
        (o5 (holder_of_ne_left ctx x (nP x s4 s7)) (npc1 x s4 s6))
        (o6 (holder_of_ne_right ctx x (nP x s4 s7)))
        (o4 (nlp x s3 s5) hxp (ntp x s2 s6))
    · intro hne
      have hx : rr.ptr ∈ rr.addrs := hrrp.resolve_left hne
      obtain ⟨s1, s2, s3, s4, s5, s6, s7⟩ := S.rr_ne _ hx
      obtain ⟨o1, o2, o3, o4, o5, o6⟩ := R.other _ s1 s2 s3
      exact ⟨o1, o2, o3, o5 (holder_of_ne_left ctx _ (nP _ s4 s7)) (npc1 _ s4 s6),
        o6 (holder_of_ne_right ctx _ (nP _ s4 s7)), R.rr_parent hne⟩
  have RepA : Rep t'.mem a (parent_of (c1 ++ .right rc c rk rv l :: ctx))
      (.node a rcc k v .nil rr) :=
    ⟨rfl, S.a_ne_null, S.a_ne_leaf, R.a_key, R.a_value, R.a_color, R.a_parent, R.a_left,
      by rw [R.a_right]; exact RepRR⟩
  -- the path above the node
  have RepCctx : RepC t'.mem t'.root ctx rc := by
    refine RepC_relink t t' ctx a rc q1 S.nodup_ctx R.load
      (fun hne => R.root (holder_ne_root ctx hne)) ?_ ?_
    · intro x hx hxp
      obtain ⟨s1, s2, s3, s4, s5, s6, s7⟩ := S.ctx_ne x hx
      obtain ⟨o1, o2, o3, o4, o5, o6⟩ := R.other x s1 s2 s3
      exact node_ext _ _ o1 o2 o3
        (o5 (holder_of_ne_left ctx x hxp) (npc1 x s4 s7))
        (o6 (holder_of_ne_right ctx x hxp))
        (o4 (nlp x s3 s5) (nrrp x s3 s6) (ntp x s2 s7))
    · intro f fs hctx
      have hmem : f.addr ∈ ctx_addrs ctx := by
        rw [hctx]; cases f <;> simp [ctx_addrs, frame.addrs, frame.addr]
      obtain ⟨s1, s2, s3, s4, s5, s6, s7⟩ := S.ctx_ne _ hmem
      obtain ⟨o1, o2, o3, o4, o5, o6⟩ := R.other _ s1 s2 s3
      refine ⟨o1, o2, o3, o4 (nlp _ s3 s5) (nrrp _ s3 s6) (ntp _ s2 s7), ?_, ?_⟩
      · rintro fa fc fk fv fr rfl
        apply o6
        rw [hctx]; simp [holder_of]
      · rintro fa fc fk fv fl rfl
        refine o5 ?_ (npc1 _ s4 s7)
        rw [hctx]; simp [holder_of]
  have HFgen : ∀ hp0, (t'.mem rc).right = hp0 →
      RepC t'.mem t'.root (.right rc c rk rv l :: ctx) hp0 :=
    fun hp0 e => ⟨S.rc_ne_null, S.rc_ne_leaf, R.rc_key, R.rc_value, R.rc_color, R.rc_parent, e,
      by rw [R.rc_left]; exact RepL, RepCctx⟩
  have RepC2 : RepC t'.mem t'.root (c1 ++ .right rc c rk rv l :: ctx) a := by
    by_cases hc : c1 = []
    · subst hc
      exact HFgen a R.rc_right
    · refine RepC_spine t.mem t'.mem t.root t'.root ctx _ _ _ HF
        (HFgen _ (R.rc_right.trans (plug_ptr c1 hc _ _))) c1 rc a hc hl r1 S.nodup_c1 ?_
        (R.low_left hc) (R.top_parent hc)
      intro x hx
      obtain ⟨s1, s2, s3, s4, s5, s6, s7⟩ := S.c1_ne x hx
      obtain ⟨o1, o2, o3, o4, o5, o6⟩ := R.other x s1 s2 s3
      exact ⟨o1, o2, o3, o6 (holder_of_ne_right ctx x (nP x s4 s7)),
        fun hne => o5 (holder_of_ne_left ctx x (nP x s4 s7)) hne,
        fun hne => o4 (nlp x s3 s5) (nrrp x s3 s6) hne⟩
  constructor
  · exact (Rep_plug _ _ _ _).2 ⟨RepC2, RepA⟩
  · have hnd := h.2
    rw [List.Perm.nodup_iff (addrs_plug _ _)] at hnd ⊢
    simp only [rbt.addrs, List.nil_append, ctx_addrs_append, ctx_addrs, frame.addrs] at hnd ⊢
    exact (List.Perm.nodup_iff (swap_perm a rc _ _ _ _)).2 hnd

end rb_tree

namespace rb_tree

variable {α β : Type} {N : Nat}

/-- The relinking of `remove_node` when the most left node of the right
subtree is the right child itself. -/
theorem replace_direct_eq (t : tree α β N) (ctx : List (frame α β)) (a c : Nat) (k : α)
    (v : β) (l : rbt α β) (rc rcc : Nat) (rk : α) (rv : β) (rr : rbt α β)
    (h : layout t (plug (.right a c k v l :: ctx) (.node rc rcc rk rv .nil rr)))
    (hln : l ≠ .nil) :
    remove_node.replace t a rc =
      set_right (set_color (set_left (set_parent (set_right (set_parent (set_parent
        (set_color (set_left (set_parent (store t (holder_of ctx) rc) rc (parent_of ctx))
          rc l.ptr) rc c) l.ptr rc) a rc) a rr.ptr) rr.ptr a) a leaf) a rcc) rc a := by
  have S := spine_facts_of_layout t ctx [] a c k v l rc rcc rk rv rr h
  have Fa := layout_focus t ctx a c k v l _ h
  have G := layout_focus t _ rc rcc rk rv _ _ h
  have e1 := Fa.holder
  have e2 := Fa.right
  have e3 := Fa.parent
  have e4 := Fa.left
  have e5 := Fa.color
  have e6 := G.color
  have e7 := G.right
  simp only [ptr_node] at e2
  have n1 : holder_of ctx ≠ .left a := holder_of_ne_left ctx a Fa.ne_par
  have n2 : holder_of ctx ≠ .right a := holder_of_ne_right ctx a Fa.ne_par
  have n3 : holder_of ctx ≠ .left rc := holder_of_ne_left ctx rc Fa.right_ne_par
  have n4 : holder_of ctx ≠ .right rc := holder_of_ne_right ctx rc Fa.right_ne_par
  have n5 : a ≠ rc := S.a_ne_rc
  have n6 : rc ≠ a := fun e => n5 e.symm
  unfold remove_node.replace
  simp only [e1, e2, e6, if_true, store_parent, e3, set_parent_left, store_left, n1, if_false, e4,
    set_left_color, set_parent_color, store_color, e5, set_color_left, set_left_left,
    set_parent_right, set_color_right, set_left_right, store_right, n4, e7, set_right_right, n5,
    n6]

theorem replace_direct_relinked (t : tree α β N) (ctx : List (frame α β)) (a c : Nat) (k : α)
    (v : β) (l : rbt α β) (rc rcc : Nat) (rk : α) (rv : β) (rr : rbt α β)
    (h : layout t (plug (.right a c k v l :: ctx) (.node rc rcc rk rv .nil rr)))
    (hln : l ≠ .nil) :
    relinked t (remove_node.replace t a rc) ctx [] a c k v l rc rcc rk rv rr := by
  have S := spine_facts_of_layout t ctx [] a c k v l rc rcc rk rv rr h
  have Fa := layout_focus t ctx a c k v l _ h
  have G := layout_focus t _ rc rcc rk rv _ _ h
  have n1 : holder_of ctx ≠ .left a := holder_of_ne_left ctx a Fa.ne_par
  have n2 : holder_of ctx ≠ .right a := holder_of_ne_right ctx a Fa.ne_par
  have n3 : holder_of ctx ≠ .left rc := holder_of_ne_left ctx rc Fa.right_ne_par
  have n4 : holder_of ctx ≠ .right rc := holder_of_ne_right ctx rc Fa.right_ne_par
  have n5 : a ≠ rc := S.a_ne_rc
  have n6 : rc ≠ a := fun e => n5 e.symm
  have hlp : l.ptr ∈ l.addrs := by
    rcases ptr_mem_or l with e | e
    · exact absurd ((ptr_eq_leaf_iff _ _ _ _ Fa.rep_left).1 e) hln
    · exact e
  obtain ⟨s1, s2, s3, s4, s5, s6, s7⟩ := S.l_ne _ hlp
  have m1 : a ≠ l.ptr := fun e => s1 e.symm
  have m2 : rc ≠ l.ptr := fun e => s2 e.symm
  have m3 : a ≠ rr.ptr := G.par_ne_leaf |> fun _ => by
    intro e
    rcases ptr_mem_or rr with e' | e'
    · exact S.a_ne_leaf (e.trans e')
    · exact (S.rr_ne _ e').1 e.symm
  have m4 : rc ≠ rr.ptr := G.ne_right
  have m5 : l.ptr ≠ rr.ptr := by
    intro e
    rcases ptr_mem_or rr with e' | e'
    · exact s3 (e.trans e')
    · exact s5 (e ▸ e')
  have m6 : rr.ptr ≠ l.ptr := fun e => m5 e.symm
  have m7 : rr.ptr ≠ a := fun e => m3 e.symm
  have m8 : rr.ptr ≠ rc := fun e => m4 e.symm
  rw [replace_direct_eq t ctx a c k v l rc rcc rk rv rr h hln]
  constructor
  · intro hne; simp [hne]
  · simp [n1, n2, n3, n4]
  · intro x x1 x2 x3
    refine ⟨by simp, by simp, by simp [x1, x2], ?_, ?_, ?_⟩
    · intro x4 x5 _
      simp [x1, x2, x4, x5]
    · intro x4 _
      simp [x1, x2, x4]
    · intro x4
      simp [x1, x2, x4]
  · simp [Fa.key, n6]
  · simp [Fa.value]
  · simp [n5, n6]
  · simp [n5, n6]
  · simp [n5, n6]
  · simp [parent_of, frame.addr, n5, n6, m3]
  · simp [G.key]
  · simp [G.value]
  · simp [n5, n6]
  · simp [n5, n6]
  · simp [plug, n5, n6]
  · simp [n5, n6, m2, m4, Fa.parent]
  · intro _; simp [s1, s2, m5, m6]
  · intro hne; exact absurd rfl hne
  · intro _; simp [m7, m8]
  · intro hne; exact absurd rfl hne

@[simp] theorem load_store_left (t : tree α β N) (p v : Nat) (h : holder) :
    load (store t (.left p) v) h = if h = .left p then v else load t h := by
  cases h with
  | root => simp [load, store]
  | left q =>
    simp only [load, store, set_left_left, holder.left.injEq]
  | right q => simp [load, store]

theorem holder_of_all_left (c1 : List (frame α β)) (h : c1 ≠ []) (hl : all_left c1) :
    holder_of c1 = .left (parent_of c1) := by
  cases c1 with
  | nil => exact absurd rfl h
  | cons f fs =>
    obtain ⟨⟨fa, fc, fk, fv, fr, rfl⟩, _⟩ := all_left_cons f fs hl
    rfl

/-- The relinking of `remove_node` when the most left node of the right
subtree lies below the right child. -/
theorem replace_deep_eq (t : tree α β N) (ctx c1 : List (frame α β)) (a c : Nat) (k : α)
    (v : β) (l : rbt α β) (rc rcc : Nat) (rk : α) (rv : β) (rr : rbt α β)
    (h : layout t (plug (c1 ++ .right a c k v l :: ctx) (.node rc rcc rk rv .nil rr)))
    (hc1 : c1 ≠ []) (hl : all_left c1) :
    remove_node.replace t a rc =
      set_color (set_parent (set_right (set_left (set_parent (store (set_parent (set_parent
        (set_color (set_right (set_left (set_parent (store t (holder_of ctx) rc) rc
          (parent_of ctx)) rc l.ptr) rc (plug c1 (.node rc rcc rk rv .nil rr)).ptr) rc c)
        (plug c1 (.node rc rcc rk rv .nil rr)).ptr rc) l.ptr rc) (.left (parent_of c1)) a)
        a (parent_of c1)) a leaf) a rr.ptr) rr.ptr a) a rcc := by
  have S := spine_facts_of_layout t ctx c1 a c k v l rc rcc rk rv rr h
  have h' : layout t (plug ctx (.node a c k v l (plug c1 (.node rc rcc rk rv .nil rr)))) := by
    rw [plug_spine] at h; exact h
  have Fa := layout_focus t ctx a c k v l _ h'
  have G := layout_focus t _ rc rcc rk rv _ _ h
  have r1 := (layout_split t _ _ h).1
  have HF : ∀ hp0, RepC t.mem t.root (.right a c k v l :: ctx) hp0 →
      hp0 = (plug c1 (.node rc rcc rk rv .nil rr)).ptr :=
    fun hp0 hh => hh.2.2.2.2.2.2.1.symm.trans Fa.right
  have htp := RepC_top_mem t.mem t.root ctx _ _ HF c1 rc hc1 hl r1
  have e1 := Fa.holder
  have e2 := Fa.right
  have e3 := Fa.parent
  have e4 := Fa.left
  have e5 := Fa.color
  have e6 := G.color
  have e7 := G.right
  have e8 := G.holder
  have e9 := G.parent
  rw [holder_of_append _ _ hc1, holder_of_all_left c1 hc1 hl] at e8
  rw [parent_of_append _ _ hc1] at e9
  have n1 : holder_of ctx ≠ .left a := holder_of_ne_left ctx a Fa.ne_par
  have n2 : holder_of ctx ≠ .right a := holder_of_ne_right ctx a Fa.ne_par
  have n4 : holder_of ctx ≠ .right rc := by
    refine holder_of_ne_right ctx rc ?_
    intro e
    rcases parent_of_nil_or ctx with e' | e'
    · exact S.rc_ne_null (e.trans e')
    · exact (S.ctx_ne _ e').2.1 e.symm
  have n5 : a ≠ rc := S.a_ne_rc
  have n6 : rc ≠ a := fun e => n5 e.symm
  have n7 : ¬ ((plug c1 (.node rc rcc rk rv .nil rr)).ptr = rc) := (S.c1_ne _ htp).2.1
  unfold remove_node.replace
  simp only [e1, e2, e6, n7, if_false, store_parent, e3, set_parent_left, store_left, n1, e4,
    set_left_color, set_parent_color, store_color, e5, set_color_left, set_left_left,
    set_parent_right, set_color_right, set_left_right, store_right, n2, n4, e7, set_right_right,
    n5, n6, if_true, set_right_color, set_right_left, set_color_parent, set_right_parent,
    set_left_parent, set_parent_parent, e8, e9, set_color_color]

theorem replace_deep_relinked (t : tree α β N) (ctx c1 : List (frame α β)) (a c : Nat) (k : α)
    (v : β) (l : rbt α β) (rc rcc : Nat) (rk : α) (rv : β) (rr : rbt α β)
    (h : layout t (plug (c1 ++ .right a c k v l :: ctx) (.node rc rcc rk rv .nil rr)))
    (hc1 : c1 ≠ []) (hl : all_left c1) (hln : l ≠ .nil) :
    relinked t (remove_node.replace t a rc) ctx c1 a c k v l rc rcc rk rv rr := by
  have S := spine_facts_of_layout t ctx c1 a c k v l rc rcc rk rv rr h
  have h' : layout t (plug ctx (.node a c k v l (plug c1 (.node rc rcc rk rv .nil rr)))) := by
    rw [plug_spine] at h; exact h
  have Fa := layout_focus t ctx a c k v l _ h'
  have G := layout_focus t _ rc rcc rk rv _ _ h
  have r1 := (layout_split t _ _ h).1
  have HF : ∀ hp0, RepC t.mem t.root (.right a c k v l :: ctx) hp0 →
      hp0 = (plug c1 (.node rc rcc rk rv .nil rr)).ptr :=
    fun hp0 hh => hh.2.2.2.2.2.2.1.symm.trans Fa.right
  have htp := RepC_top_mem t.mem t.root ctx _ _ HF c1 rc hc1 hl r1
  have hrp := parent_of_mem c1 hc1
  rw [replace_deep_eq t ctx c1 a c k v l rc rcc rk rv rr h hc1 hl]
  have hlp : l.ptr ∈ l.addrs := by
    rcases ptr_mem_or l with e | e
    · exact absurd ((ptr_eq_leaf_iff _ _ _ _ Fa.rep_left).1 e) hln
    · exact e
  obtain ⟨s1, s2, s3, s4, s5, s6, s7⟩ := S.l_ne _ hlp
  obtain ⟨t1, t2, t3, t4, t5, t6, t7⟩ := S.c1_ne _ htp
  obtain ⟨p1, p2, p3, p4, p5, p6, p7⟩ := S.c1_ne _ hrp
  have nP : ∀ x, x ≠ NULL → x ∉ ctx_addrs ctx → x ≠ parent_of ctx := by
    intro x h1 h2 e
    rcases parent_of_nil_or ctx with e' | e'
    · exact h1 (e.trans e')
    · exact h2 (e ▸ e')
  have n1 : holder_of ctx ≠ .left a := holder_of_ne_left ctx a Fa.ne_par
  have n2 : holder_of ctx ≠ .right a := holder_of_ne_right ctx a Fa.ne_par
  have n3 : holder_of ctx ≠ .left rc :=
    holder_of_ne_left ctx rc (nP _ S.rc_ne_null (fun e => (S.ctx_ne _ e).2.1 rfl))
  have n4 : holder_of ctx ≠ .right rc :=
    holder_of_ne_right ctx rc (nP _ S.rc_ne_null (fun e => (S.ctx_ne _ e).2.1 rfl))
  have n7 : holder_of ctx ≠ .left (parent_of c1) := holder_of_ne_left ctx (parent_of c1) (nP _ p4 p7)
  have n8 : holder_of ctx ≠ .right (parent_of c1) := holder_of_ne_right ctx (parent_of c1) (nP _ p4 p7)
  have n5 : a ≠ rc := S.a_ne_rc
  have n6 : rc ≠ a := fun e => n5 e.symm
  have m1 : a ≠ l.ptr := fun e => s1 e.symm
  have m2 : rc ≠ l.ptr := fun e => s2 e.symm
  have m3 : a ≠ rr.ptr := by
    intro e
    rcases ptr_mem_or rr with e' | e'
    · exact S.a_ne_leaf (e.trans e')
    · exact (S.rr_ne _ e').1 e.symm
  have m4 : rc ≠ rr.ptr := G.ne_right
  have m5 : l.ptr ≠ rr.ptr := by
    intro e
    rcases ptr_mem_or rr with e' | e'
    · exact s3 (e.trans e')
    · exact s5 (e ▸ e')
  have m6 : rr.ptr ≠ l.ptr := fun e => m5 e.symm
  have m7 : rr.ptr ≠ a := fun e => m3 e.symm
  have m8 : rr.ptr ≠ rc := fun e => m4 e.symm
  have u1 : (plug c1 (.node rc rcc rk rv .nil rr)).ptr ≠ l.ptr := fun e => t5 (e ▸ hlp)
  have u2 : l.ptr ≠ (plug c1 (.node rc rcc rk rv .nil rr)).ptr := fun e => u1 e.symm
  have u3 : (plug c1 (.node rc rcc rk rv .nil rr)).ptr ≠ rr.ptr := by
    intro e
    rcases ptr_mem_or rr with e' | e'
    · exact t3 (e.trans e')
    · exact t6 (e ▸ e')
  have u4 : rr.ptr ≠ (plug c1 (.node rc rcc rk rv .nil rr)).ptr := fun e => u3 e.symm
  have u5 : a ≠ (plug c1 (.node rc rcc rk rv .nil rr)).ptr := fun e => t1 e.symm
  have u6 : rc ≠ (plug c1 (.node rc rcc rk rv .nil rr)).ptr := fun e => t2 e.symm
  have w1 : a ≠ parent_of c1 := fun e => p1 e.symm
  have w2 : rc ≠ parent_of c1 := fun e => p2 e.symm
  have w3 : parent_of c1 ≠ l.ptr := fun e => p5 (e ▸ hlp)
  have w4 : parent_of c1 ≠ rr.ptr := by
    intro e
    rcases ptr_mem_or rr with e' | e'
    · exact p3 (e.trans e')
    · exact p6 (e ▸ e')
  constructor
  · intro hne; simp [hne]
  · simp [n1, n2, n3, n4, n7, n8]
  · intro x x1 x2 x3
    refine ⟨by simp, by simp, by simp [x1, x2], ?_, ?_, ?_⟩
    · intro x4 x5 x6
      simp [x1, x2, x4, x5, x6]
    · intro x4 x5
      simp [x1, x2, x4, x5, Ne.symm x5]
    · intro x4
      simp [x1, x2, x4]
  · simp [Fa.key, n6]
  · simp [Fa.value]
  · simp [n5, n6]
  · simp [n5, n6, w1]
  · simp [n5, n6]
  · simp [parent_of_append _ _ hc1, n5, n6, m3]
  · simp [G.key]
  · simp [G.value]
  · simp [n5, n6]
  · simp [n5, n6, w2, p2]
  · simp [plug_ptr c1 hc1 (.node a rcc k v .nil rr) (.node rc rcc rk rv .nil rr), n5, n6]
  · simp [n5, n6, m2, m4, u6, Fa.parent]
  · intro _; simp [s1, s2, m5, m6, u2]
  · intro _; simp [t1, t2, u1, u3]
  · intro _; simp [m7, m8]
  · intro _; simp [p1, p2]

/-- Source-level effect of the relinking of `remove_node`: the node to remove
and the most left node of its right subtree exchange their places and
colours. -/
theorem replace_spec (t : tree α β N) (ctx c1 : List (frame α β)) (a c : Nat) (k : α)
    (v : β) (l : rbt α β) (rc rcc : Nat) (rk : α) (rv : β) (rr : rbt α β)
    (h : layout t (plug (c1 ++ .right a c k v l :: ctx) (.node rc rcc rk rv .nil rr)))
    (hl : all_left c1) (hln : l ≠ .nil) :
    layout (remove_node.replace t a rc)
      (plug (c1 ++ .right rc c rk rv l :: ctx) (.node a rcc k v .nil rr)) ∧
    aux_same t (remove_node.replace t a rc) := by
  have S := spine_facts_of_layout t ctx c1 a c k v l rc rcc rk rv rr h
  have h' : layout t (plug ctx (.node a c k v l (plug c1 (.node rc rcc rk rv .nil rr)))) := by
    rw [plug_spine] at h; exact h
  have Fa := layout_focus t ctx a c k v l _ h'
  obtain ⟨g1, g2⟩ := holder_of_ne_leaf ctx Fa.par_ne_leaf
  have q1 : leaf ≠ a := fun e => S.a_ne_leaf e.symm
  have q2 : leaf ≠ rc := fun e => S.rc_ne_leaf e.symm
  by_cases hc1 : c1 = []
  · subst hc1
    refine ⟨relink_layout t _ ctx [] a c k v l rc rcc rk rv rr h hl
      (replace_direct_relinked t ctx a c k v l rc rcc rk rv rr h hln), ?_⟩
    rw [replace_direct_eq t ctx a c k v l rc rcc rk rv rr h hln]
    refine ⟨by simp, by simp, ?_, ?_, ?_, ?_⟩ <;> simp [q1, q2, g1, g2]
  · refine ⟨relink_layout t _ ctx c1 a c k v l rc rcc rk rv rr h hl
      (replace_deep_relinked t ctx c1 a c k v l rc rcc rk rv rr h hc1 hl hln), ?_⟩
    have hrp := parent_of_mem c1 hc1
    have q3 : leaf ≠ parent_of c1 := fun e => (S.c1_ne _ hrp).2.2.1 e.symm
    rw [replace_deep_eq t ctx c1 a c k v l rc rcc rk rv rr h hc1 hl]
    refine ⟨by simp, by simp, ?_, ?_, ?_, ?_⟩ <;> simp [q1, q2, q3, Ne.symm q3, g1, g2]

end rb_tree

namespace rb_tree

variable {α β : Type} [LinearOrder α] {N : Nat}

theorem find_node_descend (t : tree α β N) (T : rbt α β) (key : α) (fuel : Nat)
    (h : layout t T) (hf : T.addrs.length < fuel) :
    find_node fuel t key = some (set_key t leaf key,
      if (descend key [] T).2.ptr = leaf then NULL else (descend key [] T).2.ptr) := by
  have h1 := set_key_leaf_layout t T key h
  have hk : ((set_key t leaf key).mem leaf).key = key := by simp
  have hroot : (set_key t leaf key).root = T.ptr := Rep_ptr _ _ _ _ h1.1
  have hd := find_loop_descend key (set_key t leaf key) hk T [] fuel h1 hf
  rw [find_node]
  simp only [hroot, hd]

theorem ctx_length_le (ctx : List (frame α β)) : ctx.length ≤ (ctx_addrs ctx).length := by
  induction ctx with
  | nil => simp [ctx_addrs]
  | cons f fs ih =>
    cases f <;> simp [ctx_addrs, frame.addrs] <;> omega

theorem ctx_length_lt (ctx : List (frame α β)) (a c : Nat) (k : α) (v : β) (l r : rbt α β) :
    ctx.length < (plug ctx (.node a c k v l r)).addrs.length := by
  rw [(addrs_plug ctx _).length_eq]
  have := ctx_length_le ctx
  simp only [rbt.addrs, List.length_append, List.length_cons]
  omega

theorem sorted_remove (A B : List α) (key : α) (h : (A ++ key :: B).Pairwise (· < ·)) :
    (A ++ B).Pairwise (· < ·) ∧ key ∉ A ++ B := by
  rw [List.pairwise_append] at h ⊢
  obtain ⟨h1, h2, h3⟩ := h
  rw [List.pairwise_cons] at h2
  refine ⟨⟨h1, h2.2, fun x hx y hy => h3 x hx y (List.mem_cons_of_mem _ hy)⟩, ?_⟩
  intro hm
  rcases List.mem_append.1 hm with hm | hm
  · exact lt_irrefl _ (h3 key hm key (List.mem_cons_self _ _))
  · exact lt_irrefl _ (h2.1 key hm)

theorem nodup_remove (X Y : List Nat) (p : Nat) (h : (X ++ p :: Y).Nodup) :
    p ∉ X ++ Y := by
  rw [List.nodup_append] at h
  obtain ⟨_, h2, h3⟩ := h
  rw [List.nodup_cons] at h2
  intro hm
  rcases List.mem_append.1 hm with hm | hm
  · exact h3 hm (List.mem_cons_self _ _)
  · exact h2.1 hm

/-- The end of `remove_node`: the node `p`, which has at most one child, is
taken out of the tree by `internal_fixup_tree` and its slot is freed. -/
theorem remove_finish (t0 t1 : tree α β N) (T : rbt α β) (key : α)
    (ctxf : List (frame α β)) (p cf : Nat) (kf : α) (vf : β) (lf rf child : rbt α β)
    (n fuel : Nat) (h0 : is_rb_tree t0 T)
    (hl1 : layout t1 (plug ctxf (.node p cf kf vf lf rf)))
    (hch : (lf = .nil ∧ child = rf) ∨ (rf = .nil ∧ child = lf))
    (ha : aux_same t0 t1)
    (hv : valid (.node p cf kf vf lf rf) n) (hctx : ctx_ok ctxf cf n)
    (hfuel : ctxf.length < fuel)
    (hk : ∃ A B, T.keys = A ++ key :: B ∧ (plug ctxf child).keys = A ++ B)
    (hx : ∃ X Y, T.addrs = X ++ p :: Y ∧ (plug ctxf child).addrs = X ++ Y) :
    ∃ t3 T2, (match internal_fixup_tree fuel t1 p with
        | none => none
        | some t2 =>
          match fixed_alloc.free_elem t2.allocator p with
          | none => none
          | some al => some ({ t2 with allocator := al, count := t2.count - 1 }, true)) =
        some (t3, true) ∧
      is_rb_tree t3 T2 ∧ T2.entries = (plug ctxf child).entries ∧
      t3.count + 1 = t0.count ∧
      (∀ q, fixed_alloc.is_live t3.allocator q ↔ q ≠ p ∧ fixed_alloc.is_live t0.allocator q) ∧
      (t3.mem leaf).key = (t0.mem leaf).key := by
  obtain ⟨hlay, hinv, hleaf, hal, hlive, hcount⟩ := h0
  have hleaf1 := aux_same_leaf_ok _ _ ha hleaf
  obtain ⟨t2, T2, e1, L2, ⟨n', v2⟩, c2, ent, A2⟩ :=
    fixup_tree_spec t1 ctxf p cf kf vf lf rf child n fuel hl1 hch hv hctx hleaf1 hfuel
  obtain ⟨A, B, hk1, hk2⟩ := hk
  obtain ⟨X, Y, hx1, hx2⟩ := hx
  have A02 := aux_same_trans _ _ _ ha A2
  have hpT : p ∈ T.addrs := by rw [hx1]; simp
  obtain ⟨al, f1, f2, f3⟩ := fixed_alloc.free_elem_spec t0.allocator p hal (hlive p hpT)
  have hkeys : T2.keys = A ++ B := by
    rw [keys_eq_map, ent, ← keys_eq_map, hk2]
  have haddrs : T2.addrs = X ++ Y := by
    rw [addrs_eq_map, ent, ← addrs_eq_map, hx2]
  have hsortT : (A ++ key :: B).Pairwise (· < ·) := by
    rw [← hk1, ← bst_iff_sorted]; exact hinv.1
  have hbst : bst T2 := by
    rw [bst_iff_sorted, hkeys]
    exact (sorted_remove A B key hsortT).1
  have hndT : (X ++ p :: Y).Nodup := by rw [← hx1]; exact hlay.2
  have hpn := nodup_remove X Y p hndT
  rw [e1]
  simp only [A02.1, f1]
  refine ⟨_, T2, rfl, ⟨L2, invariants_of_valid T2 n' v2 c2 hbst,
    aux_same_leaf_ok t0 t2 A02 hleaf, f2, ?_, ?_⟩, ent, ?_, f3, A02.2.2.1⟩
  · intro q hq
    rw [haddrs] at hq
    refine (f3 q).2 ⟨fun e => hpn (e ▸ hq), hlive q ?_⟩
    rw [hx1]
    rcases List.mem_append.1 hq with hq | hq
    · exact List.mem_append_left _ hq
    · exact List.mem_append_right _ (List.mem_cons_of_mem _ hq)
  · show t2.count - 1 = T2.addrs.length
    rw [A02.2.1, hcount, hx1, haddrs]
    simp only [List.length_append, List.length_cons]
    omega
  · show t2.count - 1 + 1 = t0.count
    rw [A02.2.1, hcount, hx1]
    simp only [List.length_append, List.length_cons]
    omega

end rb_tree

namespace rb_tree

variable {α β : Type} [LinearOrder α] {N : Nat}

theorem entries_spine (ctx c1 : List (frame α β)) (a c : Nat) (k : α) (v : β) (l s : rbt α β)
    (hl : all_left c1) :
    (plug (c1 ++ .right a c k v l :: ctx) s).entries =
      (entries_before ctx ++ l.entries) ++
        (a, k, v) :: (s.entries ++ (entries_after c1 ++ entries_after ctx)) := by
  rw [entries_plug, entries_before_append, entries_after_append, entries_before_left c1 hl]
  simp [entries_before, entries_after]

theorem dec_of_entries (T T' : rbt α β) (EA EB : List (Nat × α × β)) (p : Nat) (k : α) (v : β)
    (h1 : T.entries = EA ++ (p, k, v) :: EB) (h2 : T'.entries = EA ++ EB) :
    (∃ A B, T.keys = A ++ k :: B ∧ T'.keys = A ++ B) ∧
    (∃ X Y, T.addrs = X ++ p :: Y ∧ T'.addrs = X ++ Y) := by
  refine ⟨⟨EA.map (fun e => e.2.1), EB.map (fun e => e.2.1), ?_, ?_⟩,
    ⟨EA.map (fun e => e.1), EB.map (fun e => e.1), ?_, ?_⟩⟩
  · rw [keys_eq_map, h1]; simp
  · rw [keys_eq_map, h2]; simp
  · rw [addrs_eq_map, h1]; simp
  · rw [addrs_eq_map, h2]; simp

theorem dec_of_entries_swap (T T' : rbt α β) (EA EB : List (Nat × α × β)) (a rc : Nat)
    (k rk : α) (v rv : β)
    (h1 : T.entries = EA ++ (a, k, v) :: (rc, rk, rv) :: EB)
    (h2 : T'.entries = EA ++ (a, rk, v) :: EB) :
    (∃ A B, T.keys = A ++ k :: B ∧ T'.keys = A ++ B) ∧
    (∃ X Y, T.addrs = X ++ rc :: Y ∧ T'.addrs = X ++ Y) := by
  refine ⟨⟨EA.map (fun e => e.2.1), rk :: EB.map (fun e => e.2.1), ?_, ?_⟩,
    ⟨EA.map (fun e => e.1) ++ [a], EB.map (fun e => e.1), ?_, ?_⟩⟩
  · rw [keys_eq_map, h1]; simp
  · rw [keys_eq_map, h2]; simp
  · rw [addrs_eq_map, h1]; simp
  · rw [addrs_eq_map, h2]; simp

theorem remove_node_spec (ud : Bool) (t : tree α β N) (T : rbt α β) (key : α) (fuel : Nat)
    (h : is_rb_tree t T) (hf : t.count < fuel) :
    ∃ t1 T1 found, remove_node ud fuel t key = some (t1, found) ∧ is_rb_tree t1 T1 ∧
      (found = true ↔ key ∈ T.keys) ∧
      (key ∉ T.keys → t1 = set_key t leaf key ∧ T1 = T) ∧
      (key ∈ T.keys →
        (∃ A B, T.keys = A ++ key :: B ∧ T1.keys = A ++ B) ∧
        (∃ X Y p, T.addrs = X ++ p :: Y ∧ T1.addrs = X ++ Y ∧
          ∀ q, fixed_alloc.is_live t1.allocator q ↔
            q ≠ p ∧ fixed_alloc.is_live t.allocator q) ∧
        t1.count + 1 = t.count ∧
        (ud = true → ∃ EA EB e, T.entries = EA ++ e :: EB ∧ T1.entries = EA ++ EB)) := by
  have h0 := set_key_leaf_ok t T key h
  obtain ⟨hlay, hinv, hleaf, hal, hlive, hcount⟩ := h
  have hfind := find_node_descend t T key fuel hlay (by omega)
  have hplug := descend_plug key T ([] : List (frame α β))
  rcases hdes : descend key [] T with ⟨ctx, s⟩
  rw [hdes] at hplug hfind
  simp only [plug] at hplug hfind
  cases s with
  | nil =>
    obtain ⟨_, hnk⟩ := descend_nil key T _ _ hinv.1 (path_ok_nil key) hdes
    refine ⟨set_key t leaf key, T, false, ?_, h0, by simp [hnk], fun _ => ⟨rfl, rfl⟩,
      fun hk => absurd hk hnk⟩
    rw [remove_node, hfind]
    simp
  | node a c k v l r =>
    obtain ⟨rfl, hmem⟩ := descend_node key T _ _ _ _ _ _ _ _ hdes
    have hk : k ∈ T.keys := by
      rw [keys_eq_map]
      exact List.mem_map.2 ⟨_, hmem, rfl⟩
    have hlay0 : layout (set_key t leaf k) (plug ctx (.node a c k v l r)) := by
      rw [hplug]; exact h0.1
    have F := layout_focus _ ctx a c k v l r hlay0
    rw [remove_node, hfind]
    simp only [ptr_node, F.ne_leaf, if_false, F.ne_null, ne_eq, not_false_eq_true, if_true]
    obtain ⟨n0, hv0⟩ := valid_of_invariants T hinv
    have hl0 : l.ptr = leaf ↔ l = .nil := ptr_eq_leaf_iff _ _ _ _ F.rep_left
    have hr0 : r.ptr = leaf ↔ r = .nil := ptr_eq_leaf_iff _ _ _ _ F.rep_right
    have hTent : T.entries = (entries_before ctx ++ l.entries) ++
        (a, k, v) :: (r.entries ++ entries_after ctx) := by
      rw [← hplug, entries_plug]
      simp [rbt.entries]
    have hal0 : (set_key t leaf k).allocator = t.allocator := rfl
    have hcnt0 : (set_key t leaf k).count = t.count := rfl
    by_cases hA : l = .nil ∨ r = .nil
    · -- the node has at most one child
      have hcond : ¬ (¬ ((set_key t leaf k).mem a).left = leaf ∧
          ¬ ((set_key t leaf k).mem a).right = leaf) := by
        rw [F.left, F.right, hl0, hr0]
        tauto
      rw [if_neg hcond]
      simp only []
      obtain ⟨n, hvn, hctx⟩ := valid_split ctx (.node a c k v l r) n0 (by rw [hplug]; exact hv0)
        (by rw [hplug]; exact hinv.2.1)
      have hfuel : ctx.length < fuel := by
        have := ctx_length_lt ctx a c k v l r
        rw [hplug] at this
        omega
      have hchild : ∃ child, ((l = .nil ∧ child = r) ∨ (r = .nil ∧ child = l)) ∧
          (plug ctx child).entries = (entries_before ctx ++ l.entries) ++
            (r.entries ++ entries_after ctx) := by
        rcases hA with rfl | rfl
        · exact ⟨r, Or.inl ⟨rfl, rfl⟩, by rw [entries_plug]; simp [rbt.entries]⟩
        · exact ⟨l, Or.inr ⟨rfl, rfl⟩, by rw [entries_plug]; simp [rbt.entries]⟩
      obtain ⟨child, hch, hcent⟩ := hchild
      obtain ⟨dk, dx⟩ := dec_of_entries T (plug ctx child) _ _ a k v hTent hcent
      obtain ⟨t3, T2, e, g1, g2, g3, g4, g5⟩ := remove_finish (set_key t leaf k)
        (set_key t leaf k) T k ctx a c k v l r child n fuel h0 hlay0 hch (aux_same_refl _)
        hvn hctx hfuel dk dx
      obtain ⟨dk2, dx2⟩ := dec_of_entries T T2 _ _ a k v hTent (g2.trans hcent)
      obtain ⟨X, Y, dx3, dx4⟩ := dx2
      refine ⟨t3, T2, true, e, g1, by simp [hk], fun hn => absurd hk hn, fun _ =>
        ⟨dk2, ⟨X, Y, a, dx3, dx4, g4⟩, g3, fun _ => ⟨_, _, _, hTent, g2.trans hcent⟩⟩⟩
    · -- the node has two children
      have hln : l ≠ .nil := fun e => hA (Or.inl e)
      have hrn : r ≠ .nil := fun e => hA (Or.inr e)
      have hcond : ¬ ((set_key t leaf k).mem a).left = leaf ∧
          ¬ ((set_key t leaf k).mem a).right = leaf := by
        rw [F.left, F.right, hl0, hr0]
        exact ⟨hln, hrn⟩
      rw [if_pos hcond]
      have hminn : ∃ rc rcc rk rv rr, (min_path r).2 = .node rc rcc rk rv .nil rr := by
        cases r with
        | nil => exact absurd rfl hrn
        | node ra rc0 rk0 rv0 rl0 rr0 => exact min_path_node ra rc0 rk0 rv0 rl0 rr0
      obtain ⟨rc, rcc, rk, rv, rr, hmin⟩ := hminn
      have hpr := min_path_plug r
      have hl := min_path_left r
      rw [hmin] at hpr
      generalize (min_path r).1 = c1 at hpr hl
      have hrlen : r.addrs.length < fuel := by
        have : r.addrs.length ≤ T.addrs.length := by
          rw [← hplug, (addrs_plug ctx _).length_eq]
          simp only [rbt.addrs, List.length_append, List.length_cons]
          omega
        omega
      have hml := most_left_spec (set_key t leaf k) r (.right a c k v l :: ctx) fuel hrn hlay0
        hrlen
      rw [hmin] at hml
      simp only [ptr_node] at hml
      rw [F.right, hml]
      simp only []
      have hTB : plug (c1 ++ .right a c k v l :: ctx) (.node rc rcc rk rv .nil rr) = T := by
        rw [plug_spine, hpr]; exact hplug
      have hlayB : layout (set_key t leaf k)
          (plug (c1 ++ .right a c k v l :: ctx) (.node rc rcc rk rv .nil rr)) := by
        rw [hTB]; exact h0.1
      obtain ⟨n, hvn, hctx⟩ := valid_split (c1 ++ .right a c k v l :: ctx)
        (.node rc rcc rk rv .nil rr) n0 (by rw [hTB]; exact hv0) (by rw [hTB]; exact hinv.2.1)
      have hTentB : T.entries = (entries_before ctx ++ l.entries) ++
          (a, k, v) :: (rc, rk, rv) :: (rr.entries ++ (entries_after c1 ++ entries_after ctx)) := by
        rw [← hTB, entries_spine _ _ _ _ _ _ _ _ hl]
        simp [rbt.entries]
      have hlenB : (c1 ++ frame.right a c k v l :: ctx).length < fuel := by
        have := ctx_length_lt (c1 ++ .right a c k v l :: ctx) rc rcc rk rv .nil rr
        rw [hTB] at this
        omega
      cases ud with
      | true =>
        simp only [if_true]
        obtain ⟨L1, A1⟩ := replace_spec (set_key t leaf k) ctx c1 a c k v l rc rcc rk rv rr hlayB
          hl hln
        have hcent : (plug (c1 ++ .right rc c rk rv l :: ctx) rr).entries =
            (entries_before ctx ++ l.entries) ++
              ((rc, rk, rv) :: (rr.entries ++ (entries_after c1 ++ entries_after ctx))) := by
          rw [entries_spine _ _ _ _ _ _ _ _ hl]
        have hlenB' : (c1 ++ frame.right rc c rk rv l :: ctx).length < fuel := by
          simp only [List.length_append, List.length_cons] at hlenB ⊢
          exact hlenB
        obtain ⟨dk, dx⟩ := dec_of_entries T (plug (c1 ++ .right rc c rk rv l :: ctx) rr) _ _
          a k v hTentB hcent
        obtain ⟨t3, T2, e, g1, g2, g3, g4, g5⟩ := remove_finish (set_key t leaf k)
          (remove_node.replace (set_key t leaf k) a rc) T k (c1 ++ .right rc c rk rv l :: ctx)
          a rcc k v .nil rr rr n fuel h0 L1 (Or.inl ⟨rfl, rfl⟩) A1 hvn
          (ctx_ok_swap c1 ctx (.right a c k v l) (.right rc c rk rv l) rfl rfl rcc n hctx) hlenB' dk dx
        obtain ⟨dk2, dx2⟩ := dec_of_entries T T2 _ _ a k v hTentB (g2.trans hcent)
        obtain ⟨X, Y, dx3, dx4⟩ := dx2
        refine ⟨t3, T2, true, e, g1, by simp [hk], fun hn => absurd hk hn, fun _ =>
          ⟨dk2, ⟨X, Y, a, dx3, dx4, g4⟩, g3, fun _ => ⟨_, _, _, hTentB, g2.trans hcent⟩⟩⟩
      | false =>
        simp only [Bool.false_eq_true, if_false]
        obtain ⟨L1, A1⟩ := swap_keys_spec (set_key t leaf k) ctx c1 a c k v l rc rcc rk rv rr
          hlayB
        have hcent : (plug (c1 ++ .right a c rk v l :: ctx) rr).entries =
            (entries_before ctx ++ l.entries) ++
              ((a, rk, v) :: (rr.entries ++ (entries_after c1 ++ entries_after ctx))) := by
          rw [entries_spine _ _ _ _ _ _ _ _ hl]
        have hlenB' : (c1 ++ frame.right a c rk v l :: ctx).length < fuel := by
          simp only [List.length_append, List.length_cons] at hlenB ⊢
          exact hlenB
        obtain ⟨dk, dx⟩ := dec_of_entries_swap T (plug (c1 ++ .right a c rk v l :: ctx) rr) _ _
          a rc k rk v rv hTentB hcent
        obtain ⟨t3, T2, e, g1, g2, g3, g4, g5⟩ := remove_finish (set_key t leaf k)
          (remove_node.swap_keys (set_key t leaf k) a rc) T k (c1 ++ .right a c rk v l :: ctx)
          rc rcc k rv .nil rr rr n fuel h0 L1 (Or.inl ⟨rfl, rfl⟩) A1 hvn
          (ctx_ok_swap c1 ctx (.right a c k v l) (.right a c rk v l) rfl rfl rcc n hctx) hlenB' dk dx
        obtain ⟨dk2, dx2⟩ := dec_of_entries_swap T T2 _ _ a rc k rk v rv hTentB (g2.trans hcent)
        obtain ⟨X, Y, dx3, dx4⟩ := dx2
        refine ⟨t3, T2, true, e, g1, by simp [hk], fun hn => absurd hk hn, fun _ =>
          ⟨dk2, ⟨X, Y, rc, dx3, dx4, g4⟩, g3, fun hh => absurd hh (by simp)⟩⟩

end rb_tree

/-! ## Example trees -/

namespace fixed_alloc

theorem example_allocator_ok : allocator_ok example_allocator := by
  refine ⟨by decide, ?_, ⟨rfl, ?_⟩, trivial⟩
  · rfl
  · intro ch hch
    simp only [List.mem_singleton] at hch
    subst hch
    decide

theorem example_live : is_live example_allocator 5 :=
  ⟨_, List.mem_singleton.2 rfl, 0, by decide, 0, by decide, rfl, ⟨1⟩, rfl, by decide⟩

end fixed_alloc

namespace avl_tree

theorem example_storage_ok : storage_ok example_tree := by
  refine ⟨fixed_alloc.example_allocator_ok, by simp [example_tree, addrs], ?_⟩
  intro p hp
  simp only [example_tree, addrs, List.nil_append, List.mem_singleton] at hp
  subst hp
  exact fixed_alloc.example_live

theorem example_bst : bst example_tree.root := by
  simp [example_tree, bst, keys]

theorem example_balanced : balanced example_tree.root := by
  simp [example_tree, balanced, internal_get_tree_height]

end avl_tree

namespace rb_tree

theorem example_is_rb_tree : is_rb_tree example_tree example_rbt := by
  refine ⟨⟨?_, ?_⟩, ⟨?_, rfl, ?_, ?_, 1, ?_⟩, ⟨rfl, rfl, rfl⟩,
    fixed_alloc.example_allocator_ok, ?_, rfl⟩
  · exact ⟨rfl, by decide, by decide, rfl, rfl, rfl, rfl, rfl, rfl⟩
  · simp [example_rbt, rbt.addrs]
  · simp [example_rbt, bst, rbt.keys]
  · simp [example_rbt, colored]
  · simp [example_rbt, no_red_red, RB_TREE_BLACK, RB_TREE_RED]
  · simp [example_rbt, black_counts, RB_TREE_BLACK]
  · intro p hp
    simp only [example_rbt, rbt.addrs, List.nil_append, List.mem_singleton] at hp
    subst hp
    exact fixed_alloc.example_live

end rb_tree

namespace avl_tree

variable {α : Type} {N : Nat}

theorem avl_found_by_find_iff [LinearOrder α] (t : tree α N) (key : α) (hb : bst t.root)
    (hnull : NULL ∉ addrs t.root) : found_by_find t key ↔ key ∈ keys t.root := by
  obtain ⟨r, h1, h2, h3⟩ := avl_find_node_spec t key hb hnull
  constructor
  · rintro ⟨t1, r', e, hr⟩
    by_contra hk
    rw [h1] at e
    simp only [Option.some.injEq, Prod.mk.injEq] at e
    exact hr (e.2 ▸ h3 hk)
  · intro hk
    exact ⟨_, r, h1, (h2 hk).1⟩

end avl_tree

namespace rb_tree

variable {α β : Type} {N : Nat}

theorem found_by_find_iff [LinearOrder α] (fuel : Nat) (t : tree α β N) (T : rbt α β)
    (key : α) (h : layout t T) (hb : bst T) (hf : T.addrs.length < fuel) :
    found_by_find fuel t key ↔ key ∈ T.keys := by
  obtain ⟨r, h1, h2, h3⟩ := find_node_spec t T key fuel h hb hf
  constructor
  · rintro ⟨t1, r', e, hr⟩
    by_contra hk
    rw [h1] at e
    simp only [Option.some.injEq, Prod.mk.injEq] at e
    exact hr (e.2 ▸ h3 hk)
  · intro hk
    exact ⟨_, r, h1, (h2 hk).1⟩

theorem entries_addr_mem (T : rbt α β) (p : Nat) (k : α) (v : β) (h : (p, k, v) ∈ T.entries) :
    p ∈ T.addrs := by
  rw [addrs_eq_map]
  exact List.mem_map.2 ⟨_, h, rfl⟩

theorem mem_keys_of_dec [LinearOrder α] (A B : List α) (key x : α)
    (h : (A ++ key :: B).Pairwise (· < ·)) :
    x ∈ A ++ B ↔ x ∈ A ++ key :: B ∧ x ≠ key := by
  obtain ⟨_, hn⟩ := sorted_remove A B key h
  simp only [List.mem_append, List.mem_cons] at hn ⊢
  constructor
  · intro hx
    refine ⟨by tauto, ?_⟩
    rintro rfl
    exact hn hx
  · rintro ⟨hx, hne⟩
    tauto

end rb_tree

/-! ## The invariants are preserved -/

/-- C1: AVL insertion preserves the AVL invariants.  For every tree that
satisfies BST order and in which every node's stored balance is the height of
its right subtree minus the height of its left subtree and lies in -1, 0, 1
(the nodes being distinct live elements of a reachable allocator), and for
every key, `add_node_ext` returns, and the tree it returns satisfies BST
order and the balance invariant again. -/
theorem C1_avl_insert_preserves_invariants {α : Type} [LinearOrder α] {N : Nat}
    (t : avl_tree.tree α N) (key : α) (hs : avl_tree.storage_ok t)
    (hb : avl_tree.bst t.root) (hbal : avl_tree.balanced t.root) :
    ∃ t1 p found, avl_tree.add_node_ext t key = some (t1, p, found) ∧
      avl_tree.bst t1.root ∧ avl_tree.balanced t1.root ∧ avl_tree.storage_ok t1 := by
  obtain ⟨t1, p, found, h1, h2, h3, h4, _⟩ := avl_tree.avl_add_node_ext_spec t key hs hb hbal
  exact ⟨t1, p, found, h1, h3, h4, h2⟩

theorem C1_avl_insert_preserves_invariants_witness :
    avl_tree.storage_ok avl_tree.example_tree ∧ avl_tree.bst avl_tree.example_tree.root ∧
    avl_tree.balanced avl_tree.example_tree.root ∧
    ∃ t1 p found, avl_tree.add_node_ext avl_tree.example_tree 20 = some (t1, p, found) ∧
      avl_tree.bst t1.root ∧ avl_tree.balanced t1.root ∧ avl_tree.storage_ok t1 :=
  ⟨avl_tree.example_storage_ok, avl_tree.example_bst, avl_tree.example_balanced,
    C1_avl_insert_preserves_invariants avl_tree.example_tree 20 avl_tree.example_storage_ok
      avl_tree.example_bst avl_tree.example_balanced⟩

/-- C2: AVL removal preserves the AVL invariants.  For every tree that
satisfies BST order and the balance invariant (the nodes being distinct live
elements of a reachable allocator), and for every key, present or absent,
`remove_node` returns, and the tree it returns satisfies both invariants
again; this covers the removal of a node with two real children, which the
code replaces by the rightmost node of its left subtree. -/
theorem C2_avl_remove_preserves_invariants {α : Type} [LinearOrder α] {N : Nat}
    (t : avl_tree.tree α N) (key : α) (hs : avl_tree.storage_ok t)
    (hb : avl_tree.bst t.root) (hbal : avl_tree.balanced t.root) :
    ∃ t1 found, avl_tree.remove_node t key = some (t1, found) ∧
      avl_tree.bst t1.root ∧ avl_tree.balanced t1.root ∧ avl_tree.storage_ok t1 := by
  obtain ⟨t1, found, h1, h2, h3, h4, _⟩ := avl_tree.avl_remove_node_spec t key hs hb hbal
  exact ⟨t1, found, h1, h3, h4, h2⟩

/-- C3: red-black insertion preserves the red-black invariants.  For every
tree structure `t` that is laid out in memory as a tree `T` with every parent
link pointing at the actual parent (null for the root), where `T` satisfies
BST order, has a black root, no red node with a red child and the same number
of black nodes on every path from the root to the leaf, and for every key,
`add_node_ext` returns when it is given more fuel than the tree has nodes,
and the structure it returns is laid out as a tree that satisfies all of
these again. -/
theorem C3_rb_insert_preserves_invariants {α β : Type} [LinearOrder α] {N : Nat}
    (t : rb_tree.tree α β N) (T : rb_tree.rbt α β) (key : α) (fuel : Nat)
    (h : rb_tree.is_rb_tree t T) (hf : t.count < fuel) :
    ∃ t1 T1 p found, rb_tree.add_node_ext fuel t key = some (t1, p, found) ∧
      rb_tree.layout t1 T1 ∧ rb_tree.rb_invariants T1 ∧ rb_tree.is_rb_tree t1 T1 := by
  obtain ⟨t1, T1, p, found, h1, h2, _⟩ := rb_tree.add_node_ext_spec t T key fuel h hf
  exact ⟨t1, T1, p, found, h1, h2.1, h2.2.1, h2⟩

theorem C3_rb_insert_preserves_invariants_witness :
    rb_tree.is_rb_tree rb_tree.example_tree rb_tree.example_rbt ∧
    rb_tree.example_tree.count < 2 ∧
    ∃ t1 T1 p found, rb_tree.add_node_ext 2 rb_tree.example_tree 20 = some (t1, p, found) ∧
      rb_tree.layout t1 T1 ∧ rb_tree.rb_invariants T1 ∧ rb_tree.is_rb_tree t1 T1 :=
  ⟨rb_tree.example_is_rb_tree, by decide,
    C3_rb_insert_preserves_invariants rb_tree.example_tree rb_tree.example_rbt 20 2
      rb_tree.example_is_rb_tree (by decide)⟩

/-- C4: red-black removal in the key-only configuration, in which the key of
the successor is moved into the removed node, preserves the red-black
invariants.  For every tree structure laid out as a tree that satisfies BST
order, has a black root, no red node with a red child, the same number of
black nodes on every path and consistent parent links, and for every key,
`remove_node` returns when it is given more fuel than the tree has nodes, and
the structure it returns is laid out as a tree that satisfies all of these
again. -/
theorem C4_rb_remove_key_only_preserves_invariants {α β : Type} [LinearOrder α] {N : Nat}
    (t : rb_tree.tree α β N) (T : rb_tree.rbt α β) (key : α) (fuel : Nat)
    (h : rb_tree.is_rb_tree t T) (hf : t.count < fuel) :
    ∃ t1 T1 found, rb_tree.remove_node false fuel t key = some (t1, found) ∧
      rb_tree.layout t1 T1 ∧ rb_tree.rb_invariants T1 ∧ rb_tree.is_rb_tree t1 T1 := by
  obtain ⟨t1, T1, found, h1, h2, _⟩ := rb_tree.remove_node_spec false t T key fuel h hf
  exact ⟨t1, T1, found, h1, h2.1, h2.2.1, h2⟩

/-- C5: red-black removal in the configuration with an attached value, in
which the successor is relinked into the place of the removed node, preserves
the red-black invariants, both when the successor is the right child of the
removed node and when it lies deeper.  For every tree structure laid out as a
tree that satisfies BST order, has a black root, no red node with a red
child, the same number of black nodes on every path and every parent link
equal to the actual parent, and for every key, `remove_node` returns when it
is given more fuel than the tree has nodes, the structure it returns is laid
out as a tree that satisfies all of these again, and the nodes that stay keep
their address, key and value. -/
theorem C5_rb_remove_relink_preserves_invariants {α β : Type} [LinearOrder α] {N : Nat}
    (t : rb_tree.tree α β N) (T : rb_tree.rbt α β) (key : α) (fuel : Nat)
    (h : rb_tree.is_rb_tree t T) (hf : t.count < fuel) :
    ∃ t1 T1 found, rb_tree.remove_node true fuel t key = some (t1, found) ∧
      rb_tree.layout t1 T1 ∧ rb_tree.rb_invariants T1 ∧ rb_tree.is_rb_tree t1 T1 ∧
      (key ∈ T.keys → ∃ EA EB e, T.entries = EA ++ e :: EB ∧ T1.entries = EA ++ EB) := by
  obtain ⟨t1, T1, found, h1, h2, _, _, h5⟩ := rb_tree.remove_node_spec true t T key fuel h hf
  exact ⟨t1, T1, found, h1, h2.1, h2.2.1, h2, fun hk => (h5 hk).2.2.2 rfl⟩

/-! ## What the operations compute -/

/-- C6: `find_node` is correct on ordered trees in both engines.  For every
AVL tree in BST order whose nodes are not at the null address, and for every
red-black structure laid out as a tree in BST order, and every key,
`find_node` returns (the red-black one when given more fuel than the tree has
nodes); it returns the address of a real node of the tree whose key is the
key looked for if the tree has such a node, and the null pointer otherwise. -/
theorem C6_find_node_correct {α β : Type} [LinearOrder α] {N M : Nat}
    (ta : avl_tree.tree α N) (tr : rb_tree.tree α β M) (T : rb_tree.rbt α β) (key : α)
    (fuel : Nat) (hb : avl_tree.bst ta.root) (hnull : NULL ∉ avl_tree.addrs ta.root)
    (hl : rb_tree.layout tr T) (hbr : rb_tree.bst T) (hf : T.addrs.length < fuel) :
    (∃ r, avl_tree.find_node ta key = some ({ ta with sentinel := key }, r) ∧
      (key ∈ avl_tree.keys ta.root → r ≠ NULL ∧ (r, key) ∈ avl_tree.nodes ta.root) ∧
      (key ∉ avl_tree.keys ta.root → r = NULL)) ∧
    (∃ r, rb_tree.find_node fuel tr key = some (rb_tree.set_key tr rb_tree.leaf key, r) ∧
      (key ∈ T.keys → r ≠ NULL ∧ r ≠ rb_tree.leaf ∧ ∃ v, (r, key, v) ∈ T.entries) ∧
      (key ∉ T.keys → r = NULL)) := by
  refine ⟨avl_tree.avl_find_node_spec ta key hb hnull, ?_⟩
  obtain ⟨r, h1, h2, h3⟩ := rb_tree.find_node_spec tr T key fuel hl hbr hf
  refine ⟨r, h1, fun hk => ?_, h3⟩
  obtain ⟨q1, v, q2⟩ := h2 hk
  refine ⟨q1, ?_, v, q2⟩
  rintro rfl
  exact (rb_tree.Rep_not_mem _ _ _ _ hl.1).2 (rb_tree.entries_addr_mem T _ _ _ q2)

theorem C6_find_node_correct_witness :
    avl_tree.bst avl_tree.example_tree.root ∧ NULL ∉ avl_tree.addrs avl_tree.example_tree.root ∧
    rb_tree.layout rb_tree.example_tree rb_tree.example_rbt ∧
    rb_tree.bst rb_tree.example_rbt ∧ rb_tree.example_rbt.addrs.length < 2 ∧
    (∃ r, avl_tree.find_node avl_tree.example_tree 10 =
        some ({ avl_tree.example_tree with sentinel := 10 }, r) ∧
      ((10 : Int) ∈ avl_tree.keys avl_tree.example_tree.root →
        r ≠ NULL ∧ (r, 10) ∈ avl_tree.nodes avl_tree.example_tree.root) ∧
      ((10 : Int) ∉ avl_tree.keys avl_tree.example_tree.root → r = NULL)) ∧
    (∃ r, rb_tree.find_node 2 rb_tree.example_tree 10 =
        some (rb_tree.set_key rb_tree.example_tree rb_tree.leaf 10, r) ∧
      ((10 : Int) ∈ rb_tree.example_rbt.keys →
        r ≠ NULL ∧ r ≠ rb_tree.leaf ∧ ∃ v, (r, 10, v) ∈ rb_tree.example_rbt.entries) ∧
      ((10 : Int) ∉ rb_tree.example_rbt.keys → r = NULL)) :=
  ⟨avl_tree.example_bst, avl_tree.storage_ok_not_null _ avl_tree.example_storage_ok,
    rb_tree.example_is_rb_tree.1, rb_tree.example_is_rb_tree.2.1.1, by decide,
    C6_find_node_correct avl_tree.example_tree rb_tree.example_tree rb_tree.example_rbt 10 2
      avl_tree.example_bst (avl_tree.storage_ok_not_null _ avl_tree.example_storage_ok)
      rb_tree.example_is_rb_tree.1 rb_tree.example_is_rb_tree.2.1.1 (by decide)⟩

/-- C7: insertion adds exactly the requested key, in both engines.  For
every well-formed AVL tree and every well-formed red-black tree and every
key, `add_node_ext` returns a node whose key is the key given; afterwards the
keys stored in the tree are the keys stored before and the key given, so that
`find_node` gets a node for `j` afterwards exactly if `j` is the key given or
`find_node` got a node for `j` before; and the flag `found` is false when the
key was not in the tree. -/
theorem C7_insert_adds_exactly_the_key {α β : Type} [LinearOrder α] {N M : Nat}
    (ta : avl_tree.tree α N) (tr : rb_tree.tree α β M) (T : rb_tree.rbt α β) (key : α)
    (fuel : Nat) (hs : avl_tree.storage_ok ta) (hb : avl_tree.bst ta.root)
    (hbal : avl_tree.balanced ta.root) (hr : rb_tree.is_rb_tree tr T) (hf : tr.count < fuel) :
    (∃ t1 p found, avl_tree.add_node_ext ta key = some (t1, p, found) ∧
      (p, key) ∈ avl_tree.nodes t1.root ∧
      (∀ j, j ∈ avl_tree.keys t1.root ↔ j = key ∨ j ∈ avl_tree.keys ta.root) ∧
      (∀ j, avl_tree.found_by_find t1 j ↔ j = key ∨ avl_tree.found_by_find ta j) ∧
      (key ∉ avl_tree.keys ta.root → found = false)) ∧
    (∃ t1 T1 p found, rb_tree.add_node_ext fuel tr key = some (t1, p, found) ∧
      rb_tree.layout t1 T1 ∧ (∃ v, (p, key, v) ∈ T1.entries) ∧
      (∀ j, j ∈ T1.keys ↔ j = key ∨ j ∈ T.keys) ∧
      (∀ j, rb_tree.found_by_find (fuel + 1) t1 j ↔ j = key ∨ rb_tree.found_by_find fuel tr j) ∧
      (key ∉ T.keys → found = false)) := by
  constructor
  · obtain ⟨t1, p, found, h1, h2, h3, h4, h5, h6, h7, _⟩ :=
      avl_tree.avl_add_node_ext_spec ta key hs hb hbal
    refine ⟨t1, p, found, h1, h6, h5, fun j => ?_, fun hk => ?_⟩
    · rw [avl_tree.avl_found_by_find_iff t1 j h3 (avl_tree.storage_ok_not_null _ h2),
        avl_tree.avl_found_by_find_iff ta j hb (avl_tree.storage_ok_not_null _ hs), h5]
    · cases found with
      | false => rfl
      | true => exact absurd (h7.1 rfl) hk
  · obtain ⟨t1, T1, p, found, h1, h2, h3, h4, h5, h6, h7⟩ :=
      rb_tree.add_node_ext_spec tr T key fuel hr hf
    have hc : T.addrs.length < fuel := by rw [← hr.2.2.2.2.2]; exact hf
    have hc1 : T1.addrs.length < fuel + 1 := by
      rw [← h2.2.2.2.2.2]
      by_cases hk : key ∈ T.keys
      · rw [(h6 hk).1]; omega
      · rw [(h7 hk).1]; omega
    refine ⟨t1, T1, p, found, h1, h2.1, h4, h3, fun j => ?_, fun hk => ?_⟩
    · rw [rb_tree.found_by_find_iff (fuel + 1) t1 T1 j h2.1 h2.2.1.1 hc1,
        rb_tree.found_by_find_iff fuel tr T j hr.1 hr.2.1.1 hc, h3]
    · cases found with
      | false => rfl
      | true => exact absurd (h5.1 rfl) hk

theorem C7_insert_adds_exactly_the_key_witness :
    avl_tree.storage_ok avl_tree.example_tree ∧ avl_tree.bst avl_tree.example_tree.root ∧
    avl_tree.balanced avl_tree.example_tree.root ∧
    rb_tree.is_rb_tree rb_tree.example_tree rb_tree.example_rbt ∧
    rb_tree.example_tree.count < 2 ∧
    (∃ t1 p found, avl_tree.add_node_ext avl_tree.example_tree 20 = some (t1, p, found) ∧
      (p, 20) ∈ avl_tree.nodes t1.root ∧
      (∀ j, j ∈ avl_tree.keys t1.root ↔ j = 20 ∨ j ∈ avl_tree.keys avl_tree.example_tree.root) ∧
      (∀ j, avl_tree.found_by_find t1 j ↔
        j = 20 ∨ avl_tree.found_by_find avl_tree.example_tree j) ∧
      ((20 : Int) ∉ avl_tree.keys avl_tree.example_tree.root → found = false)) ∧
    (∃ t1 T1 p found, rb_tree.add_node_ext 2 rb_tree.example_tree 20 = some (t1, p, found) ∧
      rb_tree.layout t1 T1 ∧ (∃ v, (p, 20, v) ∈ T1.entries) ∧
      (∀ j, j ∈ T1.keys ↔ j = 20 ∨ j ∈ rb_tree.example_rbt.keys) ∧
      (∀ j, rb_tree.found_by_find (2 + 1) t1 j ↔
        j = 20 ∨ rb_tree.found_by_find 2 rb_tree.example_tree j) ∧
      ((20 : Int) ∉ rb_tree.example_rbt.keys → found = false)) :=
  ⟨avl_tree.example_storage_ok, avl_tree.example_bst, avl_tree.example_balanced,
    rb_tree.example_is_rb_tree, by decide,
    C7_insert_adds_exactly_the_key avl_tree.example_tree rb_tree.example_tree
      rb_tree.example_rbt 20 2 avl_tree.example_storage_ok avl_tree.example_bst
      avl_tree.example_balanced rb_tree.example_is_rb_tree (by decide)⟩

namespace rb_tree

variable {α β : Type} {N : Nat}

/-- What `remove_node` does to the keys and the count, in both
configurations. -/
theorem remove_node_keys [LinearOrder α] (ud : Bool) (t : tree α β N) (T : rbt α β) (key : α)
    (fuel : Nat) (h : is_rb_tree t T) (hf : t.count < fuel) :
    ∃ t1 T1 found, remove_node ud fuel t key = some (t1, found) ∧ is_rb_tree t1 T1 ∧
      (found = true ↔ key ∈ T.keys) ∧ (∀ x, x ∈ T1.keys ↔ x ∈ T.keys ∧ x ≠ key) ∧
      t1.count ≤ t.count ∧ (found = true → t1.count + 1 = t.count) ∧
      (found = false → t1 = set_key t leaf key ∧ T1 = T) := by
  obtain ⟨t1, T1, found, h1, h2, h3, h4, h5⟩ := remove_node_spec ud t T key fuel h hf
  refine ⟨t1, T1, found, h1, h2, h3, ?_, ?_, ?_, ?_⟩
  · intro x
    by_cases hk : key ∈ T.keys
    · obtain ⟨⟨A, B, e1, e2⟩, _⟩ := h5 hk
      have hs : (A ++ key :: B).Pairwise (· < ·) := by
        rw [← e1, ← bst_iff_sorted]; exact h.2.1.1
      rw [e2, e1]
      exact mem_keys_of_dec A B key x hs
    · rw [(h4 hk).2]
      constructor
      · intro hx
        exact ⟨hx, fun e => hk (e ▸ hx)⟩
      · exact fun hx => hx.1
  · by_cases hk : key ∈ T.keys
    · have := (h5 hk).2.2.1
      omega
    · rw [(h4 hk).1]
      exact le_refl _
  · intro hfound
    exact (h5 (h3.1 hfound)).2.2.1
  · intro hfound
    have hk : key ∉ T.keys := by
      intro hk
      rw [h3.2 hk] at hfound
      cases hfound
    exact h4 hk

end rb_tree

/-- C8: removal deletes exactly the requested key, in both engines and in
both configurations of the red-black engine.  For every well-formed tree and
every key, `remove_node` returns; afterwards `find_node` returns the null
pointer for the key, and for every other key `j` it gets a node exactly if it
got a node for `j` before the removal. -/
theorem C8_remove_deletes_exactly_the_key {α β : Type} [LinearOrder α] {N M : Nat}
    (ta : avl_tree.tree α N) (tr : rb_tree.tree α β M) (T : rb_tree.rbt α β) (key : α)
    (user_data : Bool) (fuel : Nat) (hs : avl_tree.storage_ok ta) (hb : avl_tree.bst ta.root)
    (hbal : avl_tree.balanced ta.root) (hr : rb_tree.is_rb_tree tr T) (hf : tr.count < fuel) :
    (∃ t1 found, avl_tree.remove_node ta key = some (t1, found) ∧
      (∃ t2, avl_tree.find_node t1 key = some (t2, NULL)) ∧
      ∀ j, j ≠ key → (avl_tree.found_by_find t1 j ↔ avl_tree.found_by_find ta j)) ∧
    (∃ t1 found, rb_tree.remove_node user_data fuel tr key = some (t1, found) ∧
      (∃ t2, rb_tree.find_node fuel t1 key = some (t2, NULL)) ∧
      ∀ j, j ≠ key → (rb_tree.found_by_find fuel t1 j ↔ rb_tree.found_by_find fuel tr j)) := by
  constructor
  · obtain ⟨t1, found, h1, h2, h3, h4, h5, _⟩ := avl_tree.avl_remove_node_spec ta key hs hb hbal
    have hn1 := avl_tree.storage_ok_not_null _ h2
    refine ⟨t1, found, h1, ?_, fun j hj => ?_⟩
    · obtain ⟨r, e1, _, e3⟩ := avl_tree.avl_find_node_spec t1 key h3 hn1
      have hk : key ∉ avl_tree.keys t1.root := fun hk => ((h5 key).1 hk).2 rfl
      rw [e3 hk] at e1
      exact ⟨_, e1⟩
    · rw [avl_tree.avl_found_by_find_iff t1 j h3 hn1,
        avl_tree.avl_found_by_find_iff ta j hb (avl_tree.storage_ok_not_null _ hs), h5]
      exact ⟨fun hx => hx.1, fun hx => ⟨hx, hj⟩⟩
  · obtain ⟨t1, T1, found, h1, h2, _, h4, h5, _⟩ :=
      rb_tree.remove_node_keys user_data tr T key fuel hr hf
    have hc : T.addrs.length < fuel := by rw [← hr.2.2.2.2.2]; exact hf
    have hc1 : T1.addrs.length < fuel := by rw [← h2.2.2.2.2.2]; omega
    refine ⟨t1, found, h1, ?_, fun j hj => ?_⟩
    · obtain ⟨r, e1, _, e3⟩ := rb_tree.find_node_spec t1 T1 key fuel h2.1 h2.2.1.1 hc1
      have hk : key ∉ T1.keys := fun hk => ((h4 key).1 hk).2 rfl
      rw [e3 hk] at e1
      exact ⟨_, e1⟩
    · rw [rb_tree.found_by_find_iff fuel t1 T1 j h2.1 h2.2.1.1 hc1,
        rb_tree.found_by_find_iff fuel tr T j hr.1 hr.2.1.1 hc, h4]
      exact ⟨fun hx => hx.1, fun hx => ⟨hx, hj⟩⟩

/-- C9: `remove_node` reports and counts correctly, in both engines and in
both configurations of the red-black engine.  For every well-formed tree
whose count is the number of its nodes, `remove_node` returns true exactly if
a node with the key was in the tree; when it returns true the count is one
less than before; when it returns false the AVL tree is the tree it was, and
the red-black structure is the one it was but for the key the search has
left in the leaf: its count, its allocator, its root link and every node,
so the shape of the tree and the key and colour of every node, are
unchanged. -/
theorem C9_remove_reports_and_counts {α β : Type} [LinearOrder α] {N M : Nat}
    (ta : avl_tree.tree α N) (tr : rb_tree.tree α β M) (T : rb_tree.rbt α β) (key : α)
    (user_data : Bool) (fuel : Nat) (hs : avl_tree.storage_ok ta) (hb : avl_tree.bst ta.root)
    (hbal : avl_tree.balanced ta.root) (hcount : ta.count = (avl_tree.addrs ta.root).length)
    (hr : rb_tree.is_rb_tree tr T) (hf : tr.count < fuel) :
    (∃ t1 found, avl_tree.remove_node ta key = some (t1, found) ∧
      (found = true ↔ key ∈ avl_tree.keys ta.root) ∧
      (found = true → t1.count + 1 = ta.count ∧
        t1.count = (avl_tree.addrs t1.root).length) ∧
      (found = false → t1 = ta)) ∧
    (∃ t1 found, rb_tree.remove_node user_data fuel tr key = some (t1, found) ∧
      (found = true ↔ key ∈ T.keys) ∧
      (found = true → t1.count + 1 = tr.count) ∧
      (found = false → t1 = rb_tree.set_key tr rb_tree.leaf key ∧
        t1.count = tr.count ∧ t1.allocator = tr.allocator ∧ t1.root = tr.root ∧
        (∀ x, x ≠ rb_tree.leaf → t1.mem x = tr.mem x) ∧ rb_tree.layout t1 T)) := by
  constructor
  · obtain ⟨t1, found, h1, _, _, _, _, h6, h7, h8⟩ :=
      avl_tree.avl_remove_node_spec ta key hs hb hbal
    refine ⟨t1, found, h1, h6, fun hfound => ?_, fun hfound => ?_⟩
    · obtain ⟨e1, _, p, _, _, e2⟩ := h8 (h6.1 hfound)
      have hlen := e2.length_eq
      simp only [List.length_cons] at hlen
      constructor
      · rw [e1, hcount, hlen]; rfl
      · rw [e1, hcount, hlen]; rfl
    · apply h7
      intro hk
      rw [h6.2 hk] at hfound
      cases hfound
  · obtain ⟨t1, T1, found, h1, h2, h3, _, _, h6, h7⟩ :=
      rb_tree.remove_node_keys user_data tr T key fuel hr hf
    refine ⟨t1, found, h1, h3, h6, fun hfound => ?_⟩
    obtain ⟨e1, e2⟩ := h7 hfound
    subst e1
    subst e2
    refine ⟨rfl, rfl, rfl, rfl, fun x hx => ?_, h2.1⟩
    exact rb_tree.set_key_mem_ne _ _ _ _ hx

theorem C9_remove_reports_and_counts_witness :
    avl_tree.storage_ok avl_tree.example_tree ∧ avl_tree.bst avl_tree.example_tree.root ∧
    avl_tree.balanced avl_tree.example_tree.root ∧
    avl_tree.example_tree.count = (avl_tree.addrs avl_tree.example_tree.root).length ∧
    rb_tree.is_rb_tree rb_tree.example_tree rb_tree.example_rbt ∧
    rb_tree.example_tree.count < 2 ∧
    (∃ t1 found, avl_tree.remove_node avl_tree.example_tree 30 = some (t1, found) ∧
      (found = true ↔ (30 : Int) ∈ avl_tree.keys avl_tree.example_tree.root) ∧
      (found = true → t1.count + 1 = avl_tree.example_tree.count ∧
        t1.count = (avl_tree.addrs t1.root).length) ∧
      (found = false → t1 = avl_tree.example_tree)) ∧
    (∃ t1 found, rb_tree.remove_node false 2 rb_tree.example_tree 30 = some (t1, found) ∧
      (found = true ↔ (30 : Int) ∈ rb_tree.example_rbt.keys) ∧
      (found = true → t1.count + 1 = rb_tree.example_tree.count) ∧
      (found = false → t1 = rb_tree.set_key rb_tree.example_tree rb_tree.leaf 30 ∧
        t1.count = rb_tree.example_tree.count ∧
        t1.allocator = rb_tree.example_tree.allocator ∧ t1.root = rb_tree.example_tree.root ∧
        (∀ x, x ≠ rb_tree.leaf → t1.mem x = rb_tree.example_tree.mem x) ∧
        rb_tree.layout t1 rb_tree.example_rbt)) :=
  ⟨avl_tree.example_storage_ok, avl_tree.example_bst, avl_tree.example_balanced, rfl,
    rb_tree.example_is_rb_tree, by decide,
    C9_remove_reports_and_counts avl_tree.example_tree rb_tree.example_tree
      rb_tree.example_rbt 30 false 2 avl_tree.example_storage_ok avl_tree.example_bst
      avl_tree.example_balanced rfl rb_tree.example_is_rb_tree (by decide)⟩

/-- C10: inserting a key that is already in the tree is a reported no-op, in
both engines.  For every well-formed tree that holds the key, `add_node_ext`
returns the tree structure it was given, unchanged (so it allocates no slot
and leaves the count, the shape and the key and balance or colour of every
node as they were), with the flag `found` true and the address of the node
of the tree that holds the key. -/
theorem C10_duplicate_insert_is_noop {α β : Type} [LinearOrder α] {N M : Nat}
    (ta : avl_tree.tree α N) (tr : rb_tree.tree α β M) (T : rb_tree.rbt α β) (key : α)
    (fuel : Nat) (hs : avl_tree.storage_ok ta) (hb : avl_tree.bst ta.root)
    (hbal : avl_tree.balanced ta.root) (hka : key ∈ avl_tree.keys ta.root)
    (hr : rb_tree.is_rb_tree tr T) (hf : tr.count < fuel) (hkr : key ∈ T.keys) :
    (∃ p, avl_tree.add_node_ext ta key = some (ta, p, true) ∧
      (p, key) ∈ avl_tree.nodes ta.root) ∧
    (∃ p v, rb_tree.add_node_ext fuel tr key = some (tr, p, true) ∧
      (p, key, v) ∈ T.entries) := by
  constructor
  · obtain ⟨t1, p, found, h1, _, _, _, _, h6, h7, h8, _⟩ :=
      avl_tree.avl_add_node_ext_spec ta key hs hb hbal
    have e1 := h8 hka
    have e2 := h7.2 hka
    subst e1
    subst e2
    exact ⟨p, h1, h6⟩
  · obtain ⟨t1, T1, p, found, h1, _, _, ⟨v, h4⟩, h5, h6, _⟩ :=
      rb_tree.add_node_ext_spec tr T key fuel hr hf
    obtain ⟨e1, e2⟩ := h6 hkr
    have e3 := h5.2 hkr
    subst e1
    subst e2
    subst e3
    exact ⟨p, v, h1, h4⟩

theorem C10_duplicate_insert_is_noop_witness :
    avl_tree.storage_ok avl_tree.example_tree ∧ avl_tree.bst avl_tree.example_tree.root ∧
    avl_tree.balanced avl_tree.example_tree.root ∧
    (10 : Int) ∈ avl_tree.keys avl_tree.example_tree.root ∧
    rb_tree.is_rb_tree rb_tree.example_tree rb_tree.example_rbt ∧
    rb_tree.example_tree.count < 2 ∧ (10 : Int) ∈ rb_tree.example_rbt.keys ∧
    (∃ p, avl_tree.add_node_ext avl_tree.example_tree 10 =
        some (avl_tree.example_tree, p, true) ∧
      (p, 10) ∈ avl_tree.nodes avl_tree.example_tree.root) ∧
    (∃ p v, rb_tree.add_node_ext 2 rb_tree.example_tree 10 =
        some (rb_tree.example_tree, p, true) ∧
      (p, 10, v) ∈ rb_tree.example_rbt.entries) :=
  ⟨avl_tree.example_storage_ok, avl_tree.example_bst, avl_tree.example_balanced,
    by simp [avl_tree.example_tree, avl_tree.keys],
    rb_tree.example_is_rb_tree, by decide, by simp [rb_tree.example_rbt, rb_tree.rbt.keys],
    C10_duplicate_insert_is_noop avl_tree.example_tree rb_tree.example_tree
      rb_tree.example_rbt 10 2 avl_tree.example_storage_ok avl_tree.example_bst
      avl_tree.example_balanced (by simp [avl_tree.example_tree, avl_tree.keys])
      rb_tree.example_is_rb_tree (by decide)
      (by simp [rb_tree.example_rbt, rb_tree.rbt.keys])⟩

/-! ## The status of the allocator -/

namespace fixed_alloc

variable {N : Nat}

theorem bits_count_loop : ∀ (n num r : Nat),
    internal_get_bits_count.loop n num r =
      r + ((List.range n).filter (fun j => num.testBit j)).length := by
  intro n
  induction n with
  | zero => intro num r; simp [internal_get_bits_count.loop]
  | succ n ih =>
    intro num r
    rw [internal_get_bits_count.loop, ih, List.range_succ_eq_map, List.filter_cons,
      List.filter_map]
    have e1 : (fun j => (num >>> 1).testBit j) = ((fun j => num.testBit j) ∘ Nat.succ) := by
      funext j
      simp only [Function.comp, Nat.succ_eq_add_one, Nat.testBit_succ, Nat.shiftRight_one]
    rw [e1]
    have e2 : num &&& 1 = if num.testBit 0 = true then 1 else 0 := by
      rw [Nat.and_one_is_mod, Nat.testBit_zero]
      rcases Nat.mod_two_eq_zero_or_one num with h | h <;> simp [h]
    rw [e2]
    split
    · simp only [List.length_cons, List.length_map]; omega
    · simp only [List.length_map]; omega

theorem bits_count_eq (m : Nat) : internal_get_bits_count m = (set_bits m).length := by
  rw [internal_get_bits_count, bits_count_loop, set_bits, Nat.zero_add]

theorem mem_set_bits (m j : Nat) :
    j ∈ set_bits m ↔ j < CHUNK_NUM_BITS ∧ m.testBit j = true := by
  simp [set_bits]

theorem mem_chunk_slots (c : internal_chunk_cluster) (i p : Nat) :
    p ∈ chunk_slots c i ↔
      ∃ j, j < CHUNK_NUM_BITS ∧ p = arr_addr (chunk_addr c.addr i) j ∧ slot_used c i j := by
  unfold chunk_slots slot_used
  cases c.chunks.get? i with
  | none => simp
  | some ch =>
    simp only [List.mem_map, mem_set_bits, Option.some.injEq, exists_eq_left']
    constructor
    · rintro ⟨j, ⟨h1, h2⟩, rfl⟩
      exact ⟨j, h1, rfl, h2⟩
    · rintro ⟨j, h1, rfl, h2⟩
      exact ⟨j, ⟨h1, h2⟩, rfl⟩

theorem mem_cluster_slots (c : internal_chunk_cluster) (p : Nat) :
    p ∈ cluster_slots N c ↔ live_c N c p := by
  simp only [cluster_slots, List.mem_flatMap, List.mem_range, mem_chunk_slots, live_c]

theorem mem_live_slots (a : allocator N) (p : Nat) : p ∈ live_slots a ↔ is_live a p := by
  rw [is_live_iff]
  simp only [live_slots, List.mem_flatMap, mem_cluster_slots, live_in]

theorem nodup_chunk_slots (c : internal_chunk_cluster) (i : Nat) : (chunk_slots c i).Nodup := by
  unfold chunk_slots
  cases c.chunks.get? i with
  | none => exact List.nodup_nil
  | some ch =>
    refine List.Nodup.map ?_ ((List.nodup_range _).filter _)
    intro j1 j2 h
    simp only [arr_addr] at h
    omega

theorem nodup_cluster_slots (c : internal_chunk_cluster) : (cluster_slots N c).Nodup := by
  rw [cluster_slots, List.nodup_flatMap]
  refine ⟨fun i _ => nodup_chunk_slots c i, (List.nodup_range N).pairwise_of_forall_ne ?_⟩
  intro i1 _ i2 _ hne p h1 h2
  obtain ⟨j1, hj1, e1, _⟩ := (mem_chunk_slots c i1 p).1 h1
  obtain ⟨j2, hj2, e2, _⟩ := (mem_chunk_slots c i2 p).1 h2
  exact hne (slot_inj c.addr i1 j1 i2 j2 hj1 hj2 (e1 ▸ e2)).1

theorem nodup_slots_chain (hN : 0 < N) : ∀ (cl : List internal_chunk_cluster),
    chain_ok N cl → (cl.flatMap (cluster_slots N)).Nodup := by
  intro cl
  induction cl with
  | nil => intro _; exact List.nodup_nil
  | cons c prev ih =>
    intro h
    rw [List.flatMap_cons, List.nodup_append]
    refine ⟨nodup_cluster_slots c, ih h.2.2, ?_⟩
    intro p h1 h2
    have r1 := live_c_range c p hN ((mem_cluster_slots c p).1 h1)
    have h3 : live_in N prev p := by
      simp only [List.mem_flatMap, mem_cluster_slots] at h2
      exact h2
    have r2 := live_in_bound prev hN h.2.2 p h3
    rw [h.1] at r1
    omega

theorem nodup_live_slots (a : allocator N) (h : allocator_ok a) : (live_slots a).Nodup :=
  nodup_slots_chain h.1 a.cluster h.2

theorem status_chunks (c : internal_chunk_cluster) : ∀ (n i used : Nat),
    i + n ≤ c.chunks.length →
      get_allocator_status.chunks c n i used =
        some (used + ((List.range' i n).flatMap (chunk_slots c)).length) := by
  intro n
  induction n with
  | zero => intro i used _; simp [get_allocator_status.chunks]
  | succ n ih =>
    intro i used h
    have hi : i < c.chunks.length := by omega
    have hget : c.chunks.get? i = some (c.chunks.get ⟨i, hi⟩) := List.get?_eq_get hi
    rw [get_allocator_status.chunks, hget]
    simp only
    rw [ih (i + 1) _ (by omega), List.range'_succ, List.flatMap_cons, List.length_append]
    have e : (chunk_slots c i).length =
        internal_get_bits_count (c.chunks.get ⟨i, hi⟩).free_mask := by
      rw [chunk_slots, hget, bits_count_eq]
      simp only [List.length_map]
    rw [e, Nat.add_assoc]

theorem status_clusters : ∀ (cl : List internal_chunk_cluster) (used allocated : Nat),
    chain_ok N cl →
      get_allocator_status.clusters N cl used allocated =
        some (used + (cl.flatMap (cluster_slots N)).length,
          allocated + CHUNK_NUM_BITS * N * cl.length) := by
  intro cl
  induction cl with
  | nil => intro used allocated _; simp [get_allocator_status.clusters]
  | cons c prev ih =>
    intro used allocated h
    rw [get_allocator_status.clusters, status_chunks c N 0 used (by rw [h.2.1.1]; omega)]
    simp only
    rw [ih _ _ h.2.2, List.flatMap_cons, List.length_append, List.length_cons, cluster_slots,
      List.range_eq_range']
    congr 2
    · omega
    · rw [Nat.mul_succ]; omega

theorem status_spec (a : allocator N) (h : allocator_ok a) :
    get_allocator_status a =
      some ((live_slots a).length, CHUNK_NUM_BITS * N * a.cluster.length) := by
  rw [get_allocator_status, status_clusters a.cluster 0 0 h.2, live_slots]
  simp

/-- The count `used` that `get_allocator_status` reports is the length of
any list without repetitions of the elements in use. -/
theorem status_of_live (a : allocator N) (h : allocator_ok a) (l : List Nat) (hl : l.Nodup)
    (hm : ∀ p, p ∈ l ↔ is_live a p) :
    get_allocator_status a = some (l.length, CHUNK_NUM_BITS * N * a.cluster.length) := by
  rw [status_spec a h]
  have hp : (live_slots a).Perm l :=
    (List.perm_ext_iff_of_nodup (nodup_live_slots a h) hl).2
      (fun p => by rw [mem_live_slots, hm])
  rw [hp.length_eq]

end fixed_alloc

/-! ## First fit -/

namespace fixed_alloc

variable {N : Nat}

theorem free_find_at (hN : 0 < N) (c : internal_chunk_cluster)
    (after : List internal_chunk_cluster) (i j : Nat) (hi : i < N) (hj : j < CHUNK_NUM_BITS) :
    ∀ (before : List internal_chunk_cluster), chain_ok N (before ++ c :: after) →
      free_elem.find N (arr_addr (chunk_addr c.addr i) j) (before ++ c :: after) =
        some (before, c, after) := by
  have hr := slot_range c.addr i j hN hi hj
  intro before
  induction before with
  | nil =>
    intro _
    rw [List.nil_append, free_elem.find, if_pos ⟨by omega, hr.2⟩]
  | cons b bs ih =>
    intro h
    rw [List.cons_append, free_elem.find]
    have hb := chain_bound (bs ++ c :: after) h.2.2 c (by simp)
    have hba : b.addr = XMALLOC (bs ++ c :: after).length (cluster_bytes N) := h.1
    rw [if_neg (by omega), ih h.2.2]

theorem full_mask (m : Nat) (hm : m < 2 ^ CHUNK_NUM_BITS)
    (h : ∀ j, j < CHUNK_NUM_BITS → m.testBit j = true) : m = MASK_TYPE_MAX := by
  apply Nat.eq_of_testBit_eq
  intro i
  rw [MASK_TYPE_MAX, Nat.testBit_two_pow_sub_one]
  by_cases hi : i < CHUNK_NUM_BITS
  · rw [h i hi]; simp [hi]
  · have : m < 2 ^ i := lt_of_lt_of_le hm (Nat.pow_le_pow_right (by decide) (by omega))
    rw [Nat.testBit_lt_two_pow this]
    simp [hi]

theorem chunk_full_mask (c : internal_chunk_cluster) (hc : cluster_ok N c) (i : Nat)
    (h : chunk_full c i) :
    ∃ ch, c.chunks.get? i = some ch ∧ ch.free_mask = MASK_TYPE_MAX := by
  obtain ⟨ch, h1, _⟩ := h 0 (by decide)
  refine ⟨ch, h1, full_mask _ (hc.2 ch (List.get?_mem h1)) ?_⟩
  intro j hj
  obtain ⟨ch', h2, h3⟩ := h j hj
  rw [h1] at h2
  cases h2
  exact h3

theorem alloc_loop_first (m j : Nat) (hj : j < CHUNK_NUM_BITS)
    (hlow : ∀ b, b < j → m.testBit b = true) (hbit : m.testBit j = false) :
    ∀ n i, n + i = CHUNK_NUM_BITS → i ≤ j →
      internal_alloc_elem_from_chunk.loop m n i (2 ^ i) = some (m ||| 2 ^ j, j) := by
  intro n
  induction n with
  | zero => intro i h1 h2; omega
  | succ n ih =>
    intro i h1 h2
    rw [internal_alloc_elem_from_chunk.loop]
    rcases Nat.eq_or_lt_of_le h2 with rfl | hlt
    · rw [if_pos ((and_two_pow_eq_zero m i).2 hbit)]
    · have ht := hlow i hlt
      rw [if_neg (fun hh => by rw [(and_two_pow_eq_zero m i).1 hh] at ht; cases ht)]
      have hmask : (2 ^ i <<< 1) % 2 ^ CHUNK_NUM_BITS = 2 ^ (i + 1) := by
        rw [Nat.shiftLeft_eq, ← Nat.pow_succ]
        exact Nat.mod_eq_of_lt (Nat.pow_lt_pow_right (by decide) (by omega))
      rw [hmask]
      exact ih (i + 1) (by omega) hlt

theorem alloc_from_chunk_first (chunk : internal_chunk) (addr j : Nat)
    (hj : j < CHUNK_NUM_BITS) (hlow : ∀ b, b < j → chunk.free_mask.testBit b = true)
    (hbit : chunk.free_mask.testBit j = false) :
    internal_alloc_elem_from_chunk chunk addr =
      some (⟨chunk.free_mask ||| 2 ^ j⟩, arr_addr addr j) := by
  have hne : chunk.free_mask ≠ MASK_TYPE_MAX := by
    intro h
    rw [h, MASK_TYPE_MAX, Nat.testBit_two_pow_sub_one] at hbit
    simp [hj] at hbit
  have h := alloc_loop_first chunk.free_mask j hj hlow hbit CHUNK_NUM_BITS 0 rfl (Nat.zero_le _)
  simp only [pow_zero] at h
  simp [internal_alloc_elem_from_chunk, hne, h]

theorem find_chunks_full (c : internal_chunk_cluster) : ∀ (n s : Nat),
    (∀ i', s ≤ i' → i' < s + n →
      ∃ ch, c.chunks.get? i' = some ch ∧ ch.free_mask = MASK_TYPE_MAX) →
    internal_find_free_elem.chunks c n s = some (c, NULL) := by
  intro n
  induction n with
  | zero => intro s _; rfl
  | succ n ih =>
    intro s h
    obtain ⟨ch, h1, h2⟩ := h s (le_refl _) (by omega)
    rw [internal_find_free_elem.chunks, h1]
    simp only [h2, ne_eq, not_true_eq_false, if_false]
    exact ih (s + 1) (fun i' a b => h i' (by omega) (by omega))

theorem find_chunks_first (c : internal_chunk_cluster) (i j : Nat) (ch : internal_chunk)
    (hget : c.chunks.get? i = some ch) (hj : j < CHUNK_NUM_BITS)
    (hlow : ∀ b, b < j → ch.free_mask.testBit b = true)
    (hbit : ch.free_mask.testBit j = false) :
    ∀ (n s : Nat), s ≤ i → i < s + n →
      (∀ i', s ≤ i' → i' < i →
        ∃ ch', c.chunks.get? i' = some ch' ∧ ch'.free_mask = MASK_TYPE_MAX) →
      internal_find_free_elem.chunks c n s =
        some ((if ch.free_mask ||| 2 ^ j = MASK_TYPE_MAX ∧ c.nfc_index = i then
            (⟨c.addr, i + 1, c.chunks.set i ⟨ch.free_mask ||| 2 ^ j⟩⟩ : internal_chunk_cluster)
          else ⟨c.addr, c.nfc_index, c.chunks.set i ⟨ch.free_mask ||| 2 ^ j⟩⟩),
          arr_addr (chunk_addr c.addr i) j) := by
  have hne : ch.free_mask ≠ MASK_TYPE_MAX := by
    intro h
    rw [h, MASK_TYPE_MAX, Nat.testBit_two_pow_sub_one] at hbit
    simp [hj] at hbit
  intro n
  induction n with
  | zero => intro s h1 h2; omega
  | succ n ih =>
    intro s h1 h2 hfull
    rw [internal_find_free_elem.chunks]
    rcases Nat.eq_or_lt_of_le h1 with rfl | hlt
    · rw [hget]
      simp only [ne_eq, hne, not_false_eq_true, if_true,
        alloc_from_chunk_first ch _ j hj hlow hbit]
      split <;> rfl
    · obtain ⟨ch', g1, g2⟩ := hfull s (le_refl _) hlt
      rw [g1]
      simp only [g2, ne_eq, not_true_eq_false, if_false]
      exact ih (s + 1) hlt (by omega) (fun i' a b => hfull i' (by omega) b)

theorem find_free_first (c c1 : internal_chunk_cluster) (after : List internal_chunk_cluster)
    (p : Nat) (hp : p ≠ NULL)
    (hc : internal_find_free_elem.chunks c (N - c.nfc_index) c.nfc_index = some (c1, p)) :
    ∀ (before : List internal_chunk_cluster),
      (∀ b ∈ before, ∀ i', b.nfc_index ≤ i' → i' < N →
        ∃ ch, b.chunks.get? i' = some ch ∧ ch.free_mask = MASK_TYPE_MAX) →
      internal_find_free_elem N (before ++ c :: after) = some (before ++ c1 :: after, p) := by
  intro before
  induction before with
  | nil =>
    intro _
    rw [List.nil_append, internal_find_free_elem, hc]
    simp only [ne_eq, hp, not_false_eq_true, if_true, List.nil_append]
  | cons b bs ih =>
    intro h
    rw [List.cons_append, internal_find_free_elem,
      find_chunks_full b (N - b.nfc_index) b.nfc_index
        (fun i' h1 h2 => h b (List.mem_cons_self _ _) i' h1 (by omega))]
    simp only [NULL, ne_eq, not_true_eq_false, if_false]
    rw [ih (fun b' hb' => h b' (List.mem_cons_of_mem _ hb'))]
    rfl

end fixed_alloc

/-! ## Releasing an element and taking it again -/

namespace fixed_alloc

variable {N : Nat}

theorem chain_ok_mem : ∀ (cl : List internal_chunk_cluster), chain_ok N cl →
    ∀ c ∈ cl, cluster_ok N c := by
  intro cl
  induction cl with
  | nil => intro _ c hc; simp at hc
  | cons c0 prev ih =>
    intro h c hc
    rcases List.mem_cons.mp hc with rfl | hc
    · exact h.2.1
    · exact ih h.2.2 c hc

theorem free_elem_at (a : allocator N) (before after : List internal_chunk_cluster)
    (c : internal_chunk_cluster) (ch : internal_chunk) (i j : Nat) (h : allocator_ok a)
    (hcl : a.cluster = before ++ c :: after) (hi : i < N) (hj : j < CHUNK_NUM_BITS)
    (hget : c.chunks.get? i = some ch) (hbit : ch.free_mask.testBit j = true) :
    free_elem a (arr_addr (chunk_addr c.addr i) j) =
      some ⟨before ++ (⟨c.addr, min c.nfc_index i,
        c.chunks.set i ⟨ch.free_mask &&& (MASK_TYPE_MAX ^^^ (1 <<< j))⟩⟩ :
          internal_chunk_cluster) :: after⟩ := by
  have hfind := free_find_at h.1 c after i j hi hj before (hcl ▸ h.2)
  rw [← hcl] at hfind
  rw [free_elem_eq a before after c ch i j hfind hi hj hget hbit]
  split
  · rw [min_eq_right (by omega)]
  · rw [min_eq_left (by omega)]

theorem free_alloc_reuse (a : allocator N) (before after : List internal_chunk_cluster)
    (c : internal_chunk_cluster) (i j : Nat) (h : allocator_ok a)
    (hcl : a.cluster = before ++ c :: after) (hi : i < N) (hj : j < CHUNK_NUM_BITS)
    (hused : slot_used c i j) (hbefore : ∀ b ∈ before, ∀ i', i' < N → chunk_full b i')
    (hchunks : ∀ i', i' < i → chunk_full c i') (hbits : ∀ j', j' < j → slot_used c i j') :
    ∃ a1 a2, free_elem a (arr_addr (chunk_addr c.addr i) j) = some a1 ∧
      alloc_elem a1 = some (a2, arr_addr (chunk_addr c.addr i) j) ∧
      a2.cluster.length = a.cluster.length := by
  obtain ⟨ch, hget, hbit⟩ := hused
  have hch : chain_ok N (before ++ c :: after) := hcl ▸ h.2
  have hcok : cluster_ok N c := chain_ok_mem _ hch c (by simp)
  have hm : ch.free_mask < 2 ^ CHUNK_NUM_BITS := hcok.2 ch (List.get?_mem hget)
  have hlen : i < c.chunks.length := by rw [hcok.1]; exact hi
  have hp : arr_addr (chunk_addr c.addr i) j ≠ NULL := by
    simp only [arr_addr, NULL]; omega
  have hfirst := find_chunks_first
    (⟨c.addr, min c.nfc_index i,
      c.chunks.set i ⟨ch.free_mask &&& (MASK_TYPE_MAX ^^^ (1 <<< j))⟩⟩ :
        internal_chunk_cluster) i j
    ⟨ch.free_mask &&& (MASK_TYPE_MAX ^^^ (1 <<< j))⟩
    (by simp [List.getElem?_set, hlen]) hj
    (fun b hb => by
      obtain ⟨ch', g1, g2⟩ := hbits b hb
      rw [hget] at g1
      cases g1
      rw [clear_bit_testBit _ _ _ hm hj, g2]
      simp; omega)
    (by rw [clear_bit_testBit _ _ _ hm hj]; simp)
    (N - min c.nfc_index i) (min c.nfc_index i) (min_le_right _ _)
    (by have := min_le_right c.nfc_index i; omega)
    (fun i' _ h2 => by
      obtain ⟨ch', g1, g2⟩ := chunk_full_mask c hcok i' (hchunks i' h2)
      refine ⟨ch', ?_, g2⟩
      simp only [List.get?_eq_getElem?] at g1 ⊢
      rw [List.getElem?_set_ne (by omega)]
      exact g1)
  have hall := find_free_first _ _ after _ hp hfirst before
    (fun b hb i' _ h2 =>
      chunk_full_mask b (chain_ok_mem _ hch b (by simp [hb])) i' (hbefore b hb i' h2))
  have halloc : ∃ c3, alloc_elem (⟨before ++ (⟨c.addr, min c.nfc_index i,
      c.chunks.set i ⟨ch.free_mask &&& (MASK_TYPE_MAX ^^^ (1 <<< j))⟩⟩ :
        internal_chunk_cluster) :: after⟩ : allocator N) =
      some (⟨before ++ c3 :: after⟩, arr_addr (chunk_addr c.addr i) j) := by
    exact ⟨_, by rw [alloc_elem, hall]; simp only [hp, if_false]; rfl⟩
  obtain ⟨c3, halloc⟩ := halloc
  refine ⟨_, _, free_elem_at a before after c ch i j h hcl hi hj hget hbit, halloc, ?_⟩
  rw [hcl]
  simp only [List.length_append, List.length_cons]

end fixed_alloc

namespace fixed_alloc.append_only

variable {N : Nat}

theorem ao_chain_bound : ∀ (cl : List internal_chunk), chain_ok N cl →
    ∀ c ∈ cl, 2 ≤ c.addr ∧ c.addr + N < XMALLOC cl.length (SIZEOF_CHUNK N) := by
  intro cl
  induction cl with
  | nil => intro _ c hc; simp at hc
  | cons c0 prev ih =>
    intro h c hc
    simp only [List.length_cons, XMALLOC_succ]
    rcases List.mem_cons.mp hc with rfl | hc
    · rw [h.1]
      exact ⟨XMALLOC_ge _ _, by simp only [SIZEOF_CHUNK]; omega⟩
    · have := ih h.2.2 c hc
      omega

theorem ao_live_bound (cl : List internal_chunk) (h : chain_ok N cl) (p : Nat)
    (hp : is_live (⟨cl⟩ : allocator N) p) :
    2 ≤ p ∧ p < XMALLOC cl.length (SIZEOF_CHUNK N) := by
  obtain ⟨c, hc, i, hi, rfl⟩ := hp
  have h1 := ao_chain_bound cl h c hc
  have h2 : ∀ (l : List internal_chunk), chain_ok N l → ∀ x ∈ l, x.size ≤ N := by
    intro l
    induction l with
    | nil => intro _ x hx; simp at hx
    | cons y ys ih =>
      intro hl x hx
      rcases List.mem_cons.mp hx with rfl | hx
      · exact hl.2.1
      · exact ih hl.2.2 x hx
  have h3 := h2 cl h c hc
  omega

theorem ao_status_loop : ∀ (cl : List internal_chunk) (used allocated : Nat),
    get_allocator_status.loop N cl used allocated =
      (used + (cl.map internal_chunk.size).sum, allocated + N * cl.length) := by
  intro cl
  induction cl with
  | nil => intro used allocated; simp [get_allocator_status.loop]
  | cons c prev ih =>
    intro used allocated
    rw [get_allocator_status.loop, ih]
    simp only [List.map_cons, List.sum_cons, List.length_cons, Nat.mul_succ, Prod.mk.injEq]
    omega

theorem ao_status (a : allocator N) :
    get_allocator_status a = ((a.chunk.map internal_chunk.size).sum, N * a.chunk.length) := by
  rw [get_allocator_status, ao_status_loop]
  simp

/-- Handing out the next element of the first chunk, which is not full. -/
theorem ao_bump (c : internal_chunk) (prev : List internal_chunk) (hN : 0 < N)
    (h : chain_ok N (c :: prev)) (hlt : c.size < N) :
    allocator_ok (⟨{ c with size := c.size + 1 } :: prev⟩ : allocator N) ∧
      2 ≤ c.addr + c.size ∧ ¬ is_live (⟨c :: prev⟩ : allocator N) (c.addr + c.size) ∧
      (∀ q, is_live (⟨{ c with size := c.size + 1 } :: prev⟩ : allocator N) q ↔
        q = c.addr + c.size ∨ is_live (⟨c :: prev⟩ : allocator N) q) ∧
      (get_allocator_status (⟨{ c with size := c.size + 1 } :: prev⟩ : allocator N)).1 =
        (get_allocator_status (⟨c :: prev⟩ : allocator N)).1 + 1 := by
  have hb := ao_chain_bound (c :: prev) h c (List.mem_cons_self _ _)
  refine ⟨⟨hN, h.1, by simpa using hlt, h.2.2⟩, by omega, ?_, ?_, ?_⟩
  · rintro ⟨x, hx, i, hi, e⟩
    rcases List.mem_cons.mp hx with rfl | hx
    · omega
    · have := ao_live_bound prev h.2.2 (x.addr + i) ⟨x, hx, i, hi, rfl⟩
      have := h.1
      omega
  · intro q
    simp only [is_live, List.mem_cons, exists_eq_or_imp]
    constructor
    · rintro (⟨i, hi, e⟩ | hq)
      · rcases Nat.lt_succ_iff_lt_or_eq.mp hi with hlt' | rfl
        · exact Or.inr (Or.inl ⟨i, hlt', e⟩)
        · exact Or.inl e
      · exact Or.inr (Or.inr hq)
    · rintro (e | ⟨i, hi, e⟩ | hq)
      · exact Or.inl ⟨c.size, Nat.lt_succ_self _, e⟩
      · exact Or.inl ⟨i, Nat.lt_succ_of_lt hi, e⟩
      · exact Or.inr hq
  · rw [ao_status, ao_status]
    simp only [List.map_cons, List.sum_cons]
    omega

theorem ao_alloc_elem_spec (a : allocator N) (h : allocator_ok a) :
    ∃ a1 p, alloc_elem a = some (a1, p) ∧ allocator_ok a1 ∧ 2 ≤ p ∧ ¬ is_live a p ∧
      (∀ q, is_live a1 q ↔ q = p ∨ is_live a q) ∧
      (get_allocator_status a1).1 = (get_allocator_status a).1 + 1 := by
  obtain ⟨hN, hch⟩ := h
  have hnew : chain_ok N (internal_create_chunk N a.chunk) := ⟨rfl, Nat.zero_le _, hch⟩
  have hfresh : ∀ q, is_live (⟨internal_create_chunk N a.chunk⟩ : allocator N) q ↔
      is_live a q := by
    intro q
    simp only [is_live, internal_create_chunk, List.mem_cons, exists_eq_or_imp,
      Nat.not_lt_zero, false_and, exists_false, false_or]
  have hused : (get_allocator_status (⟨internal_create_chunk N a.chunk⟩ : allocator N)).1 =
      (get_allocator_status a).1 := by
    rw [ao_status, ao_status]
    simp [internal_create_chunk]
  have grow : ∃ a1 p, some ((⟨(⟨XMALLOC a.chunk.length (SIZEOF_CHUNK N),
        0 + 1⟩ : internal_chunk) :: a.chunk⟩ : allocator N),
        XMALLOC a.chunk.length (SIZEOF_CHUNK N) + 0) = some (a1, p) ∧
      allocator_ok a1 ∧ 2 ≤ p ∧ ¬ is_live a p ∧
      (∀ q, is_live a1 q ↔ q = p ∨ is_live a q) ∧
      (get_allocator_status a1).1 = (get_allocator_status a).1 + 1 := by
    obtain ⟨b1, b2, b3, b4, b5⟩ := ao_bump _ _ hN hnew hN
    refine ⟨_, _, rfl, b1, b2, fun hl => b3 ((hfresh _).2 hl), fun q => ?_, ?_⟩
    · rw [← hfresh q]; exact b4 q
    · rw [← hused]; exact b5
  rw [alloc_elem]
  cases hc : a.chunk with
  | nil =>
    rw [hc] at grow
    exact grow
  | cons c prev =>
    simp only
    by_cases hfull : c.size ≥ N
    · rw [if_pos hfull, ← hc]
      exact grow
    · rw [if_neg hfull]
      obtain ⟨b1, b2, b3, b4, b5⟩ := ao_bump c prev hN (hc ▸ hch) (by omega)
      have ea : a = ⟨c :: prev⟩ := by cases a; simp only at hc; rw [hc]
      rw [ea]
      exact ⟨_, _, rfl, b1, b2, b3, b4, b5⟩

end fixed_alloc.append_only

/-! ## The allocator -/

namespace fixed_alloc

variable {N : Nat}

theorem init_allocator_ok (hN : 0 < N) : allocator_ok (init_allocator : allocator N) :=
  ⟨hN, trivial⟩

theorem status_after_alloc (a a1 : allocator N) (p : Nat) (h : allocator_ok a)
    (h1 : allocator_ok a1) (hp : ¬ is_live a p)
    (hiff : ∀ q, is_live a1 q ↔ q = p ∨ is_live a q) :
    ∃ used allocated allocated1, get_allocator_status a = some (used, allocated) ∧
      get_allocator_status a1 = some (used + 1, allocated1) := by
  refine ⟨_, _, CHUNK_NUM_BITS * N * a1.cluster.length, status_spec a h, ?_⟩
  have := status_of_live a1 h1 (p :: live_slots a)
    (List.nodup_cons.2 ⟨fun hm => hp ((mem_live_slots a p).1 hm), nodup_live_slots a h⟩)
    (fun q => by rw [List.mem_cons, mem_live_slots, hiff])
  rw [this, List.length_cons]

theorem status_after_free (a a1 : allocator N) (p : Nat) (h : allocator_ok a)
    (h1 : allocator_ok a1) (hp : is_live a p) (hlen : a1.cluster.length = a.cluster.length)
    (hiff : ∀ q, is_live a1 q ↔ q ≠ p ∧ is_live a q) :
    ∃ used allocated, get_allocator_status a = some (used + 1, allocated) ∧
      get_allocator_status a1 = some (used, allocated) := by
  refine ⟨(live_slots a1).length, CHUNK_NUM_BITS * N * a.cluster.length, ?_,
    hlen ▸ status_spec a1 h1⟩
  have := status_of_live a h (p :: live_slots a1)
    (List.nodup_cons.2 ⟨fun hm => ((hiff p).1 ((mem_live_slots a1 p).1 hm)).1 rfl,
      nodup_live_slots a1 h1⟩)
    (fun q => by
      rw [List.mem_cons, mem_live_slots, hiff]
      constructor
      · rintro (rfl | ⟨_, hq⟩)
        · exact hp
        · exact hq
      · intro hq
        by_cases e : q = p
        · exact Or.inl e
        · exact Or.inr ⟨e, hq⟩)
  rw [this, List.length_cons]

theorem live_position (a : allocator N) (before after : List internal_chunk_cluster)
    (c : internal_chunk_cluster) (i j : Nat) (h : allocator_ok a)
    (hcl : a.cluster = before ++ c :: after) (hi : i < N) (hj : j < CHUNK_NUM_BITS)
    (hl : is_live a (arr_addr (chunk_addr c.addr i) j)) : slot_used c i j := by
  obtain ⟨c', hc', i', hi', j', hj', e, hu⟩ := hl
  obtain ⟨b', a', hd⟩ := List.append_of_mem hc'
  have f1 := free_find_at h.1 c after i j hi hj before (hcl ▸ h.2)
  have f2 := free_find_at h.1 c' a' i' j' hi' hj' b' (hd ▸ h.2)
  rw [← hcl, e] at f1
  rw [← hd, f1] at f2
  simp only [Option.some.injEq, Prod.mk.injEq] at f2
  obtain ⟨_, rfl, _⟩ := f2
  obtain ⟨rfl, rfl⟩ := slot_inj c.addr i j i' j' hj hj' e
  exact hu

end fixed_alloc

/-- C17: `alloc_elem` always succeeds with a fresh slot, in both allocator
modes.  For every state of the allocator with `free_elem` and every state of
the allocator without it that satisfies `allocator_ok` (which holds of the
initialised allocator with a positive chunk parameter and is kept by every
call), `alloc_elem` returns; the element it returns is not the null pointer
and was not in use before the call, so it differs from every element that
was; after the call the elements in use are that one and those in use before;
and the count `used` of `get_allocator_status` is one more than before. -/
theorem C17_alloc_elem_returns_fresh_slot {N M : Nat} (a : fixed_alloc.allocator N)
    (b : fixed_alloc.append_only.allocator M) (ha : fixed_alloc.allocator_ok a)
    (hb : fixed_alloc.append_only.allocator_ok b) :
    (∃ a1 p used allocated allocated1, fixed_alloc.alloc_elem a = some (a1, p) ∧
      fixed_alloc.allocator_ok a1 ∧ p ≠ NULL ∧ ¬ fixed_alloc.is_live a p ∧
      (∀ q, fixed_alloc.is_live a q → q ≠ p) ∧
      (∀ q, fixed_alloc.is_live a1 q ↔ q = p ∨ fixed_alloc.is_live a q) ∧
      fixed_alloc.get_allocator_status a = some (used, allocated) ∧
      fixed_alloc.get_allocator_status a1 = some (used + 1, allocated1)) ∧
    (∃ b1 p, fixed_alloc.append_only.alloc_elem b = some (b1, p) ∧
      fixed_alloc.append_only.allocator_ok b1 ∧ p ≠ NULL ∧
      ¬ fixed_alloc.append_only.is_live b p ∧
      (∀ q, fixed_alloc.append_only.is_live b q → q ≠ p) ∧
      (∀ q, fixed_alloc.append_only.is_live b1 q ↔
        q = p ∨ fixed_alloc.append_only.is_live b q) ∧
      (fixed_alloc.append_only.get_allocator_status b1).1 =
        (fixed_alloc.append_only.get_allocator_status b).1 + 1) := by
  constructor
  · obtain ⟨a1, p, h1, h2, h3, h4, h5⟩ := fixed_alloc.alloc_elem_spec a ha
    obtain ⟨used, al, al1, s1, s2⟩ := fixed_alloc.status_after_alloc a a1 p ha h2 h4 h5
    refine ⟨a1, p, used, al, al1, h1, h2, ?_, h4, ?_, h5, s1, s2⟩
    · simp only [NULL]; omega
    · rintro q hq rfl
      exact h4 hq
  · obtain ⟨b1, p, h1, h2, h3, h4, h5, h6⟩ := fixed_alloc.append_only.ao_alloc_elem_spec b hb
    refine ⟨b1, p, h1, h2, ?_, h4, ?_, h5, h6⟩
    · simp only [NULL]; omega
    · rintro q hq rfl
      exact h4 hq

theorem C17_alloc_elem_returns_fresh_slot_witness :
    fixed_alloc.allocator_ok fixed_alloc.example_allocator ∧
    fixed_alloc.append_only.allocator_ok
      (fixed_alloc.append_only.init_allocator : fixed_alloc.append_only.allocator 4) ∧
    (∃ a1 p used allocated allocated1,
      fixed_alloc.alloc_elem fixed_alloc.example_allocator = some (a1, p) ∧
      fixed_alloc.allocator_ok a1 ∧ p ≠ NULL ∧
      ¬ fixed_alloc.is_live fixed_alloc.example_allocator p ∧
      (∀ q, fixed_alloc.is_live fixed_alloc.example_allocator q → q ≠ p) ∧
      (∀ q, fixed_alloc.is_live a1 q ↔
        q = p ∨ fixed_alloc.is_live fixed_alloc.example_allocator q) ∧
      fixed_alloc.get_allocator_status fixed_alloc.example_allocator =
        some (used, allocated) ∧
      fixed_alloc.get_allocator_status a1 = some (used + 1, allocated1)) ∧
    (∃ b1 p, fixed_alloc.append_only.alloc_elem
        (fixed_alloc.append_only.init_allocator : fixed_alloc.append_only.allocator 4) =
          some (b1, p) ∧
      fixed_alloc.append_only.allocator_ok b1 ∧ p ≠ NULL ∧
      ¬ fixed_alloc.append_only.is_live
        (fixed_alloc.append_only.init_allocator : fixed_alloc.append_only.allocator 4) p ∧
      (∀ q, fixed_alloc.append_only.is_live
        (fixed_alloc.append_only.init_allocator : fixed_alloc.append_only.allocator 4) q →
          q ≠ p) ∧
      (∀ q, fixed_alloc.append_only.is_live b1 q ↔ q = p ∨ fixed_alloc.append_only.is_live
        (fixed_alloc.append_only.init_allocator : fixed_alloc.append_only.allocator 4) q) ∧
      (fixed_alloc.append_only.get_allocator_status b1).1 =
        (fixed_alloc.append_only.get_allocator_status
          (fixed_alloc.append_only.init_allocator :
            fixed_alloc.append_only.allocator 4)).1 + 1) :=
  ⟨fixed_alloc.example_allocator_ok, ⟨by decide, trivial⟩,
    C17_alloc_elem_returns_fresh_slot fixed_alloc.example_allocator
      fixed_alloc.append_only.init_allocator fixed_alloc.example_allocator_ok
      ⟨by decide, trivial⟩⟩

/-- C18: `free_elem` releases exactly one slot.  For every state of the
allocator that satisfies `allocator_ok` and every element `e` in use,
`free_elem` returns; afterwards `e` is not in use and every other element is
in use exactly if it was; `get_allocator_status` reports one element less in
use and the same capacity; and the clusters are the ones before, except that
in the cluster `c` with `e = c.chunks[i].arr[j]` the hint `nfc_index` has
become the smaller of its old value and `i`. -/
theorem C18_free_elem_releases_one_slot {N : Nat} (a : fixed_alloc.allocator N) (e : Nat)
    (h : fixed_alloc.allocator_ok a) (he : fixed_alloc.is_live a e) :
    ∃ a1 used allocated before c c1 after i j, fixed_alloc.free_elem a e = some a1 ∧
      fixed_alloc.allocator_ok a1 ∧ ¬ fixed_alloc.is_live a1 e ∧
      (∀ q, q ≠ e → (fixed_alloc.is_live a1 q ↔ fixed_alloc.is_live a q)) ∧
      fixed_alloc.get_allocator_status a = some (used + 1, allocated) ∧
      fixed_alloc.get_allocator_status a1 = some (used, allocated) ∧
      a.cluster = before ++ c :: after ∧ a1.cluster = before ++ c1 :: after ∧
      i < N ∧ j < fixed_alloc.CHUNK_NUM_BITS ∧
      e = fixed_alloc.arr_addr (fixed_alloc.chunk_addr c.addr i) j ∧
      c1.addr = c.addr ∧ c1.nfc_index = min c.nfc_index i := by
  obtain ⟨a1, h1, h2, h3⟩ := fixed_alloc.free_elem_spec a e h he
  obtain ⟨c, hc, i, hi, j, hj, rfl, ch, hget, hbit⟩ := he
  obtain ⟨before, after, hd⟩ := List.append_of_mem hc
  have hat := fixed_alloc.free_elem_at a before after c ch i j h hd hi hj hget hbit
  rw [h1] at hat
  simp only [Option.some.injEq] at hat
  have hlive : fixed_alloc.is_live a (fixed_alloc.arr_addr (fixed_alloc.chunk_addr c.addr i) j) :=
    ⟨c, hc, i, hi, j, hj, rfl, ch, hget, hbit⟩
  have hlen : a1.cluster.length = a.cluster.length := by
    rw [hat, hd]
    simp only [List.length_append, List.length_cons]
  obtain ⟨used, al, s1, s2⟩ := fixed_alloc.status_after_free a a1 _ h h2 hlive hlen h3
  refine ⟨a1, used, al, before, c, ⟨c.addr, min c.nfc_index i, c.chunks.set i
    ⟨ch.free_mask &&& (fixed_alloc.MASK_TYPE_MAX ^^^ (1 <<< j))⟩⟩, after, i, j, h1, h2,
    fun hl => ((h3 _).1 hl).1 rfl, fun q hq => ?_, s1, s2, hd, by rw [hat], hi, hj, rfl, rfl,
    rfl⟩
  rw [h3 q]
  exact ⟨fun x => x.2, fun x => ⟨hq, x⟩⟩

theorem C18_free_elem_releases_one_slot_witness :
    fixed_alloc.allocator_ok fixed_alloc.example_allocator ∧
    fixed_alloc.is_live fixed_alloc.example_allocator 5 ∧
    ∃ a1 used allocated before c c1 after i j,
      fixed_alloc.free_elem fixed_alloc.example_allocator 5 = some a1 ∧
      fixed_alloc.allocator_ok a1 ∧ ¬ fixed_alloc.is_live a1 5 ∧
      (∀ q, q ≠ 5 → (fixed_alloc.is_live a1 q ↔
        fixed_alloc.is_live fixed_alloc.example_allocator q)) ∧
      fixed_alloc.get_allocator_status fixed_alloc.example_allocator =
        some (used + 1, allocated) ∧
      fixed_alloc.get_allocator_status a1 = some (used, allocated) ∧
      fixed_alloc.example_allocator.cluster = before ++ c :: after ∧
      a1.cluster = before ++ c1 :: after ∧
      i < 1 ∧ j < fixed_alloc.CHUNK_NUM_BITS ∧
      5 = fixed_alloc.arr_addr (fixed_alloc.chunk_addr c.addr i) j ∧
      c1.addr = c.addr ∧ c1.nfc_index = min c.nfc_index i :=
  ⟨fixed_alloc.example_allocator_ok, fixed_alloc.example_live,
    C18_free_elem_releases_one_slot fixed_alloc.example_allocator 5
      fixed_alloc.example_allocator_ok fixed_alloc.example_live⟩

/-- C19: freeing and reallocating reuses the freed slot.  For every state of
the allocator that satisfies `allocator_ok` and every element `e` in use such
that no free element precedes `e` in the order in which `alloc_elem` scans
(clusters most recent first, chunks ascending, elements ascending),
`free_elem` of `e` followed by `alloc_elem` returns exactly `e`; the
allocator has as many clusters as before and `get_allocator_status` reports
what it reported before. -/
theorem C19_free_then_alloc_reuses_slot {N : Nat} (a : fixed_alloc.allocator N) (e : Nat)
    (h : fixed_alloc.allocator_ok a) (he : fixed_alloc.is_live a e)
    (hfirst : fixed_alloc.no_free_before a e) :
    ∃ a1 a2, fixed_alloc.free_elem a e = some a1 ∧ fixed_alloc.alloc_elem a1 = some (a2, e) ∧
      a2.cluster.length = a.cluster.length ∧
      fixed_alloc.get_allocator_status a2 = fixed_alloc.get_allocator_status a := by
  obtain ⟨before, c, after, i, j, hcl, hi, hj, rfl, hb, hc, hbits⟩ := hfirst
  have hused := fixed_alloc.live_position a before after c i j h hcl hi hj he
  obtain ⟨a1, a2, f1, f2, f3⟩ :=
    fixed_alloc.free_alloc_reuse a before after c i j h hcl hi hj hused hb hc hbits
  obtain ⟨a1', g1, g2, g3⟩ := fixed_alloc.free_elem_spec a _ h he
  rw [f1] at g1
  cases g1
  obtain ⟨a2', p, k1, k2, _, _, k5⟩ := fixed_alloc.alloc_elem_spec a1 g2
  rw [f2] at k1
  cases k1
  refine ⟨a1, a2, f1, f2, f3, ?_⟩
  rw [fixed_alloc.status_spec a h, ← f3]
  refine fixed_alloc.status_of_live a2 k2 _ (fixed_alloc.nodup_live_slots a h) (fun q => ?_)
  rw [fixed_alloc.mem_live_slots, k5, g3]
  constructor
  · intro hq
    by_cases e : q = fixed_alloc.arr_addr (fixed_alloc.chunk_addr c.addr i) j
    · exact Or.inl e
    · exact Or.inr ⟨e, hq⟩
  · rintro (rfl | ⟨_, hq⟩)
    · exact he
    · exact hq

theorem C19_free_then_alloc_reuses_slot_witness :
    fixed_alloc.allocator_ok fixed_alloc.example_allocator ∧
    fixed_alloc.is_live fixed_alloc.example_allocator 5 ∧
    fixed_alloc.no_free_before fixed_alloc.example_allocator 5 ∧
    ∃ a1 a2, fixed_alloc.free_elem fixed_alloc.example_allocator 5 = some a1 ∧
      fixed_alloc.alloc_elem a1 = some (a2, 5) ∧
      a2.cluster.length = fixed_alloc.example_allocator.cluster.length ∧
      fixed_alloc.get_allocator_status a2 =
        fixed_alloc.get_allocator_status fixed_alloc.example_allocator :=
  ⟨fixed_alloc.example_allocator_ok, fixed_alloc.example_live,
    ⟨[], _, [], 0, 0, rfl, by decide, by decide, rfl,
      fun _ hb => absurd hb (List.not_mem_nil _), fun _ hi => absurd hi (Nat.not_lt_zero _),
      fun _ hj => absurd hj (Nat.not_lt_zero _)⟩,
    C19_free_then_alloc_reuses_slot fixed_alloc.example_allocator 5
      fixed_alloc.example_allocator_ok fixed_alloc.example_live
      ⟨[], _, [], 0, 0, rfl, by decide, by decide, rfl,
        fun _ hb => absurd hb (List.not_mem_nil _), fun _ hi => absurd hi (Nat.not_lt_zero _),
        fun _ hj => absurd hj (Nat.not_lt_zero _)⟩⟩

/-- C20, as amended: the status of the allocator in the capacity-4 scenario.
With `FIXED_ALLOC_INITIAL_CHUNK_SIZE` set to 4, in the allocator with
`free_elem` (whose masks have 64 bits) four allocations in a row from the
initialised allocator make `get_allocator_status` report 4 elements in use
and a capacity of 256, and a fifth makes it report 5 in use and still 256;
the pairs (4, 4) and (5, 8) are what the allocator without `free_elem`
reports. -/
theorem C20_status_in_capacity_4_scenario :
    ((fixed_alloc.alloc_times 4 (fixed_alloc.init_allocator : fixed_alloc.allocator 4)).bind
        fixed_alloc.get_allocator_status = some (4, 256) ∧
      (fixed_alloc.alloc_times 5 (fixed_alloc.init_allocator : fixed_alloc.allocator 4)).bind
        fixed_alloc.get_allocator_status = some (5, 256)) ∧
    ((fixed_alloc.append_only.alloc_times 4
        (fixed_alloc.append_only.init_allocator : fixed_alloc.append_only.allocator 4)).map
        fixed_alloc.append_only.get_allocator_status = some (4, 4) ∧
      (fixed_alloc.append_only.alloc_times 5
        (fixed_alloc.append_only.init_allocator : fixed_alloc.append_only.allocator 4)).map
        fixed_alloc.append_only.get_allocator_status = some (5, 8)) := by
  decide

/-- C20, as stated, fails: with `FIXED_ALLOC_INITIAL_CHUNK_SIZE` set to 4 the
allocator with `free_elem` does not report (4, 4) after four allocations and
(5, 8) after five. -/
theorem C20_status_in_capacity_4_scenario_counterexample :
    ¬ ((fixed_alloc.alloc_times 4 (fixed_alloc.init_allocator : fixed_alloc.allocator 4)).bind
        fixed_alloc.get_allocator_status = some (4, 4) ∧
      (fixed_alloc.alloc_times 5 (fixed_alloc.init_allocator : fixed_alloc.allocator 4)).bind
        fixed_alloc.get_allocator_status = some (5, 8)) := by
  decide

/-! ## `tree_foreach` of the red-black tree -/

namespace rb_tree

variable {α β : Type} {N : Nat}

theorem go_up_spec (t : tree α β N) : ∀ (ctx : List (frame α β)) (a c : Nat) (k : α) (v : β)
    (l r : rbt α β) (fuel : Nat), layout t (plug ctx (.node a c k v l r)) → ctx.length < fuel →
    (tree_foreach.go_up t fuel a = some none ∧ addrs_after ctx = []) ∨
    ∃ p pc pk pv pl pr fs, tree_foreach.go_up t fuel a = some (some p) ∧
      layout t (plug fs (.node p pc pk pv pl pr)) ∧
      addrs_after ctx = p :: pr.addrs ++ addrs_after fs := by
  intro ctx
  induction ctx with
  | nil =>
    intro a c k v l r fuel h hf
    have F := layout_focus t [] a c k v l r h
    cases fuel with
    | zero => simp at hf
    | succ n =>
      left
      refine ⟨?_, rfl⟩
      have e0 : (t.mem a).parent = NULL := F.parent
      rw [tree_foreach.go_up, if_pos e0]
  | cons f fs ih =>
    intro a c k v l r fuel h hf
    have F := layout_focus t (f :: fs) a c k v l r h
    cases fuel with
    | zero => simp at hf
    | succ n =>
      rw [tree_foreach.go_up]
      cases f with
      | left fa fc fk fv fr =>
        have G := layout_focus t fs fa fc fk fv (.node a c k v l r) fr h
        have e1 : (t.mem a).parent = fa := F.parent
        have e2 : (t.mem fa).right ≠ a := by
          rw [G.right]
          exact fun e => G.left_ne_right F.ne_leaf e.symm
        have e3 : (t.mem fa).left = a := G.left
        rw [e1, if_neg G.ne_null, if_neg e2, if_pos e3]
        right
        exact ⟨fa, fc, fk, fv, _, fr, fs, rfl, h, rfl⟩
      | right fa fc fk fv fl =>
        have G := layout_focus t fs fa fc fk fv fl (.node a c k v l r) h
        have e1 : (t.mem a).parent = fa := F.parent
        have e3 : (t.mem fa).right = a := G.right
        rw [e1, if_neg G.ne_null, if_pos e3]
        exact ih fa fc fk fv fl _ n h (by simpa using hf)

end rb_tree

namespace rb_tree

variable {α β : Type} {N : Nat} {σ : Type}

theorem loop_skip_left (t : tree α β N) (cb : σ → Nat → σ) (fuel a : Nat) (acc : σ)
    (h : (t.mem a).left = leaf) :
    tree_foreach.loop t cb fuel a true acc = tree_foreach.loop t cb fuel a false acc := by
  cases fuel with
  | zero => rfl
  | succ n => simp [tree_foreach.loop, h]

theorem visit_step (t : tree α β N) (cb : σ → Nat → σ) (n : Nat)
    (ih : ∀ m, m < n → visit_ok t cb m ∧ walk_ok t cb m) : visit_ok t cb n := by
  intro ctx a c k v l r acc h hn
  have F := layout_focus t ctx a c k v l r h
  cases r with
  | node ra rc rk rv rl rr =>
    have hr : (t.mem a).right = ra := F.right
    have hne : ra ≠ leaf := F.rep_right.2.2.1
    obtain ⟨F1, hF1⟩ := (ih (n - 1) (by simp at hn; omega)).2 (.node ra rc rk rv rl rr)
      (.right a c k v l :: ctx) (cb acc a) (by simp) h
      (by simp only [addrs_after]; simp at hn ⊢; omega)
    refine ⟨F1 + 1, fun fuel hf => ?_⟩
    obtain ⟨m, rfl⟩ : ∃ m, fuel = m + 1 := ⟨fuel - 1, by omega⟩
    rw [tree_foreach.loop]
    simp only [Bool.false_eq_true, false_and, if_false, hr, ne_eq, hne, not_false_eq_true,
      if_true]
    rw [show ra = (rbt.node ra rc rk rv rl rr).ptr from rfl, hF1 m (by omega)]
    rfl
  | nil =>
    have hr : (t.mem a).right = leaf := F.right
    have step : ∀ m, tree_foreach.loop t cb (m + 1) a false acc =
        match tree_foreach.go_up t m a with
        | none => none
        | some none => some (cb acc a)
        | some (some parent) => tree_foreach.loop t cb m parent false (cb acc a) := by
      intro m
      rw [tree_foreach.loop]
      simp only [Bool.false_eq_true, false_and, if_false, hr, ne_eq, not_true_eq_false]
      try rfl
    have hup : ∀ m, ctx.length < m → _ := fun m hm => go_up_spec t ctx a c k v l .nil m h hm
    rcases hup (ctx.length + 1) (Nat.lt_succ_self _) with ⟨_, e2⟩ | ⟨p, pc, pk, pv, pl, pr, fs, _, e2, e3⟩
    · refine ⟨ctx.length + 2, fun fuel hf => ?_⟩
      obtain ⟨m, rfl⟩ : ∃ m, fuel = m + 1 := ⟨fuel - 1, by omega⟩
      rcases hup m (by omega) with ⟨g1, _⟩ | ⟨p, pc, pk, pv, pl, pr, fs, _, _, g3⟩
      · rw [step, g1, e2]
        rfl
      · rw [e2] at g3; simp at g3
    · obtain ⟨F1, hF1⟩ := (ih (n - 1) (by simp at hn; omega)).1 fs p pc pk pv pl pr (cb acc a) e2
        (by rw [← hn, e3]; simp [rbt.addrs])
      refine ⟨max (ctx.length + 1) F1 + 1, fun fuel hf => ?_⟩
      obtain ⟨m, rfl⟩ : ∃ m, fuel = m + 1 := ⟨fuel - 1, by omega⟩
      have hm1 : ctx.length < m := by
        have := le_max_left (ctx.length + 1) F1; omega
      have hm2 : F1 ≤ m := by
        have := le_max_right (ctx.length + 1) F1; omega
      rcases hup m hm1 with ⟨_, g2⟩ | ⟨p', pc', pk', pv', pl', pr', fs', g1, _, g3⟩
      · rw [e3] at g2; simp at g2
      · have ep : p' = p := by
          rw [e3] at g3
          simp only [List.cons_append, List.cons.injEq] at g3
          exact g3.1.symm
        subst ep
        rw [step, g1]
        simp only
        rw [hF1 m hm2, e3]
        rfl

theorem walk_step (t : tree α β N) (cb : σ → Nat → σ) (n : Nat) (hv : visit_ok t cb n) :
    walk_ok t cb n := by
  intro s
  induction s with
  | nil => intro ctx acc hs; exact absurd rfl hs
  | node a c k v l r ihl _ =>
    intro ctx acc _ h hn
    have F := layout_focus t ctx a c k v l r h
    cases l with
    | nil =>
      have hl : (t.mem a).left = leaf := F.left
      obtain ⟨F1, hF1⟩ := hv ctx a c k v .nil r acc h (by rw [← hn]; simp [rbt.addrs])
      refine ⟨F1, fun fuel hf => ?_⟩
      rw [show (rbt.node a c k v rbt.nil r).ptr = a from rfl, loop_skip_left t cb fuel a acc hl,
        hF1 fuel hf]
      simp [rbt.addrs]
    | node la lc lk lv ll lr =>
      have hl : (t.mem a).left = la := F.left
      have hne : la ≠ leaf := F.rep_left.2.2.1
      obtain ⟨F1, hF1⟩ := ihl (.left a c k v r :: ctx) acc (by simp) h
        (by rw [← hn]; simp [rbt.addrs, addrs_after])
      refine ⟨F1 + 1, fun fuel hf => ?_⟩
      obtain ⟨m, rfl⟩ : ∃ m, fuel = m + 1 := ⟨fuel - 1, by omega⟩
      rw [show (rbt.node a c k v (rbt.node la lc lk lv ll lr) r).ptr = a from rfl,
        tree_foreach.loop]
      simp only [true_and, hl, ne_eq, hne, not_false_eq_true, if_true]
      rw [show la = (rbt.node la lc lk lv ll lr).ptr from rfl, hF1 m (by omega)]
      simp [rbt.addrs, addrs_after]

theorem foreach_steps (t : tree α β N) (cb : σ → Nat → σ) :
    ∀ n, visit_ok t cb n ∧ walk_ok t cb n := by
  intro n
  induction n using Nat.strong_induction_on with
  | _ n ih =>
    have hv := visit_step t cb n ih
    exact ⟨hv, walk_step t cb n hv⟩

theorem tree_foreach_spec (t : tree α β N) (T : rbt α β) (cb : σ → Nat → σ) (acc : σ)
    (h : layout t T) (hT : T ≠ .nil) :
    ∃ F, ∀ fuel, F ≤ fuel → tree_foreach fuel t acc cb = some (T.addrs.foldl cb acc) := by
  obtain ⟨F, hF⟩ := (foreach_steps t cb _).2 T [] acc hT h rfl
  refine ⟨F, fun fuel hf => ?_⟩
  rw [tree_foreach, Rep_ptr _ _ _ _ h.1, hF fuel hf]
  simp [addrs_after]

end rb_tree

/-! ## Traversal -/

namespace avl_tree

variable {α : Type} {N : Nat} {σ : Type}

theorem internal_foreach_eq (cb : σ → node α → σ) (n : node α) :
    ∀ acc, internal_tree_foreach cb acc n = (inorder n).foldl cb acc := by
  induction n with
  | sentinel => intro acc; rfl
  | mk a k b l r ihl ihr =>
    intro acc
    rw [internal_tree_foreach, ihl, ihr, inorder, List.foldl_append, List.foldl_cons]

theorem foldl_log {γ δ : Type} (f : γ → δ) (l : List γ) :
    ∀ acc : List δ, l.foldl (fun acc n => acc ++ [f n]) acc = acc ++ l.map f := by
  induction l with
  | nil => intro acc; simp
  | cons x xs ih => intro acc; rw [List.foldl_cons, ih]; simp

theorem inorder_keys (t : tree α N) (n : node α) : (inorder n).map (key_of t) = keys n := by
  induction n with
  | sentinel => rfl
  | mk a k b l r ihl ihr => simp [inorder, keys, ihl, ihr, key_of]

theorem inorder_real (n : node α) : ∀ x ∈ inorder n, x ≠ .sentinel := by
  induction n with
  | sentinel => intro x hx; simp [inorder] at hx
  | mk a k b l r ihl ihr =>
    intro x hx
    simp only [inorder, List.mem_append, List.mem_cons] at hx
    rcases hx with hx | rfl | hx
    · exact ihl x hx
    · exact fun e => node.noConfusion e
    · exact ihr x hx

theorem visited_keys_eq (t : tree α N) : visited_keys t = keys t.root := by
  rw [visited_keys, tree_foreach, internal_foreach_eq, foldl_log, List.nil_append, inorder_keys]

end avl_tree

namespace rb_tree

variable {α β : Type} {N : Nat}

theorem inorder_walk_spec (t : tree α β N) (T : rbt α β) :
    ∀ (p par fuel : Nat), Rep t.mem p par T → T.addrs.length < fuel →
      inorder_walk t fuel p = some T.addrs := by
  induction T with
  | nil =>
    intro p par fuel h hf
    have hp : p = leaf := h
    cases fuel with
    | zero => simp at hf
    | succ n => rw [inorder_walk, if_pos hp]; rfl
  | node a c k v l r ihl ihr =>
    intro p par fuel h hf
    obtain ⟨rfl, _, h2, _, _, _, _, hl, hr⟩ := h
    cases fuel with
    | zero => simp at hf
    | succ n =>
      simp only [rbt.addrs, List.length_append, List.length_cons] at hf
      rw [inorder_walk, if_neg h2, ihl _ _ n hl (by omega), ihr _ _ n hr (by omega)]
      rfl

theorem addrs_keys (m : Nat → node α β) (T : rbt α β) :
    ∀ (p par : Nat), Rep m p par T → T.addrs.map (fun q => (m q).key) = T.keys := by
  induction T with
  | nil => intro p par _; rfl
  | node a c k v l r ihl ihr =>
    intro p par h
    obtain ⟨_, _, _, h3, _, _, _, hl, hr⟩ := h
    simp only [rbt.addrs, rbt.keys, List.map_append, List.map_cons, ihl _ _ hl, ihr _ _ hr, h3]

end rb_tree

/-- C14: the AVL `tree_foreach` enumerates the tree in ascending order.  For
every tree in BST order, the keys passed to the callback, in the order of the
calls, are the keys stored in the tree, each once: the list is strictly
ascending and has no repetition.  For every callback, the calls are those for
the real nodes in order, left subtree, node, right subtree. -/
theorem C14_avl_foreach_ascending {α : Type} [LinearOrder α] {N : Nat}
    (t : avl_tree.tree α N) (hb : avl_tree.bst t.root) :
    avl_tree.visited_keys t = avl_tree.keys t.root ∧
    (avl_tree.visited_keys t).Pairwise (· < ·) ∧ (avl_tree.visited_keys t).Nodup ∧
    ∀ (σ : Type) (cb : σ → avl_tree.node α → σ) (acc : σ),
      avl_tree.tree_foreach t acc cb = (avl_tree.inorder t.root).foldl cb acc := by
  have hs : (avl_tree.visited_keys t).Pairwise (· < ·) := by
    rw [avl_tree.visited_keys_eq]
    exact (avl_tree.avl_bst_iff_sorted t.root).1 hb
  exact ⟨avl_tree.visited_keys_eq t, hs, hs.imp (fun h => ne_of_lt h),
    fun σ cb acc => avl_tree.internal_foreach_eq cb t.root acc⟩

theorem C14_avl_foreach_ascending_witness :
    avl_tree.bst avl_tree.example_tree.root ∧
    avl_tree.visited_keys avl_tree.example_tree = avl_tree.keys avl_tree.example_tree.root ∧
    (avl_tree.visited_keys avl_tree.example_tree).Pairwise (· < ·) ∧
    (avl_tree.visited_keys avl_tree.example_tree).Nodup ∧
    ∀ (σ : Type) (cb : σ → avl_tree.node Int → σ) (acc : σ),
      avl_tree.tree_foreach avl_tree.example_tree acc cb =
        (avl_tree.inorder avl_tree.example_tree.root).foldl cb acc :=
  ⟨avl_tree.example_bst, C14_avl_foreach_ascending avl_tree.example_tree avl_tree.example_bst⟩

/-- C15: the iterative `tree_foreach` of the red-black tree agrees with the
recursive in-order walk.  For every structure laid out as a non-empty tree
`T` (the parent link of every node is its parent, that of the root is null)
and every callback, with enough fuel the loop ends and has called the
callback for the nodes of `T` in order; with the callback that records its
argument, the record is what the recursive walk `inorder_walk` returns; and
the keys of the nodes in this order are the keys of `T`, strictly ascending
if `T` is in BST order. -/
theorem C15_rb_foreach_is_inorder_walk {α β : Type} [LinearOrder α] {N : Nat}
    (t : rb_tree.tree α β N) (T : rb_tree.rbt α β) (h : rb_tree.layout t T)
    (hT : T ≠ .nil) :
    (∀ (σ : Type) (cb : σ → Nat → σ) (acc : σ), ∃ F, ∀ fuel, F ≤ fuel →
      rb_tree.tree_foreach fuel t acc cb = some (T.addrs.foldl cb acc)) ∧
    (∃ F, ∀ fuel, F ≤ fuel →
      rb_tree.tree_foreach fuel t [] (fun acc n => acc ++ [n]) =
        rb_tree.inorder_walk t fuel t.root ∧
      rb_tree.inorder_walk t fuel t.root = some T.addrs) ∧
    T.addrs.map (fun p => (t.mem p).key) = T.keys ∧
    (rb_tree.bst T → (T.addrs.map (fun p => (t.mem p).key)).Pairwise (· < ·)) := by
  refine ⟨fun σ cb acc => rb_tree.tree_foreach_spec t T cb acc h hT, ?_,
    rb_tree.addrs_keys t.mem T _ _ h.1, fun hb => ?_⟩
  · obtain ⟨F, hF⟩ := rb_tree.tree_foreach_spec t T (fun acc n => acc ++ [n]) [] h hT
    refine ⟨max F (T.addrs.length + 1), fun fuel hf => ?_⟩
    have hw := rb_tree.inorder_walk_spec t T _ _ fuel h.1
      (by have := le_max_right F (T.addrs.length + 1); omega)
    rw [hw, hF fuel (le_trans (le_max_left _ _) hf)]
    have := avl_tree.foldl_log (fun n : Nat => n) T.addrs []
    simp only [List.map_id', List.nil_append] at this
    exact ⟨congrArg some this, rfl⟩
  · rw [rb_tree.addrs_keys t.mem T _ _ h.1]
    exact (rb_tree.bst_iff_sorted T).1 hb

theorem C15_rb_foreach_is_inorder_walk_witness :
    rb_tree.layout rb_tree.example_tree rb_tree.example_rbt ∧
    rb_tree.example_rbt ≠ .nil ∧
    (∀ (σ : Type) (cb : σ → Nat → σ) (acc : σ), ∃ F, ∀ fuel, F ≤ fuel →
      rb_tree.tree_foreach fuel rb_tree.example_tree acc cb =
        some (rb_tree.example_rbt.addrs.foldl cb acc)) ∧
    (∃ F, ∀ fuel, F ≤ fuel →
      rb_tree.tree_foreach fuel rb_tree.example_tree [] (fun acc n => acc ++ [n]) =
        rb_tree.inorder_walk rb_tree.example_tree fuel rb_tree.example_tree.root ∧
      rb_tree.inorder_walk rb_tree.example_tree fuel rb_tree.example_tree.root =
        some rb_tree.example_rbt.addrs) ∧
    rb_tree.example_rbt.addrs.map (fun p => (rb_tree.example_tree.mem p).key) =
      rb_tree.example_rbt.keys ∧
    (rb_tree.bst rb_tree.example_rbt →
      (rb_tree.example_rbt.addrs.map
        (fun p => (rb_tree.example_tree.mem p).key)).Pairwise (· < ·)) :=
  ⟨rb_tree.example_is_rb_tree.1, fun e => rb_tree.rbt.noConfusion e,
    C15_rb_foreach_is_inorder_walk rb_tree.example_tree rb_tree.example_rbt
      rb_tree.example_is_rb_tree.1 (fun e => rb_tree.rbt.noConfusion e)⟩

/-- C16 at the empty tree: on a tree that `init_tree` has just initialised,
the AVL `tree_foreach` does not call the callback, and the red-black
`tree_foreach` calls it once, with the leaf element. -/
theorem C16_foreach_of_empty_tree {α β σ : Type} {N : Nat} (ta : avl_tree.tree α N)
    (tr : rb_tree.tree α β N) (cba : σ → avl_tree.node α → σ) (cbr : σ → Nat → σ) (acc : σ)
    (fuel : Nat) :
    avl_tree.tree_foreach (avl_tree.init_tree ta) acc cba = acc ∧
    rb_tree.tree_foreach (fuel + 2) (rb_tree.init_tree tr) acc cbr =
      some (cbr acc rb_tree.leaf) := by
  constructor
  · rfl
  · simp [rb_tree.tree_foreach, rb_tree.tree_foreach.loop, rb_tree.tree_foreach.go_up,
      rb_tree.init_tree, rb_tree.set_parent, rb_tree.set_left, rb_tree.set_right,
      rb_tree.set_color]

namespace rb_tree

variable {α β : Type} {N : Nat}

theorem removed_eq {γ δ : Type} (f : γ → δ) (EA EB : List γ) (e : γ) (X Y : List δ) (x : δ)
    (h1 : (EA ++ e :: EB).map f = X ++ x :: Y) (h2 : (EA ++ EB).map f = X ++ Y)
    (hnd : (X ++ x :: Y).Nodup) : f e = x := by
  by_contra hne
  have hx : x ∈ (EA ++ e :: EB).map f := by rw [h1]; simp
  have hx2 : x ∈ (EA ++ EB).map f := by
    simp only [List.map_append, List.map_cons, List.mem_append, List.mem_cons] at hx ⊢
    rcases hx with hx | hx | hx
    · exact Or.inl hx
    · exact absurd hx.symm hne
    · exact Or.inr hx
  rw [h2] at hx2
  have := List.nodup_middle.1 hnd
  exact (List.nodup_cons.1 this).1 hx2

theorem Rep_entries (m : Nat → node α β) (T : rbt α β) :
    ∀ (p par : Nat), Rep m p par T → ∀ q j w, (q, j, w) ∈ T.entries →
      (m q).key = j ∧ (m q).value = w := by
  induction T with
  | nil => intro p par _ q j w hq; simp [rbt.entries] at hq
  | node a c k v l r ihl ihr =>
    intro p par h q j w hq
    obtain ⟨_, _, _, h3, h4, _, _, hl, hr⟩ := h
    simp only [rbt.entries, List.mem_append, List.mem_cons, Prod.mk.injEq] at hq
    rcases hq with hq | ⟨rfl, rfl, rfl⟩ | hq
    · exact ihl _ _ hl q j w hq
    · exact ⟨h3, h4⟩
    · exact ihr _ _ hr q j w hq

theorem entry_of_key [LinearOrder α] (T : rbt α β) (hb : bst T) (e1 e2 : Nat × α × β)
    (h1 : e1 ∈ T.entries) (h2 : e2 ∈ T.entries) (hk : e1.2.1 = e2.2.1) : e1 = e2 := by
  have hs := (bst_iff_sorted T).1 hb
  rw [keys_eq_map] at hs
  have hnd : (T.entries.map (fun e => e.2.1)).Nodup := hs.imp (fun h => ne_of_lt h)
  exact List.inj_on_of_nodup_map hnd h1 h2 hk

end rb_tree

/-- C11: in the red-black tree with values, removal keeps every surviving
key attached to its own node and value.  For every well-formed tree and every
key `key` in it, `remove_node` (given more fuel than the tree has nodes)
returns and reports the key found, and leaves a well-formed tree; for every
other key `j` of the tree `find_node` returns the same node before and after
the removal, the node holds `j` both times and its value is unchanged; and
the elements of the allocator in use afterwards are those in use before
except the node `p` that held `key`. -/
theorem C11_rb_remove_keeps_other_nodes {α β : Type} [LinearOrder α] {N : Nat}
    (t : rb_tree.tree α β N) (T : rb_tree.rbt α β) (key : α) (fuel : Nat)
    (h : rb_tree.is_rb_tree t T) (hf : t.count < fuel) (hk : key ∈ T.keys) :
    ∃ t1 T1 p v, rb_tree.remove_node true fuel t key = some (t1, true) ∧
      rb_tree.is_rb_tree t1 T1 ∧ (p, key, v) ∈ T.entries ∧
      (∀ q, fixed_alloc.is_live t1.allocator q ↔ q ≠ p ∧ fixed_alloc.is_live t.allocator q) ∧
      ∀ j, j ∈ T.keys → j ≠ key → ∃ r, r ≠ NULL ∧
        rb_tree.find_node fuel t j = some (rb_tree.set_key t rb_tree.leaf j, r) ∧
        rb_tree.find_node fuel t1 j = some (rb_tree.set_key t1 rb_tree.leaf j, r) ∧
        (t.mem r).key = j ∧ (t1.mem r).key = j ∧ (t1.mem r).value = (t.mem r).value := by
  obtain ⟨t1, T1, found, e1, h1, hfound, _, hin⟩ := rb_tree.remove_node_spec true t T key fuel h hf
  obtain ⟨⟨A, B, kA, kB⟩, ⟨X, Y, p, aX, aY, hlive⟩, _, hent⟩ := hin hk
  obtain ⟨EA, EB, e, eT, eT1⟩ := hent rfl
  have hft : found = true := hfound.2 hk
  subst hft
  have hsorted : T.keys.Pairwise (· < ·) := (rb_tree.bst_iff_sorted T).1 h.2.1.1
  have hke : e.2.1 = key :=
    rb_tree.removed_eq (fun e => e.2.1) EA EB e A B key
      (by rw [← eT, ← rb_tree.keys_eq_map, kA]) (by rw [← eT1, ← rb_tree.keys_eq_map, kB])
      (kA ▸ hsorted.imp (fun h => ne_of_lt h))
  have hnd : (X ++ p :: Y).Nodup := by rw [← aX]; exact h.1.2
  have q1 : (EA ++ e :: EB).map (fun e : Nat × α × β => e.1) = X ++ p :: Y := by
    rw [← eT, ← rb_tree.addrs_eq_map, aX]
  have q2 : (EA ++ EB).map (fun e : Nat × α × β => e.1) = X ++ Y := by
    rw [← eT1, ← rb_tree.addrs_eq_map, aY]
  have hpe : e.1 = p := rb_tree.removed_eq (fun e : Nat × α × β => e.1) EA EB e X Y p q1 q2 hnd
  have hc : T.addrs.length < fuel := by rw [← h.2.2.2.2.2]; exact hf
  have hc1 : T1.addrs.length < fuel := by
    rw [aX] at hc
    rw [aY]
    simp only [List.length_append, List.length_cons] at hc ⊢
    omega
  refine ⟨t1, T1, p, e.2.2, e1, h1, ?_, hlive, fun j hj hne => ?_⟩
  · rw [← hpe, ← hke, eT]
    simp
  · obtain ⟨r, f1, f2, _⟩ := rb_tree.find_node_spec t T j fuel h.1 h.2.1.1 hc
    obtain ⟨rn, v, hrv⟩ := f2 hj
    have hj1 : j ∈ T1.keys := by
      rw [kB, rb_tree.mem_keys_of_dec A B key j (kA ▸ hsorted), ← kA]
      exact ⟨hj, hne⟩
    obtain ⟨r1, g1, g2, _⟩ := rb_tree.find_node_spec t1 T1 j fuel h1.1 h1.2.1.1 hc1
    obtain ⟨_, v1, hrv1⟩ := g2 hj1
    have hin1 : (r1, j, v1) ∈ T.entries := by
      rw [eT1] at hrv1
      rw [eT]
      simp only [List.mem_append, List.mem_cons] at hrv1 ⊢
      rcases hrv1 with hx | hx
      · exact Or.inl hx
      · exact Or.inr (Or.inr hx)
    have heq := rb_tree.entry_of_key T h.2.1.1 _ _ hrv hin1 rfl
    simp only [Prod.mk.injEq, true_and] at heq
    obtain ⟨rfl, rfl⟩ := heq
    have m0 := rb_tree.Rep_entries t.mem T _ _ h.1.1 r j v hrv
    have m1 := rb_tree.Rep_entries t1.mem T1 _ _ h1.1.1 r j v hrv1
    exact ⟨r, rn, f1, g1, m0.1, m1.1, by rw [m0.2, m1.2]⟩

/-! ## Sequences of calls -/

theorem effects_append {α : Type} (l1 : List (tree_op α)) :
    ∀ (l2 : List (tree_op α)) (x : α) (P : Prop),
      effects (l1 ++ l2) x P = effects l2 x (effects l1 x P) := by
  induction l1 with
  | nil => intro l2 x P; rfl
  | cons op ops ih => intro l2 x P; exact ih l2 x _

theorem effects_add {α : Type} (ks : List α) :
    ∀ (x : α) (P : Prop), effects (ks.map tree_op.add) x P ↔ x ∈ ks ∨ P := by
  induction ks with
  | nil => intro x P; simp [effects]
  | cons k ks ih =>
    intro x P
    rw [List.map_cons, effects, ih, tree_op.effect, List.mem_cons]
    constructor
    · rintro (h | h | h)
      · exact Or.inl (Or.inr h)
      · exact Or.inl (Or.inl h)
      · exact Or.inr h
    · rintro ((h | h) | h)
      · exact Or.inr (Or.inl h)
      · exact Or.inl h
      · exact Or.inr (Or.inr h)

theorem effects_remove {α : Type} (ks : List α) :
    ∀ (x : α) (P : Prop), effects (ks.map tree_op.remove) x P ↔ P ∧ x ∉ ks := by
  induction ks with
  | nil => intro x P; simp [effects]
  | cons k ks ih =>
    intro x P
    rw [List.map_cons, effects, ih, tree_op.effect, List.mem_cons, not_or, and_assoc]

theorem effects_round_trip {α : Type} (ks rs : List α) (hp : rs.Perm ks) (x : α) :
    ¬ effects (ks.map tree_op.add ++ rs.map tree_op.remove) x False := by
  rw [effects_append, effects_remove, effects_add]
  rintro ⟨h1 | h1, h2⟩
  · exact h2 (hp.mem_iff.2 h1)
  · exact h1

namespace avl_tree

variable {α : Type} {N : Nat}

theorem avl_init_consistent [LinearOrder α] (t0 : tree α N) (hN : 0 < N) :
    consistent (init_tree t0) := by
  refine ⟨⟨fixed_alloc.init_allocator_ok hN, List.nodup_nil, fun p hp => ?_⟩, trivial, trivial,
    rfl, fun p hp => ?_⟩
  · simp [init_tree, addrs] at hp
  · obtain ⟨c, hc, _⟩ := hp
    simp [init_tree, fixed_alloc.init_allocator] at hc

theorem avl_apply_spec [LinearOrder α] (t : tree α N) (op : tree_op α) (h : consistent t) :
    ∃ t1, apply_op t op = some t1 ∧ consistent t1 ∧
      ∀ x, x ∈ keys t1.root ↔ op.effect x (x ∈ keys t.root) := by
  obtain ⟨hs, hb, hbal, hcount, hlive⟩ := h
  cases op with
  | add key =>
    obtain ⟨t1, p, found, e, s1, b1, bal1, hk, _, _, hin, hout⟩ :=
      avl_add_node_ext_spec t key hs hb hbal
    refine ⟨t1, by rw [apply_op, e]; rfl, ?_, hk⟩
    by_cases hmem : key ∈ keys t.root
    · rw [hin hmem]
      exact ⟨hs, hb, hbal, hcount, hlive⟩
    · obtain ⟨c1, _, _, l1, p1⟩ := hout hmem
      refine ⟨s1, b1, bal1, ?_, fun q hq => ?_⟩
      · rw [c1, p1.length_eq, List.length_cons, hcount]
      · rw [p1.mem_iff, List.mem_cons]
        rcases (l1 q).1 hq with rfl | hq
        · exact Or.inl rfl
        · exact Or.inr (hlive q hq)
  | remove key =>
    obtain ⟨t1, found, e, s1, b1, bal1, hk, _, hout, hin⟩ :=
      avl_remove_node_spec t key hs hb hbal
    refine ⟨t1, by rw [apply_op, e]; rfl, ?_, hk⟩
    by_cases hmem : key ∈ keys t.root
    · obtain ⟨c1, _, p, _, l1, p1⟩ := hin hmem
      refine ⟨s1, b1, bal1, ?_, fun q hq => ?_⟩
      · have := p1.length_eq
        rw [List.length_cons] at this
        omega
      · obtain ⟨hne, hq⟩ := (l1 q).1 hq
        have := p1.mem_iff.1 (hlive q hq)
        rcases List.mem_cons.1 this with rfl | hm
        · exact absurd rfl hne
        · exact hm
    · rw [hout hmem]
      exact ⟨hs, hb, hbal, hcount, hlive⟩

theorem avl_run_spec [LinearOrder α] (ops : List (tree_op α)) :
    ∀ (t : tree α N), consistent t →
      ∃ t1, run ops t = some t1 ∧ consistent t1 ∧
        ∀ x, x ∈ keys t1.root ↔ effects ops x (x ∈ keys t.root) := by
  induction ops with
  | nil => intro t h; exact ⟨t, rfl, h, fun x => Iff.rfl⟩
  | cons op ops ih =>
    intro t h
    obtain ⟨t1, e1, c1, k1⟩ := avl_apply_spec t op h
    obtain ⟨t2, e2, c2, k2⟩ := ih t1 c1
    refine ⟨t2, by rw [run, e1]; exact e2, c2, fun x => ?_⟩
    rw [k2, effects, k1]

theorem avl_consistent_status [LinearOrder α] (t : tree α N) (h : consistent t) :
    fixed_alloc.get_allocator_status t.allocator =
      some (t.count, fixed_alloc.CHUNK_NUM_BITS * N * t.allocator.cluster.length) := by
  obtain ⟨hs, _, _, hcount, hlive⟩ := h
  rw [hcount]
  exact fixed_alloc.status_of_live t.allocator hs.1 _ hs.2.1
    (fun p => ⟨fun hp => hs.2.2 p hp, hlive p⟩)

end avl_tree

namespace rb_tree

variable {α β : Type} {N : Nat}

theorem init_consistent [LinearOrder α] (t0 : tree α β N) (hN : 0 < N) :
    consistent (init_tree t0) .nil := by
  refine ⟨⟨⟨rfl, List.nodup_nil⟩, ⟨trivial, rfl, trivial, trivial, 0, ?_⟩, ?_,
    fixed_alloc.init_allocator_ok hN, fun p hp => ?_, rfl⟩, fun p hp => ?_⟩
  · intro x hx
    simpa [black_counts] using hx
  · simp [leaf_ok, init_tree, set_parent, set_left, set_right, set_color]
  · simp [rbt.addrs] at hp
  · obtain ⟨c, hc, _⟩ := hp
    simp [init_tree, fixed_alloc.init_allocator] at hc

theorem apply_spec [LinearOrder α] (ud : Bool) (fuel : Nat) (t : tree α β N) (T : rbt α β)
    (op : tree_op α) (h : consistent t T) (hf : t.count < fuel) :
    ∃ t1 T1, apply_op ud fuel t op = some t1 ∧ consistent t1 T1 ∧ t1.count ≤ t.count + 1 ∧
      ∀ x, x ∈ T1.keys ↔ op.effect x (x ∈ T.keys) := by
  obtain ⟨hr, hlive⟩ := h
  cases op with
  | add key =>
    obtain ⟨t1, T1, p, found, e, r1, hk, _, _, hin, hout⟩ := add_node_ext_spec t T key fuel hr hf
    refine ⟨t1, T1, by rw [apply_op, e]; rfl, ?_, ?_, hk⟩
    · by_cases hmem : key ∈ T.keys
      · obtain ⟨rfl, rfl⟩ := hin hmem
        exact ⟨hr, hlive⟩
      · obtain ⟨_, _, l1, p1, _⟩ := hout hmem
        refine ⟨r1, fun q hq => ?_⟩
        have pa := p1.map (fun e : Nat × α × β => e.1)
        rw [List.map_cons, ← addrs_eq_map, ← addrs_eq_map] at pa
        rw [pa.mem_iff, List.mem_cons]
        rcases (l1 q).1 hq with rfl | hq
        · exact Or.inl rfl
        · exact Or.inr (hlive q hq)
    · by_cases hmem : key ∈ T.keys
      · rw [(hin hmem).1]; omega
      · rw [(hout hmem).1]
  | remove key =>
    obtain ⟨t1, T1, found, e, r1, _, hout, hin⟩ := remove_node_spec ud t T key fuel hr hf
    have hs := (bst_iff_sorted T).1 hr.2.1.1
    by_cases hmem : key ∈ T.keys
    · obtain ⟨⟨A, B, kA, kB⟩, ⟨X, Y, p, aX, aY, l1⟩, hc, _⟩ := hin hmem
      refine ⟨t1, T1, by rw [apply_op, e]; rfl, ⟨r1, fun q hq => ?_⟩, by omega, fun x => ?_⟩
      · obtain ⟨hne, hq⟩ := (l1 q).1 hq
        have := hlive q hq
        rw [aX] at this
        rw [aY]
        simp only [List.mem_append, List.mem_cons] at this ⊢
        rcases this with hx | hx | hx
        · exact Or.inl hx
        · exact absurd hx hne
        · exact Or.inr hx
      · rw [kB, mem_keys_of_dec A B key x (kA ▸ hs), ← kA]
        rfl
    · obtain ⟨rfl, rfl⟩ := hout hmem
      refine ⟨_, T1, by rw [apply_op, e]; rfl, ⟨r1, hlive⟩, Nat.le_succ _, fun x => ?_⟩
      constructor
      · intro hx
        exact ⟨hx, fun e => hmem (e ▸ hx)⟩
      · exact fun hx => hx.1

theorem run_spec [LinearOrder α] (ud : Bool) (fuel : Nat) (ops : List (tree_op α)) :
    ∀ (t : tree α β N) (T : rbt α β), consistent t T → t.count + ops.length < fuel + 1 →
      ∃ t1 T1, run ud fuel ops t = some t1 ∧ consistent t1 T1 ∧
        ∀ x, x ∈ T1.keys ↔ effects ops x (x ∈ T.keys) := by
  induction ops with
  | nil => intro t T h _; exact ⟨t, T, rfl, h, fun x => Iff.rfl⟩
  | cons op ops ih =>
    intro t T h hf
    simp only [List.length_cons] at hf
    obtain ⟨t1, T1, e1, c1, n1, k1⟩ := apply_spec ud fuel t T op h (by omega)
    obtain ⟨t2, T2, e2, c2, k2⟩ := ih t1 T1 c1 (by omega)
    refine ⟨t2, T2, by rw [run, e1]; exact e2, c2, fun x => ?_⟩
    rw [k2, effects, k1]

theorem consistent_status [LinearOrder α] (t : tree α β N) (T : rbt α β)
    (h : consistent t T) :
    fixed_alloc.get_allocator_status t.allocator =
      some (t.count, fixed_alloc.CHUNK_NUM_BITS * N * t.allocator.cluster.length) := by
  obtain ⟨hr, hlive⟩ := h
  rw [hr.2.2.2.2.2]
  exact fixed_alloc.status_of_live t.allocator hr.2.2.2.1 _ hr.1.2
    (fun p => ⟨fun hp => hr.2.2.2.2.1 p hp, hlive p⟩)

end rb_tree

theorem avl_tree.avl_keys_eq_nil {α : Type} (n : avl_tree.node α) (h : avl_tree.keys n = []) :
    n = .sentinel := by
  cases n with
  | sentinel => rfl
  | mk a k b l r => simp [avl_tree.keys] at h

theorem rb_tree.keys_eq_nil {α β : Type} (T : rb_tree.rbt α β) (h : T.keys = []) :
    T = .nil := by
  cases T with
  | nil => rfl
  | node a c k v l r => simp [rb_tree.rbt.keys] at h

/-- C12: the allocator and the tree agree after every sequence of calls.
With a positive chunk parameter, every sequence of calls of `add_node_ext`
and `remove_node` from a tree that `init_tree` has initialised runs to its
end in both engines (the red-black one given more fuel than there are calls),
and at the end the count `used` that `get_allocator_status` reports for the
tree's allocator, the field `count` and the number of nodes reachable from
the root are equal. -/
theorem C12_allocator_tree_consistency {α β : Type} [LinearOrder α] {N M : Nat}
    (ta0 : avl_tree.tree α N) (tr0 : rb_tree.tree α β M) (ops : List (tree_op α))
    (user_data : Bool) (fuel : Nat) (hN : 0 < N) (hM : 0 < M) (hf : ops.length < fuel) :
    (∃ t allocated, avl_tree.run ops (avl_tree.init_tree ta0) = some t ∧
      fixed_alloc.get_allocator_status t.allocator = some (t.count, allocated) ∧
      t.count = (avl_tree.addrs t.root).length) ∧
    (∃ t T allocated, rb_tree.run user_data fuel ops (rb_tree.init_tree tr0) = some t ∧
      rb_tree.layout t T ∧
      fixed_alloc.get_allocator_status t.allocator = some (t.count, allocated) ∧
      t.count = T.addrs.length) := by
  constructor
  · obtain ⟨t, e, c, _⟩ := avl_tree.avl_run_spec ops _ (avl_tree.avl_init_consistent ta0 hN)
    exact ⟨t, _, e, avl_tree.avl_consistent_status t c, c.2.2.2.1⟩
  · obtain ⟨t, T, e, c, _⟩ := rb_tree.run_spec user_data fuel ops _ _
      (rb_tree.init_consistent tr0 hM) (by simp only [rb_tree.init_tree]; omega)
    exact ⟨t, T, _, e, c.1.1, rb_tree.consistent_status t T c, c.1.2.2.2.2.2⟩

theorem C12_allocator_tree_consistency_witness :
    0 < 1 ∧ 0 < 1 ∧ [tree_op.add (10 : Int), .add 20, .remove 10].length < 4 ∧
    (∃ t allocated, avl_tree.run [tree_op.add (10 : Int), .add 20, .remove 10]
        (avl_tree.init_tree avl_tree.example_tree) = some t ∧
      fixed_alloc.get_allocator_status t.allocator = some (t.count, allocated) ∧
      t.count = (avl_tree.addrs t.root).length) ∧
    (∃ t T allocated, rb_tree.run true 4 [tree_op.add (10 : Int), .add 20, .remove 10]
        (rb_tree.init_tree rb_tree.example_tree) = some t ∧
      rb_tree.layout t T ∧
      fixed_alloc.get_allocator_status t.allocator = some (t.count, allocated) ∧
      t.count = T.addrs.length) :=
  ⟨by decide, by decide, by decide,
    C12_allocator_tree_consistency avl_tree.example_tree rb_tree.example_tree
      [tree_op.add (10 : Int), .add 20, .remove 10] true 4 (by decide) (by decide)
      (by decide)⟩

/-- C13: inserting keys and removing them all leaves an empty tree.  With a
positive chunk parameter, for every list of keys (distinct or not) and every
order `rs` of removing them, calling `add_node_ext` for every key and then
`remove_node` for every key of `rs`, from a tree that `init_tree` has
initialised, runs to its end in both engines (the red-black one given more
fuel than there are calls); at the end the root is the sentinel, the field
`count` is zero, and `get_allocator_status` reports no element in use. -/
theorem C13_insert_all_remove_all {α β : Type} [LinearOrder α] {N M : Nat}
    (ta0 : avl_tree.tree α N) (tr0 : rb_tree.tree α β M) (ks rs : List α)
    (user_data : Bool) (fuel : Nat) (hN : 0 < N) (hM : 0 < M) (hp : rs.Perm ks)
    (hf : ks.length + rs.length < fuel) :
    (∃ t allocated, avl_tree.run (ks.map tree_op.add ++ rs.map tree_op.remove)
        (avl_tree.init_tree ta0) = some t ∧
      t.root = .sentinel ∧ t.count = 0 ∧
      fixed_alloc.get_allocator_status t.allocator = some (0, allocated)) ∧
    (∃ t allocated, rb_tree.run user_data fuel (ks.map tree_op.add ++ rs.map tree_op.remove)
        (rb_tree.init_tree tr0) = some t ∧
      t.root = rb_tree.leaf ∧ t.count = 0 ∧
      fixed_alloc.get_allocator_status t.allocator = some (0, allocated)) := by
  constructor
  · obtain ⟨t, e, c, hk⟩ := avl_tree.avl_run_spec (ks.map tree_op.add ++ rs.map tree_op.remove) _
      (avl_tree.avl_init_consistent ta0 hN)
    have hnil : avl_tree.keys t.root = [] := by
      apply List.eq_nil_iff_forall_not_mem.2
      intro x hx
      have h0 : (x ∈ avl_tree.keys (avl_tree.init_tree ta0).root) = False := by
        simp [avl_tree.init_tree, avl_tree.keys]
      have := (hk x).1 hx
      rw [h0] at this
      exact effects_round_trip ks rs hp x this
    have hroot := avl_tree.avl_keys_eq_nil t.root hnil
    have hcount : t.count = 0 := by
      rw [c.2.2.2.1, hroot]
      rfl
    have hs := avl_tree.avl_consistent_status t c
    rw [hcount] at hs
    exact ⟨t, _, e, hroot, hcount, hs⟩
  · obtain ⟨t, T, e, c, hk⟩ := rb_tree.run_spec user_data fuel
      (ks.map tree_op.add ++ rs.map tree_op.remove) _ _ (rb_tree.init_consistent tr0 hM)
      (by simp only [rb_tree.init_tree, List.length_append, List.length_map]; omega)
    have hnil : T.keys = [] := by
      apply List.eq_nil_iff_forall_not_mem.2
      intro x hx
      have h0 : (x ∈ (rb_tree.rbt.nil : rb_tree.rbt α β).keys) = False := by
        simp [rb_tree.rbt.keys]
      have := (hk x).1 hx
      rw [h0] at this
      exact effects_round_trip ks rs hp x this
    have hT := rb_tree.keys_eq_nil T hnil
    subst hT
    have hroot : t.root = rb_tree.leaf := c.1.1.1
    have hcount : t.count = 0 := c.1.2.2.2.2.2
    have hs := rb_tree.consistent_status t _ c
    rw [hcount] at hs
    exact ⟨t, _, e, hroot, hcount, hs⟩

theorem C13_insert_all_remove_all_witness :
    0 < 1 ∧ 0 < 1 ∧ [(20 : Int), 10].Perm [10, 20] ∧
    [(10 : Int), 20].length + [(20 : Int), 10].length < 5 ∧
    (∃ t allocated, avl_tree.run
        ([(10 : Int), 20].map tree_op.add ++ [(20 : Int), 10].map tree_op.remove)
        (avl_tree.init_tree avl_tree.example_tree) = some t ∧
      t.root = .sentinel ∧ t.count = 0 ∧
      fixed_alloc.get_allocator_status t.allocator = some (0, allocated)) ∧
    (∃ t allocated, rb_tree.run true 5
        ([(10 : Int), 20].map tree_op.add ++ [(20 : Int), 10].map tree_op.remove)
        (rb_tree.init_tree rb_tree.example_tree) = some t ∧
      t.root = rb_tree.leaf ∧ t.count = 0 ∧
      fixed_alloc.get_allocator_status t.allocator = some (0, allocated)) :=
  ⟨by decide, by decide, List.Perm.swap 10 20 [], by decide,
    C13_insert_all_remove_all avl_tree.example_tree rb_tree.example_tree [10, 20] [20, 10]
      true 5 (by decide) (by decide) (List.Perm.swap 10 20 []) (by decide)⟩

/-! ## Invalid calls of `free_elem` -/

namespace fixed_alloc

variable {N : Nat}

theorem free_find_some (p : Nat) : ∀ (cl before after : List internal_chunk_cluster)
    (c : internal_chunk_cluster), free_elem.find N p cl = some (before, c, after) →
      cl = before ++ c :: after ∧ c.addr < p ∧ p < c.addr + cluster_bytes N := by
  intro cl
  induction cl with
  | nil => intro before after c h; simp [free_elem.find] at h
  | cons c0 prev ih =>
    intro before after c h
    rw [free_elem.find] at h
    split at h
    · rename_i hr
      simp only [Option.some.injEq, Prod.mk.injEq] at h
      obtain ⟨rfl, rfl, rfl⟩ := h
      exact ⟨rfl, hr⟩
    · cases hf : free_elem.find N p prev with
      | none => rw [hf] at h; simp at h
      | some r =>
        obtain ⟨b, c', a'⟩ := r
        rw [hf] at h
        simp only [Option.some.injEq, Prod.mk.injEq] at h
        obtain ⟨rfl, rfl, rfl⟩ := h
        obtain ⟨e1, e2⟩ := ih b a' c' hf
        exact ⟨by rw [e1]; rfl, e2⟩

theorem free_find_none (p : Nat) : ∀ (cl : List internal_chunk_cluster),
    (∀ c ∈ cl, ¬ (c.addr < p ∧ p < c.addr + cluster_bytes N)) →
      free_elem.find N p cl = none := by
  intro cl
  induction cl with
  | nil => intro _; rfl
  | cons c0 prev ih =>
    intro h
    rw [free_elem.find, if_neg (h c0 (List.mem_cons_self _ _)),
      ih (fun c hc => h c (List.mem_cons_of_mem _ hc))]

theorem free_elem_live (a a1 : allocator N) (p : Nat) (h : free_elem a p = some a1) :
    is_live a p := by
  rw [free_elem] at h
  cases hf : free_elem.find N p a.cluster with
  | none => rw [hf] at h; simp at h
  | some r =>
    obtain ⟨before, c, after⟩ := r
    obtain ⟨e1, _⟩ := free_find_some p _ _ _ _ hf
    rw [hf] at h
    simp only at h
    split at h
    · simp at h
    · split at h
      · simp at h
      · rename_i hidx
        cases hg : c.chunks.get? ((p - chunk_addr c.addr 0) / SIZEOF_CHUNK) with
        | none => rw [hg] at h; simp at h
        | some ch =>
          rw [hg] at h
          simp only at h
          split at h
          · simp at h
          · rename_i harr
            split at h
            · simp at h
            · rename_i haddr
              split at h
              · simp at h
              · rename_i hbit
                refine ⟨c, by rw [e1]; simp, _, not_not.1 hidx, _, not_not.1 harr,
                  (not_not.1 haddr).symm, ch, hg, ?_⟩
                rw [Nat.one_shiftLeft, and_two_pow_eq_zero] at hbit
                simpa using hbit

theorem free_elem_none (a : allocator N) (p : Nat) (h : allocator_ok a) :
    free_elem a p = none ↔ ¬ is_live a p := by
  constructor
  · intro hn hl
    obtain ⟨a1, e, _⟩ := free_elem_spec a p h hl
    rw [hn] at e
    cases e
  · intro hl
    cases hf : free_elem a p with
    | none => rfl
    | some a1 => exact absurd (free_elem_live a a1 p hf) hl

theorem free_elem_outside (a : allocator N) (p : Nat)
    (h : ∀ c ∈ a.cluster, ¬ (c.addr < p ∧ p < c.addr + cluster_bytes N)) :
    free_elem a p = none := by
  rw [free_elem, free_find_none p a.cluster h]

end fixed_alloc

/-! ## The hint `nfc_index` -/

namespace fixed_alloc

variable {N : Nat}

theorem find_chunks_hint (c : internal_chunk_cluster) : ∀ (n i : Nat)
    (c1 : internal_chunk_cluster) (p : Nat),
    internal_find_free_elem.chunks c n i = some (c1, p) →
      (p = NULL → c1 = c) ∧
      (c1.nfc_index = c.nfc_index ∨
        (c1.nfc_index = c.nfc_index + 1 ∧
          ∃ ch, c1.chunks.get? c.nfc_index = some ch ∧ ch.free_mask = MASK_TYPE_MAX)) := by
  intro n
  induction n with
  | zero =>
    intro i c1 p h
    rw [internal_find_free_elem.chunks] at h
    simp only [Option.some.injEq, Prod.mk.injEq] at h
    exact ⟨fun _ => h.1.symm, Or.inl (by rw [← h.1])⟩
  | succ n ih =>
    intro i c1 p h
    rw [internal_find_free_elem.chunks] at h
    cases hg : c.chunks.get? i with
    | none => rw [hg] at h; simp at h
    | some chunk =>
      rw [hg] at h
      simp only at h
      split at h
      · cases ha : internal_alloc_elem_from_chunk chunk (chunk_addr c.addr i) with
        | none => rw [ha] at h; simp at h
        | some r =>
          obtain ⟨chunk1, result⟩ := r
          rw [ha] at h
          simp only at h
          have hres : 2 ≤ result := by
            rw [internal_alloc_elem_from_chunk] at ha
            split at ha
            · simp at ha
            · split at ha
              · simp at ha
              · simp only [Option.some.injEq, Prod.mk.injEq] at ha
                rw [← ha.2]
                simp only [arr_addr, chunk_addr, OFFSETOF_CHUNKS]
                omega
          have hlen : i < c.chunks.length := by
            have := List.get?_eq_some.1 hg
            exact this.1
          split at h
          · rename_i hfull
            simp only [Option.some.injEq, Prod.mk.injEq] at h
            obtain ⟨rfl, rfl⟩ := h
            refine ⟨fun e => ?_, Or.inr ⟨by simp only; rw [hfull.2], chunk1, ?_, hfull.1⟩⟩
            · simp only [NULL] at e; omega
            · simp only [List.get?_eq_getElem?]
              have hlen' : c.nfc_index < c.chunks.length := by rw [hfull.2]; exact hlen
              rw [← hfull.2]
              simp [List.getElem?_set, hlen']
          · simp only [Option.some.injEq, Prod.mk.injEq] at h
            obtain ⟨rfl, rfl⟩ := h
            refine ⟨fun e => ?_, Or.inl rfl⟩
            simp only [NULL] at e; omega
      · exact ih (i + 1) c1 p h

theorem full_mask_used (c : internal_chunk_cluster) (i : Nat) (ch : internal_chunk)
    (h1 : c.chunks.get? i = some ch) (h2 : ch.free_mask = MASK_TYPE_MAX) : chunk_full c i := by
  intro j hj
  refine ⟨ch, h1, ?_⟩
  rw [h2, MASK_TYPE_MAX, Nat.testBit_two_pow_sub_one]
  simp [hj]

theorem find_chunks_nfc (c c1 : internal_chunk_cluster) (p n i : Nat) (hc : cluster_ok N c)
    (hn : nfc_ok N c) (hi : n + i ≤ N)
    (h : internal_find_free_elem.chunks c n i = some (c1, p)) : nfc_ok N c1 := by
  obtain ⟨_, hint⟩ := find_chunks_hint c n i c1 p h
  have hadd : ∀ i2 j2, slot_used c i2 j2 → slot_used c1 i2 j2 := by
    rcases find_chunks_spec c hc n i hi with ⟨he, _⟩ | ⟨c1', i', j, he, _, _, _, _, _, hiff⟩
    · rw [he] at h
      simp only [Option.some.injEq, Prod.mk.injEq] at h
      rw [← h.1]
      exact fun _ _ hu => hu
    · rw [he] at h
      simp only [Option.some.injEq, Prod.mk.injEq] at h
      rw [← h.1]
      exact fun i2 j2 hu => (hiff i2 j2).2 (Or.inr hu)
  intro i2 h1 h2 j hj
  rcases hint with e | ⟨e, ch, g1, g2⟩
  · exact hadd i2 j (hn i2 (e ▸ h1) h2 j hj)
  · by_cases hlt : i2 < c.nfc_index
    · exact hadd i2 j (hn i2 hlt h2 j hj)
    · have : i2 = c.nfc_index := by omega
      subst this
      exact full_mask_used c1 _ ch g1 g2 j hj

theorem find_free_nfc : ∀ (cl cl1 : List internal_chunk_cluster) (p : Nat),
    chain_ok N cl → (∀ c ∈ cl, nfc_ok N c) → internal_find_free_elem N cl = some (cl1, p) →
      ∀ c ∈ cl1, nfc_ok N c := by
  intro cl
  induction cl with
  | nil =>
    intro cl1 p _ _ h
    rw [internal_find_free_elem] at h
    simp only [Option.some.injEq, Prod.mk.injEq] at h
    rw [← h.1]
    intro c hc
    simp at hc
  | cons c prev ih =>
    intro cl1 p hch hn h
    rw [internal_find_free_elem] at h
    cases hf : internal_find_free_elem.chunks c (N - c.nfc_index) c.nfc_index with
    | none => rw [hf] at h; simp at h
    | some r =>
      obtain ⟨cluster1, result⟩ := r
      rw [hf] at h
      simp only at h
      have hc1 : nfc_ok N cluster1 := by
        by_cases hle : c.nfc_index ≤ N
        · exact find_chunks_nfc c cluster1 result _ _ hch.2.1 (hn c (List.mem_cons_self _ _))
            (by omega) hf
        · have hz : N - c.nfc_index = 0 := by omega
          rw [hz, internal_find_free_elem.chunks] at hf
          simp only [Option.some.injEq, Prod.mk.injEq] at hf
          rw [← hf.1]
          exact hn c (List.mem_cons_self _ _)
      split at h
      · simp only [Option.some.injEq, Prod.mk.injEq] at h
        rw [← h.1]
        intro c' hc'
        rcases List.mem_cons.1 hc' with rfl | hc'
        · exact hc1
        · exact hn c' (List.mem_cons_of_mem _ hc')
      · cases hp : internal_find_free_elem N prev with
        | none => rw [hp] at h; simp at h
        | some r2 =>
          obtain ⟨prev1, result1⟩ := r2
          rw [hp] at h
          simp only [Option.some.injEq, Prod.mk.injEq] at h
          rw [← h.1]
          intro c' hc'
          rcases List.mem_cons.1 hc' with rfl | hc'
          · exact hc1
          · exact ih prev1 result1 hch.2.2 (fun x hx => hn x (List.mem_cons_of_mem _ hx)) hp
              c' hc'

theorem alloc_elem_nfc (a a1 : allocator N) (p : Nat) (h : allocator_ok a)
    (hn : ∀ c ∈ a.cluster, nfc_ok N c) (e : alloc_elem a = some (a1, p)) :
    ∀ c ∈ a1.cluster, nfc_ok N c := by
  rw [alloc_elem] at e
  cases hf : internal_find_free_elem N a.cluster with
  | none => rw [hf] at e; simp at e
  | some r =>
    obtain ⟨cluster, result⟩ := r
    rw [hf] at e
    simp only at e
    have h1 := find_free_nfc a.cluster cluster result h.2 hn hf
    split at e
    · rename_i hnull
      have hcl : cluster = a.cluster := by
        rcases find_free_spec h.1 a.cluster h.2 with ⟨g, _⟩ | ⟨cl1, q, g, hq, _⟩
        · rw [g] at hf
          simp only [Option.some.injEq, Prod.mk.injEq] at hf
          exact hf.1.symm
        · rw [g] at hf
          simp only [Option.some.injEq, Prod.mk.injEq] at hf
          exact absurd (hf.2 ▸ hnull) hq
      cases hg : internal_find_free_elem N
          ((⟨XMALLOC cluster.length (cluster_bytes N), 0, List.replicate N ⟨0⟩⟩ :
            internal_chunk_cluster) :: cluster) with
      | none => rw [hg] at e; simp at e
      | some r2 =>
        obtain ⟨cluster1, result1⟩ := r2
        rw [hg] at e
        simp only at e
        split at e
        · simp only [Option.some.injEq, Prod.mk.injEq] at e
          rw [← e.1]
          refine find_free_nfc _ cluster1 result1 ?_ ?_ hg
          · refine ⟨rfl, ⟨by simp, ?_⟩, hcl ▸ h.2⟩
            intro ch hc
            rw [List.eq_of_mem_replicate hc]
            exact Nat.pos_pow_of_pos _ (by decide)
          · intro c hc
            rcases List.mem_cons.1 hc with rfl | hc
            · intro i hi _
              simp at hi
            · exact h1 c hc
        · simp at e
    · simp only [Option.some.injEq, Prod.mk.injEq] at e
      rw [← e.1]
      exact h1

theorem free_elem_nfc (a a1 : allocator N) (p : Nat) (h : allocator_ok a)
    (hn : ∀ c ∈ a.cluster, nfc_ok N c) (e : free_elem a p = some a1) :
    ∀ c ∈ a1.cluster, nfc_ok N c := by
  obtain ⟨c, hc, i, hi, j, hj, rfl, ch, hget, hbit⟩ := free_elem_live a a1 p e
  obtain ⟨before, after, hd⟩ := List.append_of_mem hc
  have hat := free_elem_at a before after c ch i j h hd hi hj hget hbit
  rw [e] at hat
  simp only [Option.some.injEq] at hat
  have hcok : cluster_ok N c := chain_ok_mem _ h.2 c hc
  have hlen : i < c.chunks.length := by rw [hcok.1]; exact hi
  rw [hat]
  intro c' hc'
  simp only [List.mem_append, List.mem_cons] at hc'
  rcases hc' with hc' | rfl | hc'
  · exact hn c' (by rw [hd]; simp [hc'])
  · intro i2 h1 h2 j2 hj2
    have hlt : i2 < min c.nfc_index i := h1
    have hne : i2 ≠ i := by have := min_le_right c.nfc_index i; omega
    rw [slot_used_set _ _ _ _ _ _ _ hlen]
    right
    refine ⟨hne, ?_⟩
    have := hn c hc i2 (lt_of_lt_of_le hlt (min_le_left _ _)) h2 j2 hj2
    exact (slot_used_congr _ _ rfl _ _).2 this
  · exact hn c' (by rw [hd]; simp [hc'])

theorem reachable_ok (hN : 0 < N) (a : allocator N) (h : reachable a) :
    allocator_ok a ∧ ∀ c ∈ a.cluster, nfc_ok N c := by
  induction h with
  | init => exact ⟨init_allocator_ok hN, fun c hc => by simp [init_allocator] at hc⟩
  | alloc a a1 p _ e ih =>
    obtain ⟨a1', p', e', ok, _⟩ := alloc_elem_spec a ih.1
    rw [e] at e'
    simp only [Option.some.injEq, Prod.mk.injEq] at e'
    rw [e'.1]
    exact ⟨ok, e'.1 ▸ alloc_elem_nfc a a1 p ih.1 ih.2 e⟩
  | free a a1 p _ e ih =>
    obtain ⟨a1', e', ok, _⟩ := free_elem_spec a p ih.1 (free_elem_live a a1 p e)
    rw [e] at e'
    simp only [Option.some.injEq] at e'
    rw [e']
    exact ⟨ok, e' ▸ free_elem_nfc a a1 p ih.1 ih.2 e⟩

end fixed_alloc

/-! ## When the allocator grows -/

namespace fixed_alloc

variable {N : Nat}

theorem sum_le_bound {ι : Type} (f : ι → Nat) (B : Nat) : ∀ (l : List ι),
    (∀ x ∈ l, f x ≤ B) → (l.map f).sum ≤ B * l.length := by
  intro l
  induction l with
  | nil => intro _; simp
  | cons x xs ih =>
    intro hb
    have h1 := hb x (List.mem_cons_self _ _)
    have h2 := ih (fun y hy => hb y (List.mem_cons_of_mem _ hy))
    simp only [List.map_cons, List.sum_cons, List.length_cons, Nat.mul_succ]
    omega

theorem sum_eq_bound {ι : Type} (f : ι → Nat) (B : Nat) : ∀ (l : List ι),
    (∀ x ∈ l, f x ≤ B) → ((l.map f).sum = B * l.length ↔ ∀ x ∈ l, f x = B) := by
  intro l
  induction l with
  | nil => intro _; simp
  | cons x xs ih =>
    intro hb
    have h1 := hb x (List.mem_cons_self _ _)
    have hb' : ∀ y ∈ xs, f y ≤ B := fun y hy => hb y (List.mem_cons_of_mem _ hy)
    have h2 := sum_le_bound f B xs hb'
    have h3 := ih hb'
    simp only [List.map_cons, List.sum_cons, List.length_cons, Nat.mul_succ, List.mem_cons,
      forall_eq_or_imp]
    constructor
    · intro e
      exact ⟨by omega, h3.1 (by omega)⟩
    · rintro ⟨e1, e2⟩
      rw [h3.2 e2, e1]
      omega

theorem chunk_slots_le (c : internal_chunk_cluster) (i : Nat) :
    (chunk_slots c i).length ≤ CHUNK_NUM_BITS := by
  unfold chunk_slots
  cases c.chunks.get? i with
  | none => simp
  | some ch =>
    simp only [List.length_map, set_bits]
    have := List.length_filter_le (fun j => ch.free_mask.testBit j) (List.range CHUNK_NUM_BITS)
    simpa using this

theorem chunk_slots_full (c : internal_chunk_cluster) (i : Nat) (hi : i < c.chunks.length) :
    (chunk_slots c i).length = CHUNK_NUM_BITS ↔ chunk_full c i := by
  have hget : c.chunks.get? i = some (c.chunks.get ⟨i, hi⟩) := List.get?_eq_get hi
  unfold chunk_slots chunk_full slot_used
  rw [hget]
  simp only [List.length_map, set_bits, Option.some.injEq, exists_eq_left']
  have := @List.filter_length_eq_length _ (fun j => (c.chunks.get ⟨i, hi⟩).free_mask.testBit j)
    (List.range CHUNK_NUM_BITS)
  simp only [List.length_range, List.mem_range] at this
  exact this

theorem cluster_slots_le (c : internal_chunk_cluster) :
    (cluster_slots N c).length ≤ CHUNK_NUM_BITS * N := by
  rw [cluster_slots, List.length_flatMap]
  have := sum_le_bound (List.length ∘ chunk_slots c) CHUNK_NUM_BITS (List.range N)
    (fun i _ => chunk_slots_le c i)
  simpa using this

theorem cluster_slots_full (c : internal_chunk_cluster) (hc : cluster_ok N c) :
    (cluster_slots N c).length = CHUNK_NUM_BITS * N ↔ ∀ i, i < N → chunk_full c i := by
  rw [cluster_slots, List.length_flatMap]
  have := sum_eq_bound (List.length ∘ chunk_slots c) CHUNK_NUM_BITS (List.range N)
    (fun i _ => chunk_slots_le c i)
  simp only [List.length_range, List.mem_range, Function.comp] at this
  rw [this]
  constructor
  · intro h i hi
    exact (chunk_slots_full c i (by rw [hc.1]; exact hi)).1 (h i hi)
  · intro h i hi
    exact (chunk_slots_full c i (by rw [hc.1]; exact hi)).2 (h i hi)

theorem live_slots_le (a : allocator N) :
    (live_slots a).length ≤ CHUNK_NUM_BITS * N * a.cluster.length := by
  rw [live_slots, List.length_flatMap]
  exact sum_le_bound (List.length ∘ cluster_slots N) (CHUNK_NUM_BITS * N) a.cluster
    (fun c _ => cluster_slots_le c)

theorem live_slots_full (a : allocator N) (h : allocator_ok a) :
    (live_slots a).length = CHUNK_NUM_BITS * N * a.cluster.length ↔
      ∀ c ∈ a.cluster, ∀ i, i < N → chunk_full c i := by
  rw [live_slots, List.length_flatMap]
  have := sum_eq_bound (List.length ∘ cluster_slots N) (CHUNK_NUM_BITS * N) a.cluster
    (fun c _ => cluster_slots_le c)
  rw [this]
  constructor
  · intro g c hc
    exact (cluster_slots_full c (chain_ok_mem _ h.2 c hc)).1 (g c hc)
  · intro g c hc
    exact (cluster_slots_full c (chain_ok_mem _ h.2 c hc)).2 (g c hc)

end fixed_alloc

namespace fixed_alloc

variable {N : Nat}

theorem live_slots_alloc (a a1 : allocator N) (p : Nat) (h : allocator_ok a)
    (h1 : allocator_ok a1) (hp : ¬ is_live a p)
    (hiff : ∀ q, is_live a1 q ↔ q = p ∨ is_live a q) :
    (live_slots a1).length = (live_slots a).length + 1 := by
  obtain ⟨used, al, al1, s1, s2⟩ := status_after_alloc a a1 p h h1 hp hiff
  rw [status_spec a h] at s1
  rw [status_spec a1 h1] at s2
  simp only [Option.some.injEq, Prod.mk.injEq] at s1 s2
  omega

theorem alloc_elem_grows (a a1 : allocator N) (p : Nat) (h : allocator_ok a)
    (hn : ∀ c ∈ a.cluster, nfc_ok N c) (e : alloc_elem a = some (a1, p)) :
    ((live_slots a).length = CHUNK_NUM_BITS * N * a.cluster.length →
      a1.cluster.length = a.cluster.length + 1) ∧
    ((live_slots a).length ≠ CHUNK_NUM_BITS * N * a.cluster.length →
      a1.cluster.length = a.cluster.length) := by
  obtain ⟨a1', p', e', ok1, _, hnl, hiff⟩ := alloc_elem_spec a h
  rw [e] at e'
  simp only [Option.some.injEq, Prod.mk.injEq] at e'
  obtain ⟨rfl, rfl⟩ := e'
  have hcount := live_slots_alloc a a1 p h ok1 hnl hiff
  have hle := live_slots_le a1
  rw [alloc_elem] at e
  rcases find_free_spec h.1 a.cluster h.2 with ⟨g, hfull⟩ | ⟨cl1, q, g, hq, _, _, _, hlen, _⟩
  · rw [g] at e
    simp only [if_true] at e
    have hall : (live_slots a).length = CHUNK_NUM_BITS * N * a.cluster.length := by
      rw [live_slots_full a h]
      intro c hc i hi
      by_cases hlt : i < c.nfc_index
      · exact hn c hc i hlt hi
      · obtain ⟨ch, g1, g2⟩ := hfull c hc i (by omega) hi
        exact full_mask_used c i ch g1 g2
    have hgrow : a1.cluster.length = a.cluster.length + 1 := by
      have hnew : chain_ok N
          (⟨XMALLOC a.cluster.length (cluster_bytes N), 0, List.replicate N ⟨0⟩⟩ ::
            a.cluster) := by
        refine ⟨rfl, ⟨by simp, ?_⟩, h.2⟩
        intro ch hc
        rw [List.eq_of_mem_replicate hc]
        exact Nat.pos_pow_of_pos _ (by decide)
      rcases find_free_spec h.1 _ hnew with ⟨g2, _⟩ | ⟨cl2, q2, g2, hq2, _, _, _, hlen2, _⟩
      · rw [g2] at e
        simp at e
      · rw [g2] at e
        simp only [ne_eq, hq2, not_false_eq_true, if_true, Option.some.injEq,
          Prod.mk.injEq] at e
        rw [← e.1]
        simpa using hlen2
    exact ⟨fun _ => hgrow, fun hne => absurd hall hne⟩
  · rw [g] at e
    have hq' : ¬ (q = NULL) := hq
    simp only [hq', if_false, Option.some.injEq, Prod.mk.injEq] at e
    have hsame : a1.cluster.length = a.cluster.length := by rw [← e.1]; exact hlen
    refine ⟨fun hall => ?_, fun _ => hsame⟩
    rw [hsame] at hle
    omega

end fixed_alloc

/-! ## The status of the allocator without the free function -/

namespace fixed_alloc.append_only

variable {N : Nat}

theorem ao_filled_step (n : Nat) (a : allocator N) (h : filled n a) :
    ∃ a1 p, alloc_elem a = some (a1, p) ∧ filled (n + 1) a1 := by
  obtain ⟨ok, hu, hshape⟩ := h
  obtain ⟨a1, p, e, ok1, _, _, _, hu1⟩ := ao_alloc_elem_spec a ok
  refine ⟨a1, p, e, ok1, by rw [hu1, hu], Or.inr ?_⟩
  rw [alloc_elem] at e
  rcases hshape with ⟨_, hnil⟩ | ⟨c, rest, hc, h1, h2, h3⟩
  · rw [hnil] at e
    simp only [internal_create_chunk, Option.some.injEq, Prod.mk.injEq] at e
    rw [← e.1]
    exact ⟨_, [], rfl, le_refl _, ok.1, by simp; omega⟩
  · rw [hc] at e
    simp only at e
    by_cases hfull : c.size ≥ N
    · rw [if_pos hfull] at e
      simp only [internal_create_chunk, Option.some.injEq, Prod.mk.injEq] at e
      rw [← e.1]
      refine ⟨_, c :: rest, rfl, le_refl _, ok.1, ?_⟩
      simp only [List.length_cons, Nat.mul_succ]
      omega
    · rw [if_neg hfull] at e
      simp only [Option.some.injEq, Prod.mk.injEq] at e
      rw [← e.1]
      exact ⟨_, rest, rfl, by simp, by simp; omega, by simp; omega⟩

theorem ao_filled_init (hN : 0 < N) : filled 0 (init_allocator : allocator N) :=
  ⟨⟨hN, trivial⟩, rfl, Or.inl ⟨rfl, rfl⟩⟩

theorem ao_alloc_times_filled : ∀ (n k : Nat) (a : allocator N), filled k a →
    ∃ a1, alloc_times n a = some a1 ∧ filled (k + n) a1 := by
  intro n
  induction n with
  | zero => intro k a h; exact ⟨a, rfl, h⟩
  | succ n ih =>
    intro k a h
    obtain ⟨a1, p, e, h1⟩ := ao_filled_step k a h
    obtain ⟨a2, e2, h2⟩ := ih (k + 1) a1 h1
    refine ⟨a2, by rw [alloc_times, e]; exact e2, ?_⟩
    rw [show k + (n + 1) = k + 1 + n by omega]
    exact h2

theorem ao_filled_status (n : Nat) (a : allocator N) (h : filled n a) :
    get_allocator_status a = (n, N * ((n + N - 1) / N)) := by
  obtain ⟨ok, hu, hshape⟩ := h
  have hN := ok.1
  rw [ao_status] at hu ⊢
  simp only at hu
  rw [hu]
  congr 2
  rcases hshape with ⟨rfl, hnil⟩ | ⟨c, rest, hc, h1, h2, h3⟩
  · rw [hnil]
    have : (0 + N - 1) / N = 0 := Nat.div_eq_of_lt (by omega)
    rw [this]
    rfl
  · rw [hc, List.length_cons]
    have : (n + N - 1) / N = rest.length + 1 := by
      apply Nat.div_eq_of_lt_le
      · rw [h3, Nat.succ_mul, Nat.mul_comm]; omega
      · rw [h3, Nat.succ_mul, Nat.succ_mul, Nat.mul_comm]; omega
    rw [this]

end fixed_alloc.append_only

/-! ## `allocator_foreach` -/

namespace fixed_alloc

variable {N : Nat} {σ : Type}

theorem foreach_bits_spec (cb : σ → Nat → σ) (m addr : Nat) : ∀ (n j mask : Nat) (ctx : σ),
    n + j = CHUNK_NUM_BITS → (0 < n → mask = 2 ^ j) →
      allocator_foreach.bits cb m addr n j mask ctx =
        (((List.range' j n).filter (fun b => m.testBit b)).map
          (fun b => arr_addr addr b)).foldl cb ctx := by
  intro n
  induction n with
  | zero => intro j mask ctx _ _; rfl
  | succ n ih =>
    intro j mask ctx h1 h2
    have hm := h2 (Nat.succ_pos _)
    subst hm
    rw [allocator_foreach.bits, ih (j + 1) _ _ (by omega)
      (fun hn => by
        rw [Nat.shiftLeft_eq, ← Nat.pow_succ]
        exact Nat.mod_eq_of_lt (Nat.pow_lt_pow_right (by decide) (by omega))),
      List.range'_succ, List.filter_cons]
    by_cases hb : m.testBit j = true
    · have : ¬ (m &&& 2 ^ j = 0) := by
        rw [and_two_pow_eq_zero, hb]; simp
      simp only [ne_eq, this, not_false_eq_true, if_true, hb, List.map_cons, List.foldl_cons]
    · have : m &&& 2 ^ j = 0 := by
        rw [and_two_pow_eq_zero]; simpa using hb
      simp only [ne_eq, this, not_true_eq_false, if_false, hb, Bool.false_eq_true]

theorem foreach_chunk_spec (cb : σ → Nat → σ) (c : internal_chunk_cluster) (i : Nat)
    (ch : internal_chunk) (hget : c.chunks.get? i = some ch) (ctx : σ) :
    (if ch.free_mask ≠ 0 then
      allocator_foreach.bits cb ch.free_mask (chunk_addr c.addr i) CHUNK_NUM_BITS 0 1 ctx
     else ctx) = (chunk_slots c i).foldl cb ctx := by
  have e : (chunk_slots c i) =
      (set_bits ch.free_mask).map (fun j => arr_addr (chunk_addr c.addr i) j) := by
    rw [chunk_slots, hget]
  rw [e, set_bits, List.range_eq_range']
  by_cases h0 : ch.free_mask = 0
  · simp [h0]
  · rw [if_pos h0, foreach_bits_spec cb _ _ CHUNK_NUM_BITS 0 1 ctx rfl (fun _ => rfl)]

theorem foreach_chunks_spec (cb : σ → Nat → σ) (c : internal_chunk_cluster) :
    ∀ (n i : Nat) (ctx : σ), i + n ≤ c.chunks.length →
      allocator_foreach.chunks cb c n i ctx =
        some (((List.range' i n).flatMap (chunk_slots c)).foldl cb ctx) := by
  intro n
  induction n with
  | zero => intro i ctx _; rfl
  | succ n ih =>
    intro i ctx h
    have hi : i < c.chunks.length := by omega
    have hget : c.chunks.get? i = some (c.chunks.get ⟨i, hi⟩) := List.get?_eq_get hi
    rw [allocator_foreach.chunks, hget]
    simp only
    rw [foreach_chunk_spec cb c i _ hget, ih (i + 1) _ (by omega), List.range'_succ,
      List.flatMap_cons, List.foldl_append]

theorem foreach_clusters_spec (cb : σ → Nat → σ) :
    ∀ (cl : List internal_chunk_cluster) (ctx : σ), chain_ok N cl →
      allocator_foreach.clusters N cb cl ctx =
        some ((cl.flatMap (cluster_slots N)).foldl cb ctx) := by
  intro cl
  induction cl with
  | nil => intro ctx _; rfl
  | cons c prev ih =>
    intro ctx h
    rw [allocator_foreach.clusters, foreach_chunks_spec cb c N 0 ctx (by rw [h.2.1.1]; omega)]
    simp only
    rw [ih _ h.2.2, List.flatMap_cons, List.foldl_append, cluster_slots, List.range_eq_range']

theorem allocator_foreach_spec (a : allocator N) (h : allocator_ok a) (ctx : σ)
    (cb : σ → Nat → σ) :
    allocator_foreach a ctx cb = some ((live_slots a).foldl cb ctx) :=
  foreach_clusters_spec cb a.cluster ctx h.2

end fixed_alloc

namespace fixed_alloc.append_only

variable {N : Nat} {σ : Type}

theorem ao_foreach_elems (cb : σ → Nat → σ) (c : internal_chunk) : ∀ (n i : Nat) (ctx : σ),
    allocator_foreach.elems cb c n i ctx =
      ((List.range' i n).map (fun i => c.addr + i)).foldl cb ctx := by
  intro n
  induction n with
  | zero => intro i ctx; rfl
  | succ n ih =>
    intro i ctx
    rw [allocator_foreach.elems, ih, List.range'_succ, List.map_cons, List.foldl_cons]

theorem ao_foreach_spec (a : allocator N) (ctx : σ) (cb : σ → Nat → σ) :
    allocator_foreach a ctx cb = (live_slots a).foldl cb ctx := by
  have : ∀ (cl : List internal_chunk) (ctx : σ), allocator_foreach.loop cb cl ctx =
      (cl.flatMap (fun c => (List.range c.size).map (fun i => c.addr + i))).foldl cb ctx := by
    intro cl
    induction cl with
    | nil => intro ctx; rfl
    | cons c prev ih =>
      intro ctx
      rw [allocator_foreach.loop, ih, ao_foreach_elems, List.flatMap_cons, List.foldl_append,
        List.range_eq_range']
  exact this a.chunk ctx

theorem ao_mem_live_slots (a : allocator N) (p : Nat) : p ∈ live_slots a ↔ is_live a p := by
  simp only [live_slots, List.mem_flatMap, List.mem_map, List.mem_range, is_live]
  constructor
  · rintro ⟨c, hc, i, hi, rfl⟩
    exact ⟨c, hc, i, hi, rfl⟩
  · rintro ⟨c, hc, i, hi, rfl⟩
    exact ⟨c, hc, i, hi, rfl⟩

theorem ao_nodup_live_slots (a : allocator N) (h : allocator_ok a) : (live_slots a).Nodup := by
  have : ∀ (cl : List internal_chunk), chain_ok N cl →
      (cl.flatMap (fun c => (List.range c.size).map (fun i => c.addr + i))).Nodup := by
    intro cl
    induction cl with
    | nil => intro _; exact List.nodup_nil
    | cons c prev ih =>
      intro hc
      rw [List.flatMap_cons, List.nodup_append]
      refine ⟨List.Nodup.map (fun x y e => by simpa using e) (List.nodup_range _), ih hc.2.2, ?_⟩
      intro p h1 h2
      simp only [List.mem_map, List.mem_range] at h1
      obtain ⟨i, _, rfl⟩ := h1
      have hl : is_live (⟨prev⟩ : allocator N) (c.addr + i) :=
        (ao_mem_live_slots ⟨prev⟩ _).1 h2
      have := ao_live_bound prev hc.2.2 _ hl
      have := hc.1
      omega
  exact this a.chunk h.2

theorem ao_live_slots_length (a : allocator N) :
    (live_slots a).length = (get_allocator_status a).1 := by
  rw [ao_status, live_slots, List.length_flatMap]
  congr 1
  apply List.map_congr_left
  intro c _
  simp only [Function.comp, List.length_map, List.length_range]

end fixed_alloc.append_only

/-- C21: the allocator with `free_elem` grows only when it is full.  In every
state that calls of `alloc_elem` and `free_elem` reach from the initialised
allocator (with a positive chunk parameter), `get_allocator_status` reports
as `allocated` the number of clusters times 64 times `N` and as `used` the
number of elements whose occupancy bit is set; `alloc_elem` returns, and it
appends a cluster exactly if every chunk of every cluster is full, which is
the case exactly if `used` equals `allocated`; a cluster appended raises
`allocated` by 64 times `N`, and otherwise `allocated` stays as it is. -/
theorem C21_allocator_grows_only_when_full {N : Nat} (a : fixed_alloc.allocator N)
    (hN : 0 < N) (h : fixed_alloc.reachable a) :
    ∃ a1 p used allocated used1 allocated1, fixed_alloc.alloc_elem a = some (a1, p) ∧
      fixed_alloc.get_allocator_status a = some (used, allocated) ∧
      fixed_alloc.get_allocator_status a1 = some (used1, allocated1) ∧
      allocated = fixed_alloc.CHUNK_NUM_BITS * N * a.cluster.length ∧
      used = (fixed_alloc.live_slots a).length ∧ (fixed_alloc.live_slots a).Nodup ∧
      (∀ q, q ∈ fixed_alloc.live_slots a ↔ fixed_alloc.is_live a q) ∧
      ((∀ c ∈ a.cluster, ∀ i, i < N → fixed_alloc.chunk_full c i) ↔ used = allocated) ∧
      (a1.cluster.length = a.cluster.length + 1 ↔ used = allocated) ∧
      (used = allocated → allocated1 = allocated + fixed_alloc.CHUNK_NUM_BITS * N) ∧
      (used ≠ allocated → a1.cluster.length = a.cluster.length ∧ allocated1 = allocated) := by
  obtain ⟨ok, hn⟩ := fixed_alloc.reachable_ok hN a h
  obtain ⟨a1, p, e, ok1, _⟩ := fixed_alloc.alloc_elem_spec a ok
  obtain ⟨g1, g2⟩ := fixed_alloc.alloc_elem_grows a a1 p ok hn e
  refine ⟨a1, p, _, _, _, _, e, fixed_alloc.status_spec a ok, fixed_alloc.status_spec a1 ok1,
    rfl, rfl, fixed_alloc.nodup_live_slots a ok, fixed_alloc.mem_live_slots a,
    (fixed_alloc.live_slots_full a ok).symm, ⟨fun hl => ?_, g1⟩, fun hu => ?_, fun hu => ?_⟩
  · by_contra hne
    have := g2 hne
    omega
  · rw [g1 hu, Nat.mul_succ]
  · rw [g2 hu]
    exact ⟨rfl, rfl⟩

theorem C21_allocator_grows_only_when_full_witness :
    0 < 1 ∧ fixed_alloc.reachable (fixed_alloc.init_allocator : fixed_alloc.allocator 1) ∧
    ∃ a1 p used allocated used1 allocated1,
      fixed_alloc.alloc_elem (fixed_alloc.init_allocator : fixed_alloc.allocator 1) =
        some (a1, p) ∧
      fixed_alloc.get_allocator_status
        (fixed_alloc.init_allocator : fixed_alloc.allocator 1) = some (used, allocated) ∧
      fixed_alloc.get_allocator_status a1 = some (used1, allocated1) ∧
      allocated = fixed_alloc.CHUNK_NUM_BITS * 1 *
        (fixed_alloc.init_allocator : fixed_alloc.allocator 1).cluster.length ∧
      used = (fixed_alloc.live_slots
        (fixed_alloc.init_allocator : fixed_alloc.allocator 1)).length ∧
      (fixed_alloc.live_slots (fixed_alloc.init_allocator : fixed_alloc.allocator 1)).Nodup ∧
      (∀ q, q ∈ fixed_alloc.live_slots (fixed_alloc.init_allocator : fixed_alloc.allocator 1) ↔
        fixed_alloc.is_live (fixed_alloc.init_allocator : fixed_alloc.allocator 1) q) ∧
      ((∀ c ∈ (fixed_alloc.init_allocator : fixed_alloc.allocator 1).cluster,
        ∀ i, i < 1 → fixed_alloc.chunk_full c i) ↔ used = allocated) ∧
      (a1.cluster.length =
        (fixed_alloc.init_allocator : fixed_alloc.allocator 1).cluster.length + 1 ↔
          used = allocated) ∧
      (used = allocated → allocated1 = allocated + fixed_alloc.CHUNK_NUM_BITS * 1) ∧
      (used ≠ allocated →
        a1.cluster.length =
          (fixed_alloc.init_allocator : fixed_alloc.allocator 1).cluster.length ∧
        allocated1 = allocated) :=
  ⟨by decide, fixed_alloc.reachable.init,
    C21_allocator_grows_only_when_full fixed_alloc.init_allocator (by decide)
      fixed_alloc.reachable.init⟩

/-- C22: the status of the allocator without `free_elem`.  For every positive
chunk capacity `C` and every `n`, `n` allocations in a row from the
initialised allocator all return, and afterwards `get_allocator_status`
reports `n` elements in use and a capacity of `C` times `n / C` rounded
up. -/
theorem C22_append_only_status {C : Nat} (n : Nat) (hC : 0 < C) :
    ∃ a, fixed_alloc.append_only.alloc_times n
        (fixed_alloc.append_only.init_allocator : fixed_alloc.append_only.allocator C) =
          some a ∧
      fixed_alloc.append_only.get_allocator_status a = (n, C * ((n + C - 1) / C)) := by
  obtain ⟨a, e, hf⟩ := fixed_alloc.append_only.ao_alloc_times_filled n 0 _
    (fixed_alloc.append_only.ao_filled_init hC)
  rw [Nat.zero_add] at hf
  exact ⟨a, e, fixed_alloc.append_only.ao_filled_status n a hf⟩

theorem C22_append_only_status_witness :
    0 < 4 ∧ ∃ a, fixed_alloc.append_only.alloc_times 5
        (fixed_alloc.append_only.init_allocator : fixed_alloc.append_only.allocator 4) =
          some a ∧
      fixed_alloc.append_only.get_allocator_status a = (5, 4 * ((5 + 4 - 1) / 4)) :=
  ⟨by decide, C22_append_only_status 5 (by decide)⟩

/-- C23: invalid calls of `free_elem` are caught by an assertion.  In every
state of the allocator that satisfies `allocator_ok`: `free_elem` of an
element in use fails no assertion, and a second `free_elem` of it right after
does; `free_elem` of an address that is not an element in use fails an
assertion, in particular for an element of a cluster whose occupancy bit is
clear and for an address in no cluster.  A failed assertion is the result
`none`, which carries no allocator. -/
theorem C23_invalid_free_fails_assertion {N : Nat} (a : fixed_alloc.allocator N) (p : Nat)
    (h : fixed_alloc.allocator_ok a) :
    (fixed_alloc.is_live a p → ∃ a1, fixed_alloc.free_elem a p = some a1 ∧
      fixed_alloc.free_elem a1 p = none) ∧
    (¬ fixed_alloc.is_live a p → fixed_alloc.free_elem a p = none) ∧
    (∀ c ∈ a.cluster, ∀ i j, i < N → j < fixed_alloc.CHUNK_NUM_BITS →
      ¬ fixed_alloc.slot_used c i j →
        fixed_alloc.free_elem a (fixed_alloc.arr_addr (fixed_alloc.chunk_addr c.addr i) j) =
          none) ∧
    ((∀ c ∈ a.cluster, ¬ (c.addr < p ∧ p < c.addr + fixed_alloc.cluster_bytes N)) →
      fixed_alloc.free_elem a p = none) := by
  refine ⟨fun hl => ?_, (fixed_alloc.free_elem_none a p h).2, fun c hc i j hi hj hu => ?_,
    fixed_alloc.free_elem_outside a p⟩
  · obtain ⟨a1, e, ok1, hiff⟩ := fixed_alloc.free_elem_spec a p h hl
    exact ⟨a1, e, (fixed_alloc.free_elem_none a1 p ok1).2 (fun h1 => ((hiff p).1 h1).1 rfl)⟩
  · obtain ⟨before, after, hd⟩ := List.append_of_mem hc
    exact (fixed_alloc.free_elem_none a _ h).2
      (fun hl => hu (fixed_alloc.live_position a before after c i j h hd hi hj hl))

theorem C23_invalid_free_fails_assertion_witness :
    fixed_alloc.allocator_ok fixed_alloc.example_allocator ∧
    (fixed_alloc.is_live fixed_alloc.example_allocator 5 →
      ∃ a1, fixed_alloc.free_elem fixed_alloc.example_allocator 5 = some a1 ∧
        fixed_alloc.free_elem a1 5 = none) ∧
    (¬ fixed_alloc.is_live fixed_alloc.example_allocator 5 →
      fixed_alloc.free_elem fixed_alloc.example_allocator 5 = none) ∧
    (∀ c ∈ fixed_alloc.example_allocator.cluster, ∀ i j, i < 1 →
      j < fixed_alloc.CHUNK_NUM_BITS → ¬ fixed_alloc.slot_used c i j →
        fixed_alloc.free_elem fixed_alloc.example_allocator
          (fixed_alloc.arr_addr (fixed_alloc.chunk_addr c.addr i) j) = none) ∧
    ((∀ c ∈ fixed_alloc.example_allocator.cluster,
        ¬ (c.addr < 5 ∧ 5 < c.addr + fixed_alloc.cluster_bytes 1)) →
      fixed_alloc.free_elem fixed_alloc.example_allocator 5 = none) :=
  ⟨fixed_alloc.example_allocator_ok,
    C23_invalid_free_fails_assertion fixed_alloc.example_allocator 5
      fixed_alloc.example_allocator_ok⟩

/-- C24: `allocator_foreach` enumerates exactly the elements in use, in both
modes.  For every state that satisfies `allocator_ok`, `allocator_foreach`
returns, and its calls of the callback are those for the list `live_slots`;
this list has no repetition, holds exactly the elements in use, and has as
many entries as `get_allocator_status` reports in use. -/
theorem C24_allocator_foreach_visits_live_slots {N M : Nat} (a : fixed_alloc.allocator N)
    (b : fixed_alloc.append_only.allocator M) (ha : fixed_alloc.allocator_ok a)
    (hb : fixed_alloc.append_only.allocator_ok b) :
    ((∀ (σ : Type) (cb : σ → Nat → σ) (ctx : σ), fixed_alloc.allocator_foreach a ctx cb =
        some ((fixed_alloc.live_slots a).foldl cb ctx)) ∧
      (fixed_alloc.live_slots a).Nodup ∧
      (∀ p, p ∈ fixed_alloc.live_slots a ↔ fixed_alloc.is_live a p) ∧
      ∃ allocated, fixed_alloc.get_allocator_status a =
        some ((fixed_alloc.live_slots a).length, allocated)) ∧
    ((∀ (σ : Type) (cb : σ → Nat → σ) (ctx : σ),
        fixed_alloc.append_only.allocator_foreach b ctx cb =
          (fixed_alloc.append_only.live_slots b).foldl cb ctx) ∧
      (fixed_alloc.append_only.live_slots b).Nodup ∧
      (∀ p, p ∈ fixed_alloc.append_only.live_slots b ↔ fixed_alloc.append_only.is_live b p) ∧
      (fixed_alloc.append_only.live_slots b).length =
        (fixed_alloc.append_only.get_allocator_status b).1) :=
  ⟨⟨fun _ cb ctx => fixed_alloc.allocator_foreach_spec a ha ctx cb,
      fixed_alloc.nodup_live_slots a ha, fixed_alloc.mem_live_slots a,
      _, fixed_alloc.status_spec a ha⟩,
    ⟨fun _ cb ctx => fixed_alloc.append_only.ao_foreach_spec b ctx cb,
      fixed_alloc.append_only.ao_nodup_live_slots b hb,
      fixed_alloc.append_only.ao_mem_live_slots b,
      fixed_alloc.append_only.ao_live_slots_length b⟩⟩

theorem C24_allocator_foreach_visits_live_slots_witness :
    fixed_alloc.allocator_ok fixed_alloc.example_allocator ∧
    fixed_alloc.append_only.allocator_ok
      (fixed_alloc.append_only.init_allocator : fixed_alloc.append_only.allocator 4) ∧
    ((∀ (σ : Type) (cb : σ → Nat → σ) (ctx : σ),
        fixed_alloc.allocator_foreach fixed_alloc.example_allocator ctx cb =
          some ((fixed_alloc.live_slots fixed_alloc.example_allocator).foldl cb ctx)) ∧
      (fixed_alloc.live_slots fixed_alloc.example_allocator).Nodup ∧
      (∀ p, p ∈ fixed_alloc.live_slots fixed_alloc.example_allocator ↔
        fixed_alloc.is_live fixed_alloc.example_allocator p) ∧
      ∃ allocated, fixed_alloc.get_allocator_status fixed_alloc.example_allocator =
        some ((fixed_alloc.live_slots fixed_alloc.example_allocator).length, allocated)) ∧
    ((∀ (σ : Type) (cb : σ → Nat → σ) (ctx : σ),
        fixed_alloc.append_only.allocator_foreach
          (fixed_alloc.append_only.init_allocator : fixed_alloc.append_only.allocator 4)
          ctx cb =
          (fixed_alloc.append_only.live_slots
            (fixed_alloc.append_only.init_allocator :
              fixed_alloc.append_only.allocator 4)).foldl cb ctx) ∧
      (fixed_alloc.append_only.live_slots
        (fixed_alloc.append_only.init_allocator : fixed_alloc.append_only.allocator 4)).Nodup ∧
      (∀ p, p ∈ fixed_alloc.append_only.live_slots
          (fixed_alloc.append_only.init_allocator : fixed_alloc.append_only.allocator 4) ↔
        fixed_alloc.append_only.is_live
          (fixed_alloc.append_only.init_allocator : fixed_alloc.append_only.allocator 4) p) ∧
      (fixed_alloc.append_only.live_slots
        (fixed_alloc.append_only.init_allocator : fixed_alloc.append_only.allocator 4)).length =
        (fixed_alloc.append_only.get_allocator_status
          (fixed_alloc.append_only.init_allocator :
            fixed_alloc.append_only.allocator 4)).1) :=
  ⟨fixed_alloc.example_allocator_ok, ⟨by decide, trivial⟩,
    C24_allocator_foreach_visits_live_slots fixed_alloc.example_allocator
      fixed_alloc.append_only.init_allocator fixed_alloc.example_allocator_ok
      ⟨by decide, trivial⟩⟩

/-! ## `is_valid_tree` of the AVL tree -/

namespace avl_tree

variable {α : Type} {N : Nat}

theorem check_balance_ok (n : node α) :
    ∀ c, balance_stored n → internal_check_balance n c = (true, c + (addrs n).length) := by
  induction n with
  | sentinel => intro c _; rfl
  | mk a k b l r ihl ihr =>
    intro c h
    obtain ⟨h1, h2, h3⟩ := h
    rw [internal_check_balance]
    simp only [ne_eq, h1, not_true_eq_false, if_false]
    rw [ihl (c + 1) h2]
    simp only
    rw [ihr _ h3]
    simp only [addrs, List.length_append, List.length_cons, Prod.mk.injEq, true_and]
    omega

theorem check_balance_bad (n : node α) :
    ∀ c, ¬ balance_stored n → (internal_check_balance n c).1 = false := by
  induction n with
  | sentinel => intro c h; exact absurd trivial h
  | mk a k b l r ihl ihr =>
    intro c h
    rw [internal_check_balance]
    by_cases h1 : b = internal_get_tree_height r - internal_get_tree_height l
    · simp only [ne_eq, h1, not_true_eq_false, if_false]
      by_cases h2 : balance_stored l
      · rw [check_balance_ok l _ h2]
        simp only
        have h3 : ¬ balance_stored r := fun h3 => h ⟨h1, h2, h3⟩
        have := ihr (c + 1 + (addrs l).length) h3
        cases hr : internal_check_balance r (c + 1 + (addrs l).length) with
        | mk b1 c1 =>
          rw [hr] at this
          simp only at this
          subst this
          rfl
      · have := ihl (c + 1) h2
        cases hl : internal_check_balance l (c + 1) with
        | mk b1 c1 =>
          rw [hl] at this
          simp only at this
          subst this
          rfl
    · simp only [ne_eq, h1, not_false_eq_true, if_true]

theorem balance_stored_of_balanced (n : node α) (h : balanced n) : balance_stored n := by
  induction n with
  | sentinel => trivial
  | mk a k b l r ihl ihr => exact ⟨h.1, ihl h.2.2.1, ihr h.2.2.2⟩

theorem is_valid_of_bad_balance (t : tree α N) (h : ¬ balance_stored t.root) :
    is_valid_tree t = some true := by
  have := check_balance_bad t.root 0 h
  rw [is_valid_tree]
  cases hc : internal_check_balance t.root 0 with
  | mk b c =>
    rw [hc] at this
    simp only at this
    subst this
    rfl

theorem is_valid_of_balanced (t : tree α N) (allocated : Nat) (h : balance_stored t.root)
    (hu : fixed_alloc.get_allocator_status t.allocator =
      some ((addrs t.root).length, allocated)) :
    is_valid_tree t = some true := by
  rw [is_valid_tree, check_balance_ok t.root 0 h, hu]
  simp

theorem height_map_keys {γ : Type} (f : α → γ) (n : node α) :
    internal_get_tree_height (map_keys f n) = internal_get_tree_height n := by
  induction n with
  | sentinel => rfl
  | mk a k b l r ihl ihr => simp only [map_keys, internal_get_tree_height, ihl, ihr]

theorem check_balance_map_keys {γ : Type} (f : α → γ) (n : node α) :
    ∀ c, internal_check_balance (map_keys f n) c = internal_check_balance n c := by
  induction n with
  | sentinel => intro c; rfl
  | mk a k b l r ihl ihr =>
    intro c
    simp only [map_keys, internal_check_balance, height_map_keys, ihl, ihr]

end avl_tree

namespace rb_tree

variable {α β : Type} [LinearOrder α] {N : Nat}

theorem prev_color_node (t : tree α β N) (a : Nat) (h : a ≠ NULL) :
    prev_color t a = (t.mem a).color := by
  rw [prev_color, if_neg h]

theorem child_key_ok_left (t : tree α β N) (a : Nat) (k : α) (l : rbt α β)
    (hk : (t.mem a).key = k) (hl : Rep t.mem (t.mem a).left a l)
    (ho : ∀ x, l.root_key = some x → x < k) :
    ¬ ((t.mem a).left ≠ leaf ∧ COMPARE (t.mem a).key (t.mem (t.mem a).left).key ≤ 0) := by
  rintro ⟨h1, h2⟩
  cases l with
  | nil => exact h1 hl
  | node la lc lk lv ll lr =>
    obtain ⟨e, _, _, e3, _⟩ := hl
    rw [e, e3, hk] at h2
    have := (COMPARE_gt k lk).2 (ho lk rfl)
    omega

theorem child_key_ok_right (t : tree α β N) (a : Nat) (k : α) (r : rbt α β)
    (hk : (t.mem a).key = k) (hr : Rep t.mem (t.mem a).right a r)
    (ho : ∀ x, r.root_key = some x → k < x) :
    ¬ ((t.mem a).right ≠ leaf ∧ COMPARE (t.mem a).key (t.mem (t.mem a).right).key ≥ 0) := by
  rintro ⟨h1, h2⟩
  cases r with
  | nil => exact h1 hr
  | node ra rc rk rv rl rr =>
    obtain ⟨e, _, _, e3, _⟩ := hr
    rw [e, e3, hk] at h2
    have := (COMPARE_lt k rk).2 (ho rk rfl)
    omega

theorem black_counts_child (a cc : Nat) (k : α) (v : β) (l r : rbt α β) (path n : Int)
    (hb : ∀ x ∈ black_counts (.node a cc k v l r), path + (x : Int) = n) :
    (∀ x ∈ black_counts l, (if cc = RB_TREE_BLACK then path + 1 else path) + (x : Int) = n) ∧
    (∀ x ∈ black_counts r, (if cc = RB_TREE_BLACK then path + 1 else path) + (x : Int) = n) := by
  have key : ∀ x, x ∈ black_counts l ∨ x ∈ black_counts r →
      (if cc = RB_TREE_BLACK then path + 1 else path) + (x : Int) = n := by
    intro x hx
    have := hb (if cc = RB_TREE_BLACK then x + 1 else x)
      (by simp only [black_counts, List.mem_map, List.mem_append]
          exact ⟨x, hx, rfl⟩)
    by_cases hc : cc = RB_TREE_BLACK
    · rw [if_pos hc] at this ⊢
      push_cast at this
      omega
    · rw [if_neg hc] at this ⊢
      exact this
  exact ⟨fun x hx => key x (Or.inl hx), fun x hx => key x (Or.inr hx)⟩

theorem check_complete (t : tree α β N) (n : Int) (hn : 0 ≤ n) : ∀ (S : rbt α β)
    (p prev : Nat) (path : Int) (c : internal_check_context) (fuel : Nat),
    Rep t.mem p prev S → colored S → red_ok (prev_color t prev) S → local_order S →
    (∀ x ∈ black_counts S, path + (x : Int) = n) →
    (c.already_calculated_path < 0 ∨ c.already_calculated_path = n) →
    S.addrs.length < fuel →
    internal_recursive_check t fuel c p prev path =
      some (0, ⟨n, c.calculated_nodes_count + S.addrs.length⟩) := by
  intro S
  induction S with
  | nil =>
    intro p prev path c fuel hrep _ _ _ hb hacp hf
    have hp : p = leaf := hrep
    have hpath : path = n := by
      have := hb 0 (by simp [black_counts])
      simpa using this
    obtain ⟨f, rfl⟩ : ∃ f, fuel = f + 1 := ⟨fuel - 1, by omega⟩
    rw [internal_recursive_check, if_pos hp]
    rcases hacp with h | h
    · rw [if_pos h, hpath]
      rfl
    · have h1 : ¬ c.already_calculated_path < 0 := by omega
      have h2 : ¬ c.already_calculated_path ≠ path := by rw [h, hpath]; simp
      rw [if_neg h1, if_neg h2, ← h]
      rfl
  | node a cc k v l r ihl ihr =>
    intro p prev path c fuel hrep hcol hred hord hb hacp hf
    obtain ⟨rfl, h1, h2, h3, _, h5, h6, hl, hr⟩ := hrep
    obtain ⟨hc, hcl, hcr⟩ := hcol
    obtain ⟨hr0, hrl, hrr⟩ := hred
    obtain ⟨ol, or, oll, orr⟩ := hord
    obtain ⟨f, rfl⟩ : ∃ f, fuel = f + 1 := ⟨fuel - 1, by omega⟩
    simp only [rbt.addrs, List.length_append, List.length_cons] at hf
    have hpc : prev_color t p = cc := by rw [prev_color_node t p h1, h5]
    obtain ⟨hbl, hbr⟩ := black_counts_child p cc k v l r path n hb
    have e1 := ihl (t.mem p).left p (if cc = RB_TREE_BLACK then path + 1 else path)
      ⟨c.already_calculated_path, c.calculated_nodes_count + 1⟩ f hl hcl (hpc ▸ hrl) oll hbl
      hacp (by omega)
    have e2 := ihr (t.mem p).right p (if cc = RB_TREE_BLACK then path + 1 else path)
      ⟨n, c.calculated_nodes_count + 1 + l.addrs.length⟩ f hr hcr (hpc ▸ hrr) orr hbr
      (Or.inr rfl) (by omega)
    have k1 := child_key_ok_left t p k l h3 hl ol
    have k2 := child_key_ok_right t p k r h3 hr or
    have hpr : (if (t.mem p).parent = NULL then RB_TREE_RED
        else (t.mem (t.mem p).parent).color) = prev_color t prev := by
      rw [h6]; rfl
    rw [internal_recursive_check]
    simp only [if_neg h2, if_neg h1, COMPARE_self, ne_eq, not_true_eq_false, if_false, h6, h5]
    rcases hc with rfl | rfl
    · have hne : ¬ (prev_color t prev = RB_TREE_RED) := hr0 rfl
      rw [← h6, hpr]
      simp only [if_true, if_neg hne, RED_ne_BLACK, if_false] at e1 e2 ⊢
      rw [e1]
      simp only [lt_self_iff_false, if_false]
      rw [e2]
      simp only [lt_self_iff_false, if_false, if_neg k1, if_neg k2, rbt.addrs,
        List.length_append, List.length_cons]
      congr 3
      omega
    · have hne : ¬ (RB_TREE_BLACK = RB_TREE_RED) := fun e => RED_ne_BLACK e.symm
      simp only [if_neg hne, if_true] at e1 e2 ⊢
      rw [e1]
      simp only [lt_self_iff_false, if_false]
      rw [e2]
      simp only [lt_self_iff_false, if_false, if_neg k1, if_neg k2, rbt.addrs,
        List.length_append, List.length_cons]
      congr 3
      omega

end rb_tree

namespace rb_tree

variable {α β : Type} [LinearOrder α] {N : Nat}

theorem check_node (t : tree α β N) (fuel : Nat) (c : internal_check_context)
    (p prev : Nat) (path : Int) (hleaf : p ≠ leaf) (hnull : p ≠ NULL) :
    internal_recursive_check t (fuel + 1) c p prev path =
      if (t.mem p).parent ≠ prev then some (RB_TREE_ERR_INVALID_PARENT_NODE, c)
      else if (t.mem p).color = RB_TREE_RED then
        if prev_color t (t.mem p).parent = RB_TREE_RED then
          some (RB_TREE_ERR_RED_CHILD_ISNT_BLACK,
            ⟨c.already_calculated_path, c.calculated_nodes_count + 1⟩)
        else internal_recursive_check.rest t fuel
          ⟨c.already_calculated_path, c.calculated_nodes_count + 1⟩ p path
      else if (t.mem p).color = RB_TREE_BLACK then
        internal_recursive_check.rest t fuel
          ⟨c.already_calculated_path, c.calculated_nodes_count + 1⟩ p (path + 1)
      else some (RB_TREE_ERR_INVALID_COLOR,
        ⟨c.already_calculated_path, c.calculated_nodes_count + 1⟩) := by
  rw [internal_recursive_check]
  simp only [if_neg hleaf, if_neg hnull, COMPARE_self, ne_eq, not_true_eq_false, if_false]
  by_cases hp : (t.mem p).parent = prev
  · simp only [hp, not_true_eq_false, if_false]
    by_cases hr : (t.mem p).color = RB_TREE_RED
    · simp only [hr, if_true]
      by_cases hpc : prev_color t prev = RB_TREE_RED
      · have : (if prev = NULL then RB_TREE_RED else (t.mem prev).color) = RB_TREE_RED := hpc
        simp only [this, hpc, if_true]
      · have : ¬ ((if prev = NULL then RB_TREE_RED else (t.mem prev).color) = RB_TREE_RED) :=
          hpc
        simp only [this, hpc, if_false]
        try rfl
    · simp only [hr, if_false]
      by_cases hb : (t.mem p).color = RB_TREE_BLACK
      · simp only [hb, if_true]
        try rfl
      · simp only [hb, if_false]
  · simp only [hp, not_false_eq_true, if_true]

theorem rest_sound (t : tree α β N) (fuel : Nat)
    (ih : ∀ (c : internal_check_context) (p prev : Nat) (path : Int) (ret : Int)
      (c1 : internal_check_context), 0 ≤ path →
      internal_recursive_check t fuel c p prev path = some (ret, c1) → ¬ ret < 0 →
        ret = 0 ∧ checked_ok t c c1 p prev path)
    (c : internal_check_context) (p : Nat) (path : Int) (ret : Int)
    (c3 : internal_check_context) (hpath : 0 ≤ path) (hnull : p ≠ NULL)
    (h : internal_recursive_check.rest t fuel c p path = some (ret, c3)) (hret : ¬ ret < 0) :
    ret = 0 ∧ ∃ Sl Sr : rbt α β, Rep t.mem (t.mem p).left p Sl ∧ Rep t.mem (t.mem p).right p Sr ∧
      colored Sl ∧ colored Sr ∧ red_ok (t.mem p).color Sl ∧ red_ok (t.mem p).color Sr ∧
      local_order Sl ∧ local_order Sr ∧
      (∀ x, Sl.root_key = some x → x < (t.mem p).key) ∧
      (∀ x, Sr.root_key = some x → (t.mem p).key < x) ∧
      c3.calculated_nodes_count =
        c.calculated_nodes_count + Sl.addrs.length + Sr.addrs.length ∧
      0 ≤ c3.already_calculated_path ∧
      (∀ x ∈ black_counts Sl ++ black_counts Sr, path + (x : Int) = c3.already_calculated_path) ∧
      (c.already_calculated_path < 0 ∨ c3.already_calculated_path = c.already_calculated_path) := by
  rw [internal_recursive_check.rest] at h
  cases hL : internal_recursive_check t fuel c (t.mem p).left p path with
  | none => rw [hL] at h; simp at h
  | some rl =>
    obtain ⟨retL, c2⟩ := rl
    rw [hL] at h
    simp only at h
    by_cases hl0 : retL < 0
    · rw [if_pos hl0] at h
      simp only [Option.some.injEq, Prod.mk.injEq] at h
      exact absurd (h.1 ▸ hl0) hret
    · rw [if_neg hl0] at h
      obtain ⟨_, Sl, l1, l2, l3, l4, l5, l6, l7, l8⟩ := ih c _ _ path retL c2 hpath hL hl0
      cases hR : internal_recursive_check t fuel c2 (t.mem p).right p path with
      | none => rw [hR] at h; simp at h
      | some rr =>
        obtain ⟨retR, c3'⟩ := rr
        rw [hR] at h
        simp only at h
        by_cases hr0 : retR < 0
        · rw [if_pos hr0] at h
          simp only [Option.some.injEq, Prod.mk.injEq] at h
          exact absurd (h.1 ▸ hr0) hret
        · rw [if_neg hr0] at h
          obtain ⟨_, Sr, r1, r2, r3, r4, r5, r6, r7, r8⟩ :=
            ih c2 _ _ path retR c3' hpath hR hr0
          by_cases hk1 : (t.mem p).left ≠ leaf ∧
              COMPARE (t.mem p).key (t.mem (t.mem p).left).key ≤ 0
          · rw [if_pos hk1] at h
            simp only [Option.some.injEq, Prod.mk.injEq] at h
            exact absurd (h.1 ▸ (by decide : RB_TREE_ERR_INCONSISTENT_KEY < 0)) hret
          · rw [if_neg hk1] at h
            by_cases hk2 : (t.mem p).right ≠ leaf ∧
                COMPARE (t.mem p).key (t.mem (t.mem p).right).key ≥ 0
            · rw [if_pos hk2] at h
              simp only [Option.some.injEq, Prod.mk.injEq] at h
              exact absurd (h.1 ▸ (by decide : RB_TREE_ERR_INCONSISTENT_KEY < 0)) hret
            · rw [if_neg hk2] at h
              simp only [Option.some.injEq, Prod.mk.injEq] at h
              obtain ⟨rfl, rfl⟩ := h
              have hacp : c3'.already_calculated_path = c2.already_calculated_path := by
                rcases r8 with r8 | r8
                · omega
                · exact r8
              have hpc : prev_color t p = (t.mem p).color := prev_color_node t p hnull
              refine ⟨rfl, Sl, Sr, l1, r1, l2, r2, hpc ▸ l3, hpc ▸ r3, l4, r4, ?_, ?_,
                by rw [r5, l5], r6, ?_, ?_⟩
              · intro x hx
                cases Sl with
                | nil => cases hx
                | node la lc lk lv ll lr =>
                  simp only [rbt.root_key, Option.some.injEq] at hx
                  subst hx
                  obtain ⟨e, _, e2, e3, _⟩ := l1
                  have hne : (t.mem p).left ≠ leaf := by rw [e]; exact e2
                  have hcmp : ¬ COMPARE (t.mem p).key (t.mem (t.mem p).left).key ≤ 0 :=
                    fun hc => hk1 ⟨hne, hc⟩
                  rw [e, e3] at hcmp
                  exact (COMPARE_gt _ _).1 (by omega)
              · intro x hx
                cases Sr with
                | nil => cases hx
                | node ra rc rk rv rl rr =>
                  simp only [rbt.root_key, Option.some.injEq] at hx
                  subst hx
                  obtain ⟨e, _, e2, e3, _⟩ := r1
                  have hne : (t.mem p).right ≠ leaf := by rw [e]; exact e2
                  have hcmp : ¬ COMPARE (t.mem p).key (t.mem (t.mem p).right).key ≥ 0 :=
                    fun hc => hk2 ⟨hne, hc⟩
                  rw [e, e3] at hcmp
                  exact (COMPARE_lt _ _).1 (by omega)
              · intro x hx
                rcases List.mem_append.1 hx with hx | hx
                · rw [hacp]; exact l7 x hx
                · exact r7 x hx
              · rcases l8 with l8 | l8
                · exact Or.inl l8
                · exact Or.inr (by rw [hacp, l8])

end rb_tree

namespace rb_tree

variable {α β : Type} [LinearOrder α] {N : Nat}

theorem black_counts_node (a cc : Nat) (k : α) (v : β) (l r : rbt α β) (path acp : Int)
    (hc : cc = RB_TREE_RED ∨ cc = RB_TREE_BLACK)
    (h : ∀ x ∈ black_counts l ++ black_counts r,
      (if cc = RB_TREE_BLACK then path + 1 else path) + (x : Int) = acp) :
    ∀ x ∈ black_counts (.node a cc k v l r), path + (x : Int) = acp := by
  intro x hx
  simp only [black_counts, List.mem_map] at hx
  obtain ⟨y, hy, rfl⟩ := hx
  have := h y hy
  by_cases hb : cc = RB_TREE_BLACK
  · rw [if_pos hb] at this ⊢
    push_cast
    omega
  · rw [if_neg hb] at this ⊢
    exact this

theorem check_sound (t : tree α β N) : ∀ (fuel : Nat) (c : internal_check_context)
    (p prev : Nat) (path : Int) (ret : Int) (c1 : internal_check_context), 0 ≤ path →
    internal_recursive_check t fuel c p prev path = some (ret, c1) → ¬ ret < 0 →
      ret = 0 ∧ checked_ok t c c1 p prev path := by
  intro fuel
  induction fuel with
  | zero =>
    intro c p prev path ret c1 _ h _
    rw [internal_recursive_check] at h
    cases h
  | succ f ih =>
    intro c p prev path ret c1 hpath h hret
    by_cases hleaf : p = leaf
    · rw [internal_recursive_check, if_pos hleaf] at h
      by_cases h0 : c.already_calculated_path < 0
      · rw [if_pos h0] at h
        simp only [Option.some.injEq, Prod.mk.injEq] at h
        obtain ⟨rfl, rfl⟩ := h
        exact ⟨rfl, .nil, hleaf, trivial, trivial, trivial, rfl, hpath,
          fun x hx => by simp [black_counts] at hx; subst hx; simp, Or.inl h0⟩
      · rw [if_neg h0] at h
        by_cases h1 : c.already_calculated_path ≠ path
        · rw [if_pos h1] at h
          simp only [Option.some.injEq, Prod.mk.injEq] at h
          exact absurd (h.1 ▸ (by decide : RB_TREE_ERR_INCONSISTENT_PATH < 0)) hret
        · rw [if_neg h1] at h
          simp only [Option.some.injEq, Prod.mk.injEq] at h
          obtain ⟨rfl, rfl⟩ := h
          have h2 : c.already_calculated_path = path := not_not.1 h1
          exact ⟨rfl, .nil, hleaf, trivial, trivial, trivial, rfl, by omega,
            fun x hx => by simp [black_counts] at hx; subst hx; simp [h2], Or.inr rfl⟩
    · by_cases hnull : p = NULL
      · rw [internal_recursive_check, if_neg hleaf, if_pos hnull] at h
        cases h
      · rw [check_node t f c p prev path hleaf hnull] at h
        by_cases hp : (t.mem p).parent ≠ prev
        · rw [if_pos hp] at h
          simp only [Option.some.injEq, Prod.mk.injEq] at h
          exact absurd (h.1 ▸ (by decide : RB_TREE_ERR_INVALID_PARENT_NODE < 0)) hret
        · rw [if_neg hp] at h
          have hpar : (t.mem p).parent = prev := not_not.1 hp
          have build : ∀ (path1 : Int), 0 ≤ path1 →
              path1 = (if (t.mem p).color = RB_TREE_BLACK then path + 1 else path) →
              ((t.mem p).color = RB_TREE_RED ∨ (t.mem p).color = RB_TREE_BLACK) →
              ((t.mem p).color = RB_TREE_RED → prev_color t prev ≠ RB_TREE_RED) →
              internal_recursive_check.rest t f
                ⟨c.already_calculated_path, c.calculated_nodes_count + 1⟩ p path1 =
                  some (ret, c1) →
              ret = 0 ∧ checked_ok t c c1 p prev path := by
            intro path1 hp1 ep hcol hred hrest
            obtain ⟨e0, Sl, Sr, l1, r1, l2, r2, l3, r3, l4, r4, o1, o2, hcnt, hacp, hbl, hkeep⟩ :=
              rest_sound t f ih _ p path1 ret c1 hp1 hnull hrest hret
            refine ⟨e0, .node p (t.mem p).color (t.mem p).key (t.mem p).value Sl Sr,
              ⟨rfl, hnull, hleaf, rfl, rfl, rfl, hpar, l1, r1⟩, ⟨hcol, l2, r2⟩,
              ⟨hred, l3, r3⟩, ⟨o1, o2, l4, r4⟩, ?_, hacp, ?_, hkeep⟩
            · simp only [rbt.addrs, List.length_append, List.length_cons]
              simp only at hcnt
              omega
            · exact black_counts_node p _ _ _ Sl Sr path _ hcol (ep ▸ hbl)
          by_cases hr : (t.mem p).color = RB_TREE_RED
          · rw [if_pos hr] at h
            by_cases hpc : prev_color t (t.mem p).parent = RB_TREE_RED
            · rw [if_pos hpc] at h
              simp only [Option.some.injEq, Prod.mk.injEq] at h
              exact absurd (h.1 ▸ (by decide : RB_TREE_ERR_RED_CHILD_ISNT_BLACK < 0)) hret
            · rw [if_neg hpc] at h
              have hnb : ¬ (t.mem p).color = RB_TREE_BLACK := by
                rw [hr]; exact RED_ne_BLACK
              exact build path hpath (by rw [if_neg hnb]) (Or.inl hr)
                (fun _ => hpar ▸ hpc) h
          · rw [if_neg hr] at h
            by_cases hb : (t.mem p).color = RB_TREE_BLACK
            · rw [if_pos hb] at h
              exact build (path + 1) (by omega) (by rw [if_pos hb]) (Or.inr hb)
                (fun e => absurd e hr) h
            · rw [if_neg hb] at h
              simp only [Option.some.injEq, Prod.mk.injEq] at h
              exact absurd (h.1 ▸ (by decide : RB_TREE_ERR_INVALID_COLOR < 0)) hret

end rb_tree

namespace rb_tree

variable {α β : Type} {N : Nat}

theorem ranked_unique (m : Nat → node α β) (x n n' : Nat) (h : ranked m x n)
    (h' : ranked m x n') : n = n' := by
  rcases Nat.lt_trichotomy n n' with hlt | heq | hgt
  · exact absurd h.1 (h'.2 n hlt)
  · exact heq
  · exact absurd h'.1 (h.2 n' hgt)

theorem ranked_child (m : Nat → node α β) (a par R : Nat) (ha : a ≠ NULL)
    (hp : (m a).parent = par) (h : ranked m par R) : ranked m a (R + 1) := by
  refine ⟨?_, fun i hi => ?_⟩
  · rw [up, Function.iterate_succ_apply, hp]
    exact h.1
  · cases i with
    | zero => exact ha
    | succ j =>
      rw [up, Function.iterate_succ_apply, hp]
      exact h.2 j (by omega)

theorem Rep_ranked (m : Nat → node α β) (S : rbt α β) : ∀ (p par R : Nat),
    Rep m p par S → ranked m par R →
      ∀ x ∈ S.addrs, ∃ e, ranked m x (R + e + 1) ∧ up m e x = p := by
  induction S with
  | nil => intro p par R _ _ x hx; simp [rbt.addrs] at hx
  | node a c k v l r ihl ihr =>
    intro p par R h hr x hx
    obtain ⟨rfl, h1, _, _, _, _, h6, hl, hrr⟩ := h
    have ra := ranked_child m p par R h1 h6 hr
    simp only [rbt.addrs, List.mem_append, List.mem_cons] at hx
    have below : ∀ (s : rbt α β) (q : Nat), Rep m q p s →
        (∀ y ∈ s.addrs, ∃ e, ranked m y (R + 1 + e + 1) ∧ up m e y = q) → x ∈ s.addrs →
        ∃ e, ranked m x (R + e + 1) ∧ up m e x = p := by
      intro s q hs ih hxs
      obtain ⟨e, g1, g2⟩ := ih x hxs
      refine ⟨e + 1, by rw [show R + (e + 1) + 1 = R + 1 + e + 1 by omega]; exact g1, ?_⟩
      rw [up, Function.iterate_succ_apply']
      have g2' : (fun y => (m y).parent)^[e] x = q := g2
      rw [g2']
      cases s with
      | nil => simp [rbt.addrs] at hxs
      | node sa sc sk sv sl sr =>
        obtain ⟨e', _, _, _, _, _, e6, _⟩ := hs
        rw [e']
        exact e6
    rcases hx with hx | rfl | hx
    · exact below l _ hl (ihl _ _ _ hl ra) hx
    · exact ⟨0, ra, rfl⟩
    · exact below r _ hrr (ihr _ _ _ hrr ra) hx

theorem Rep_nodup [LinearOrder α] (m : Nat → node α β) (S : rbt α β) : ∀ (p par R : Nat),
    Rep m p par S → ranked m par R → local_order S → S.addrs.Nodup := by
  induction S with
  | nil => intro p par R _ _ _; exact List.nodup_nil
  | node a c k v l r ihl ihr =>
    intro p par R h hr ho
    obtain ⟨rfl, h1, _, h3, _, _, h6, hl, hrr⟩ := h
    obtain ⟨o1, o2, o3, o4⟩ := ho
    have ra := ranked_child m p par R h1 h6 hr
    have notin : ∀ (s : rbt α β) (q : Nat), Rep m q p s → p ∉ s.addrs := by
      intro s q hs hmem
      obtain ⟨e, g1, _⟩ := Rep_ranked m s q p (R + 1) hs ra p hmem
      have := ranked_unique m p _ _ ra g1
      omega
    simp only [rbt.addrs]
    rw [List.nodup_append]
    refine ⟨ihl _ _ _ hl ra o3, List.nodup_cons.2 ⟨notin r _ hrr, ihr _ _ _ hrr ra o4⟩, ?_⟩
    intro x hxl hxr
    rcases List.mem_cons.1 hxr with rfl | hxr
    · exact notin l _ hl hxl
    · obtain ⟨e1, g1, u1⟩ := Rep_ranked m l _ p (R + 1) hl ra x hxl
      obtain ⟨e2, g2, u2⟩ := Rep_ranked m r _ p (R + 1) hrr ra x hxr
      have he : e1 = e2 := by
        have := ranked_unique m x _ _ g1 g2
        omega
      subst he
      have hptr : (m p).left = (m p).right := by rw [← u1, ← u2]
      cases l with
      | nil => simp [rbt.addrs] at hxl
      | node la lc lk lv ll lr =>
        cases r with
        | nil => simp [rbt.addrs] at hxr
        | node ra' rc rk rv rl rr =>
          obtain ⟨e1', _, _, k1, _⟩ := hl
          obtain ⟨e2', _, _, k2, _⟩ := hrr
          have hlt1 := o1 lk rfl
          have hlt2 := o2 rk rfl
          have : lk = rk := by rw [← k1, ← k2, ← e1', ← e2', hptr]
          rw [this] at hlt1
          exact absurd (lt_trans hlt1 hlt2) (lt_irrefl _)

theorem layout_of_Rep [LinearOrder α] (t : tree α β N) (T : rbt α β)
    (h : Rep t.mem t.root NULL T) (ho : local_order T) : layout t T :=
  ⟨h, Rep_nodup t.mem T _ _ 0 h ⟨rfl, fun i hi => absurd hi (Nat.not_lt_zero i)⟩ ho⟩

end rb_tree

namespace rb_tree

variable {α β : Type} {N : Nat}

theorem red_ok_no_red_red (S : rbt α β) : ∀ (pc : Nat), colored S → red_ok pc S →
    no_red_red S ∧ (pc = RB_TREE_RED → S.color = RB_TREE_BLACK) := by
  induction S with
  | nil => intro pc _ _; exact ⟨trivial, fun _ => rfl⟩
  | node a c k v l r ihl ihr =>
    intro pc hc hr
    obtain ⟨c0, cl, cr⟩ := hc
    obtain ⟨r0, rl, rr⟩ := hr
    obtain ⟨nl, bl⟩ := ihl c cl rl
    obtain ⟨nr, br⟩ := ihr c cr rr
    refine ⟨⟨fun e => ⟨bl e, br e⟩, nl, nr⟩, fun e => ?_⟩
    rcases c0 with c0 | c0
    · exact absurd e (r0 c0)
    · exact c0

theorem no_red_red_red_ok (S : rbt α β) : ∀ (pc : Nat), colored S → no_red_red S →
    (pc = RB_TREE_RED → S.color = RB_TREE_BLACK) → red_ok pc S := by
  induction S with
  | nil => intro pc _ _ _; trivial
  | node a c k v l r ihl ihr =>
    intro pc hc hn hp
    obtain ⟨_, cl, cr⟩ := hc
    obtain ⟨n0, nl, nr⟩ := hn
    refine ⟨fun e hpc => ?_, ihl c cl nl (fun e => (n0 e).1), ihr c cr nr (fun e => (n0 e).2)⟩
    have : c = RB_TREE_BLACK := hp hpc
    rw [e] at this
    exact RED_ne_BLACK this

theorem root_key_mem (S : rbt α β) (x : α) (h : S.root_key = some x) : x ∈ S.keys := by
  cases S with
  | nil => cases h
  | node a c k v l r =>
    simp only [rbt.root_key, Option.some.injEq] at h
    subst h
    simp [rbt.keys]

theorem local_order_of_bst [LinearOrder α] (S : rbt α β) (h : bst S) : local_order S := by
  induction S with
  | nil => trivial
  | node a c k v l r ihl ihr =>
    obtain ⟨h1, h2, h3, h4⟩ := h
    exact ⟨fun x hx => h1 x (root_key_mem l x hx), fun x hx => h2 x (root_key_mem r x hx),
      ihl h3, ihr h4⟩

theorem is_valid_ret_zero [LinearOrder α] (fuel : Nat) (t : tree α β N)
    (h : is_valid_tree fuel t = some true) :
    ∃ c used allocated, internal_recursive_check t fuel ⟨-1, 0⟩ t.root NULL 0 = some (0, c) ∧
      fixed_alloc.get_allocator_status t.allocator = some (used, allocated) ∧
      used = c.calculated_nodes_count := by
  rw [is_valid_tree, is_valid_tree.ret] at h
  cases hc : internal_recursive_check t fuel ⟨-1, 0⟩ t.root NULL 0 with
  | none => rw [hc] at h; simp at h
  | some r =>
    obtain ⟨ret, c⟩ := r
    rw [hc] at h
    simp only at h
    by_cases h0 : ret = 0
    · rw [if_pos h0] at h
      cases hs : fixed_alloc.get_allocator_status t.allocator with
      | none => rw [hs] at h; simp at h
      | some s =>
        obtain ⟨used, allocated⟩ := s
        rw [hs] at h
        simp only at h
        by_cases hu : used ≠ c.calculated_nodes_count
        · rw [if_pos hu] at h
          simp [RB_TREE_ERR_DANGLING_NODE_FOUND] at h
        · exact ⟨c, used, allocated, by rw [h0], rfl, not_not.1 hu⟩
    · rw [if_neg h0] at h
      simp [h0] at h

theorem is_valid_sound [LinearOrder α] (fuel : Nat) (t : tree α β N)
    (h : is_valid_tree fuel t = some true) :
    ∃ T : rbt α β, layout t T ∧ colored T ∧ T.color = RB_TREE_BLACK ∧ no_red_red T ∧
      local_order T ∧ (∃ n, ∀ x ∈ black_counts T, x = n) ∧
      ∃ allocated, fixed_alloc.get_allocator_status t.allocator =
        some (T.addrs.length, allocated) := by
  obtain ⟨c, used, allocated, hc, hs, hu⟩ := is_valid_ret_zero fuel t h
  obtain ⟨_, T, s1, s2, s3, s4, s5, s6, s7, _⟩ :=
    check_sound t fuel ⟨-1, 0⟩ t.root NULL 0 0 c (le_refl _) hc (by decide)
  obtain ⟨n1, n2⟩ := red_ok_no_red_red T _ s2 s3
  refine ⟨T, layout_of_Rep t T s1 s4, s2, n2 rfl, n1, s4,
    ⟨c.already_calculated_path.toNat, fun x hx => ?_⟩, allocated, ?_⟩
  · have := s7 x hx
    omega
  · rw [hs, hu, s5]
    simp

theorem is_valid_complete [LinearOrder α] (fuel : Nat) (t : tree α β N) (T : rbt α β)
    (allocated : Nat) (hl : layout t T) (hi : rb_invariants T)
    (hs : fixed_alloc.get_allocator_status t.allocator = some (T.addrs.length, allocated))
    (hf : T.addrs.length < fuel) : is_valid_tree fuel t = some true := by
  obtain ⟨hb, hroot, hcol, hnr, n, hn⟩ := hi
  have hred : red_ok (prev_color t NULL) T := no_red_red_red_ok T _ hcol hnr (fun _ => hroot)
  have := check_complete t (n : Int) (Int.natCast_nonneg n) T t.root NULL 0 ⟨-1, 0⟩ fuel hl.1
    hcol hred (local_order_of_bst T hb) (fun x hx => by rw [hn x hx]; simp)
    (Or.inl (by decide)) hf
  rw [is_valid_tree, is_valid_tree.ret, this]
  simp only [if_true]
  rw [hs]
  simp

end rb_tree

namespace rb_tree

variable {α β : Type} {N : Nat}

theorem Rep_unique (m : Nat → node α β) (S : rbt α β) :
    ∀ (p par : Nat) (S1 : rbt α β), Rep m p par S → Rep m p par S1 → S1 = S := by
  induction S with
  | nil =>
    intro p par S1 h h1
    cases S1 with
    | nil => rfl
    | node a c k v l r =>
      have e : p = leaf := h
      obtain ⟨e1, _, e2, _⟩ := h1
      exact absurd (e1.symm.trans e) e2
  | node a c k v l r ihl ihr =>
    intro p par S1 h h1
    obtain ⟨e1, _, e2, e3, e4, e5, _, hl, hr⟩ := h
    cases S1 with
    | nil =>
      have e : p = leaf := h1
      exact absurd (e1.symm.trans e) e2
    | node a1 c1 k1 v1 l1 r1 =>
      obtain ⟨f1, _, _, f3, f4, f5, _, gl, gr⟩ := h1
      have ea : a1 = a := f1.symm.trans e1
      subst ea
      rw [ihl _ _ l1 hl gl, ihr _ _ r1 hr gr, ← e3, ← e4, ← e5, ← f3, ← f4, ← f5]

theorem layout_unique (t : tree α β N) (T T1 : rbt α β) (h : layout t T) (h1 : layout t T1) :
    T1 = T :=
  Rep_unique t.mem T t.root NULL T1 h.1 h1.1

theorem rest_codes [LinearOrder α] (t : tree α β N) (fuel : Nat)
    (ih : ∀ (c : internal_check_context) (p prev : Nat) (path : Int) (ret : Int)
      (c1 : internal_check_context),
      internal_recursive_check t fuel c p prev path = some (ret, c1) → is_check_code ret)
    (c : internal_check_context) (p : Nat) (path : Int) (ret : Int)
    (c3 : internal_check_context)
    (h : internal_recursive_check.rest t fuel c p path = some (ret, c3)) :
    is_check_code ret := by
  rw [internal_recursive_check.rest] at h
  cases hL : internal_recursive_check t fuel c (t.mem p).left p path with
  | none => rw [hL] at h; simp at h
  | some rl =>
    obtain ⟨retL, c2⟩ := rl
    rw [hL] at h
    simp only at h
    have hcl := ih c _ _ path retL c2 hL
    by_cases hl0 : retL < 0
    · rw [if_pos hl0] at h
      simp only [Option.some.injEq, Prod.mk.injEq] at h
      exact h.1 ▸ hcl
    · rw [if_neg hl0] at h
      cases hR : internal_recursive_check t fuel c2 (t.mem p).right p path with
      | none => rw [hR] at h; simp at h
      | some rr =>
        obtain ⟨retR, c3'⟩ := rr
        rw [hR] at h
        simp only at h
        have hcr := ih c2 _ _ path retR c3' hR
        by_cases hr0 : retR < 0
        · rw [if_pos hr0] at h
          simp only [Option.some.injEq, Prod.mk.injEq] at h
          exact h.1 ▸ hcr
        · rw [if_neg hr0] at h
          by_cases hk1 : (t.mem p).left ≠ leaf ∧
              COMPARE (t.mem p).key (t.mem (t.mem p).left).key ≤ 0
          · rw [if_pos hk1] at h
            simp only [Option.some.injEq, Prod.mk.injEq] at h
            exact h.1 ▸ Or.inr (Or.inr (Or.inr (Or.inr (Or.inr rfl))))
          · rw [if_neg hk1] at h
            by_cases hk2 : (t.mem p).right ≠ leaf ∧
                COMPARE (t.mem p).key (t.mem (t.mem p).right).key ≥ 0
            · rw [if_pos hk2] at h
              simp only [Option.some.injEq, Prod.mk.injEq] at h
              exact h.1 ▸ Or.inr (Or.inr (Or.inr (Or.inr (Or.inr rfl))))
            · rw [if_neg hk2] at h
              simp only [Option.some.injEq, Prod.mk.injEq] at h
              exact h.1 ▸ Or.inl rfl

theorem check_codes [LinearOrder α] (t : tree α β N) :
    ∀ (fuel : Nat) (c : internal_check_context) (p prev : Nat) (path : Int) (ret : Int)
      (c1 : internal_check_context),
      internal_recursive_check t fuel c p prev path = some (ret, c1) → is_check_code ret := by
  intro fuel
  induction fuel with
  | zero =>
    intro c p prev path ret c1 h
    rw [internal_recursive_check] at h
    cases h
  | succ fuel ih =>
    intro c p prev path ret c1 h
    by_cases hleaf : p = leaf
    · rw [internal_recursive_check, if_pos hleaf] at h
      by_cases h1 : c.already_calculated_path < 0
      · rw [if_pos h1] at h
        simp only [Option.some.injEq, Prod.mk.injEq] at h
        exact h.1 ▸ Or.inl rfl
      · rw [if_neg h1] at h
        by_cases h2 : c.already_calculated_path ≠ path
        · rw [if_pos h2] at h
          simp only [Option.some.injEq, Prod.mk.injEq] at h
          exact h.1 ▸ Or.inr (Or.inr (Or.inr (Or.inl rfl)))
        · rw [if_neg h2] at h
          simp only [Option.some.injEq, Prod.mk.injEq] at h
          exact h.1 ▸ Or.inl rfl
    · by_cases hnull : p = NULL
      · rw [internal_recursive_check, if_neg hleaf, if_pos hnull] at h
        cases h
      · rw [check_node t fuel c p prev path hleaf hnull] at h
        by_cases hp : (t.mem p).parent ≠ prev
        · rw [if_pos hp] at h
          simp only [Option.some.injEq, Prod.mk.injEq] at h
          exact h.1 ▸ Or.inr (Or.inr (Or.inr (Or.inr (Or.inl rfl))))
        · rw [if_neg hp] at h
          by_cases hr : (t.mem p).color = RB_TREE_RED
          · rw [if_pos hr] at h
            by_cases hpc : prev_color t (t.mem p).parent = RB_TREE_RED
            · rw [if_pos hpc] at h
              simp only [Option.some.injEq, Prod.mk.injEq] at h
              exact h.1 ▸ Or.inr (Or.inr (Or.inl rfl))
            · rw [if_neg hpc] at h
              exact rest_codes t fuel ih _ p path ret c1 h
          · rw [if_neg hr] at h
            by_cases hb : (t.mem p).color = RB_TREE_BLACK
            · rw [if_pos hb] at h
              exact rest_codes t fuel ih _ p (path + 1) ret c1 h
            · rw [if_neg hb] at h
              simp only [Option.some.injEq, Prod.mk.injEq] at h
              exact h.1 ▸ Or.inr (Or.inl rfl)

theorem ret_codes [LinearOrder α] (fuel : Nat) (t : tree α β N) (r : Int)
    (h : is_valid_tree.ret fuel t = some r) :
    is_check_code r ∨ r = RB_TREE_ERR_DANGLING_NODE_FOUND := by
  rw [is_valid_tree.ret] at h
  cases hc : internal_recursive_check t fuel ⟨-1, 0⟩ t.root NULL 0 with
  | none => rw [hc] at h; simp at h
  | some x =>
    obtain ⟨ret, c⟩ := x
    rw [hc] at h
    simp only at h
    have hcode := check_codes t fuel _ _ _ _ ret c hc
    by_cases h0 : ret = 0
    · rw [if_pos h0] at h
      cases hs : fixed_alloc.get_allocator_status t.allocator with
      | none => rw [hs] at h; simp at h
      | some s =>
        obtain ⟨used, allocated⟩ := s
        rw [hs] at h
        simp only at h
        by_cases hu : used ≠ c.calculated_nodes_count
        · rw [if_pos hu] at h
          exact Or.inr (Option.some.inj h).symm
        · rw [if_neg hu] at h
          exact Or.inl ((Option.some.inj h) ▸ hcode)
    · rw [if_neg h0] at h
      exact Or.inl ((Option.some.inj h) ▸ hcode)

theorem is_valid_true_iff [LinearOrder α] (fuel : Nat) (t : tree α β N) :
    is_valid_tree fuel t = some true ↔ is_valid_tree.ret fuel t = some 0 := by
  rw [is_valid_tree]
  cases is_valid_tree.ret fuel t with
  | none => simp
  | some r => simp

theorem is_valid_false_iff [LinearOrder α] (fuel : Nat) (t : tree α β N) :
    is_valid_tree fuel t = some false ↔ ∃ r, is_valid_tree.ret fuel t = some r ∧ r ≠ 0 := by
  rw [is_valid_tree]
  cases is_valid_tree.ret fuel t with
  | none => simp
  | some r => simp

end rb_tree

/-! ## The validator of the AVL tree: balance and keys -/

/-- C25: at a tree whose only node stores the balance 1 although both its
subtrees are empty (recomputed balance 0), `internal_check_balance` returns
false, and `is_valid_tree` returns true. -/
theorem C25_avl_validator_accepts_bad_balance :
    ¬ avl_tree.balance_stored avl_tree.bad_balance_tree.root ∧
    avl_tree.internal_get_tree_height (.sentinel : avl_tree.node Int) -
      avl_tree.internal_get_tree_height (.sentinel : avl_tree.node Int) = 0 ∧
    avl_tree.internal_check_balance avl_tree.bad_balance_tree.root 0 = (false, 1) ∧
    avl_tree.is_valid_tree avl_tree.bad_balance_tree = some true := by
  refine ⟨?_, by decide, by decide, by decide⟩
  intro h
  exact absurd h.1 (by decide)

/-- C26: `is_valid_tree` of the AVL tree checks no order of the keys, since
it reads no key: the tree with every key, and the key of the sentinel,
replaced by any other gets the result of the tree itself. -/
theorem C26_avl_validator_ignores_keys {α γ : Type} {N : Nat} (t : avl_tree.tree α N)
    (f : α → γ) (s : γ) :
    avl_tree.is_valid_tree
        ({ allocator := t.allocator, root := avl_tree.map_keys f t.root, sentinel := s,
           count := t.count } : avl_tree.tree γ N) =
      avl_tree.is_valid_tree t := by
  simp only [avl_tree.is_valid_tree, avl_tree.check_balance_map_keys]

/-- C26, counterexample: the root of `bad_order_tree` has the key 10 and its
left subtree holds the key 20, so the tree is not in BST order, and
`is_valid_tree` returns true. -/
theorem C26_avl_validator_ignores_keys_counterexample :
    (20 : Int) ∈ avl_tree.keys (avl_tree.node.mk 6 (20 : Int) 0 .sentinel .sentinel) ∧
    ¬ ((20 : Int) < 10) ∧
    ¬ avl_tree.bst avl_tree.bad_order_tree.root ∧
    avl_tree.is_valid_tree avl_tree.bad_order_tree = some true := by
  refine ⟨by simp [avl_tree.keys], by decide, ?_, by decide⟩
  intro h
  have := h.1 20 (by simp [avl_tree.keys])
  exact absurd this (by decide)

/-! ## The validator of the red-black tree: what a success establishes -/

namespace rb_tree

variable {α β : Type} {N : Nat}

theorem Rep_parent_links (m : Nat → node α β) (S : rbt α β) : ∀ (p par : Nat), Rep m p par S →
    (p ≠ leaf → (m p).parent = par) ∧
    ∀ q ∈ S.addrs, ((m q).left ≠ leaf → (m (m q).left).parent = q) ∧
      ((m q).right ≠ leaf → (m (m q).right).parent = q) := by
  induction S with
  | nil =>
    intro p par h
    have e : p = leaf := h
    exact ⟨fun hp => absurd e hp, fun q hq => by simp [rbt.addrs] at hq⟩
  | node a c k v l r ihl ihr =>
    intro p par h
    obtain ⟨e1, _, _, _, _, _, e7, hl, hr⟩ := h
    obtain ⟨l1, l2⟩ := ihl _ _ hl
    obtain ⟨r1, r2⟩ := ihr _ _ hr
    refine ⟨fun _ => by rw [e1]; exact e7, fun q hq => ?_⟩
    simp only [rbt.addrs, List.mem_append, List.mem_cons] at hq
    rcases hq with hq | hq | hq
    · exact l2 q hq
    · rw [hq]
      exact ⟨l1, r1⟩
    · exact r2 q hq

theorem Rep_root_key (m : Nat → node α β) (S : rbt α β) (p par : Nat) (h : Rep m p par S)
    (hp : p ≠ leaf) : S.root_key = some (m p).key := by
  cases S with
  | nil => exact absurd h hp
  | node a c k v l r =>
    obtain ⟨e, _, _, e3, _⟩ := h
    rw [e, e3]
    rfl

theorem local_order_links [LinearOrder α] (m : Nat → node α β) (S : rbt α β) :
    ∀ (p par : Nat), Rep m p par S → local_order S →
      ∀ q ∈ S.addrs, ((m q).left ≠ leaf → (m (m q).left).key < (m q).key) ∧
        ((m q).right ≠ leaf → (m q).key < (m (m q).right).key) := by
  induction S with
  | nil => intro p par _ _ q hq; simp [rbt.addrs] at hq
  | node a c k v l r ihl ihr =>
    intro p par h ho q hq
    obtain ⟨_, _, _, e3, _, _, _, hl, hr⟩ := h
    obtain ⟨o1, o2, o3, o4⟩ := ho
    simp only [rbt.addrs, List.mem_append, List.mem_cons] at hq
    rcases hq with hq | hq | hq
    · exact ihl _ _ hl o3 q hq
    · rw [hq, e3]
      exact ⟨fun hne => o1 _ (Rep_root_key m l _ _ hl hne),
        fun hne => o2 _ (Rep_root_key m r _ _ hr hne)⟩
    · exact ihr _ _ hr o4 q hq

theorem misplaced_layout : layout misplaced_tree misplaced_rbt := by
  refine ⟨⟨rfl, by decide, by decide, rfl, rfl, rfl, rfl,
    ⟨rfl, by decide, by decide, rfl, rfl, rfl, rfl, rfl,
      ⟨rfl, by decide, by decide, rfl, rfl, rfl, rfl, rfl, rfl⟩⟩,
    ⟨rfl, by decide, by decide, rfl, rfl, rfl, rfl, rfl, rfl⟩⟩, ?_⟩
  simp [misplaced_rbt, rbt.addrs]

theorem example_layout : layout example_tree example_rbt :=
  example_is_rb_tree.1

end rb_tree

/-- C27: if `is_valid_tree` of the red-black tree returns true, the tree
structure holds exactly one tree, and in it the key of the left child of
every node is below the key of the node and the key of the right child is
above it. -/
theorem C27_rb_validator_orders_children {α β : Type} [LinearOrder α] {N : Nat} (fuel : Nat)
    (t : rb_tree.tree α β N) (h : rb_tree.is_valid_tree fuel t = some true) :
    ∃ T : rb_tree.rbt α β, rb_tree.layout t T ∧ (∀ T1, rb_tree.layout t T1 → T1 = T) ∧
      rb_tree.local_order T ∧
      ∀ p ∈ T.addrs,
        ((t.mem p).left ≠ rb_tree.leaf → (t.mem (t.mem p).left).key < (t.mem p).key) ∧
        ((t.mem p).right ≠ rb_tree.leaf → (t.mem p).key < (t.mem (t.mem p).right).key) := by
  obtain ⟨T, hl, _, _, _, ho, _⟩ := rb_tree.is_valid_sound fuel t h
  exact ⟨T, hl, fun T1 h1 => rb_tree.layout_unique t T T1 hl h1, ho,
    rb_tree.local_order_links t.mem T t.root NULL hl.1 ho⟩

theorem C27_rb_validator_orders_children_witness :
    rb_tree.is_valid_tree 2 rb_tree.example_tree = some true ∧
    ∃ T : rb_tree.rbt Int Unit, rb_tree.layout rb_tree.example_tree T ∧
      (∀ T1, rb_tree.layout rb_tree.example_tree T1 → T1 = T) ∧
      rb_tree.local_order T ∧
      ∀ p ∈ T.addrs,
        ((rb_tree.example_tree.mem p).left ≠ rb_tree.leaf →
          (rb_tree.example_tree.mem (rb_tree.example_tree.mem p).left).key <
            (rb_tree.example_tree.mem p).key) ∧
        ((rb_tree.example_tree.mem p).right ≠ rb_tree.leaf →
          (rb_tree.example_tree.mem p).key <
            (rb_tree.example_tree.mem (rb_tree.example_tree.mem p).right).key) :=
  ⟨by decide, C27_rb_validator_orders_children 2 rb_tree.example_tree (by decide)⟩

/-- C27, counterexample: `is_valid_tree` returns true for `misplaced_tree`,
which holds the tree `misplaced_rbt` and no other; the left subtree of its
root, whose key is 10, holds the key 20, so the tree is not in BST order. -/
theorem C27_rb_validator_orders_children_counterexample :
    rb_tree.is_valid_tree 5 rb_tree.misplaced_tree = some true ∧
    rb_tree.layout rb_tree.misplaced_tree rb_tree.misplaced_rbt ∧
    (∀ T, rb_tree.layout rb_tree.misplaced_tree T → T = rb_tree.misplaced_rbt) ∧
    ¬ rb_tree.bst rb_tree.misplaced_rbt := by
  refine ⟨by decide, rb_tree.misplaced_layout,
    fun T h => rb_tree.layout_unique _ _ T rb_tree.misplaced_layout h, fun h => ?_⟩
  have := h.1 20 (by simp [rb_tree.misplaced_rbt, rb_tree.rbt.keys])
  exact absurd this (by decide)

/-- C28: if `is_valid_tree` of the red-black tree returns true, the tree
structure holds a tree (links and parent links laid out from the root, whose
parent link is null, no node twice) in which every node is red or black, the
root is black, no red node has a red child, every path from the root to the
leaf has the same number of black nodes, the parent link of every child is
its parent, and the number of nodes is the number of elements the allocator
reports as used. -/
theorem C28_rb_validator_sound_for_colours_and_links {α β : Type} [LinearOrder α] {N : Nat}
    (fuel : Nat) (t : rb_tree.tree α β N) (h : rb_tree.is_valid_tree fuel t = some true) :
    ∃ T : rb_tree.rbt α β, rb_tree.layout t T ∧ rb_tree.colored T ∧
      T.color = rb_tree.RB_TREE_BLACK ∧ rb_tree.no_red_red T ∧
      (∃ n, ∀ x ∈ rb_tree.black_counts T, x = n) ∧
      (t.root ≠ rb_tree.leaf → (t.mem t.root).parent = NULL) ∧
      (∀ q ∈ T.addrs,
        ((t.mem q).left ≠ rb_tree.leaf → (t.mem (t.mem q).left).parent = q) ∧
        ((t.mem q).right ≠ rb_tree.leaf → (t.mem (t.mem q).right).parent = q)) ∧
      ∃ allocated, fixed_alloc.get_allocator_status t.allocator =
        some (T.addrs.length, allocated) := by
  obtain ⟨T, hl, h1, h2, h3, _, h5, h6⟩ := rb_tree.is_valid_sound fuel t h
  obtain ⟨p1, p2⟩ := rb_tree.Rep_parent_links t.mem T t.root NULL hl.1
  exact ⟨T, hl, h1, h2, h3, h5, p1, p2, h6⟩

theorem C28_rb_validator_sound_for_colours_and_links_witness :
    rb_tree.is_valid_tree 2 rb_tree.example_tree = some true ∧
    ∃ T : rb_tree.rbt Int Unit, rb_tree.layout rb_tree.example_tree T ∧ rb_tree.colored T ∧
      T.color = rb_tree.RB_TREE_BLACK ∧ rb_tree.no_red_red T ∧
      (∃ n, ∀ x ∈ rb_tree.black_counts T, x = n) ∧
      (rb_tree.example_tree.root ≠ rb_tree.leaf →
        (rb_tree.example_tree.mem rb_tree.example_tree.root).parent = NULL) ∧
      (∀ q ∈ T.addrs,
        ((rb_tree.example_tree.mem q).left ≠ rb_tree.leaf →
          (rb_tree.example_tree.mem (rb_tree.example_tree.mem q).left).parent = q) ∧
        ((rb_tree.example_tree.mem q).right ≠ rb_tree.leaf →
          (rb_tree.example_tree.mem (rb_tree.example_tree.mem q).right).parent = q)) ∧
      ∃ allocated, fixed_alloc.get_allocator_status rb_tree.example_tree.allocator =
        some (T.addrs.length, allocated) :=
  ⟨by decide, C28_rb_validator_sound_for_colours_and_links 2 rb_tree.example_tree (by decide)⟩

/-! ## The validators accept the well-formed trees -/

namespace avl_tree

variable {α : Type} {N : Nat}

theorem avl_consistent_valid [LinearOrder α] (t : tree α N) (h : consistent t) :
    is_valid_tree t = some true := by
  have hs := avl_consistent_status t h
  obtain ⟨_, _, hbal, hcount, _⟩ := h
  rw [hcount] at hs
  exact is_valid_of_balanced t _ (balance_stored_of_balanced t.root hbal) hs

theorem avl_run_valid [LinearOrder α] (t0 : tree α N) (hN : 0 < N) (ops : List (tree_op α)) :
    ∃ t1, run ops (init_tree t0) = some t1 ∧ is_valid_tree t1 = some true := by
  obtain ⟨t1, e, c1, _⟩ := avl_run_spec ops (init_tree t0) (avl_init_consistent t0 hN)
  exact ⟨t1, e, avl_consistent_valid t1 c1⟩

end avl_tree

namespace rb_tree

variable {α β : Type} {N : Nat}

theorem consistent_valid [LinearOrder α] (fuel : Nat) (t : tree α β N) (T : rbt α β)
    (h : consistent t T) (hf : t.count < fuel) : is_valid_tree fuel t = some true := by
  have hs := consistent_status t T h
  obtain ⟨⟨hl, hi, _, _, _, hcount⟩, _⟩ := h
  rw [hcount] at hs hf
  exact is_valid_complete fuel t T _ hl hi hs hf

theorem run_count [LinearOrder α] (ud : Bool) (fuel : Nat) (ops : List (tree_op α)) :
    ∀ (t : tree α β N) (T : rbt α β), consistent t T → t.count + ops.length < fuel + 1 →
      ∃ t1 T1, run ud fuel ops t = some t1 ∧ consistent t1 T1 ∧
        t1.count ≤ t.count + ops.length := by
  induction ops with
  | nil => intro t T h _; exact ⟨t, T, rfl, h, Nat.le_refl _⟩
  | cons op ops ih =>
    intro t T h hf
    simp only [List.length_cons] at hf
    obtain ⟨t1, T1, e1, c1, n1, _⟩ := apply_spec ud fuel t T op h (by omega)
    obtain ⟨t2, T2, e2, c2, n2⟩ := ih t1 T1 c1 (by omega)
    refine ⟨t2, T2, ?_, c2, ?_⟩
    · rw [run, e1]
      exact e2
    · simp only [List.length_cons]
      omega

theorem run_valid [LinearOrder α] (t0 : tree α β N) (hN : 0 < N) (ud : Bool) (fuel : Nat)
    (ops : List (tree_op α)) (hf : ops.length < fuel) :
    ∃ t1, run ud fuel ops (init_tree t0) = some t1 ∧ is_valid_tree fuel t1 = some true := by
  have h0 : (init_tree t0).count = 0 := rfl
  obtain ⟨t1, T1, e, c1, n1⟩ := run_count ud fuel ops (init_tree t0) .nil
    (init_consistent t0 hN) (by omega)
  exact ⟨t1, e, consistent_valid fuel t1 T1 c1 (by omega)⟩

end rb_tree

/-- C29: `is_valid_tree` returns true for every AVL tree that is in BST order,
stores at every node the recomputed balance, one of -1, 0 and 1, and has as
many nodes as its allocator has elements in use; it returns true for every
red-black tree structure that lays out a tree with the red-black invariants
(parent links included) and has as many nodes as its allocator has elements
in use; and, in either engine, it returns true after every prefix of every
sequence of calls of add_node and remove_node that starts at `init_tree`. -/
theorem C29_validators_accept_well_formed_trees {α β : Type} [LinearOrder α] {N M : Nat}
    (ta a0 : avl_tree.tree α N) (allocated_a : Nat)
    (tr r0 : rb_tree.tree α β M) (T : rb_tree.rbt α β) (allocated_r fuel : Nat)
    (hbst : avl_tree.bst ta.root) (hbal : avl_tree.balanced ta.root)
    (hsa : fixed_alloc.get_allocator_status ta.allocator =
      some ((avl_tree.addrs ta.root).length, allocated_a))
    (hl : rb_tree.layout tr T) (hi : rb_tree.rb_invariants T)
    (hsr : fixed_alloc.get_allocator_status tr.allocator = some (T.addrs.length, allocated_r))
    (hf : T.addrs.length < fuel) (hN : 0 < N) (hM : 0 < M) :
    avl_tree.is_valid_tree ta = some true ∧
    rb_tree.is_valid_tree fuel tr = some true ∧
    (∀ (ops : List (tree_op α)) (k : Nat),
      ∃ t1, avl_tree.run (ops.take k) (avl_tree.init_tree a0) = some t1 ∧
        avl_tree.is_valid_tree t1 = some true) ∧
    (∀ (user_data : Bool) (ops : List (tree_op α)) (k f : Nat), ops.length < f →
      ∃ t1, rb_tree.run user_data f (ops.take k) (rb_tree.init_tree r0) = some t1 ∧
        rb_tree.is_valid_tree f t1 = some true) := by
  refine ⟨avl_tree.is_valid_of_balanced ta allocated_a
      (avl_tree.balance_stored_of_balanced ta.root hbal) hsa,
    rb_tree.is_valid_complete fuel tr T allocated_r hl hi hsr hf,
    fun ops k => avl_tree.avl_run_valid a0 hN (ops.take k),
    fun ud ops k f hlt => rb_tree.run_valid r0 hM ud f (ops.take k) ?_⟩
  exact Nat.lt_of_le_of_lt (by rw [List.length_take]; exact Nat.min_le_right _ _) hlt

theorem C29_validators_accept_well_formed_trees_witness :
    avl_tree.bst avl_tree.example_tree.root ∧ avl_tree.balanced avl_tree.example_tree.root ∧
    fixed_alloc.get_allocator_status avl_tree.example_tree.allocator =
      some ((avl_tree.addrs avl_tree.example_tree.root).length, 64) ∧
    rb_tree.layout rb_tree.example_tree rb_tree.example_rbt ∧
    rb_tree.rb_invariants rb_tree.example_rbt ∧
    fixed_alloc.get_allocator_status rb_tree.example_tree.allocator =
      some (rb_tree.example_rbt.addrs.length, 64) ∧
    rb_tree.example_rbt.addrs.length < 2 ∧
    avl_tree.is_valid_tree avl_tree.example_tree = some true ∧
    rb_tree.is_valid_tree 2 rb_tree.example_tree = some true ∧
    (∀ (ops : List (tree_op Int)) (k : Nat),
      ∃ t1, avl_tree.run (ops.take k) (avl_tree.init_tree avl_tree.example_tree) = some t1 ∧
        avl_tree.is_valid_tree t1 = some true) ∧
    (∀ (user_data : Bool) (ops : List (tree_op Int)) (k f : Nat), ops.length < f →
      ∃ t1, rb_tree.run user_data f (ops.take k) (rb_tree.init_tree rb_tree.example_tree) =
          some t1 ∧
        rb_tree.is_valid_tree f t1 = some true) :=
  ⟨avl_tree.example_bst, avl_tree.example_balanced, by decide, rb_tree.example_layout,
    rb_tree.example_is_rb_tree.2.1, by decide, by decide,
    C29_validators_accept_well_formed_trees avl_tree.example_tree avl_tree.example_tree 64
      rb_tree.example_tree rb_tree.example_tree rb_tree.example_rbt 64 2
      avl_tree.example_bst avl_tree.example_balanced (by decide) rb_tree.example_layout
      rb_tree.example_is_rb_tree.2.1 (by decide) (by decide) (by decide) (by decide)⟩

/-! ## The result of the red-black validator -/

/-- C30: the variable `ret` of the red-black `is_valid_tree` is 0 or one of
the codes of a bad colour, a red child of a red node, unequal black heights,
a parent-link mismatch, a key out of order with its parent and an
allocator/tree count mismatch; the function returns to its caller the flag
`ret == 0` alone: true exactly when `ret` is 0, and the one value false for
each of the codes. -/
theorem C30_rb_validation_returns_a_flag {α β : Type} [LinearOrder α] {N : Nat} (fuel : Nat)
    (t : rb_tree.tree α β N) :
    (rb_tree.is_valid_tree fuel t = some true ↔ rb_tree.is_valid_tree.ret fuel t = some 0) ∧
    (rb_tree.is_valid_tree fuel t = some false ↔
      ∃ r, rb_tree.is_valid_tree.ret fuel t = some r ∧
        (r = rb_tree.RB_TREE_ERR_INVALID_COLOR ∨ r = rb_tree.RB_TREE_ERR_RED_CHILD_ISNT_BLACK ∨
          r = rb_tree.RB_TREE_ERR_INCONSISTENT_PATH ∨
          r = rb_tree.RB_TREE_ERR_INVALID_PARENT_NODE ∨
          r = rb_tree.RB_TREE_ERR_INCONSISTENT_KEY ∨
          r = rb_tree.RB_TREE_ERR_DANGLING_NODE_FOUND)) := by
  refine ⟨rb_tree.is_valid_true_iff fuel t, ?_⟩
  rw [rb_tree.is_valid_false_iff]
  constructor
  · rintro ⟨r, hr, h0⟩
    have hcode := rb_tree.ret_codes fuel t r hr
    simp only [rb_tree.is_check_code, rb_tree.RB_TREE_ERR_INVALID_COLOR,
      rb_tree.RB_TREE_ERR_RED_CHILD_ISNT_BLACK, rb_tree.RB_TREE_ERR_INCONSISTENT_PATH,
      rb_tree.RB_TREE_ERR_INVALID_PARENT_NODE, rb_tree.RB_TREE_ERR_INCONSISTENT_KEY,
      rb_tree.RB_TREE_ERR_DANGLING_NODE_FOUND] at hcode ⊢
    exact ⟨r, hr, by omega⟩
  · rintro ⟨r, hr, h⟩
    refine ⟨r, hr, ?_⟩
    rcases h with h | h | h | h | h | h <;> rw [h] <;> decide

/-- C30, counterexample: for the tree with a parent-link mismatch `ret` is
-5 and for the tree with unequal black heights it is -4, and `is_valid_tree`
returns the same result, false, for both; so it does for the trees with a
bad colour (-1), a red root (-3), a key out of order (-7) and an allocator
count mismatch (-8). -/
theorem C30_rb_validation_returns_a_flag_counterexample :
    rb_tree.is_valid_tree.ret 5 rb_tree.parent_mismatch_tree = some (-5) ∧
    rb_tree.is_valid_tree.ret 5 rb_tree.uneven_tree = some (-4) ∧
    rb_tree.is_valid_tree 5 rb_tree.parent_mismatch_tree =
      rb_tree.is_valid_tree 5 rb_tree.uneven_tree ∧
    rb_tree.is_valid_tree 5 rb_tree.uneven_tree = some false ∧
    rb_tree.is_valid_tree.ret 5 rb_tree.bad_color_tree = some (-1) ∧
    rb_tree.is_valid_tree 5 rb_tree.bad_color_tree = some false ∧
    rb_tree.is_valid_tree.ret 5 rb_tree.red_root_tree = some (-3) ∧
    rb_tree.is_valid_tree 5 rb_tree.red_root_tree = some false ∧
    rb_tree.is_valid_tree.ret 5 rb_tree.bad_key_tree = some (-7) ∧
    rb_tree.is_valid_tree 5 rb_tree.bad_key_tree = some false ∧
    rb_tree.is_valid_tree.ret 5 rb_tree.dangling_tree = some (-8) ∧
    rb_tree.is_valid_tree 5 rb_tree.dangling_tree = some false := by
  decide

/-! ## The hint `nfc_index` stays within the cluster -/

namespace fixed_alloc

variable {N : Nat}

end fixed_alloc

namespace rb_tree

variable {α β : Type} {N : Nat}

theorem run_leaf_ok [LinearOrder α] (t0 : tree α β N) (hN : 0 < N) (ud : Bool) (fuel : Nat)
    (ops : List (tree_op α)) (hf : ops.length < fuel) :
    ∃ t1, run ud fuel ops (init_tree t0) = some t1 ∧ leaf_ok t1 := by
  have h0 : (init_tree t0).count = 0 := rfl
  obtain ⟨t1, T1, e, c1, _⟩ := run_count ud fuel ops (init_tree t0) .nil
    (init_consistent t0 hN) (by omega)
  exact ⟨t1, e, c1.1.2.2.1⟩

theorem red_root_layout : layout red_root_tree (.node 5 RB_TREE_RED 10 () .nil .nil) := by
  refine ⟨⟨rfl, by decide, by decide, rfl, rfl, rfl, rfl, rfl, rfl⟩, ?_⟩
  simp [rbt.addrs]

theorem red_root_leaf_ok : leaf_ok red_root_tree := ⟨rfl, rfl, rfl⟩

theorem rotate_recoloured (s : tree α β N) (node grandparent : Nat) :
    internal_adjust_tree.rotate s node grandparent =
      if (internal_adjust_tree.recoloured s node grandparent).2 =
          ((internal_adjust_tree.recoloured s node grandparent).1.mem
            ((internal_adjust_tree.recoloured s node grandparent).1.mem
              (internal_adjust_tree.recoloured s node grandparent).2).parent).left ∧
          ((internal_adjust_tree.recoloured s node grandparent).1.mem
              (internal_adjust_tree.recoloured s node grandparent).2).parent =
            ((internal_adjust_tree.recoloured s node grandparent).1.mem grandparent).left then
        some (internal_rotate_right (internal_adjust_tree.recoloured s node grandparent).1
          grandparent)
      else if (internal_adjust_tree.recoloured s node grandparent).2 =
          ((internal_adjust_tree.recoloured s node grandparent).1.mem
            ((internal_adjust_tree.recoloured s node grandparent).1.mem
              (internal_adjust_tree.recoloured s node grandparent).2).parent).right ∧
          ((internal_adjust_tree.recoloured s node grandparent).1.mem
              (internal_adjust_tree.recoloured s node grandparent).2).parent =
            ((internal_adjust_tree.recoloured s node grandparent).1.mem grandparent).right then
        some (internal_rotate_left (internal_adjust_tree.recoloured s node grandparent).1
          grandparent)
      else none := rfl

theorem rotate_none (s : tree α β N) (node grandparent : Nat)
    (h1 : ¬ ((internal_adjust_tree.recoloured s node grandparent).2 =
        ((internal_adjust_tree.recoloured s node grandparent).1.mem
          ((internal_adjust_tree.recoloured s node grandparent).1.mem
            (internal_adjust_tree.recoloured s node grandparent).2).parent).left ∧
      ((internal_adjust_tree.recoloured s node grandparent).1.mem
          (internal_adjust_tree.recoloured s node grandparent).2).parent =
        ((internal_adjust_tree.recoloured s node grandparent).1.mem grandparent).left))
    (h2 : ¬ ((internal_adjust_tree.recoloured s node grandparent).2 =
        ((internal_adjust_tree.recoloured s node grandparent).1.mem
          ((internal_adjust_tree.recoloured s node grandparent).1.mem
            (internal_adjust_tree.recoloured s node grandparent).2).parent).right ∧
      ((internal_adjust_tree.recoloured s node grandparent).1.mem
          (internal_adjust_tree.recoloured s node grandparent).2).parent =
        ((internal_adjust_tree.recoloured s node grandparent).1.mem grandparent).right)) :
    internal_adjust_tree.rotate s node grandparent = none := by
  rw [rotate_recoloured, if_neg h1, if_neg h2]

theorem far_nephew_none_left (s : tree α β N) (node parent sibling : Nat)
    (h1 : node = ((internal_fixup_tree.repainted s parent sibling).mem parent).left)
    (h2 : ((internal_fixup_tree.repainted s parent sibling).mem
      ((internal_fixup_tree.repainted s parent sibling).mem sibling).right).color ≠
        RB_TREE_RED) :
    internal_fixup_tree.far_nephew s node parent sibling = none := by
  unfold internal_fixup_tree.far_nephew
  by_cases hc : ¬ ((s.mem sibling).color = RB_TREE_BLACK ∧ (s.mem node).color = RB_TREE_BLACK)
  · rw [if_pos hc]
  · rw [if_neg hc]
    show (if node = ((internal_fixup_tree.repainted s parent sibling).mem parent).left then
        if ((internal_fixup_tree.repainted s parent sibling).mem
            ((internal_fixup_tree.repainted s parent sibling).mem sibling).right).color ≠
              RB_TREE_RED then none
        else _
      else _) = none
    rw [if_pos h1, if_pos h2]

theorem far_nephew_none_right (s : tree α β N) (node parent sibling : Nat)
    (h1 : node ≠ ((internal_fixup_tree.repainted s parent sibling).mem parent).left)
    (h2 : ¬ (((internal_fixup_tree.repainted s parent sibling).mem
        ((internal_fixup_tree.repainted s parent sibling).mem sibling).left).color =
          RB_TREE_RED ∧
      node = ((internal_fixup_tree.repainted s parent sibling).mem parent).right)) :
    internal_fixup_tree.far_nephew s node parent sibling = none := by
  unfold internal_fixup_tree.far_nephew
  by_cases hc : ¬ ((s.mem sibling).color = RB_TREE_BLACK ∧ (s.mem node).color = RB_TREE_BLACK)
  · rw [if_pos hc]
  · rw [if_neg hc]
    show (if node = ((internal_fixup_tree.repainted s parent sibling).mem parent).left then _
      else
        if ¬ (((internal_fixup_tree.repainted s parent sibling).mem
            ((internal_fixup_tree.repainted s parent sibling).mem sibling).left).color =
              RB_TREE_RED ∧
            node = ((internal_fixup_tree.repainted s parent sibling).mem parent).right) then none
        else _) = none
    rw [if_neg h1, if_pos h2]

end rb_tree

/-- C36: the fix-up loops of the red-black tree stop within the depth of the
node they start at.  The loop of `internal_adjust_tree`, started at a red node
`a` at the lower end of a path `ci` of a tree that has the red-black
invariants but for the colour of the parent of `a`, returns for every fuel
above the length of `ci`, and the tree it returns has a black root; the loop
of `internal_fixup_tree`, started at the black root of a subtree at the lower
end of a path `cd` that lacks one black node, returns for every fuel above
the length of `cd`.  One unit of fuel is one round of the loop. -/
theorem C36_rb_fixup_loops_terminate {α β : Type} [LinearOrder α] {N : Nat}
    (ti td : rb_tree.tree α β N) (ci cd : List (rb_tree.frame α β)) (a : Nat) (k : α) (v : β)
    (l r s : rb_tree.rbt α β) (n m : Nat)
    (hi : rb_tree.layout ti (rb_tree.plug ci (.node a rb_tree.RB_TREE_RED k v l r)))
    (hvi : rb_tree.valid (.node a rb_tree.RB_TREE_RED k v l r) n)
    (hci : rb_tree.ctx_ok ci rb_tree.RB_TREE_BLACK n) (hli : rb_tree.leaf_ok ti)
    (hd : rb_tree.layout td (rb_tree.plug cd s))
    (hpd : (td.mem s.ptr).parent = rb_tree.parent_of cd)
    (hvd : rb_tree.valid s m) (hsd : s.color = rb_tree.RB_TREE_BLACK)
    (hcd : rb_tree.ctx_ok cd rb_tree.RB_TREE_BLACK (m + 1)) (hld : rb_tree.leaf_ok td) :
    (∀ fuel, ci.length < fuel →
      ∃ t1 T1, rb_tree.internal_adjust_tree.loop fuel ti a = some t1 ∧ rb_tree.layout t1 T1 ∧
        T1.color = rb_tree.RB_TREE_BLACK ∧
        T1.entries = (rb_tree.plug ci (.node a rb_tree.RB_TREE_RED k v l r)).entries) ∧
    (∀ fuel, cd.length < fuel →
      ∃ t1 T1, rb_tree.internal_fixup_tree.loop fuel td s.ptr = some t1 ∧
        rb_tree.layout t1 T1 ∧ T1.color = rb_tree.RB_TREE_BLACK ∧
        T1.entries = (rb_tree.plug cd s).entries) := by
  constructor
  · intro fuel hf
    obtain ⟨t1, T1, e, h1, _, h3, h4, _⟩ :=
      rb_tree.adjust_loop_spec ci.length ci ti a k v l r n fuel (le_refl _) hf hi hvi hci hli
    exact ⟨t1, T1, e, h1, h3, h4⟩
  · intro fuel hf
    obtain ⟨t1, T1, e, h1, _, h3, h4, _⟩ :=
      rb_tree.fixup_loop_spec cd.length cd td s m fuel (le_refl _) hf hd hpd hvd hsd hcd hld
    exact ⟨t1, T1, e, h1, h3, h4⟩

/-- C38: on a well-formed red-black tree no assertion of the fix-up code
fails.  In the model a failed assertion is the result `none`, and for every
tree with the red-black invariants `add_node_ext` and `remove_node` return a
result.  The assertions are these: `internal_adjust_tree` gives `none` for a
node that is not red; its loop gives `none` at a red node with a red parent
and a null grandparent; its last step gives `none` unless the node and its
parent are children of the same side; `internal_fixup_tree` gives `none` for a
node with two children other than the leaf; its loop gives `none` at a node
that is not black; and case 6 gives `none` unless the sibling and the node are
black and the child of the sibling away from the node is red. -/
theorem C38_rb_fixup_assertions_hold {α β : Type} [LinearOrder α] {N : Nat}
    (t : rb_tree.tree α β N) (T : rb_tree.rbt α β) (key : α) (user_data : Bool) (fuel : Nat)
    (h : rb_tree.is_rb_tree t T) (hf : t.count < fuel) :
    (∃ r, rb_tree.add_node_ext fuel t key = some r) ∧
    (∃ r, rb_tree.remove_node user_data fuel t key = some r) ∧
    (∀ (s : rb_tree.tree α β N) (node f : Nat), (s.mem node).parent ≠ NULL →
      (s.mem (s.mem node).parent).color ≠ rb_tree.RB_TREE_BLACK →
      (s.mem (s.mem node).parent).parent = NULL →
      rb_tree.internal_adjust_tree.loop (f + 1) s node = none) ∧
    (∀ (s : rb_tree.tree α β N) (node f : Nat),
      (s.mem node).color ≠ rb_tree.RB_TREE_RED → rb_tree.internal_adjust_tree f s node = none) ∧
    (∀ (s : rb_tree.tree α β N) (node grandparent : Nat),
      ¬ ((rb_tree.internal_adjust_tree.recoloured s node grandparent).2 =
          ((rb_tree.internal_adjust_tree.recoloured s node grandparent).1.mem
            ((rb_tree.internal_adjust_tree.recoloured s node grandparent).1.mem
              (rb_tree.internal_adjust_tree.recoloured s node grandparent).2).parent).left ∧
        ((rb_tree.internal_adjust_tree.recoloured s node grandparent).1.mem
            (rb_tree.internal_adjust_tree.recoloured s node grandparent).2).parent =
          ((rb_tree.internal_adjust_tree.recoloured s node grandparent).1.mem grandparent).left) →
      ¬ ((rb_tree.internal_adjust_tree.recoloured s node grandparent).2 =
          ((rb_tree.internal_adjust_tree.recoloured s node grandparent).1.mem
            ((rb_tree.internal_adjust_tree.recoloured s node grandparent).1.mem
              (rb_tree.internal_adjust_tree.recoloured s node grandparent).2).parent).right ∧
        ((rb_tree.internal_adjust_tree.recoloured s node grandparent).1.mem
            (rb_tree.internal_adjust_tree.recoloured s node grandparent).2).parent =
          ((rb_tree.internal_adjust_tree.recoloured s node grandparent).1.mem grandparent).right) →
      rb_tree.internal_adjust_tree.rotate s node grandparent = none) ∧
    (∀ (s : rb_tree.tree α β N) (node f : Nat),
      ¬ ((s.mem node).left = rb_tree.leaf ∨ (s.mem node).right = rb_tree.leaf) →
      rb_tree.internal_fixup_tree f s node = none) ∧
    (∀ (s : rb_tree.tree α β N) (node f : Nat),
      (s.mem node).color ≠ rb_tree.RB_TREE_BLACK →
      rb_tree.internal_fixup_tree.loop (f + 1) s node = none) ∧
    (∀ (s : rb_tree.tree α β N) (node parent sibling : Nat),
      ¬ ((s.mem sibling).color = rb_tree.RB_TREE_BLACK ∧
        (s.mem node).color = rb_tree.RB_TREE_BLACK) →
      rb_tree.internal_fixup_tree.far_nephew s node parent sibling = none) ∧
    (∀ (s : rb_tree.tree α β N) (node parent sibling : Nat),
      node = ((rb_tree.internal_fixup_tree.repainted s parent sibling).mem parent).left →
      ((rb_tree.internal_fixup_tree.repainted s parent sibling).mem
        ((rb_tree.internal_fixup_tree.repainted s parent sibling).mem sibling).right).color ≠
          rb_tree.RB_TREE_RED →
      rb_tree.internal_fixup_tree.far_nephew s node parent sibling = none) ∧
    (∀ (s : rb_tree.tree α β N) (node parent sibling : Nat),
      node ≠ ((rb_tree.internal_fixup_tree.repainted s parent sibling).mem parent).left →
      ¬ (((rb_tree.internal_fixup_tree.repainted s parent sibling).mem
          ((rb_tree.internal_fixup_tree.repainted s parent sibling).mem sibling).left).color =
            rb_tree.RB_TREE_RED ∧
        node = ((rb_tree.internal_fixup_tree.repainted s parent sibling).mem parent).right) →
      rb_tree.internal_fixup_tree.far_nephew s node parent sibling = none) := by
  obtain ⟨t1, T1, p, found, e1, _⟩ := rb_tree.add_node_ext_spec t T key fuel h hf
  obtain ⟨t2, T2, found2, e2, _⟩ := rb_tree.remove_node_spec user_data t T key fuel h hf
  refine ⟨⟨_, e1⟩, ⟨_, e2⟩, ?_, ?_, ?_, ?_, ?_, ?_, ?_, ?_⟩
  · intro s node f h1 h2 h3
    rw [rb_tree.internal_adjust_tree.loop]
    simp only [h1, h2, h3, if_false, if_true]
  · intro s node f h1
    rw [rb_tree.internal_adjust_tree, if_pos h1]
  · intro s node grandparent h1 h2
    exact rb_tree.rotate_none s node grandparent h1 h2
  · intro s node f h1
    rw [rb_tree.internal_fixup_tree, if_pos h1]
  · intro s node f h1
    rw [rb_tree.internal_fixup_tree.loop]
    simp only [h1, ne_eq, not_false_eq_true, if_true]
  · intro s node parent sibling h1
    rw [rb_tree.internal_fixup_tree.far_nephew, if_pos h1]
  · intro s node parent sibling h1 h2
    exact rb_tree.far_nephew_none_left s node parent sibling h1 h2
  · intro s node parent sibling h1 h2
    exact rb_tree.far_nephew_none_right s node parent sibling h1 h2

/-- C39: after every sequence of calls of `add_node_ext` and `remove_node`
that starts at `init_tree`, the leaf element of the red-black tree is black
and its left and right links point to the leaf itself; and `is_valid_tree`
does not look at the colour of the leaf: it returns true for the one-node
tree `example_tree` with a red leaf. -/
theorem C39_rb_leaf_stays_black_and_self_linked {α β : Type} [LinearOrder α] {N : Nat}
    (t0 : rb_tree.tree α β N) (user_data : Bool) (fuel : Nat) (ops : List (tree_op α))
    (hN : 0 < N) (hf : ops.length < fuel) :
    (∃ t1, rb_tree.run user_data fuel ops (rb_tree.init_tree t0) = some t1 ∧
      (t1.mem rb_tree.leaf).color = rb_tree.RB_TREE_BLACK ∧
      (t1.mem rb_tree.leaf).left = rb_tree.leaf ∧ (t1.mem rb_tree.leaf).right = rb_tree.leaf) ∧
    (rb_tree.red_leaf_tree.mem rb_tree.leaf).color = rb_tree.RB_TREE_RED ∧
    rb_tree.is_valid_tree 2 rb_tree.red_leaf_tree = some true := by
  obtain ⟨t1, e, hl⟩ := rb_tree.run_leaf_ok t0 hN user_data fuel ops hf
  exact ⟨⟨t1, e, hl⟩, by decide, by decide⟩

theorem C39_rb_leaf_stays_black_and_self_linked_witness :
    0 < 1 ∧ [tree_op.add (10 : Int), tree_op.remove 10].length < 3 ∧
    (∃ t1, rb_tree.run true 3 [tree_op.add (10 : Int), tree_op.remove 10]
        (rb_tree.init_tree rb_tree.example_tree) = some t1 ∧
      (t1.mem rb_tree.leaf).color = rb_tree.RB_TREE_BLACK ∧
      (t1.mem rb_tree.leaf).left = rb_tree.leaf ∧ (t1.mem rb_tree.leaf).right = rb_tree.leaf) :=
  ⟨by decide, by decide,
    (C39_rb_leaf_stays_black_and_self_linked rb_tree.example_tree true 3
      [tree_op.add (10 : Int), tree_op.remove 10] (by decide) (by decide)).1⟩

/-! ## The flag `height_changed` of the AVL tree -/

namespace avl_tree

variable {α : Type} {N : Nat}

theorem add_indirect_flag_gt [LinearOrder α] (i j j1 : internal_search_context α N) (a : Nat)
    (k : α) (b : Int) (l r l1 n : node α) (q q1 : Nat) (hk : i.key < k)
    (hl : internal_add_node_indirect i l = some (j, l1, q)) (hj : j.height_changed = true)
    (hb : b = 1 ∨ b = -1)
    (h : internal_add_node_indirect i (.mk a k b l r) = some (j1, n, q1)) :
    j1.height_changed = false := by
  rw [add_indirect_gt i a k b l r hk, hl] at h
  simp only [hj, if_true] at h
  rcases hb with rfl | rfl
  · simp only [if_true, Option.some.injEq, Prod.mk.injEq] at h
    rw [← h.1]
  · simp only [show ¬ ((-1 : Int) = 1) by decide, show ¬ ((-1 : Int) = 0) by decide,
      if_false] at h
    cases hr : internal_rotate_left (.mk a k (-1) l1 r) with
    | none => rw [hr] at h; cases h
    | some m =>
      rw [hr] at h
      simp only [Option.some.injEq, Prod.mk.injEq] at h
      rw [← h.1]

theorem add_indirect_flag_lt [LinearOrder α] (i j j1 : internal_search_context α N) (a : Nat)
    (k : α) (b : Int) (l r r1 n : node α) (q q1 : Nat) (hk : k < i.key)
    (hr : internal_add_node_indirect i r = some (j, r1, q)) (hj : j.height_changed = true)
    (hb : b = -1 ∨ b = 1)
    (h : internal_add_node_indirect i (.mk a k b l r) = some (j1, n, q1)) :
    j1.height_changed = false := by
  rw [add_indirect_lt i a k b l r hk, hr] at h
  simp only [hj, if_true] at h
  rcases hb with rfl | rfl
  · simp only [if_true, Option.some.injEq, Prod.mk.injEq] at h
    rw [← h.1]
  · simp only [show ¬ ((1 : Int) = -1) by decide, show ¬ ((1 : Int) = 0) by decide,
      if_false] at h
    cases hrot : internal_rotate_right (.mk a k 1 l r1) with
    | none => rw [hrot] at h; cases h
    | some m =>
      rw [hrot] at h
      simp only [Option.some.injEq, Prod.mk.injEq] at h
      rw [← h.1]

end avl_tree

/-- C33: the flag `height_changed` of the AVL insertion is exact.  For a
subtree in BST order with the AVL balance, entered with the flag false (and
an allocator that satisfies `allocator_ok`), `internal_add_node_indirect`
returns a subtree in BST order with the AVL balance; the flag is true exactly
if the height of the subtree has grown by one and false exactly if the height
is as before; if the key is present the flag is false and the subtree is as
before; and at a node whose subtree on the side of the key has grown, the
flag is false after the call if the node leaned to the other side (the growth
cancels the lean) or to the same side (a rotation is applied). -/
theorem C33_avl_insert_height_flag_exact {α : Type} [LinearOrder α] {N : Nat}
    (i : avl_tree.internal_search_context α N) (t : avl_tree.node α)
    (hi : i.height_changed = false) (hal : fixed_alloc.allocator_ok i.tree.allocator)
    (hb : avl_tree.bst t) (hbal : avl_tree.balanced t) :
    (∃ i1 t1 p, avl_tree.internal_add_node_indirect i t = some (i1, t1, p) ∧
      avl_tree.balanced t1 ∧ avl_tree.bst t1 ∧
      (i1.height_changed = true ↔
        avl_tree.internal_get_tree_height t1 = avl_tree.internal_get_tree_height t + 1) ∧
      (i1.height_changed = false ↔
        avl_tree.internal_get_tree_height t1 = avl_tree.internal_get_tree_height t) ∧
      (i.key ∈ avl_tree.keys t → i1.height_changed = false ∧ t1 = t)) ∧
    (∀ (j j1 : avl_tree.internal_search_context α N) (a : Nat) (k : α) (b : Int)
        (l r l1 n : avl_tree.node α) (q q1 : Nat), i.key < k →
      avl_tree.internal_add_node_indirect i l = some (j, l1, q) → j.height_changed = true →
      b = 1 ∨ b = -1 →
      avl_tree.internal_add_node_indirect i (.mk a k b l r) = some (j1, n, q1) →
      j1.height_changed = false) ∧
    (∀ (j j1 : avl_tree.internal_search_context α N) (a : Nat) (k : α) (b : Int)
        (l r r1 n : avl_tree.node α) (q q1 : Nat), k < i.key →
      avl_tree.internal_add_node_indirect i r = some (j, r1, q) → j.height_changed = true →
      b = -1 ∨ b = 1 →
      avl_tree.internal_add_node_indirect i (.mk a k b l r) = some (j1, n, q1) →
      j1.height_changed = false) := by
  obtain ⟨a1, p0, ea, _⟩ := fixed_alloc.alloc_elem_spec i.tree.allocator hal
  obtain ⟨i1, t1, p, e, hbal1, _, hbst1, hc1, hc0⟩ :=
    avl_tree.add_indirect_spec i hi ⟨_, ea⟩ t hb hbal
  refine ⟨⟨i1, t1, p, e, hbal1, hbst1, ⟨fun h => (hc1 h).1, fun h => ?_⟩,
    ⟨hc0, fun h => ?_⟩, fun hk => ?_⟩,
    fun j j1 a k b l r l1 n q q1 h1 h2 h3 h4 h5 =>
      avl_tree.add_indirect_flag_gt i j j1 a k b l r l1 n q q1 h1 h2 h3 h4 h5,
    fun j j1 a k b l r r1 n q q1 h1 h2 h3 h4 h5 =>
      avl_tree.add_indirect_flag_lt i j j1 a k b l r r1 n q q1 h1 h2 h3 h4 h5⟩
  · cases hf : i1.height_changed with
    | true => rfl
    | false =>
      have := hc0 hf
      omega
  · cases hf : i1.height_changed with
    | false => rfl
    | true =>
      have := (hc1 hf).1
      omega
  · obtain ⟨p', e', _⟩ := avl_tree.add_indirect_present i hi t hb hk
    rw [e] at e'
    simp only [Option.some.injEq, Prod.mk.injEq] at e'
    obtain ⟨rfl, rfl, _⟩ := e'
    exact ⟨hi, rfl⟩

theorem C33_avl_insert_height_flag_exact_witness :
    (⟨avl_tree.example_tree, 20, false, false⟩ :
      avl_tree.internal_search_context Int 1).height_changed = false ∧
    fixed_alloc.allocator_ok avl_tree.example_tree.allocator ∧
    avl_tree.bst avl_tree.example_tree.root ∧ avl_tree.balanced avl_tree.example_tree.root ∧
    ∃ i1 t1 p, avl_tree.internal_add_node_indirect
        (⟨avl_tree.example_tree, 20, false, false⟩ : avl_tree.internal_search_context Int 1)
        avl_tree.example_tree.root = some (i1, t1, p) ∧
      avl_tree.balanced t1 ∧ avl_tree.bst t1 ∧
      (i1.height_changed = true ↔
        avl_tree.internal_get_tree_height t1 =
          avl_tree.internal_get_tree_height avl_tree.example_tree.root + 1) ∧
      (i1.height_changed = false ↔
        avl_tree.internal_get_tree_height t1 =
          avl_tree.internal_get_tree_height avl_tree.example_tree.root) ∧
      ((20 : Int) ∈ avl_tree.keys avl_tree.example_tree.root →
        i1.height_changed = false ∧ t1 = avl_tree.example_tree.root) :=
  ⟨rfl, fixed_alloc.example_allocator_ok, avl_tree.example_bst, avl_tree.example_balanced,
    (C33_avl_insert_height_flag_exact
      (⟨avl_tree.example_tree, 20, false, false⟩ : avl_tree.internal_search_context Int 1)
      avl_tree.example_tree.root rfl fixed_alloc.example_allocator_ok avl_tree.example_bst
      avl_tree.example_balanced).1⟩

/-- C34: the flag `height_changed` of the AVL removal is exact.  When
`internal_balance_left` is applied, with the flag set, to a node in BST order
whose subtrees have the AVL balance and whose stored balance is the one from
before its left subtree became one level shorter, it returns a subtree in BST
order with the AVL balance and the same keys in the same order; the flag
stays true exactly if the height of that subtree is one less than the height
the subtree of the node had before the removal, and is false exactly if the
height is the same.  The same holds for `internal_balance_right` and a right
subtree that became one level shorter. -/
theorem C34_avl_remove_height_flag_exact {α : Type} [LinearOrder α] {N : Nat}
    (i : avl_tree.internal_search_context α N) (a : Nat) (k : α) (b : Int)
    (l r : avl_tree.node α) (a2 : Nat) (k2 : α) (b2 : Int) (l2 r2 : avl_tree.node α)
    (hi : i.height_changed = true)
    (hl : avl_tree.balanced l) (hr : avl_tree.balanced r)
    (hb : b = avl_tree.internal_get_tree_height r - (avl_tree.internal_get_tree_height l + 1))
    (hb3 : b = -1 ∨ b = 0 ∨ b = 1) (hbst : avl_tree.bst (.mk a k b l r))
    (hl2 : avl_tree.balanced l2) (hr2 : avl_tree.balanced r2)
    (hb2 : b2 =
      avl_tree.internal_get_tree_height r2 + 1 - avl_tree.internal_get_tree_height l2)
    (hb32 : b2 = -1 ∨ b2 = 0 ∨ b2 = 1) (hbst2 : avl_tree.bst (.mk a2 k2 b2 l2 r2)) :
    (∃ i1 n, avl_tree.internal_balance_left i (.mk a k b l r) = some (i1, n) ∧
      avl_tree.balanced n ∧ avl_tree.bst n ∧
      avl_tree.keys n = avl_tree.keys (.mk a k b l r) ∧
      (i1.height_changed = true ↔
        avl_tree.internal_get_tree_height n + 1 =
          1 + max (avl_tree.internal_get_tree_height l + 1)
            (avl_tree.internal_get_tree_height r)) ∧
      (i1.height_changed = false ↔
        avl_tree.internal_get_tree_height n =
          1 + max (avl_tree.internal_get_tree_height l + 1)
            (avl_tree.internal_get_tree_height r))) ∧
    (∃ i1 n, avl_tree.internal_balance_right i (.mk a2 k2 b2 l2 r2) = some (i1, n) ∧
      avl_tree.balanced n ∧ avl_tree.bst n ∧
      avl_tree.keys n = avl_tree.keys (.mk a2 k2 b2 l2 r2) ∧
      (i1.height_changed = true ↔
        avl_tree.internal_get_tree_height n + 1 =
          1 + max (avl_tree.internal_get_tree_height l2)
            (avl_tree.internal_get_tree_height r2 + 1)) ∧
      (i1.height_changed = false ↔
        avl_tree.internal_get_tree_height n =
          1 + max (avl_tree.internal_get_tree_height l2)
            (avl_tree.internal_get_tree_height r2 + 1))) := by
  constructor
  · obtain ⟨i1, n, e, hbal, hk, _, _, _, _, hc1, hc0⟩ :=
      avl_tree.balance_left_spec i a k b l r hl hr hb hb3 hi
    refine ⟨i1, n, e, hbal, ?_, hk, ⟨fun h => by rw [hc1 h]; omega, fun h => ?_⟩,
      ⟨hc0, fun h => ?_⟩⟩
    · rw [avl_tree.avl_bst_iff_sorted, hk, ← avl_tree.avl_bst_iff_sorted]
      exact hbst
    · cases hf : i1.height_changed with
      | true => rfl
      | false =>
        have := hc0 hf
        omega
    · cases hf : i1.height_changed with
      | false => rfl
      | true =>
        have := hc1 hf
        omega
  · obtain ⟨i1, n, e, hbal, hk, _, _, _, _, hc1, hc0⟩ :=
      avl_tree.balance_right_spec i a2 k2 b2 l2 r2 hl2 hr2 hb2 hb32 hi
    refine ⟨i1, n, e, hbal, ?_, hk, ⟨fun h => by rw [hc1 h]; omega, fun h => ?_⟩,
      ⟨hc0, fun h => ?_⟩⟩
    · rw [avl_tree.avl_bst_iff_sorted, hk, ← avl_tree.avl_bst_iff_sorted]
      exact hbst2
    · cases hf : i1.height_changed with
      | true => rfl
      | false =>
        have := hc0 hf
        omega
    · cases hf : i1.height_changed with
      | false => rfl
      | true =>
        have := hc1 hf
        omega

theorem C34_avl_remove_height_flag_exact_witness :
    avl_tree.example_context.height_changed = true ∧
    avl_tree.bst avl_tree.right_heavy ∧ avl_tree.bst avl_tree.left_heavy ∧
    (∃ i1 n, avl_tree.internal_balance_left avl_tree.example_context avl_tree.right_heavy =
        some (i1, n) ∧
      avl_tree.balanced n ∧ avl_tree.bst n ∧ avl_tree.keys n = avl_tree.keys avl_tree.right_heavy ∧
      (i1.height_changed = true ↔ avl_tree.internal_get_tree_height n + 1 = 3)) ∧
    (∃ i1 n, avl_tree.internal_balance_right avl_tree.example_context avl_tree.left_heavy =
        some (i1, n) ∧
      avl_tree.balanced n ∧ avl_tree.bst n ∧ avl_tree.keys n = avl_tree.keys avl_tree.left_heavy ∧
      (i1.height_changed = true ↔ avl_tree.internal_get_tree_height n + 1 = 3)) := by
  have b1 : avl_tree.bst avl_tree.right_heavy := by
    simp [avl_tree.right_heavy, avl_tree.bst, avl_tree.keys]
  have b2 : avl_tree.bst avl_tree.left_heavy := by
    simp [avl_tree.left_heavy, avl_tree.bst, avl_tree.keys]
  have h := C34_avl_remove_height_flag_exact avl_tree.example_context
    5 10 1 .sentinel (.mk 6 20 1 .sentinel (.mk 7 30 0 .sentinel .sentinel))
    5 30 (-1) (.mk 6 20 (-1) (.mk 7 10 0 .sentinel .sentinel) .sentinel) .sentinel
    rfl trivial (by simp [avl_tree.balanced, avl_tree.internal_get_tree_height])
    (by decide) (by decide) b1
    (by simp [avl_tree.balanced, avl_tree.internal_get_tree_height]) trivial
    (by decide) (by decide) b2
  obtain ⟨⟨i1, n, e1, c1, c2, c3, c4, _⟩, ⟨i2, m, e2, d1, d2, d3, d4, _⟩⟩ := h
  exact ⟨rfl, b1, b2, ⟨i1, n, e1, c1, c2, c3, c4⟩, ⟨i2, m, e2, d1, d2, d3, d4⟩⟩

namespace bsearch

variable {α : Type}

theorem int32_id (x : Int) (h1 : -2 ^ 31 ≤ x) (h2 : x < 2 ^ 31) : int32 x = x := by
  unfold int32
  omega

theorem not_eq (r : Int) : Int.not r = -r - 1 := by
  cases r with
  | ofNat n => simp only [Int.not, Int.negSucc_eq, Int.ofNat_eq_coe]; omega
  | negSucc n => simp only [Int.not, Int.negSucc_eq, Int.ofNat_eq_coe]; omega

theorem sorted_get [LinearOrder α] (array : List α) (hs : array.Pairwise (· < ·))
    (i j : Nat) (x y : α) (hij : i < j) (hx : array.get? i = some x)
    (hy : array.get? j = some y) : x < y := by
  rw [List.get?_eq_some] at hx hy
  obtain ⟨hi, rfl⟩ := hx
  obtain ⟨hj, rfl⟩ := hy
  exact List.pairwise_iff_get.1 hs ⟨i, hi⟩ ⟨j, hj⟩ hij

theorem loop_spec [LinearOrder α] (array : List α) (key : α) (hs : array.Pairwise (· < ·))
    (hc : (array.length : Int) < 2 ^ 31) : ∀ (fuel : Nat) (b e : Int),
    0 ≤ b → b ≤ e + 1 → e < array.length → e + 1 - b < fuel →
    (∀ (j : Nat) x, (j : Int) < b → array.get? j = some x → x < key) →
    (∀ (j : Nat) x, e < (j : Int) → array.get? j = some x → key < x) →
    ∃ r, binary_search.loop (compare_at array key) fuel b e = some r ∧
      result_ok array key r := by
  intro fuel
  induction fuel with
  | zero => intro b e h1 h2 h3 h4; omega
  | succ fuel ih =>
    intro b e h1 h2 h3 h4 hlow hhigh
    rw [binary_search.loop]
    by_cases hbe : b > e
    · rw [if_pos hbe]
      have hb : b = e + 1 := by omega
      have hnot : int32 (Int.not b) = -b - 1 := by
        rw [not_eq, int32_id _ (by omega) (by omega)]
      refine ⟨_, rfl, ?_, ?_⟩
      · intro h; rw [hnot] at h; omega
      · intro _
        refine ⟨b.toNat, ?_, ?_, ?_, ?_⟩
        · rw [hnot, not_eq]; omega
        · omega
        · intro j x hj hx
          exact hlow j x (by omega) hx
        · intro j x hj hx
          exact hhigh j x (by omega) hx
    · rw [if_neg hbe]
      have hd : int32 (e - b) = e - b := int32_id _ (by omega) (by omega)
      have hdiv : Int.tdiv (e - b) 2 = (e - b) / 2 := Int.tdiv_eq_ediv (by omega) (by decide)
      have hm1 : int32 ((e - b) / 2) = (e - b) / 2 := int32_id _ (by omega) (by omega)
      have hm2 : int32 (b + (e - b) / 2) = b + (e - b) / 2 := int32_id _ (by omega) (by omega)
      simp only [hd, hdiv, hm1, hm2]
      have hmid1 : b ≤ b + (e - b) / 2 := by omega
      have hmid2 : b + (e - b) / 2 ≤ e := by omega
      generalize hmid : b + (e - b) / 2 = mid at hmid1 hmid2
      have hlt : mid.toNat < array.length := by omega
      have hget : array.get? mid.toNat = some (array.get ⟨mid.toNat, hlt⟩) :=
        List.get?_eq_get hlt
      have hcmp : compare_at array key mid =
          some (COMPARE key (array.get ⟨mid.toNat, hlt⟩)) := by
        rw [compare_at, if_neg (by omega), hget]
      rw [hcmp]
      simp only
      rcases lt_trichotomy key (array.get ⟨mid.toNat, hlt⟩) with hk | hk | hk
      · have c1 : ¬ (COMPARE key (array.get ⟨mid.toNat, hlt⟩) > 0) := by
          rw [avl_tree.COMPARE_pos]; exact not_lt_of_lt hk
        have c2 : COMPARE key (array.get ⟨mid.toNat, hlt⟩) < 0 :=
          (avl_tree.COMPARE_neg _ _).2 hk
        rw [if_neg c1, if_pos c2, int32_id _ (by omega) (by omega)]
        refine ih b (mid - 1) h1 (by omega) (by omega) (by omega) hlow ?_
        intro j x hj hx
        rcases Nat.eq_or_lt_of_le (show mid.toNat ≤ j by omega) with e1 | e1
        · rw [← e1, hget] at hx
          cases hx
          exact hk
        · exact lt_trans hk (sorted_get array hs _ _ _ _ e1 hget hx)
      · have c1 : ¬ (COMPARE key (array.get ⟨mid.toNat, hlt⟩) > 0) := by
          rw [avl_tree.COMPARE_pos, ← hk]; exact lt_irrefl _
        have c2 : ¬ (COMPARE key (array.get ⟨mid.toNat, hlt⟩) < 0) := by
          rw [avl_tree.COMPARE_neg, ← hk]; exact lt_irrefl _
        rw [if_neg c1, if_neg c2]
        refine ⟨mid, rfl, fun _ => ⟨by omega, by rw [hget, ← hk]⟩, fun h => by omega⟩
      · have c1 : COMPARE key (array.get ⟨mid.toNat, hlt⟩) > 0 :=
          (avl_tree.COMPARE_pos _ _).2 hk
        rw [if_pos c1, int32_id _ (by omega) (by omega)]
        refine ih (mid + 1) e (by omega) (by omega) h3 (by omega) ?_ hhigh
        intro j x hj hx
        rcases Nat.eq_or_lt_of_le (show j ≤ mid.toNat by omega) with e1 | e1
        · rw [e1, hget] at hx
          cases hx
          exact hk
        · exact lt_trans (sorted_get array hs _ _ _ _ e1 hx hget) hk

theorem count_below [LinearOrder α] (array : List α) (key : α) (b : Nat)
    (hb : b ≤ array.length)
    (hlow : ∀ j x, j < b → array.get? j = some x → x < key)
    (hhigh : ∀ j x, b ≤ j → array.get? j = some x → key < x) :
    (array.filter (fun x => decide (x < key))).length = b ∧ key ∉ array := by
  constructor
  · have h1 : (array.take b).filter (fun x => decide (x < key)) = array.take b := by
      rw [List.filter_eq_self]
      intro x hx
      obtain ⟨j, hj⟩ := List.mem_iff_get?.1 hx
      rw [List.get?_eq_getElem?, List.getElem?_take] at hj
      by_cases hjb : j < b
      · rw [if_pos hjb, ← List.get?_eq_getElem?] at hj
        exact decide_eq_true (hlow j x hjb hj)
      · rw [if_neg hjb] at hj
        cases hj
    have h2 : (array.drop b).filter (fun x => decide (x < key)) = [] := by
      rw [List.filter_eq_nil_iff]
      intro x hx
      obtain ⟨j, hj⟩ := List.mem_iff_get?.1 hx
      rw [List.get?_eq_getElem?, List.getElem?_drop, ← List.get?_eq_getElem?] at hj
      have := hhigh (b + j) x (by omega) hj
      simp only [decide_eq_true_eq]
      exact not_lt_of_lt this
    conv_lhs => rw [← List.take_append_drop b array]
    rw [List.filter_append, h1, h2, List.append_nil, List.length_take]
    omega
  · intro hmem
    obtain ⟨j, hj⟩ := List.mem_iff_get?.1 hmem
    by_cases hjb : j < b
    · exact lt_irrefl _ (hlow j key hjb hj)
    · exact lt_irrefl _ (hhigh j key (by omega) hj)

theorem binary_search_spec [LinearOrder α] (array : List α) (key : α)
    (hs : array.Pairwise (· < ·)) (hc : array.length < 2 ^ 31) (fuel : Nat)
    (hf : array.length < fuel) :
    ∃ r, binary_search (compare_at array key) fuel array.length = some r ∧
      result_ok array key r := by
  have hc' : (array.length : Int) < 2 ^ 31 := by exact_mod_cast hc
  rw [binary_search, int32_id _ (by omega) (by omega)]
  exact loop_spec array key hs hc' fuel 0 (array.length - 1) (le_refl _) (by omega) (by omega)
    (by omega) (fun j x hj _ => by omega) (fun j x hj hx => by
      rw [List.get?_eq_some] at hx
      obtain ⟨hlt, _⟩ := hx
      omega)

end bsearch

/-- C31: the postcondition of `binary_search`.  For an array in strictly
ascending order with a number of elements that fits `int`, and every key,
the search returns (with fuel above the number of elements) a result `r`; if
`r` is not negative it is an index of the array and the element there is the
key; if `r` is negative the key is not in the array and the complement of
`r` is the number of the elements below the key, which are the elements
before that index, all further elements being above the key. -/
theorem C31_binary_search_postcondition {α : Type} [LinearOrder α] (array : List α) (key : α)
    (fuel : Nat) (hs : array.Pairwise (· < ·)) (hc : array.length < 2 ^ 31)
    (hf : array.length < fuel) :
    ∃ r, bsearch.binary_search (bsearch.compare_at array key) fuel array.length = some r ∧
      (0 ≤ r → r < array.length ∧ array.get? r.toNat = some key) ∧
      (r < 0 → key ∉ array ∧
        Int.not r = ((array.filter (fun x => decide (x < key))).length : Int) ∧
        Int.not r ≤ array.length ∧
        (∀ (j : Nat) x, (j : Int) < Int.not r → array.get? j = some x → x < key) ∧
        (∀ (j : Nat) x, Int.not r ≤ (j : Int) → array.get? j = some x → key < x)) := by
  obtain ⟨r, e, h1, h2⟩ := bsearch.binary_search_spec array key hs hc fuel hf
  refine ⟨r, e, h1, fun hr => ?_⟩
  obtain ⟨b, hb, hle, hlow, hhigh⟩ := h2 hr
  obtain ⟨c1, c2⟩ := bsearch.count_below array key b hle hlow hhigh
  rw [hb]
  refine ⟨c2, by rw [c1], by exact_mod_cast hle, fun j x hj hx => hlow j x (by omega) hx,
    fun j x hj hx => hhigh j x (by omega) hx⟩

theorem C31_binary_search_postcondition_witness :
    ([10, 20, 30, 40, 50] : List Int).Pairwise (· < ·) ∧
    ([10, 20, 30, 40, 50] : List Int).length < 2 ^ 31 ∧
    ([10, 20, 30, 40, 50] : List Int).length < 6 ∧
    bsearch.binary_search (bsearch.compare_at ([10, 20, 30, 40, 50] : List Int) 30) 6 5 =
      some 2 ∧
    bsearch.binary_search (bsearch.compare_at ([10, 20, 30, 40, 50] : List Int) 25) 6 5 =
      some (Int.not 2) ∧
    bsearch.binary_search (bsearch.compare_at ([10, 20, 30, 40, 50] : List Int) 55) 6 5 =
      some (Int.not 5) ∧
    ∃ r, bsearch.binary_search (bsearch.compare_at ([10, 20, 30, 40, 50] : List Int) 25) 6
        ([10, 20, 30, 40, 50] : List Int).length = some r ∧
      (0 ≤ r → r < ([10, 20, 30, 40, 50] : List Int).length ∧
        ([10, 20, 30, 40, 50] : List Int).get? r.toNat = some 25) ∧
      (r < 0 → (25 : Int) ∉ ([10, 20, 30, 40, 50] : List Int) ∧
        Int.not r = ((([10, 20, 30, 40, 50] : List Int).filter
          (fun x => decide (x < 25))).length : Int) ∧
        Int.not r ≤ ([10, 20, 30, 40, 50] : List Int).length ∧
        (∀ (j : Nat) x, (j : Int) < Int.not r →
          ([10, 20, 30, 40, 50] : List Int).get? j = some x → x < 25) ∧
        (∀ (j : Nat) x, Int.not r ≤ (j : Int) →
          ([10, 20, 30, 40, 50] : List Int).get? j = some x → 25 < x)) :=
  ⟨by decide, by decide, by decide, by decide, by decide, by decide,
    C31_binary_search_postcondition ([10, 20, 30, 40, 50] : List Int) 25 6 (by decide)
      (by decide) (by decide)⟩

/-! ## The key of the leaf element of the red-black tree -/

namespace rb_tree

variable {α β : Type} {N : Nat}

theorem tree_ext (t1 t2 : tree α β N) (h1 : t1.root = t2.root) (h2 : ∀ q, t1.mem q = t2.mem q)
    (h3 : t1.allocator = t2.allocator) (h4 : t1.count = t2.count) : t1 = t2 := by
  cases t1
  cases t2
  simp only at h1 h3 h4
  have : ∀ (m1 m2 : Nat → node α β), (∀ q, m1 q = m2 q) → m1 = m2 := fun _ _ h => funext h
  simp only [tree.mk.injEq]
  exact ⟨h1, funext h2, h3, h4⟩

theorem set_key_twice (t : tree α β N) (p : Nat) (k1 k2 : α) :
    set_key (set_key t p k1) p k2 = set_key t p k2 := by
  refine tree_ext _ _ rfl (fun q => ?_) rfl rfl
  apply node_ext <;> simp
  split <;> rfl

theorem set_color_set_key (t : tree α β N) (p : Nat) (k : α) (q c : Nat) :
    set_color (set_key t p k) q c = set_key (set_color t q c) p k := by
  refine tree_ext _ _ rfl (fun x => ?_) rfl rfl
  apply node_ext <;> simp

theorem set_left_set_key (t : tree α β N) (p : Nat) (k : α) (q c : Nat) :
    set_left (set_key t p k) q c = set_key (set_left t q c) p k := by
  refine tree_ext _ _ rfl (fun x => ?_) rfl rfl
  apply node_ext <;> simp

theorem set_right_set_key (t : tree α β N) (p : Nat) (k : α) (q c : Nat) :
    set_right (set_key t p k) q c = set_key (set_right t q c) p k := by
  refine tree_ext _ _ rfl (fun x => ?_) rfl rfl
  apply node_ext <;> simp

theorem set_parent_set_key (t : tree α β N) (p : Nat) (k : α) (q c : Nat) :
    set_parent (set_key t p k) q c = set_key (set_parent t q c) p k := by
  refine tree_ext _ _ rfl (fun x => ?_) rfl rfl
  apply node_ext <;> simp

theorem store_set_key (t : tree α β N) (p : Nat) (k : α) (h : holder) (v : Nat) :
    store (set_key t p k) h v = set_key (store t h v) p k := by
  cases h with
  | root => rfl
  | left q => exact set_left_set_key t p k q v
  | right q => exact set_right_set_key t p k q v

theorem set_key_comm (t : tree α β N) (p q : Nat) (k k2 : α) (h : q ≠ p) :
    set_key (set_key t p k) q k2 = set_key (set_key t q k2) p k := by
  refine tree_ext _ _ rfl (fun x => ?_) rfl rfl
  apply node_ext <;> simp
  by_cases h1 : x = q
  · subst h1
    simp [h]
  · simp [h1]

theorem get_holder_set_key (t : tree α β N) (p : Nat) (k : α) (node : Nat) :
    internal_get_holder (set_key t p k) node = internal_get_holder t node := by
  simp [internal_get_holder]

theorem rotate_left_pp_set_key (t : tree α β N) (p : Nat) (k : α) (h : holder) :
    internal_rotate_left_pp (set_key t p k) h = set_key (internal_rotate_left_pp t h) p k := by
  simp only [internal_rotate_left_pp, load_set_key, set_key_left, set_key_right, set_key_parent,
    store_set_key, set_parent_set_key, set_right_set_key, set_left_set_key]

theorem rotate_right_pp_set_key (t : tree α β N) (p : Nat) (k : α) (h : holder) :
    internal_rotate_right_pp (set_key t p k) h =
      set_key (internal_rotate_right_pp t h) p k := by
  simp only [internal_rotate_right_pp, load_set_key, set_key_left, set_key_right, set_key_parent,
    store_set_key, set_parent_set_key, set_right_set_key, set_left_set_key]

theorem rotate_left_set_key (t : tree α β N) (p : Nat) (k : α) (node : Nat) :
    internal_rotate_left (set_key t p k) node = set_key (internal_rotate_left t node) p k := by
  rw [internal_rotate_left, internal_rotate_left, get_holder_set_key, rotate_left_pp_set_key]

theorem rotate_right_set_key (t : tree α β N) (p : Nat) (k : α) (node : Nat) :
    internal_rotate_right (set_key t p k) node = set_key (internal_rotate_right t node) p k := by
  rw [internal_rotate_right, internal_rotate_right, get_holder_set_key, rotate_right_pp_set_key]

end rb_tree

namespace rb_tree

variable {α β : Type} {N : Nat}

theorem adjust_rotate_set_key (t : tree α β N) (p : Nat) (k : α) (node grandparent : Nat) :
    internal_adjust_tree.rotate (set_key t p k) node grandparent =
      (internal_adjust_tree.rotate t node grandparent).map (fun t1 => set_key t1 p k) := by
  simp only [internal_adjust_tree.rotate, set_key_left, set_key_right, set_key_parent]
  split
  · simp only [rotate_left_pp_set_key, set_key_left, set_key_right, set_key_parent,
      set_color_set_key, rotate_right_set_key, rotate_left_set_key]
    split
    · rfl
    · split <;> rfl
  · split
    · simp only [rotate_right_pp_set_key, set_key_left, set_key_right, set_key_parent,
        set_color_set_key, rotate_right_set_key, rotate_left_set_key]
      split
      · rfl
      · split <;> rfl
    · simp only [set_key_left, set_key_right, set_key_parent,
        set_color_set_key, rotate_right_set_key, rotate_left_set_key]
      split
      · rfl
      · split <;> rfl

theorem adjust_loop_set_key (p : Nat) (k : α) : ∀ (fuel : Nat) (t : tree α β N) (node : Nat),
    internal_adjust_tree.loop fuel (set_key t p k) node =
      (internal_adjust_tree.loop fuel t node).map (fun t1 => set_key t1 p k) := by
  intro fuel
  induction fuel with
  | zero => intro t node; rfl
  | succ fuel ih =>
    intro t node
    rw [internal_adjust_tree.loop, internal_adjust_tree.loop]
    simp only [set_key_parent, set_key_color, set_key_left, set_key_right]
    split_ifs <;>
      first
        | rfl
        | simp only [set_color_set_key, set_key_parent, ih, Option.map_some']
        | exact adjust_rotate_set_key t p k node _

theorem adjust_tree_set_key (p : Nat) (k : α) (fuel : Nat) (t : tree α β N) (node : Nat) :
    internal_adjust_tree fuel (set_key t p k) node =
      (internal_adjust_tree fuel t node).map (fun t1 => set_key t1 p k) := by
  rw [internal_adjust_tree, internal_adjust_tree]
  simp only [set_key_color]
  split
  · rfl
  · exact adjust_loop_set_key p k fuel t node

end rb_tree

namespace rb_tree

variable {α β : Type} {N : Nat}

theorem alloc_node_set_key (t : tree α β N) (k key : α) (parent : Nat)
    (h : fixed_alloc.allocator_ok t.allocator) :
    internal_alloc_node (set_key t leaf k) parent key =
      (internal_alloc_node t parent key).map (fun r => (set_key r.1 leaf k, r.2)) := by
  obtain ⟨a1, p, e, _, hp, _⟩ := fixed_alloc.alloc_elem_spec t.allocator h
  have hne : p ≠ leaf := by
    intro e1
    rw [e1, leaf] at hp
    omega
  have e0 : ({ set_key t leaf k with allocator := a1 } : tree α β N) =
      set_key { t with allocator := a1 } leaf k := rfl
  rw [internal_alloc_node, internal_alloc_node]
  simp only [set_key_allocator, e, Option.map_some', Option.some.injEq, Prod.mk.injEq, and_true]
  rw [e0, set_color_set_key, set_key_comm _ leaf p k key hne, set_right_set_key,
    set_left_set_key, set_parent_set_key]
  rfl

theorem add_loop_set_key [LinearOrder α] (afuel : Nat) (k key : α) :
    ∀ (fuel : Nat) (t : tree α β N) (dest_node : holder) (prev_node : Nat),
    fixed_alloc.allocator_ok t.allocator →
    add_node_ext.loop afuel key fuel (set_key t leaf k) dest_node prev_node =
      (add_node_ext.loop afuel key fuel t dest_node prev_node).map
        (fun r => (set_key r.1 leaf k, r.2)) := by
  intro fuel
  induction fuel with
  | zero => intro t d pv _; rfl
  | succ fuel ih =>
    intro t d pv hal
    rw [add_node_ext.loop, add_node_ext.loop]
    simp only [load_set_key]
    by_cases hl : load t d = leaf
    · simp only [hl, if_true]
      rw [alloc_node_set_key t k key pv hal]
      cases internal_alloc_node t pv key with
      | none => rfl
      | some r =>
        obtain ⟨t1, node1⟩ := r
        simp only [Option.map_some', store_set_key, adjust_tree_set_key]
        cases internal_adjust_tree afuel (store t1 d node1) node1 with
        | none => rfl
        | some t3 => rfl
    · simp only [hl, if_false, set_key_key]
      split_ifs <;> first | rfl | exact ih t _ _ hal

theorem add_node_ext_set_key [LinearOrder α] (fuel : Nat) (t : tree α β N) (k key : α)
    (h : fixed_alloc.allocator_ok t.allocator) :
    add_node_ext fuel (set_key t leaf k) key =
      (add_node_ext fuel t key).map (fun r => (set_key r.1 leaf k, r.2)) :=
  add_loop_set_key fuel k key fuel t .root NULL h

theorem find_node_set_key [LinearOrder α] (fuel : Nat) (t : tree α β N) (k key : α) :
    find_node fuel (set_key t leaf k) key = find_node fuel t key := by
  rw [find_node, find_node, set_key_twice]

theorem find_node_writes_key [LinearOrder α] (fuel : Nat) (t t1 : tree α β N) (key : α)
    (r : Nat) (h : find_node fuel t key = some (t1, r)) : t1 = set_key t leaf key := by
  rw [find_node] at h
  cases hl : find_node.loop (set_key t leaf key) key fuel (set_key t leaf key).root with
  | none => rw [hl] at h; cases h
  | some node =>
    rw [hl] at h
    simp only [Option.some.injEq, Prod.mk.injEq] at h
    exact h.1.symm

theorem remove_node_set_key [LinearOrder α] (ud : Bool) (fuel : Nat) (t : tree α β N)
    (k key : α) : remove_node ud fuel (set_key t leaf k) key = remove_node ud fuel t key := by
  rw [remove_node, remove_node, find_node_set_key]

theorem recursive_check_set_key [LinearOrder α] (t : tree α β N) (k : α) :
    ∀ (fuel : Nat) (c : internal_check_context) (node prev : Nat) (path : Int),
    internal_recursive_check (set_key t leaf k) fuel c node prev path =
      internal_recursive_check t fuel c node prev path := by
  intro fuel
  induction fuel with
  | zero => intro c node prev path; rfl
  | succ fuel ih =>
    intro c node prev path
    rw [internal_recursive_check, internal_recursive_check]
    by_cases hl : node = leaf
    · simp only [hl, if_true]
    · simp only [hl, if_false, set_key_parent, set_key_color, set_key_left, set_key_right, ih,
        set_key_key]
      have hk : ∀ x, (x ≠ leaf ∧
          COMPARE (t.mem node).key (if x = leaf then k else (t.mem x).key) ≤ 0) ↔
          (x ≠ leaf ∧ COMPARE (t.mem node).key (t.mem x).key ≤ 0) := by
        intro x
        by_cases hx : x = leaf
        · simp [hx]
        · simp [hx]
      have hk2 : ∀ x, (x ≠ leaf ∧
          COMPARE (t.mem node).key (if x = leaf then k else (t.mem x).key) ≥ 0) ↔
          (x ≠ leaf ∧ COMPARE (t.mem node).key (t.mem x).key ≥ 0) := by
        intro x
        by_cases hx : x = leaf
        · simp [hx]
        · simp [hx]
      simp only [hk, hk2]

theorem is_valid_ret_set_key [LinearOrder α] (fuel : Nat) (t : tree α β N) (k : α) :
    is_valid_tree.ret fuel (set_key t leaf k) = is_valid_tree.ret fuel t := by
  rw [is_valid_tree.ret, is_valid_tree.ret, recursive_check_set_key, set_key_root,
    set_key_allocator]

theorem is_valid_tree_set_key [LinearOrder α] (fuel : Nat) (t : tree α β N) (k : α) :
    is_valid_tree fuel (set_key t leaf k) = is_valid_tree fuel t := by
  rw [is_valid_tree, is_valid_tree, is_valid_ret_set_key]

theorem go_up_set_key (t : tree α β N) (p : Nat) (k : α) : ∀ (fuel node : Nat),
    tree_foreach.go_up (set_key t p k) fuel node = tree_foreach.go_up t fuel node := by
  intro fuel
  induction fuel with
  | zero => intro node; rfl
  | succ fuel ih =>
    intro node
    rw [tree_foreach.go_up, tree_foreach.go_up]
    simp only [set_key_parent, set_key_left, set_key_right, ih]

theorem foreach_loop_set_key {σ : Type} (t : tree α β N) (p : Nat) (k : α) (cb : σ → Nat → σ) :
    ∀ (fuel node : Nat) (hl : Bool) (context : σ),
    tree_foreach.loop (set_key t p k) cb fuel node hl context =
      tree_foreach.loop t cb fuel node hl context := by
  intro fuel
  induction fuel with
  | zero => intro node hl context; rfl
  | succ fuel ih =>
    intro node hl context
    rw [tree_foreach.loop, tree_foreach.loop]
    simp only [set_key_parent, set_key_left, set_key_right, ih, go_up_set_key]

theorem tree_foreach_set_key {σ : Type} (fuel : Nat) (t : tree α β N) (p : Nat) (k : α)
    (context : σ) (cb : σ → Nat → σ) :
    tree_foreach fuel (set_key t p k) context cb = tree_foreach fuel t context cb := by
  rw [tree_foreach, tree_foreach, set_key_root, foreach_loop_set_key]

end rb_tree

/-! ## The key of the sentinel element of the AVL tree -/

namespace avl_tree

variable {α : Type} {N : Nat}

theorem add_indirect_sentinel_key [LinearOrder α] (s : α) : ∀ (n : node α)
    (i : internal_search_context α N),
    internal_add_node_indirect (context_set_sentinel_key i s) n =
      (internal_add_node_indirect i n).map (fun r => (context_set_sentinel_key r.1 s, r.2)) := by
  intro n
  induction n with
  | sentinel =>
    intro i
    simp only [internal_add_node_indirect, internal_alloc_node, context_set_sentinel_key,
      set_sentinel_key]
    cases fixed_alloc.alloc_elem i.tree.allocator with
    | none => rfl
    | some r => rfl
  | mk a k b l r ihl ihr =>
    intro i
    have hk : (context_set_sentinel_key i s).key = i.key := rfl
    rw [internal_add_node_indirect, internal_add_node_indirect]
    simp only [hk, ihl, ihr]
    by_cases h1 : COMPARE k i.key > 0
    · simp only [if_pos h1]
      cases internal_add_node_indirect i l with
      | none => rfl
      | some x =>
        obtain ⟨i1, l1, result⟩ := x
        have hc : (context_set_sentinel_key i1 s).height_changed = i1.height_changed := rfl
        simp only [Option.map_some', hc]
        by_cases h3 : i1.height_changed = true
        · simp only [if_pos h3]
          by_cases h4 : b = 1
          · simp only [if_pos h4]
            rfl
          · simp only [if_neg h4]
            by_cases h5 : b = 0
            · simp only [if_pos h5]
              rfl
            · simp only [if_neg h5]
              cases internal_rotate_left (.mk a k b l1 r) with
              | none => rfl
              | some m => rfl
        · simp only [if_neg h3]
          rfl
    · simp only [if_neg h1]
      by_cases h2 : COMPARE k i.key < 0
      · simp only [if_pos h2]
        cases internal_add_node_indirect i r with
        | none => rfl
        | some x =>
          obtain ⟨i1, r1, result⟩ := x
          have hc : (context_set_sentinel_key i1 s).height_changed = i1.height_changed := rfl
          simp only [Option.map_some', hc]
          by_cases h3 : i1.height_changed = true
          · simp only [if_pos h3]
            by_cases h4 : b = -1
            · simp only [if_pos h4]
              rfl
            · simp only [if_neg h4]
              by_cases h5 : b = 0
              · simp only [if_pos h5]
                rfl
              · simp only [if_neg h5]
                cases internal_rotate_right (.mk a k b l r1) with
                | none => rfl
                | some m => rfl
          · simp only [if_neg h3]
            rfl
      · simp only [if_neg h2]
        rfl

theorem add_node_ext_sentinel_key [LinearOrder α] (t : tree α N) (s key : α) :
    add_node_ext (set_sentinel_key t s) key =
      (add_node_ext t key).map (fun r => (set_sentinel_key r.1 s, r.2)) := by
  rw [add_node_ext, add_node_ext]
  have := add_indirect_sentinel_key s t.root
    (⟨t, key, false, false⟩ : internal_search_context α N)
  simp only [context_set_sentinel_key] at this
  simp only [set_sentinel_key] at this ⊢
  rw [this]
  cases internal_add_node_indirect (⟨t, key, false, false⟩ : internal_search_context α N)
      t.root with
  | none => rfl
  | some x => rfl

theorem balance_left_sentinel_key (s : α) (i : internal_search_context α N) (n : node α) :
    internal_balance_left (context_set_sentinel_key i s) n =
      (internal_balance_left i n).map (fun r => (context_set_sentinel_key r.1 s, r.2)) := by
  cases n with
  | sentinel => rfl
  | mk a k b l r =>
    simp only [internal_balance_left]
    split_ifs
    · rfl
    · rfl
    · cases r with
      | sentinel => rfl
      | mk ra rk rb rl rr =>
        simp only
        split_ifs
        · rfl
        · rfl
        · cases rl with
          | sentinel => rfl
          | mk rla rlk rlb rll rlr => rfl

theorem balance_right_sentinel_key (s : α) (i : internal_search_context α N) (n : node α) :
    internal_balance_right (context_set_sentinel_key i s) n =
      (internal_balance_right i n).map (fun r => (context_set_sentinel_key r.1 s, r.2)) := by
  cases n with
  | sentinel => rfl
  | mk a k b l r =>
    simp only [internal_balance_right]
    split_ifs
    · rfl
    · rfl
    · cases l with
      | sentinel => rfl
      | mk la lk lb ll lr =>
        simp only
        split_ifs
        · rfl
        · rfl
        · cases lr with
          | sentinel => rfl
          | mk lra lrk lrb lrl lrr => rfl

end avl_tree

namespace avl_tree

variable {α : Type} {N : Nat}

theorem replace_left_sentinel_key (s : α) : ∀ (n : node α) (i : internal_search_context α N),
    internal_replace_left_subtree (context_set_sentinel_key i s) n =
      (internal_replace_left_subtree i n).map
        (fun r => (context_set_sentinel_key r.1 s, r.2)) := by
  intro n
  induction n with
  | sentinel => intro i; rfl
  | mk a k b l r _ ihr =>
    intro i
    cases r with
    | sentinel => rfl
    | mk ra rk rb rl rr =>
      rw [internal_replace_left_subtree, internal_replace_left_subtree, ihr]
      cases internal_replace_left_subtree i (.mk ra rk rb rl rr) with
      | none => rfl
      | some x =>
        obtain ⟨i1, r1, result⟩ := x
        have hc : (context_set_sentinel_key i1 s).height_changed = i1.height_changed := rfl
        simp only [Option.map_some', hc]
        by_cases h3 : i1.height_changed = true
        · simp only [if_pos h3, balance_right_sentinel_key]
          cases internal_balance_right i1 (.mk a k b l r1) with
          | none => rfl
          | some y => rfl
        · simp only [if_neg h3]
          rfl

theorem unlink_sentinel_key (s : α) (i : internal_search_context α N) (b : Int)
    (l r : node α) :
    internal_remove_node_indirect.unlink (context_set_sentinel_key i s) b l r =
      (internal_remove_node_indirect.unlink i b l r).map
        (fun x => (context_set_sentinel_key x.1 s, x.2)) := by
  cases r with
  | sentinel =>
    cases l <;> rfl
  | mk ra rk rb rl rr =>
    cases l with
    | sentinel => rfl
    | mk la lk lb ll lr =>
      simp only [internal_remove_node_indirect.unlink, replace_left_sentinel_key]
      cases internal_replace_left_subtree i (.mk la lk lb ll lr) with
      | none => rfl
      | some x =>
        obtain ⟨i1, l1, ls⟩ := x
        simp only [Option.map_some']
        cases ls with
        | sentinel => rfl
        | mk lsa lsk lsb lsl lsr =>
          have hc : (context_set_sentinel_key i1 s).height_changed = i1.height_changed := rfl
          simp only [hc]
          by_cases h3 : i1.height_changed = true
          · simp only [if_pos h3, balance_left_sentinel_key]
          · simp only [if_neg h3]
            rfl

theorem remove_indirect_sentinel_key [LinearOrder α] (s : α) : ∀ (n : node α)
    (i : internal_search_context α N),
    internal_remove_node_indirect (context_set_sentinel_key i s) n =
      (internal_remove_node_indirect i n).map
        (fun r => (context_set_sentinel_key r.1 s, r.2)) := by
  intro n
  induction n with
  | sentinel => intro i; rfl
  | mk a k b l r ihl ihr =>
    intro i
    have hk : (context_set_sentinel_key i s).key = i.key := rfl
    have hf : (⟨(context_set_sentinel_key i s).tree, (context_set_sentinel_key i s).key,
        (context_set_sentinel_key i s).height_changed, true⟩ : internal_search_context α N) =
        context_set_sentinel_key ⟨i.tree, i.key, i.height_changed, true⟩ s := rfl
    rw [internal_remove_node_indirect, internal_remove_node_indirect]
    by_cases h1 : COMPARE k i.key > 0
    · have h1' : COMPARE k (context_set_sentinel_key i s).key > 0 := h1
      simp only [if_pos h1, if_pos h1', ihl]
      cases internal_remove_node_indirect i l with
      | none => rfl
      | some x =>
        obtain ⟨i1, l1⟩ := x
        have hc : (context_set_sentinel_key i1 s).height_changed = i1.height_changed := rfl
        simp only [Option.map_some', hc]
        by_cases h3 : i1.height_changed = true
        · simp only [if_pos h3, balance_left_sentinel_key]
        · simp only [if_neg h3]
          rfl
    · have h1' : ¬ COMPARE k (context_set_sentinel_key i s).key > 0 := h1
      by_cases h2 : COMPARE k i.key < 0
      · have h2' : COMPARE k (context_set_sentinel_key i s).key < 0 := h2
        simp only [if_neg h1, if_neg h1', if_pos h2, if_pos h2', ihr]
        cases internal_remove_node_indirect i r with
        | none => rfl
        | some x =>
          obtain ⟨i1, r1⟩ := x
          have hc : (context_set_sentinel_key i1 s).height_changed = i1.height_changed := rfl
          simp only [Option.map_some', hc]
          by_cases h3 : i1.height_changed = true
          · simp only [if_pos h3, balance_right_sentinel_key]
          · simp only [if_neg h3]
            rfl
      · have h2' : ¬ COMPARE k (context_set_sentinel_key i s).key < 0 := h2
        simp only [if_neg h1, if_neg h1', if_neg h2, if_neg h2', hf, unlink_sentinel_key]
        cases internal_remove_node_indirect.unlink ⟨i.tree, i.key, i.height_changed, true⟩
            b l r with
        | none => rfl
        | some x =>
          obtain ⟨i1, m⟩ := x
          simp only [Option.map_some']
          have ha : (context_set_sentinel_key i1 s).tree.allocator = i1.tree.allocator := rfl
          simp only [ha]
          cases fixed_alloc.free_elem i1.tree.allocator a with
          | none => rfl
          | some al => rfl

theorem remove_node_sentinel_key [LinearOrder α] (t : tree α N) (s key : α) :
    remove_node (set_sentinel_key t s) key =
      (remove_node t key).map (fun r => (set_sentinel_key r.1 s, r.2)) := by
  rw [remove_node, remove_node]
  have := remove_indirect_sentinel_key s t.root
    (⟨t, key, false, false⟩ : internal_search_context α N)
  simp only [context_set_sentinel_key] at this
  simp only [set_sentinel_key] at this ⊢
  rw [this]
  cases internal_remove_node_indirect (⟨t, key, false, false⟩ : internal_search_context α N)
      t.root with
  | none => rfl
  | some x => rfl

theorem find_node_sentinel_key [LinearOrder α] (t : tree α N) (s key : α) :
    find_node (set_sentinel_key t s) key = find_node t key := rfl

theorem find_node_writes_sentinel [LinearOrder α] (t t1 : tree α N) (key : α) (r : Nat)
    (h : find_node t key = some (t1, r)) : t1 = set_sentinel_key t key := by
  rw [find_node] at h
  cases hl : find_node.loop key key t.root with
  | none =>
    simp only [hl] at h
    cases h
  | some node =>
    simp only [hl, Option.some.injEq, Prod.mk.injEq] at h
    exact h.1.symm

theorem is_valid_tree_sentinel_key (t : tree α N) (s : α) :
    is_valid_tree (set_sentinel_key t s) = is_valid_tree t := rfl

theorem tree_foreach_sentinel_key {σ : Type} (t : tree α N) (s : α) (context : σ)
    (cb : σ → node α → σ) :
    tree_foreach (set_sentinel_key t s) context cb = tree_foreach t context cb := rfl

end avl_tree

/-! ## The key of the sentinel element as scratch storage of `find_node` -/

namespace rb_tree

variable {α β : Type} {N : Nat}

theorem foreach_init_tree {σ : Type} (t : tree α β N) (cb : σ → Nat → σ) (acc : σ)
    (fuel : Nat) : tree_foreach (fuel + 2) (init_tree t) acc cb = some (cb acc leaf) := by
  simp [tree_foreach, tree_foreach.loop, tree_foreach.go_up, init_tree, set_parent, set_left,
    set_right, set_color]

theorem foreach_sees_leaf_key (t : tree α β N) (k : α) (fuel : Nat) :
    tree_foreach (fuel + 2) (set_key (init_tree t) leaf k) []
      (fun acc p => acc ++ [((set_key (init_tree t) leaf k).mem p).key]) = some [k] := by
  rw [tree_foreach_set_key, foreach_init_tree]
  simp

theorem foreach_keys_set_key (t : tree α β N) (T : rbt α β) (k : α) (h : layout t T)
    (hT : T ≠ .nil) :
    ∃ F, ∀ fuel, F ≤ fuel →
      tree_foreach fuel (set_key t leaf k) []
          (fun acc p => acc ++ [((set_key t leaf k).mem p).key]) =
        tree_foreach fuel t [] (fun acc p => acc ++ [(t.mem p).key]) := by
  obtain ⟨F1, h1⟩ := tree_foreach_spec t T (fun acc p => acc ++ [(t.mem p).key]) [] h hT
  obtain ⟨F3, h3⟩ := tree_foreach_spec t T
    (fun acc p => acc ++ [((set_key t leaf k).mem p).key]) [] h hT
  refine ⟨max F1 F3, fun fuel hf => ?_⟩
  have hn := (Rep_not_mem _ _ _ _ h.1).2
  have hfold : ∀ (l : List Nat) (acc : List α), (∀ x ∈ l, x ≠ leaf) →
      l.foldl (fun acc p => acc ++ [((set_key t leaf k).mem p).key]) acc =
        l.foldl (fun acc p => acc ++ [(t.mem p).key]) acc := by
    intro l
    induction l with
    | nil => intro acc _; rfl
    | cons x xs ih =>
      intro acc hx
      simp only [List.foldl_cons]
      rw [set_key_mem_ne t leaf k x (hx x (List.mem_cons_self _ _))]
      exact ih _ (fun y hy => hx y (List.mem_cons_of_mem _ hy))
  have hne : ∀ x ∈ T.addrs, x ≠ leaf := fun x hx e => hn (e ▸ hx)
  rw [tree_foreach_set_key, h1 fuel (le_trans (le_max_left _ _) hf),
    h3 fuel (le_trans (le_max_right _ _) hf), hfold T.addrs [] hne]

end rb_tree

/-- C37: the key that `find_node` leaves in the sentinel element.  Of two
trees that differ only in the key of the sentinel element (the leaf element
of the red-black tree), `find_node` and `remove_node` return the same result
and the same tree, `is_valid_tree` returns the same result, `add_node_ext`
returns the same result and trees that again differ only in that key, and
`tree_foreach` makes the same calls of the callback; `find_node` changes
nothing but that key.  The red-black `tree_foreach` hands the leaf element to
the callback when the tree is empty, so a callback that reads the key of its
node reads the key of the leaf element there: it collects the list with that
one key, which is 1 for the one and 2 for the other of two empty trees; on a
tree that is not empty such a callback collects the same keys from both
trees. -/
theorem C37_sentinel_key_seen_by_foreach_callback {α β : Type} [LinearOrder α] {N : Nat}
    (t : rb_tree.tree α β N) (ta : avl_tree.tree α N) (k key : α) (fuel : Nat) :
    rb_tree.tree_foreach (fuel + 2) (rb_tree.set_key (rb_tree.init_tree t) rb_tree.leaf k) []
      (fun acc p =>
        acc ++ [((rb_tree.set_key (rb_tree.init_tree t) rb_tree.leaf k).mem p).key]) =
      some [k] ∧
    rb_tree.tree_foreach 2
      (rb_tree.set_key (rb_tree.init_tree rb_tree.example_tree) rb_tree.leaf 1) []
      (fun acc p => acc ++
        [((rb_tree.set_key (rb_tree.init_tree rb_tree.example_tree) rb_tree.leaf 1).mem p).key]) =
      some [1] ∧
    rb_tree.tree_foreach 2
      (rb_tree.set_key (rb_tree.init_tree rb_tree.example_tree) rb_tree.leaf 2) []
      (fun acc p => acc ++
        [((rb_tree.set_key (rb_tree.init_tree rb_tree.example_tree) rb_tree.leaf 2).mem p).key]) =
      some [2] ∧
    (∀ T : rb_tree.rbt α β, rb_tree.layout t T → T ≠ .nil →
      ∃ F, ∀ f, F ≤ f →
        rb_tree.tree_foreach f (rb_tree.set_key t rb_tree.leaf k) []
            (fun acc p => acc ++ [((rb_tree.set_key t rb_tree.leaf k).mem p).key]) =
          rb_tree.tree_foreach f t [] (fun acc p => acc ++ [(t.mem p).key])) ∧
    (∀ (σ : Type) (context : σ) (cb : σ → Nat → σ),
      rb_tree.tree_foreach fuel (rb_tree.set_key t rb_tree.leaf k) context cb =
        rb_tree.tree_foreach fuel t context cb) ∧
    rb_tree.find_node fuel (rb_tree.set_key t rb_tree.leaf k) key = rb_tree.find_node fuel t key ∧
    (∀ t1 r, rb_tree.find_node fuel t key = some (t1, r) →
      t1 = rb_tree.set_key t rb_tree.leaf key) ∧
    (∀ user_data, rb_tree.remove_node user_data fuel (rb_tree.set_key t rb_tree.leaf k) key =
      rb_tree.remove_node user_data fuel t key) ∧
    (fixed_alloc.allocator_ok t.allocator →
      rb_tree.add_node_ext fuel (rb_tree.set_key t rb_tree.leaf k) key =
        (rb_tree.add_node_ext fuel t key).map
          (fun r => (rb_tree.set_key r.1 rb_tree.leaf k, r.2))) ∧
    rb_tree.is_valid_tree fuel (rb_tree.set_key t rb_tree.leaf k) =
      rb_tree.is_valid_tree fuel t ∧
    avl_tree.find_node (avl_tree.set_sentinel_key ta k) key = avl_tree.find_node ta key ∧
    (∀ t1 r, avl_tree.find_node ta key = some (t1, r) →
      t1 = avl_tree.set_sentinel_key ta key) ∧
    avl_tree.add_node_ext (avl_tree.set_sentinel_key ta k) key =
      (avl_tree.add_node_ext ta key).map (fun r => (avl_tree.set_sentinel_key r.1 k, r.2)) ∧
    avl_tree.remove_node (avl_tree.set_sentinel_key ta k) key =
      (avl_tree.remove_node ta key).map (fun r => (avl_tree.set_sentinel_key r.1 k, r.2)) ∧
    avl_tree.is_valid_tree (avl_tree.set_sentinel_key ta k) = avl_tree.is_valid_tree ta ∧
    (∀ (σ : Type) (context : σ) (cb : σ → avl_tree.node α → σ),
      avl_tree.tree_foreach (avl_tree.set_sentinel_key ta k) context cb =
        avl_tree.tree_foreach ta context cb) :=
  ⟨rb_tree.foreach_sees_leaf_key t k fuel,
    rb_tree.foreach_sees_leaf_key rb_tree.example_tree 1 0,
    rb_tree.foreach_sees_leaf_key rb_tree.example_tree 2 0,
    fun T h hT => rb_tree.foreach_keys_set_key t T k h hT,
    fun σ context cb => rb_tree.tree_foreach_set_key fuel t rb_tree.leaf k context cb,
    rb_tree.find_node_set_key fuel t k key,
    fun t1 r h => rb_tree.find_node_writes_key fuel t t1 key r h,
    fun ud => rb_tree.remove_node_set_key ud fuel t k key,
    fun h => rb_tree.add_node_ext_set_key fuel t k key h,
    rb_tree.is_valid_tree_set_key fuel t k,
    avl_tree.find_node_sentinel_key ta k key,
    fun t1 r h => avl_tree.find_node_writes_sentinel ta t1 key r h,
    avl_tree.add_node_ext_sentinel_key ta k key,
    avl_tree.remove_node_sentinel_key ta k key,
    avl_tree.is_valid_tree_sentinel_key ta k,
    fun σ context cb => avl_tree.tree_foreach_sentinel_key ta k context cb⟩

/-! ## The deletion fix-up of the red-black tree as a function on trees -/

namespace rb_tree

variable {α β : Type} {N : Nat}

theorem shape_color (s : rbt α β) : s.shape.color = s.color := by
  cases s <;> rfl

theorem shape_paint (s : rbt α β) (c : Nat) : (s.paint c).shape = s.shape.paint c := by
  cases s <;> rfl

theorem shape_plug (ctx : List (frame α β)) : ∀ (s : rbt α β),
    (plug ctx s).shape = plug (ctx.map frame.shape) s.shape := by
  induction ctx with
  | nil => intro s; rfl
  | cons f fs ih =>
    intro s
    rw [plug, ih, List.map_cons, plug]
    cases f <;> rfl

theorem shape_black_sibling_left (rest : List (frame α β)) (pa pc : Nat) (pk : α) (pv : β)
    (s : rbt α β) (sa : Nat) (sk : α) (sv : β) (sl sr : rbt α β)
    (g : rbt α β → rbt α β) (g1 : rbt α Unit → rbt α Unit)
    (hg : ∀ x, (g x).shape = g1 x.shape) :
    (fixed_black_sibling_left rest pa pc pk pv s sa sk sv sl sr g).shape =
      fixed_black_sibling_left (rest.map frame.shape) 0 pc pk () s.shape 0 sk ()
        sl.shape sr.shape g1 := by
  unfold fixed_black_sibling_left
  simp only [shape_color]
  by_cases h1 : sl.color = RB_TREE_BLACK ∧ sr.color = RB_TREE_BLACK
  · simp only [if_pos h1]
    by_cases h2 : pc = RB_TREE_BLACK
    · simp only [if_pos h2, hg]
      rfl
    · simp only [if_neg h2, shape_plug]
      rfl
  · simp only [if_neg h1]
    by_cases h2 : sl.color = RB_TREE_RED ∧ sr.color = RB_TREE_BLACK
    · simp only [if_pos h2]
      cases sl with
      | nil => simp only [shape_plug]; rfl
      | node la lc lk lv x y => simp only [shape_plug]; rfl
    · simp only [if_neg h2, shape_plug]
      simp only [rbt.shape, shape_paint]

theorem shape_step_left (rest : List (frame α β)) (pa pc : Nat) (pk : α) (pv : β)
    (sib s : rbt α β) (g : rbt α β → rbt α β) (g1 : rbt α Unit → rbt α Unit)
    (hg : ∀ x, (g x).shape = g1 x.shape) :
    (fixed_step_left rest pa pc pk pv sib s g).shape =
      fixed_step_left (rest.map frame.shape) 0 pc pk () sib.shape s.shape g1 := by
  cases sib with
  | nil => simp only [fixed_step_left, shape_plug]; rfl
  | node sa sc sk sv sl sr =>
    simp only [fixed_step_left, rbt.shape]
    by_cases h1 : sc = RB_TREE_RED
    · simp only [if_pos h1]
      cases sl with
      | nil => simp only [shape_plug]; rfl
      | node la lc lk lv x1 y1 =>
        simp only [rbt.shape]
        exact shape_black_sibling_left _ pa RB_TREE_RED pk pv s la lk lv _ _
          (fun x => x) (fun x => x) (fun _ => rfl)
    · simp only [if_neg h1]
      exact shape_black_sibling_left rest pa pc pk pv s sa sk sv _ _ g g1 hg

theorem shape_black_sibling_right (rest : List (frame α β)) (pa pc : Nat) (pk : α) (pv : β)
    (s : rbt α β) (sa : Nat) (sk : α) (sv : β) (sl sr : rbt α β)
    (g : rbt α β → rbt α β) (g1 : rbt α Unit → rbt α Unit)
    (hg : ∀ x, (g x).shape = g1 x.shape) :
    (fixed_black_sibling_right rest pa pc pk pv s sa sk sv sl sr g).shape =
      fixed_black_sibling_right (rest.map frame.shape) 0 pc pk () s.shape 0 sk ()
        sl.shape sr.shape g1 := by
  unfold fixed_black_sibling_right
  simp only [shape_color]
  by_cases h1 : sl.color = RB_TREE_BLACK ∧ sr.color = RB_TREE_BLACK
  · simp only [if_pos h1]
    by_cases h2 : pc = RB_TREE_BLACK
    · simp only [if_pos h2, hg]
      rfl
    · simp only [if_neg h2, shape_plug]
      rfl
  · simp only [if_neg h1]
    by_cases h2 : sl.color = RB_TREE_RED ∧ sr.color = RB_TREE_BLACK
    · simp only [if_pos h2]
      cases sl with
      | nil => simp only [shape_plug]; rfl
      | node la lc lk lv x y => simp only [shape_plug]; rfl
    · simp only [if_neg h2, shape_plug]
      simp only [rbt.shape, shape_paint]

theorem shape_step_right (rest : List (frame α β)) (pa pc : Nat) (pk : α) (pv : β)
    (sib s : rbt α β) (g : rbt α β → rbt α β) (g1 : rbt α Unit → rbt α Unit)
    (hg : ∀ x, (g x).shape = g1 x.shape) :
    (fixed_step_right rest pa pc pk pv sib s g).shape =
      fixed_step_right (rest.map frame.shape) 0 pc pk () sib.shape s.shape g1 := by
  cases sib with
  | nil => simp only [fixed_step_right, shape_plug]; rfl
  | node sa sc sk sv sr sl =>
    simp only [fixed_step_right, rbt.shape]
    by_cases h1 : sc = RB_TREE_RED
    · simp only [if_pos h1]
      cases sl with
      | nil => simp only [shape_plug]; rfl
      | node la lc lk lv x1 y1 =>
        simp only [rbt.shape]
        exact shape_black_sibling_right _ pa RB_TREE_RED pk pv s la lk lv _ _
          (fun x => x) (fun x => x) (fun _ => rfl)
    · simp only [if_neg h1]
      exact shape_black_sibling_right rest pa pc pk pv s sa sk sv _ _ g g1 hg

theorem shape_loop (ctx : List (frame α β)) : ∀ (s : rbt α β),
    (fixed_loop ctx s).shape = fixed_loop (ctx.map frame.shape) s.shape := by
  induction ctx with
  | nil => intro s; rfl
  | cons f fs ih =>
    intro s
    cases f with
    | left pa pc pk pv sib =>
      exact shape_step_left fs pa pc pk pv sib s _ _ ih
    | right pa pc pk pv sib =>
      exact shape_step_right fs pa pc pk pv sib s _ _ ih

theorem shape_tree (ctx : List (frame α β)) (c : Nat) (child : rbt α β) :
    (fixed_tree ctx c child).shape = fixed_tree (ctx.map frame.shape) c child.shape := by
  unfold fixed_tree
  simp only [shape_color]
  split_ifs
  · exact shape_plug ctx child
  · rw [shape_plug, shape_paint]
  · exact shape_loop ctx child

end rb_tree

namespace rb_tree

variable {α β : Type} {N : Nat}

theorem fix_post_of_aux (t t1 : tree α β N) (res : Option (tree α β N)) (T1 : rbt α β)
    (h : fix_post t1 res T1) (ha : aux_same t t1) : fix_post t res T1 := by
  obtain ⟨t2, h1, h2, h3⟩ := h
  exact ⟨t2, h1, h2, aux_same_trans _ _ _ ha h3⟩

theorem fixed_black_sibling_left_spec (t : tree α β N) (rest : List (frame α β))
    (pa pc : Nat) (pk : α) (pv : β) (s : rbt α β) (sa : Nat) (sk : α) (sv : β)
    (sl sr : rbt α β) (n fuel : Nat) (g : rbt α β → rbt α β)
    (h : layout t (plug rest (rbt.node pa pc pk pv s (rbt.node sa RB_TREE_BLACK sk sv sl sr))))
    (hs : valid s n) (hsc : s.color = RB_TREE_BLACK) (hsl : valid sl n) (hsr : valid sr n)
    (hrest : (pc = RB_TREE_RED ∧ ctx_ok rest RB_TREE_RED (n + 1)) ∨
      (pc = RB_TREE_BLACK ∧ ctx_ok rest RB_TREE_BLACK (n + 2)))
    (hleaf : leaf_ok t)
    (IH : pc = RB_TREE_BLACK → ∀ (t2 : tree α β N) (s2 : rbt α β),
      layout t2 (plug rest s2) → valid s2 (n + 1) → s2.color = RB_TREE_BLACK →
      (t2.mem s2.ptr).parent = parent_of rest → leaf_ok t2 →
      fix_post t2 (internal_fixup_tree.loop fuel t2 s2.ptr) (g s2)) :
    fix_post t
      (if (t.mem (t.mem sa).left).color = RB_TREE_BLACK ∧
          (t.mem (t.mem sa).right).color = RB_TREE_BLACK then
        if (t.mem pa).color = RB_TREE_BLACK then
          internal_fixup_tree.loop fuel (set_color t sa RB_TREE_RED) pa
        else some (set_color (set_color t sa RB_TREE_RED) pa RB_TREE_BLACK)
      else internal_fixup_tree.red_nephew t s.ptr pa sa)
      (fixed_black_sibling_left rest pa pc pk pv s sa sk sv sl sr g) := by
  have Fp := layout_focus t rest pa _ pk pv _ _ h
  have Fs := layout_focus t (.right pa pc pk pv s :: rest) sa _ sk sv _ _ h
  have cl : (t.mem (t.mem sa).left).color = sl.color := by
    rw [Fs.left]; exact color_read t _ _ sl Fs.rep_left hleaf
  have cr : (t.mem (t.mem sa).right).color = sr.color := by
    rw [Fs.right]; exact color_read t _ _ sr Fs.rep_right hleaf
  have cp := Fp.color
  rw [cl, cr, cp]
  rcases valid_color sr n hsr with hsrc | hsrc
  · -- case 6
    obtain ⟨ra, rk, rv, rl, rr, rfl⟩ := red_is_node sr hsrc
    have hne : ¬ (sl.color = RB_TREE_BLACK ∧ (rbt.node ra RB_TREE_RED rk rv rl rr).color = RB_TREE_BLACK) := by
      simp [rbt.color, RED_ne_BLACK]
    rw [if_neg hne, internal_fixup_tree.red_nephew, near_nephew_skip_left t rest pa pc pk pv s sa _
      sk sv sl _ h rfl hleaf]
    obtain ⟨t1, q1, q2, q3⟩ := fix_far_nephew_left t rest pa pc pk pv s sa sk sv sl ra rk rv
      rl rr h hsc hleaf
    have e : fixed_black_sibling_left rest pa pc pk pv s sa sk sv sl
        (rbt.node ra RB_TREE_RED rk rv rl rr) g =
        plug rest (rbt.node sa pc sk sv (rbt.node pa RB_TREE_BLACK pk pv s sl) (rbt.node ra RB_TREE_BLACK rk rv rl rr)) := by
      unfold fixed_black_sibling_left
      rw [if_neg (fun hh => RED_ne_BLACK hh.2), if_neg (fun hh => RED_ne_BLACK hh.2)]
      rfl
    rw [e]
    exact ⟨t1, q1, q2, q3⟩
  · rcases valid_color sl n hsl with hslc | hslc
    · -- case 5
      obtain ⟨la, lk, lv, ll, lr, rfl⟩ := red_is_node sl hslc
      have hne : ¬ ((rbt.node la RB_TREE_RED lk lv ll lr).color = RB_TREE_BLACK ∧ sr.color = RB_TREE_BLACK) := by
        simp [rbt.color, RED_ne_BLACK]
      rw [if_neg hne, internal_fixup_tree.red_nephew]
      obtain ⟨t1, p1, p2, p3⟩ := fix_near_nephew_left t rest pa pc pk pv s sa sk sv la lk lv
        ll lr sr h hsrc hleaf
      rw [p1]
      obtain ⟨t2, q1, q2, q3⟩ := fix_far_nephew_left t1 rest pa pc pk pv s la lk lv ll sa sk sv
        lr sr p2 hsc (aux_same_leaf_ok _ _ p3 hleaf)
      have e : fixed_black_sibling_left rest pa pc pk pv s sa sk sv
          (rbt.node la RB_TREE_RED lk lv ll lr) sr g =
          plug rest (rbt.node la pc lk lv (rbt.node pa RB_TREE_BLACK pk pv s ll) (rbt.node sa RB_TREE_BLACK sk sv lr sr)) := by
        unfold fixed_black_sibling_left
        rw [if_neg (fun hh => RED_ne_BLACK hh.1), if_pos ⟨rfl, hsrc⟩]
      rw [e]
      exact ⟨t2, q1, q2, aux_same_trans _ _ _ p3 q3⟩
    · -- cases 3 and 4
      have hy : sl.color = RB_TREE_BLACK ∧ sr.color = RB_TREE_BLACK := ⟨hslc, hsrc⟩
      rw [if_pos hy]
      have L1 := set_color_spec t (.right pa pc pk pv s :: rest) sa _ RB_TREE_RED sk sv _ _ h
      have A1 := set_color_aux t sa RB_TREE_RED Fs.ne_leaf
      have hvs : valid (rbt.node sa RB_TREE_RED sk sv sl sr) n :=
        Or.inl ⟨rfl, hslc, hsrc, hsl, hsr⟩
      rcases hrest with ⟨h1, h2⟩ | ⟨h1, h2⟩
      · -- case 4
        subst h1
        rw [if_neg RED_ne_BLACK]
        have L2 := set_color_spec _ rest pa _ RB_TREE_BLACK pk pv _ _ L1
        have e : fixed_black_sibling_left rest pa RB_TREE_RED pk pv s sa sk sv sl sr g =
            plug rest (rbt.node pa RB_TREE_BLACK pk pv s (rbt.node sa RB_TREE_RED sk sv sl sr)) := by
          unfold fixed_black_sibling_left
          rw [if_pos ⟨hslc, hsrc⟩, if_neg RED_ne_BLACK]
        rw [e]
        exact ⟨_, rfl, L2, aux_same_trans _ _ _ A1 (set_color_aux _ pa _ Fp.ne_leaf)⟩
      · -- case 3
        subst h1
        rw [if_pos rfl]
        have F1 := layout_focus _ rest pa _ pk pv _ _ L1
        have hrec := IH rfl (set_color t sa RB_TREE_RED)
          (rbt.node pa RB_TREE_BLACK pk pv s (rbt.node sa RB_TREE_RED sk sv sl sr)) L1
          (Or.inr ⟨rfl, n, rfl, hs, hvs⟩) rfl F1.parent (aux_same_leaf_ok _ _ A1 hleaf)
        have e : fixed_black_sibling_left rest pa RB_TREE_BLACK pk pv s sa sk sv sl sr g =
            g (rbt.node pa RB_TREE_BLACK pk pv s (rbt.node sa RB_TREE_RED sk sv sl sr)) := by
          unfold fixed_black_sibling_left
          rw [if_pos ⟨hslc, hsrc⟩, if_pos rfl]
        rw [e]
        exact fix_post_of_aux _ _ _ _ hrec A1

theorem fixed_step_left_spec (t : tree α β N) (rest : List (frame α β))
    (pa pc : Nat) (pk : α) (pv : β) (sib s : rbt α β) (n fuel : Nat) (g : rbt α β → rbt α β)
    (h : layout t (plug (.left pa pc pk pv sib :: rest) s))
    (hpar : (t.mem s.ptr).parent = pa)
    (hs : valid s n) (hsc : s.color = RB_TREE_BLACK)
    (hctx : ctx_ok (.left pa pc pk pv sib :: rest) RB_TREE_BLACK (n + 1))
    (hleaf : leaf_ok t)
    (IH : ∀ (t2 : tree α β N) (s2 : rbt α β),
      layout t2 (plug rest s2) → valid s2 (n + 1) → s2.color = RB_TREE_BLACK →
      (t2.mem s2.ptr).parent = parent_of rest → leaf_ok t2 →
      ctx_ok rest RB_TREE_BLACK (n + 2) →
      fix_post t2 (internal_fixup_tree.loop fuel t2 s2.ptr) (g s2)) :
    fix_post t (internal_fixup_tree.loop (fuel + 1) t s.ptr)
      (fixed_step_left rest pa pc pk pv sib s g) := by
  have hsibv : valid sib (n + 1) := by
    rcases hctx with ⟨_, _, _, h4, _⟩ | ⟨_, h4, _⟩
    · exact h4
    · exact h4
  obtain ⟨sa, sc, sk, sv, sl, sr, rfl⟩ := succ_is_node sib n hsibv
  have h0 : layout t (plug rest (rbt.node pa pc pk pv s (rbt.node sa sc sk sv sl sr))) := h
  have Fp := layout_focus t rest pa _ pk pv _ _ h0
  have Fs := layout_focus t (.right pa pc pk pv s :: rest) sa _ sk sv _ _ h0
  have e0 : (t.mem s.ptr).color = RB_TREE_BLACK := by
    rw [color_read t _ _ s Fp.rep_left hleaf]; exact hsc
  have e1 := Fp.left
  have e2 := Fp.right
  simp only [ptr_node] at e2
  have n1 : pa ≠ NULL := Fp.ne_null
  have n2 : sa ≠ s.ptr := by
    have := Fp.right_ne_left
    simp only [ptr_node] at this
    exact this Fs.ne_leaf
  have hsib0 : (if (t.mem pa).left = s.ptr then (t.mem pa).right else (t.mem pa).left) = sa := by
    simp [e1, e2, n2]
  rw [internal_fixup_tree.loop]
  simp only [hpar, e0, ne_eq, not_true_eq_false, if_false, n1, hsib0]
  rcases valid_color _ _ hsibv with hc | hc
  · -- the sibling is red
    simp only [rbt.color] at hc
    subst hc
    rcases hctx with ⟨_, _, h3, _, _⟩ | ⟨hpc, _, hrest⟩
    · exact absurd h3 RED_ne_BLACK
    simp only [frame.color] at hpc
    subst hpc
    rcases hsibv with ⟨_, hslc, hsrc, hvsl, hvsr⟩ | ⟨hh, _⟩
    · obtain ⟨la, lc, lk, lv, ll, lr, rfl⟩ := succ_is_node sl n hvsl
      simp only [rbt.color] at hslc
      subst hslc
      obtain ⟨hvll, hvlr⟩ := black_succ _ _ _ _ _ _ n hvsl rfl
      obtain ⟨t1, p1, p2, p3⟩ := fix_red_sibling_left t rest pa pk pv s sa sk sv _ sr h0
      rw [p1]
      have hb := fixed_black_sibling_left_spec t1 (.left sa RB_TREE_BLACK sk sv sr :: rest) pa
        RB_TREE_RED pk pv s la lk lv ll lr n fuel (fun x => x) p2 hs hsc hvll hvlr
        (Or.inl ⟨rfl, Or.inr ⟨rfl, hvsr, hrest⟩⟩) (aux_same_leaf_ok _ _ p3 hleaf)
        (fun hh => absurd hh RED_ne_BLACK)
      have e : fixed_step_left rest pa RB_TREE_BLACK pk pv
          (rbt.node sa RB_TREE_RED sk sv (rbt.node la RB_TREE_BLACK lk lv ll lr) sr) s g =
          fixed_black_sibling_left (.left sa RB_TREE_BLACK sk sv sr :: rest) pa RB_TREE_RED
            pk pv s la lk lv ll lr (fun x => x) := by
        rfl
      rw [e]
      exact fix_post_of_aux _ _ _ _ hb p3
    · exact absurd hh RED_ne_BLACK
  · -- the sibling is black
    simp only [rbt.color] at hc
    subst hc
    rw [red_sibling_skip t _ _ _ (by rw [Fs.color]; exact fun e => RED_ne_BLACK e.symm)]
    obtain ⟨hvsl, hvsr⟩ := black_succ _ _ _ _ _ _ n hsibv rfl
    have hrest : (pc = RB_TREE_RED ∧ ctx_ok rest RB_TREE_RED (n + 1)) ∨
        (pc = RB_TREE_BLACK ∧ ctx_ok rest RB_TREE_BLACK (n + 2)) := by
      rcases hctx with ⟨h1, _, _, _, h5⟩ | ⟨h1, _, h5⟩
      · exact Or.inl ⟨h1, h5⟩
      · exact Or.inr ⟨h1, h5⟩
    have e : fixed_step_left rest pa pc pk pv (rbt.node sa RB_TREE_BLACK sk sv sl sr) s g =
        fixed_black_sibling_left rest pa pc pk pv s sa sk sv sl sr g := by
      rfl
    rw [e]
    exact fixed_black_sibling_left_spec t rest pa pc pk pv s sa sk sv sl sr n fuel g h0 hs hsc
      hvsl hvsr hrest hleaf (fun hpc t2 s2 a1 a2 a3 a4 a5 => IH t2 s2 a1 a2 a3 a4 a5 (by
        rcases hrest with ⟨h1, _⟩ | ⟨_, h5⟩
        · exact absurd (h1.symm.trans hpc) RED_ne_BLACK
        · exact h5))

theorem fixed_black_sibling_right_spec (t : tree α β N) (rest : List (frame α β))
    (pa pc : Nat) (pk : α) (pv : β) (s : rbt α β) (sa : Nat) (sk : α) (sv : β)
    (sl sr : rbt α β) (n fuel : Nat) (g : rbt α β → rbt α β)
    (h : layout t (plug rest (rbt.node pa pc pk pv (rbt.node sa RB_TREE_BLACK sk sv sr sl) s)))
    (hs : valid s n) (hsc : s.color = RB_TREE_BLACK) (hsl : valid sl n) (hsr : valid sr n)
    (hrest : (pc = RB_TREE_RED ∧ ctx_ok rest RB_TREE_RED (n + 1)) ∨
      (pc = RB_TREE_BLACK ∧ ctx_ok rest RB_TREE_BLACK (n + 2)))
    (hleaf : leaf_ok t)
    (IH : pc = RB_TREE_BLACK → ∀ (t2 : tree α β N) (s2 : rbt α β),
      layout t2 (plug rest s2) → valid s2 (n + 1) → s2.color = RB_TREE_BLACK →
      (t2.mem s2.ptr).parent = parent_of rest → leaf_ok t2 →
      fix_post t2 (internal_fixup_tree.loop fuel t2 s2.ptr) (g s2)) :
    fix_post t
      (if (t.mem (t.mem sa).left).color = RB_TREE_BLACK ∧
          (t.mem (t.mem sa).right).color = RB_TREE_BLACK then
        if (t.mem pa).color = RB_TREE_BLACK then
          internal_fixup_tree.loop fuel (set_color t sa RB_TREE_RED) pa
        else some (set_color (set_color t sa RB_TREE_RED) pa RB_TREE_BLACK)
      else internal_fixup_tree.red_nephew t s.ptr pa sa)
      (fixed_black_sibling_right rest pa pc pk pv s sa sk sv sl sr g) := by
  have Fp := layout_focus t rest pa _ pk pv _ _ h
  have Fs := layout_focus t (.left pa pc pk pv s :: rest) sa _ sk sv _ _ h
  have cl : (t.mem (t.mem sa).right).color = sl.color := by
    rw [Fs.right]; exact color_read t _ _ sl Fs.rep_right hleaf
  have cr : (t.mem (t.mem sa).left).color = sr.color := by
    rw [Fs.left]; exact color_read t _ _ sr Fs.rep_left hleaf
  have cp := Fp.color
  rw [cl, cr, cp]
  rcases valid_color sr n hsr with hsrc | hsrc
  · -- case 6
    obtain ⟨ra, rk, rv, rr, rl, rfl⟩ := red_is_node sr hsrc
    have hne : ¬ ((rbt.node ra RB_TREE_RED rk rv rr rl).color = RB_TREE_BLACK ∧ sl.color = RB_TREE_BLACK) := by
      simp [rbt.color, RED_ne_BLACK]
    rw [if_neg hne, internal_fixup_tree.red_nephew, near_nephew_skip_right t rest pa pc pk pv s sa _
      sk sv sl _ h rfl hleaf]
    obtain ⟨t1, q1, q2, q3⟩ := fix_far_nephew_right t rest pa pc pk pv s sa sk sv sl ra rk rv
      rl rr h hsc hleaf
    have e : fixed_black_sibling_right rest pa pc pk pv s sa sk sv sl
        (rbt.node ra RB_TREE_RED rk rv rr rl) g =
        plug rest (rbt.node sa pc sk sv (rbt.node ra RB_TREE_BLACK rk rv rr rl) (rbt.node pa RB_TREE_BLACK pk pv sl s)) := by
      unfold fixed_black_sibling_right
      rw [if_neg (fun hh => RED_ne_BLACK hh.2), if_neg (fun hh => RED_ne_BLACK hh.2)]
      rfl
    rw [e]
    exact ⟨t1, q1, q2, q3⟩
  · rcases valid_color sl n hsl with hslc | hslc
    · -- case 5
      obtain ⟨la, lk, lv, lr, ll, rfl⟩ := red_is_node sl hslc
      have hne : ¬ (sr.color = RB_TREE_BLACK ∧ (rbt.node la RB_TREE_RED lk lv lr ll).color = RB_TREE_BLACK) := by
        simp [rbt.color, RED_ne_BLACK]
      rw [if_neg hne, internal_fixup_tree.red_nephew]
      obtain ⟨t1, p1, p2, p3⟩ := fix_near_nephew_right t rest pa pc pk pv s sa sk sv la lk lv
        ll lr sr h hsrc hleaf
      rw [p1]
      obtain ⟨t2, q1, q2, q3⟩ := fix_far_nephew_right t1 rest pa pc pk pv s la lk lv ll sa sk sv
        lr sr p2 hsc (aux_same_leaf_ok _ _ p3 hleaf)
      have e : fixed_black_sibling_right rest pa pc pk pv s sa sk sv
          (rbt.node la RB_TREE_RED lk lv lr ll) sr g =
          plug rest (rbt.node la pc lk lv (rbt.node sa RB_TREE_BLACK sk sv sr lr) (rbt.node pa RB_TREE_BLACK pk pv ll s)) := by
        unfold fixed_black_sibling_right
        rw [if_neg (fun hh => RED_ne_BLACK hh.1), if_pos ⟨rfl, hsrc⟩]
      rw [e]
      exact ⟨t2, q1, q2, aux_same_trans _ _ _ p3 q3⟩
    · -- cases 3 and 4
      have hy : sr.color = RB_TREE_BLACK ∧ sl.color = RB_TREE_BLACK := ⟨hsrc, hslc⟩
      rw [if_pos hy]
      have L1 := set_color_spec t (.left pa pc pk pv s :: rest) sa _ RB_TREE_RED sk sv _ _ h
      have A1 := set_color_aux t sa RB_TREE_RED Fs.ne_leaf
      have hvs : valid (rbt.node sa RB_TREE_RED sk sv sr sl) n :=
        Or.inl ⟨rfl, hsrc, hslc, hsr, hsl⟩
      rcases hrest with ⟨h1, h2⟩ | ⟨h1, h2⟩
      · -- case 4
        subst h1
        rw [if_neg RED_ne_BLACK]
        have L2 := set_color_spec _ rest pa _ RB_TREE_BLACK pk pv _ _ L1
        have e : fixed_black_sibling_right rest pa RB_TREE_RED pk pv s sa sk sv sl sr g =
            plug rest (rbt.node pa RB_TREE_BLACK pk pv (rbt.node sa RB_TREE_RED sk sv sr sl) s) := by
          unfold fixed_black_sibling_right
          rw [if_pos ⟨hslc, hsrc⟩, if_neg RED_ne_BLACK]
        rw [e]
        exact ⟨_, rfl, L2, aux_same_trans _ _ _ A1 (set_color_aux _ pa _ Fp.ne_leaf)⟩
      · -- case 3
        subst h1
        rw [if_pos rfl]
        have F1 := layout_focus _ rest pa _ pk pv _ _ L1
        have hrec := IH rfl (set_color t sa RB_TREE_RED)
          (rbt.node pa RB_TREE_BLACK pk pv (rbt.node sa RB_TREE_RED sk sv sr sl) s) L1
          (Or.inr ⟨rfl, n, rfl, hvs, hs⟩) rfl F1.parent (aux_same_leaf_ok _ _ A1 hleaf)
        have e : fixed_black_sibling_right rest pa RB_TREE_BLACK pk pv s sa sk sv sl sr g =
            g (rbt.node pa RB_TREE_BLACK pk pv (rbt.node sa RB_TREE_RED sk sv sr sl) s) := by
          unfold fixed_black_sibling_right
          rw [if_pos ⟨hslc, hsrc⟩, if_pos rfl]
        rw [e]
        exact fix_post_of_aux _ _ _ _ hrec A1

theorem fixed_step_right_spec (t : tree α β N) (rest : List (frame α β))
    (pa pc : Nat) (pk : α) (pv : β) (sib s : rbt α β) (n fuel : Nat) (g : rbt α β → rbt α β)
    (h : layout t (plug (.right pa pc pk pv sib :: rest) s))
    (hpar : (t.mem s.ptr).parent = pa)
    (hs : valid s n) (hsc : s.color = RB_TREE_BLACK)
    (hctx : ctx_ok (.right pa pc pk pv sib :: rest) RB_TREE_BLACK (n + 1))
    (hleaf : leaf_ok t)
    (IH : ∀ (t2 : tree α β N) (s2 : rbt α β),
      layout t2 (plug rest s2) → valid s2 (n + 1) → s2.color = RB_TREE_BLACK →
      (t2.mem s2.ptr).parent = parent_of rest → leaf_ok t2 →
      ctx_ok rest RB_TREE_BLACK (n + 2) →
      fix_post t2 (internal_fixup_tree.loop fuel t2 s2.ptr) (g s2)) :
    fix_post t (internal_fixup_tree.loop (fuel + 1) t s.ptr)
      (fixed_step_right rest pa pc pk pv sib s g) := by
  have hsibv : valid sib (n + 1) := by
    rcases hctx with ⟨_, _, _, h4, _⟩ | ⟨_, h4, _⟩
    · exact h4
    · exact h4
  obtain ⟨sa, sc, sk, sv, sr, sl, rfl⟩ := succ_is_node sib n hsibv
  have h0 : layout t (plug rest (rbt.node pa pc pk pv (rbt.node sa sc sk sv sr sl) s)) := h
  have Fp := layout_focus t rest pa _ pk pv _ _ h0
  have Fs := layout_focus t (.left pa pc pk pv s :: rest) sa _ sk sv _ _ h0
  have e0 : (t.mem s.ptr).color = RB_TREE_BLACK := by
    rw [color_read t _ _ s Fp.rep_right hleaf]; exact hsc
  have e1 := Fp.right
  have e2 := Fp.left
  simp only [ptr_node] at e2
  have n1 : pa ≠ NULL := Fp.ne_null
  have n2 : sa ≠ s.ptr := by
    have := Fp.left_ne_right
    simp only [ptr_node] at this
    exact this Fs.ne_leaf
  have hsib0 : (if (t.mem pa).left = s.ptr then (t.mem pa).right else (t.mem pa).left) = sa := by
    simp [e1, e2, n2]
  rw [internal_fixup_tree.loop]
  simp only [hpar, e0, ne_eq, not_true_eq_false, if_false, n1, hsib0]
  rcases valid_color _ _ hsibv with hc | hc
  · -- the sibling is red
    simp only [rbt.color] at hc
    subst hc
    rcases hctx with ⟨_, _, h3, _, _⟩ | ⟨hpc, _, hrest⟩
    · exact absurd h3 RED_ne_BLACK
    simp only [frame.color] at hpc
    subst hpc
    rcases hsibv with ⟨_, hsrc, hslc, hvsr, hvsl⟩ | ⟨hh, _⟩
    · obtain ⟨la, lc, lk, lv, lr, ll, rfl⟩ := succ_is_node sl n hvsl
      simp only [rbt.color] at hslc
      subst hslc
      obtain ⟨hvlr, hvll⟩ := black_succ _ _ _ _ _ _ n hvsl rfl
      obtain ⟨t1, p1, p2, p3⟩ := fix_red_sibling_right t rest pa pk pv s sa sk sv _ sr h0
      rw [p1]
      have hb := fixed_black_sibling_right_spec t1 (.right sa RB_TREE_BLACK sk sv sr :: rest) pa
        RB_TREE_RED pk pv s la lk lv ll lr n fuel (fun x => x) p2 hs hsc hvll hvlr
        (Or.inl ⟨rfl, Or.inr ⟨rfl, hvsr, hrest⟩⟩) (aux_same_leaf_ok _ _ p3 hleaf)
        (fun hh => absurd hh RED_ne_BLACK)
      have e : fixed_step_right rest pa RB_TREE_BLACK pk pv
          (rbt.node sa RB_TREE_RED sk sv sr (rbt.node la RB_TREE_BLACK lk lv lr ll)) s g =
          fixed_black_sibling_right (.right sa RB_TREE_BLACK sk sv sr :: rest) pa RB_TREE_RED
            pk pv s la lk lv ll lr (fun x => x) := by
        rfl
      rw [e]
      exact fix_post_of_aux _ _ _ _ hb p3
    · exact absurd hh RED_ne_BLACK
  · -- the sibling is black
    simp only [rbt.color] at hc
    subst hc
    rw [red_sibling_skip t _ _ _ (by rw [Fs.color]; exact fun e => RED_ne_BLACK e.symm)]
    obtain ⟨hvsr, hvsl⟩ := black_succ _ _ _ _ _ _ n hsibv rfl
    have hrest : (pc = RB_TREE_RED ∧ ctx_ok rest RB_TREE_RED (n + 1)) ∨
        (pc = RB_TREE_BLACK ∧ ctx_ok rest RB_TREE_BLACK (n + 2)) := by
      rcases hctx with ⟨h1, _, _, _, h5⟩ | ⟨h1, _, h5⟩
      · exact Or.inl ⟨h1, h5⟩
      · exact Or.inr ⟨h1, h5⟩
    have e : fixed_step_right rest pa pc pk pv (rbt.node sa RB_TREE_BLACK sk sv sr sl) s g =
        fixed_black_sibling_right rest pa pc pk pv s sa sk sv sl sr g := by
      rfl
    rw [e]
    exact fixed_black_sibling_right_spec t rest pa pc pk pv s sa sk sv sl sr n fuel g h0 hs hsc
      hvsl hvsr hrest hleaf (fun hpc t2 s2 a1 a2 a3 a4 a5 => IH t2 s2 a1 a2 a3 a4 a5 (by
        rcases hrest with ⟨h1, _⟩ | ⟨_, h5⟩
        · exact absurd (h1.symm.trans hpc) RED_ne_BLACK
        · exact h5))

theorem fixed_loop_spec : ∀ (len : Nat) (ctx : List (frame α β)) (t : tree α β N)
    (s : rbt α β) (n fuel : Nat),
    ctx.length ≤ len → len < fuel →
    layout t (plug ctx s) → (t.mem s.ptr).parent = parent_of ctx →
    valid s n → s.color = RB_TREE_BLACK → ctx_ok ctx RB_TREE_BLACK (n + 1) → leaf_ok t →
    fix_post t (internal_fixup_tree.loop fuel t s.ptr) (fixed_loop ctx s) := by
  intro len
  induction len using Nat.strong_induction_on with
  | _ len IH =>
  intro ctx t s n fuel hlen hfuel h hpar hv hc hctx hleaf
  obtain ⟨fuel, rfl⟩ : ∃ f, fuel = f + 1 := ⟨fuel - 1, by omega⟩
  match ctx, hlen, h, hpar, hctx with
  | [], _, h, hpar, _ =>
    have e0 : (t.mem s.ptr).color = RB_TREE_BLACK := by
      rw [color_read t _ _ s h.1 hleaf]; exact hc
    have heq : internal_fixup_tree.loop (fuel + 1) t s.ptr = some t := by
      rw [internal_fixup_tree.loop]
      simp only [parent_of] at hpar
      simp [e0, hpar]
    rw [heq]
    exact ⟨t, rfl, h, aux_same_refl t⟩
  | f :: rest, hlen, h, hpar, hctx =>
    have IH2 : ∀ (t2 : tree α β N) (s2 : rbt α β),
        layout t2 (plug rest s2) → valid s2 (n + 1) → s2.color = RB_TREE_BLACK →
        (t2.mem s2.ptr).parent = parent_of rest → leaf_ok t2 →
        ctx_ok rest RB_TREE_BLACK (n + 2) →
        fix_post t2 (internal_fixup_tree.loop fuel t2 s2.ptr) (fixed_loop rest s2) := by
      intro t2 s2 a1 a2 a3 a4 a5 a6
      simp only [List.length_cons] at hlen
      exact IH (len - 1) (by omega) rest t2 s2 (n + 1) fuel (by omega) (by omega) a1 a4 a2 a3 a6 a5
    cases f with
    | left pa pc pk pv sib =>
      exact fixed_step_left_spec t rest pa pc pk pv sib s n fuel _ h hpar hv hc hctx hleaf IH2
    | right pa pc pk pv sib =>
      exact fixed_step_right_spec t rest pa pc pk pv sib s n fuel _ h hpar hv hc hctx hleaf IH2

end rb_tree

namespace rb_tree

variable {α β : Type} [LinearOrder α] {N : Nat}

/-- The tree `internal_fixup_tree` leaves behind: a node with at most one
child is taken out of a valid tree and the result holds the tree
`fixed_tree` computes. -/
theorem fixed_tree_spec (t : tree α β N) (ctx : List (frame α β)) (a c : Nat) (k : α)
    (v : β) (l r child : rbt α β) (n fuel : Nat)
    (h : layout t (plug ctx (.node a c k v l r)))
    (hch : (l = .nil ∧ child = r) ∨ (r = .nil ∧ child = l))
    (hv : valid (.node a c k v l r) n) (hctx : ctx_ok ctx c n) (hleaf : leaf_ok t)
    (hfuel : ctx.length < fuel) :
    fix_post t (internal_fixup_tree fuel t a) (fixed_tree ctx c child) := by
  have F := layout_focus t ctx a c k v l r h
  have hchild : (if (t.mem a).left = leaf then (t.mem a).right else (t.mem a).left) =
      child.ptr := by
    rw [F.left, F.right]
    rcases hch with ⟨rfl, rfl⟩ | ⟨rfl, rfl⟩
    · simp
    · by_cases e : child.ptr = leaf
      · simp [e]
      · simp [e]
  have hassert : (t.mem a).left = leaf ∨ (t.mem a).right = leaf := by
    rw [F.left, F.right]
    rcases hch with ⟨rfl, _⟩ | ⟨rfl, _⟩
    · left; rfl
    · right; rfl
  have hch1 : child = l ∨ child = r := by
    rcases hch with ⟨_, e⟩ | ⟨_, e⟩
    · exact Or.inr e
    · exact Or.inl e
  obtain ⟨L1, P1, C1, A1⟩ := replace_nodes_spec t ctx a c k v l r child h hch1
  have hleaf1 := aux_same_leaf_ok _ _ A1 hleaf
  have hcv : ∀ m, valid l m → valid r m → valid child m := by
    intro m h1 h2
    rcases hch1 with rfl | rfl
    · exact h1
    · exact h2
  have hcol : ((internal_replace_nodes t a child.ptr).mem child.ptr).color = child.color :=
    color_read _ _ _ child (layout_split _ ctx child L1).2.1 hleaf1
  rw [internal_fixup_tree]
  simp only [hassert, not_true_eq_false, if_false, hchild, C1, hcol]
  rcases hv with ⟨h1, _, _, _, _⟩ | ⟨h1, m, rfl, h4, h5⟩
  · -- a red node is taken out
    subst h1
    have e : fixed_tree ctx RB_TREE_RED child = plug ctx child := by
      unfold fixed_tree
      rw [if_pos rfl]
    rw [if_pos rfl, e]
    exact ⟨_, rfl, L1, A1⟩
  · subst h1
    rw [if_neg (fun e => RED_ne_BLACK e.symm)]
    rcases valid_color child m (hcv m h4 h5) with hc | hc
    · -- the child is red
      obtain ⟨ca, ck, cv, cl, cr, rfl⟩ := red_is_node child hc
      have L2 := set_color_spec _ ctx ca _ RB_TREE_BLACK ck cv cl cr L1
      have F1 := layout_focus _ ctx ca _ ck cv cl cr L1
      have e : fixed_tree ctx RB_TREE_BLACK (.node ca RB_TREE_RED ck cv cl cr) =
          plug ctx (.node ca RB_TREE_BLACK ck cv cl cr) := rfl
      rw [if_pos hc, e]
      exact ⟨_, rfl, L2, aux_same_trans _ _ _ A1 (set_color_aux _ ca _ F1.ne_leaf)⟩
    · -- the child is black
      have hnr : ¬ child.color = RB_TREE_RED := by
        rw [hc]; exact fun e => RED_ne_BLACK e.symm
      have e : fixed_tree ctx RB_TREE_BLACK child = fixed_loop ctx child := by
        unfold fixed_tree
        rw [if_neg (fun e => RED_ne_BLACK e.symm), if_neg hnr]
      rw [if_neg hnr, e]
      have hloop := fixed_loop_spec ctx.length ctx _ child m fuel (le_refl _) hfuel L1 P1
        (hcv m h4 h5) hc hctx hleaf1
      exact fix_post_of_aux _ _ _ _ hloop A1

/-- The end of `remove_node` with the tree it leaves behind: the node `p`,
which has at most one child, is taken out and the tree structure then holds
the tree `fixed_tree` computes. -/
theorem remove_finish_fixed (t0 t1 : tree α β N) (T : rbt α β) (key : α)
    (ctxf : List (frame α β)) (p cf : Nat) (kf : α) (vf : β) (lf rf child : rbt α β)
    (n fuel : Nat) (h0 : is_rb_tree t0 T)
    (hl1 : layout t1 (plug ctxf (.node p cf kf vf lf rf)))
    (hch : (lf = .nil ∧ child = rf) ∨ (rf = .nil ∧ child = lf))
    (ha : aux_same t0 t1)
    (hv : valid (.node p cf kf vf lf rf) n) (hctx : ctx_ok ctxf cf n)
    (hfuel : ctxf.length < fuel)
    (hk : ∃ A B, T.keys = A ++ key :: B ∧ (plug ctxf child).keys = A ++ B)
    (hx : ∃ X Y, T.addrs = X ++ p :: Y ∧ (plug ctxf child).addrs = X ++ Y) :
    ∃ t3, (match internal_fixup_tree fuel t1 p with
        | none => none
        | some t2 =>
          match fixed_alloc.free_elem t2.allocator p with
          | none => none
          | some al => some ({ t2 with allocator := al, count := t2.count - 1 }, true)) =
        some (t3, true) ∧
      is_rb_tree t3 (fixed_tree ctxf cf child) ∧
      (fixed_tree ctxf cf child).entries = (plug ctxf child).entries ∧
      t3.count + 1 = t0.count ∧
      (∀ q, fixed_alloc.is_live t3.allocator q ↔ q ≠ p ∧ fixed_alloc.is_live t0.allocator q) := by
  obtain ⟨t3, T2, e, g1, g2, g3, g4, _⟩ := remove_finish t0 t1 T key ctxf p cf kf vf lf rf child
    n fuel h0 hl1 hch ha hv hctx hfuel hk hx
  obtain ⟨t2, e2, L2, _⟩ := fixed_tree_spec t1 ctxf p cf kf vf lf rf child n fuel hl1 hch hv hctx
    (aux_same_leaf_ok _ _ ha h0.2.2.1) hfuel
  have hT2 : T2 = fixed_tree ctxf cf child := by
    rw [e2] at e
    simp only [] at e
    cases hfr : fixed_alloc.free_elem t2.allocator p with
    | none => rw [hfr] at e; simp at e
    | some al =>
      rw [hfr] at e
      simp only [Option.some.injEq, Prod.mk.injEq, and_true] at e
      have L3 : layout t2 T2 := by
        have := g1.1
        rw [← e] at this
        exact this
      exact layout_unique t2 _ _ L2 L3
  subst hT2
  exact ⟨t3, e, g1, g2, g3, g4⟩

/-- The frames of two paths that differ in the address and the value of one
step have the same shape. -/
theorem shape_spine (c1 ctx : List (frame α β)) (a1 a2 c : Nat) (k : α) (v1 v2 : β)
    (l : rbt α β) :
    (c1 ++ frame.right a1 c k v1 l :: ctx).map frame.shape =
      (c1 ++ frame.right a2 c k v2 l :: ctx).map frame.shape := by
  simp only [List.map_append, List.map_cons, frame.shape]

/-- Both branches of `remove_node` on a node with two children, side by
side: the branch that swaps the keys takes out the successor `rc`, the branch
that relinks the successor takes out the node `a`, and the fix-up starts from
paths of the same shape. -/
theorem remove_two_children (t : tree α β N) (T : rbt α β) (key : α) (fuel : Nat)
    (ctx : List (frame α β)) (a c : Nat) (k : α) (v : β) (l r : rbt α β)
    (h : is_rb_tree t T) (hf : t.count < fuel)
    (hdes : descend key [] T = (ctx, .node a c k v l r))
    (hln : l ≠ .nil) (hrn : r ≠ .nil) :
    ∃ (c1 : List (frame α β)) (rc rcc : Nat) (rk : α) (rv : β) (rr : rbt α β)
      (t1 t2 : tree α β N),
      k = key ∧
      remove_node false fuel t key = some (t1, true) ∧
      remove_node true fuel t key = some (t2, true) ∧
      is_rb_tree t1 (fixed_tree (c1 ++ .right a c rk v l :: ctx) rcc rr) ∧
      is_rb_tree t2 (fixed_tree (c1 ++ .right rc c rk rv l :: ctx) rcc rr) ∧
      T.entries = (entries_before ctx ++ l.entries) ++
        (a, key, v) :: (rc, rk, rv) :: (rr.entries ++ (entries_after c1 ++ entries_after ctx)) ∧
      (fixed_tree (c1 ++ .right a c rk v l :: ctx) rcc rr).entries =
        (entries_before ctx ++ l.entries) ++
          ((a, rk, v) :: (rr.entries ++ (entries_after c1 ++ entries_after ctx))) ∧
      (fixed_tree (c1 ++ .right rc c rk rv l :: ctx) rcc rr).entries =
        (entries_before ctx ++ l.entries) ++
          ((rc, rk, rv) :: (rr.entries ++ (entries_after c1 ++ entries_after ctx))) ∧
      (∀ q, fixed_alloc.is_live t1.allocator q ↔ q ≠ rc ∧ fixed_alloc.is_live t.allocator q) ∧
      (∀ q, fixed_alloc.is_live t2.allocator q ↔ q ≠ a ∧ fixed_alloc.is_live t.allocator q) ∧
      t1.count + 1 = t.count ∧ t2.count + 1 = t.count := by
  have h0 := set_key_leaf_ok t T key h
  obtain ⟨hlay, hinv, hleaf, hal, hlive, hcount⟩ := h
  have hfind := find_node_descend t T key fuel hlay (by omega)
  have hplug := descend_plug key T ([] : List (frame α β))
  rw [hdes] at hplug hfind
  simp only [plug] at hplug hfind
  obtain ⟨rfl, _⟩ := descend_node key T _ _ _ _ _ _ _ _ hdes
  have hlay0 : layout (set_key t leaf k) (plug ctx (.node a c k v l r)) := by
    rw [hplug]; exact h0.1
  have F := layout_focus _ ctx a c k v l r hlay0
  obtain ⟨n0, hv0⟩ := valid_of_invariants T hinv
  have hl0 : l.ptr = leaf ↔ l = .nil := ptr_eq_leaf_iff _ _ _ _ F.rep_left
  have hr0 : r.ptr = leaf ↔ r = .nil := ptr_eq_leaf_iff _ _ _ _ F.rep_right
  have hcond : ¬ ((set_key t leaf k).mem a).left = leaf ∧
      ¬ ((set_key t leaf k).mem a).right = leaf := by
    rw [F.left, F.right, hl0, hr0]
    exact ⟨hln, hrn⟩
  have hminn : ∃ rc rcc rk rv rr, (min_path r).2 = .node rc rcc rk rv .nil rr := by
    cases r with
    | nil => exact absurd rfl hrn
    | node ra rc0 rk0 rv0 rl0 rr0 => exact min_path_node ra rc0 rk0 rv0 rl0 rr0
  obtain ⟨rc, rcc, rk, rv, rr, hmin⟩ := hminn
  have hpr := min_path_plug r
  have hl := min_path_left r
  rw [hmin] at hpr
  generalize (min_path r).1 = c1 at hpr hl
  have hrlen : r.addrs.length < fuel := by
    have : r.addrs.length ≤ T.addrs.length := by
      rw [← hplug, (addrs_plug ctx _).length_eq]
      simp only [rbt.addrs, List.length_append, List.length_cons]
      omega
    omega
  have hml := most_left_spec (set_key t leaf k) r (.right a c k v l :: ctx) fuel hrn hlay0 hrlen
  rw [hmin] at hml
  simp only [ptr_node] at hml
  have hTB : plug (c1 ++ .right a c k v l :: ctx) (.node rc rcc rk rv .nil rr) = T := by
    rw [plug_spine, hpr]; exact hplug
  have hlayB : layout (set_key t leaf k)
      (plug (c1 ++ .right a c k v l :: ctx) (.node rc rcc rk rv .nil rr)) := by
    rw [hTB]; exact h0.1
  obtain ⟨n, hvn, hctx⟩ := valid_split (c1 ++ .right a c k v l :: ctx)
    (.node rc rcc rk rv .nil rr) n0 (by rw [hTB]; exact hv0) (by rw [hTB]; exact hinv.2.1)
  have hTentB : T.entries = (entries_before ctx ++ l.entries) ++
      (a, k, v) :: (rc, rk, rv) :: (rr.entries ++ (entries_after c1 ++ entries_after ctx)) := by
    rw [← hTB, entries_spine _ _ _ _ _ _ _ _ hl]
    simp [rbt.entries]
  have hlenB : (c1 ++ frame.right a c k v l :: ctx).length < fuel := by
    have := ctx_length_lt (c1 ++ .right a c k v l :: ctx) rc rcc rk rv .nil rr
    rw [hTB] at this
    omega
  -- the branch that swaps the keys
  obtain ⟨LS, AS⟩ := swap_keys_spec (set_key t leaf k) ctx c1 a c k v l rc rcc rk rv rr hlayB
  have hcentS : (plug (c1 ++ .right a c rk v l :: ctx) rr).entries =
      (entries_before ctx ++ l.entries) ++
        ((a, rk, v) :: (rr.entries ++ (entries_after c1 ++ entries_after ctx))) := by
    rw [entries_spine _ _ _ _ _ _ _ _ hl]
  have hlenS : (c1 ++ frame.right a c rk v l :: ctx).length < fuel := by
    simp only [List.length_append, List.length_cons] at hlenB ⊢
    exact hlenB
  obtain ⟨dkS, dxS⟩ := dec_of_entries_swap T (plug (c1 ++ .right a c rk v l :: ctx) rr) _ _
    a rc k rk v rv hTentB hcentS
  obtain ⟨t1, eS, s1, s2, s3, s4⟩ := remove_finish_fixed (set_key t leaf k)
    (remove_node.swap_keys (set_key t leaf k) a rc) T k (c1 ++ .right a c rk v l :: ctx)
    rc rcc k rv .nil rr rr n fuel h0 LS (Or.inl ⟨rfl, rfl⟩) AS hvn
    (ctx_ok_swap c1 ctx (.right a c k v l) (.right a c rk v l) rfl rfl rcc n hctx) hlenS dkS dxS
  -- the branch that relinks the successor
  obtain ⟨LR, AR⟩ := replace_spec (set_key t leaf k) ctx c1 a c k v l rc rcc rk rv rr hlayB
    hl hln
  have hcentR : (plug (c1 ++ .right rc c rk rv l :: ctx) rr).entries =
      (entries_before ctx ++ l.entries) ++
        ((rc, rk, rv) :: (rr.entries ++ (entries_after c1 ++ entries_after ctx))) := by
    rw [entries_spine _ _ _ _ _ _ _ _ hl]
  have hlenR : (c1 ++ frame.right rc c rk rv l :: ctx).length < fuel := by
    simp only [List.length_append, List.length_cons] at hlenB ⊢
    exact hlenB
  obtain ⟨dkR, dxR⟩ := dec_of_entries T (plug (c1 ++ .right rc c rk rv l :: ctx) rr) _ _
    a k v hTentB hcentR
  obtain ⟨t2, eR, r1, r2, r3, r4⟩ := remove_finish_fixed (set_key t leaf k)
    (remove_node.replace (set_key t leaf k) a rc) T k (c1 ++ .right rc c rk rv l :: ctx)
    a rcc k v .nil rr rr n fuel h0 LR (Or.inl ⟨rfl, rfl⟩) AR hvn
    (ctx_ok_swap c1 ctx (.right a c k v l) (.right rc c rk rv l) rfl rfl rcc n hctx) hlenR dkR dxR
  refine ⟨c1, rc, rcc, rk, rv, rr, t1, t2, rfl, ?_, ?_, s1, r1, hTentB, s2.trans hcentS,
    r2.trans hcentR, s4, r4, s3, r3⟩
  · rw [remove_node, hfind]
    simp only [ptr_node, F.ne_leaf, if_false, F.ne_null, ne_eq, not_false_eq_true, if_true]
    rw [if_pos hcond, F.right, hml]
    simp only [Bool.false_eq_true, if_false]
    exact eS
  · rw [remove_node, hfind]
    simp only [ptr_node, F.ne_leaf, if_false, F.ne_null, ne_eq, not_false_eq_true, if_true]
    rw [if_pos hcond, F.right, hml]
    simp only [if_true]
    exact eR

end rb_tree

namespace rb_tree

theorem two_children_allocator_ok :
    fixed_alloc.allocator_ok two_children_tree.allocator := by
  refine ⟨by decide, ?_, ⟨rfl, ?_⟩, trivial⟩
  · rfl
  · intro ch hch
    simp only [List.mem_singleton] at hch
    subst hch
    decide

theorem two_children_live (j : Nat) (hj : j < 3) :
    fixed_alloc.is_live two_children_tree.allocator (5 + j) := by
  refine ⟨_, List.mem_singleton.2 rfl, 0, by decide, j, ?_, ?_, ⟨7⟩, rfl, ?_⟩
  · simp only [fixed_alloc.CHUNK_NUM_BITS]; omega
  · simp only [fixed_alloc.arr_addr, fixed_alloc.chunk_addr, fixed_alloc.OFFSETOF_CHUNKS]
    omega
  · interval_cases j <;> decide

theorem two_children_is_rb_tree : is_rb_tree two_children_tree two_children_rbt := by
  refine ⟨⟨?_, ?_⟩, ⟨?_, rfl, ?_, ?_, 2, ?_⟩, ⟨rfl, rfl, rfl⟩,
    two_children_allocator_ok, ?_, rfl⟩
  · exact ⟨rfl, by decide, by decide, rfl, rfl, rfl, rfl,
      ⟨rfl, by decide, by decide, rfl, rfl, rfl, rfl, rfl, rfl⟩,
      ⟨rfl, by decide, by decide, rfl, rfl, rfl, rfl, rfl, rfl⟩⟩
  · simp [two_children_rbt, rbt.addrs]
  · simp [two_children_rbt, bst, rbt.keys]
  · simp [two_children_rbt, colored]
  · simp [two_children_rbt, no_red_red, RB_TREE_BLACK, RB_TREE_RED]
  · simp [two_children_rbt, black_counts, RB_TREE_BLACK]
  · intro p hp
    simp only [two_children_rbt, rbt.addrs, List.nil_append, List.mem_append, List.mem_cons,
      List.mem_singleton, List.not_mem_nil, or_false, List.append_nil] at hp
    rcases hp with rfl | rfl | rfl
    · exact two_children_live 1 (by decide)
    · exact two_children_live 0 (by decide)
    · exact two_children_live 2 (by decide)

/-- What the two branches of `remove_node` make of `two_children_tree` when
the key 20 of its root goes: the root holds the key 30 and has the red node of
the key 10 as its only child.  The branch that swaps the keys keeps the node
at address 5 as the root, the branch that relinks makes the node at address 7
the root. -/
theorem two_children_removed :
    (remove_node false 4 two_children_tree 20).map (fun r =>
      (r.1.root, (r.1.mem r.1.root).key, (r.1.mem r.1.root).color, (r.1.mem r.1.root).left,
        (r.1.mem r.1.root).right, (r.1.mem 6).key, (r.1.mem 6).color, r.1.count, r.2)) =
      some (5, 30, RB_TREE_BLACK, 6, leaf, 10, RB_TREE_RED, 2, true) ∧
    (remove_node true 4 two_children_tree 20).map (fun r =>
      (r.1.root, (r.1.mem r.1.root).key, (r.1.mem r.1.root).color, (r.1.mem r.1.root).left,
        (r.1.mem r.1.root).right, (r.1.mem 6).key, (r.1.mem 6).color, r.1.count, r.2)) =
      some (7, 30, RB_TREE_BLACK, 6, leaf, 10, RB_TREE_RED, 2, true) :=
  ⟨rfl, rfl⟩

end rb_tree

/-- C32: in a well-formed red-black tree, for a key whose node `p` has two
real children, `remove_node` returns true in both of its branches, the one that
swaps the keys and the one that relinks the successor, and both leave a
well-formed tree; the two trees have the same shape, that is the same colour
and the same key at every position.  They differ in the node at the position
of the removed key, which is `p` after the swap and the successor `rc` after
the relink, and in the slot that is freed, which is `rc` after the swap and
`p` after the relink. -/
theorem C32_rb_deletion_strategies_same_shape {α β : Type} [LinearOrder α] {N : Nat}
    (t t0 : rb_tree.tree α β N) (T : rb_tree.rbt α β) (key : α) (p fuel : Nat)
    (h : rb_tree.is_rb_tree t T) (hf : t.count < fuel)
    (hfind : rb_tree.find_node fuel t key = some (t0, p)) (hp : p ≠ NULL)
    (hl : (t0.mem p).left ≠ rb_tree.leaf) (hr : (t0.mem p).right ≠ rb_tree.leaf) :
    ∃ (t1 : rb_tree.tree α β N) (T1 : rb_tree.rbt α β) (t2 : rb_tree.tree α β N)
      (T2 : rb_tree.rbt α β) (rc : Nat),
      rb_tree.remove_node false fuel t key = some (t1, true) ∧
      rb_tree.remove_node true fuel t key = some (t2, true) ∧
      rb_tree.is_rb_tree t1 T1 ∧ rb_tree.is_rb_tree t2 T2 ∧
      T1.shape = T2.shape ∧
      (∃ EA EB v rk rv, T.entries = EA ++ (p, key, v) :: (rc, rk, rv) :: EB ∧
        T1.entries = EA ++ (p, rk, v) :: EB ∧ T2.entries = EA ++ (rc, rk, rv) :: EB) ∧
      (∀ q, fixed_alloc.is_live t1.allocator q ↔ q ≠ rc ∧ fixed_alloc.is_live t.allocator q) ∧
      (∀ q, fixed_alloc.is_live t2.allocator q ↔ q ≠ p ∧ fixed_alloc.is_live t.allocator q) := by
  have hfd := rb_tree.find_node_descend t T key fuel h.1 (by have := h.2.2.2.2.2; omega)
  rcases hdes : rb_tree.descend key [] T with ⟨ctx, s⟩
  rw [hdes, hfind] at hfd
  simp only [Option.some.injEq, Prod.mk.injEq] at hfd
  obtain ⟨ht0, hps⟩ := hfd
  subst ht0
  cases s with
  | nil => exact absurd (by simpa using hps) hp
  | node a c k v l r =>
    have hplug := rb_tree.descend_plug key T ([] : List (rb_tree.frame α β))
    rw [hdes] at hplug
    simp only [rb_tree.plug] at hplug
    have hlay0 : rb_tree.layout (rb_tree.set_key t rb_tree.leaf key)
        (rb_tree.plug ctx (.node a c k v l r)) := by
      rw [hplug]; exact (rb_tree.set_key_leaf_ok t T key h).1
    have F := rb_tree.layout_focus _ ctx a c k v l r hlay0
    have hpa : p = a := by
      rw [rb_tree.ptr_node, if_neg F.ne_leaf] at hps
      exact hps
    subst hpa
    have hln : l ≠ .nil := by
      rintro rfl
      exact hl F.left
    have hrn : r ≠ .nil := by
      rintro rfl
      exact hr F.right
    obtain ⟨c1, rc, rcc, rk, rv, rr, t1, t2, _, e1, e2, w1, w2, n0, n1, n2, v1, v2, _, _⟩ :=
      rb_tree.remove_two_children t T key fuel ctx p c k v l r h hf hdes hln hrn
    refine ⟨t1, _, t2, _, rc, e1, e2, w1, w2, ?_, ⟨_, _, v, rk, rv, n0, n1, n2⟩, v1, v2⟩
    rw [rb_tree.shape_tree, rb_tree.shape_tree,
      rb_tree.shape_spine c1 ctx p rc c rk v rv l]

theorem C32_rb_deletion_strategies_same_shape_witness :
    rb_tree.is_rb_tree rb_tree.two_children_tree rb_tree.two_children_rbt ∧
    rb_tree.find_node 4 rb_tree.two_children_tree 20 =
      some (rb_tree.set_key rb_tree.two_children_tree rb_tree.leaf 20, 5) ∧
    ∃ (t1 : rb_tree.tree Int Unit 1) (T1 : rb_tree.rbt Int Unit) (t2 : rb_tree.tree Int Unit 1)
      (T2 : rb_tree.rbt Int Unit) (rc : Nat),
      rb_tree.remove_node false 4 rb_tree.two_children_tree 20 = some (t1, true) ∧
      rb_tree.remove_node true 4 rb_tree.two_children_tree 20 = some (t2, true) ∧
      rb_tree.is_rb_tree t1 T1 ∧ rb_tree.is_rb_tree t2 T2 ∧
      T1.shape = T2.shape ∧
      (∃ EA EB v rk rv,
        rb_tree.two_children_rbt.entries = EA ++ (5, 20, v) :: (rc, rk, rv) :: EB ∧
        T1.entries = EA ++ (5, rk, v) :: EB ∧ T2.entries = EA ++ (rc, rk, rv) :: EB) ∧
      (∀ q, fixed_alloc.is_live t1.allocator q ↔
        q ≠ rc ∧ fixed_alloc.is_live rb_tree.two_children_tree.allocator q) ∧
      (∀ q, fixed_alloc.is_live t2.allocator q ↔
        q ≠ 5 ∧ fixed_alloc.is_live rb_tree.two_children_tree.allocator q) :=
  ⟨rb_tree.two_children_is_rb_tree, rfl,
    C32_rb_deletion_strategies_same_shape rb_tree.two_children_tree
      (rb_tree.set_key rb_tree.two_children_tree rb_tree.leaf 20) rb_tree.two_children_rbt 20 5 4
      rb_tree.two_children_is_rb_tree (by decide) rfl (by decide) (by decide) (by decide)⟩

/-! ## Trees with several nodes -/

namespace fixed_alloc

theorem one_chunk_ok (mask : Nat) (h : mask < 2 ^ CHUNK_NUM_BITS) :
    allocator_ok (one_chunk_allocator mask) := by
  refine ⟨by decide, ?_, ⟨rfl, ?_⟩, trivial⟩
  · rfl
  · intro ch hch
    simp only [List.mem_singleton] at hch
    subst hch
    exact h

theorem one_chunk_live (mask j : Nat) (hj : j < CHUNK_NUM_BITS)
    (hb : mask.testBit j = true) : is_live (one_chunk_allocator mask) (5 + j) := by
  refine ⟨_, List.mem_singleton.2 rfl, 0, by decide, j, hj, ?_, ⟨mask⟩, rfl, hb⟩
  simp only [arr_addr, chunk_addr, OFFSETOF_CHUNKS]
  omega

end fixed_alloc

namespace rb_tree

variable {β : Type}

theorem red_nephews_is_rb_tree (v : Int → β) :
    is_rb_tree (red_nephews_tree v) (red_nephews_rbt v) := by
  refine ⟨⟨?_, ?_⟩, ⟨?_, rfl, ?_, ?_, 2, ?_⟩, ⟨rfl, rfl, rfl⟩,
    fixed_alloc.one_chunk_ok 31 (by decide), ?_, rfl⟩
  · exact ⟨rfl, by decide, by decide, rfl, rfl, rfl, rfl,
      ⟨rfl, by decide, by decide, rfl, rfl, rfl, rfl,
        ⟨rfl, by decide, by decide, rfl, rfl, rfl, rfl, rfl, rfl⟩,
        ⟨rfl, by decide, by decide, rfl, rfl, rfl, rfl, rfl, rfl⟩⟩,
      ⟨rfl, by decide, by decide, rfl, rfl, rfl, rfl, rfl, rfl⟩⟩
  · simp [red_nephews_rbt, rbt.addrs]
  · simp [red_nephews_rbt, bst, rbt.keys]
  · simp [red_nephews_rbt, colored]
  · simp [red_nephews_rbt, no_red_red, rbt.color, RB_TREE_BLACK, RB_TREE_RED]
  · simp [red_nephews_rbt, black_counts, RB_TREE_BLACK, RB_TREE_RED]
  · intro p hp
    simp only [red_nephews_rbt, rbt.addrs, List.nil_append, List.mem_append, List.mem_cons,
      List.mem_singleton, List.not_mem_nil, or_false, List.append_nil] at hp
    rcases hp with (rfl | rfl | rfl) | rfl | rfl
    · exact fixed_alloc.one_chunk_live 31 3 (by decide) (by decide)
    · exact fixed_alloc.one_chunk_live 31 1 (by decide) (by decide)
    · exact fixed_alloc.one_chunk_live 31 4 (by decide) (by decide)
    · exact fixed_alloc.one_chunk_live 31 0 (by decide) (by decide)
    · exact fixed_alloc.one_chunk_live 31 2 (by decide) (by decide)

theorem deep_successor_is_rb_tree (v : Int → β) :
    is_rb_tree (deep_successor_tree v) (deep_successor_rbt v) := by
  refine ⟨⟨?_, ?_⟩, ⟨?_, rfl, ?_, ?_, 2, ?_⟩, ⟨rfl, rfl, rfl⟩,
    fixed_alloc.one_chunk_ok 15 (by decide), ?_, rfl⟩
  · exact ⟨rfl, by decide, by decide, rfl, rfl, rfl, rfl,
      ⟨rfl, by decide, by decide, rfl, rfl, rfl, rfl, rfl, rfl⟩,
      ⟨rfl, by decide, by decide, rfl, rfl, rfl, rfl,
        ⟨rfl, by decide, by decide, rfl, rfl, rfl, rfl, rfl, rfl⟩, rfl⟩⟩
  · simp [deep_successor_rbt, rbt.addrs]
  · simp [deep_successor_rbt, bst, rbt.keys]
  · simp [deep_successor_rbt, colored]
  · simp [deep_successor_rbt, no_red_red, rbt.color, RB_TREE_BLACK, RB_TREE_RED]
  · simp [deep_successor_rbt, black_counts, RB_TREE_BLACK, RB_TREE_RED]
  · intro p hp
    simp only [deep_successor_rbt, rbt.addrs, List.nil_append, List.mem_append, List.mem_cons,
      List.mem_singleton, List.not_mem_nil, or_false, List.append_nil] at hp
    rcases hp with rfl | rfl | rfl | rfl
    · exact fixed_alloc.one_chunk_live 15 1 (by decide) (by decide)
    · exact fixed_alloc.one_chunk_live 15 0 (by decide) (by decide)
    · exact fixed_alloc.one_chunk_live 15 3 (by decide) (by decide)
    · exact fixed_alloc.one_chunk_live 15 2 (by decide) (by decide)

end rb_tree

namespace rb_tree

theorem scenario_is_rb_tree : is_rb_tree scenario_tree scenario_rbt := by
  refine ⟨⟨?_, ?_⟩, ⟨?_, rfl, ?_, ?_, 2, ?_⟩, ⟨rfl, rfl, rfl⟩,
    fixed_alloc.one_chunk_ok 31 (by decide), ?_, rfl⟩
  · exact ⟨rfl, by decide, by decide, rfl, rfl, rfl, rfl,
      ⟨rfl, by decide, by decide, rfl, rfl, rfl, rfl, rfl,
        ⟨rfl, by decide, by decide, rfl, rfl, rfl, rfl, rfl, rfl⟩⟩,
      ⟨rfl, by decide, by decide, rfl, rfl, rfl, rfl, rfl,
        ⟨rfl, by decide, by decide, rfl, rfl, rfl, rfl, rfl, rfl⟩⟩⟩
  · simp [scenario_rbt, rbt.addrs]
  · simp [scenario_rbt, bst, rbt.keys]
  · simp [scenario_rbt, colored]
  · simp [scenario_rbt, no_red_red, rbt.color, RB_TREE_BLACK, RB_TREE_RED]
  · simp [scenario_rbt, black_counts, RB_TREE_BLACK, RB_TREE_RED]
  · intro p hp
    simp only [scenario_rbt, rbt.addrs, List.nil_append, List.mem_append, List.mem_cons,
      List.mem_singleton, List.not_mem_nil, or_false, List.append_nil] at hp
    rcases hp with (rfl | rfl) | rfl | rfl | rfl
    · exact fixed_alloc.one_chunk_live 31 0 (by decide) (by decide)
    · exact fixed_alloc.one_chunk_live 31 3 (by decide) (by decide)
    · exact fixed_alloc.one_chunk_live 31 2 (by decide) (by decide)
    · exact fixed_alloc.one_chunk_live 31 1 (by decide) (by decide)
    · exact fixed_alloc.one_chunk_live 31 4 (by decide) (by decide)

/-- The insertions of the scenario build `scenario_tree`: the root link, the
count, the mask of the allocator and the nodes are those of `scenario_tree`. -/
theorem scenario_built :
    (run true 6 [tree_op.add (10 : Int), .add 40, .add 30, .add 20, .add 50]
      (init_tree example_tree)).map snapshot = some (snapshot scenario_tree) := by
  decide!

theorem red_uncle_layout :
    layout red_uncle_tree (plug red_uncle_path (.node 8 RB_TREE_RED 5 () .nil .nil)) := by
  refine ⟨⟨rfl, by decide, by decide, rfl, rfl, rfl, rfl,
    ⟨rfl, by decide, by decide, rfl, rfl, rfl, rfl,
      ⟨rfl, by decide, by decide, rfl, rfl, rfl, rfl, rfl, rfl⟩, rfl⟩,
    ⟨rfl, by decide, by decide, rfl, rfl, rfl, rfl, rfl, rfl⟩⟩, ?_⟩
  simp [red_uncle_path, plug, frame.fill, rbt.addrs]

theorem red_uncle_ctx_ok : ctx_ok red_uncle_path RB_TREE_BLACK 0 :=
  Or.inl ⟨rfl, rfl, rfl, rfl,
    Or.inr ⟨rfl, Or.inl ⟨rfl, rfl, rfl, rfl, rfl⟩, rfl⟩⟩

theorem red_parent_layout :
    layout red_parent_tree (plug red_parent_path (.node 9 RB_TREE_RED 25 () .nil .nil)) := by
  refine ⟨⟨rfl, by decide, by decide, rfl, rfl, rfl, rfl,
    ⟨rfl, by decide, by decide, rfl, rfl, rfl, rfl, rfl, rfl⟩,
    ⟨rfl, by decide, by decide, rfl, rfl, rfl, rfl,
      ⟨rfl, by decide, by decide, rfl, rfl, rfl, rfl,
        ⟨rfl, by decide, by decide, rfl, rfl, rfl, rfl, rfl, rfl⟩, rfl⟩, rfl⟩⟩, ?_⟩
  simp [red_parent_path, plug, frame.fill, rbt.addrs]

theorem red_parent_ctx_ok : ctx_ok red_parent_path RB_TREE_BLACK 0 :=
  Or.inl ⟨rfl, rfl, rfl, rfl,
    Or.inr ⟨rfl, rfl, Or.inr ⟨rfl, Or.inr ⟨rfl, 0, rfl, rfl, rfl⟩, rfl⟩⟩⟩

theorem short_right_layout : layout short_right_tree (plug short_right_path .nil) := by
  refine ⟨⟨rfl, by decide, by decide, rfl, rfl, rfl, rfl,
    ⟨rfl, by decide, by decide, rfl, rfl, rfl, rfl, rfl, rfl⟩, rfl⟩, ?_⟩
  simp [short_right_path, plug, frame.fill, rbt.addrs]

theorem short_right_ctx_ok : ctx_ok short_right_path RB_TREE_BLACK (0 + 1) :=
  Or.inr ⟨rfl, Or.inr ⟨rfl, 0, rfl, rfl, rfl⟩, rfl⟩

theorem short_right_nephews_layout :
    layout short_right_nephews_tree (plug short_right_nephews_path .nil) := by
  refine ⟨⟨rfl, by decide, by decide, rfl, rfl, rfl, rfl,
    ⟨rfl, by decide, by decide, rfl, rfl, rfl, rfl,
      ⟨rfl, by decide, by decide, rfl, rfl, rfl, rfl, rfl, rfl⟩,
      ⟨rfl, by decide, by decide, rfl, rfl, rfl, rfl, rfl, rfl⟩⟩, rfl⟩, ?_⟩
  simp [short_right_nephews_path, plug, frame.fill, rbt.addrs]

theorem short_right_nephews_ctx_ok : ctx_ok short_right_nephews_path RB_TREE_BLACK (0 + 1) :=
  Or.inr ⟨rfl, Or.inr ⟨rfl, 0, rfl, Or.inl ⟨rfl, rfl, rfl, rfl, rfl⟩,
    Or.inl ⟨rfl, rfl, rfl, rfl, rfl⟩⟩, rfl⟩

end rb_tree

namespace avl_tree

theorem five_slots_live (p : Nat) (hp : p = 5 ∨ p = 6 ∨ p = 7 ∨ p = 8 ∨ p = 9) :
    fixed_alloc.is_live (fixed_alloc.one_chunk_allocator 31) p := by
  rcases hp with rfl | rfl | rfl | rfl | rfl
  · exact fixed_alloc.one_chunk_live 31 0 (by decide) (by decide)
  · exact fixed_alloc.one_chunk_live 31 1 (by decide) (by decide)
  · exact fixed_alloc.one_chunk_live 31 2 (by decide) (by decide)
  · exact fixed_alloc.one_chunk_live 31 3 (by decide) (by decide)
  · exact fixed_alloc.one_chunk_live 31 4 (by decide) (by decide)

theorem scenario_storage_ok : storage_ok scenario_tree := by
  refine ⟨fixed_alloc.one_chunk_ok 31 (by decide), by simp [scenario_tree, addrs], ?_⟩
  intro p hp
  simp only [scenario_tree, addrs, List.nil_append, List.mem_append, List.mem_cons,
    List.mem_singleton, List.not_mem_nil, or_false, List.append_nil] at hp
  exact five_slots_live p (by omega)

theorem scenario_bst : bst scenario_tree.root := by
  simp [scenario_tree, bst, keys]

theorem scenario_balanced : balanced scenario_tree.root := by
  simp [scenario_tree, balanced, internal_get_tree_height]

/-- The insertions of the scenario build `scenario_tree`. -/
theorem avl_scenario_built :
    run [tree_op.add (10 : Int), .add 40, .add 30, .add 20, .add 50] (init_tree example_tree) =
      some scenario_tree := rfl

theorem rotation_storage_ok : storage_ok rotation_tree := by
  refine ⟨fixed_alloc.one_chunk_ok 31 (by decide), by simp [rotation_tree, addrs], ?_⟩
  intro p hp
  simp only [rotation_tree, addrs, List.nil_append, List.mem_append, List.mem_cons,
    List.mem_singleton, List.not_mem_nil, or_false, List.append_nil] at hp
  exact five_slots_live p (by omega)

theorem rotation_bst : bst rotation_tree.root := by
  simp [rotation_tree, bst, keys]

theorem rotation_balanced : balanced rotation_tree.root := by
  simp [rotation_tree, balanced, internal_get_tree_height]

end avl_tree

/-! ## Removal and the fix-up loops on trees with several nodes -/

/-- C2 on two trees of five nodes.  In `rotation_tree` the key 20 of the root
goes: the root has two children, the node 10, the rightmost node of its left
subtree, takes its place, the left subtree is then empty and
`internal_balance_left` rotates, so that 40 becomes the root.  In
`scenario_tree` the key 30 of the root goes: the node 20, the rightmost node
of the left subtree, becomes the root, and the slot of the old root, at
address 7, is freed. -/
theorem C2_avl_remove_preserves_invariants_witness :
    (avl_tree.storage_ok avl_tree.rotation_tree ∧ avl_tree.bst avl_tree.rotation_tree.root ∧
      avl_tree.balanced avl_tree.rotation_tree.root ∧
      avl_tree.remove_node avl_tree.rotation_tree 20 =
        some ({ allocator := fixed_alloc.one_chunk_allocator 30
                root := .mk 7 40 (-1) (.mk 6 10 1 .sentinel (.mk 8 30 0 .sentinel .sentinel))
                  (.mk 9 50 0 .sentinel .sentinel)
                sentinel := 0
                count := 4 }, true) ∧
      ∃ t1 found, avl_tree.remove_node avl_tree.rotation_tree 20 = some (t1, found) ∧
        avl_tree.bst t1.root ∧ avl_tree.balanced t1.root ∧ avl_tree.storage_ok t1) ∧
    (avl_tree.storage_ok avl_tree.scenario_tree ∧ avl_tree.bst avl_tree.scenario_tree.root ∧
      avl_tree.balanced avl_tree.scenario_tree.root ∧
      avl_tree.remove_node avl_tree.scenario_tree 30 =
        some ({ allocator := fixed_alloc.one_chunk_allocator 27
                root := .mk 8 20 1 (.mk 5 10 0 .sentinel .sentinel)
                  (.mk 6 40 1 .sentinel (.mk 9 50 0 .sentinel .sentinel))
                sentinel := 0
                count := 4 }, true) ∧
      ∃ t1 found, avl_tree.remove_node avl_tree.scenario_tree 30 = some (t1, found) ∧
        avl_tree.bst t1.root ∧ avl_tree.balanced t1.root ∧ avl_tree.storage_ok t1) :=
  ⟨⟨avl_tree.rotation_storage_ok, avl_tree.rotation_bst, avl_tree.rotation_balanced, rfl,
      C2_avl_remove_preserves_invariants avl_tree.rotation_tree 20 avl_tree.rotation_storage_ok
        avl_tree.rotation_bst avl_tree.rotation_balanced⟩,
    ⟨avl_tree.scenario_storage_ok, avl_tree.scenario_bst, avl_tree.scenario_balanced, rfl,
      C2_avl_remove_preserves_invariants avl_tree.scenario_tree 30 avl_tree.scenario_storage_ok
        avl_tree.scenario_bst avl_tree.scenario_balanced⟩⟩

/-- C4 on `red_nephews_tree`, without values: the key 20 of the root goes.
The root has two children, so the key 30 of its successor is moved into the
root node, at address 5, and the successor node, at address 7, is taken out;
it is black, its sibling 10 is black with two red children, and the fix-up
ends with a rotation that makes the node 10, at address 6, the root.  A row of
the snapshot is the key, the colour (1 is black), the left, right and parent
link of a node; the first two rows are the root link with the count and the
mask of the allocator. -/
theorem C4_rb_remove_key_only_preserves_invariants_witness :
    rb_tree.is_rb_tree (rb_tree.red_nephews_tree (fun _ => ()))
      (rb_tree.red_nephews_rbt (fun _ => ())) ∧
    (rb_tree.red_nephews_tree (fun _ => ())).count < 6 ∧
    (rb_tree.remove_node false 6 (rb_tree.red_nephews_tree (fun _ => ())) 20).map
        (fun r => (rb_tree.snapshot r.1, r.2)) =
      some ([[6, 4], [27], [30, 1, 9, 1, 6], [10, 1, 8, 5, 0], [20, 1, 1, 1, 5], [5, 1, 1, 1, 6],
        [15, 0, 1, 1, 5], [0, 1, 1, 1, 0]], true) ∧
    ∃ t1 T1 found,
      rb_tree.remove_node false 6 (rb_tree.red_nephews_tree (fun _ => ())) 20 =
        some (t1, found) ∧
      rb_tree.layout t1 T1 ∧ rb_tree.rb_invariants T1 ∧ rb_tree.is_rb_tree t1 T1 :=
  ⟨rb_tree.red_nephews_is_rb_tree _, by decide, by decide!,
    C4_rb_remove_key_only_preserves_invariants (rb_tree.red_nephews_tree (fun _ => ()))
      (rb_tree.red_nephews_rbt (fun _ => ())) 20 6 (rb_tree.red_nephews_is_rb_tree _)
      (by decide)⟩

/-- C5 on two trees whose node with the key `k` holds the value `10 * k`; the
key 20 of the root goes.  In `red_nephews_tree` the successor 30 is the right
child of the root: its node, at address 7, is linked into the place of the
root, the node at address 5 is taken out, and the fix-up rotates.  In
`deep_successor_tree` the successor 30 is the left child of the right child:
its node, at address 8, becomes the root.  The nodes that stay keep their
keys and values. -/
theorem C5_rb_remove_relink_preserves_invariants_witness :
    (rb_tree.is_rb_tree (rb_tree.red_nephews_tree (fun k => 10 * k))
        (rb_tree.red_nephews_rbt (fun k => 10 * k)) ∧
      (rb_tree.red_nephews_tree (fun k => 10 * k)).count < 6 ∧
      (rb_tree.remove_node true 6 (rb_tree.red_nephews_tree (fun k => 10 * k)) 20).map
          (fun r => (rb_tree.snapshot r.1, [6, 7, 8, 9].map (fun p => (r.1.mem p).value), r.2)) =
        some ([[6, 4], [30], [20, 1, 1, 1, 7], [10, 1, 8, 7, 0], [30, 1, 9, 1, 6],
          [5, 1, 1, 1, 6], [15, 0, 1, 1, 7], [0, 1, 1, 1, 0]], [100, 300, 50, 150], true) ∧
      ∃ t1 T1 found,
        rb_tree.remove_node true 6 (rb_tree.red_nephews_tree (fun k => 10 * k)) 20 =
          some (t1, found) ∧
        rb_tree.layout t1 T1 ∧ rb_tree.rb_invariants T1 ∧ rb_tree.is_rb_tree t1 T1 ∧
        ((20 : Int) ∈ (rb_tree.red_nephews_rbt (fun k => 10 * k)).keys →
          ∃ EA EB e, (rb_tree.red_nephews_rbt (fun k => 10 * k)).entries = EA ++ e :: EB ∧
            T1.entries = EA ++ EB)) ∧
    (rb_tree.is_rb_tree (rb_tree.deep_successor_tree (fun k => 10 * k))
        (rb_tree.deep_successor_rbt (fun k => 10 * k)) ∧
      (rb_tree.deep_successor_tree (fun k => 10 * k)).count < 5 ∧
      (rb_tree.remove_node true 5 (rb_tree.deep_successor_tree (fun k => 10 * k)) 20).map
          (fun r => (rb_tree.snapshot r.1, [6, 7, 8].map (fun p => (r.1.mem p).value), r.2)) =
        some ([[8, 3], [14], [20, 0, 1, 1, 7], [10, 1, 1, 1, 8], [40, 1, 1, 1, 8],
          [30, 1, 6, 7, 0], [0, 1, 1, 1, 0], [0, 1, 1, 1, 0]], [100, 400, 300], true) ∧
      ∃ t1 T1 found,
        rb_tree.remove_node true 5 (rb_tree.deep_successor_tree (fun k => 10 * k)) 20 =
          some (t1, found) ∧
        rb_tree.layout t1 T1 ∧ rb_tree.rb_invariants T1 ∧ rb_tree.is_rb_tree t1 T1 ∧
        ((20 : Int) ∈ (rb_tree.deep_successor_rbt (fun k => 10 * k)).keys →
          ∃ EA EB e, (rb_tree.deep_successor_rbt (fun k => 10 * k)).entries = EA ++ e :: EB ∧
            T1.entries = EA ++ EB)) :=
  ⟨⟨rb_tree.red_nephews_is_rb_tree _, by decide, by decide!,
      C5_rb_remove_relink_preserves_invariants (rb_tree.red_nephews_tree (fun k => 10 * k))
        (rb_tree.red_nephews_rbt (fun k => 10 * k)) 20 6 (rb_tree.red_nephews_is_rb_tree _)
        (by decide)⟩,
    ⟨rb_tree.deep_successor_is_rb_tree _, by decide, by decide!,
      C5_rb_remove_relink_preserves_invariants (rb_tree.deep_successor_tree (fun k => 10 * k))
        (rb_tree.deep_successor_rbt (fun k => 10 * k)) 20 5
        (rb_tree.deep_successor_is_rb_tree _) (by decide)⟩⟩

/-- C8 on the scenario of the claim: the keys 10, 40, 30, 20 and 50 are
inserted, which builds `scenario_tree` in both engines, and 30 is removed;
afterwards 10, 20, 40 and 50 are found and 30 is not. -/
theorem C8_remove_deletes_exactly_the_key_witness :
    avl_tree.run [tree_op.add (10 : Int), .add 40, .add 30, .add 20, .add 50]
        (avl_tree.init_tree avl_tree.example_tree) = some avl_tree.scenario_tree ∧
    (rb_tree.run true 6 [tree_op.add (10 : Int), .add 40, .add 30, .add 20, .add 50]
        (rb_tree.init_tree rb_tree.example_tree)).map rb_tree.snapshot =
      some (rb_tree.snapshot rb_tree.scenario_tree) ∧
    avl_tree.storage_ok avl_tree.scenario_tree ∧ avl_tree.bst avl_tree.scenario_tree.root ∧
    avl_tree.balanced avl_tree.scenario_tree.root ∧
    rb_tree.is_rb_tree rb_tree.scenario_tree rb_tree.scenario_rbt ∧
    rb_tree.scenario_tree.count < 6 ∧
    (∃ t1 found, avl_tree.remove_node avl_tree.scenario_tree 30 = some (t1, found) ∧
      (∃ t2, avl_tree.find_node t1 30 = some (t2, NULL)) ∧
      (∀ j, j ≠ 30 →
        (avl_tree.found_by_find t1 j ↔ avl_tree.found_by_find avl_tree.scenario_tree j)) ∧
      avl_tree.found_by_find t1 10 ∧ avl_tree.found_by_find t1 20 ∧
      avl_tree.found_by_find t1 40 ∧ avl_tree.found_by_find t1 50 ∧
      ¬ avl_tree.found_by_find t1 30) ∧
    (∃ t1 found, rb_tree.remove_node true 6 rb_tree.scenario_tree 30 = some (t1, found) ∧
      (∃ t2, rb_tree.find_node 6 t1 30 = some (t2, NULL)) ∧
      (∀ j, j ≠ 30 →
        (rb_tree.found_by_find 6 t1 j ↔ rb_tree.found_by_find 6 rb_tree.scenario_tree j)) ∧
      rb_tree.found_by_find 6 t1 10 ∧ rb_tree.found_by_find 6 t1 20 ∧
      rb_tree.found_by_find 6 t1 40 ∧ rb_tree.found_by_find 6 t1 50 ∧
      ¬ rb_tree.found_by_find 6 t1 30) := by
  obtain ⟨⟨t1, f1, e1, n1, i1⟩, ⟨t2, f2, e2, n2, i2⟩⟩ :=
    C8_remove_deletes_exactly_the_key avl_tree.scenario_tree rb_tree.scenario_tree
      rb_tree.scenario_rbt 30 true 6 avl_tree.scenario_storage_ok avl_tree.scenario_bst
      avl_tree.scenario_balanced rb_tree.scenario_is_rb_tree (by decide)
  refine ⟨avl_tree.avl_scenario_built, rb_tree.scenario_built, avl_tree.scenario_storage_ok,
    avl_tree.scenario_bst, avl_tree.scenario_balanced, rb_tree.scenario_is_rb_tree, by decide,
    ⟨t1, f1, e1, n1, i1, (i1 10 (by decide)).2 ⟨_, 5, rfl, by decide⟩,
      (i1 20 (by decide)).2 ⟨_, 8, rfl, by decide⟩,
      (i1 40 (by decide)).2 ⟨_, 6, rfl, by decide⟩,
      (i1 50 (by decide)).2 ⟨_, 9, rfl, by decide⟩, ?_⟩,
    ⟨t2, f2, e2, n2, i2, (i2 10 (by decide)).2 ⟨_, 5, rfl, by decide⟩,
      (i2 20 (by decide)).2 ⟨_, 8, rfl, by decide⟩,
      (i2 40 (by decide)).2 ⟨_, 6, rfl, by decide⟩,
      (i2 50 (by decide)).2 ⟨_, 9, rfl, by decide⟩, ?_⟩⟩
  · rintro ⟨t3, r, e, hr⟩
    obtain ⟨t4, e4⟩ := n1
    rw [e4] at e
    simp only [Option.some.injEq, Prod.mk.injEq] at e
    exact hr e.2.symm
  · rintro ⟨t3, r, e, hr⟩
    obtain ⟨t4, e4⟩ := n2
    rw [e4] at e
    simp only [Option.some.injEq, Prod.mk.injEq] at e
    exact hr e.2.symm

/-- C11 on `red_nephews_tree` with the value `10 * k` at the key `k`: the key
20, at address 5, goes; the keys 10, 30, 5 and 15 stay at the addresses 6, 7,
8 and 9 with their values, and the mask of the allocator goes from 31 to 30,
so the slot at address 5 is the one that is freed. -/
theorem C11_rb_remove_keeps_other_nodes_witness :
    rb_tree.is_rb_tree (rb_tree.red_nephews_tree (fun k => 10 * k))
      (rb_tree.red_nephews_rbt (fun k => 10 * k)) ∧
    (rb_tree.red_nephews_tree (fun k => 10 * k)).count < 6 ∧
    (20 : Int) ∈ (rb_tree.red_nephews_rbt (fun k => 10 * k)).keys ∧
    (rb_tree.red_nephews_rbt (fun k => 10 * k)).entries =
      [(8, 5, 50), (6, 10, 100), (9, 15, 150), (5, 20, 200), (7, 30, 300)] ∧
    (rb_tree.remove_node true 6 (rb_tree.red_nephews_tree (fun k => 10 * k)) 20).map
        (fun r => ([6, 7, 8, 9].map (fun p => ((r.1.mem p).key, (r.1.mem p).value)),
          r.1.allocator, r.2)) =
      some ([(10, 100), (30, 300), (5, 50), (15, 150)], fixed_alloc.one_chunk_allocator 30,
        true) ∧
    ∃ t1 T1 p v,
      rb_tree.remove_node true 6 (rb_tree.red_nephews_tree (fun k => 10 * k)) 20 =
        some (t1, true) ∧
      rb_tree.is_rb_tree t1 T1 ∧
      (p, 20, v) ∈ (rb_tree.red_nephews_rbt (fun k => 10 * k)).entries ∧
      (∀ q, fixed_alloc.is_live t1.allocator q ↔
        q ≠ p ∧ fixed_alloc.is_live (rb_tree.red_nephews_tree (fun k => 10 * k)).allocator q) ∧
      ∀ j, j ∈ (rb_tree.red_nephews_rbt (fun k => 10 * k)).keys → j ≠ 20 → ∃ r, r ≠ NULL ∧
        rb_tree.find_node 6 (rb_tree.red_nephews_tree (fun k => 10 * k)) j =
          some (rb_tree.set_key (rb_tree.red_nephews_tree (fun k => 10 * k)) rb_tree.leaf j, r) ∧
        rb_tree.find_node 6 t1 j = some (rb_tree.set_key t1 rb_tree.leaf j, r) ∧
        ((rb_tree.red_nephews_tree (fun k => 10 * k)).mem r).key = j ∧ (t1.mem r).key = j ∧
        (t1.mem r).value = ((rb_tree.red_nephews_tree (fun k => 10 * k)).mem r).value := by
  have hk : (20 : Int) ∈ (rb_tree.red_nephews_rbt (fun k => 10 * k)).keys := by
    simp [rb_tree.red_nephews_rbt, rb_tree.rbt.keys]
  exact ⟨rb_tree.red_nephews_is_rb_tree _, by decide, hk, rfl, rfl,
    C11_rb_remove_keeps_other_nodes (rb_tree.red_nephews_tree (fun k => 10 * k))
      (rb_tree.red_nephews_rbt (fun k => 10 * k)) 20 6 (rb_tree.red_nephews_is_rb_tree _)
      (by decide) hk⟩

/-- C36 on four trees.  In `red_uncle_tree` the loop of
`internal_adjust_tree` starts at depth 2 below a red parent with a red uncle:
it recolours, goes up to the root and paints it black, in two rounds; one unit
of fuel is not enough.  In `short_right_tree` the loop of
`internal_fixup_tree` starts at depth 1 at a black sibling with black
children: it paints the sibling red and stops at the root, in two rounds; one
unit of fuel is not enough.  In `red_parent_tree` the first loop starts at
depth 3 and ends with a rotation; in `short_right_nephews_tree` the second
loop ends with the rotation of case 6. -/
theorem C36_rb_fixup_loops_terminate_witness :
    (rb_tree.layout rb_tree.red_uncle_tree
        (rb_tree.plug rb_tree.red_uncle_path (.node 8 rb_tree.RB_TREE_RED 5 () .nil .nil)) ∧
      rb_tree.valid (.node 8 rb_tree.RB_TREE_RED (5 : Int) () .nil .nil) 0 ∧
      rb_tree.ctx_ok rb_tree.red_uncle_path rb_tree.RB_TREE_BLACK 0 ∧
      rb_tree.leaf_ok rb_tree.red_uncle_tree ∧
      rb_tree.layout rb_tree.short_right_tree
        (rb_tree.plug rb_tree.short_right_path .nil) ∧
      (rb_tree.short_right_tree.mem (rb_tree.rbt.nil : rb_tree.rbt Int Unit).ptr).parent =
        rb_tree.parent_of rb_tree.short_right_path ∧
      rb_tree.valid (rb_tree.rbt.nil : rb_tree.rbt Int Unit) 0 ∧
      (rb_tree.rbt.nil : rb_tree.rbt Int Unit).color = rb_tree.RB_TREE_BLACK ∧
      rb_tree.ctx_ok rb_tree.short_right_path rb_tree.RB_TREE_BLACK (0 + 1) ∧
      rb_tree.leaf_ok rb_tree.short_right_tree ∧
      rb_tree.red_uncle_path.length = 2 ∧ rb_tree.short_right_path.length = 1 ∧
      (rb_tree.internal_adjust_tree.loop 3 rb_tree.red_uncle_tree 8).map rb_tree.snapshot =
        some [[5, 4], [15], [20, 1, 6, 7, 0], [10, 1, 8, 1, 5], [30, 1, 1, 1, 5],
          [5, 0, 1, 1, 6], [0, 1, 1, 1, 0], [0, 1, 1, 1, 0]] ∧
      rb_tree.internal_adjust_tree.loop 1 rb_tree.red_uncle_tree 8 = none ∧
      (rb_tree.internal_fixup_tree.loop 2 rb_tree.short_right_tree rb_tree.leaf).map
          rb_tree.snapshot =
        some [[5, 2], [3], [20, 1, 6, 1, 0], [10, 0, 1, 1, 5], [0, 1, 1, 1, 0],
          [0, 1, 1, 1, 0], [0, 1, 1, 1, 0], [0, 1, 1, 1, 0]] ∧
      rb_tree.internal_fixup_tree.loop 1 rb_tree.short_right_tree rb_tree.leaf = none ∧
      (∀ fuel, rb_tree.red_uncle_path.length < fuel →
        ∃ t1 T1, rb_tree.internal_adjust_tree.loop fuel rb_tree.red_uncle_tree 8 = some t1 ∧
          rb_tree.layout t1 T1 ∧ T1.color = rb_tree.RB_TREE_BLACK ∧
          T1.entries = (rb_tree.plug rb_tree.red_uncle_path
            (.node 8 rb_tree.RB_TREE_RED 5 () .nil .nil)).entries) ∧
      (∀ fuel, rb_tree.short_right_path.length < fuel →
        ∃ t1 T1, rb_tree.internal_fixup_tree.loop fuel rb_tree.short_right_tree
            (rb_tree.rbt.nil : rb_tree.rbt Int Unit).ptr = some t1 ∧
          rb_tree.layout t1 T1 ∧ T1.color = rb_tree.RB_TREE_BLACK ∧
          T1.entries = (rb_tree.plug rb_tree.short_right_path .nil).entries)) ∧
    (rb_tree.layout rb_tree.red_parent_tree
        (rb_tree.plug rb_tree.red_parent_path (.node 9 rb_tree.RB_TREE_RED 25 () .nil .nil)) ∧
      rb_tree.ctx_ok rb_tree.red_parent_path rb_tree.RB_TREE_BLACK 0 ∧
      rb_tree.leaf_ok rb_tree.red_parent_tree ∧
      rb_tree.layout rb_tree.short_right_nephews_tree
        (rb_tree.plug rb_tree.short_right_nephews_path .nil) ∧
      (rb_tree.short_right_nephews_tree.mem
          (rb_tree.rbt.nil : rb_tree.rbt Int Unit).ptr).parent =
        rb_tree.parent_of rb_tree.short_right_nephews_path ∧
      rb_tree.ctx_ok rb_tree.short_right_nephews_path rb_tree.RB_TREE_BLACK (0 + 1) ∧
      rb_tree.leaf_ok rb_tree.short_right_nephews_tree ∧
      (rb_tree.internal_adjust_tree.loop 4 rb_tree.red_parent_tree 9).map rb_tree.snapshot =
        some [[5, 5], [31], [20, 1, 6, 8, 0], [10, 1, 1, 1, 5], [40, 0, 1, 1, 8],
          [30, 1, 9, 7, 5], [25, 0, 1, 1, 8], [0, 1, 1, 1, 0]] ∧
      (rb_tree.internal_fixup_tree.loop 2 rb_tree.short_right_nephews_tree rb_tree.leaf).map
          rb_tree.snapshot =
        some [[6, 4], [27], [20, 1, 9, 1, 6], [10, 1, 8, 5, 0], [0, 1, 1, 1, 0],
          [5, 1, 1, 1, 6], [15, 0, 1, 1, 5], [0, 1, 1, 1, 0]] ∧
      (∀ fuel, rb_tree.red_parent_path.length < fuel →
        ∃ t1 T1, rb_tree.internal_adjust_tree.loop fuel rb_tree.red_parent_tree 9 = some t1 ∧
          rb_tree.layout t1 T1 ∧ T1.color = rb_tree.RB_TREE_BLACK ∧
          T1.entries = (rb_tree.plug rb_tree.red_parent_path
            (.node 9 rb_tree.RB_TREE_RED 25 () .nil .nil)).entries) ∧
      (∀ fuel, rb_tree.short_right_nephews_path.length < fuel →
        ∃ t1 T1, rb_tree.internal_fixup_tree.loop fuel rb_tree.short_right_nephews_tree
            (rb_tree.rbt.nil : rb_tree.rbt Int Unit).ptr = some t1 ∧
          rb_tree.layout t1 T1 ∧ T1.color = rb_tree.RB_TREE_BLACK ∧
          T1.entries = (rb_tree.plug rb_tree.short_right_nephews_path .nil).entries)) := by
  have v5 : rb_tree.valid (.node 8 rb_tree.RB_TREE_RED (5 : Int) () .nil .nil) 0 :=
    Or.inl ⟨rfl, rfl, rfl, rfl, rfl⟩
  have v25 : rb_tree.valid (.node 9 rb_tree.RB_TREE_RED (25 : Int) () .nil .nil) 0 :=
    Or.inl ⟨rfl, rfl, rfl, rfl, rfl⟩
  have h1 := C36_rb_fixup_loops_terminate rb_tree.red_uncle_tree rb_tree.short_right_tree
    rb_tree.red_uncle_path rb_tree.short_right_path 8 5 () .nil .nil .nil 0 0
    rb_tree.red_uncle_layout v5 rb_tree.red_uncle_ctx_ok ⟨rfl, rfl, rfl⟩
    rb_tree.short_right_layout rfl rfl rfl rb_tree.short_right_ctx_ok ⟨rfl, rfl, rfl⟩
  have h2 := C36_rb_fixup_loops_terminate rb_tree.red_parent_tree
    rb_tree.short_right_nephews_tree rb_tree.red_parent_path rb_tree.short_right_nephews_path
    9 25 () .nil .nil .nil 0 0
    rb_tree.red_parent_layout v25 rb_tree.red_parent_ctx_ok ⟨rfl, rfl, rfl⟩
    rb_tree.short_right_nephews_layout rfl rfl rfl rb_tree.short_right_nephews_ctx_ok
    ⟨rfl, rfl, rfl⟩
  exact ⟨⟨rb_tree.red_uncle_layout, v5, rb_tree.red_uncle_ctx_ok, ⟨rfl, rfl, rfl⟩,
      rb_tree.short_right_layout, rfl, rfl, rfl, rb_tree.short_right_ctx_ok, ⟨rfl, rfl, rfl⟩,
      rfl, rfl, by decide!, rfl, by decide!, rfl, h1.1, h1.2⟩,
    ⟨rb_tree.red_parent_layout, rb_tree.red_parent_ctx_ok, ⟨rfl, rfl, rfl⟩,
      rb_tree.short_right_nephews_layout, rfl, rb_tree.short_right_nephews_ctx_ok,
      ⟨rfl, rfl, rfl⟩, by decide!, by decide!, h2.1, h2.2⟩⟩

/-- C38 on two trees.  Adding 25 to `deep_successor_tree` links a red node
below the red node 30, whose parent 40 is the grandparent the first assertion
asks for; node and parent are left children, and the final rotation makes 30
the parent of 25 and 40.  Removing 30 from `red_nephews_tree` hands a node
without children to `internal_fixup_tree`; the loop starts at the black leaf,
the sibling 10 is black and its child 5, away from the node, is red, so case 6
rotates and 10 becomes the root. -/
theorem C38_rb_fixup_assertions_hold_witness :
    (rb_tree.is_rb_tree (rb_tree.deep_successor_tree (fun _ => ()))
        (rb_tree.deep_successor_rbt (fun _ => ())) ∧
      (rb_tree.deep_successor_tree (fun _ => ())).count < 5 ∧
      (rb_tree.add_node_ext 5 (rb_tree.deep_successor_tree (fun _ => ())) 25).map
          (fun r => (rb_tree.snapshot r.1, r.2)) =
        some ([[5, 5], [31], [20, 1, 6, 8, 0], [10, 1, 1, 1, 5], [40, 0, 1, 1, 8],
          [30, 1, 9, 7, 5], [25, 0, 1, 1, 8], [0, 1, 1, 1, 0]], 9, false) ∧
      ∃ r, rb_tree.add_node_ext 5 (rb_tree.deep_successor_tree (fun _ => ())) 25 = some r) ∧
    (rb_tree.is_rb_tree (rb_tree.red_nephews_tree (fun _ => ()))
        (rb_tree.red_nephews_rbt (fun _ => ())) ∧
      (rb_tree.red_nephews_tree (fun _ => ())).count < 6 ∧
      (rb_tree.remove_node true 6 (rb_tree.red_nephews_tree (fun _ => ())) 30).map
          (fun r => (rb_tree.snapshot r.1, r.2)) =
        some ([[6, 4], [27], [20, 1, 9, 1, 6], [10, 1, 8, 5, 0], [30, 1, 1, 1, 5],
          [5, 1, 1, 1, 6], [15, 0, 1, 1, 5], [0, 1, 1, 1, 0]], true) ∧
      ∃ r, rb_tree.remove_node true 6 (rb_tree.red_nephews_tree (fun _ => ())) 30 = some r) :=
  ⟨⟨rb_tree.deep_successor_is_rb_tree _, by decide, by decide!,
      (C38_rb_fixup_assertions_hold (rb_tree.deep_successor_tree (fun _ => ()))
        (rb_tree.deep_successor_rbt (fun _ => ())) 25 true 5
        (rb_tree.deep_successor_is_rb_tree _) (by decide)).1⟩,
    ⟨rb_tree.red_nephews_is_rb_tree _, by decide, by decide!,
      (C38_rb_fixup_assertions_hold (rb_tree.red_nephews_tree (fun _ => ()))
        (rb_tree.red_nephews_rbt (fun _ => ())) 30 true 6
        (rb_tree.red_nephews_is_rb_tree _) (by decide)).2.1⟩⟩
